import Mathlib

/-!
# Histogram split scoring (`catboost/libs/algo/scoring.cpp`)

A shallow embedding of the composite-index builder, the statistics accumulator and the
score calculator of `scoring.cpp`, and theorems about them.

Conventions of the embedding:

* C++ `int` / `unsigned` arithmetic whose overflow matters (the bucket indexer) is
  modelled on `Int` with explicit wrapping to 32 bits (`toInt`, `toUnsigned`);
* document indices, depths and loop counters that only count upwards from a
  non-negative start are natural numbers;
* `double` / `float` values are exact rationals (`ℚ`), and the arithmetic on them is
  exact; where the rounding of the machine arithmetic matters, the same code is given a
  second time with every sum, difference and conversion rounded (`toDouble`, `toFloat`,
  the definitions with the suffix `Rounded`);
* raw pointers into arrays are lists; every read or write outside the list makes the
  function return `none` (the C++ behaviour is undefined there).
-/

namespace CatBoost

/-! ## Machine integers -/

/-- Value of a C++ `unsigned` (32 bit) after storing the integer `x` in it. -/
def toUnsigned (x : Int) : Int := x % 2 ^ 32

/-- Value of a C++ `int` (32 bit, two's complement) after storing the integer `x` in it. -/
def toInt (x : Int) : Int := (x + 2 ^ 31) % 2 ^ 32 - 2 ^ 31

/-! ## Floating-point numbers -/

/-- Round the non-negative quotient `n / d` to the nearest integer, a tie to the even
one. -/
def roundHalfEven (n d : Nat) : Nat :=
  if 2 * (n % d) < d then n / d
  else if d < 2 * (n % d) then n / d + 1
  else if (n / d) % 2 = 0 then n / d else n / d + 1

/-- The number of binary digits of `n`, found in at most `fuel` halvings (`n` halvings are
always enough). -/
def binaryDigits : Nat → Nat → Nat
  | 0, _ => 0
  | fuel + 1, n => if n = 0 then 0 else binaryDigits fuel (n / 2) + 1

/-- The binary exponent of the positive quotient `n / d`: the integer `e` with
`2 ^ e ≤ n / d < 2 ^ (e + 1)`.  The difference `k` of the digit counts is `e` or
`e + 1`. -/
def binaryExponent (n d : Nat) : Int :=
  let k : Int := (binaryDigits n n : Int) - (binaryDigits d d : Int)
  if d * 2 ^ k.toNat ≤ n * 2 ^ (-k).toNat then k else k - 1

/-- The rational `x` rounded to `precision` significand bits, to nearest, a tie to the even
significand (the default rounding of C++ arithmetic and conversions), in a binary format
whose smallest positive number is `2 ^ minExponent` and whose exponent is not bounded
above.  The result is `m * 2 ^ e` for the exponent `e` of the last significand bit. -/
def roundNearestEven (precision : Nat) (minExponent : Int) (x : ℚ) : ℚ :=
  if x = 0 then 0
  else
    let n := x.num.natAbs
    let d := x.den
    let e := max (binaryExponent n d - ((precision : Int) - 1)) minExponent
    let m := roundHalfEven (n * 2 ^ (-e).toNat) (d * 2 ^ e.toNat)
    let magnitude : ℚ := ((m * 2 ^ e.toNat : Nat) : ℚ) / ((2 ^ (-e).toNat : Nat) : ℚ)
    if x < 0 then -magnitude else magnitude

/-- The value of the rational `x` in the IEEE 754 binary format with `precision`
significand bits, smallest positive number `2 ^ minExponent` and finite numbers of
magnitude below `2 ^ maxExponent`: `x` rounded to nearest, ties to even.  When the rounded
magnitude reaches `2 ^ maxExponent` the result is an infinity (undefined behaviour, for a
conversion), which is not a rational number: `none`. -/
def toBinaryFormat (precision : Nat) (minExponent : Int) (maxExponent : Nat) (x : ℚ) :
    Option ℚ :=
  let rounded := roundNearestEven precision minExponent x
  if rounded.num.natAbs < 2 ^ maxExponent * rounded.den then some rounded else none

/-- The `double` (binary64: 53 significand bits, smallest positive number `2 ^ (-1074)`,
finite magnitudes below `2 ^ 1024`) nearest to `x`: the result of a `double` operation
whose exact result is `x`. -/
def toDouble (x : ℚ) : Option ℚ := toBinaryFormat 53 (-1074) 1024 x

/-- The `float` (binary32: 24 significand bits, smallest positive number `2 ^ (-149)`,
finite magnitudes below `2 ^ 128`) nearest to `x`: the conversion `(float)x`. -/
def toFloat (x : ℚ) : Option ℚ := toBinaryFormat 24 (-149) 128 x

/-! ## `TStatsIndexer` (scoring.cpp, lines 34-50) -/

/-- Helper for navigating the flat statistics array. -/
structure TStatsIndexer where
  BucketCount : Int
deriving DecidableEq

/-- Source: `return (1U << depth) * BucketCount;` — the shift and the product are
computed in `unsigned`, the result is converted to `int`.  (A shift count of 32 or
more is undefined in C++; here it shifts every bit out.) -/
def TStatsIndexer.CalcSize (indexer : TStatsIndexer) (depth : Nat) : Int :=
  toInt (toUnsigned (toUnsigned (1 * 2 ^ depth) * toUnsigned indexer.BucketCount))

/-- Source: `return BucketCount * leafIndex + bucketIndex;` in `int` arithmetic. -/
def TStatsIndexer.GetIndex (indexer : TStatsIndexer) (leafIndex bucketIndex : Int) : Int :=
  toInt (toInt (indexer.BucketCount * leafIndex) + bucketIndex)

/-- The bijection property of the composite index at a given depth: `GetIndex` maps the
pairs `(leaf, bucket)` with `0 ≤ leaf < 2^depth`, `0 ≤ bucket < BucketCount` into
`[0, CalcSize depth)`, is injective on these pairs, and every slot `idx` of that range is
the image of `(idx / BucketCount, idx % BucketCount)`, which is such a pair. -/
def IndexIsBijection (indexer : TStatsIndexer) (depth : Nat) : Prop :=
  (∀ leaf bucket : Int, 0 ≤ leaf → leaf < 2 ^ depth → 0 ≤ bucket → bucket < indexer.BucketCount →
      0 ≤ indexer.GetIndex leaf bucket ∧ indexer.GetIndex leaf bucket < indexer.CalcSize depth) ∧
  (∀ leaf bucket leaf2 bucket2 : Int,
      0 ≤ leaf → leaf < 2 ^ depth → 0 ≤ bucket → bucket < indexer.BucketCount →
      0 ≤ leaf2 → leaf2 < 2 ^ depth → 0 ≤ bucket2 → bucket2 < indexer.BucketCount →
      indexer.GetIndex leaf bucket = indexer.GetIndex leaf2 bucket2 →
      leaf = leaf2 ∧ bucket = bucket2) ∧
  (∀ idx : Int, 0 ≤ idx → idx < indexer.CalcSize depth →
      (0 ≤ idx / indexer.BucketCount ∧ idx / indexer.BucketCount < 2 ^ depth ∧
        0 ≤ idx % indexer.BucketCount ∧ idx % indexer.BucketCount < indexer.BucketCount) ∧
      indexer.GetIndex (idx / indexer.BucketCount) (idx % indexer.BucketCount) = idx)

/-! ## `TBucketStats` -/

/-- Statistics of one bucket: four `double` sums. -/
@[ext]
structure TBucketStats where
  SumWeightedDelta : ℚ
  SumWeight : ℚ
  SumDelta : ℚ
  Count : ℚ
deriving DecidableEq

/-- Modelled from the spec: `TBucketStats::Add` (`calc_score_cache.h` is not among the
sources); the spec calls it commutative/associative accumulation: every field of `other`
is added to the same field. -/
def TBucketStats.Add (s other : TBucketStats) : TBucketStats :=
  { SumWeightedDelta := s.SumWeightedDelta + other.SumWeightedDelta
    SumWeight := s.SumWeight + other.SumWeight
    SumDelta := s.SumDelta + other.SumDelta
    Count := s.Count + other.Count }

/-- Modelled from the spec: `TBucketStats::Remove` (`calc_score_cache.h` is not among the
sources); the spec calls it the inverse of `Add` (subtraction), field by field. -/
def TBucketStats.Remove (s other : TBucketStats) : TBucketStats :=
  { SumWeightedDelta := s.SumWeightedDelta - other.SumWeightedDelta
    SumWeight := s.SumWeight - other.SumWeight
    SumDelta := s.SumDelta - other.SumDelta
    Count := s.Count - other.Count }

instance : Zero TBucketStats := ⟨⟨0, 0, 0, 0⟩⟩

instance : Add TBucketStats := ⟨TBucketStats.Add⟩

instance : Sub TBucketStats := ⟨TBucketStats.Remove⟩

instance : Neg TBucketStats :=
  ⟨fun s => ⟨-s.SumWeightedDelta, -s.SumWeight, -s.SumDelta, -s.Count⟩⟩

@[simp] theorem TBucketStats.zero_SumWeightedDelta : (0 : TBucketStats).SumWeightedDelta = 0 := rfl
@[simp] theorem TBucketStats.zero_SumWeight : (0 : TBucketStats).SumWeight = 0 := rfl
@[simp] theorem TBucketStats.zero_SumDelta : (0 : TBucketStats).SumDelta = 0 := rfl
@[simp] theorem TBucketStats.zero_Count : (0 : TBucketStats).Count = 0 := rfl

@[simp] theorem TBucketStats.add_SumWeightedDelta (a b : TBucketStats) :
    (a + b).SumWeightedDelta = a.SumWeightedDelta + b.SumWeightedDelta := rfl
@[simp] theorem TBucketStats.add_SumWeight (a b : TBucketStats) :
    (a + b).SumWeight = a.SumWeight + b.SumWeight := rfl
@[simp] theorem TBucketStats.add_SumDelta (a b : TBucketStats) :
    (a + b).SumDelta = a.SumDelta + b.SumDelta := rfl
@[simp] theorem TBucketStats.add_Count (a b : TBucketStats) :
    (a + b).Count = a.Count + b.Count := rfl

@[simp] theorem TBucketStats.sub_SumWeightedDelta (a b : TBucketStats) :
    (a - b).SumWeightedDelta = a.SumWeightedDelta - b.SumWeightedDelta := rfl
@[simp] theorem TBucketStats.sub_SumWeight (a b : TBucketStats) :
    (a - b).SumWeight = a.SumWeight - b.SumWeight := rfl
@[simp] theorem TBucketStats.sub_SumDelta (a b : TBucketStats) :
    (a - b).SumDelta = a.SumDelta - b.SumDelta := rfl
@[simp] theorem TBucketStats.sub_Count (a b : TBucketStats) :
    (a - b).Count = a.Count - b.Count := rfl

@[simp] theorem TBucketStats.neg_SumWeightedDelta (a : TBucketStats) :
    (-a).SumWeightedDelta = -a.SumWeightedDelta := rfl
@[simp] theorem TBucketStats.neg_SumWeight (a : TBucketStats) :
    (-a).SumWeight = -a.SumWeight := rfl
@[simp] theorem TBucketStats.neg_SumDelta (a : TBucketStats) :
    (-a).SumDelta = -a.SumDelta := rfl
@[simp] theorem TBucketStats.neg_Count (a : TBucketStats) :
    (-a).Count = -a.Count := rfl

/-- Bucket statistics form a commutative group under field-wise addition (`Add`), with
`Remove` as subtraction. -/
instance : AddCommGroup TBucketStats where
  add_assoc a b c := by ext <;> simp [add_assoc]
  zero_add a := by ext <;> simp
  add_zero a := by ext <;> simp
  neg_add_cancel a := by ext <;> simp
  add_comm a b := by ext <;> simp [add_comm]
  sub_eq_add_neg a b := by ext <;> simp [sub_eq_add_neg]
  nsmul := nsmulRec
  zsmul := zsmulRec

/-! ## Fold data read by the accumulator -/

/-- Modelled from the spec: `NCB::TIndexRange<int>` (`index_range.h` is not among the
sources): a half-open range `[Begin, End)` of document (or group) indices. -/
structure TIndexRange where
  Begin : Nat
  End : Nat
deriving DecidableEq

/-- Modelled from the spec: `TIndexRange::Iter()` (`index_range.h` is not among the
sources): the indices `Begin, Begin + 1, …, End - 1` in increasing order (none when
`End ≤ Begin`). -/
def TIndexRange.Iter (r : TIndexRange) : List Nat := List.range' r.Begin (r.End - r.Begin)

/-- The fields of `TCalcScoreFold::TBodyTail` read by `CalcStatsKernel`
(the declaration, in `fold.h`, is not among the sources). -/
structure TBodyTail where
  BodyFinish : Nat
  TailFinish : Nat
  WeightedDerivatives : List (List ℚ)
  SampleWeightedDerivatives : List (List ℚ)
  PairwiseWeights : List ℚ
  SamplePairwiseWeights : List ℚ

/-- The fields of `TCalcScoreFold` read by `CalcStatsKernel`, by the `FixUpStats` call of
`CalcStatsImpl`, by `SetSingleIndex` / `BuildSingleIndex` and by the partition mapping of
`CalcStatsImpl` (the declaration, in `fold.h`, is not among the sources).  `DocCount` is
what `GetDocCount()` returns, `Indices` the leaf of every document, `HasQueryInfo` what
`HasQueryInfo()` returns, and `LearnQueriesInfo` the document range of every group;
`BodyTailCount` and `ApproxDimension` are what `GetBodyTailCount()` and
`GetApproxDimension()` return. -/
structure TCalcScoreFold where
  LearnWeights : List ℚ
  SampleWeights : List ℚ
  SmallestSplitSideValue : Bool
  DocCount : Nat := 0
  Indices : List Nat := []
  NonCtrDataPermutationBlockSize : Nat := 0
  FeaturesSubsetBegin : Nat := 0
  LearnPermutationFeaturesSubset : List Nat := []
  HasQueryInfo : Bool := false
  LearnQueriesInfo : List TIndexRange := []
  BodyTailArr : List TBodyTail := []
  BodyTailCount : Nat := 0
  ApproxDimension : Nat := 0

/-- Modelled from the spec: `GetDataPtr` (`vector_helpers.h` is not among the sources):
the data pointer of a vector, the null pointer (`none`) for an empty vector; this is what
makes "no learn weights" the `learnWeights == nullptr` case of `UpdateDeltaCount`. -/
def GetDataPtr {α : Type} (data : List α) : Option (List α) :=
  if data.isEmpty then none else some data

/-- Read `ptr[i]`: fails on a null pointer and outside the array. -/
def readAt {α : Type} (ptr : Option (List α)) (i : Nat) : Option α :=
  ptr.bind (fun data => data[i]?)

/-- Modelled from the spec: `Fill(first, last, value)` (`util/generic/algorithm.h` is not
among the sources), i.e. `std::fill` over `stats + first .. stats + last`: every slot of
`[first, last)` is overwritten with `value`.  The range must be a valid range inside the
array. -/
def Fill (stats : List TBucketStats) (first last : Int) (value : TBucketStats) :
    Option (List TBucketStats) :=
  if 0 ≤ first ∧ first ≤ last ∧ last ≤ (stats.length : Int) then
    some (stats.mapIdx (fun i s => if first ≤ (i : Int) ∧ (i : Int) < last then value else s))
  else none

/-! ## The accumulator (scoring.cpp, lines 268-391, 613-631) -/

/-- Function `UpdateWeighted`: update bootstrapped sums on `docIndexRange` in a bucket.
```
for (int doc : docIndexRange.Iter()) {
    TBucketStats& leafStats = stats[singleIdx[doc]];
    leafStats.SumWeightedDelta += weightedDer[doc];
    leafStats.SumWeight += sampleWeights[doc];
}
``` -/
def UpdateWeighted (singleIdx : List Nat) (weightedDer : Option (List ℚ))
    (sampleWeights : Option (List ℚ)) (docIndexRange : TIndexRange)
    (stats : List TBucketStats) : Option (List TBucketStats) :=
  docIndexRange.Iter.foldlM (fun stats doc => do
    let idx ← singleIdx[doc]?
    let leafStats ← stats[idx]?
    let wd ← readAt weightedDer doc
    let sw ← readAt sampleWeights doc
    pure (stats.set idx { leafStats with
      SumWeightedDelta := leafStats.SumWeightedDelta + wd
      SumWeight := leafStats.SumWeight + sw })) stats

/-- Function `UpdateDeltaCount`: update not bootstrapped sums on `docIndexRange` in a bucket.
With `learnWeights == nullptr` every document adds `1` to `Count`, otherwise
`learnWeights[doc]`. -/
def UpdateDeltaCount (singleIdx : List Nat) (derivatives : Option (List ℚ))
    (learnWeights : Option (List ℚ)) (docIndexRange : TIndexRange)
    (stats : List TBucketStats) : Option (List TBucketStats) :=
  match learnWeights with
  | none =>
    docIndexRange.Iter.foldlM (fun stats doc => do
      let idx ← singleIdx[doc]?
      let leafStats ← stats[idx]?
      let der ← readAt derivatives doc
      pure (stats.set idx { leafStats with
        SumDelta := leafStats.SumDelta + der
        Count := leafStats.Count + 1 })) stats
  | some lw =>
    docIndexRange.Iter.foldlM (fun stats doc => do
      let idx ← singleIdx[doc]?
      let leafStats ← stats[idx]?
      let der ← readAt derivatives doc
      let w ← lw[doc]?
      pure (stats.set idx { leafStats with
        SumDelta := leafStats.SumDelta + der
        Count := leafStats.Count + w })) stats

/-- The `weightsData` pointer of `CalcStatsKernel` (lines 335-337). -/
def weightsData (fold : TCalcScoreFold) (bt : TBodyTail) : Option (List ℚ) :=
  if !bt.PairwiseWeights.isEmpty then GetDataPtr bt.PairwiseWeights
  else GetDataPtr fold.LearnWeights

/-- The `sampleWeightsData` pointer of `CalcStatsKernel` (lines 338-339). -/
def sampleWeightsData (fold : TCalcScoreFold) (bt : TBodyTail) : Option (List ℚ) :=
  if !bt.PairwiseWeights.isEmpty then GetDataPtr bt.SamplePairwiseWeights
  else GetDataPtr fold.SampleWeights

/-- Function `CalcStatsKernel` (lines 311-372).  The assertion `!isCaching || depth > 0` fails the
call; without it `CalcSize(depth - 1)` would shift by a negative count. -/
def CalcStatsKernel (isCaching : Bool) (singleIdx : List Nat) (fold : TCalcScoreFold)
    (isPlainMode : Bool) (indexer : TStatsIndexer) (depth : Nat) (bt : TBodyTail) (dim : Nat)
    (docIndexRange : TIndexRange) (stats : List TBucketStats) : Option (List TBucketStats) :=
  if isCaching = true ∧ depth = 0 then none
  else do
    let stats ←
      (if isCaching = true then
        Fill stats (indexer.CalcSize (depth - 1)) (indexer.CalcSize depth) ⟨0, 0, 0, 0⟩
      else
        Fill stats 0 (indexer.CalcSize depth) ⟨0, 0, 0, 0⟩)
    if bt.TailFinish > docIndexRange.Begin then
      let tailFinishInRange := min bt.TailFinish docIndexRange.End
      if isPlainMode then do
        let sampleWeightedDer ← bt.SampleWeightedDerivatives[dim]?
        UpdateWeighted singleIdx (GetDataPtr sampleWeightedDer) (sampleWeightsData fold bt)
          ⟨docIndexRange.Begin, tailFinishInRange⟩ stats
      else do
        let stats ←
          (if bt.BodyFinish > docIndexRange.Begin then
            (bt.WeightedDerivatives[dim]?).bind (fun weightedDer =>
              UpdateDeltaCount singleIdx (GetDataPtr weightedDer) (weightsData fold bt)
                ⟨docIndexRange.Begin, min bt.BodyFinish docIndexRange.End⟩ stats)
          else some stats)
        if tailFinishInRange > bt.BodyFinish then do
          let sampleWeightedDer ← bt.SampleWeightedDerivatives[dim]?
          UpdateWeighted singleIdx (GetDataPtr sampleWeightedDer) (sampleWeightsData fold bt)
            ⟨max bt.BodyFinish docIndexRange.Begin, tailFinishInRange⟩ stats
        else pure stats
    else pure stats

/-- Function `FixUpStats` (lines 374-391).  `halfOfStats = CalcSize(depth - 1)`; for every
`statIdx < halfOfStats` the slot `statIdx + halfOfStats` is removed from slot `statIdx`,
and when `selectedSplitValue` is false the two slots are then swapped.  At `depth = 0`
the shift count `depth - 1` is negative and the call fails. -/
def FixUpStats (depth : Nat) (indexer : TStatsIndexer) (selectedSplitValue : Bool)
    (stats : List TBucketStats) : Option (List TBucketStats) :=
  if depth = 0 then none
  else
    let halfOfStats := indexer.CalcSize (depth - 1)
    if selectedSplitValue = true then
      (List.range halfOfStats.toNat).foldlM (fun stats statIdx => do
        let a ← stats[statIdx]?
        let b ← stats[statIdx + halfOfStats.toNat]?
        pure (stats.set statIdx (a.Remove b))) stats
    else
      (List.range halfOfStats.toNat).foldlM (fun stats statIdx => do
        let a ← stats[statIdx]?
        let b ← stats[statIdx + halfOfStats.toNat]?
        let stats := stats.set statIdx (a.Remove b)
        -- DoSwap(stats[statIdx], stats[statIdx + halfOfStats])
        pure ((stats.set statIdx b).set (statIdx + halfOfStats.toNat) (a.Remove b))) stats

/-- The merge step of `CalcStatsImpl` for one statistics slice (lines 622-628):
```
for (const auto& addItem : addVector)
    for (size_t i : xrange(filledSplitStatsCount))
        (outputStatsSubset + i)->Add(*(addStatsSubset + i));
``` -/
def mergeStatsSubset (filledSplitStatsCount : Int) (outputStatsSubset : List TBucketStats)
    (addVector : List (List TBucketStats)) : Option (List TBucketStats) :=
  addVector.foldlM (fun output addStatsSubset =>
    (List.range filledSplitStatsCount.toNat).foldlM (fun output i => do
      let o ← output[i]?
      let a ← addStatsSubset[i]?
      pure (output.set i (o.Add a))) output) outputStatsSubset

/-! ## Specification-level descriptions of the accumulation -/

/-- Accumulation loop shared by `UpdateWeighted` and `UpdateDeltaCount`: every document
of `docs`, in order, adds `c doc` to the slot `singleIdx[doc]`. -/
def accumulate (singleIdx : List Nat) (c : Nat → Option TBucketStats) (docs : List Nat)
    (stats : List TBucketStats) : Option (List TBucketStats) :=
  docs.foldlM (fun stats doc => do
    let idx ← singleIdx[doc]?
    let leafStats ← stats[idx]?
    let x ← c doc
    pure (stats.set idx (leafStats + x))) stats

/-- Sum of `c doc` over the documents `doc` of `docs` with `singleIdx[doc] = s`. -/
def slotSum (singleIdx : List Nat) (c : Nat → TBucketStats) (docs : List Nat) (s : Nat) :
    TBucketStats :=
  ((docs.filter (fun doc => singleIdx[doc]? = some s)).map c).sum

/-- What `UpdateWeighted` reads and adds for document `doc`. -/
def weightedRead (weightedDer sampleWeights : Option (List ℚ)) (doc : Nat) :
    Option TBucketStats := do
  let wd ← readAt weightedDer doc
  let sw ← readAt sampleWeights doc
  pure ⟨wd, sw, 0, 0⟩

/-- What `UpdateDeltaCount` reads and adds for document `doc`. -/
def deltaCountRead (derivatives learnWeights : Option (List ℚ)) (doc : Nat) :
    Option TBucketStats :=
  match learnWeights with
  | none => do
    let der ← readAt derivatives doc
    pure ⟨0, 0, der, 1⟩
  | some lw => do
    let der ← readAt derivatives doc
    let w ← lw[doc]?
    pure ⟨0, 0, der, w⟩

/-- What one run of `CalcStatsKernel` reads and adds for a document `doc` below
`TailFinish`: in plain mode, and in ordered mode for a tail document
(`BodyFinish ≤ doc`), the pair (sample-weighted derivative, sample weight) goes to
`SumWeightedDelta` / `SumWeight`; in ordered mode a body document (`doc < BodyFinish`)
sends (weighted derivative, `1` or learn weight) to `SumDelta` / `Count`. -/
def docRead (fold : TCalcScoreFold) (bt : TBodyTail) (dim : Nat) (isPlainMode : Bool)
    (doc : Nat) : Option TBucketStats :=
  if isPlainMode = true ∨ bt.BodyFinish ≤ doc then
    (bt.SampleWeightedDerivatives[dim]?).bind
      (fun v => weightedRead (GetDataPtr v) (sampleWeightsData fold bt) doc)
  else
    (bt.WeightedDerivatives[dim]?).bind
      (fun v => deltaCountRead (GetDataPtr v) (weightsData fold bt) doc)

/-- Contribution of document `doc` to its slot in one kernel run: `docRead` below
`TailFinish`, nothing from `TailFinish` on. -/
def docContribution (fold : TCalcScoreFold) (bt : TBodyTail) (dim : Nat) (isPlainMode : Bool)
    (doc : Nat) : TBucketStats :=
  if doc < bt.TailFinish then (docRead fold bt dim isPlainMode doc).getD 0 else 0

/-- Every read the kernel performs on `docIndexRange` is inside its array: the
derivative tables it uses have a row `dim`, and for every document of the range below
`TailFinish` the derivative and weight reads succeed and `singleIdx[doc]` exists and is
less than `n`, the number of slots of the statistics array. -/
def ReadsInBounds (singleIdx : List Nat) (fold : TCalcScoreFold) (bt : TBodyTail) (dim : Nat)
    (isPlainMode : Bool) (docIndexRange : TIndexRange) (n : Nat) : Prop :=
  dim < bt.SampleWeightedDerivatives.length ∧
  (isPlainMode = false → dim < bt.WeightedDerivatives.length) ∧
  ∀ doc ∈ docIndexRange.Iter, doc < bt.TailFinish →
    (docRead fold bt dim isPlainMode doc).isSome = true ∧
      doc < singleIdx.length ∧ singleIdx.getD doc 0 < n

instance (singleIdx : List Nat) (fold : TCalcScoreFold) (bt : TBodyTail) (dim : Nat)
    (isPlainMode : Bool) (docIndexRange : TIndexRange) (n : Nat) :
    Decidable (ReadsInBounds singleIdx fold bt dim isPlainMode docIndexRange n) := by
  unfold ReadsInBounds
  infer_instance

/-! ## Partitioned accumulation (the `MapMerge` call of `CalcStatsImpl`, lines 568-633) -/

/-- The map phase for one statistics slice: the kernel `mapFunc` is run on every range
with the buffer of that range.  Fails when a range has no buffer. -/
def mapPartitions (mapFunc : TIndexRange → List TBucketStats → Option (List TBucketStats)) :
    List TIndexRange → List (List TBucketStats) → Option (List (List TBucketStats))
  | [], _ => some []
  | _ :: _, [] => none
  | r :: ranges, buffer :: buffers => do
    let output ← mapFunc r buffer
    let outputs ← mapPartitions mapFunc ranges buffers
    pure (output :: outputs)

/-- Modelled from the spec: `NCB::MapMerge` (`map_merge.h` is not among the sources) as
`CalcStatsImpl` (lines 532-643) calls it, for the statistics slice of one `(bodyTail, dim)`
and with the composite indices `singleIdx` already built: every partition is accumulated
by `CalcStatsKernel` into a buffer of its own, the buffer of the first partition being the
output array; the kernel is called with `isCaching && (indexRange.Begin == 0)`; then the
merge step adds the other buffers to the output, element-wise over the first
`filledSplitStatsCount = CalcSize(depth)` slots; when caching, `FixUpStats` is run on the
result with `fold.SmallestSplitSideValue`.  `buffers` are the buffers before the call: the
first is the output array (the cache entry when caching), the content of the others is
arbitrary (they are allocated without initialisation). -/
def CalcStatsInPartitions (isCaching : Bool) (singleIdx : List Nat) (fold : TCalcScoreFold)
    (isPlainMode : Bool) (indexer : TStatsIndexer) (depth : Nat) (bt : TBodyTail) (dim : Nat)
    (ranges : List TIndexRange) (buffers : List (List TBucketStats)) :
    Option (List TBucketStats) := do
  let outputs ← mapPartitions
    (fun indexRange output =>
      CalcStatsKernel (isCaching && (indexRange.Begin == 0)) singleIdx fold isPlainMode indexer
        depth bt dim indexRange output)
    ranges buffers
  match outputs with
  | [] => none
  | output :: addVector => do
    let stats ← mergeStatsSubset (indexer.CalcSize depth) output addVector
    if isCaching = true then FixUpStats depth indexer fold.SmallestSplitSideValue stats
    else pure stats

/-- The list `ranges` splits `[b, e)` into consecutive (possibly empty) ranges. -/
def IsSplitOf : Nat → Nat → List TIndexRange → Prop
  | b, e, [] => b = e
  | b, e, r :: ranges => r.Begin = b ∧ r.Begin ≤ r.End ∧ IsSplitOf r.End e ranges

/-! ## The score calculator: `UpdateScores` (scoring.cpp, lines 664-901) -/

/-- Split types named by `UpdateScores` (the enum is declared in a header that is not
among the sources). -/
inductive ESplitType
  | FloatFeature
  | OnlineCtr
  | OneHotFeature
deriving DecidableEq

/-- Kinds of split ensembles named by `UpdateScores`. -/
inductive ESplitEnsembleType
  | OneFeature
  | BinarySplits
  | ExclusiveBundle
deriving DecidableEq

/-- Feature types of the parts of an exclusive bundle. -/
inductive EFeatureType
  | Float
  | Categorical
deriving DecidableEq

/-- One part of an exclusive feature bundle: the fields read by `UpdateScores`. -/
structure TExclusiveBundlePart where
  FeatureType : EFeatureType
  Bounds : TIndexRange
deriving DecidableEq

/-- Modelled from the spec: `TIndexRange::GetSize()` (`index_range.h` is not among the
sources): the number of indices of the range. -/
def TIndexRange.GetSize (r : TIndexRange) : Nat := r.End - r.Begin

/-- The fields of `TSplitEnsembleSpec` read by `UpdateScores`; `EnsembleType` is the field
`Type` of the source and `Parts` stands for `ExclusiveFeaturesBundle.Parts`. -/
structure TSplitEnsembleSpec where
  EnsembleType : ESplitEnsembleType
  OneSplitType : ESplitType
  Parts : List TExclusiveBundlePart

/-- Read `stats[index]` for an `int` index. -/
def statsAt (stats : List TBucketStats) (index : Int) : Option TBucketStats :=
  if 0 ≤ index then stats[index.toNat]? else none

/-- The `OneFeature` case of the leaf loop (lines 766-804). -/
def UpdateScoresOneFeature {σ : Type}
    (updateSplitScoreClosure : σ → TBucketStats → TBucketStats → Nat → Option σ)
    (stats : List TBucketStats) (indexer : TStatsIndexer) (splitType : ESplitType)
    (leaf : Int) (state : σ) : Option σ := do
  let allStats ← (List.range indexer.BucketCount.toNat).foldlM (fun allStats (bucketIdx : Nat) => do
    let leafStats ← statsAt stats (indexer.GetIndex leaf bucketIdx)
    pure (allStats.Add leafStats)) (⟨0, 0, 0, 0⟩ : TBucketStats)
  if splitType = ESplitType.OnlineCtr ∨ splitType = ESplitType.FloatFeature then
    let r ← (List.range (indexer.BucketCount - 1).toNat).foldlM
      (fun (acc : TBucketStats × TBucketStats × σ) (splitIdx : Nat) => do
        let s1 ← statsAt stats (indexer.GetIndex leaf splitIdx)
        let falseStats := acc.2.1.Add s1
        let s2 ← statsAt stats (indexer.GetIndex leaf splitIdx)
        let trueStats := acc.1.Remove s2
        let state ← updateSplitScoreClosure acc.2.2 trueStats falseStats splitIdx
        pure (trueStats, falseStats, state))
      (allStats, (⟨0, 0, 0, 0⟩ : TBucketStats), state)
    pure r.2.2
  else
    let r ← (List.range indexer.BucketCount.toNat).foldlM
      (fun (acc : TBucketStats × σ) (bucketIdx : Nat) => do
        let falseStats ←
          (if bucketIdx > 0 then
            (statsAt stats (indexer.GetIndex leaf ((bucketIdx : Int) - 1))).map
              (fun s => acc.1.Add s)
          else some acc.1)
        let s ← statsAt stats (indexer.GetIndex leaf bucketIdx)
        let falseStats := falseStats.Remove s
        let trueStats ← statsAt stats (indexer.GetIndex leaf bucketIdx)
        let state ← updateSplitScoreClosure acc.2 trueStats falseStats bucketIdx
        pure (falseStats, state))
      (allStats, state)
    pure r.2

/-- The `BinarySplits` case of the leaf loop (lines 805-820); `binaryFeaturesCount` is
`GetValueBitCount(BucketCount - 1)`. -/
def UpdateScoresBinarySplits {σ : Type}
    (updateSplitScoreClosure : σ → TBucketStats → TBucketStats → Nat → Option σ)
    (stats : List TBucketStats) (indexer : TStatsIndexer) (binaryFeaturesCount : Nat)
    (leaf : Int) (state : σ) : Option σ :=
  (List.range binaryFeaturesCount).foldlM (fun state (binFeatureIdx : Nat) => do
    let r ← (List.range indexer.BucketCount.toNat).foldlM
      (fun (acc : TBucketStats × TBucketStats) (bucketIdx : Nat) => do
        let s ← statsAt stats (indexer.GetIndex leaf bucketIdx)
        if (bucketIdx >>> binFeatureIdx) &&& 1 ≠ 0 then pure (acc.1.Add s, acc.2)
        else pure (acc.1, acc.2.Add s))
      ((⟨0, 0, 0, 0⟩ : TBucketStats), (⟨0, 0, 0, 0⟩ : TBucketStats))
    updateSplitScoreClosure state r.1 r.2 binFeatureIdx) state

/-- The `ExclusiveBundle` case of the leaf loop (lines 821-899).  The two assertions of the
categorical branch hold by construction (`FeatureType`) or fail the call
(`GetSize() + 1 <= oneHotMaxSize`). -/
def UpdateScoresExclusiveBundle {σ : Type}
    (updateSplitScoreClosure : σ → TBucketStats → TBucketStats → Nat → Option σ)
    (stats : List TBucketStats) (indexer : TStatsIndexer) (parts : List TExclusiveBundlePart)
    (useBundlePartForCalcScores : List Bool) (oneHotMaxSize : Nat)
    (leaf : Int) (state : σ) : Option σ := do
  let allStats0 ← statsAt stats (indexer.GetIndex leaf (indexer.BucketCount - 1))
  let r ← parts.foldlM
    (fun (acc : TBucketStats × List TBucketStats) bundlePart => do
      let bundlePartStats ← bundlePart.Bounds.Iter.foldlM (fun partStats (bucketIdx : Nat) => do
        let leafStats ← statsAt stats (indexer.GetIndex leaf bucketIdx)
        pure (partStats.Add leafStats)) (⟨0, 0, 0, 0⟩ : TBucketStats)
      pure (acc.1.Add bundlePartStats, acc.2 ++ [bundlePartStats]))
    (allStats0, [])
  let allStats := r.1
  let bundlePartsStats := r.2
  let r2 ← (List.range parts.length).foldlM
    (fun (acc : Nat × σ) bundlePartIdx => do
      let binsBegin := acc.1
      let use ← useBundlePartForCalcScores[bundlePartIdx]?
      if use = false then pure acc
      else do
        let bundlePart ← parts[bundlePartIdx]?
        let partStats ← bundlePartsStats[bundlePartIdx]?
        let binBounds := bundlePart.Bounds
        if bundlePart.FeatureType = EFeatureType.Float then do
          let r3 ← (List.range binBounds.GetSize).foldlM
            (fun (acc3 : TBucketStats × TBucketStats × σ) (splitIdx : Nat) => do
              let tf ←
                (if splitIdx ≠ 0 then
                  (statsAt stats
                    (indexer.GetIndex leaf ((binBounds.Begin + splitIdx : Nat) - 1 : Int))).map
                    (fun statsPart => (acc3.1.Remove statsPart, acc3.2.1.Add statsPart))
                else some (acc3.1, acc3.2.1))
              let state ← updateSplitScoreClosure acc3.2.2 tf.1 tf.2 (binsBegin + splitIdx)
              pure (tf.1, tf.2, state))
            (partStats, allStats.Remove partStats, acc.2)
          pure (binsBegin + binBounds.GetSize, r3.2.2)
        else if binBounds.GetSize + 1 ≤ oneHotMaxSize then do
          let state ←
            (if binBounds.GetSize > 1 then
              updateSplitScoreClosure acc.2 (allStats.Remove partStats) partStats binsBegin
            else some acc.2)
          let state ← (List.range binBounds.GetSize).foldlM (fun state (binIdx : Nat) => do
            let statsPart ← statsAt stats (indexer.GetIndex leaf (binBounds.Begin + binIdx : Nat))
            updateSplitScoreClosure state statsPart (allStats.Remove statsPart)
              (binsBegin + binIdx + 1)) state
          pure (binsBegin + binBounds.GetSize + 1, state)
        else none)
    (0, state)
  pure r2.2

/-- The loop over leaves of `UpdateScores` (lines 746-901), parametrised by
`updateSplitScoreClosure` (lines 700-744: the call of the score calcer, or the recording
for the monotonic projection) acting on a state `σ`.  `useForCalcScores` and
`getValueBitCount` stand for `UseForCalcScores` and `GetValueBitCount`, whose definitions
are not among the sources. -/
def UpdateScores {σ : Type}
    (updateSplitScoreClosure : σ → TBucketStats → TBucketStats → Nat → Option σ)
    (stats : List TBucketStats) (leafCount : Int) (indexer : TStatsIndexer)
    (splitEnsembleSpec : TSplitEnsembleSpec) (oneHotMaxSize : Nat)
    (useForCalcScores : TExclusiveBundlePart → Nat → Bool) (getValueBitCount : Int → Nat)
    (state : σ) : Option σ :=
  let useBundlePartForCalcScores :=
    if splitEnsembleSpec.EnsembleType = ESplitEnsembleType.ExclusiveBundle then
      splitEnsembleSpec.Parts.map (fun bundlePart => useForCalcScores bundlePart oneHotMaxSize)
    else []
  (List.range leafCount.toNat).foldlM (fun state (leaf : Nat) =>
    match splitEnsembleSpec.EnsembleType with
    | ESplitEnsembleType.OneFeature =>
      UpdateScoresOneFeature updateSplitScoreClosure stats indexer
        splitEnsembleSpec.OneSplitType leaf state
    | ESplitEnsembleType.BinarySplits =>
      UpdateScoresBinarySplits updateSplitScoreClosure stats indexer
        (getValueBitCount (indexer.BucketCount - 1)) leaf state
    | ESplitEnsembleType.ExclusiveBundle =>
      UpdateScoresExclusiveBundle updateSplitScoreClosure stats indexer
        splitEnsembleSpec.Parts useBundlePartForCalcScores oneHotMaxSize leaf state) state

/-- The statistic `stats[indexer.GetIndex(leaf, bucket)]` (zero outside the array). -/
def statOf (stats : List TBucketStats) (indexer : TStatsIndexer) (leaf bucket : Nat) :
    TBucketStats :=
  (statsAt stats (indexer.GetIndex leaf bucket)).getD 0

/-- Run the update closure on a list of calls `(trueStats, falseStats, splitIdx)`. -/
def runCalls {σ : Type}
    (updateSplitScoreClosure : σ → TBucketStats → TBucketStats → Nat → Option σ)
    (calls : List (TBucketStats × TBucketStats × Nat)) (state : σ) : Option σ :=
  calls.foldlM (fun state call => updateSplitScoreClosure state call.1 call.2.1 call.2.2) state

/-! ## A small fold used to instantiate the theorems

Four documents with (weighted derivative, weight) = (-1, 1), (2, 1), (1/2, 1), (-1/2, 1),
buckets 0, 1, 2, 1 of a 3-bucket feature and leaves 0, 0, 1, 1 at depth 1. -/

/-- Body/tail segment of the example: two body documents, four documents in all. -/
def exampleBodyTail : TBodyTail :=
  { BodyFinish := 2
    TailFinish := 4
    WeightedDerivatives := [[-1, 2, 1 / 2, -1 / 2]]
    SampleWeightedDerivatives := [[-1, 2, 1 / 2, -1 / 2]]
    PairwiseWeights := []
    SamplePairwiseWeights := [] }

/-- Fold of the example: unit sample weights, no learn weights. -/
def exampleFold : TCalcScoreFold :=
  { LearnWeights := []
    SampleWeights := [1, 1, 1, 1]
    SmallestSplitSideValue := true }

/-- Composite indices of the example documents: `3 * leaf + bucket`. -/
def exampleSingleIdx : List Nat := [0, 1, 5, 4]

/-- An uninitialised statistics buffer of six slots. -/
def exampleStats : List TBucketStats := List.replicate 6 ⟨7, 7, 7, 7⟩

/-- Buckets of the example documents. -/
def exampleBucket (doc : Nat) : Nat := [0, 1, 2, 1].getD doc 0

/-- Side of the depth-0 split taken by the example documents. -/
def exampleSplitBit (doc : Nat) : Bool := [false, false, true, true].getD doc false

/-- Previous-level view of the example restricted to the smaller split side: the documents
2 and 3 (split bit `true`), both tail documents. -/
def exampleSmallBodyTail : TBodyTail :=
  { BodyFinish := 0
    TailFinish := 2
    WeightedDerivatives := [[1 / 2, -1 / 2]]
    SampleWeightedDerivatives := [[1 / 2, -1 / 2]]
    PairwiseWeights := []
    SamplePairwiseWeights := [] }

/-- Fold of the restricted view; the smaller side is the `true` side. -/
def exampleSmallFold : TCalcScoreFold :=
  { LearnWeights := []
    SampleWeights := [1, 1]
    SmallestSplitSideValue := true }

/-- Ordered-mode statistics of the example at depth 0, one slot per bucket. -/
def examplePrevStats : List TBucketStats :=
  [⟨0, 0, -1, 1⟩, ⟨-1 / 2, 1, 2, 1⟩, ⟨1 / 2, 1, 0, 0⟩]

/-- Cache entry before the incremental step at depth 1: the depth-0 statistics followed by
stale slots. -/
def exampleCache : List TBucketStats :=
  [⟨0, 0, -1, 1⟩, ⟨-1 / 2, 1, 2, 1⟩, ⟨1 / 2, 1, 0, 0⟩, ⟨7, 7, 7, 7⟩, ⟨7, 7, 7, 7⟩, ⟨7, 7, 7, 7⟩]

/-- Statistics array of the example at depth 1 (plain mode), slots `3 * leaf + bucket`. -/
def exampleScoreStats : List TBucketStats :=
  [⟨-1, 1, 0, 0⟩, ⟨2, 1, 0, 0⟩, ⟨0, 0, 0, 0⟩, ⟨0, 0, 0, 0⟩, ⟨-1 / 2, 1, 0, 0⟩, ⟨1 / 2, 1, 0, 0⟩]

/-- An update closure that records its calls `(trueStats, falseStats, splitIdx)`. -/
def recordCall (calls : List (TBucketStats × TBucketStats × Nat))
    (trueStats falseStats : TBucketStats) (splitIdx : Nat) :
    Option (List (TBucketStats × TBucketStats × Nat)) :=
  some (calls ++ [(trueStats, falseStats, splitIdx)])

/-! ## Specification-level description of the exclusive-bundle calls -/

/-- The part statistic: the sum of `stats[index(leaf, b)]` over the buckets `b` of a bundle
part. -/
def bundlePartStatsOf (stats : List TBucketStats) (indexer : TStatsIndexer) (leaf : Nat)
    (part : TExclusiveBundlePart) : TBucketStats :=
  ∑ b ∈ Finset.Ico part.Bounds.Begin part.Bounds.End, statOf stats indexer leaf b

/-- The bundle total of a leaf: the all-members-absent bucket `bucketCount - 1` plus the
buckets of all parts. -/
def bundleAllStats (stats : List TBucketStats) (indexer : TStatsIndexer)
    (parts : List TExclusiveBundlePart) (leaf : Nat) : TBucketStats :=
  (statsAt stats (indexer.GetIndex leaf (indexer.BucketCount - 1))).getD 0
    + (parts.map (bundlePartStatsOf stats indexer leaf)).sum

/-- The number of candidate indices a bundle part occupies: its size for a float part, its
size plus one for a categorical part. -/
def candidateCount (part : TExclusiveBundlePart) : Nat :=
  if part.FeatureType = EFeatureType.Float then part.Bounds.GetSize
  else part.Bounds.GetSize + 1

/-- The candidate count of part `idx` when it is used for scores, zero otherwise. -/
def usedCandidateCount (parts : List TExclusiveBundlePart) (use : List Bool) (idx : Nat) :
    Nat :=
  match parts[idx]?, use[idx]? with
  | some part, some true => candidateCount part
  | _, _ => 0

/-- The candidate base of part `idx`: the total candidate count of the earlier used
parts. -/
def binsBeginOf (parts : List TExclusiveBundlePart) (use : List Bool) (idx : Nat) : Nat :=
  ((List.range idx).map (usedCandidateCount parts use)).sum

/-- The calls of a float part with candidate base `binsBegin`. -/
def floatPartCalls (stats : List TBucketStats) (indexer : TStatsIndexer) (leaf : Nat)
    (allStats : TBucketStats) (binsBegin : Nat) (part : TExclusiveBundlePart) :
    List (TBucketStats × TBucketStats × Nat) :=
  (List.range part.Bounds.GetSize).map (fun k =>
    (∑ b ∈ Finset.Ico (part.Bounds.Begin + k) part.Bounds.End, statOf stats indexer leaf b,
      allStats
        - ∑ b ∈ Finset.Ico (part.Bounds.Begin + k) part.Bounds.End, statOf stats indexer leaf b,
      binsBegin + k))

/-- The calls of a categorical part with candidate base `binsBegin`. -/
def categoricalPartCalls (stats : List TBucketStats) (indexer : TStatsIndexer) (leaf : Nat)
    (allStats : TBucketStats) (binsBegin : Nat) (part : TExclusiveBundlePart) :
    List (TBucketStats × TBucketStats × Nat) :=
  (if part.Bounds.GetSize > 1 then
      [(allStats - bundlePartStatsOf stats indexer leaf part,
        bundlePartStatsOf stats indexer leaf part, binsBegin)]
    else [])
  ++ (List.range part.Bounds.GetSize).map (fun k =>
    (statOf stats indexer leaf (part.Bounds.Begin + k),
      allStats - statOf stats indexer leaf (part.Bounds.Begin + k), binsBegin + 1 + k))

/-- The calls made for part `idx` of a bundle in one leaf: none when the part is not
used. -/
def bundlePartCalls (stats : List TBucketStats) (indexer : TStatsIndexer)
    (parts : List TExclusiveBundlePart) (use : List Bool) (leaf idx : Nat) :
    List (TBucketStats × TBucketStats × Nat) :=
  match parts[idx]?, use[idx]? with
  | some part, some true =>
    if part.FeatureType = EFeatureType.Float then
      floatPartCalls stats indexer leaf (bundleAllStats stats indexer parts leaf)
        (binsBeginOf parts use idx) part
    else
      categoricalPartCalls stats indexer leaf (bundleAllStats stats indexer parts leaf)
        (binsBeginOf parts use idx) part
  | _, _ => []

/-- The calls made for a bundle in one leaf, part after part. -/
def bundleLeafCalls (stats : List TBucketStats) (indexer : TStatsIndexer)
    (parts : List TExclusiveBundlePart) (use : List Bool) (leaf : Nat) :
    List (TBucketStats × TBucketStats × Nat) :=
  ((List.range parts.length).map (bundlePartCalls stats indexer parts use leaf)).flatten

/-- A bundle of four parts over nine buckets (bucket 8 is the all-members-absent bucket). -/
def exampleBundleParts : List TExclusiveBundlePart :=
  [⟨EFeatureType.Float, ⟨0, 2⟩⟩, ⟨EFeatureType.Categorical, ⟨2, 4⟩⟩,
    ⟨EFeatureType.Categorical, ⟨4, 5⟩⟩, ⟨EFeatureType.Categorical, ⟨5, 8⟩⟩]

/-- The statistics of one leaf over the nine buckets of `exampleBundleParts`. -/
def exampleBundleStats : List TBucketStats :=
  [⟨1, 1, 0, 0⟩, ⟨2, 1, 0, 0⟩, ⟨3, 2, 0, 0⟩, ⟨-4, 1, 0, 0⟩, ⟨5, 3, 0, 0⟩, ⟨1, 1, 0, 0⟩,
    ⟨1, 2, 0, 0⟩, ⟨-1, 1, 0, 0⟩, ⟨7, 4, 0, 0⟩]

/-- A choice of `UseForCalcScores`: float parts always, categorical parts when their
one-hot size is at most `oneHotMaxSize`. -/
def exampleUseForCalcScores (part : TExclusiveBundlePart) (oneHotMaxSize : Nat) : Bool :=
  decide (part.FeatureType = EFeatureType.Float)
    || decide (part.Bounds.GetSize + 1 ≤ oneHotMaxSize)

/-! ## The calls and the total of a leaf, for every ensemble kind -/

/-- The calls `UpdateScores` makes in one leaf, for every ensemble kind: the float (and
online-ctr) candidates, the one-hot candidates, the binary-pack candidates, or the bundle
candidates. -/
def leafCalls (stats : List TBucketStats) (indexer : TStatsIndexer) (B : Nat)
    (splitEnsembleSpec : TSplitEnsembleSpec) (use : List Bool) (bitCount : Nat) (leaf : Nat) :
    List (TBucketStats × TBucketStats × Nat) :=
  match splitEnsembleSpec.EnsembleType with
  | ESplitEnsembleType.OneFeature =>
    if splitEnsembleSpec.OneSplitType = ESplitType.OneHotFeature then
      (List.range B).map (fun i =>
        (statOf stats indexer leaf i,
          (∑ b ∈ Finset.range B, statOf stats indexer leaf b) - statOf stats indexer leaf i, i))
    else
      (List.range (B - 1)).map (fun i =>
        (∑ b ∈ Finset.Ico (i + 1) B, statOf stats indexer leaf b,
          ∑ b ∈ Finset.range (i + 1), statOf stats indexer leaf b, i))
  | ESplitEnsembleType.BinarySplits =>
    (List.range bitCount).map (fun j =>
      (∑ b ∈ (Finset.range B).filter (fun b => b.testBit j = true), statOf stats indexer leaf b,
        ∑ b ∈ (Finset.range B).filter (fun b => ¬ b.testBit j = true),
          statOf stats indexer leaf b, j))
  | ESplitEnsembleType.ExclusiveBundle =>
    ((List.range splitEnsembleSpec.Parts.length).map
      (bundlePartCalls stats indexer splitEnsembleSpec.Parts use leaf)).flatten

/-- The total statistics of a leaf: the sum over all its buckets; for a bundle, the
all-members-absent bucket plus the buckets of all parts. -/
def leafTotal (stats : List TBucketStats) (indexer : TStatsIndexer) (B : Nat)
    (splitEnsembleSpec : TSplitEnsembleSpec) (leaf : Nat) : TBucketStats :=
  match splitEnsembleSpec.EnsembleType with
  | ESplitEnsembleType.ExclusiveBundle =>
    bundleAllStats stats indexer splitEnsembleSpec.Parts leaf
  | _ => ∑ b ∈ Finset.range B, statOf stats indexer leaf b

/-! ## The composite index of every document: `SetSingleIndex` (scoring.cpp, lines 107-155)

The values of `fold.Indices` (leaf indices), of the bucket column and of `bucketIndexing`
(document indices) are natural numbers below `2^31`, so their conversion to `int` is the
identity; the store into `TFullIndexType` (`ui8`, `ui16` or `ui32`) keeps the low `width`
bits. -/

/-- Conversion of an `int` to the unsigned `TFullIndexType` of `width` bits. -/
def toFullIndexType (width : Nat) (x : Int) : Nat := (x % 2 ^ width).toNat

/-- The statement
`singleIdxRef[doc] = indexer.GetIndex(indices[doc], bucketIndex[originalDocIdx])`
of the three loops of `SetSingleIndex`. -/
def setSingleIdxAt (width : Nat) (indexer : TStatsIndexer) (indices : Option (List Nat))
    (bucketIndex : List Nat) (doc originalDocIdx : Nat) (singleIdx : List Nat) :
    Option (List Nat) := do
  let leaf ← readAt indices doc
  let bucket ← bucketIndex[originalDocIdx]?
  if doc < singleIdx.length then
    pure (singleIdx.set doc (toFullIndexType width (indexer.GetIndex leaf bucket)))
  else none

/-- The `while (blockStart < docIndexRange.End)` loop of the block-permutation branch
(lines 135-147), started at `blockStart`.  `fuel` bounds the number of iterations; the loop
fails when it runs out of fuel before `blockStart` reaches `rangeEnd`.  The difference
`docCount - blockIdx * permBlockSize` is only taken when `blockIdx + 1 = blockCount`, where
`blockIdx * permBlockSize < docCount`. -/
def blockLoop (width : Nat) (indexer : TStatsIndexer) (indices : Option (List Nat))
    (bucketIndex bucketIndexing : List Nat) (docCount permBlockSize blockCount rangeEnd : Nat) :
    Nat → Nat → List Nat → Option (List Nat)
  | 0, blockStart, singleIdx => if blockStart < rangeEnd then none else some singleIdx
  | fuel + 1, blockStart, singleIdx =>
    if blockStart < rangeEnd then do
      let originalBlockIdx ← bucketIndexing[blockStart]?
      let blockIdx := originalBlockIdx / permBlockSize
      let nextBlockStart := min
        (blockStart
          + (if blockIdx + 1 = blockCount then docCount - blockIdx * permBlockSize
            else permBlockSize))
        rangeEnd
      let singleIdx ← (List.range' blockStart (nextBlockStart - blockStart)).foldlM
        (fun singleIdx doc =>
          setSingleIdxAt width indexer indices bucketIndex doc
            (originalBlockIdx + doc - blockStart) singleIdx) singleIdx
      blockLoop width indexer indices bucketIndex bucketIndexing docCount permBlockSize
        blockCount rangeEnd fuel nextBlockStart singleIdx
    else some singleIdx

/-- Function `SetSingleIndex` (lines 109-155) for a `TFullIndexType` of `width` bits.
`bucketIndexing = none` is the null pointer.  The assertion of the block-permutation branch
fails the call.  The block loop gets `End - Begin` units of fuel: every iteration advances
`blockStart` by at least one. -/
def SetSingleIndex (width : Nat) (fold : TCalcScoreFold) (indexer : TStatsIndexer)
    (bucketIndex : List Nat) (bucketIndexing : Option (List Nat)) (bucketBeginOffset : Nat)
    (permBlockSize : Nat) (docIndexRange : TIndexRange) (singleIdx : List Nat) :
    Option (List Nat) :=
  let docCount := fold.DocCount
  let indices := GetDataPtr fold.Indices
  match bucketIndexing with
  | none =>
    docIndexRange.Iter.foldlM (fun singleIdx doc =>
      setSingleIdxAt width indexer indices bucketIndex doc (bucketBeginOffset + doc) singleIdx)
      singleIdx
  | some bucketIndexing =>
    if permBlockSize > 1 then
      let blockCount := (docCount + permBlockSize - 1) / permBlockSize
      do
        let first ← bucketIndexing[0]?
        let asserted ←
          (if first / permBlockSize + 1 = blockCount then some true
          else (bucketIndexing[permBlockSize - 1]?).map
            (fun last => decide (first + permBlockSize - 1 = last)))
        if asserted then
          blockLoop width indexer indices bucketIndex bucketIndexing docCount permBlockSize
            blockCount docIndexRange.End (docIndexRange.End - docIndexRange.Begin)
            docIndexRange.Begin singleIdx
        else none
    else
      docIndexRange.Iter.foldlM (fun singleIdx doc => do
        let originalDocIdx ← bucketIndexing[doc]?
        setSingleIdxAt width indexer indices bucketIndex doc originalDocIdx singleIdx)
        singleIdx

/-- Function `BuildSingleIndex` for a dense quantized column (lines 158-197): the column is
read through the learn permutation unless the permutation block is the whole fold. -/
def BuildSingleIndex (width : Nat) (fold : TCalcScoreFold) (column : List Nat)
    (indexer : TStatsIndexer) (docIndexRange : TIndexRange) (singleIdx : List Nat) :
    Option (List Nat) :=
  let simpleIndexing := decide (fold.NonCtrDataPermutationBlockSize = fold.DocCount)
  let docInDataProviderIndexing :=
    if simpleIndexing then none else some fold.LearnPermutationFeaturesSubset
  let docInDataProviderBeginOffset := if simpleIndexing then fold.FeaturesSubsetBegin else 0
  SetSingleIndex width fold indexer column docInDataProviderIndexing
    docInDataProviderBeginOffset fold.NonCtrDataPermutationBlockSize docIndexRange singleIdx

/-- The original document read for `doc`: `bucketBeginOffset + doc` without a permutation,
`bucketIndexing[doc]` with one. -/
def originalDoc (bucketIndexing : Option (List Nat)) (bucketBeginOffset doc : Nat) : Nat :=
  match bucketIndexing with
  | none => bucketBeginOffset + doc
  | some indexing => indexing.getD doc 0

/-- The documents of original block `j` when `docCount` documents are cut into blocks of
`permBlockSize`: `permBlockSize` consecutive documents, fewer in the last block. -/
def originalBlock (docCount permBlockSize j : Nat) : List Nat :=
  List.range' (j * permBlockSize) (min permBlockSize (docCount - j * permBlockSize))

/-- The block permutation that lists the original blocks in the given order. -/
def blockPermutation (docCount permBlockSize : Nat) (order : List Nat) : List Nat :=
  (order.map (originalBlock docCount permBlockSize)).flatten

/-- A fold of five documents with their leaves. -/
def exampleBlockFold : TCalcScoreFold :=
  { LearnWeights := []
    SampleWeights := []
    SmallestSplitSideValue := true
    DocCount := 5
    Indices := [0, 1, 0, 1, 1] }

/-- The buckets of the five documents, in the original order. -/
def exampleBlockBuckets : List Nat := [0, 1, 2, 1, 0]

/-- The example fold with the leaves of its four documents; the permutation block is the
whole fold, so the bucket column is read without a permutation. -/
def exampleIndexedFold : TCalcScoreFold :=
  { exampleFold with
    DocCount := 4
    Indices := [0, 0, 1, 1]
    NonCtrDataPermutationBlockSize := 4 }

/-! ## The width of the composite index (`CalcStatsAndScores`, lines 1027-1095) -/

/-- Line 1038 of `CalcStatsAndScores`:
`fullIndexBitCount = depth + GetValueBitCount(bucketCount - 1)`; `getValueBitCount` stands
for `GetValueBitCount`, whose definition is not among the sources. -/
def fullIndexBitCount (depth : Nat) (getValueBitCount : Int → Nat) (bucketCount : Int) : Nat :=
  depth + getValueBitCount (bucketCount - 1)

/-- The dispatch of `selectCalcStatsImpl` (lines 1046-1094): the number of bits of the
`TFullIndexType` with which `CalcStatsImpl` is called (`ui8`, `ui16`, `ui32`); `none` when
`fullIndexBitCount > 32`, where `CalcStatsImpl` is not called at all. -/
def selectCalcStatsImpl (fullIndexBitCount : Nat) : Option Nat :=
  if fullIndexBitCount ≤ 8 then some 8
  else if fullIndexBitCount ≤ 16 then some 16
  else if fullIndexBitCount ≤ 32 then some 32
  else none

/-! ## The document range of a partition (`CalcStatsImpl`, lines 571-577) -/

/-- The first statement of the map function of `CalcStatsImpl` (lines 571-577): with query
info, a partition is a range of groups and is mapped to
`[LearnQueriesInfo[Begin].Begin, LearnQueriesInfo[End - 1].End)` (to end `0` when `End ==
0`); without, it is a range of documents already. -/
def mapFuncDocIndexRange (fold : TCalcScoreFold) (indexRange : TIndexRange) :
    Option TIndexRange :=
  if fold.HasQueryInfo then do
    let first ← fold.LearnQueriesInfo[indexRange.Begin]?
    let rangeEnd ←
      (if indexRange.End = 0 then some 0
      else (fold.LearnQueriesInfo[indexRange.End - 1]?).map (fun last => last.End))
    pure ⟨first.Begin, rangeEnd⟩
  else some indexRange

/-- A fold with three contiguous groups over six documents. -/
def exampleGroupFold : TCalcScoreFold :=
  { LearnWeights := []
    SampleWeights := []
    SmallestSplitSideValue := true
    DocCount := 6
    HasQueryInfo := true
    LearnQueriesInfo := [⟨0, 2⟩, ⟨2, 3⟩, ⟨3, 6⟩] }

/-! ## The statistics slices of `CalcStatsImpl` (lines 532-643) -/

/-- The lambda `forEachBodyTailAndApproxDimension` of `CalcStatsImpl` (lines 555-566):
```
const int approxDimension = fold.GetApproxDimension();
for (int bodyTailIdx : xrange(fold.GetBodyTailCount()))
    for (int dim : xrange(approxDimension))
        bodyFunc(bodyTailIdx, dim, (bodyTailIdx * approxDimension + dim) * splitStatsCount);
```
`bodyFunc` works on the state `σ` (the arrays it has captured) and may fail.  The offset is
an array position, computed without overflow (overflow of `int` is undefined in C++). -/
def forEachBodyTailAndApproxDimension {σ : Type} (fold : TCalcScoreFold) (splitStatsCount : Nat)
    (bodyFunc : Nat → Nat → Nat → σ → Option σ) (state : σ) : Option σ :=
  let approxDimension := fold.ApproxDimension
  (List.range fold.BodyTailCount).foldlM (fun state bodyTailIdx =>
    (List.range approxDimension).foldlM (fun state dim =>
      bodyFunc bodyTailIdx dim ((bodyTailIdx * approxDimension + dim) * splitStatsCount) state)
      state) state

/-- The pointer `data + offset` handed to a function that works on a statistics slice:
`f` runs on the array from slot `offset` on and the slots before it are out of its reach.
Forming a pointer past the end of the array fails the call. -/
def atOffset (offset : Nat) (f : List TBucketStats → Option (List TBucketStats))
    (data : List TBucketStats) : Option (List TBucketStats) :=
  if offset ≤ data.length then (f (data.drop offset)).map (fun out => data.take offset ++ out)
  else none

/-- The map function of `CalcStatsImpl` (lines 570-606) for a dense quantized column.
`output` is the holder the function is given: `none` when `output->NonInited()`, in which
case the holder gets `statsCount` slots of its own, allocated without initialisation (their
content is `fresh 0, fresh 1, ...`); an initialised holder is used as it is, after
`Y_ASSERT(docIndexRange.Begin == 0)`, which fails the call.  `singleIdx` is the vector of
composite indices that all partitions share.  Returns `singleIdx` and the data of the
holder. -/
def CalcStatsImplMapFunc (width : Nat) (isCaching : Bool) (fold : TCalcScoreFold)
    (column : List Nat) (indexer : TStatsIndexer) (isPlainMode : Bool) (depth : Nat)
    (splitStatsCount : Nat) (fresh : Nat → TBucketStats) (indexRange : TIndexRange)
    (singleIdx : List Nat) (output : Option (List TBucketStats)) :
    Option (List Nat × List TBucketStats) := do
  let statsCount := fold.BodyTailCount * fold.ApproxDimension * splitStatsCount
  let docIndexRange ← mapFuncDocIndexRange fold indexRange
  let singleIdx ← BuildSingleIndex width fold column indexer docIndexRange singleIdx
  let data ←
    (match output with
    | none => some ((List.range statsCount).map fresh)
    | some data => if docIndexRange.Begin = 0 then some data else none)
  let data ← forEachBodyTailAndApproxDimension fold splitStatsCount
    (fun bodyTailIdx dim bucketStatsArrayBegin data => do
      let bodyTail ← fold.BodyTailArr[bodyTailIdx]?
      atOffset bucketStatsArrayBegin
        (CalcStatsKernel (isCaching && (indexRange.Begin == 0)) singleIdx fold isPlainMode
          indexer depth bodyTail dim docIndexRange) data) data
  pure (singleIdx, data)

/-- The merge function of `CalcStatsImpl` (lines 608-631): for every slice, the first
`filledSplitStatsCount = CalcSize(depth)` slots of the slice of every item of `addVector`
are added to the slice of `output`. -/
def CalcStatsImplMergeFunc (fold : TCalcScoreFold) (indexer : TStatsIndexer) (depth : Nat)
    (splitStatsCount : Nat) (output : List TBucketStats) (addVector : List (List TBucketStats)) :
    Option (List TBucketStats) :=
  let filledSplitStatsCount := indexer.CalcSize depth
  forEachBodyTailAndApproxDimension fold splitStatsCount
    (fun _ _ bucketStatsArrayBegin output =>
      atOffset bucketStatsArrayBegin
        (fun outputStatsSubset =>
          mergeStatsSubset filledSplitStatsCount outputStatsSubset
            (addVector.map (fun addItem => addItem.drop bucketStatsArrayBegin))) output) output

/-- The map phase for the partitions after the first: the map function is run on every
range with a holder of its own, not initialised; `blockId` numbers the partitions.
Returns the shared state of the map function and the data of the holders. -/
def mapOthers {ι σ τ : Type} (mapFunc : Nat → ι → σ → Option τ → Option (σ × τ)) :
    Nat → List ι → σ → Option (σ × List τ)
  | _, [], shared => some (shared, [])
  | blockId, r :: ranges, shared => do
    let (shared, data) ← mapFunc blockId r shared none
    let (shared, rest) ← mapOthers mapFunc (blockId + 1) ranges shared
    pure (shared, data :: rest)

/-- The state after the parallel phase of `MapMerge`: the holder of the caller, on which the
map function of the first range has run, and the holders of the other ranges.  Without
ranges nothing runs. -/
def mapPhase {ι σ τ : Type} (ranges : List ι)
    (mapFunc : Nat → ι → σ → Option τ → Option (σ × τ)) (shared : σ) (output : Option τ) :
    Option (Option τ × List τ) :=
  match ranges with
  | [] => some (output, [])
  | first :: others => do
    let (shared, data) ← mapFunc 0 first shared output
    let (_, addVector) ← mapOthers mapFunc 1 others shared
    pure (some data, addVector)

/-- Modelled from the spec: `NCB::MapMerge` (`map_merge.h` is not among the sources), as the
two functions that `CalcStatsImpl` passes to it require: the map function is run on every
range, on the holder of the caller for the first range and on a holder of its own for
every other range, and the merge function then adds the other holders to the holder of
the caller.  The sources show this much of it: the merge function reads
`output->GetData()`, which nothing but the map function allocates when the caller passes a
holder that is not initialised, and the map function accepts an initialised holder after
`Y_ASSERT(docIndexRange.Begin == 0)`.  The partitions are run one after the other; they
share `singleIdx`, of which each fills its own document range. -/
def MapMerge {ι σ τ : Type} (ranges : List ι)
    (mapFunc : Nat → ι → σ → Option τ → Option (σ × τ))
    (mergeFunc : τ → List τ → Option τ) (shared : σ) (output : Option τ) :
    Option (Option τ) := do
  let (output, addVector) ← mapPhase ranges mapFunc shared output
  match output with
  | none => pure none
  | some data => do
    let merged ← mergeFunc data addVector
    pure (some merged)

/-- The `NCB::MapMerge` call of `CalcStatsImpl` (lines 568-633) for a dense quantized
column.  `ranges` are `fold.GetCalcStatsIndexRanges()`; `garbage` is the content of
`singleIdx` after `yresize(docCount)` and `fresh blockId` the content of the memory that
partition `blockId` allocates. -/
def CalcStatsImplMapMerge (width : Nat) (isCaching : Bool) (fold : TCalcScoreFold)
    (column : List Nat) (indexer : TStatsIndexer) (isPlainMode : Bool) (depth : Nat)
    (splitStatsCount : Nat) (garbage : Nat → Nat) (fresh : Nat → Nat → TBucketStats)
    (ranges : List TIndexRange) (stats : Option (List TBucketStats)) :
    Option (Option (List TBucketStats)) :=
  let singleIdx := (List.range fold.DocCount).map garbage
  MapMerge ranges
    (fun blockId indexRange singleIdx output =>
      CalcStatsImplMapFunc width isCaching fold column indexer isPlainMode depth
        splitStatsCount (fresh blockId) indexRange singleIdx output)
    (CalcStatsImplMergeFunc fold indexer depth splitStatsCount) singleIdx stats

/-- The last loop of `CalcStatsImpl` (lines 635-642): `FixUpStats` on every slice. -/
def CalcStatsImplFixUp (fold : TCalcScoreFold) (indexer : TStatsIndexer) (depth : Nat)
    (splitStatsCount : Nat) (data : List TBucketStats) : Option (List TBucketStats) :=
  forEachBodyTailAndApproxDimension fold splitStatsCount
    (fun _ _ bucketStatsArrayBegin data =>
      atOffset bucketStatsArrayBegin (FixUpStats depth indexer fold.SmallestSplitSideValue) data)
    data

/-- Function `CalcStatsImpl` (lines 532-643) for a dense quantized column: the assertion
`!isCaching || depth > 0` fails the call, and so does reading the data of a holder that is
not initialised; the map and merge phases are followed, `if (isCaching)`, by the
`FixUpStats` loop. -/
def CalcStatsImpl (width : Nat) (isCaching : Bool) (fold : TCalcScoreFold) (column : List Nat)
    (indexer : TStatsIndexer) (isPlainMode : Bool) (depth : Nat) (splitStatsCount : Nat)
    (garbage : Nat → Nat) (fresh : Nat → Nat → TBucketStats) (ranges : List TIndexRange)
    (stats : Option (List TBucketStats)) : Option (Option (List TBucketStats)) :=
  if isCaching = true ∧ depth = 0 then none
  else do
    let stats ← CalcStatsImplMapMerge width isCaching fold column indexer isPlainMode depth
      splitStatsCount garbage fresh ranges stats
    if isCaching = true then do
      let data ← stats
      let data ← CalcStatsImplFixUp fold indexer depth splitStatsCount data
      pure (some data)
    else pure stats

/-- The argument `bucketStatsArrayBegin` that `forEachBodyTailAndApproxDimension` passes for
the pair `(bodyTailIdx, dim)`; `CalculateNonPairwiseScore` (line 983) reads the slice of the
pair from the same offset. -/
def statsSliceBegin (fold : TCalcScoreFold) (splitStatsCount bodyTailIdx dim : Nat) : Nat :=
  (bodyTailIdx * fold.ApproxDimension + dim) * splitStatsCount

/-- The pairs `(bodyTailIdx, dim)` in the order in which the slices are visited. -/
def slicePairs (fold : TCalcScoreFold) : List (Nat × Nat) :=
  ((List.range fold.BodyTailCount).map (fun bodyTailIdx =>
    (List.range fold.ApproxDimension).map (fun dim => (bodyTailIdx, dim)))).flatten

/-- A function on a statistics slice that returns for every slice of at least `n` slots
and changes nothing from slot `n` on. -/
def ConfinedTo (n : Nat) (f : List TBucketStats → Option (List TBucketStats)) : Prop :=
  ∀ slice : List TBucketStats, n ≤ slice.length →
    ∃ out, f slice = some out ∧ out.length = slice.length ∧ ∀ s, n ≤ s → out[s]? = slice[s]?

/-- A fold with two body/tail segments and one dimension over the four example documents. -/
def exampleSliceFold : TCalcScoreFold :=
  { exampleIndexedFold with
    BodyTailArr := [exampleBodyTail, { exampleBodyTail with BodyFinish := 1, TailFinish := 3 }]
    BodyTailCount := 2
    ApproxDimension := 1 }

/-- A statistics array of two slices of eight slots. -/
def exampleShared : List TBucketStats := List.replicate 16 ⟨7, 7, 7, 7⟩

/-- The output array of the example after the parallel phase on the partitions `[0, 2)`,
`[2, 4)` (plain mode, depth 1, three buckets, slices of eight slots). -/
def exampleMapOutput : List TBucketStats :=
  [⟨-1, 1, 0, 0⟩, ⟨2, 1, 0, 0⟩, 0, 0, 0, 0, ⟨7, 7, 7, 7⟩, ⟨7, 7, 7, 7⟩,
    ⟨-1, 1, 0, 0⟩, ⟨2, 1, 0, 0⟩, 0, 0, 0, 0, ⟨7, 7, 7, 7⟩, ⟨7, 7, 7, 7⟩]

/-- The buffer of the second partition of the example after the parallel phase. -/
def exampleMapPrivate : List TBucketStats :=
  [0, 0, 0, 0, ⟨-1 / 2, 1, 0, 0⟩, ⟨1 / 2, 1, 0, 0⟩, ⟨5, 5, 5, 5⟩, ⟨5, 5, 5, 5⟩,
    0, 0, 0, 0, 0, ⟨1 / 2, 1, 0, 0⟩, ⟨5, 5, 5, 5⟩, ⟨5, 5, 5, 5⟩]

/-! ## The statistics step of pointwise scoring (`CalcStatsAndScores`, lines 1124-1175) -/

/-- The arguments of a call `selectCalcStatsImpl(isCaching, fold, splitStatsCount, stats)`. -/
structure TCalcStatsImplCall where
  IsCaching : Bool
  Fold : TCalcScoreFold
  SplitStatsCount : Int
  Stats : Option (List TBucketStats)

/-- The call of `selectCalcStatsImpl` that the pointwise branch of `CalcStatsAndScores`
makes (lines 1124-1175, with `stats3d == nullptr`).  Without tree-level caching the
statistics are computed into a holder that is not initialised, with slices of
`CalcSize(depth)` slots.  With it, `splitStatsFromCache` and `areStatsDirty` are what
`statsFromPrevTree->GetStats(splitEnsemble, splitStatsCount, &areStatsDirty)` returns
(`calc_score_cache.h` is not among the sources), the slices have `CalcSize(MaxDepth)` slots,
and
```
if (depth == 0 || areStatsDirty)
    selectCalcStatsImpl(std::false_type(), fold, splitStatsCount, &extOrInSplitStats);
else
    selectCalcStatsImpl(std::true_type(), prevLevelData, splitStatsCount, &extOrInSplitStats);
``` -/
def pointwiseCalcStatsImplCall (useTreeLevelCaching : Bool) (fold prevLevelData : TCalcScoreFold)
    (indexer : TStatsIndexer) (depth maxDepth : Nat) (splitStatsFromCache : List TBucketStats)
    (areStatsDirty : Bool) : TCalcStatsImplCall :=
  if !useTreeLevelCaching then
    ⟨false, fold, indexer.CalcSize depth, none⟩
  else
    let splitStatsCount := indexer.CalcSize maxDepth
    let extOrInSplitStats := some splitStatsFromCache
    if depth = 0 ∨ areStatsDirty = true then
      ⟨false, fold, splitStatsCount, extOrInSplitStats⟩
    else
      ⟨true, prevLevelData, splitStatsCount, extOrInSplitStats⟩

/-- The lambda `selectCalcStatsImpl` of `CalcStatsAndScores` (lines 1041-1095) run on a
call: `CalcStatsImpl` is instantiated with the index type of `fullIndexBitCount` bits;
above 32 bits nothing is called and the holder stays as it is.  `calcStatsIndexRanges`
stands for `GetCalcStatsIndexRanges()` of the fold of the call. -/
def runCalcStatsImplCall (fullIndexBitCount : Nat) (column : List Nat) (indexer : TStatsIndexer)
    (isPlainMode : Bool) (depth : Nat) (garbage : Nat → Nat) (fresh : Nat → Nat → TBucketStats)
    (calcStatsIndexRanges : TCalcScoreFold → List TIndexRange) (call : TCalcStatsImplCall) :
    Option (Option (List TBucketStats)) :=
  match selectCalcStatsImpl fullIndexBitCount with
  | some width =>
    CalcStatsImpl width call.IsCaching call.Fold column indexer isPlainMode depth
      call.SplitStatsCount.toNat garbage fresh (calcStatsIndexRanges call.Fold) call.Stats
  | none => some call.Stats

/-- The statistics step of the pointwise branch of `CalcStatsAndScores`. -/
def CalcStatsAndScoresStats (useTreeLevelCaching : Bool) (fullIndexBitCount : Nat)
    (fold prevLevelData : TCalcScoreFold) (column : List Nat) (indexer : TStatsIndexer)
    (isPlainMode : Bool) (depth maxDepth : Nat) (garbage : Nat → Nat)
    (fresh : Nat → Nat → TBucketStats)
    (calcStatsIndexRanges : TCalcScoreFold → List TIndexRange)
    (splitStatsFromCache : List TBucketStats) (areStatsDirty : Bool) :
    Option (Option (List TBucketStats)) :=
  runCalcStatsImplCall fullIndexBitCount column indexer isPlainMode depth garbage fresh
    calcStatsIndexRanges
    (pointwiseCalcStatsImplCall useTreeLevelCaching fold prevLevelData indexer depth maxDepth
      splitStatsFromCache areStatsDirty)

/-! ## The score calcer and the monotonic-constraint path of `UpdateScores`
(scoring.cpp, lines 645-744 and 903-941) -/

/-- A call that the scoring code makes on `IPointwiseScoreCalcer* scoreCalcer` (the class is
declared in a header that is not among the sources).  The calcer is represented by the
list of the calls it has received. -/
inductive TScoreCalcerCall
  | SetSplitsCount (splitsCount : Nat)
  | SetL2Regularizer (l2Regularizer : ℚ)
  | AddLeafPlain (splitIdx : Nat) (leftStats rightStats : TBucketStats)
  | AddLeafOrdered (splitIdx : Nat) (leftStats rightStats : TBucketStats)
  | AddLeaf (splitIdx : Nat) (leafApprox : ℚ) (leafStats : TBucketStats)
deriving DecidableEq

/-- Function `UpdateSplitScore` (lines 645-658). -/
def UpdateSplitScore (isPlainMode : Bool) (trueStats falseStats : TBucketStats) (splitIdx : Nat)
    (scoreCalcer : List TScoreCalcerCall) : List TScoreCalcerCall :=
  if isPlainMode then
    scoreCalcer ++ [TScoreCalcerCall.AddLeafPlain splitIdx falseStats trueStats]
  else
    scoreCalcer ++ [TScoreCalcerCall.AddLeafOrdered splitIdx falseStats trueStats]

/-- Modelled from the spec: `CalcAverage` (`online_predictor.h` is not among the sources),
the ridge-regularised leaf estimator `average(sum, weight, λ) = sum / (weight + λ)`. -/
def CalcAverage (sumDelta count scaledL2Regularizer : ℚ) : ℚ :=
  sumDelta / (count + scaledL2Regularizer)

/-- The local state of `UpdateScores` (lines 678-682) together with the calcer. -/
structure TUpdateScoresState where
  leafDeltas : List (List ℚ)
  bodyLeafWeights : List (List ℚ)
  tailLeafSumWeightedDers : List (List ℚ)
  tailLeafWeights : List (List ℚ)
  leafsProcessed : List Nat
  scoreCalcer : List TScoreCalcerCall
deriving DecidableEq

/-- The assignment `vec[splitIdx][leafId] = value`; fails outside the vectors. -/
def setEntry (vec : List (List ℚ)) (splitIdx leafId : Nat) (value : ℚ) :
    Option (List (List ℚ)) := do
  let row ← vec[splitIdx]?
  if leafId < row.length then pure (vec.set splitIdx (row.set leafId value)) else none

/-- The body of the loop `for (const auto leafStats : {&falseStats, &trueStats})` of the
closure (lines 715-740); `calcAverage` stands for `CalcAverage`.  Returns the state and
`currLeafId + leafCount`. -/
def storeLeafStats (calcAverage : ℚ → ℚ → ℚ → ℚ) (isPlainMode : Bool) (leafCount : Nat)
    (scaledL2Regularizer : ℚ) (splitIdx : Nat) (acc : TUpdateScoresState × Nat)
    (leafStats : TBucketStats) : Option (TUpdateScoresState × Nat) := do
  let state := acc.1
  let currLeafId := acc.2
  let bodyLeafWeight := if isPlainMode then leafStats.SumWeight else leafStats.Count
  let leafDeltas ← setEntry state.leafDeltas splitIdx currLeafId
    (if isPlainMode then calcAverage leafStats.SumWeightedDelta bodyLeafWeight scaledL2Regularizer
      else calcAverage leafStats.SumDelta bodyLeafWeight scaledL2Regularizer)
  let bodyLeafWeights ← setEntry state.bodyLeafWeights splitIdx currLeafId
    (bodyLeafWeight + scaledL2Regularizer)
  let tailLeafWeights ← setEntry state.tailLeafWeights splitIdx currLeafId leafStats.SumWeight
  let tailLeafSumWeightedDers ← setEntry state.tailLeafSumWeightedDers splitIdx currLeafId
    leafStats.SumWeightedDelta
  pure ({ state with
      leafDeltas := leafDeltas
      bodyLeafWeights := bodyLeafWeights
      tailLeafWeights := tailLeafWeights
      tailLeafSumWeightedDers := tailLeafSumWeightedDers }, currLeafId + leafCount)

/-- The lambda `updateSplitScoreClosure` of `UpdateScores` (lines 700-744).  Without
monotonic constraints it is `UpdateSplitScore`; with them it stores the statistics of the
two sides at `currLeafId = leafsProcessed[splitIdx]` and `currLeafId + leafCount`, after
`Y_ASSERT(currLeafId < leafCount)`, which fails the call. -/
def updateSplitScoreClosure (calcAverage : ℚ → ℚ → ℚ → ℚ)
    (isPlainMode haveMonotonicConstraints : Bool) (leafCount : Nat) (scaledL2Regularizer : ℚ)
    (state : TUpdateScoresState) (trueStats falseStats : TBucketStats) (splitIdx : Nat) :
    Option TUpdateScoresState :=
  if !haveMonotonicConstraints then
    some { state with
      scoreCalcer := UpdateSplitScore isPlainMode trueStats falseStats splitIdx state.scoreCalcer }
  else do
    let currLeafId ← state.leafsProcessed[splitIdx]?
    if currLeafId < leafCount then do
      let acc ← [falseStats, trueStats].foldlM
        (storeLeafStats calcAverage isPlainMode leafCount scaledL2Regularizer splitIdx)
        (state, currLeafId)
      pure { acc.1 with leafsProcessed := acc.1.leafsProcessed.set splitIdx (currLeafId + 1) }
    else none

/-- The state of `UpdateScores` before the leaf loop (lines 677-699): with monotonic
constraints the four tables get `GetSplitsCount()` rows of `2 * leafCount` zeros and
`leafsProcessed` gets `GetSplitsCount()` zeros; without, they stay empty. -/
def initialUpdateScoresState (haveMonotonicConstraints : Bool) (splitsCount leafCount : Nat)
    (scoreCalcer : List TScoreCalcerCall) : TUpdateScoresState :=
  if haveMonotonicConstraints then
    { leafDeltas := List.replicate splitsCount (List.replicate (2 * leafCount) 0)
      bodyLeafWeights := List.replicate splitsCount (List.replicate (2 * leafCount) 0)
      tailLeafSumWeightedDers := List.replicate splitsCount (List.replicate (2 * leafCount) 0)
      tailLeafWeights := List.replicate splitsCount (List.replicate (2 * leafCount) 0)
      leafsProcessed := List.replicate splitsCount 0
      scoreCalcer := scoreCalcer }
  else
    { leafDeltas := []
      bodyLeafWeights := []
      tailLeafSumWeightedDers := []
      tailLeafWeights := []
      leafsProcessed := []
      scoreCalcer := scoreCalcer }

/-- The isotonic projection of one candidate (lines 918-925):
`CalcOneDimensionalIsotonicRegression(leafDeltas[splitIdx], bodyLeafWeights[splitIdx],
monotonicSubtreeIndexOrder, &leafDeltas[splitIdx])` for every order of `indexOrder`, one
after the other; `isotonicRegression values weights order solution` stands for the
regression. -/
def projectLeafDeltas
    (isotonicRegression : List ℚ → List ℚ → List Nat → List ℚ → Option (List ℚ))
    (weights : List ℚ) (indexOrder : List (List Nat)) (leafDeltas : List ℚ) :
    Option (List ℚ) :=
  indexOrder.foldlM (fun leafDeltas monotonicSubtreeIndexOrder =>
    isotonicRegression leafDeltas weights monotonicSubtreeIndexOrder leafDeltas) leafDeltas

/-- The last block of `UpdateScores` (lines 903-940), run when `haveMonotonicConstraints`:
for every candidate the leaf values are projected along the linear orders that
`buildMonotonicLinearOrdersOnLeafs` (for `BuildMonotonicLinearOrdersOnLeafs`) gives for the
constraints of the current tree followed by the constraint of the candidate, and every one
of the `2 * leafCount` leaves is passed to `AddLeaf` with the statistics
`{tailLeafSumWeightedDers, tailLeafWeights, 0, 0}`. -/
def monotonicPostProcessing
    (buildMonotonicLinearOrdersOnLeafs : List Int → List (List Nat))
    (isotonicRegression : List ℚ → List ℚ → List Nat → List ℚ → Option (List ℚ))
    (leafCount splitsCount : Nat)
    (currTreeMonotonicConstraints candidateSplitMonotonicConstraints : List Int)
    (state : TUpdateScoresState) : Option TUpdateScoresState :=
  if state.leafDeltas.all (fun vec => vec.length == 2 * leafCount) then
    (List.range splitsCount).foldlM (fun state splitIdx => do
      let constraint ← candidateSplitMonotonicConstraints[splitIdx]?
      let indexOrder :=
        buildMonotonicLinearOrdersOnLeafs (currTreeMonotonicConstraints ++ [constraint])
      let deltas ← state.leafDeltas[splitIdx]?
      let weights ← state.bodyLeafWeights[splitIdx]?
      let deltas ← projectLeafDeltas isotonicRegression weights indexOrder deltas
      let state := { state with leafDeltas := state.leafDeltas.set splitIdx deltas }
      (List.range (2 * leafCount)).foldlM (fun state leafIndex => do
        let leafDelta ← deltas[leafIndex]?
        let ders ← state.tailLeafSumWeightedDers[splitIdx]?
        let der ← ders[leafIndex]?
        let tailWeights ← state.tailLeafWeights[splitIdx]?
        let weight ← tailWeights[leafIndex]?
        pure { state with
          scoreCalcer := state.scoreCalcer
            ++ [TScoreCalcerCall.AddLeaf splitIdx leafDelta ⟨der, weight, 0, 0⟩] }) state) state
  else none

/-- Function `UpdateScores` (lines 664-941) in full; its loop over the leaves is
`UpdateScores` above.  `splitsCount` is `scoreCalcer->GetSplitsCount()`.  The assertion
`haveMonotonicConstraints == !candidateSplitMonotonicConstraints.empty()` fails the call.
Returns the calcer. -/
def UpdateScoresOfCalcer (calcAverage : ℚ → ℚ → ℚ → ℚ)
    (buildMonotonicLinearOrdersOnLeafs : List Int → List (List Nat))
    (isotonicRegression : List ℚ → List ℚ → List Nat → List ℚ → Option (List ℚ))
    (stats : List TBucketStats) (leafCount : Nat) (indexer : TStatsIndexer)
    (splitEnsembleSpec : TSplitEnsembleSpec) (scaledL2Regularizer : ℚ)
    (isPlainMode haveMonotonicConstraints : Bool) (oneHotMaxSize : Nat)
    (currTreeMonotonicConstraints candidateSplitMonotonicConstraints : List Int)
    (useForCalcScores : TExclusiveBundlePart → Nat → Bool) (getValueBitCount : Int → Nat)
    (splitsCount : Nat) (scoreCalcer : List TScoreCalcerCall) :
    Option (List TScoreCalcerCall) :=
  if haveMonotonicConstraints = !candidateSplitMonotonicConstraints.isEmpty then do
    let state ← UpdateScores
      (updateSplitScoreClosure calcAverage isPlainMode haveMonotonicConstraints leafCount
        scaledL2Regularizer)
      stats (leafCount : Int) indexer splitEnsembleSpec oneHotMaxSize useForCalcScores
      getValueBitCount
      (initialUpdateScoresState haveMonotonicConstraints splitsCount leafCount scoreCalcer)
    let state ←
      (if haveMonotonicConstraints then
        monotonicPostProcessing buildMonotonicLinearOrdersOnLeafs isotonicRegression leafCount
          splitsCount currTreeMonotonicConstraints candidateSplitMonotonicConstraints state
      else some state)
    pure state.scoreCalcer
  else none

/-- The fields of `TFold::TBodyTail` read by `CalculateNonPairwiseScore` (`fold.h` is not
among the sources). -/
structure TFoldBodyTail where
  BodySumWeight : ℚ
  BodyFinish : Int

/-- Function `CalculateNonPairwiseScore` (lines 944-993): for every body/tail segment the
regulariser is scaled and set, and `UpdateScores` is run on the slice of every dimension,
with `haveMonotonicConstraints = !candidateSplitMonotonicConstraints.empty()`.
`initialFoldBodyTailArr` is `initialFold.BodyTailArr`. -/
def CalculateNonPairwiseScore (calcAverage : ℚ → ℚ → ℚ → ℚ)
    (buildMonotonicLinearOrdersOnLeafs : List Int → List (List Nat))
    (isotonicRegression : List ℚ → List ℚ → List Nat → List ℚ → Option (List ℚ))
    (fold : TCalcScoreFold) (initialFoldBodyTailArr : List TFoldBodyTail)
    (splitEnsembleSpec : TSplitEnsembleSpec) (isPlainMode : Bool) (leafCount : Nat)
    (l2Regularizer : ℚ) (oneHotMaxSize : Nat) (indexer : TStatsIndexer)
    (splitStats : List TBucketStats) (splitStatsCount : Nat)
    (currTreeMonotonicConstraints candidateSplitMonotonicConstraints : List Int)
    (useForCalcScores : TExclusiveBundlePart → Nat → Bool) (getValueBitCount : Int → Nat)
    (splitsCount : Nat) (scoreCalcer : List TScoreCalcerCall) :
    Option (List TScoreCalcerCall) :=
  let approxDimension := fold.ApproxDimension
  let haveMonotonicConstraints := !candidateSplitMonotonicConstraints.isEmpty
  (List.range fold.BodyTailCount).foldlM (fun scoreCalcer bodyTailIdx => do
    let bodyTail ← initialFoldBodyTailArr[bodyTailIdx]?
    let sumAllWeights := bodyTail.BodySumWeight
    let docCount := bodyTail.BodyFinish
    let scaledL2Regularizer := l2Regularizer * (sumAllWeights / docCount)
    let scoreCalcer := scoreCalcer ++ [TScoreCalcerCall.SetL2Regularizer scaledL2Regularizer]
    (List.range approxDimension).foldlM (fun scoreCalcer dim =>
      let offset := (bodyTailIdx * approxDimension + dim) * splitStatsCount
      if offset ≤ splitStats.length then
        UpdateScoresOfCalcer calcAverage buildMonotonicLinearOrdersOnLeafs isotonicRegression
          (splitStats.drop offset) leafCount indexer splitEnsembleSpec scaledL2Regularizer
          isPlainMode haveMonotonicConstraints oneHotMaxSize currTreeMonotonicConstraints
          candidateSplitMonotonicConstraints useForCalcScores getValueBitCount splitsCount
          scoreCalcer
      else none) scoreCalcer) scoreCalcer

/-- The fields of a split read by `CalcStatsAndScores`; `SplitType` is the field `Type`. -/
structure TSplit where
  SplitType : ESplitType
  FeatureIdx : Int

/-- The vector `candidateSplitMonotonicConstraints` of `CalcStatsAndScores` (lines
1201-1214): empty when `monotonicConstraints` is empty; otherwise one entry per candidate,
`monotonicConstraints[split.FeatureIdx]` for a float split and `0` for any other.
`getSplit` stands for `candidateInfo.GetSplit`; the assertion `split.FeatureIdx >= 0`
fails the call. -/
def candidateSplitMonotonicConstraintsOf (monotonicConstraints : List Int)
    (candidateSplitCount : Nat) (getSplit : Nat → TSplit) : Option (List Int) :=
  if !monotonicConstraints.isEmpty then
    (List.range candidateSplitCount).foldlM (fun candidateConstraints splitIdx =>
      let split := getSplit splitIdx
      if split.SplitType = ESplitType.FloatFeature then
        if 0 ≤ split.FeatureIdx then do
          let constraint ← monotonicConstraints[split.FeatureIdx.toNat]?
          pure (candidateConstraints.set splitIdx constraint)
        else none
      else some candidateConstraints) (List.replicate candidateSplitCount 0)
  else some []

/-- The scoring step of the pointwise branch of `CalcStatsAndScores` (lines 1189-1231),
run `if (scoreCalcer)`: `leafCount = 1 << depth`, the calcer is told the number of
candidates (`candidateSplitCount`, the result of `CalcSplitsCount`), the candidate
constraints are collected and `CalculateNonPairwiseScore` is run on the statistics. -/
def CalcStatsAndScoresScores (calcAverage : ℚ → ℚ → ℚ → ℚ)
    (buildMonotonicLinearOrdersOnLeafs : List Int → List (List Nat))
    (isotonicRegression : List ℚ → List ℚ → List Nat → List ℚ → Option (List ℚ))
    (fold : TCalcScoreFold) (initialFoldBodyTailArr : List TFoldBodyTail)
    (splitEnsembleSpec : TSplitEnsembleSpec) (isPlainMode : Bool) (depth : Nat)
    (l2Regularizer : ℚ) (oneHotMaxSize : Nat) (indexer : TStatsIndexer)
    (splitStats : List TBucketStats) (splitStatsCount : Nat)
    (currTreeMonotonicConstraints monotonicConstraints : List Int)
    (candidateSplitCount : Nat) (getSplit : Nat → TSplit)
    (useForCalcScores : TExclusiveBundlePart → Nat → Bool) (getValueBitCount : Int → Nat)
    (scoreCalcer : List TScoreCalcerCall) : Option (List TScoreCalcerCall) := do
  let leafCount := 2 ^ depth
  let scoreCalcer := scoreCalcer ++ [TScoreCalcerCall.SetSplitsCount candidateSplitCount]
  let candidateSplitMonotonicConstraints ←
    candidateSplitMonotonicConstraintsOf monotonicConstraints candidateSplitCount getSplit
  CalculateNonPairwiseScore calcAverage buildMonotonicLinearOrdersOnLeafs isotonicRegression
    fold initialFoldBodyTailArr splitEnsembleSpec isPlainMode leafCount l2Regularizer
    oneHotMaxSize indexer splitStats splitStatsCount currTreeMonotonicConstraints
    candidateSplitMonotonicConstraints useForCalcScores getValueBitCount candidateSplitCount
    scoreCalcer

/-- The calls `AddLeafPlain` and `AddLeafOrdered`, which only `UpdateSplitScore` makes. -/
def TScoreCalcerCall.isUpdateSplitScore : TScoreCalcerCall → Bool
  | TScoreCalcerCall.AddLeafPlain _ _ _ => true
  | TScoreCalcerCall.AddLeafOrdered _ _ _ => true
  | _ => false

/-- The call `AddLeaf`, which only the monotonic-constraint path makes. -/
def TScoreCalcerCall.isAddLeaf : TScoreCalcerCall → Bool
  | TScoreCalcerCall.AddLeaf _ _ _ => true
  | _ => false

/-- The calcer `after` has received the calls of `before` and then only calls that
satisfy `q`. -/
def AddsOnly (q : TScoreCalcerCall → Bool) (before after : List TScoreCalcerCall) : Prop :=
  ∃ added, after = before ++ added ∧ ∀ e ∈ added, q e = true

/-- The fold of the scoring example: one body/tail segment, one dimension. -/
def exampleScoreFold : TCalcScoreFold :=
  { exampleFold with BodyTailCount := 1, ApproxDimension := 1 }

/-- The calls that the engaged monotonic path makes in the scoring example (plain mode,
depth 1, three buckets, regulariser 1) when every leaf is an order of its own. -/
def exampleMonotonicCalls : List TScoreCalcerCall :=
  [TScoreCalcerCall.SetSplitsCount 2, TScoreCalcerCall.SetL2Regularizer 1,
    TScoreCalcerCall.AddLeaf 0 (-1 / 2) ⟨-1, 1, 0, 0⟩, TScoreCalcerCall.AddLeaf 0 0 ⟨0, 0, 0, 0⟩,
    TScoreCalcerCall.AddLeaf 0 1 ⟨2, 1, 0, 0⟩, TScoreCalcerCall.AddLeaf 0 0 ⟨0, 2, 0, 0⟩,
    TScoreCalcerCall.AddLeaf 1 (1 / 3) ⟨1, 2, 0, 0⟩,
    TScoreCalcerCall.AddLeaf 1 (-1 / 4) ⟨-1 / 2, 1, 0, 0⟩,
    TScoreCalcerCall.AddLeaf 1 0 ⟨0, 0, 0, 0⟩, TScoreCalcerCall.AddLeaf 1 (1 / 4) ⟨1 / 2, 1, 0, 0⟩]

/-- The calls of the unconstrained update in the same example. -/
def exampleUnconstrainedCalls : List TScoreCalcerCall :=
  [TScoreCalcerCall.SetSplitsCount 2, TScoreCalcerCall.SetL2Regularizer 1,
    TScoreCalcerCall.AddLeafPlain 0 ⟨-1, 1, 0, 0⟩ ⟨2, 1, 0, 0⟩,
    TScoreCalcerCall.AddLeafPlain 1 ⟨1, 2, 0, 0⟩ ⟨0, 0, 0, 0⟩,
    TScoreCalcerCall.AddLeafPlain 0 ⟨0, 0, 0, 0⟩ ⟨0, 2, 0, 0⟩,
    TScoreCalcerCall.AddLeafPlain 1 ⟨-1 / 2, 1, 0, 0⟩ ⟨1 / 2, 1, 0, 0⟩]

/-- The four values that the closure stores for one side `leafStats` of a split (lines
717-738): the unconstrained leaf value, the regression weight, and the tail statistics
`SumWeightedDelta` and `SumWeight`. -/
def leafEntry (calcAverage : ℚ → ℚ → ℚ → ℚ) (isPlainMode : Bool) (scaledL2Regularizer : ℚ)
    (leafStats : TBucketStats) : ℚ × ℚ × ℚ × ℚ :=
  (if isPlainMode then
      calcAverage leafStats.SumWeightedDelta leafStats.SumWeight scaledL2Regularizer
    else calcAverage leafStats.SumDelta leafStats.Count scaledL2Regularizer,
    (if isPlainMode then leafStats.SumWeight else leafStats.Count) + scaledL2Regularizer,
    leafStats.SumWeightedDelta, leafStats.SumWeight)

/-- The entry `vec[splitIdx][leafId]` (zero outside the table). -/
def entryAt (vec : List (List ℚ)) (splitIdx leafId : Nat) : ℚ :=
  (vec.getD splitIdx []).getD leafId 0

/-- What the four tables hold for candidate `splitIdx` at position `leafId`:
`(leafDeltas, bodyLeafWeights, tailLeafSumWeightedDers, tailLeafWeights)`. -/
def stateEntry (state : TUpdateScoresState) (splitIdx leafId : Nat) : ℚ × ℚ × ℚ × ℚ :=
  (entryAt state.leafDeltas splitIdx leafId, entryAt state.bodyLeafWeights splitIdx leafId,
    entryAt state.tailLeafSumWeightedDers splitIdx leafId,
    entryAt state.tailLeafWeights splitIdx leafId)

/-- The tables of the state have `splitsCount` rows of `2 * leafCount` entries. -/
def TablesSized (splitsCount leafCount : Nat) (state : TUpdateScoresState) : Prop :=
  state.leafsProcessed.length = splitsCount ∧
  ∀ vec ∈ [state.leafDeltas, state.bodyLeafWeights, state.tailLeafSumWeightedDers,
      state.tailLeafWeights],
    vec.length = splitsCount ∧ ∀ row ∈ vec, row.length = 2 * leafCount

/-- The updates of candidate `splitIdx` among `calls`, in order. -/
def updatesOf (calls : List (TBucketStats × TBucketStats × Nat)) (splitIdx : Nat) :
    List (TBucketStats × TBucketStats × Nat) :=
  calls.filter (fun call => call.2.2 = splitIdx)

/-- What position `leafId` of a candidate holds after the updates `updates` of that
candidate: the entry of the false side of update `leafId`, the entry of the true side of
update `leafId - leafCount`, or the initial zeros. -/
def expectedEntry (calcAverage : ℚ → ℚ → ℚ → ℚ) (isPlainMode : Bool)
    (scaledL2Regularizer : ℚ) (leafCount : Nat)
    (updates : List (TBucketStats × TBucketStats × Nat)) (leafId : Nat) : ℚ × ℚ × ℚ × ℚ :=
  if leafId < updates.length then
    leafEntry calcAverage isPlainMode scaledL2Regularizer (updates.getD leafId (0, 0, 0)).2.1
  else if leafCount ≤ leafId ∧ leafId - leafCount < updates.length then
    leafEntry calcAverage isPlainMode scaledL2Regularizer
      (updates.getD (leafId - leafCount) (0, 0, 0)).1
  else (0, 0, 0, 0)

/-- The state after the updates `calls`: the tables are sized, the calcer has received
nothing, `leafsProcessed` counts the updates of every candidate and every position holds
its `expectedEntry`. -/
def Recorded (calcAverage : ℚ → ℚ → ℚ → ℚ) (isPlainMode : Bool) (scaledL2Regularizer : ℚ)
    (splitsCount leafCount : Nat) (scoreCalcer : List TScoreCalcerCall)
    (calls : List (TBucketStats × TBucketStats × Nat)) (state : TUpdateScoresState) : Prop :=
  TablesSized splitsCount leafCount state ∧ state.scoreCalcer = scoreCalcer ∧
  (∀ c, c < splitsCount → state.leafsProcessed.getD c 0 = (updatesOf calls c).length) ∧
  ∀ c p, c < splitsCount →
    stateEntry state c p
      = expectedEntry calcAverage isPlainMode scaledL2Regularizer leafCount (updatesOf calls c) p

/-- The `AddLeaf` calls of the last block of `UpdateScores`: for every candidate, in order,
one call per position `leafIndex < 2 * leafCount` with the leaf value
`leafDelta splitIdx leafIndex` and the statistics
`{tailLeafSumWeightedDers[splitIdx][leafIndex], tailLeafWeights[splitIdx][leafIndex], 0, 0}`. -/
def addLeafCalls (leafDelta : Nat → Nat → ℚ) (tailLeafSumWeightedDers tailLeafWeights :
    List (List ℚ)) (splitsCount leafCount : Nat) : List TScoreCalcerCall :=
  ((List.range splitsCount).map (fun splitIdx =>
    (List.range (2 * leafCount)).map (fun leafIndex =>
      TScoreCalcerCall.AddLeaf splitIdx (leafDelta splitIdx leafIndex)
        ⟨entryAt tailLeafSumWeightedDers splitIdx leafIndex,
          entryAt tailLeafWeights splitIdx leafIndex, 0, 0⟩))).flatten

/-! ## `GetScores` (scoring.cpp, lines 1235-1283) -/

/-- The score functions (the enum is declared in a header that is not among the sources):
`Cosine`, `L2`, and any other enumerator. -/
inductive EScoreFunction
  | Cosine
  | L2
  | Other (code : Nat)
deriving DecidableEq

/-- The fields of `TStats3D` read by `GetScores`. -/
structure TStats3D where
  Stats : List TBucketStats
  BucketCount : Int
  MaxLeafCount : Int
  SplitEnsembleSpec : TSplitEnsembleSpec

/-- The number of candidates that the calcer has been told by its last `SetSplitsCount`
(`0` before the first). -/
def splitsCountOf (calls : List TScoreCalcerCall) : Nat :=
  calls.foldl (fun splitsCount call =>
    match call with
    | TScoreCalcerCall.SetSplitsCount n => n
    | _ => splitsCount) 0

/-- Modelled from the spec: `IPointwiseScoreCalcer::GetScores` of `TCosineScoreCalcer` and
`TL2ScoreCalcer` (the score calcers are not among the sources): "`GetScores()` returns one
value per candidate".  `candidateScore scoreFunction calls splitIdx` stands for the score
that the calcer of `scoreFunction` has accumulated for candidate `splitIdx` from the calls
it has received. -/
def scoreCalcerGetScores (candidateScore : EScoreFunction → List TScoreCalcerCall → Nat → ℚ)
    (scoreFunction : EScoreFunction) (calls : List TScoreCalcerCall) : List ℚ :=
  (List.range (splitsCountOf calls)).map (candidateScore scoreFunction calls)

/-- The loop `for (statsIdx = 0; statsIdx * splitStatsCount < bucketStats.ysize();
++statsIdx)` of `GetScores` (lines 1266-1281), started at `statsIdx`: `UpdateScores` in
plain mode without monotonic constraints on the slice at `statsIdx * splitStatsCount`
(the order builder and the regression are not reached).
`fuel` bounds the number of iterations; the loop fails when it runs out of fuel. -/
def getScoresLoop (calcAverage : ℚ → ℚ → ℚ → ℚ) (stats3d : TStats3D) (leafCount : Nat)
    (indexer : TStatsIndexer) (scaledL2Regularizer : ℚ) (oneHotMaxSize : Nat)
    (useForCalcScores : TExclusiveBundlePart → Nat → Bool) (getValueBitCount : Int → Nat)
    (splitsCount : Nat) (splitStatsCount : Int) :
    Nat → Nat → List TScoreCalcerCall → Option (List TScoreCalcerCall)
  | 0, _, _ => none
  | fuel + 1, statsIdx, scoreCalcer =>
    if (statsIdx : Int) * splitStatsCount < (stats3d.Stats.length : Int) then
      if 0 ≤ (statsIdx : Int) * splitStatsCount then do
        let scoreCalcer ← UpdateScoresOfCalcer calcAverage (fun _ => []) (fun _ _ _ _ => none)
          (stats3d.Stats.drop ((statsIdx : Int) * splitStatsCount).toNat) leafCount indexer
          stats3d.SplitEnsembleSpec scaledL2Regularizer true false oneHotMaxSize [] []
          useForCalcScores getValueBitCount splitsCount scoreCalcer
        getScoresLoop calcAverage stats3d leafCount indexer scaledL2Regularizer oneHotMaxSize
          useForCalcScores getValueBitCount splitsCount splitStatsCount fuel (statsIdx + 1)
          scoreCalcer
      else none
    else some scoreCalcer

/-- Function `GetScores` (lines 1235-1283).  `scoreFunction`, `l2Regularizer` and
`oneHotMaxSize` are the options read from `fitParams`; `calcSplitsCount` stands for
`CalcSplitsCount`.  A failed `CB_ENSURE` is `Except.error` with its message; an access
outside an array, or a loop that does not end, is `Except.ok none`. -/
def GetScores (calcAverage : ℚ → ℚ → ℚ → ℚ)
    (candidateScore : EScoreFunction → List TScoreCalcerCall → Nat → ℚ)
    (calcSplitsCount : TSplitEnsembleSpec → Int → Nat → Nat)
    (useForCalcScores : TExclusiveBundlePart → Nat → Bool) (getValueBitCount : Int → Nat)
    (stats3d : TStats3D) (depth : Nat) (sumAllWeights : ℚ) (allDocCount : Int)
    (scoreFunction : EScoreFunction) (l2Regularizer : ℚ) (oneHotMaxSize : Nat) :
    Except String (Option (List ℚ)) := do
  let splitStatsCount := stats3d.BucketCount * stats3d.MaxLeafCount
  let bucketCount := stats3d.BucketCount
  let leafCount := 2 ^ depth
  let indexer : TStatsIndexer := ⟨bucketCount⟩
  let scoreCalcer : List TScoreCalcerCall ←
    (match scoreFunction with
    | EScoreFunction.Cosine => Except.ok []
    | EScoreFunction.L2 => Except.ok []
    | _ => Except.error "Error: score function for CPU should be Cosine or L2")
  let splitsCount := calcSplitsCount stats3d.SplitEnsembleSpec bucketCount oneHotMaxSize
  let scoreCalcer := scoreCalcer ++ [TScoreCalcerCall.SetSplitsCount splitsCount]
  let scaledL2Regularizer := l2Regularizer * (sumAllWeights / allDocCount)
  let scoreCalcer := scoreCalcer ++ [TScoreCalcerCall.SetL2Regularizer scaledL2Regularizer]
  pure ((getScoresLoop calcAverage stats3d leafCount indexer scaledL2Regularizer oneHotMaxSize
      useForCalcScores getValueBitCount splitsCount splitStatsCount (stats3d.Stats.length + 1) 0
      scoreCalcer).map (scoreCalcerGetScores candidateScore scoreFunction))

/-- The statistics of the scoring example as a `TStats3D`: three buckets, two leaves, one
float feature. -/
def exampleStats3D : TStats3D :=
  { Stats := exampleScoreStats
    BucketCount := 3
    MaxLeafCount := 2
    SplitEnsembleSpec := ⟨ESplitEnsembleType.OneFeature, ESplitType.FloatFeature, []⟩ }

/-! ## The isotonic regression of the monotonic projection -/

/-- A block of pooled points: its value (the weighted mean of the pooled values), its
weight and the number of points in it. -/
structure TIsotonicBlock where
  value : ℚ
  weight : ℚ
  size : Nat
deriving DecidableEq

/-- Pool two adjacent blocks: the weighted mean of their values, the sum of their weights. -/
def poolBlocks (previous current : TIsotonicBlock) : TIsotonicBlock :=
  { value := (current.weight * current.value + previous.weight * previous.value)
      / (current.weight + previous.weight)
    weight := previous.weight + current.weight
    size := previous.size + current.size }

/-- Push a block on the stack of active blocks (the last block first), pooling it with the
blocks before it while its value is smaller than theirs. -/
def pushBlock : List TIsotonicBlock → TIsotonicBlock → List TIsotonicBlock
  | [], current => [current]
  | previous :: active, current =>
    if current.value < previous.value then pushBlock active (poolBlocks previous current)
    else current :: previous :: active

/-- The active blocks after all points `(value, weight)` have been pushed. -/
def activeBlocks (points : List (ℚ × ℚ)) : List TIsotonicBlock :=
  points.foldl (fun active point => pushBlock active ⟨point.1, point.2, 1⟩) []

/-- The fitted values: every block, from the first to the last, gives its value to each of
its points. -/
def fittedValues (active : List TIsotonicBlock) : List ℚ :=
  (active.reverse.map (fun block => List.replicate block.size block.value)).flatten

/-- The points `(values[i], weight[i])` for the indices `i` of `indexOrder`. -/
def readPoints (values weight : List ℚ) : List Nat → Option (List (ℚ × ℚ))
  | [] => some []
  | i :: indexOrder => do
    let v ← values[i]?
    let w ← weight[i]?
    let points ← readPoints values weight indexOrder
    pure ((v, w) :: points)

/-- The assignments `solution[indexOrder[k]] = fitted[k]`. -/
def writeSolution : List Nat → List ℚ → List ℚ → Option (List ℚ)
  | i :: indexOrder, v :: fitted, solution =>
    if i < solution.length then writeSolution indexOrder fitted (solution.set i v) else none
  | _, _, solution => some solution

/-- Modelled from the spec: `CalcOneDimensionalIsotonicRegression(values, weight,
indexOrder, &solution)` (`monotonic_constraint_utils.h` is not among the sources):
"isotonic regression (pooled-adjacent-violators or equivalent)" along the linear order
`indexOrder`.  The points are read in the order of `indexOrder`; a point whose value is
smaller than the value of the block before it is pooled with that block, and so on; the
value of its block is written to `solution` for every index. -/
def CalcOneDimensionalIsotonicRegression (values weight : List ℚ) (indexOrder : List Nat)
    (solution : List ℚ) : Option (List ℚ) := do
  let points ← readPoints values weight indexOrder
  writeSolution indexOrder (fittedValues (activeBlocks points)) solution

/-- The leaf values `values[i]` along `indexOrder` are non-decreasing: the values satisfy
the linear order. -/
def MonotoneAlong (values : List ℚ) (indexOrder : List Nat) : Prop :=
  (indexOrder.map (fun i => values.getD i 0)).Pairwise (fun a b => a ≤ b)

/-- The constraint that `CalcStatsAndScores` gives a candidate split (lines 1207-1211): the
configured constraint of the feature for a float split, `0` for every other split type. -/
def candidateConstraintOf (monotonicConstraints : List Int) (split : TSplit) : Int :=
  if split.SplitType = ESplitType.FloatFeature then
    monotonicConstraints.getD split.FeatureIdx.toNat 0
  else 0

/-- The splits of the candidate-constraint example: a float split of feature 1, a one-hot
split and a float split of feature 0. -/
def exampleSplits (splitIdx : Nat) : TSplit :=
  [⟨ESplitType.FloatFeature, 1⟩, ⟨ESplitType.OneHotFeature, 0⟩,
    ⟨ESplitType.FloatFeature, 0⟩].getD splitIdx ⟨ESplitType.OnlineCtr, 0⟩

/-! ## The argument checks of `CalcStatsAndScores` (scoring.cpp, lines 1018-1022, 1098, 1126) -/

/-- The macro `CB_ENSURE(condition, message)`: an exception with `message` unless
`condition` holds. -/
def CB_ENSURE (condition : Bool) (message : String) : Except String Unit :=
  if condition then Except.ok () else Except.error message

/-- The control of `CalcStatsAndScores` (lines 996-1232) around its four `CB_ENSURE`
checks.  `stats3d`, `pairwiseStats`, `scoreCalcer` and `initialFold` tell whether the
pointer of that name is non-null; `isPairwiseScoring` is the result of `IsPairwiseScoring`
for the loss function.  `pairwiseBranch` stands for the rest of the pairwise branch (lines
1100-1124) and `pointwiseBranch` for the rest of the pointwise one (lines 1127-1231); the
statements between the second check and the branch (lines 1024-1095) read options and define
the lambda `selectCalcStatsImpl`. -/
def CalcStatsAndScores {α : Type} (stats3d pairwiseStats scoreCalcer initialFold : Bool)
    (isPairwiseScoring : Bool) (pairwiseBranch pointwiseBranch : Except String α) :
    Except String α := do
  CB_ENSURE (stats3d || pairwiseStats || scoreCalcer)
    "stats3d, pairwiseStats, and scoreCalcer are empty - nothing to calculate"
  CB_ENSURE (!scoreCalcer || initialFold)
    "initialFold must be non-nullptr for scores calculation"
  if isPairwiseScoring then do
    CB_ENSURE (!stats3d) "Pairwise scoring is incompatible with stats3d calculation"
    pairwiseBranch
  else do
    CB_ENSURE (!pairwiseStats)
      "Per-object scoring is incompatible with pairwiseStats calculation"
    pointwiseBranch

/-- The four messages of the checks of `CalcStatsAndScores`. -/
def calcStatsAndScoresErrors : List String :=
  ["stats3d, pairwiseStats, and scoreCalcer are empty - nothing to calculate",
    "initialFold must be non-nullptr for scores calculation",
    "Pairwise scoring is incompatible with stats3d calculation",
    "Per-object scoring is incompatible with pairwiseStats calculation"]

/-- The conditions (a)-(d) on the arguments of `CalcStatsAndScores`: nothing to calculate,
a calcer without the initial fold, pairwise scoring with `stats3d`, pointwise scoring with
`pairwiseStats`. -/
def calcStatsAndScoresRejected (stats3d pairwiseStats scoreCalcer initialFold : Bool)
    (isPairwiseScoring : Bool) : Bool :=
  (!stats3d && !pairwiseStats && !scoreCalcer) || (scoreCalcer && !initialFold)
    || (isPairwiseScoring && stats3d) || (!isPairwiseScoring && pairwiseStats)

/-! ## The slice loop of `GetScores` (scoring.cpp, lines 1266-1281) -/

/-- The number of slices of `stride` slots that begin inside an array of `statsLength`
slots: `statsLength / stride` rounded up. -/
def sliceCount (statsLength stride : Nat) : Nat := (statsLength + stride - 1) / stride

/-- One iteration of the loop of `GetScores` (lines 1267-1280): `UpdateScores` in plain mode
without monotonic constraints on the statistics from slot `statsIdx * splitStatsCount`
on. -/
def getScoresStep (calcAverage : ℚ → ℚ → ℚ → ℚ) (stats3d : TStats3D) (leafCount : Nat)
    (indexer : TStatsIndexer) (scaledL2Regularizer : ℚ) (oneHotMaxSize : Nat)
    (useForCalcScores : TExclusiveBundlePart → Nat → Bool) (getValueBitCount : Int → Nat)
    (splitsCount : Nat) (splitStatsCount : Nat) (scoreCalcer : List TScoreCalcerCall)
    (statsIdx : Nat) : Option (List TScoreCalcerCall) :=
  UpdateScoresOfCalcer calcAverage (fun _ => []) (fun _ _ _ _ => none)
    (stats3d.Stats.drop (statsIdx * splitStatsCount)) leafCount indexer
    stats3d.SplitEnsembleSpec scaledL2Regularizer true false oneHotMaxSize [] []
    useForCalcScores getValueBitCount splitsCount scoreCalcer

/-- The `TStats3D` that the pointwise branch of `CalcStatsAndScores` fills without
tree-level caching (lines 1131-1146): `Stats` is resized to `statsCount =
bodyTailCount * approxDimension * CalcSize(depth)` slots, into which `selectCalcStatsImpl`
then computes through a reference holder (`content` is what the slots hold afterwards),
`BucketCount = bucketCount` and `MaxLeafCount = 1U << depth`. -/
def stats3dWithoutCaching (fold : TCalcScoreFold) (indexer : TStatsIndexer) (depth : Nat)
    (splitEnsembleSpec : TSplitEnsembleSpec) (content : Nat → TBucketStats) : TStats3D :=
  let splitStatsCount := indexer.CalcSize depth
  let statsCount := (fold.BodyTailCount : Int) * fold.ApproxDimension * splitStatsCount
  { Stats := (List.range statsCount.toNat).map content
    BucketCount := indexer.BucketCount
    MaxLeafCount := toInt (toUnsigned (1 * 2 ^ depth))
    SplitEnsembleSpec := splitEnsembleSpec }

/-- Statistics of two slices of the scoring example: three buckets, two leaves, two
dimensions. -/
def exampleTwoSlices : TStats3D :=
  { exampleStats3D with Stats := exampleScoreStats ++ exampleScoreStats }

/-! ## Termination of the block loop of `SetSingleIndex` (scoring.cpp, lines 128-148) -/

/-- The block length that one iteration of the block loop adds to `blockStart` (lines
136-139), in `int` arithmetic with the truncating division of C++:
`blockIdx + 1 == blockCount ? docCount - blockIdx * permBlockSize : permBlockSize` for
`blockIdx = originalBlockIdx / permBlockSize`, where `originalBlockIdx` is
`static_cast<int>(bucketIndexing[blockStart])`, any `int`. -/
def blockLengthUsed (docCount permBlockSize originalBlockIdx : Int) : Int :=
  let blockCount := (docCount + permBlockSize - 1).tdiv permBlockSize
  let blockIdx := originalBlockIdx.tdiv permBlockSize
  if blockIdx + 1 = blockCount then docCount - blockIdx * permBlockSize else permBlockSize

/-! ## Candidate indices of one leaf iteration of `UpdateScores` -/

/-- The candidate indices that one leaf iteration of `UpdateScores` passes to the update
closure, in the order of the calls. -/
def leafCandidates (stats : List TBucketStats) (indexer : TStatsIndexer) (B : Nat)
    (splitEnsembleSpec : TSplitEnsembleSpec) (use : List Bool) (bitCount : Nat) (leaf : Nat) :
    List Nat :=
  (leafCalls stats indexer B splitEnsembleSpec use bitCount leaf).map (fun call => call.2.2)

/-! ## `TLeafIndexCalcerOnPool` (apply.cpp, lines 288-350) -/

/-- The counters and the buffer of `TLeafIndexCalcerOnPool` (the class is declared in
`apply.h`, which is not among the sources).  The counters are `size_t` values; they are
natural numbers here (`CurrDocIndex` would need `2^64` calls of `Next` to wrap). -/
structure TLeafIndexCalcerOnPool where
  DocCount : Nat
  TreeStart : Nat
  TreeEnd : Nat
  CurrBatchStart : Nat
  CurrBatchSize : Nat
  CurrDocIndex : Nat
  CurrentBatchLeafIndexes : List Nat
deriving DecidableEq

/-- Method `CalcNextBatch` (lines 340-350): the evaluator computes the leaf indices of the
documents `[CurrBatchStart, CurrBatchStart + CurrBatchSize)` into `CurrentBatchLeafIndexes`,
which it gets as an array reference (its size stays).  `calcLeafIndexes batchStart batchSize
old i` stands for what the buffer holds at position `i` afterwards (the feature block
iterator and the evaluator are not among the sources). -/
def TLeafIndexCalcerOnPool.CalcNextBatch (calcLeafIndexes : Nat → Nat → List Nat → Nat → Nat)
    (calcer : TLeafIndexCalcerOnPool) : TLeafIndexCalcerOnPool :=
  { calcer with
    CurrentBatchLeafIndexes :=
      (List.range calcer.CurrentBatchLeafIndexes.length).map
        (calcLeafIndexes calcer.CurrBatchStart calcer.CurrBatchSize
          calcer.CurrentBatchLeafIndexes) }

/-- The constructor (lines 288-309).  `blockSize` is the constant
`NModelEvaluation::FORMULA_EVALUATION_BLOCK_SIZE`, `docCount` is
`objectsData->GetObjectCount()`, and `garbage` is the content of the buffer after
`yresize`.  A failed `CB_ENSURE` is an error. -/
def TLeafIndexCalcerOnPool.new (blockSize : Nat)
    (calcLeafIndexes : Nat → Nat → List Nat → Nat → Nat) (garbage : Nat → Nat)
    (docCount : Nat) (treeStart treeEnd : Int) : Except String TLeafIndexCalcerOnPool :=
  let currBatchSize := min docCount blockSize
  if treeStart < 0 then Except.error "treeStart >= 0"
  else if treeEnd < 0 then Except.error "treeEnd >= 0"
  else
    Except.ok (TLeafIndexCalcerOnPool.CalcNextBatch calcLeafIndexes
      { DocCount := docCount
        TreeStart := treeStart.toNat
        TreeEnd := treeEnd.toNat
        CurrBatchStart := 0
        CurrBatchSize := currBatchSize
        CurrDocIndex := 0
        CurrentBatchLeafIndexes :=
          (List.range (currBatchSize * (treeEnd.toNat - treeStart.toNat))).map garbage })

/-- Method `Next` (lines 311-323): the returned flag and the calcer after the call. -/
def TLeafIndexCalcerOnPool.Next (blockSize : Nat)
    (calcLeafIndexes : Nat → Nat → List Nat → Nat → Nat) (calcer : TLeafIndexCalcerOnPool) :
    Bool × TLeafIndexCalcerOnPool :=
  let calcer := { calcer with CurrDocIndex := calcer.CurrDocIndex + 1 }
  if calcer.CurrDocIndex < calcer.DocCount then
    if calcer.CurrDocIndex = calcer.CurrBatchStart + calcer.CurrBatchSize then
      let calcer := { calcer with CurrBatchStart := calcer.CurrBatchStart + calcer.CurrBatchSize }
      let calcer :=
        { calcer with CurrBatchSize := min (calcer.DocCount - calcer.CurrDocIndex) blockSize }
      (true, TLeafIndexCalcerOnPool.CalcNextBatch calcLeafIndexes calcer)
    else (true, calcer)
  else (false, calcer)

/-- Method `CanGet` (lines 325-327). -/
def TLeafIndexCalcerOnPool.CanGet (calcer : TLeafIndexCalcerOnPool) : Bool :=
  decide (calcer.CurrDocIndex < calcer.DocCount)

/-- Method `Get` (lines 329-338): the leaf index of the current document in every tree;
fails when a read is outside the buffer. -/
def TLeafIndexCalcerOnPool.Get (calcer : TLeafIndexCalcerOnPool) : Option (List Nat) :=
  let treeCount := calcer.TreeEnd - calcer.TreeStart
  let docIndexInBatch := calcer.CurrDocIndex - calcer.CurrBatchStart
  (List.range treeCount).foldlM (fun result treeNum => do
    let leafIndex ← calcer.CurrentBatchLeafIndexes[docIndexInBatch + treeNum * calcer.CurrBatchSize]?
    pure (result ++ [leafIndex])) []

/-- The calcer after `n` calls of `Next`. -/
def TLeafIndexCalcerOnPool.afterNext (blockSize : Nat)
    (calcLeafIndexes : Nat → Nat → List Nat → Nat → Nat) :
    Nat → TLeafIndexCalcerOnPool → TLeafIndexCalcerOnPool
  | 0, calcer => calcer
  | n + 1, calcer =>
    (TLeafIndexCalcerOnPool.Next blockSize calcLeafIndexes
      (TLeafIndexCalcerOnPool.afterNext blockSize calcLeafIndexes n calcer)).2

/-- The iteration invariant of the calcer: the current batch lies inside the documents and
has at most the size the buffer was allocated for, the buffer has the size it was allocated
with, and the current document is not before the batch and, while it is a document, inside
the batch. -/
def TLeafIndexCalcerOnPool.Invariant (blockSize : Nat) (calcer : TLeafIndexCalcerOnPool) :
    Prop :=
  calcer.CurrBatchStart ≤ calcer.CurrDocIndex ∧
  calcer.CurrBatchStart + calcer.CurrBatchSize ≤ calcer.DocCount ∧
  calcer.CurrBatchSize ≤ min calcer.DocCount blockSize ∧
  calcer.CurrentBatchLeafIndexes.length
    = min calcer.DocCount blockSize * (calcer.TreeEnd - calcer.TreeStart) ∧
  (calcer.CurrDocIndex < calcer.DocCount →
    calcer.CurrDocIndex < calcer.CurrBatchStart + calcer.CurrBatchSize)

/-! ## ONNX export of an oblivious tree: `AddTree` (onnx_helpers.cpp, lines 357-456) -/

/-- The treatment of a missing value by a float feature (`TFloatFeature::ENanValueTreatment`,
declared in a header that is not among the sources). -/
inductive ENanValueTreatment
  | AsIs
  | AsFalse
  | AsTrue
deriving DecidableEq

/-- The fields of `TFloatFeature` read by `AddTree`; `FlatIndex` is `Position.FlatIndex`. -/
structure TFloatFeature where
  FlatIndex : Int
  NanValueTreatment : ENanValueTreatment
deriving DecidableEq

/-- The fields of a model split read by `AddTree`: its type and, for a float split,
`FloatFeature.FloatFeature` (the index of the float feature) and `FloatFeature.Split` (the
border). -/
structure TModelSplit where
  SplitType : ESplitType
  FloatFeature : Nat
  Split : ℚ
deriving DecidableEq

/-- The fields of `TObliviousTrees` read by `AddTree`; `BinFeatures` and `FirstLeafOffsets`
are what `GetBinFeatures()` and `GetFirstLeafOffsets()` return. -/
structure TObliviousTrees where
  TreeSizes : List Nat
  TreeSplits : List Nat
  TreeStartOffsets : List Nat
  BinFeatures : List TModelSplit
  FloatFeatures : List TFloatFeature
  LeafValues : List ℚ
  FirstLeafOffsets : List Nat
  ApproxDimension : Nat

/-- The node modes that `AddTree` writes. -/
inductive EOnnxNodeMode
  | BRANCH_GTE
  | LEAF
deriving DecidableEq

/-- One node of the ONNX tree ensemble: the entries that one iteration appends to the
parallel attributes `nodes_treeids`, `nodes_nodeids`, `nodes_modes`, `nodes_featureids`,
`nodes_values`, `nodes_falsenodeids`, `nodes_truenodeids`,
`nodes_missing_value_tracks_true` and `nodes_hitrates`. -/
structure TOnnxNode where
  TreeId : Nat
  NodeId : Nat
  Mode : EOnnxNodeMode
  FeatureId : Int
  Value : ℚ
  FalseNodeId : Nat
  TrueNodeId : Nat
  MissingValueTracksTrue : Nat
  HitRate : ℚ
deriving DecidableEq

/-- One leaf weight: the entries appended together to `class_treeids`, `class_nodeids`,
`class_ids`, `class_weights` (or to the `target_` attributes of a regression model). -/
structure TOnnxWeight where
  TreeId : Nat
  NodeId : Nat
  Id : Nat
  Weight : ℚ
deriving DecidableEq

/-- The attributes of the tree-ensemble node that `AddTree` appends to: the `nodes_`
attributes as a list of nodes, the `class_` and the `target_` attributes as lists of
weights. -/
structure TTreesAttributes where
  Nodes : List TOnnxNode
  Classes : List TOnnxWeight
  Targets : List TOnnxWeight
deriving DecidableEq

/-- The inner loop `for (; nodeIdx < endNodeIdx; ++nodeIdx)` of the splits (lines 391-403):
one `BRANCH_GTE` node per `nodeIdx`, with the children `2 * nodeIdx + 1` and
`2 * nodeIdx + 2`. -/
def addSplitNodes (treeIdx : Nat) (splitFlatFeatureIdx : Int) (splitValue : ℚ)
    (missingValueTracksTrue : Nat) (nodeIdx endNodeIdx : Nat) (attrs : TTreesAttributes) :
    TTreesAttributes :=
  (List.range' nodeIdx (endNodeIdx - nodeIdx)).foldl (fun attrs nodeIdx =>
    { attrs with
      Nodes := attrs.Nodes ++ [⟨treeIdx, nodeIdx, EOnnxNodeMode.BRANCH_GTE, splitFlatFeatureIdx,
        splitValue, 2 * nodeIdx + 1, 2 * nodeIdx + 2, missingValueTracksTrue, 1⟩] }) attrs

/-- The leaf weights of one leaf node (lines 423-450), read from `leafValue` on: one weight
per dimension for a classifier of more than one dimension, one weight with class 1 for any
other classifier, one weight with target 0 for a regression model, whose assertion
`ApproxDimension == 1` fails the call.  Every weight is `(float)*leafValue`, the `double`
leaf value converted to `float`; the conversion of a value outside the range of `float`
has no result.  Returns the advanced `leafValue`. -/
def addLeafWeights (trees : TObliviousTrees) (treeIdx : Nat) (isClassifierModel : Bool)
    (nodeIdx leafValue : Nat) (attrs : TTreesAttributes) : Option (Nat × TTreesAttributes) :=
  if isClassifierModel then
    if trees.ApproxDimension > 1 then
      (List.range trees.ApproxDimension).foldlM
        (fun (acc : Nat × TTreesAttributes) approxIdx => do
          let value ← trees.LeafValues[acc.1]?
          let weight ← toFloat value
          pure (acc.1 + 1,
            { acc.2 with
              Classes := acc.2.Classes ++ [⟨treeIdx, nodeIdx, approxIdx, weight⟩] }))
        (leafValue, attrs)
    else do
      let value ← trees.LeafValues[leafValue]?
      let weight ← toFloat value
      pure (leafValue + 1,
        { attrs with Classes := attrs.Classes ++ [⟨treeIdx, nodeIdx, 1, weight⟩] })
  else if trees.ApproxDimension = 1 then do
    let value ← trees.LeafValues[leafValue]?
    let weight ← toFloat value
    pure (leafValue + 1,
      { attrs with Targets := attrs.Targets ++ [⟨treeIdx, nodeIdx, 0, weight⟩] })
  else none

/-- The body of the loop over the depths (lines 366-404): the split of depth `depth` is
`TreeSplits[TreeStartOffsets[treeIdx] + (TreeSizes[treeIdx] - 1 - depth)]`; a split that is
not a float split raises the exception of `CB_ENSURE_INTERNAL` (no result).  The state is
`nodeIdx` and the attributes. -/
def addSplitLevel (trees : TObliviousTrees) (treeIdx treeSize : Nat)
    (acc : Nat × TTreesAttributes) (depth : Nat) : Option (Nat × TTreesAttributes) := do
  let treeStartOffset ← trees.TreeStartOffsets[treeIdx]?
  let splitIdx ← trees.TreeSplits[treeStartOffset + (treeSize - 1 - depth)]?
  let split ← trees.BinFeatures[splitIdx]?
  if split.SplitType = ESplitType.FloatFeature then do
    let floatFeature ← trees.FloatFeatures[split.FloatFeature]?
    let splitFlatFeatureIdx := floatFeature.FlatIndex
    let missingValueTracksTrue :=
      if floatFeature.NanValueTreatment = ENanValueTreatment.AsTrue then 1 else 0
    let splitValue := split.Split
    let endNodeIdx := 2 * acc.1 + 1
    pure (endNodeIdx,
      addSplitNodes treeIdx splitFlatFeatureIdx splitValue missingValueTracksTrue acc.1
        endNodeIdx acc.2)
  else none

/-- The `LEAF` node with id `nodeIdx` (lines 410-421): the other `nodes_` attributes get
dummy values, "because nodes_* must have equal length", and the hit rate 1. -/
def leafNodeOf (treeIdx nodeIdx : Nat) : TOnnxNode :=
  ⟨treeIdx, nodeIdx, EOnnxNodeMode.LEAF, 0, 0, 0, 0, 0, 1⟩

/-- The body of the loop over the leaves (lines 409-451): the `LEAF` node and its weights.
The state is `leafValue` and the attributes. -/
def addLeafNode (trees : TObliviousTrees) (treeIdx : Nat) (isClassifierModel : Bool)
    (acc : Nat × TTreesAttributes) (nodeIdx : Nat) : Option (Nat × TTreesAttributes) :=
  addLeafWeights trees treeIdx isClassifierModel nodeIdx acc.1
    { acc.2 with Nodes := acc.2.Nodes ++ [leafNodeOf treeIdx nodeIdx] }

/-- Function `AddTree` (lines 357-456).  `nodeIdx` and `treeIdx` are `i64` values, natural
numbers here (a tree of depth `D` has `2^(D+1) - 1` nodes).  The export has no result when
a split is not a float split or when a read is outside its array. -/
def AddTree (trees : TObliviousTrees) (treeIdx : Nat) (isClassifierModel : Bool)
    (treesAttributes : TTreesAttributes) : Option TTreesAttributes := do
  let treeSize ← trees.TreeSizes[treeIdx]?
  let splits ← (List.range treeSize).foldlM (addSplitLevel trees treeIdx treeSize)
    (0, treesAttributes)
  let nodeIdx := splits.1
  let firstLeafOffset ← trees.FirstLeafOffsets[treeIdx]?
  let leaves ← (List.range' nodeIdx (2 * nodeIdx + 1 - nodeIdx)).foldlM
    (addLeafNode trees treeIdx isClassifierModel) (firstLeafOffset, splits.2)
  pure leaves.2

/-- Follow the children of the exported nodes from `node` for `remaining` levels: at a node
with `remaining = r + 1` levels to go, which tests split `offset + r`, the true child is
taken when `outcome r` holds, the false child otherwise. -/
def followChildren (nodes : List TOnnxNode) (outcome : Nat → Bool) : Nat → Nat → Option Nat
  | 0, node => some node
  | r + 1, node => do
    let current ← nodes[node]?
    followChildren nodes outcome r
      (if outcome r then current.TrueNodeId else current.FalseNodeId)

/-- The leaf index of CatBoost for the split outcomes `outcome 0 .. outcome (D - 1)`:
`sum_k outcome_k * 2^k`. -/
def leafIndexOf (outcome : Nat → Bool) (D : Nat) : Nat :=
  ((List.range D).map (fun k => if outcome k then 2 ^ k else 0)).sum

/-- A model of one tree of depth 2 over two float features, with the leaf values
`10, 11, 12, 13`. -/
def exampleTrees : TObliviousTrees :=
  { TreeSizes := [2]
    TreeSplits := [1, 0]
    TreeStartOffsets := [0]
    BinFeatures := [⟨ESplitType.FloatFeature, 0, 1 / 2⟩, ⟨ESplitType.FloatFeature, 1, 3 / 2⟩]
    FloatFeatures := [⟨0, ENanValueTreatment.AsIs⟩, ⟨3, ENanValueTreatment.AsTrue⟩]
    LeafValues := [10, 11, 12, 13]
    FirstLeafOffsets := [0]
    ApproxDimension := 1 }

/-- The example tree with the `double` nearest to `0.1` as the value of leaf 0. -/
def exampleDoubleTrees : TObliviousTrees :=
  { exampleTrees with LeafValues := [3602879701896397 / 2 ^ 55, 11, 12, 13] }

/-- The float split with index `TreeSplits[TreeStartOffsets[treeIdx] + k]` and its float
feature; nothing when one of the reads is outside its array or the split is not a float
split. -/
def floatSplitOf (trees : TObliviousTrees) (treeIdx k : Nat) :
    Option (TModelSplit × TFloatFeature) := do
  let treeStartOffset ← trees.TreeStartOffsets[treeIdx]?
  let splitIdx ← trees.TreeSplits[treeStartOffset + k]?
  let split ← trees.BinFeatures[splitIdx]?
  if split.SplitType = ESplitType.FloatFeature then do
    let floatFeature ← trees.FloatFeatures[split.FloatFeature]?
    pure (split, floatFeature)
  else none

/-- The node with id `nodeIdx` that tests a float split: mode `BRANCH_GTE`, the flat index
of the feature, the border, the false child `2 * nodeIdx + 1` and the true child
`2 * nodeIdx + 2`. -/
def branchNodeOf (treeIdx : Nat) (split : TModelSplit × TFloatFeature) (nodeIdx : Nat) :
    TOnnxNode :=
  ⟨treeIdx, nodeIdx, EOnnxNodeMode.BRANCH_GTE, split.2.FlatIndex, split.1.Split,
    2 * nodeIdx + 1, 2 * nodeIdx + 2,
    if split.2.NanValueTreatment = ENanValueTreatment.AsTrue then 1 else 0, 1⟩

/-- The nodes of depth `depth` of a tree of depth `D`: the ids `2^depth - 1 .. 2^(depth+1) -
2`, all testing the split `TreeSplits[offset + D - 1 - depth]`. -/
def levelNodes (trees : TObliviousTrees) (treeIdx D depth : Nat) : List TOnnxNode :=
  match floatSplitOf trees treeIdx (D - 1 - depth) with
  | some split => (List.range' (2 ^ depth - 1) (2 ^ depth)).map (branchNodeOf treeIdx split)
  | none => []

/-- The number of leaf values per leaf that `AddTree` reads. -/
def valuesPerLeaf (trees : TObliviousTrees) (isClassifierModel : Bool) : Nat :=
  if isClassifierModel then (if trees.ApproxDimension > 1 then trees.ApproxDimension else 1)
  else 1

/-- The weights that `AddTree` attaches to the leaf node `nodeIdx` when it carries the
values of the leaf `leaf` of CatBoost, `LeafValues[firstLeafOffset + leaf * n + a]` for
`a < n`, `n` the number of values per leaf, each converted to `float`: class `a` for a
classifier of more than one dimension, class 1 for any other classifier, target 0 for a
regression model. -/
def leafWeightsOf (trees : TObliviousTrees) (treeIdx : Nat) (isClassifierModel : Bool)
    (firstLeafOffset nodeIdx leaf : Nat) : List TOnnxWeight :=
  (List.range (valuesPerLeaf trees isClassifierModel)).map (fun a =>
    ⟨treeIdx, nodeIdx,
      if isClassifierModel then (if trees.ApproxDimension > 1 then a else 1) else 0,
      (toFloat (trees.LeafValues.getD
        (firstLeafOffset + leaf * valuesPerLeaf trees isClassifierModel + a) 0)).getD 0⟩)

/-- The attributes with the weights `weights` appended to the `class_` attributes of a
classifier, to the `target_` attributes of a regression model. -/
def appendWeights (isClassifierModel : Bool) (attrs : TTreesAttributes)
    (weights : List TOnnxWeight) : TTreesAttributes :=
  if isClassifierModel then { attrs with Classes := attrs.Classes ++ weights }
  else { attrs with Targets := attrs.Targets ++ weights }

/-! ## `UnpackInternalShaps` (shap_values.cpp, lines 243-275) -/

/-- A SHAP value (`TShapValue` is declared in `shap_values.h`, which is not among the
sources): a feature index and one value per dimension.  `TShapValue(feature,
approxDimension)` has `approxDimension` values. -/
structure TShapValue where
  Feature : Int
  Value : List ℚ
deriving DecidableEq

/-- The body of the loop over the flat features of a combination class (lines 251-272):
`FindIf` looks for the SHAP value of `flatFeatureIdx`; without one a new value is appended
and its dimensions are set to `shapValueInternal.Value[dimension] / coefficient`; with one,
the same quotients are added to its dimensions. -/
def unpackFlatFeature (approxDimension : Nat) (shapValueInternal : TShapValue)
    (coefficient : ℚ) (shapValues : List TShapValue) (flatFeatureIdx : Int) :
    Option (List TShapValue) :=
  match shapValues.findIdx? (fun shapValue => shapValue.Feature == flatFeatureIdx) with
  | none => do
    let value ← (List.range approxDimension).foldlM (fun (back : List ℚ) dimension => do
      let internal ← shapValueInternal.Value[dimension]?
      let value := internal / coefficient
      if dimension < back.length then pure (back.set dimension value) else none)
      (List.replicate approxDimension 0)
    pure (shapValues ++ [⟨flatFeatureIdx, value⟩])
  | some position => do
    let sameFeatureShapValue ← shapValues[position]?
    let value ← (List.range approxDimension).foldlM (fun (same : List ℚ) dimension => do
      let internal ← shapValueInternal.Value[dimension]?
      let addValue := internal / coefficient
      let old ← same[dimension]?
      pure (same.set dimension (old + addValue))) sameFeatureShapValue.Value
    pure (shapValues.set position { sameFeatureShapValue with Value := value })

/-- Function `UnpackInternalShaps` (lines 243-275); the result is `*shapValues`.  A read
outside a vector fails the call. -/
def UnpackInternalShaps (shapValuesInternal : List TShapValue)
    (combinationClassFeatures : List (List Int)) : Option (List TShapValue) :=
  match shapValuesInternal with
  | [] => some []
  | first :: _ =>
    let approxDimension := first.Value.length
    shapValuesInternal.foldlM (fun shapValues shapValueInternal => do
      let flatFeatures ←
        (if 0 ≤ shapValueInternal.Feature then
          combinationClassFeatures[shapValueInternal.Feature.toNat]?
        else none)
      let coefficient : ℚ := flatFeatures.length
      flatFeatures.foldlM
        (unpackFlatFeature approxDimension shapValueInternal coefficient) shapValues) []

/-- The value `approxDimension` of `UnpackInternalShaps` (line 248): the number of
dimensions of the first internal value (`0` when there is none). -/
def approxDimensionOf (shapValuesInternal : List TShapValue) : Nat :=
  match shapValuesInternal with
  | [] => 0
  | first :: _ => first.Value.length

/-- The sum of `Value[dimension]` over a list of SHAP values. -/
def dimensionSum (shapValues : List TShapValue) (dimension : Nat) : ℚ :=
  (shapValues.map (fun shapValue => shapValue.Value.getD dimension 0)).sum

/-- The SHAP values hold at most one value per feature, each with `n` dimensions. -/
def Unpacked (n : Nat) (shapValues : List TShapValue) : Prop :=
  (shapValues.map (fun shapValue => shapValue.Feature)).Nodup ∧
  ∀ shapValue ∈ shapValues, shapValue.Value.length = n

/-- Internal SHAP values of three combination classes in two dimensions. -/
def exampleInternalShaps : List TShapValue :=
  [⟨0, [6, 3]⟩, ⟨1, [2, -4]⟩, ⟨2, [1, 1]⟩]

/-- The flat features of the combination classes of the example. -/
def exampleCombinationClasses : List (List Int) := [[0, 1, 2], [1, 3], [3]]

/-! ## SHAP feature paths: `ExtendFeaturePath` and `UnwindFeaturePath`
(shap_values.cpp, lines 23-102) -/

/-- Structure `TFeaturePathElement` (lines 24-39). -/
structure TFeaturePathElement where
  Feature : Int
  ZeroPathsFraction : ℚ
  OnePathsFraction : ℚ
  Weight : ℚ
deriving DecidableEq

/-- The assignment `path[elementIdx].Weight = weight`; fails outside the vector. -/
def setWeight (path : List TFeaturePathElement) (elementIdx : Nat) (weight : ℚ) :
    Option (List TFeaturePathElement) := do
  let element ← path[elementIdx]?
  pure (path.set elementIdx { element with Weight := weight })

/-- Function `ExtendFeaturePath` (lines 42-62).  The loop runs `elementIdx` from
`pathLength - 1` down to `0`. -/
def ExtendFeaturePath (oldFeaturePath : List TFeaturePathElement)
    (zeroPathsFraction onePathsFraction : ℚ) (feature : Int) :
    Option (List TFeaturePathElement) :=
  let pathLength := oldFeaturePath.length
  let weight : ℚ := if pathLength = 0 then 1 else 0
  let newFeaturePath :=
    oldFeaturePath ++ [⟨feature, zeroPathsFraction, onePathsFraction, weight⟩]
  (List.range pathLength).reverse.foldlM (fun newFeaturePath elementIdx => do
    let current ← newFeaturePath[elementIdx]?
    let next ← newFeaturePath[elementIdx + 1]?
    let newFeaturePath ← setWeight newFeaturePath (elementIdx + 1)
      (next.Weight
        + onePathsFraction * current.Weight * ((elementIdx + 1 : Nat) : ℚ)
          / ((pathLength + 1 : Nat) : ℚ))
    let current ← newFeaturePath[elementIdx]?
    setWeight newFeaturePath elementIdx
      (zeroPathsFraction * current.Weight * ((pathLength - elementIdx : Nat) : ℚ)
        / ((pathLength + 1 : Nat) : ℚ))) newFeaturePath

/-- The first loop of `UnwindFeaturePath` (lines 75-79): the elements after the erased one
move one position down in `Feature`, `ZeroPathsFraction` and `OnePathsFraction`. -/
def shiftFeatures (oldFeaturePath : List TFeaturePathElement) (eraseElementIdx : Nat)
    (newFeaturePath : List TFeaturePathElement) : Option (List TFeaturePathElement) :=
  (List.range' eraseElementIdx (oldFeaturePath.length - 1 - eraseElementIdx)).foldlM
    (fun newFeaturePath elementIdx => do
      let source ← oldFeaturePath[elementIdx + 1]?
      let target ← newFeaturePath[elementIdx]?
      pure (newFeaturePath.set elementIdx
        { target with
          Feature := source.Feature
          ZeroPathsFraction := source.ZeroPathsFraction
          OnePathsFraction := source.OnePathsFraction })) newFeaturePath

/-- Modelled from the spec: `FuzzyEquals(p1, p2, eps)` (`util/generic/ymath.h` is not among
the sources, and the spec has no words for it): the comparison with relative tolerance
that the name stands for, `Abs(p1 - p2) <= eps * Min(Abs(p1), Abs(p2))`.  A call with two
arguments, as in `UnwindFeaturePath`, has `eps = 1.0e-13`. -/
def FuzzyEquals (p1 p2 eps : ℚ) : Bool :=
  decide (|p1 - p2| ≤ eps * min |p1| |p2|)

/-- Function `UnwindFeaturePath` (lines 64-102).  `fuzzyEquals` stands for `FuzzyEquals`
(`util/generic/ymath.h` is not among the sources; `FuzzyEquals` above is a model of it).  A
failed `CB_ENSURE` is an error with its message; a read outside a vector is
`Except.ok none`.  The weight loops run `elementIdx` from `pathLength - 2` down to `0`. -/
def UnwindFeaturePath (fuzzyEquals : ℚ → ℚ → Bool)
    (oldFeaturePath : List TFeaturePathElement) (eraseElementIdx : Nat) :
    Except String (Option (List TFeaturePathElement)) :=
  let pathLength := oldFeaturePath.length
  if pathLength > 0 then
    Except.ok (do
      let newFeaturePath := oldFeaturePath.take (pathLength - 1)
      let newFeaturePath ← shiftFeatures oldFeaturePath eraseElementIdx newFeaturePath
      let erased ← oldFeaturePath[eraseElementIdx]?
      let onePathsFraction := erased.OnePathsFraction
      let zeroPathsFraction := erased.ZeroPathsFraction
      let last ← oldFeaturePath[pathLength - 1]?
      let weightDiff := last.Weight
      if !fuzzyEquals (1 + onePathsFraction) (1 + 0) then do
        let result ← (List.range (pathLength - 1)).reverse.foldlM
          (fun (acc : List TFeaturePathElement × ℚ) elementIdx => do
            let element ← acc.1[elementIdx]?
            let oldWeight := element.Weight
            let weight := acc.2 * (pathLength : ℚ)
              / (onePathsFraction * ((elementIdx + 1 : Nat) : ℚ))
            let newFeaturePath ← setWeight acc.1 elementIdx weight
            pure (newFeaturePath,
              oldWeight
                - weight * zeroPathsFraction * ((pathLength - elementIdx - 1 : Nat) : ℚ)
                  / (pathLength : ℚ)))
          (newFeaturePath, weightDiff)
        pure result.1
      else
        (List.range (pathLength - 1)).reverse.foldlM (fun newFeaturePath elementIdx => do
          let element ← newFeaturePath[elementIdx]?
          setWeight newFeaturePath elementIdx
            (element.Weight
              * ((pathLength : ℚ)
                / (zeroPathsFraction * ((pathLength - elementIdx - 1 : Nat) : ℚ)))))
          newFeaturePath)
  else Except.error "Path to unwind must have at least one element"

/-- The weight of element `j` of a path (`0` outside the path). -/
def weightOf (path : List TFeaturePathElement) (j : Nat) : ℚ :=
  ((path[j]?).map (fun element => element.Weight)).getD 0

/-- The part of the weight of element `j` of the extended path that comes from element `j`
of the old path of length `m`: `z * w_j * (m - j) / (m + 1)`; for the new element `j = m`
it is its initial weight. -/
def keptWeight (path : List TFeaturePathElement) (zeroPathsFraction : ℚ) (j : Nat) : ℚ :=
  if j < path.length then
    zeroPathsFraction * weightOf path j * ((path.length - j : Nat) : ℚ)
      / ((path.length + 1 : Nat) : ℚ)
  else if path.length = 0 then 1 else 0

/-- The part of the weight of element `j` of the extended path that comes from element
`j - 1` of the old path: `o * w_(j-1) * j / (m + 1)` (zero for `j = 0`). -/
def movedWeight (path : List TFeaturePathElement) (onePathsFraction : ℚ) (j : Nat) : ℚ :=
  onePathsFraction * weightOf path (j - 1) * ((j : Nat) : ℚ) / ((path.length + 1 : Nat) : ℚ)

/-- The weights of the extended path while the loop of `ExtendFeaturePath` still has the
indices below `k` to visit: final above `k`, only scaled at `k`, untouched below. -/
def extendState (path : List TFeaturePathElement) (zeroPathsFraction onePathsFraction : ℚ)
    (k j : Nat) : ℚ :=
  if k < j then keptWeight path zeroPathsFraction j + movedWeight path onePathsFraction j
  else if j = k then keptWeight path zeroPathsFraction j
  else weightOf path j

/-- The path `path` has the elements of `base` with the weights `weights`. -/
def PathIs (base : List TFeaturePathElement) (weights : Nat → ℚ)
    (path : List TFeaturePathElement) : Prop :=
  path.length = base.length ∧
  ∀ (j : Nat) (element : TFeaturePathElement), base[j]? = some element →
    path[j]? = some { element with Weight := weights j }

/-- The path while the weight loop of `UnwindFeaturePath` still has the indices below `k`
to visit: the elements of the old path from `k` on, the extended weights below. -/
def UnwindState (old : List TFeaturePathElement) (zeroPathsFraction onePathsFraction : ℚ)
    (k : Nat) (path : List TFeaturePathElement) : Prop :=
  path.length = old.length ∧
  ∀ (j : Nat) (element : TFeaturePathElement), old[j]? = some element →
    path[j]? = some (if k ≤ j then element
      else { element with
        Weight := extendState old zeroPathsFraction onePathsFraction 0 j })

/-- A feature path of three elements. -/
def exampleFeaturePath : List TFeaturePathElement :=
  [⟨-1, 1, 1, 1 / 3⟩, ⟨4, 1 / 2, 1, 1 / 6⟩, ⟨7, 1 / 4, 0, 1 / 2⟩]

/-- The value of a `ui32` expression: arithmetic on `ui32` is modulo `2 ^ 32`. -/
def ui32 (value : Nat) : Nat := value % 2 ^ 32

/-- The fields of `NMetrics::TSample` that `auc.cpp` reads; `double` is read as a
rational. -/
structure TSample where
  Target : ℚ
  Prediction : ℚ
  Weight : ℚ
deriving DecidableEq, Repr

/-- The fields of `NCB::TMergeData`, in the order of the brace initialisers of `auc.cpp`
(lines 58 and 106-112): the left run is `[Left1, Right1)`, the right run `[Left2, Right2)`,
and the merged run is written from `OutputIndex` on. -/
structure TMergeData where
  Left1 : Nat
  Right1 : Nat
  Left2 : Nat
  Right2 : Nat
  OutputIndex : Nat
deriving DecidableEq, Repr

/-- The call `std::copy(src.begin() + first, src.begin() + last, dst.begin() + pos)`: the
elements `src[first, last)` overwrite `dst[pos, pos + (last - first))`.  `none` when one of
the two ranges is not inside its vector. -/
def stdCopy {α : Type} (src : List α) (first last : Nat) (dst : List α) (pos : Nat) :
    Option (List α) :=
  if first ≤ last ∧ last ≤ src.length ∧ pos + (last - first) ≤ dst.length then
    some (dst.take pos ++ (src.drop first).take (last - first) ++
      dst.drop (pos + (last - first)))
  else none

/-- The local variables of `MergeAndCountInversions` (lines 17-22). -/
structure TMergeState where
  result : ℚ
  leftIndex : Nat
  rightIndex : Nat
  outputIndex : Nat
  output : List TSample
  accumulatedWeight : ℚ
deriving DecidableEq, Repr

/-- The `while` loop of `MergeAndCountInversions` (lines 23-35), at most `fuel` tests of
its condition.  `none` when the fuel runs out or an index is outside its vector. -/
def mergeLoop (mergeOperation : TMergeData) (input : List TSample) :
    Nat → TMergeState → Option TMergeState
  | 0, _ => none
  | fuel + 1, s =>
    if s.leftIndex < mergeOperation.Right1 ∧ s.rightIndex < mergeOperation.Right2 then do
      let right ← input[s.rightIndex]?
      let left ← input[s.leftIndex]?
      if right.Target < left.Target then
        if s.outputIndex < s.output.length then
          mergeLoop mergeOperation input fuel
            { s with
              accumulatedWeight := s.accumulatedWeight + right.Weight
              output := s.output.set s.outputIndex right
              outputIndex := ui32 (s.outputIndex + 1)
              rightIndex := ui32 (s.rightIndex + 1) }
        else none
      else
        if s.outputIndex < s.output.length then
          mergeLoop mergeOperation input fuel
            { s with
              result := s.result + left.Weight * s.accumulatedWeight
              output := s.output.set s.outputIndex left
              outputIndex := ui32 (s.outputIndex + 1)
              leftIndex := ui32 (s.leftIndex + 1) }
        else none
    else some s

/-- Lines 36-45 of `MergeAndCountInversions`: the rest of the run that is not exhausted is
copied behind the merged part, and every remaining element of the left run adds its weight
times the accumulated weight. -/
def mergeRemainder (mergeOperation : TMergeData) (input : List TSample) (s : TMergeState) :
    Option (ℚ × List TSample) := do
  let (result, output) ←
    (if s.leftIndex < mergeOperation.Right1 then do
      let result ← (List.range' s.leftIndex (mergeOperation.Right1 - s.leftIndex)).foldlM
        (fun (result : ℚ) i => do
          let sample ← input[i]?
          pure (result + sample.Weight * s.accumulatedWeight)) s.result
      let output ← stdCopy input s.leftIndex mergeOperation.Right1 s.output s.outputIndex
      pure (result, output)
    else some (s.result, s.output))
  let output ←
    (if s.rightIndex < mergeOperation.Right2 then
      stdCopy input s.rightIndex mergeOperation.Right2 output s.outputIndex
    else some output)
  pure (result, output)

/-- `MergeAndCountInversions` (auc.cpp lines 12-46): the returned value and the vector
`*aux` after the call.  The loop takes one element per iteration, so the fuel given is
never used up. -/
def MergeAndCountInversions (mergeOperation : TMergeData) (input aux : List TSample) :
    Option (ℚ × List TSample) := do
  let s ← mergeLoop mergeOperation input
    ((mergeOperation.Right1 - mergeOperation.Left1) +
      (mergeOperation.Right2 - mergeOperation.Left2) + 1)
    ⟨0, mergeOperation.Left1, mergeOperation.Left2, mergeOperation.OutputIndex, aux, 0⟩
  mergeRemainder mergeOperation input s

/-- `SortAndCountInversions` (auc.cpp lines 48-61) with at most `fuel` nested calls: the
returned value, `*samples` and `*aux` after the call.  `lo` and `hi` are `ui32`, so
`lo + 1` and `hi - lo` are taken modulo `2 ^ 32`. -/
def SortAndCountInversions :
    Nat → Nat → Nat → List TSample → List TSample → Option (ℚ × List TSample × List TSample)
  | 0, _, _, _, _ => none
  | fuel + 1, lo, hi, samples, aux =>
    if ui32 (lo + 1) ≥ hi then some (0, samples, aux)
    else do
      let mid := ui32 (lo + ui32 (hi + 2 ^ 32 - lo) / 2)
      let (leftCount, samples, aux) ← SortAndCountInversions fuel lo mid samples aux
      let (rightCount, samples, aux) ← SortAndCountInversions fuel mid hi samples aux
      let (mergeCount, aux) ← MergeAndCountInversions ⟨lo, mid, mid, hi, lo⟩ samples aux
      let samples ← stdCopy aux lo hi samples lo
      pure (leftCount + rightCount + mergeCount, samples, aux)

/-- The elements `samples[lo, hi)`. -/
def samplesBetween (samples : List TSample) (lo hi : Nat) : List TSample :=
  (samples.drop lo).take (hi - lo)

/-- The weighted inversion count of the claim: the sum of `Weight[i] * Weight[j]` over the
position pairs `lo ≤ i < j < hi` with `Target[j] < Target[i]`. -/
def weightedInversions (samples : List TSample) (lo hi : Nat) : ℚ :=
  ((List.range' lo (hi - lo)).map fun i =>
    ((List.range' lo (hi - lo)).map fun j =>
      if i < j ∧ (samples.getD j ⟨0, 0, 0⟩).Target < (samples.getD i ⟨0, 0, 0⟩).Target then
        (samples.getD i ⟨0, 0, 0⟩).Weight * (samples.getD j ⟨0, 0, 0⟩).Weight
      else 0).sum).sum

/-- The sum of the weights of a run. -/
def weightSum (run : List TSample) : ℚ := (run.map fun sample => sample.Weight).sum

/-- The weighted count of the pairs of an element of `left` and an element of `right` with
the smaller target on the right. -/
def crossInversions (left right : List TSample) : ℚ :=
  (left.map fun l =>
    (right.map fun r => if r.Target < l.Target then l.Weight * r.Weight else 0).sum).sum

/-- The weighted inversion count of a run, element by element: every element is paired
with the elements behind it. -/
def runInversions : List TSample → ℚ
  | [] => 0
  | sample :: rest => crossInversions [sample] rest + runInversions rest

/-- The order in which the merge loop takes from the left run: the left element is taken
unless the right element has a smaller target. -/
def targetLE (left right : TSample) : Bool := !decide (right.Target < left.Target)

/-- Five samples, named by their prediction, with targets `3, 1, 2, 1, 0`. -/
def exampleSamples : List TSample :=
  [⟨3, 0, 1⟩, ⟨1, 1, 2⟩, ⟨2, 2, 1⟩, ⟨1, 3, 1⟩, ⟨0, 4, 3⟩]

/-! ## The accumulator and the score calculator in rounded arithmetic

The definitions of this section are the code of `UpdateWeighted`, `UpdateDeltaCount`,
`CalcStatsKernel`, `FixUpStats`, the merge step and `UpdateScores` once more, with the
result of every `+=` and `-=` on a `double` passed through `round`: with `round = some`
they are the definitions above, with `round = toDouble` they compute what the `double`
arithmetic of the code computes, as long as no result is an infinity. -/

/-- `TBucketStats::Add` with rounded sums: `+=` on each of the four `double` fields. -/
def TBucketStats.AddRounded (round : ℚ → Option ℚ) (s other : TBucketStats) :
    Option TBucketStats := do
  let sumWeightedDelta ← round (s.SumWeightedDelta + other.SumWeightedDelta)
  let sumWeight ← round (s.SumWeight + other.SumWeight)
  let sumDelta ← round (s.SumDelta + other.SumDelta)
  let count ← round (s.Count + other.Count)
  pure ⟨sumWeightedDelta, sumWeight, sumDelta, count⟩

/-- `TBucketStats::Remove` with rounded differences: `-=` on each of the four `double`
fields. -/
def TBucketStats.RemoveRounded (round : ℚ → Option ℚ) (s other : TBucketStats) :
    Option TBucketStats := do
  let sumWeightedDelta ← round (s.SumWeightedDelta - other.SumWeightedDelta)
  let sumWeight ← round (s.SumWeight - other.SumWeight)
  let sumDelta ← round (s.SumDelta - other.SumDelta)
  let count ← round (s.Count - other.Count)
  pure ⟨sumWeightedDelta, sumWeight, sumDelta, count⟩

/-- Function `UpdateWeighted` (lines 268-280) with rounded sums. -/
def UpdateWeightedRounded (round : ℚ → Option ℚ) (singleIdx : List Nat)
    (weightedDer : Option (List ℚ)) (sampleWeights : Option (List ℚ))
    (docIndexRange : TIndexRange) (stats : List TBucketStats) : Option (List TBucketStats) :=
  docIndexRange.Iter.foldlM (fun stats doc => do
    let idx ← singleIdx[doc]?
    let leafStats ← stats[idx]?
    let wd ← readAt weightedDer doc
    let sw ← readAt sampleWeights doc
    let sumWeightedDelta ← round (leafStats.SumWeightedDelta + wd)
    let sumWeight ← round (leafStats.SumWeight + sw)
    pure (stats.set idx { leafStats with
      SumWeightedDelta := sumWeightedDelta
      SumWeight := sumWeight })) stats

/-- Function `UpdateDeltaCount` (lines 284-305) with rounded sums. -/
def UpdateDeltaCountRounded (round : ℚ → Option ℚ) (singleIdx : List Nat)
    (derivatives : Option (List ℚ)) (learnWeights : Option (List ℚ))
    (docIndexRange : TIndexRange) (stats : List TBucketStats) : Option (List TBucketStats) :=
  match learnWeights with
  | none =>
    docIndexRange.Iter.foldlM (fun stats doc => do
      let idx ← singleIdx[doc]?
      let leafStats ← stats[idx]?
      let der ← readAt derivatives doc
      let sumDelta ← round (leafStats.SumDelta + der)
      let count ← round (leafStats.Count + 1)
      pure (stats.set idx { leafStats with
        SumDelta := sumDelta
        Count := count })) stats
  | some lw =>
    docIndexRange.Iter.foldlM (fun stats doc => do
      let idx ← singleIdx[doc]?
      let leafStats ← stats[idx]?
      let der ← readAt derivatives doc
      let w ← lw[doc]?
      let sumDelta ← round (leafStats.SumDelta + der)
      let count ← round (leafStats.Count + w)
      pure (stats.set idx { leafStats with
        SumDelta := sumDelta
        Count := count })) stats

/-- Function `CalcStatsKernel` (lines 311-372) with the rounded updates. -/
def CalcStatsKernelRounded (round : ℚ → Option ℚ) (isCaching : Bool) (singleIdx : List Nat)
    (fold : TCalcScoreFold) (isPlainMode : Bool) (indexer : TStatsIndexer) (depth : Nat)
    (bt : TBodyTail) (dim : Nat) (docIndexRange : TIndexRange) (stats : List TBucketStats) :
    Option (List TBucketStats) :=
  if isCaching = true ∧ depth = 0 then none
  else do
    let stats ←
      (if isCaching = true then
        Fill stats (indexer.CalcSize (depth - 1)) (indexer.CalcSize depth) ⟨0, 0, 0, 0⟩
      else
        Fill stats 0 (indexer.CalcSize depth) ⟨0, 0, 0, 0⟩)
    if bt.TailFinish > docIndexRange.Begin then
      let tailFinishInRange := min bt.TailFinish docIndexRange.End
      if isPlainMode then do
        let sampleWeightedDer ← bt.SampleWeightedDerivatives[dim]?
        UpdateWeightedRounded round singleIdx (GetDataPtr sampleWeightedDer)
          (sampleWeightsData fold bt) ⟨docIndexRange.Begin, tailFinishInRange⟩ stats
      else do
        let stats ←
          (if bt.BodyFinish > docIndexRange.Begin then
            (bt.WeightedDerivatives[dim]?).bind (fun weightedDer =>
              UpdateDeltaCountRounded round singleIdx (GetDataPtr weightedDer)
                (weightsData fold bt)
                ⟨docIndexRange.Begin, min bt.BodyFinish docIndexRange.End⟩ stats)
          else some stats)
        if tailFinishInRange > bt.BodyFinish then do
          let sampleWeightedDer ← bt.SampleWeightedDerivatives[dim]?
          UpdateWeightedRounded round singleIdx (GetDataPtr sampleWeightedDer)
            (sampleWeightsData fold bt) ⟨max bt.BodyFinish docIndexRange.Begin,
              tailFinishInRange⟩ stats
        else pure stats
    else pure stats

/-- Function `FixUpStats` (lines 374-391) with the rounded `Remove`. -/
def FixUpStatsRounded (round : ℚ → Option ℚ) (depth : Nat) (indexer : TStatsIndexer)
    (selectedSplitValue : Bool) (stats : List TBucketStats) : Option (List TBucketStats) :=
  if depth = 0 then none
  else
    let halfOfStats := indexer.CalcSize (depth - 1)
    if selectedSplitValue = true then
      (List.range halfOfStats.toNat).foldlM (fun stats statIdx => do
        let a ← stats[statIdx]?
        let b ← stats[statIdx + halfOfStats.toNat]?
        let difference ← a.RemoveRounded round b
        pure (stats.set statIdx difference)) stats
    else
      (List.range halfOfStats.toNat).foldlM (fun stats statIdx => do
        let a ← stats[statIdx]?
        let b ← stats[statIdx + halfOfStats.toNat]?
        let difference ← a.RemoveRounded round b
        let stats := stats.set statIdx difference
        -- DoSwap(stats[statIdx], stats[statIdx + halfOfStats])
        pure ((stats.set statIdx b).set (statIdx + halfOfStats.toNat) difference)) stats

/-- The merge step of `CalcStatsImpl` (lines 622-628) with the rounded `Add`. -/
def mergeStatsSubsetRounded (round : ℚ → Option ℚ) (filledSplitStatsCount : Int)
    (outputStatsSubset : List TBucketStats) (addVector : List (List TBucketStats)) :
    Option (List TBucketStats) :=
  addVector.foldlM (fun output addStatsSubset =>
    (List.range filledSplitStatsCount.toNat).foldlM (fun output i => do
      let o ← output[i]?
      let a ← addStatsSubset[i]?
      let sum ← o.AddRounded round a
      pure (output.set i sum)) output) outputStatsSubset

/-- The accumulation of one statistics slice over the partitions `ranges`
(`CalcStatsInPartitions`) with the rounded kernel, merge step and `FixUpStats`. -/
def CalcStatsInPartitionsRounded (round : ℚ → Option ℚ) (isCaching : Bool) (singleIdx : List Nat)
    (fold : TCalcScoreFold) (isPlainMode : Bool) (indexer : TStatsIndexer) (depth : Nat)
    (bt : TBodyTail) (dim : Nat) (ranges : List TIndexRange)
    (buffers : List (List TBucketStats)) : Option (List TBucketStats) := do
  let outputs ← mapPartitions
    (fun indexRange output =>
      CalcStatsKernelRounded round (isCaching && (indexRange.Begin == 0)) singleIdx fold
        isPlainMode indexer depth bt dim indexRange output)
    ranges buffers
  match outputs with
  | [] => none
  | output :: addVector => do
    let stats ← mergeStatsSubsetRounded round (indexer.CalcSize depth) output addVector
    if isCaching = true then
      FixUpStatsRounded round depth indexer fold.SmallestSplitSideValue stats
    else pure stats

/-- The `OneFeature` case of the leaf loop (lines 766-804) with the rounded `Add` and
`Remove`. -/
def UpdateScoresOneFeatureRounded {σ : Type} (round : ℚ → Option ℚ)
    (updateSplitScoreClosure : σ → TBucketStats → TBucketStats → Nat → Option σ)
    (stats : List TBucketStats) (indexer : TStatsIndexer) (splitType : ESplitType)
    (leaf : Int) (state : σ) : Option σ := do
  let allStats ← (List.range indexer.BucketCount.toNat).foldlM (fun allStats (bucketIdx : Nat) => do
    let leafStats ← statsAt stats (indexer.GetIndex leaf bucketIdx)
    allStats.AddRounded round leafStats) (⟨0, 0, 0, 0⟩ : TBucketStats)
  if splitType = ESplitType.OnlineCtr ∨ splitType = ESplitType.FloatFeature then
    let r ← (List.range (indexer.BucketCount - 1).toNat).foldlM
      (fun (acc : TBucketStats × TBucketStats × σ) (splitIdx : Nat) => do
        let s1 ← statsAt stats (indexer.GetIndex leaf splitIdx)
        let falseStats ← acc.2.1.AddRounded round s1
        let s2 ← statsAt stats (indexer.GetIndex leaf splitIdx)
        let trueStats ← acc.1.RemoveRounded round s2
        let state ← updateSplitScoreClosure acc.2.2 trueStats falseStats splitIdx
        pure (trueStats, falseStats, state))
      (allStats, (⟨0, 0, 0, 0⟩ : TBucketStats), state)
    pure r.2.2
  else
    let r ← (List.range indexer.BucketCount.toNat).foldlM
      (fun (acc : TBucketStats × σ) (bucketIdx : Nat) => do
        let falseStats ←
          (if bucketIdx > 0 then
            (statsAt stats (indexer.GetIndex leaf ((bucketIdx : Int) - 1))).bind
              (fun s => acc.1.AddRounded round s)
          else some acc.1)
        let s ← statsAt stats (indexer.GetIndex leaf bucketIdx)
        let falseStats ← falseStats.RemoveRounded round s
        let trueStats ← statsAt stats (indexer.GetIndex leaf bucketIdx)
        let state ← updateSplitScoreClosure acc.2 trueStats falseStats bucketIdx
        pure (falseStats, state))
      (allStats, state)
    pure r.2

/-- The `BinarySplits` case of the leaf loop (lines 805-820) with the rounded `Add`. -/
def UpdateScoresBinarySplitsRounded {σ : Type} (round : ℚ → Option ℚ)
    (updateSplitScoreClosure : σ → TBucketStats → TBucketStats → Nat → Option σ)
    (stats : List TBucketStats) (indexer : TStatsIndexer) (binaryFeaturesCount : Nat)
    (leaf : Int) (state : σ) : Option σ :=
  (List.range binaryFeaturesCount).foldlM (fun state (binFeatureIdx : Nat) => do
    let r ← (List.range indexer.BucketCount.toNat).foldlM
      (fun (acc : TBucketStats × TBucketStats) (bucketIdx : Nat) => do
        let s ← statsAt stats (indexer.GetIndex leaf bucketIdx)
        if (bucketIdx >>> binFeatureIdx) &&& 1 ≠ 0 then
          (acc.1.AddRounded round s).map (fun trueStats => (trueStats, acc.2))
        else (acc.2.AddRounded round s).map (fun falseStats => (acc.1, falseStats)))
      ((⟨0, 0, 0, 0⟩ : TBucketStats), (⟨0, 0, 0, 0⟩ : TBucketStats))
    updateSplitScoreClosure state r.1 r.2 binFeatureIdx) state

/-- The `ExclusiveBundle` case of the leaf loop (lines 821-899) with the rounded `Add` and
`Remove`. -/
def UpdateScoresExclusiveBundleRounded {σ : Type} (round : ℚ → Option ℚ)
    (updateSplitScoreClosure : σ → TBucketStats → TBucketStats → Nat → Option σ)
    (stats : List TBucketStats) (indexer : TStatsIndexer) (parts : List TExclusiveBundlePart)
    (useBundlePartForCalcScores : List Bool) (oneHotMaxSize : Nat)
    (leaf : Int) (state : σ) : Option σ := do
  let allStats0 ← statsAt stats (indexer.GetIndex leaf (indexer.BucketCount - 1))
  let r ← parts.foldlM
    (fun (acc : TBucketStats × List TBucketStats) bundlePart => do
      let bundlePartStats ← bundlePart.Bounds.Iter.foldlM (fun partStats (bucketIdx : Nat) => do
        let leafStats ← statsAt stats (indexer.GetIndex leaf bucketIdx)
        partStats.AddRounded round leafStats) (⟨0, 0, 0, 0⟩ : TBucketStats)
      let allStats ← acc.1.AddRounded round bundlePartStats
      pure (allStats, acc.2 ++ [bundlePartStats]))
    (allStats0, [])
  let allStats := r.1
  let bundlePartsStats := r.2
  let r2 ← (List.range parts.length).foldlM
    (fun (acc : Nat × σ) bundlePartIdx => do
      let binsBegin := acc.1
      let use ← useBundlePartForCalcScores[bundlePartIdx]?
      if use = false then pure acc
      else do
        let bundlePart ← parts[bundlePartIdx]?
        let partStats ← bundlePartsStats[bundlePartIdx]?
        let binBounds := bundlePart.Bounds
        if bundlePart.FeatureType = EFeatureType.Float then do
          let falseStats ← allStats.RemoveRounded round partStats
          let r3 ← (List.range binBounds.GetSize).foldlM
            (fun (acc3 : TBucketStats × TBucketStats × σ) (splitIdx : Nat) => do
              let tf ←
                (if splitIdx ≠ 0 then
                  (statsAt stats
                    (indexer.GetIndex leaf ((binBounds.Begin + splitIdx : Nat) - 1 : Int))).bind
                    (fun statsPart => do
                      let falseStats ← acc3.2.1.AddRounded round statsPart
                      let trueStats ← acc3.1.RemoveRounded round statsPart
                      pure (trueStats, falseStats))
                else some (acc3.1, acc3.2.1))
              let state ← updateSplitScoreClosure acc3.2.2 tf.1 tf.2 (binsBegin + splitIdx)
              pure (tf.1, tf.2, state))
            (partStats, falseStats, acc.2)
          pure (binsBegin + binBounds.GetSize, r3.2.2)
        else if binBounds.GetSize + 1 ≤ oneHotMaxSize then do
          let state ←
            (if binBounds.GetSize > 1 then
              (allStats.RemoveRounded round partStats).bind (fun trueStats =>
                updateSplitScoreClosure acc.2 trueStats partStats binsBegin)
            else some acc.2)
          let state ← (List.range binBounds.GetSize).foldlM (fun state (binIdx : Nat) => do
            let statsPart ← statsAt stats (indexer.GetIndex leaf (binBounds.Begin + binIdx : Nat))
            let falseStats ← allStats.RemoveRounded round statsPart
            updateSplitScoreClosure state statsPart falseStats (binsBegin + binIdx + 1))
            state
          pure (binsBegin + binBounds.GetSize + 1, state)
        else none)
    (0, state)
  pure r2.2

/-- The loop over leaves of `UpdateScores` (lines 746-901) with the rounded `Add` and
`Remove`. -/
def UpdateScoresRounded {σ : Type} (round : ℚ → Option ℚ)
    (updateSplitScoreClosure : σ → TBucketStats → TBucketStats → Nat → Option σ)
    (stats : List TBucketStats) (leafCount : Int) (indexer : TStatsIndexer)
    (splitEnsembleSpec : TSplitEnsembleSpec) (oneHotMaxSize : Nat)
    (useForCalcScores : TExclusiveBundlePart → Nat → Bool) (getValueBitCount : Int → Nat)
    (state : σ) : Option σ :=
  let useBundlePartForCalcScores :=
    if splitEnsembleSpec.EnsembleType = ESplitEnsembleType.ExclusiveBundle then
      splitEnsembleSpec.Parts.map (fun bundlePart => useForCalcScores bundlePart oneHotMaxSize)
    else []
  (List.range leafCount.toNat).foldlM (fun state (leaf : Nat) =>
    match splitEnsembleSpec.EnsembleType with
    | ESplitEnsembleType.OneFeature =>
      UpdateScoresOneFeatureRounded round updateSplitScoreClosure stats indexer
        splitEnsembleSpec.OneSplitType leaf state
    | ESplitEnsembleType.BinarySplits =>
      UpdateScoresBinarySplitsRounded round updateSplitScoreClosure stats indexer
        (getValueBitCount (indexer.BucketCount - 1)) leaf state
    | ESplitEnsembleType.ExclusiveBundle =>
      UpdateScoresExclusiveBundleRounded round updateSplitScoreClosure stats indexer
        splitEnsembleSpec.Parts useBundlePartForCalcScores oneHotMaxSize leaf state) state

/-- The fold of the rounding example: three documents with the sample weights `1`,
`2^-53`, `2^-53` (all of them `float` values); `true` is the smaller split side. -/
def roundingFold : TCalcScoreFold :=
  { LearnWeights := []
    SampleWeights := [1, 1 / 2 ^ 53, 1 / 2 ^ 53]
    SmallestSplitSideValue := true }

/-- The body/tail segment of the rounding example: three tail documents with weighted
derivative `0`. -/
def roundingBodyTail : TBodyTail :=
  { BodyFinish := 0
    TailFinish := 3
    WeightedDerivatives := [[0, 0, 0]]
    SampleWeightedDerivatives := [[0, 0, 0]]
    PairwiseWeights := []
    SamplePairwiseWeights := [] }

/-! ## Theorems -/

theorem toUnsigned_of_range {x : Int} (h0 : 0 ≤ x) (h1 : x < 2 ^ 32) : toUnsigned x = x := by
  unfold toUnsigned
  exact Int.emod_eq_of_lt h0 h1

theorem toInt_of_range {x : Int} (h0 : -2 ^ 31 ≤ x) (h1 : x < 2 ^ 31) : toInt x = x := by
  unfold toInt
  rw [Int.emod_eq_of_lt (by omega) (by omega)]
  omega

theorem two_pow_pos_int (depth : Nat) : (0 : Int) < 2 ^ depth := by positivity

/-- Without overflow `CalcSize` is the exact product. -/
theorem CalcSize_of_fits (indexer : TStatsIndexer) (depth : Nat)
    (hb : 0 ≤ indexer.BucketCount) (hfit : indexer.BucketCount * 2 ^ depth < 2 ^ 31) :
    indexer.CalcSize depth = indexer.BucketCount * 2 ^ depth := by
  have hp := two_pow_pos_int depth
  unfold TStatsIndexer.CalcSize
  rcases eq_or_lt_of_le hb with h0 | hpos
  · rw [← h0]
    simp [toUnsigned, toInt]
  · have hB : indexer.BucketCount < 2 ^ 31 := by nlinarith
    have hD : (2 : Int) ^ depth < 2 ^ 31 := by nlinarith
    rw [one_mul, toUnsigned_of_range hp.le (by omega), toUnsigned_of_range hb (by omega),
      mul_comm, toUnsigned_of_range (by positivity) (by omega), toInt_of_range (by nlinarith) hfit]

/-- Without overflow `GetIndex` is the exact affine expression. -/
theorem GetIndex_of_fits (indexer : TStatsIndexer) (depth : Nat) (leaf bucket : Int)
    (hfit : indexer.BucketCount * 2 ^ depth < 2 ^ 31)
    (hl0 : 0 ≤ leaf) (hl1 : leaf < 2 ^ depth) (hb0 : 0 ≤ bucket)
    (hb1 : bucket < indexer.BucketCount) :
    indexer.GetIndex leaf bucket = indexer.BucketCount * leaf + bucket := by
  unfold TStatsIndexer.GetIndex
  have h1 : indexer.BucketCount * leaf + indexer.BucketCount ≤ indexer.BucketCount * 2 ^ depth := by
    nlinarith
  have h2 : 0 ≤ indexer.BucketCount * leaf := by nlinarith
  have hin : toInt (indexer.BucketCount * leaf) = indexer.BucketCount * leaf :=
    toInt_of_range (by omega) (by omega)
  rw [hin, toInt_of_range (by omega) (by omega)]

/-- C1: for every `bucketCount ≥ 0` and `depth ≥ 0` such that `bucketCount * 2^depth`
fits a signed 32-bit int, `TStatsIndexer(bucketCount).CalcSize(depth)` equals
`bucketCount * 2^depth`. -/
theorem C1_CalcSize_eq (bucketCount : Int) (depth : Nat) (hb : 0 ≤ bucketCount)
    (hfit : bucketCount * 2 ^ depth < 2 ^ 31) :
    (TStatsIndexer.mk bucketCount).CalcSize depth = bucketCount * 2 ^ depth :=
  CalcSize_of_fits ⟨bucketCount⟩ depth hb hfit

theorem C1_CalcSize_eq_witness :
    (0 : Int) ≤ 3 ∧ (3 : Int) * 2 ^ 4 < 2 ^ 31 ∧ (TStatsIndexer.mk 3).CalcSize 4 = 3 * 2 ^ 4 :=
  ⟨by decide, by decide, C1_CalcSize_eq 3 4 (by decide) (by decide)⟩

/-- C2 (as stated, refuted): with `bucketCount = 2` and `depth = 31` the product
`(1U << 31) * 2` wraps to `0`, so `[0, CalcSize 31)` is empty although `(leaf, bucket) =
(0, 0)` is in the domain; `GetIndex` is not a bijection onto `[0, CalcSize depth)` there. -/
theorem C2_GetIndex_bijection_fails_on_overflow :
    (1 : Int) ≤ (TStatsIndexer.mk 2).BucketCount ∧ (TStatsIndexer.mk 2).CalcSize 31 = 0 ∧
      ¬ IndexIsBijection (TStatsIndexer.mk 2) 31 := by
  refine ⟨by decide, by decide, ?_⟩
  intro h
  have := (h.1 0 0 (by decide) (by decide) (by decide) (by decide)).2
  revert this
  decide

/-- C2 (amended): for every `bucketCount ≥ 1` and `depth ≥ 0` such that
`bucketCount * 2^depth` fits a signed 32-bit int, `GetIndex(leaf, bucket) =
bucketCount*leaf + bucket` is a bijection from the pairs with `0 ≤ leaf < 2^depth`,
`0 ≤ bucket < bucketCount` onto `[0, CalcSize(depth))`, with inverse
`idx ↦ (idx / bucketCount, idx mod bucketCount)`. -/
theorem C2_GetIndex_bijection (bucketCount : Int) (depth : Nat) (hb : 1 ≤ bucketCount)
    (hfit : bucketCount * 2 ^ depth < 2 ^ 31) :
    IndexIsBijection (TStatsIndexer.mk bucketCount) depth ∧
      ∀ leaf bucket : Int, 0 ≤ leaf → leaf < 2 ^ depth → 0 ≤ bucket → bucket < bucketCount →
        (TStatsIndexer.mk bucketCount).GetIndex leaf bucket = bucketCount * leaf + bucket := by
  have hsize := CalcSize_of_fits ⟨bucketCount⟩ depth (by simp; omega) hfit
  have hidx := fun leaf bucket h1 h2 h3 h4 =>
    GetIndex_of_fits ⟨bucketCount⟩ depth leaf bucket hfit h1 h2 h3 h4
  have hp := two_pow_pos_int depth
  refine ⟨⟨?_, ?_, ?_⟩, hidx⟩
  · intro leaf bucket h1 h2 h3 h4
    rw [hidx leaf bucket h1 h2 h3 h4, hsize]
    simp only
    constructor
    · nlinarith
    · nlinarith
  · intro l b l2 b2 h1 h2 h3 h4 h5 h6 h7 h8 heq
    rw [hidx l b h1 h2 h3 h4, hidx l2 b2 h5 h6 h7 h8] at heq
    simp only at heq h4 h8
    have hl : l = l2 := by
      rcases lt_trichotomy l l2 with h | h | h
      · nlinarith
      · exact h
      · nlinarith
    subst hl
    exact ⟨rfl, by omega⟩
  · intro idx h0 h1
    rw [hsize] at h1
    simp only at h1 ⊢
    have hq0 : 0 ≤ idx / bucketCount := Int.ediv_nonneg h0 (by omega)
    have hq1 : idx / bucketCount < 2 ^ depth :=
      Int.ediv_lt_of_lt_mul (by omega) (by rw [mul_comm]; exact h1)
    have hr0 : 0 ≤ idx % bucketCount := Int.emod_nonneg _ (by omega)
    have hr1 : idx % bucketCount < bucketCount := Int.emod_lt_of_pos _ (by omega)
    refine ⟨⟨hq0, hq1, hr0, hr1⟩, ?_⟩
    rw [hidx _ _ hq0 hq1 hr0 hr1]
    exact Int.ediv_add_emod idx bucketCount

theorem C2_GetIndex_bijection_witness :
    IndexIsBijection (TStatsIndexer.mk 3) 1 ∧
      ∀ leaf bucket : Int, 0 ≤ leaf → leaf < 2 ^ 1 → 0 ≤ bucket → bucket < 3 →
        (TStatsIndexer.mk 3).GetIndex leaf bucket = 3 * leaf + bucket :=
  C2_GetIndex_bijection 3 1 (by decide) (by decide)

/-! ## The accumulation loops -/

theorem accumulate_spec (singleIdx : List Nat) (c : Nat → Option TBucketStats) :
    ∀ (docs : List Nat) (stats : List TBucketStats),
      (∀ doc ∈ docs, (c doc).isSome = true ∧ ∃ idx, singleIdx[doc]? = some idx ∧ idx < stats.length) →
      ∃ out, accumulate singleIdx c docs stats = some out ∧ out.length = stats.length ∧
        ∀ s, out.getD s 0
          = stats.getD s 0 + slotSum singleIdx (fun doc => (c doc).getD 0) docs s := by
  intro docs
  induction docs with
  | nil =>
    intro stats _
    exact ⟨stats, rfl, rfl, fun s => by simp [slotSum]⟩
  | cons doc rest ih =>
    intro stats h
    obtain ⟨hc, idx, hidx, hlt⟩ := h doc (List.mem_cons_self _ _)
    obtain ⟨x, hx⟩ := Option.isSome_iff_exists.mp hc
    have hstep : accumulate singleIdx c (doc :: rest) stats
        = accumulate singleIdx c rest (stats.set idx (stats[idx] + x)) := by
      simp [accumulate, List.foldlM_cons, hidx, hx, List.getElem?_eq_getElem hlt]
    obtain ⟨out, hout, hlen, hs⟩ := ih (stats.set idx (stats[idx] + x)) (by
      intro d hd
      rw [List.length_set]
      exact h d (List.mem_cons_of_mem _ hd))
    refine ⟨out, by rw [hstep, hout], by rw [hlen, List.length_set], fun s => ?_⟩
    rw [hs s]
    simp only [slotSum, List.filter_cons, hidx]
    by_cases hs' : idx = s
    · subst hs'
      simp [List.getD_eq_getElem?_getD, List.getElem?_set, hlt, hx, add_assoc]
    · simp [List.getD_eq_getElem?_getD, List.getElem?_set, hs']


theorem TBucketStats.weighted_update (s : TBucketStats) (wd sw : ℚ) :
    ({ s with SumWeightedDelta := s.SumWeightedDelta + wd, SumWeight := s.SumWeight + sw }
      : TBucketStats) = s + ⟨wd, sw, 0, 0⟩ := by
  ext <;> simp

theorem TBucketStats.deltaCount_update (s : TBucketStats) (der w : ℚ) :
    ({ s with SumDelta := s.SumDelta + der, Count := s.Count + w } : TBucketStats)
      = s + ⟨0, 0, der, w⟩ := by
  ext <;> simp

theorem UpdateWeighted_eq_accumulate (singleIdx : List Nat) (weightedDer sampleWeights : Option (List ℚ))
    (r : TIndexRange) (stats : List TBucketStats) :
    UpdateWeighted singleIdx weightedDer sampleWeights r stats
      = accumulate singleIdx (weightedRead weightedDer sampleWeights) r.Iter stats := by
  unfold UpdateWeighted accumulate
  congr 1
  funext st doc
  cases h1 : singleIdx[doc]? with
  | none => simp
  | some idx =>
    cases h2 : st[idx]? with
    | none => simp [h2]
    | some leafStats =>
      cases h3 : readAt weightedDer doc with
      | none => simp [weightedRead, h3]
      | some wd =>
        cases h4 : readAt sampleWeights doc with
        | none => simp [weightedRead, h3, h4]
        | some sw => simp [weightedRead, h3, h4, TBucketStats.weighted_update]

theorem UpdateDeltaCount_eq_accumulate (singleIdx : List Nat)
    (derivatives learnWeights : Option (List ℚ)) (r : TIndexRange) (stats : List TBucketStats) :
    UpdateDeltaCount singleIdx derivatives learnWeights r stats
      = accumulate singleIdx (deltaCountRead derivatives learnWeights) r.Iter stats := by
  unfold UpdateDeltaCount accumulate
  cases learnWeights with
  | none =>
    simp only
    congr 1
    funext st doc
    cases h1 : singleIdx[doc]? with
    | none => simp
    | some idx =>
      cases h2 : st[idx]? with
      | none => simp [h2]
      | some leafStats =>
        cases h3 : readAt derivatives doc with
        | none => simp [deltaCountRead, h3]
        | some der => simp [deltaCountRead, h3, TBucketStats.deltaCount_update]
  | some lw =>
    simp only
    congr 1
    funext st doc
    cases h1 : singleIdx[doc]? with
    | none => simp
    | some idx =>
      cases h2 : st[idx]? with
      | none => simp [h2]
      | some leafStats =>
        cases h3 : readAt derivatives doc with
        | none => simp [deltaCountRead, h3]
        | some der =>
          cases h4 : lw[doc]? with
          | none => simp [deltaCountRead, h3, h4]
          | some w => simp [deltaCountRead, h3, h4, TBucketStats.deltaCount_update]

theorem accumulate_congr (singleIdx : List Nat) (c c2 : Nat → Option TBucketStats) :
    ∀ (docs : List Nat) (stats : List TBucketStats), (∀ doc ∈ docs, c doc = c2 doc) →
      accumulate singleIdx c docs stats = accumulate singleIdx c2 docs stats := by
  intro docs
  induction docs with
  | nil => intro stats _; rfl
  | cons doc rest ih =>
    intro stats h
    unfold accumulate at ih ⊢
    rw [List.foldlM_cons, List.foldlM_cons, h doc (List.mem_cons_self _ _)]
    congr 1
    funext st
    exact ih st (fun d hd => h d (List.mem_cons_of_mem _ hd))

theorem accumulate_append (singleIdx : List Nat) (c : Nat → Option TBucketStats)
    (l1 l2 : List Nat) (stats : List TBucketStats) :
    accumulate singleIdx c (l1 ++ l2) stats
      = (accumulate singleIdx c l1 stats).bind (accumulate singleIdx c l2) := by
  unfold accumulate
  rw [List.foldlM_append]
  rfl

theorem accumulate_nil (singleIdx : List Nat) (c : Nat → Option TBucketStats)
    (stats : List TBucketStats) : accumulate singleIdx c [] stats = some stats := rfl

theorem slotSum_append (singleIdx : List Nat) (c : Nat → TBucketStats) (l1 l2 : List Nat)
    (s : Nat) :
    slotSum singleIdx c (l1 ++ l2) s = slotSum singleIdx c l1 s + slotSum singleIdx c l2 s := by
  simp [slotSum, List.filter_append]

theorem slotSum_congr (singleIdx : List Nat) (c c2 : Nat → TBucketStats) (docs : List Nat)
    (s : Nat) (h : ∀ doc ∈ docs, c doc = c2 doc) :
    slotSum singleIdx c docs s = slotSum singleIdx c2 docs s := by
  unfold slotSum
  congr 1
  apply List.map_congr_left
  intro doc hdoc
  exact h doc (List.mem_filter.mp hdoc).1

theorem slotSum_zero (singleIdx : List Nat) (c : Nat → TBucketStats) (docs : List Nat)
    (s : Nat) (h : ∀ doc ∈ docs, c doc = 0) : slotSum singleIdx c docs s = 0 := by
  rw [slotSum_congr singleIdx c (fun _ => 0) docs s h]
  simp [slotSum]

theorem Fill_spec (stats : List TBucketStats) (first last : Int) (value : TBucketStats)
    (h0 : 0 ≤ first) (h1 : first ≤ last) (h2 : last ≤ (stats.length : Int)) :
    ∃ out, Fill stats first last value = some out ∧ out.length = stats.length ∧
      ∀ s : Nat, out.getD s 0
        = if first ≤ (s : Int) ∧ (s : Int) < last then value else stats.getD s 0 := by
  refine ⟨stats.mapIdx (fun i s => if first ≤ (i : Int) ∧ (i : Int) < last then value else s),
    by simp [Fill, h0, h1, h2], by simp, fun s => ?_⟩
  simp only [List.getD_eq_getElem?_getD, List.getElem?_mapIdx]
  by_cases hs : s < stats.length
  · simp [List.getElem?_eq_getElem hs]
  · have hn : stats[s]? = none := List.getElem?_eq_none (by omega)
    have : ¬ ((s : Int) < last) := by omega
    simp [hn, this]

/-! ## `CalcStatsKernel` as one accumulation over the documents below `TailFinish` -/

theorem kernel_tail_part (singleIdx : List Nat) (fold : TCalcScoreFold) (bt : TBodyTail)
    (dim : Nat) (isPlainMode : Bool) (a t : Nat) (st : List TBucketStats)
    (hdim : dim < bt.SampleWeightedDerivatives.length)
    (ha : isPlainMode = true ∨ bt.BodyFinish ≤ a) :
    (bt.SampleWeightedDerivatives[dim]?).bind (fun v =>
        UpdateWeighted singleIdx (GetDataPtr v) (sampleWeightsData fold bt) ⟨a, t⟩ st)
      = accumulate singleIdx (docRead fold bt dim isPlainMode) (List.range' a (t - a)) st := by
  rw [List.getElem?_eq_getElem hdim, Option.some_bind, UpdateWeighted_eq_accumulate]
  apply accumulate_congr
  intro doc hdoc
  have hmem : a ≤ doc := (List.mem_range'_1.mp hdoc).1
  have hcond : isPlainMode = true ∨ bt.BodyFinish ≤ doc := by
    rcases ha with h | h
    · exact Or.inl h
    · exact Or.inr (le_trans h hmem)
  simp [docRead, hcond, List.getElem?_eq_getElem hdim]

theorem kernel_body_part (singleIdx : List Nat) (fold : TCalcScoreFold) (bt : TBodyTail)
    (dim : Nat) (b e : Nat) (st : List TBucketStats)
    (hdim : dim < bt.WeightedDerivatives.length) :
    (if bt.BodyFinish > b then
        (bt.WeightedDerivatives[dim]?).bind (fun v =>
          UpdateDeltaCount singleIdx (GetDataPtr v) (weightsData fold bt)
            ⟨b, min bt.BodyFinish e⟩ st)
      else some st)
      = accumulate singleIdx (docRead fold bt dim false)
          (List.range' b (min bt.BodyFinish e - b)) st := by
  by_cases h : bt.BodyFinish > b
  · rw [if_pos h, List.getElem?_eq_getElem hdim, Option.some_bind, UpdateDeltaCount_eq_accumulate]
    apply accumulate_congr
    intro doc hdoc
    have hmem := (List.mem_range'_1.mp hdoc).2
    have hlt : ¬ bt.BodyFinish ≤ doc := by
      simp only at hmem
      omega
    simp [docRead, hlt, List.getElem?_eq_getElem hdim]
  · rw [if_neg h]
    have : min bt.BodyFinish e - b = 0 := by omega
    rw [this]
    rfl

theorem CalcStatsKernel_eq (isCaching : Bool) (singleIdx : List Nat) (fold : TCalcScoreFold)
    (isPlainMode : Bool) (indexer : TStatsIndexer) (depth : Nat) (bt : TBodyTail) (dim : Nat)
    (r : TIndexRange) (stats : List TBucketStats)
    (hdim1 : dim < bt.SampleWeightedDerivatives.length)
    (hdim2 : isPlainMode = false → dim < bt.WeightedDerivatives.length)
    (hbt : isPlainMode = false → bt.BodyFinish ≤ bt.TailFinish) :
    CalcStatsKernel isCaching singleIdx fold isPlainMode indexer depth bt dim r stats
      = if isCaching = true ∧ depth = 0 then none
        else
          (if isCaching = true then
              Fill stats (indexer.CalcSize (depth - 1)) (indexer.CalcSize depth) ⟨0, 0, 0, 0⟩
            else Fill stats 0 (indexer.CalcSize depth) ⟨0, 0, 0, 0⟩).bind
            (accumulate singleIdx (docRead fold bt dim isPlainMode)
              (List.range' r.Begin (min bt.TailFinish r.End - r.Begin))) := by
  unfold CalcStatsKernel
  by_cases hc : isCaching = true ∧ depth = 0
  · rw [if_pos hc, if_pos hc]
  · rw [if_neg hc, if_neg hc]
    simp only [bind, pure]
    congr 1
    funext st
    by_cases htf : bt.TailFinish > r.Begin
    · rw [if_pos htf]
      cases hp : isPlainMode with
      | true =>
        simp only [if_true]
        exact kernel_tail_part singleIdx fold bt dim true r.Begin _ st hdim1 (Or.inl rfl)
      | false =>
        have hbf := hbt hp
        simp only [Bool.false_eq_true, if_false]
        rw [kernel_body_part singleIdx fold bt dim r.Begin r.End st (hdim2 hp)]
        have hsplit : List.range' r.Begin (min bt.TailFinish r.End - r.Begin)
            = List.range' r.Begin (min bt.BodyFinish r.End - r.Begin)
              ++ List.range' (max bt.BodyFinish r.Begin)
                  (min bt.TailFinish r.End - max bt.BodyFinish r.Begin) := by
          by_cases hb : bt.BodyFinish ≤ r.Begin
          · have h1 : min bt.BodyFinish r.End - r.Begin = 0 := by omega
            have h2 : max bt.BodyFinish r.Begin = r.Begin := by omega
            rw [h1, h2]
            simp
          · by_cases he : r.End ≤ bt.BodyFinish
            · have h1 : min bt.TailFinish r.End - max bt.BodyFinish r.Begin = 0 := by omega
              have h2 : min bt.TailFinish r.End = min bt.BodyFinish r.End := by omega
              rw [h1, h2]
              simp
            · have h3 := List.range'_append r.Begin (min bt.BodyFinish r.End - r.Begin)
                (min bt.TailFinish r.End - max bt.BodyFinish r.Begin) 1
              have h4 : r.Begin + 1 * (min bt.BodyFinish r.End - r.Begin)
                  = max bt.BodyFinish r.Begin := by omega
              have h5 : min bt.TailFinish r.End - max bt.BodyFinish r.Begin
                  + (min bt.BodyFinish r.End - r.Begin)
                  = min bt.TailFinish r.End - r.Begin := by omega
              rw [h4, h5] at h3
              exact h3.symm
        rw [hsplit, accumulate_append]
        congr 1
        funext st1
        by_cases ht : min bt.TailFinish r.End > bt.BodyFinish
        · rw [if_pos ht]
          exact kernel_tail_part singleIdx fold bt dim false _ _ st1 hdim1
            (Or.inr (le_max_left _ _))
        · rw [if_neg ht]
          have : min bt.TailFinish r.End - max bt.BodyFinish r.Begin = 0 := by omega
          rw [this]
          rfl
    · rw [if_neg htf]
      have : min bt.TailFinish r.End - r.Begin = 0 := by omega
      rw [this]
      rfl

theorem slotSum_docContribution (singleIdx : List Nat) (fold : TCalcScoreFold) (bt : TBodyTail)
    (dim : Nat) (isPlainMode : Bool) (b e s : Nat) :
    slotSum singleIdx (docContribution fold bt dim isPlainMode) (List.range' b (e - b)) s
      = slotSum singleIdx (fun doc => (docRead fold bt dim isPlainMode doc).getD 0)
          (List.range' b (min bt.TailFinish e - b)) s := by
  have h3 := List.range'_append b (min bt.TailFinish e - b)
    ((e - b) - (min bt.TailFinish e - b)) 1
  have h5 : (e - b) - (min bt.TailFinish e - b) + (min bt.TailFinish e - b) = e - b := by omega
  rw [h5] at h3
  rw [← h3, slotSum_append, slotSum_zero _ _ (List.range' (b + 1 * _) _) s, add_zero]
  · apply slotSum_congr
    intro doc hdoc
    have h1 := (List.mem_range'_1.mp hdoc).1
    have h2 := (List.mem_range'_1.mp hdoc).2
    have hlt : doc < bt.TailFinish := by omega
    simp [docContribution, hlt]
  · intro doc hdoc
    have h1 := (List.mem_range'_1.mp hdoc).1
    have h2 := (List.mem_range'_1.mp hdoc).2
    have hlt : ¬ doc < bt.TailFinish := by omega
    simp [docContribution, hlt]

/-- Functional description of one kernel run: the slots of `[lo, CalcSize depth)` are
cleared (`lo = 0` from scratch, `lo = CalcSize (depth - 1)` when caching), every other slot
keeps its content, and every slot receives the contributions of its documents. -/
theorem CalcStatsKernel_spec (isCaching : Bool) (singleIdx : List Nat) (fold : TCalcScoreFold)
    (isPlainMode : Bool) (indexer : TStatsIndexer) (depth : Nat) (bt : TBodyTail) (dim : Nat)
    (r : TIndexRange) (stats : List TBucketStats) (lo : Int)
    (hbt : isPlainMode = false → bt.BodyFinish ≤ bt.TailFinish)
    (hreads : ReadsInBounds singleIdx fold bt dim isPlainMode r stats.length)
    (hlo : lo = if isCaching = true then indexer.CalcSize (depth - 1) else 0)
    (hdepth : isCaching = true → depth ≠ 0)
    (hlo0 : 0 ≤ lo) (hlohi : lo ≤ indexer.CalcSize depth)
    (hhi : indexer.CalcSize depth ≤ (stats.length : Int)) :
    ∃ out, CalcStatsKernel isCaching singleIdx fold isPlainMode indexer depth bt dim r stats
        = some out ∧ out.length = stats.length ∧
      ∀ s : Nat, out.getD s 0
        = (if lo ≤ (s : Int) ∧ (s : Int) < indexer.CalcSize depth then 0 else stats.getD s 0)
          + slotSum singleIdx (docContribution fold bt dim isPlainMode) r.Iter s := by
  obtain ⟨hdim1, hdim2, hdocs⟩ := hreads
  rw [CalcStatsKernel_eq isCaching singleIdx fold isPlainMode indexer depth bt dim r stats
    hdim1 hdim2 hbt]
  have hc : ¬ (isCaching = true ∧ depth = 0) := fun h => hdepth h.1 h.2
  rw [if_neg hc]
  have hfill : (if isCaching = true then
        Fill stats (indexer.CalcSize (depth - 1)) (indexer.CalcSize depth) ⟨0, 0, 0, 0⟩
      else Fill stats 0 (indexer.CalcSize depth) ⟨0, 0, 0, 0⟩)
      = Fill stats lo (indexer.CalcSize depth) 0 := by
    rw [hlo]
    split <;> rfl
  rw [hfill]
  obtain ⟨st0, hst0, hlen0, hget0⟩ := Fill_spec stats lo (indexer.CalcSize depth) 0 hlo0 hlohi hhi
  rw [hst0, Option.some_bind]
  obtain ⟨out, hout, hlen, hget⟩ := accumulate_spec singleIdx (docRead fold bt dim isPlainMode)
    (List.range' r.Begin (min bt.TailFinish r.End - r.Begin)) st0 (by
      intro doc hdoc
      have h1 := (List.mem_range'_1.mp hdoc).1
      have h2 := (List.mem_range'_1.mp hdoc).2
      have hmem : doc ∈ r.Iter := by
        unfold TIndexRange.Iter
        rw [List.mem_range'_1]
        omega
      obtain ⟨hsome, hlt, hidx⟩ := hdocs doc hmem (by omega)
      refine ⟨hsome, singleIdx.getD doc 0, ?_, by rw [hlen0]; exact hidx⟩
      rw [List.getD_eq_getElem?_getD, List.getElem?_eq_getElem hlt]
      rfl)
  refine ⟨out, hout, by rw [hlen, hlen0], fun s => ?_⟩
  rw [hget s, hget0 s]
  unfold TIndexRange.Iter
  rw [slotSum_docContribution]

/-! ## Field-wise sums -/

theorem readAt_GetDataPtr {α : Type} (v : List α) (i : Nat) : readAt (GetDataPtr v) i = v[i]? := by
  unfold readAt GetDataPtr
  cases v with
  | nil => simp
  | cons a l => simp

theorem sum_map_SumWeightedDelta (c : Nat → TBucketStats) (l : List Nat) :
    (l.map c).sum.SumWeightedDelta = (l.map (fun d => (c d).SumWeightedDelta)).sum := by
  induction l with
  | nil => rfl
  | cons a l ih => simp [ih]

theorem sum_map_SumWeight (c : Nat → TBucketStats) (l : List Nat) :
    (l.map c).sum.SumWeight = (l.map (fun d => (c d).SumWeight)).sum := by
  induction l with
  | nil => rfl
  | cons a l ih => simp [ih]

theorem sum_map_SumDelta (c : Nat → TBucketStats) (l : List Nat) :
    (l.map c).sum.SumDelta = (l.map (fun d => (c d).SumDelta)).sum := by
  induction l with
  | nil => rfl
  | cons a l ih => simp [ih]

theorem sum_map_Count (c : Nat → TBucketStats) (l : List Nat) :
    (l.map c).sum.Count = (l.map (fun d => (c d).Count)).sum := by
  induction l with
  | nil => rfl
  | cons a l ih => simp [ih]

/-- A list sum over the documents of `[b, e)` in slot `s` is the corresponding finite sum. -/
theorem slot_list_sum_eq_finset_sum (singleIdx : List Nat) (f : Nat → ℚ) (b e s : Nat) :
    (((List.range' b (e - b)).filter (fun doc => singleIdx[doc]? = some s)).map f).sum
      = ∑ doc ∈ (Finset.Ico b e).filter (fun doc => singleIdx[doc]? = some s), f doc := rfl

theorem getElem?_of_getD (out : List TBucketStats) (s : Nat) (x : TBucketStats)
    (hs : s < out.length) (h : out.getD s 0 = x) : out[s]? = some x := by
  rw [List.getD_eq_getElem?_getD, List.getElem?_eq_getElem hs] at h
  rw [List.getElem?_eq_getElem hs]
  exact congrArg some h

/-! ## C3: plain-mode accumulation -/

/-- C3: plain-mode accumulation.  `CalcStatsKernel` run from scratch (`isCaching = false`,
`isPlainMode = true`) over `[Begin, End)` returns, and leaves in every slot
`s < CalcSize(depth)`: `SumWeightedDelta` = the sum of `SampleWeightedDerivatives[dim][doc]`
and `SumWeight` = the sum of the sample weights over exactly the documents with
`Begin ≤ doc < min(TailFinish, End)` and `singleIdx[doc] = s`, and `SumDelta = Count = 0`.
Hypotheses: the cleared range `[0, CalcSize(depth))` lies inside the statistics array and
every read on the accumulated documents is inside its array. -/
theorem C3_plain_accumulation (singleIdx : List Nat) (fold : TCalcScoreFold)
    (indexer : TStatsIndexer) (depth : Nat) (bt : TBodyTail) (dim : Nat) (r : TIndexRange)
    (stats : List TBucketStats) (sampleWeightedDer sampleWeights : List ℚ)
    (hsize0 : 0 ≤ indexer.CalcSize depth)
    (hsize : indexer.CalcSize depth ≤ (stats.length : Int))
    (hswd : bt.SampleWeightedDerivatives[dim]? = some sampleWeightedDer)
    (hsw : sampleWeightsData fold bt = GetDataPtr sampleWeights)
    (hdocs : ∀ doc, r.Begin ≤ doc → doc < min bt.TailFinish r.End →
      doc < sampleWeightedDer.length ∧ doc < sampleWeights.length ∧
        doc < singleIdx.length ∧ singleIdx.getD doc 0 < stats.length) :
    ∃ out, CalcStatsKernel false singleIdx fold true indexer depth bt dim r stats = some out ∧
      out.length = stats.length ∧
      ∀ s : Nat, (s : Int) < indexer.CalcSize depth →
        out[s]? = some
          { SumWeightedDelta :=
              ∑ doc ∈ (Finset.Ico r.Begin (min bt.TailFinish r.End)).filter
                (fun doc => singleIdx[doc]? = some s), sampleWeightedDer.getD doc 0
            SumWeight :=
              ∑ doc ∈ (Finset.Ico r.Begin (min bt.TailFinish r.End)).filter
                (fun doc => singleIdx[doc]? = some s), sampleWeights.getD doc 0
            SumDelta := 0
            Count := 0 } := by
  have hdim : dim < bt.SampleWeightedDerivatives.length := by
    obtain ⟨h, _⟩ := List.getElem?_eq_some.mp hswd
    exact h
  have hread : ∀ doc, r.Begin ≤ doc → doc < min bt.TailFinish r.End →
      docRead fold bt dim true doc
        = some ⟨sampleWeightedDer.getD doc 0, sampleWeights.getD doc 0, 0, 0⟩ := by
    intro doc h1 h2
    obtain ⟨ha, hb, _, _⟩ := hdocs doc h1 h2
    simp [docRead, hswd, weightedRead, hsw, readAt_GetDataPtr, List.getElem?_eq_getElem ha,
      List.getElem?_eq_getElem hb, List.getD_eq_getElem?_getD]
  have hreads : ReadsInBounds singleIdx fold bt dim true r stats.length := by
    refine ⟨hdim, by simp, ?_⟩
    intro doc hdoc hlt
    unfold TIndexRange.Iter at hdoc
    have h1 := (List.mem_range'_1.mp hdoc).1
    have h2 := (List.mem_range'_1.mp hdoc).2
    have h3 : doc < min bt.TailFinish r.End := by omega
    rw [hread doc h1 h3]
    exact ⟨rfl, (hdocs doc h1 h3).2.2⟩
  obtain ⟨out, hout, hlen, hget⟩ := CalcStatsKernel_spec false singleIdx fold true indexer depth
    bt dim r stats 0 (by simp) hreads (by simp) (by simp) le_rfl hsize0 hsize
  refine ⟨out, hout, hlen, fun s hs => ?_⟩
  have hslen : s < out.length := by
    rw [hlen]
    omega
  apply getElem?_of_getD out s _ hslen
  rw [hget s, if_pos ⟨by omega, hs⟩, zero_add]
  unfold TIndexRange.Iter
  rw [slotSum_docContribution, slotSum_congr singleIdx _
    (fun doc => ⟨sampleWeightedDer.getD doc 0, sampleWeights.getD doc 0, 0, 0⟩) _ s (by
      intro doc hdoc
      have h1 := (List.mem_range'_1.mp hdoc).1
      have h2 := (List.mem_range'_1.mp hdoc).2
      simp only
      rw [hread doc h1 (by omega)]
      rfl)]
  unfold slotSum
  ext
  · rw [sum_map_SumWeightedDelta]
    rfl
  · rw [sum_map_SumWeight]
    rfl
  · rw [sum_map_SumDelta]
    simp
  · rw [sum_map_Count]
    simp

theorem C3_plain_accumulation_witness :
    ∃ out, CalcStatsKernel false exampleSingleIdx exampleFold true ⟨3⟩ 1 exampleBodyTail 0
        ⟨0, 4⟩ exampleStats = some out ∧
      out.length = exampleStats.length ∧
      ∀ s : Nat, (s : Int) < (TStatsIndexer.mk 3).CalcSize 1 →
        out[s]? = some
          { SumWeightedDelta :=
              ∑ doc ∈ (Finset.Ico 0 (min exampleBodyTail.TailFinish 4)).filter
                (fun doc => exampleSingleIdx[doc]? = some s), [-1, 2, 1 / 2, -1 / 2].getD doc 0
            SumWeight :=
              ∑ doc ∈ (Finset.Ico 0 (min exampleBodyTail.TailFinish 4)).filter
                (fun doc => exampleSingleIdx[doc]? = some s), [1, 1, 1, 1].getD doc 0
            SumDelta := 0
            Count := 0 } :=
  C3_plain_accumulation exampleSingleIdx exampleFold ⟨3⟩ 1 exampleBodyTail 0 ⟨0, 4⟩ exampleStats
    [-1, 2, 1 / 2, -1 / 2] [1, 1, 1, 1] (by decide) (by decide) rfl rfl
    (fun doc _ h => by
      have h4 : doc < 4 := by simpa [exampleBodyTail] using h
      interval_cases doc <;> decide)

/-! ## C4: ordered-mode accumulation -/

/-- C4: ordered-mode accumulation.  For a body/tail segment with `BodyFinish ≤ TailFinish`,
`CalcStatsKernel` (`isPlainMode = false`, from scratch) over `[Begin, End)` returns, and
every document of `[Begin, min(TailFinish, End))` is counted exactly once: in every slot
`s < CalcSize(depth)`, `SumDelta` is the sum of `WeightedDerivatives[dim][doc]` and `Count`
the sum of `1` (no learn weights) or `learnWeights[doc]` over the documents of the slot with
`doc < BodyFinish`, and `SumWeightedDelta` / `SumWeight` are the sums of
`SampleWeightedDerivatives[dim][doc]` / `sampleWeights[doc]` over the documents of the slot
with `BodyFinish ≤ doc`; documents from `TailFinish` on appear in no sum. -/
theorem C4_ordered_accumulation (singleIdx : List Nat) (fold : TCalcScoreFold)
    (indexer : TStatsIndexer) (depth : Nat) (bt : TBodyTail) (dim : Nat) (r : TIndexRange)
    (stats : List TBucketStats) (weightedDer learnWeights sampleWeightedDer sampleWeights : List ℚ)
    (hbt : bt.BodyFinish ≤ bt.TailFinish)
    (hsize0 : 0 ≤ indexer.CalcSize depth)
    (hsize : indexer.CalcSize depth ≤ (stats.length : Int))
    (hwd : bt.WeightedDerivatives[dim]? = some weightedDer)
    (hswd : bt.SampleWeightedDerivatives[dim]? = some sampleWeightedDer)
    (hlw : weightsData fold bt = GetDataPtr learnWeights)
    (hsw : sampleWeightsData fold bt = GetDataPtr sampleWeights)
    (hdocs : ∀ doc, r.Begin ≤ doc → doc < min bt.TailFinish r.End →
      doc < singleIdx.length ∧ singleIdx.getD doc 0 < stats.length ∧
        (doc < bt.BodyFinish →
          doc < weightedDer.length ∧ (learnWeights ≠ [] → doc < learnWeights.length)) ∧
        (bt.BodyFinish ≤ doc → doc < sampleWeightedDer.length ∧ doc < sampleWeights.length)) :
    ∃ out, CalcStatsKernel false singleIdx fold false indexer depth bt dim r stats = some out ∧
      out.length = stats.length ∧
      ∀ s : Nat, (s : Int) < indexer.CalcSize depth →
        out[s]? = some
          { SumWeightedDelta :=
              ∑ doc ∈ (Finset.Ico r.Begin (min bt.TailFinish r.End)).filter
                (fun doc => bt.BodyFinish ≤ doc ∧ singleIdx[doc]? = some s),
                sampleWeightedDer.getD doc 0
            SumWeight :=
              ∑ doc ∈ (Finset.Ico r.Begin (min bt.TailFinish r.End)).filter
                (fun doc => bt.BodyFinish ≤ doc ∧ singleIdx[doc]? = some s),
                sampleWeights.getD doc 0
            SumDelta :=
              ∑ doc ∈ (Finset.Ico r.Begin (min bt.TailFinish r.End)).filter
                (fun doc => doc < bt.BodyFinish ∧ singleIdx[doc]? = some s),
                weightedDer.getD doc 0
            Count :=
              ∑ doc ∈ (Finset.Ico r.Begin (min bt.TailFinish r.End)).filter
                (fun doc => doc < bt.BodyFinish ∧ singleIdx[doc]? = some s),
                (if learnWeights = [] then 1 else learnWeights.getD doc 0) } := by
  have hdim1 : dim < bt.SampleWeightedDerivatives.length := by
    obtain ⟨h, _⟩ := List.getElem?_eq_some.mp hswd
    exact h
  have hdim2 : dim < bt.WeightedDerivatives.length := by
    obtain ⟨h, _⟩ := List.getElem?_eq_some.mp hwd
    exact h
  have hread : ∀ doc, r.Begin ≤ doc → doc < min bt.TailFinish r.End →
      docRead fold bt dim false doc
        = some (if doc < bt.BodyFinish then
            ⟨0, 0, weightedDer.getD doc 0, if learnWeights = [] then 1 else learnWeights.getD doc 0⟩
          else ⟨sampleWeightedDer.getD doc 0, sampleWeights.getD doc 0, 0, 0⟩) := by
    intro doc h1 h2
    obtain ⟨_, _, hbody, htail⟩ := hdocs doc h1 h2
    by_cases hb : doc < bt.BodyFinish
    · obtain ⟨ha, hl⟩ := hbody hb
      have hnb : ¬ bt.BodyFinish ≤ doc := by omega
      cases hlw2 : learnWeights with
      | nil =>
        have hg : GetDataPtr ([] : List ℚ) = none := rfl
        simp [docRead, hnb, hb, hwd, deltaCountRead, hlw, hlw2, hg, readAt_GetDataPtr,
          List.getElem?_eq_getElem ha, List.getD_eq_getElem?_getD]
      | cons a l =>
        have hl2 : doc < (a :: l).length := by
          rw [← hlw2]
          exact hl (by rw [hlw2]; simp)
        have hg : GetDataPtr (a :: l) = some (a :: l) := rfl
        simp [docRead, hnb, hb, hwd, deltaCountRead, hlw, hlw2, hg, readAt_GetDataPtr,
          List.getElem?_eq_getElem ha, List.getElem?_eq_getElem hl2, List.getD_eq_getElem?_getD]
    · obtain ⟨ha, hc⟩ := htail (by omega)
      have hnb : bt.BodyFinish ≤ doc := by omega
      simp [docRead, hnb, hb, hswd, weightedRead, hsw, readAt_GetDataPtr,
        List.getElem?_eq_getElem ha, List.getElem?_eq_getElem hc, List.getD_eq_getElem?_getD]
  have hreads : ReadsInBounds singleIdx fold bt dim false r stats.length := by
    refine ⟨hdim1, fun _ => hdim2, ?_⟩
    intro doc hdoc hlt
    unfold TIndexRange.Iter at hdoc
    have h1 := (List.mem_range'_1.mp hdoc).1
    have h2 := (List.mem_range'_1.mp hdoc).2
    have h3 : doc < min bt.TailFinish r.End := by omega
    rw [hread doc h1 h3]
    exact ⟨rfl, (hdocs doc h1 h3).1, (hdocs doc h1 h3).2.1⟩
  obtain ⟨out, hout, hlen, hget⟩ := CalcStatsKernel_spec false singleIdx fold false indexer depth
    bt dim r stats 0 (fun _ => hbt) hreads (by simp) (by simp) le_rfl hsize0 hsize
  refine ⟨out, hout, hlen, fun s hs => ?_⟩
  have hslen : s < out.length := by
    rw [hlen]
    omega
  apply getElem?_of_getD out s _ hslen
  rw [hget s, if_pos ⟨by omega, hs⟩, zero_add]
  unfold TIndexRange.Iter
  rw [slotSum_docContribution, slotSum_congr singleIdx _
    (fun doc => if doc < bt.BodyFinish then
        ⟨0, 0, weightedDer.getD doc 0, if learnWeights = [] then 1 else learnWeights.getD doc 0⟩
      else ⟨sampleWeightedDer.getD doc 0, sampleWeights.getD doc 0, 0, 0⟩) _ s (by
      intro doc hdoc
      have h1 := (List.mem_range'_1.mp hdoc).1
      have h2 := (List.mem_range'_1.mp hdoc).2
      simp only
      rw [hread doc h1 (by omega)]
      rfl)]
  unfold slotSum
  ext
  · rw [sum_map_SumWeightedDelta, slot_list_sum_eq_finset_sum]
    simp only
    rw [Finset.sum_filter, Finset.sum_filter]
    apply Finset.sum_congr rfl
    intro doc _
    by_cases h1 : doc < bt.BodyFinish <;> by_cases h2 : singleIdx[doc]? = some s <;>
      simp [h1, h2, Nat.not_le.mpr, Nat.le_of_not_lt]
  · rw [sum_map_SumWeight, slot_list_sum_eq_finset_sum]
    simp only
    rw [Finset.sum_filter, Finset.sum_filter]
    apply Finset.sum_congr rfl
    intro doc _
    by_cases h1 : doc < bt.BodyFinish <;> by_cases h2 : singleIdx[doc]? = some s <;>
      simp [h1, h2, Nat.not_le.mpr, Nat.le_of_not_lt]
  · rw [sum_map_SumDelta, slot_list_sum_eq_finset_sum]
    simp only
    rw [Finset.sum_filter, Finset.sum_filter]
    apply Finset.sum_congr rfl
    intro doc _
    by_cases h1 : doc < bt.BodyFinish <;> by_cases h2 : singleIdx[doc]? = some s <;>
      simp [h1, h2]
  · rw [sum_map_Count, slot_list_sum_eq_finset_sum]
    simp only
    rw [Finset.sum_filter, Finset.sum_filter]
    apply Finset.sum_congr rfl
    intro doc _
    by_cases h1 : doc < bt.BodyFinish <;> by_cases h2 : singleIdx[doc]? = some s <;>
      simp [h1, h2]

theorem C4_ordered_accumulation_witness :
    ∃ out, CalcStatsKernel false exampleSingleIdx exampleFold false ⟨3⟩ 1 exampleBodyTail 0
        ⟨0, 4⟩ exampleStats = some out ∧
      out.length = exampleStats.length ∧
      ∀ s : Nat, (s : Int) < (TStatsIndexer.mk 3).CalcSize 1 →
        out[s]? = some
          { SumWeightedDelta :=
              ∑ doc ∈ (Finset.Ico 0 (min exampleBodyTail.TailFinish 4)).filter
                (fun doc => exampleBodyTail.BodyFinish ≤ doc ∧ exampleSingleIdx[doc]? = some s),
                [-1, 2, 1 / 2, -1 / 2].getD doc 0
            SumWeight :=
              ∑ doc ∈ (Finset.Ico 0 (min exampleBodyTail.TailFinish 4)).filter
                (fun doc => exampleBodyTail.BodyFinish ≤ doc ∧ exampleSingleIdx[doc]? = some s),
                [1, 1, 1, 1].getD doc 0
            SumDelta :=
              ∑ doc ∈ (Finset.Ico 0 (min exampleBodyTail.TailFinish 4)).filter
                (fun doc => doc < exampleBodyTail.BodyFinish ∧ exampleSingleIdx[doc]? = some s),
                [-1, 2, 1 / 2, -1 / 2].getD doc 0
            Count :=
              ∑ doc ∈ (Finset.Ico 0 (min exampleBodyTail.TailFinish 4)).filter
                (fun doc => doc < exampleBodyTail.BodyFinish ∧ exampleSingleIdx[doc]? = some s),
                (if ([] : List ℚ) = [] then 1 else ([] : List ℚ).getD doc 0) } :=
  C4_ordered_accumulation exampleSingleIdx exampleFold ⟨3⟩ 1 exampleBodyTail 0 ⟨0, 4⟩
    exampleStats [-1, 2, 1 / 2, -1 / 2] [] [-1, 2, 1 / 2, -1 / 2] [1, 1, 1, 1]
    (by decide) (by decide) (by decide) rfl rfl rfl rfl
    (fun doc _ h => by
      have h4 : doc < 4 := by simpa [exampleBodyTail] using h
      interval_cases doc <;> decide)

/-! ## C7: `FixUpStats` -/

/-- A loop over `i < k` that rewrites the pair of slots `(i, i + half)` from their old
contents. -/
theorem pair_loop_spec (half : Nat) (g1 g2 : TBucketStats → TBucketStats → TBucketStats)
    (step : List TBucketStats → Nat → Option (List TBucketStats))
    (hstep : ∀ st i, i < half → 2 * half ≤ st.length →
      ∃ st2, step st i = some st2 ∧ st2.length = st.length ∧
        ∀ j, st2.getD j 0
          = if j = i then g1 (st.getD i 0) (st.getD (i + half) 0)
            else if j = i + half then g2 (st.getD i 0) (st.getD (i + half) 0)
            else st.getD j 0) :
    ∀ k, k ≤ half → ∀ stats : List TBucketStats, 2 * half ≤ stats.length →
      ∃ out, (List.range k).foldlM step stats = some out ∧ out.length = stats.length ∧
        ∀ j, out.getD j 0
          = if j < k then g1 (stats.getD j 0) (stats.getD (j + half) 0)
            else if half ≤ j ∧ j < half + k then g2 (stats.getD (j - half) 0) (stats.getD j 0)
            else stats.getD j 0 := by
  intro k
  induction k with
  | zero =>
    intro _ stats _
    refine ⟨stats, rfl, rfl, fun j => ?_⟩
    rw [if_neg (by omega), if_neg (by omega)]
  | succ k ih =>
    intro hk stats hlen
    obtain ⟨mid, hmid, hmlen, hmget⟩ := ih (by omega) stats hlen
    obtain ⟨out, hout, holen, hoget⟩ := hstep mid k (by omega) (by omega)
    refine ⟨out, ?_, by rw [holen, hmlen], fun j => ?_⟩
    · rw [List.range_succ, List.foldlM_append, hmid]
      simp [hout]
    · rw [hoget j]
      have hk1 : mid.getD k 0 = stats.getD k 0 := by
        rw [hmget k, if_neg (by omega), if_neg (by omega)]
      have hk2 : mid.getD (k + half) 0 = stats.getD (k + half) 0 := by
        rw [hmget (k + half), if_neg (by omega), if_neg (by omega)]
      rw [hk1, hk2, hmget j]
      by_cases h1 : j = k
      · subst h1
        simp
      · by_cases h2 : j = k + half
        · subst h2
          have : ¬ (k + half < k + 1) := by omega
          have e1 : k + half < half + (k + 1) := by omega
          have e2 : k + half - half = k := by omega
          simp [h1, this, e1, e2]
        · by_cases h3 : j < k
          · have : j < k + 1 := by omega
            simp [h1, h2, h3, this]
          · have h4 : ¬ j < k + 1 := by omega
            by_cases h5 : half ≤ j ∧ j < half + k
            · have : half ≤ j ∧ j < half + (k + 1) := by omega
              simp [h1, h2, h3, h4, h5, this]
            · have : ¬ (half ≤ j ∧ j < half + (k + 1)) := by omega
              simp [h1, h2, h3, h4, h5, this]

theorem getD_set (st : List TBucketStats) (i j : Nat) (x : TBucketStats) (hi : i < st.length) :
    (st.set i x).getD j 0 = if j = i then x else st.getD j 0 := by
  simp only [List.getD_eq_getElem?_getD, List.getElem?_set]
  by_cases h : i = j
  · subst h
    simp [hi]
  · have h2 : ¬ j = i := fun e => h e.symm
    simp [h, h2]

theorem getD_of_lt (st : List TBucketStats) (i : Nat) (hi : i < st.length) :
    st[i]? = some (st.getD i 0) := by
  rw [List.getD_eq_getElem?_getD, List.getElem?_eq_getElem hi]
  rfl

/-- Functional description of `FixUpStats` with `half = CalcSize (depth - 1)`. -/
theorem FixUpStats_spec (depth : Nat) (indexer : TStatsIndexer) (selectedSplitValue : Bool)
    (stats : List TBucketStats) (half : Nat) (hd : depth ≠ 0)
    (hhalf : indexer.CalcSize (depth - 1) = (half : Int)) (hlen : 2 * half ≤ stats.length) :
    ∃ out, FixUpStats depth indexer selectedSplitValue stats = some out ∧
      out.length = stats.length ∧
      ∀ j, out.getD j 0
        = if j < half then
            (if selectedSplitValue = true then stats.getD j 0 - stats.getD (j + half) 0
              else stats.getD (j + half) 0)
          else if half ≤ j ∧ j < half + half then
            (if selectedSplitValue = true then stats.getD j 0
              else stats.getD (j - half) 0 - stats.getD j 0)
          else stats.getD j 0 := by
  have htn : (indexer.CalcSize (depth - 1)).toNat = half := by
    rw [hhalf]
    exact Int.toNat_natCast half
  unfold FixUpStats
  rw [if_neg hd]
  simp only [htn]
  cases selectedSplitValue with
  | true =>
    simp only [if_true]
    exact pair_loop_spec half (fun a b => a - b) (fun _ b => b) _ (by
      intro st i hi hl
      have h1 : i < st.length := by omega
      have h2 : i + half < st.length := by omega
      refine ⟨st.set i (st.getD i 0 - st.getD (i + half) 0), ?_, by simp, fun j => ?_⟩
      · simp only [getD_of_lt st i h1, getD_of_lt st (i + half) h2]
        rfl
      · rw [getD_set st i j _ h1]
        by_cases e1 : j = i
        · simp [e1]
        · by_cases e2 : j = i + half
          · simp [e1, e2]
          · simp [e1, e2]) half le_rfl stats hlen
  | false =>
    simp only [Bool.false_eq_true, if_false]
    exact pair_loop_spec half (fun _ b => b) (fun a b => a - b) _ (by
      intro st i hi hl
      have h1 : i < st.length := by omega
      have h2 : i + half < st.length := by omega
      refine ⟨((st.set i (st.getD i 0 - st.getD (i + half) 0)).set i
          (st.getD (i + half) 0)).set (i + half) (st.getD i 0 - st.getD (i + half) 0),
        ?_, by simp, fun j => ?_⟩
      · simp only [getD_of_lt st i h1, getD_of_lt st (i + half) h2]
        rfl
      · rw [getD_set _ (i + half) j _ (by simpa using h2), getD_set _ i j _ (by simpa using h1),
          getD_set st i j _ h1]
        by_cases e1 : j = i
        · have e3 : ¬ (i = i + half) := by omega
          simp [e1, e3]
        · by_cases e2 : j = i + half
          · have e4 : half ≠ 0 := by omega
            simp [e2, e4]
          · simp [e1, e2]) half le_rfl stats hlen

theorem getElem?_eq_of_getD_eq (out stats : List TBucketStats) (j : Nat)
    (hlen : out.length = stats.length) (h : out.getD j 0 = stats.getD j 0) :
    out[j]? = stats[j]? := by
  by_cases hj : j < stats.length
  · rw [getD_of_lt out j (by omega), getD_of_lt stats j hj, h]
  · rw [List.getElem?_eq_none (by omega), List.getElem?_eq_none (by omega)]

theorem CalcSize_double (indexer : TStatsIndexer) (depth : Nat) (hd : 1 ≤ depth)
    (hb : 0 ≤ indexer.BucketCount) (hfit : indexer.BucketCount * 2 ^ depth < 2 ^ 31) :
    indexer.CalcSize (depth - 1) = indexer.BucketCount * 2 ^ (depth - 1) ∧
      indexer.CalcSize depth = 2 * indexer.CalcSize (depth - 1) := by
  have hpow : (2 : Int) ^ depth = 2 * 2 ^ (depth - 1) := by
    have : depth = (depth - 1) + 1 := by omega
    conv_lhs => rw [this]
    rw [pow_succ]
    ring
  have hp := two_pow_pos_int (depth - 1)
  have hfit2 : indexer.BucketCount * 2 ^ (depth - 1) < 2 ^ 31 := by nlinarith
  have h1 := CalcSize_of_fits indexer (depth - 1) hb hfit2
  have h2 := CalcSize_of_fits indexer depth hb hfit
  refine ⟨h1, ?_⟩
  rw [h2, h1, hpow]
  ring

/-- C7, in exact arithmetic (the `double` fields read as rationals; in `double`
arithmetic the subtraction rounds and the sum identity holds only up to that rounding):
`FixUpStats` at depth `d ≥ 1` with `half = CalcSize(d-1)`, given
`parent[i] = stats[i]` and `newHalf[i] = stats[i + half]` before the call (`i < half`):
when `selectedSplitValue` is true it leaves `stats[i] = parent[i] - newHalf[i]` and
`stats[i + half] = newHalf[i]`; when false it leaves `stats[i] = newHalf[i]` and
`stats[i + half] = parent[i] - newHalf[i]`; in both cases
`stats[i] + stats[i + half] = parent[i]`, and the slots at or above `CalcSize(d)` are
unchanged.  (The bucket count is non-negative and `CalcSize(d)` does not overflow.) -/
theorem C7_FixUpStats (depth : Nat) (indexer : TStatsIndexer) (selectedSplitValue : Bool)
    (stats : List TBucketStats) (half : Nat) (parent newHalf : Nat → TBucketStats)
    (hd : 1 ≤ depth) (hb : 0 ≤ indexer.BucketCount)
    (hfit : indexer.BucketCount * 2 ^ depth < 2 ^ 31)
    (hhalf : indexer.CalcSize (depth - 1) = (half : Int))
    (hparent : ∀ i, i < half → stats[i]? = some (parent i))
    (hnew : ∀ i, i < half → stats[i + half]? = some (newHalf i)) :
    ∃ out, FixUpStats depth indexer selectedSplitValue stats = some out ∧
      out.length = stats.length ∧
      (∀ i, i < half →
        (selectedSplitValue = true →
          out[i]? = some ((parent i).Remove (newHalf i)) ∧ out[i + half]? = some (newHalf i)) ∧
        (selectedSplitValue = false →
          out[i]? = some (newHalf i) ∧ out[i + half]? = some ((parent i).Remove (newHalf i))) ∧
        ∃ x y, out[i]? = some x ∧ out[i + half]? = some y ∧ x.Add y = parent i) ∧
      ∀ j : Nat, indexer.CalcSize depth ≤ (j : Int) → out[j]? = stats[j]? := by
  have hlen : 2 * half ≤ stats.length := by
    rcases Nat.eq_zero_or_pos half with h0 | hpos
    · omega
    · obtain ⟨h, _⟩ := List.getElem?_eq_some.mp (hnew (half - 1) (by omega))
      omega
  obtain ⟨out, hout, holen, hget⟩ := FixUpStats_spec depth indexer selectedSplitValue stats half
    (by omega) hhalf hlen
  have hsize : indexer.CalcSize depth = 2 * (half : Int) := by
    rw [(CalcSize_double indexer depth hd hb hfit).2, hhalf]
  have hvals : ∀ i, i < half →
      out[i]? = some (if selectedSplitValue = true then parent i - newHalf i else newHalf i) ∧
      out[i + half]?
        = some (if selectedSplitValue = true then newHalf i else parent i - newHalf i) := by
    intro i hi
    have hp : stats.getD i 0 = parent i := by
      rw [List.getD_eq_getElem?_getD, hparent i hi]
      rfl
    have hn : stats.getD (i + half) 0 = newHalf i := by
      rw [List.getD_eq_getElem?_getD, hnew i hi]
      rfl
    constructor
    · apply getElem?_of_getD out i _ (by omega)
      rw [hget i, if_pos hi, hp, hn]
    · apply getElem?_of_getD out (i + half) _ (by omega)
      rw [hget (i + half), if_neg (by omega), if_pos (by omega)]
      have e : i + half - half = i := by omega
      rw [e, hp, hn]
  refine ⟨out, hout, holen, fun i hi => ?_, fun j hj => ?_⟩
  · obtain ⟨h1, h2⟩ := hvals i hi
    refine ⟨fun hs => ?_, fun hs => ?_, ?_⟩
    · rw [h1, h2, if_pos hs, if_pos hs]
      exact ⟨rfl, rfl⟩
    · have hs2 : ¬ selectedSplitValue = true := by simp [hs]
      rw [h1, h2, if_neg hs2, if_neg hs2]
      exact ⟨rfl, rfl⟩
    · refine ⟨_, _, h1, h2, ?_⟩
      show (_ : TBucketStats) + _ = parent i
      by_cases hs : selectedSplitValue = true
      · rw [if_pos hs, if_pos hs]
        exact sub_add_cancel _ _
      · rw [if_neg hs, if_neg hs]
        exact add_sub_cancel _ _
  · apply getElem?_eq_of_getD_eq out stats j holen
    rw [hget j, if_neg (by omega), if_neg (by omega)]

theorem C7_FixUpStats_witness :
    ∃ out, FixUpStats 1 ⟨2⟩ false
        [⟨5, 3, 0, 0⟩, ⟨7, 4, 0, 0⟩, ⟨1, 1, 0, 0⟩, ⟨2, 2, 0, 0⟩, ⟨9, 9, 9, 9⟩] = some out ∧
      out.length
        = ([⟨5, 3, 0, 0⟩, ⟨7, 4, 0, 0⟩, ⟨1, 1, 0, 0⟩, ⟨2, 2, 0, 0⟩, ⟨9, 9, 9, 9⟩]
            : List TBucketStats).length ∧
      (∀ i, i < 2 →
        (false = true →
          out[i]? = some ((([⟨5, 3, 0, 0⟩, ⟨7, 4, 0, 0⟩] : List TBucketStats).getD i 0).Remove
              (([⟨1, 1, 0, 0⟩, ⟨2, 2, 0, 0⟩] : List TBucketStats).getD i 0)) ∧
            out[i + 2]? = some (([⟨1, 1, 0, 0⟩, ⟨2, 2, 0, 0⟩] : List TBucketStats).getD i 0)) ∧
        (false = false →
          out[i]? = some (([⟨1, 1, 0, 0⟩, ⟨2, 2, 0, 0⟩] : List TBucketStats).getD i 0) ∧
            out[i + 2]?
              = some ((([⟨5, 3, 0, 0⟩, ⟨7, 4, 0, 0⟩] : List TBucketStats).getD i 0).Remove
                  (([⟨1, 1, 0, 0⟩, ⟨2, 2, 0, 0⟩] : List TBucketStats).getD i 0))) ∧
        ∃ x y, out[i]? = some x ∧ out[i + 2]? = some y ∧
          x.Add y = ([⟨5, 3, 0, 0⟩, ⟨7, 4, 0, 0⟩] : List TBucketStats).getD i 0) ∧
      ∀ j : Nat, (TStatsIndexer.mk 2).CalcSize 1 ≤ (j : Int) →
        out[j]?
          = ([⟨5, 3, 0, 0⟩, ⟨7, 4, 0, 0⟩, ⟨1, 1, 0, 0⟩, ⟨2, 2, 0, 0⟩, ⟨9, 9, 9, 9⟩]
              : List TBucketStats)[j]? :=
  C7_FixUpStats 1 ⟨2⟩ false
    [⟨5, 3, 0, 0⟩, ⟨7, 4, 0, 0⟩, ⟨1, 1, 0, 0⟩, ⟨2, 2, 0, 0⟩, ⟨9, 9, 9, 9⟩] 2
    (fun i => ([⟨5, 3, 0, 0⟩, ⟨7, 4, 0, 0⟩] : List TBucketStats).getD i 0)
    (fun i => ([⟨1, 1, 0, 0⟩, ⟨2, 2, 0, 0⟩] : List TBucketStats).getD i 0)
    (by decide) (by decide) (by decide) (by decide)
    (fun i hi => by interval_cases i <;> rfl)
    (fun i hi => by interval_cases i <;> rfl)

/-! ## C5: partitioned accumulation equals accumulation in one partition -/

theorem merge_inner_spec (add : List TBucketStats) :
    ∀ (N : Nat) (output : List TBucketStats), N ≤ add.length → N ≤ output.length →
      ∃ out, (List.range N).foldlM (fun output i => do
          let o ← output[i]?
          let a ← add[i]?
          pure (output.set i (o.Add a))) output = some out ∧
        out.length = output.length ∧
        ∀ s, out.getD s 0 = output.getD s 0 + if s < N then add.getD s 0 else 0 := by
  intro N
  induction N with
  | zero =>
    intro output _ _
    exact ⟨output, rfl, rfl, fun s => by simp⟩
  | succ N ih =>
    intro output h1 h2
    obtain ⟨mid, hmid, hmlen, hmget⟩ := ih output (by omega) (by omega)
    have hN1 : N < mid.length := by omega
    have hN2 : N < add.length := by omega
    refine ⟨mid.set N (mid.getD N 0 + add.getD N 0), ?_, by simp [hmlen], fun s => ?_⟩
    · rw [List.range_succ, List.foldlM_append, hmid]
      simp only [Option.some_bind, Option.bind_eq_bind, List.foldlM_cons, List.foldlM_nil,
        getD_of_lt mid N hN1, getD_of_lt add N hN2, bind, pure]
      rfl
    · rw [getD_set mid N s _ hN1]
      by_cases hs : s = N
      · subst hs
        rw [if_pos rfl, hmget s, if_neg (by omega), if_pos (by omega), add_zero]
      · rw [if_neg hs, hmget s]
        by_cases hs2 : s < N
        · rw [if_pos hs2, if_pos (by omega)]
        · rw [if_neg hs2, if_neg (by omega)]

theorem mergeStatsSubset_spec (N : Nat) :
    ∀ (addVector : List (List TBucketStats)) (output : List TBucketStats),
      (∀ a ∈ addVector, N ≤ a.length) → N ≤ output.length →
      ∃ out, mergeStatsSubset (N : Int) output addVector = some out ∧
        out.length = output.length ∧
        ∀ s, out.getD s 0
          = output.getD s 0 + if s < N then (addVector.map (fun a => a.getD s 0)).sum else 0 := by
  intro addVector
  induction addVector with
  | nil =>
    intro output _ _
    exact ⟨output, rfl, rfl, fun s => by simp⟩
  | cons a rest ih =>
    intro output h1 h2
    obtain ⟨mid, hmid, hmlen, hmget⟩ := merge_inner_spec a N output
      (h1 a (List.mem_cons_self _ _)) h2
    obtain ⟨out, hout, holen, hoget⟩ := ih mid
      (fun b hb => h1 b (List.mem_cons_of_mem _ hb)) (by omega)
    refine ⟨out, ?_, by rw [holen, hmlen], fun s => ?_⟩
    · unfold mergeStatsSubset at hout ⊢
      rw [List.foldlM_cons]
      simp only [Int.toNat_natCast] at hout ⊢
      rw [hmid]
      exact hout
    · rw [hoget s, hmget s]
      by_cases hs : s < N
      · simp [hs, add_assoc]
      · simp [hs]

theorem ReadsInBounds_mono (singleIdx : List Nat) (fold : TCalcScoreFold) (bt : TBodyTail)
    (dim : Nat) (isPlainMode : Bool) (r r2 : TIndexRange) (m m2 : Nat)
    (h : ReadsInBounds singleIdx fold bt dim isPlainMode r m)
    (hb : r.Begin ≤ r2.Begin) (he : r2.End ≤ r.End) (hm : m ≤ m2) :
    ReadsInBounds singleIdx fold bt dim isPlainMode r2 m2 := by
  obtain ⟨h1, h2, h3⟩ := h
  refine ⟨h1, h2, fun doc hdoc hlt => ?_⟩
  have hmem : doc ∈ r.Iter := by
    unfold TIndexRange.Iter at hdoc ⊢
    rw [List.mem_range'_1] at hdoc ⊢
    omega
  obtain ⟨ha, hb2, hc⟩ := h3 doc hmem hlt
  exact ⟨ha, hb2, by omega⟩

theorem mapPartitions_spec (singleIdx : List Nat) (fold : TCalcScoreFold) (isPlainMode : Bool)
    (indexer : TStatsIndexer) (depth : Nat) (bt : TBodyTail) (dim : Nat) (m : Nat)
    (hbt : isPlainMode = false → bt.BodyFinish ≤ bt.TailFinish)
    (hsize0 : 0 ≤ indexer.CalcSize depth) (hsize : indexer.CalcSize depth ≤ (m : Int)) :
    ∀ (ranges : List TIndexRange) (b e : Nat) (buffers : List (List TBucketStats)),
      IsSplitOf b e ranges → buffers.length = ranges.length →
      (∀ buf ∈ buffers, m ≤ buf.length) →
      ReadsInBounds singleIdx fold bt dim isPlainMode ⟨b, e⟩ m →
      ∃ outs, mapPartitions (fun r buffer =>
          CalcStatsKernel false singleIdx fold isPlainMode indexer depth bt dim r buffer)
          ranges buffers = some outs ∧
        outs.length = ranges.length ∧ (∀ o ∈ outs, m ≤ o.length) ∧ b ≤ e ∧
        ∀ s : Nat, (s : Int) < indexer.CalcSize depth →
          (outs.map (fun o => o.getD s 0)).sum
            = slotSum singleIdx (docContribution fold bt dim isPlainMode)
                (List.range' b (e - b)) s := by
  intro ranges
  induction ranges with
  | nil =>
    intro b e buffers hsplit _ _ _
    have hbe : b = e := hsplit
    subst hbe
    exact ⟨[], rfl, rfl, by simp, le_rfl, fun s _ => by simp [slotSum]⟩
  | cons r rs ih =>
    intro b e buffers hsplit hlen hbufs hreads
    obtain ⟨hrb, hre, hrest⟩ := hsplit
    cases buffers with
    | nil => simp at hlen
    | cons buf bufs =>
      have hbuflen : m ≤ buf.length := hbufs buf (List.mem_cons_self _ _)
      obtain ⟨outs, houts, holen, hom, hle, hsum⟩ := ih r.End e bufs hrest
        (by simpa using hlen) (fun x hx => hbufs x (List.mem_cons_of_mem _ hx))
        (ReadsInBounds_mono singleIdx fold bt dim isPlainMode ⟨b, e⟩ ⟨r.End, e⟩ m m hreads
          (by simp only; omega) le_rfl le_rfl)
      obtain ⟨out, hout, hlen2, hget⟩ := CalcStatsKernel_spec false singleIdx fold isPlainMode
        indexer depth bt dim r buf 0 hbt
        (ReadsInBounds_mono singleIdx fold bt dim isPlainMode ⟨b, e⟩ r m buf.length hreads
          (by simp only; omega) (by simp only; omega) hbuflen)
        (by simp) (by simp) le_rfl hsize0 (by omega)
      refine ⟨out :: outs, ?_, by simp [holen], ?_, by omega, fun s hs => ?_⟩
      · simp only [mapPartitions, hout, houts, bind, pure, Option.bind]
      · intro o ho
        rcases List.mem_cons.mp ho with h | h
        · rw [h, hlen2]
          exact hbuflen
        · exact hom o h
      · rw [List.map_cons, List.sum_cons, hsum s hs, hget s, if_pos ⟨by omega, hs⟩, zero_add]
        unfold TIndexRange.Iter
        rw [← slotSum_append, hrb]
        have h3 := List.range'_append b (r.End - b) (e - r.End) 1
        have h4 : b + 1 * (r.End - b) = r.End := by omega
        have h5 : e - r.End + (r.End - b) = e - b := by omega
        rw [h4, h5] at h3
        rw [h3]

/-- C5: parallel/sequential equivalence.  For any split of the document range `[0, n)`
into consecutive partitions, accumulating each partition with `CalcStatsKernel` into its
own buffer and then summing the buffers element-wise (the merge step of `CalcStatsImpl`,
over the first `CalcSize(depth)` slots) gives, for every slot and every field, the same
value as accumulating the whole range `[0, n)` in a single partition.  Every buffer has at
least `m ≥ CalcSize(depth)` slots, the reads on `[0, n)` are inside their arrays with
composite indices below `m`, and in ordered mode `BodyFinish ≤ TailFinish`. -/
theorem C5_partition_equivalence (singleIdx : List Nat) (fold : TCalcScoreFold)
    (isPlainMode : Bool) (indexer : TStatsIndexer) (depth : Nat) (bt : TBodyTail) (dim : Nat)
    (n m : Nat) (ranges : List TIndexRange) (buffers : List (List TBucketStats))
    (whole : List TBucketStats)
    (hsplit : IsSplitOf 0 n ranges) (hne : ranges ≠ [])
    (hlen : buffers.length = ranges.length)
    (hbufs : ∀ buf ∈ whole :: buffers, m ≤ buf.length)
    (hsize0 : 0 ≤ indexer.CalcSize depth) (hsize : indexer.CalcSize depth ≤ (m : Int))
    (hbt : isPlainMode = false → bt.BodyFinish ≤ bt.TailFinish)
    (hreads : ReadsInBounds singleIdx fold bt dim isPlainMode ⟨0, n⟩ m) :
    ∃ merged single,
      CalcStatsInPartitions false singleIdx fold isPlainMode indexer depth bt dim ranges buffers
        = some merged ∧
      CalcStatsInPartitions false singleIdx fold isPlainMode indexer depth bt dim [⟨0, n⟩] [whole]
        = some single ∧
      CalcStatsKernel false singleIdx fold isPlainMode indexer depth bt dim ⟨0, n⟩ whole
        = some single ∧
      ∀ s : Nat, (s : Int) < indexer.CalcSize depth → merged[s]? = single[s]? := by
  obtain ⟨N, hN⟩ : ∃ N : Nat, indexer.CalcSize depth = (N : Int) :=
    ⟨(indexer.CalcSize depth).toNat, (Int.toNat_of_nonneg hsize0).symm⟩
  have hNm : N ≤ m := by omega
  obtain ⟨outs, houts, holen, hom, _, hsum⟩ := mapPartitions_spec singleIdx fold isPlainMode
    indexer depth bt dim m hbt hsize0 hsize ranges 0 n buffers hsplit hlen
    (fun buf hb => hbufs buf (List.mem_cons_of_mem _ hb)) hreads
  obtain ⟨single, hsingle, hslen, hsget⟩ := CalcStatsKernel_spec false singleIdx fold isPlainMode
    indexer depth bt dim ⟨0, n⟩ whole 0 hbt
    (ReadsInBounds_mono singleIdx fold bt dim isPlainMode ⟨0, n⟩ ⟨0, n⟩ m whole.length hreads
      le_rfl le_rfl (hbufs whole (List.mem_cons_self _ _)))
    (by simp) (by simp) le_rfl hsize0
    (by have := hbufs whole (List.mem_cons_self _ _); omega)
  cases outs with
  | nil =>
    cases ranges with
    | nil => exact absurd rfl hne
    | cons r rs => simp at holen
  | cons out0 rest =>
    obtain ⟨merged, hmerged, hmlen, hmget⟩ := mergeStatsSubset_spec N rest out0
      (fun a ha => le_trans hNm (hom a (List.mem_cons_of_mem _ ha)))
      (le_trans hNm (hom out0 (List.mem_cons_self _ _)))
    refine ⟨merged, single, ?_, ?_, hsingle, fun s hs => ?_⟩
    · simp only [CalcStatsInPartitions, Bool.false_and, houts, bind, Option.bind, hN, hmerged]
      rfl
    · simp only [CalcStatsInPartitions, Bool.false_and, mapPartitions, hsingle, bind,
        Option.bind, pure]
      rfl
    · have hsN : s < N := by omega
      have hm0 : m ≤ out0.length := hom out0 (List.mem_cons_self _ _)
      have hwl : m ≤ whole.length := hbufs whole (List.mem_cons_self _ _)
      rw [getD_of_lt merged s (by omega), getD_of_lt single s (by omega)]
      congr 1
      rw [hmget s, if_pos hsN, hsget s, if_pos ⟨by omega, hs⟩, zero_add]
      have := hsum s hs
      rw [List.map_cons, List.sum_cons] at this
      rw [this]
      rfl

theorem C5_partition_equivalence_witness :
    ∃ merged single,
      CalcStatsInPartitions false exampleSingleIdx exampleFold false ⟨3⟩ 1 exampleBodyTail 0
        [⟨0, 1⟩, ⟨1, 3⟩, ⟨3, 4⟩] [exampleStats, exampleStats, exampleStats] = some merged ∧
      CalcStatsInPartitions false exampleSingleIdx exampleFold false ⟨3⟩ 1 exampleBodyTail 0
        [⟨0, 4⟩] [exampleStats] = some single ∧
      CalcStatsKernel false exampleSingleIdx exampleFold false ⟨3⟩ 1 exampleBodyTail 0 ⟨0, 4⟩
        exampleStats = some single ∧
      ∀ s : Nat, (s : Int) < (TStatsIndexer.mk 3).CalcSize 1 → merged[s]? = single[s]? :=
  C5_partition_equivalence exampleSingleIdx exampleFold false ⟨3⟩ 1 exampleBodyTail 0 4 6
    [⟨0, 1⟩, ⟨1, 3⟩, ⟨3, 4⟩] [exampleStats, exampleStats, exampleStats] exampleStats
    ⟨rfl, by decide, rfl, by decide, rfl, by decide, rfl⟩ (by simp) rfl (by decide) (by decide)
    (by decide) (by decide) (by decide)

/-! ## C6: depth-cache equivalence -/

theorem slotSum_eq_filter (singleIdx : List Nat) (c : Nat → TBucketStats) (docs : List Nat)
    (s : Nat) (f : Nat → Nat) (h : ∀ doc ∈ docs, singleIdx[doc]? = some (f doc)) :
    slotSum singleIdx c docs s = ((docs.filter (fun doc => f doc = s)).map c).sum := by
  unfold slotSum
  congr 2
  apply List.filter_congr
  intro doc hdoc
  simp [h doc hdoc]

theorem sum_filter_congr (docs : List Nat) (c : Nat → TBucketStats) (q1 q2 : Nat → Prop)
    [DecidablePred q1] [DecidablePred q2] (h : ∀ doc ∈ docs, q1 doc ↔ q2 doc) :
    ((docs.filter (fun doc => q1 doc)).map c).sum = ((docs.filter (fun doc => q2 doc)).map c).sum := by
  congr 2
  apply List.filter_congr
  intro doc hdoc
  simp [h doc hdoc]

theorem sum_filter_empty (docs : List Nat) (c : Nat → TBucketStats) (q : Nat → Prop)
    [DecidablePred q] (h : ∀ doc ∈ docs, ¬ q doc) :
    ((docs.filter (fun doc => q doc)).map c).sum = 0 := by
  have : docs.filter (fun doc => q doc) = [] := by
    rw [List.filter_eq_nil_iff]
    intro doc hdoc
    simp [h doc hdoc]
  rw [this]
  rfl

theorem sum_filter_split (docs : List Nat) (c : Nat → TBucketStats) (bit : Nat → Bool)
    (q : Nat → Prop) [DecidablePred q] :
    ((docs.filter (fun doc => q doc)).map c).sum
      = ((docs.filter (fun doc => bit doc = true ∧ q doc)).map c).sum
        + ((docs.filter (fun doc => bit doc = false ∧ q doc)).map c).sum := by
  induction docs with
  | nil => simp
  | cons a l ih =>
    simp only [List.filter_cons]
    by_cases hq : q a
    · cases hb : bit a
      · simp [hq, hb, ih, add_left_comm]
      · simp [hq, hb, ih, add_assoc]
    · simp [hq, ih]

/-- A sum over the documents selected by `keep`, read from the list of (slot, contribution)
pairs of the selected documents. -/
theorem sum_filter_pairs (docs : List Nat) (f : Nat → Option Nat) (c : Nat → TBucketStats)
    (s : Nat) :
    ((docs.filter (fun doc => f doc = some s)).map c).sum
      = (((docs.map (fun doc => (f doc, c doc))).filter (fun x => x.1 = some s)).map
          (fun x => x.2)).sum := by
  induction docs with
  | nil => simp
  | cons a l ih =>
    simp only [List.filter_cons, List.map_cons]
    by_cases h : f a = some s
    · simp [h, ih]
    · simp [h, ih]

theorem mapPartitions_congr
    (f g : TIndexRange → List TBucketStats → Option (List TBucketStats)) :
    ∀ (ranges : List TIndexRange) (buffers : List (List TBucketStats)),
      (∀ r ∈ ranges, ∀ buf, f r buf = g r buf) →
      mapPartitions f ranges buffers = mapPartitions g ranges buffers := by
  intro ranges
  induction ranges with
  | nil => intro buffers _; rfl
  | cons r rs ih =>
    intro buffers h
    cases buffers with
    | nil => rfl
    | cons buf bufs =>
      simp only [mapPartitions]
      rw [h r (List.mem_cons_self _ _), ih bufs (fun x hx => h x (List.mem_cons_of_mem _ hx))]

/-- Composite indices without overflow, as natural numbers. -/
theorem GetIndex_toNat (indexer : TStatsIndexer) (depth : Nat) (l b : Nat)
    (hfit : indexer.BucketCount * 2 ^ depth < 2 ^ 31) (hl : l < 2 ^ depth)
    (hb : (b : Int) < indexer.BucketCount) :
    (indexer.GetIndex (l : Int) (b : Int)).toNat = indexer.BucketCount.toNat * l + b := by
  have hl2 : (l : Int) < 2 ^ depth := by exact_mod_cast hl
  rw [GetIndex_of_fits indexer depth l b hfit (by omega) hl2 (by omega) hb]
  have hB : indexer.BucketCount = (indexer.BucketCount.toNat : Int) :=
    (Int.toNat_of_nonneg (by omega)).symm
  rw [hB]
  have : ((indexer.BucketCount.toNat : Int) * (l : Int) + (b : Int))
      = ((indexer.BucketCount.toNat * l + b : Nat) : Int) := by push_cast; ring
  rw [this, Int.toNat_natCast, Int.toNat_natCast]

/-- The map and merge phases of the caching path: the cached lower half is kept, the
upper half is cleared, and every slot below `CalcSize depth` receives the contributions of
all partitions. -/
theorem cached_merge_spec (singleIdx : List Nat) (fold : TCalcScoreFold) (isPlainMode : Bool)
    (indexer : TStatsIndexer) (depth : Nat) (bt : TBodyTail) (dim : Nat) (n m half : Nat)
    (ranges : List TIndexRange) (cache : List TBucketStats) (buffers : List (List TBucketStats))
    (hd : depth ≠ 0) (hhalf : indexer.CalcSize (depth - 1) = (half : Int))
    (hsize : indexer.CalcSize depth = ((half + half : Nat) : Int)) (hm : half + half ≤ m)
    (hbt : isPlainMode = false → bt.BodyFinish ≤ bt.TailFinish)
    (hsplit : IsSplitOf 0 n ranges) (hne : ranges ≠ [])
    (htail : ∀ r ∈ ranges.tail, r.Begin ≠ 0)
    (hlen : buffers.length + 1 = ranges.length)
    (hbufs : ∀ buf ∈ cache :: buffers, m ≤ buf.length)
    (hreads : ReadsInBounds singleIdx fold bt dim isPlainMode ⟨0, n⟩ m) :
    ∃ out0 rest merged,
      mapPartitions (fun indexRange output =>
          CalcStatsKernel (true && (indexRange.Begin == 0)) singleIdx fold isPlainMode indexer
            depth bt dim indexRange output) ranges (cache :: buffers) = some (out0 :: rest) ∧
      mergeStatsSubset (indexer.CalcSize depth) out0 rest = some merged ∧
      merged.length = cache.length ∧
      ∀ s, s < half + half → merged.getD s 0
        = (if s < half then cache.getD s 0 else 0)
          + slotSum singleIdx (docContribution fold bt dim isPlainMode) (List.range' 0 n) s := by
  cases ranges with
  | nil => exact absurd rfl hne
  | cons r0 rs =>
    obtain ⟨hr0, _, hrest⟩ := hsplit
    have hcl : m ≤ cache.length := hbufs cache (List.mem_cons_self _ _)
    obtain ⟨out0, hout0, hlen0, hget0⟩ := CalcStatsKernel_spec true singleIdx fold isPlainMode
      indexer depth bt dim r0 cache (half : Int) hbt
      (ReadsInBounds_mono singleIdx fold bt dim isPlainMode ⟨0, n⟩ r0 m cache.length hreads
        (by simp only; omega)
        (by
          have := (mapPartitions_spec singleIdx fold isPlainMode indexer depth bt dim m hbt
            (by omega) (by omega) rs r0.End n buffers hrest (by simpa using hlen)
            (fun buf hb => hbufs buf (List.mem_cons_of_mem _ hb))
            (ReadsInBounds_mono singleIdx fold bt dim isPlainMode ⟨0, n⟩ ⟨r0.End, n⟩ m m hreads
              (by simp only; omega) le_rfl le_rfl))
          obtain ⟨_, _, _, _, hle, _⟩ := this
          exact hle)
        hcl)
      (by simp [hhalf]) (fun _ => hd) (by omega) (by omega) (by omega)
    obtain ⟨rest, hrestm, hrlen, hrm, hle, hsum⟩ := mapPartitions_spec singleIdx fold isPlainMode
      indexer depth bt dim m hbt (by omega) (by omega) rs r0.End n buffers hrest
      (by simpa using hlen) (fun buf hb => hbufs buf (List.mem_cons_of_mem _ hb))
      (ReadsInBounds_mono singleIdx fold bt dim isPlainMode ⟨0, n⟩ ⟨r0.End, n⟩ m m hreads
        (by simp only; omega) le_rfl le_rfl)
    have hcongr := mapPartitions_congr
      (fun indexRange output =>
        CalcStatsKernel (true && (indexRange.Begin == 0)) singleIdx fold isPlainMode indexer
          depth bt dim indexRange output)
      (fun r buffer =>
        CalcStatsKernel false singleIdx fold isPlainMode indexer depth bt dim r buffer)
      rs buffers (by
        intro r hr buf
        have hne0 : r.Begin ≠ 0 := htail r hr
        have : (true && (r.Begin == 0)) = false := by simp [hne0]
        simp only [this])
    obtain ⟨merged, hmerged, hmlen, hmget⟩ := mergeStatsSubset_spec (half + half) rest out0
      (fun a ha => le_trans hm (hrm a ha)) (by omega)
    refine ⟨out0, rest, merged, ?_, ?_, by rw [hmlen, hlen0], fun s hs => ?_⟩
    · have h0 : (true && (r0.Begin == 0)) = true := by simp [hr0]
      simp only [mapPartitions, h0, hout0, hcongr, hrestm, bind, Option.bind, pure]
    · rw [hsize]
      exact hmerged
    · rw [hmget s, if_pos hs, hget0 s, hsum s (by omega)]
      have hiter : r0.Iter = List.range' 0 (r0.End - 0) := by
        unfold TIndexRange.Iter
        rw [hr0]
      have h3 := List.range'_append 0 (r0.End - 0) (n - r0.End) 1
      have h4 : 0 + 1 * (r0.End - 0) = r0.End := by omega
      have h5 : n - r0.End + (r0.End - 0) = n := by omega
      rw [h4, h5] at h3
      rw [hiter, ← h3, slotSum_append]
      by_cases hsh : s < half
      · have hc : ¬ ((half : Int) ≤ (s : Int) ∧ (s : Int) < indexer.CalcSize depth) := by omega
        rw [if_neg hc, if_pos hsh, add_assoc]
      · have hc : (half : Int) ≤ (s : Int) ∧ (s : Int) < indexer.CalcSize depth := by omega
        rw [if_pos hc, if_neg hsh, add_assoc]

/-- Sum of the contributions of the documents of `[0, n)` on side `v` of the split whose
previous-level composite index is `i`. -/
theorem scratch_slot_lower (n half i : Nat) (p : Nat → Nat) (bit : Nat → Bool)
    (c : Nat → TBucketStats) (hp : ∀ doc, doc < n → p doc < half) (hi : i < half) :
    (((List.range n).filter
        (fun doc => p doc + (if bit doc = true then half else 0) = i)).map c).sum
      = (((List.range n).filter (fun doc => bit doc = false ∧ p doc = i)).map c).sum := by
  apply sum_filter_congr
  intro doc hdoc
  have := hp doc (List.mem_range.mp hdoc)
  cases hb : bit doc
  · simp
  · simp
    omega

theorem scratch_slot_upper (n half i : Nat) (p : Nat → Nat) (bit : Nat → Bool)
    (c : Nat → TBucketStats) (hp : ∀ doc, doc < n → p doc < half) :
    (((List.range n).filter
        (fun doc => p doc + (if bit doc = true then half else 0) = half + i)).map c).sum
      = (((List.range n).filter (fun doc => bit doc = true ∧ p doc = i)).map c).sum := by
  apply sum_filter_congr
  intro doc hdoc
  have := hp doc (List.mem_range.mp hdoc)
  cases hb : bit doc
  · simp
    omega
  · simp
    omega

/-- C6: depth-cache equivalence.  At depth `d > 0`, let the cache hold in
`[0, CalcSize(d-1))` the from-scratch statistics of depth `d-1` (`hprevrun`, `hcache`), and
let the incremental step (`CalcStatsInPartitions true`: kernel with caching over the
previous-level view restricted to the smaller split side, merge, `FixUpStats` with that
fold's `SmallestSplitSideValue`) accumulate only the documents of the smaller side
(`hsmall`: the restricted fold lists exactly the documents whose split bit equals
`SmallestSplitSideValue`, each with its contribution and with composite index
`GetIndex(leaf + 2^(d-1), bucket)`).  Then the first `CalcSize(d)` slots of the result
equal, slot by slot, the statistics accumulated from scratch at depth `d` over all
documents with leaf index `previous leaf + 2^(d-1) * (split bit)`. -/
theorem C6_depth_cache_equivalence
    (indexer : TStatsIndexer) (depth : Nat) (isPlainMode : Bool) (dim : Nat)
    (fold : TCalcScoreFold) (bt : TBodyTail) (n : Nat)
    (leaf bucket : Nat → Nat) (splitBit : Nat → Bool) (idxPrev idxFull : List Nat)
    (smallFold : TCalcScoreFold) (smallBt : TBodyTail) (nSmall : Nat) (idxSmall : List Nat)
    (ranges : List TIndexRange) (buffers : List (List TBucketStats))
    (prevInit prev cache init : List TBucketStats) (m : Nat)
    (hd : 1 ≤ depth) (hb : 0 ≤ indexer.BucketCount)
    (hfit : indexer.BucketCount * 2 ^ depth < 2 ^ 31)
    (hbt : isPlainMode = false → bt.BodyFinish ≤ bt.TailFinish)
    (hsbt : isPlainMode = false → smallBt.BodyFinish ≤ smallBt.TailFinish)
    (hleaf : ∀ doc, doc < n →
      leaf doc < 2 ^ (depth - 1) ∧ (bucket doc : Int) < indexer.BucketCount)
    (hprev : ∀ doc, doc < n →
      idxPrev[doc]? = some (indexer.GetIndex (leaf doc : Int) (bucket doc : Int)).toNat)
    (hfull : ∀ doc, doc < n →
      idxFull[doc]? = some (indexer.GetIndex
        ((leaf doc + 2 ^ (depth - 1) * (if splitBit doc = true then 1 else 0) : Nat) : Int)
        (bucket doc : Int)).toNat)
    (hsmall : (List.range nSmall).map
        (fun k => (idxSmall[k]?, docContribution smallFold smallBt dim isPlainMode k))
      = ((List.range n).filter
          (fun doc => splitBit doc = smallFold.SmallestSplitSideValue)).map
          (fun doc => (some (indexer.GetIndex ((leaf doc + 2 ^ (depth - 1) : Nat) : Int)
              (bucket doc : Int)).toNat,
            docContribution fold bt dim isPlainMode doc)))
    (hsplit : IsSplitOf 0 nSmall ranges) (hne : ranges ≠ [])
    (htail : ∀ r ∈ ranges.tail, r.Begin ≠ 0)
    (hlen : buffers.length + 1 = ranges.length)
    (hbufs : ∀ buf ∈ cache :: init :: buffers, m ≤ buf.length)
    (hsize : indexer.CalcSize depth ≤ (m : Int))
    (hprevlen : indexer.CalcSize (depth - 1) ≤ (prevInit.length : Int))
    (hreads : ReadsInBounds idxFull fold bt dim isPlainMode ⟨0, n⟩ m)
    (hsreads : ReadsInBounds idxSmall smallFold smallBt dim isPlainMode ⟨0, nSmall⟩ m)
    (hprevrun : CalcStatsKernel false idxPrev fold isPlainMode indexer (depth - 1) bt dim
      ⟨0, n⟩ prevInit = some prev)
    (hcache : ∀ i : Nat, (i : Int) < indexer.CalcSize (depth - 1) → cache[i]? = prev[i]?) :
    ∃ incremental scratch,
      CalcStatsInPartitions true idxSmall smallFold isPlainMode indexer depth smallBt dim
        ranges (cache :: buffers) = some incremental ∧
      CalcStatsKernel false idxFull fold isPlainMode indexer depth bt dim ⟨0, n⟩ init
        = some scratch ∧
      ∀ s : Nat, (s : Int) < indexer.CalcSize depth → incremental[s]? = scratch[s]? := by
  -- sizes
  have hBn : indexer.BucketCount = (indexer.BucketCount.toNat : Int) :=
    (Int.toNat_of_nonneg hb).symm
  obtain ⟨hc1, hc2⟩ := CalcSize_double indexer depth hd hb hfit
  have hhalf : indexer.CalcSize (depth - 1)
      = ((indexer.BucketCount.toNat * 2 ^ (depth - 1) : Nat) : Int) := by
    rw [hc1]
    conv_lhs => rw [hBn]
    push_cast
    rfl
  generalize hhdef : indexer.BucketCount.toNat * 2 ^ (depth - 1) = half at hhalf
  have hsz : indexer.CalcSize depth = ((half + half : Nat) : Int) := by
    rw [hc2, hhalf]
    push_cast
    ring
  have hpow : 2 ^ (depth - 1) + 2 ^ (depth - 1) = 2 ^ depth := by
    have : depth = (depth - 1) + 1 := by omega
    conv_rhs => rw [this]
    rw [pow_succ]
    omega
  have hm : half + half ≤ m := by omega
  -- composite indices as natural numbers
  have hp : ∀ doc, doc < n →
      indexer.BucketCount.toNat * leaf doc + bucket doc < half := by
    intro doc hdoc
    obtain ⟨h1, h2⟩ := hleaf doc hdoc
    have h3 : bucket doc < indexer.BucketCount.toNat := by omega
    have h4 : indexer.BucketCount.toNat * (leaf doc + 1)
        ≤ indexer.BucketCount.toNat * 2 ^ (depth - 1) := Nat.mul_le_mul_left _ h1
    rw [← hhdef]
    rw [Nat.mul_add] at h4
    omega
  have hiPrev : ∀ doc, doc < n →
      idxPrev[doc]? = some (indexer.BucketCount.toNat * leaf doc + bucket doc) := by
    intro doc hdoc
    obtain ⟨h1, h2⟩ := hleaf doc hdoc
    rw [hprev doc hdoc, GetIndex_toNat indexer depth (leaf doc) (bucket doc) hfit (by omega) h2]
  have hiFull : ∀ doc, doc < n →
      idxFull[doc]? = some (indexer.BucketCount.toNat * leaf doc + bucket doc
        + (if splitBit doc = true then half else 0)) := by
    intro doc hdoc
    obtain ⟨h1, h2⟩ := hleaf doc hdoc
    rw [hfull doc hdoc, GetIndex_toNat indexer depth _ (bucket doc) hfit
      (by split <;> omega) h2, ← hhdef]
    congr 1
    split
    · ring
    · ring
  have hiSmall : ∀ doc, doc < n →
      (indexer.GetIndex ((leaf doc + 2 ^ (depth - 1) : Nat) : Int) (bucket doc : Int)).toNat
        = indexer.BucketCount.toNat * leaf doc + bucket doc + half := by
    intro doc hdoc
    obtain ⟨h1, h2⟩ := hleaf doc hdoc
    rw [GetIndex_toNat indexer depth _ (bucket doc) hfit (by omega) h2, ← hhdef]
    ring
  -- the from-scratch array of the previous depth
  have hprevReads : ReadsInBounds idxPrev fold bt dim isPlainMode ⟨0, n⟩ prevInit.length := by
    obtain ⟨r1, r2, r3⟩ := hreads
    refine ⟨r1, r2, fun doc hdoc hlt => ?_⟩
    have hdn : doc < n := by
      unfold TIndexRange.Iter at hdoc
      have := (List.mem_range'_1.mp hdoc).2
      simp only at this
      omega
    obtain ⟨hl, hv⟩ := List.getElem?_eq_some.mp (hiPrev doc hdn)
    refine ⟨(r3 doc hdoc hlt).1, hl, ?_⟩
    rw [List.getD_eq_getElem?_getD, hiPrev doc hdn]
    have := hp doc hdn
    simp only [Option.getD_some]
    omega
  obtain ⟨prev2, hprev2, hplen, hpget⟩ := CalcStatsKernel_spec false idxPrev fold isPlainMode
    indexer (depth - 1) bt dim ⟨0, n⟩ prevInit 0 hbt hprevReads (by simp) (by simp) le_rfl
    (by omega) hprevlen
  have hprevEq : prev2 = prev := by
    rw [hprevrun] at hprev2
    exact (Option.some.inj hprev2).symm
  subst hprevEq
  have hrange : (TIndexRange.mk 0 n).Iter = List.range n := by
    unfold TIndexRange.Iter
    simp [List.range_eq_range']
  have hprevSlot : ∀ i, i < half → prev2.getD i 0
      = (((List.range n).filter (fun doc => splitBit doc = true ∧
            indexer.BucketCount.toNat * leaf doc + bucket doc = i)).map
            (docContribution fold bt dim isPlainMode)).sum
        + (((List.range n).filter (fun doc => splitBit doc = false ∧
            indexer.BucketCount.toNat * leaf doc + bucket doc = i)).map
            (docContribution fold bt dim isPlainMode)).sum := by
    intro i hi
    rw [hpget i, if_pos ⟨by omega, by omega⟩, zero_add, hrange,
      slotSum_eq_filter idxPrev _ (List.range n) i
        (fun doc => indexer.BucketCount.toNat * leaf doc + bucket doc)
        (fun doc hdoc => hiPrev doc (List.mem_range.mp hdoc))]
    exact sum_filter_split (List.range n) _ splitBit
      (fun doc => indexer.BucketCount.toNat * leaf doc + bucket doc = i)
  -- the from-scratch array of the current depth
  have hil : m ≤ init.length := hbufs init (by simp)
  obtain ⟨scratch, hscratch, hsclen, hscget⟩ := CalcStatsKernel_spec false idxFull fold
    isPlainMode indexer depth bt dim ⟨0, n⟩ init 0 hbt
    (ReadsInBounds_mono idxFull fold bt dim isPlainMode ⟨0, n⟩ ⟨0, n⟩ m init.length hreads
      le_rfl le_rfl hil)
    (by simp) (by simp) le_rfl (by omega) (by omega)
  have hscSlot : ∀ s, s < half + half → scratch.getD s 0
      = (((List.range n).filter (fun doc => indexer.BucketCount.toNat * leaf doc + bucket doc
            + (if splitBit doc = true then half else 0) = s)).map
            (docContribution fold bt dim isPlainMode)).sum := by
    intro s hs
    rw [hscget s, if_pos ⟨by omega, by omega⟩, zero_add, hrange,
      slotSum_eq_filter idxFull _ (List.range n) s _
        (fun doc hdoc => hiFull doc (List.mem_range.mp hdoc))]
  -- the incremental step
  obtain ⟨out0, rest, merged, hmap, hmerge, hmlen, hmget⟩ := cached_merge_spec idxSmall smallFold
    isPlainMode indexer depth smallBt dim nSmall m half ranges cache buffers (by omega) hhalf hsz
    hm hsbt hsplit hne htail hlen
    (fun buf hbuf => hbufs buf (by
      rcases List.mem_cons.mp hbuf with h | h
      · simp [h]
      · simp [h]))
    hsreads
  have hcl : m ≤ cache.length := hbufs cache (by simp)
  obtain ⟨inc, hinc, hinclen, hincget⟩ := FixUpStats_spec depth indexer
    smallFold.SmallestSplitSideValue merged half (by omega) hhalf (by omega)
  have hsmallSlot : ∀ s, slotSum idxSmall (docContribution smallFold smallBt dim isPlainMode)
        (List.range' 0 nSmall) s
      = (((List.range n).filter (fun doc => splitBit doc = smallFold.SmallestSplitSideValue ∧
            indexer.BucketCount.toNat * leaf doc + bucket doc + half = s)).map
            (docContribution fold bt dim isPlainMode)).sum := by
    intro s
    unfold slotSum
    rw [← List.range_eq_range', sum_filter_pairs (List.range nSmall) (fun k => idxSmall[k]?),
      hsmall, ← sum_filter_pairs _
        (fun doc => some (indexer.GetIndex ((leaf doc + 2 ^ (depth - 1) : Nat) : Int)
          (bucket doc : Int)).toNat), List.filter_filter]
    congr 2
    apply List.filter_congr
    intro doc hdoc
    rw [hiSmall doc (List.mem_range.mp hdoc)]
    simp [Bool.and_comm]
  have hmLower : ∀ i, i < half → merged.getD i 0 = prev2.getD i 0 := by
    intro i hi
    rw [hmget i (by omega), if_pos hi, hsmallSlot i, sum_filter_empty, add_zero,
      List.getD_eq_getElem?_getD, List.getD_eq_getElem?_getD, hcache i (by omega)]
    intro doc _
    omega
  have hmUpper : ∀ i, i < half → merged.getD (i + half) 0
      = (((List.range n).filter (fun doc => splitBit doc = smallFold.SmallestSplitSideValue ∧
            indexer.BucketCount.toNat * leaf doc + bucket doc = i)).map
            (docContribution fold bt dim isPlainMode)).sum := by
    intro i hi
    rw [hmget (i + half) (by omega), if_neg (by omega), zero_add, hsmallSlot (i + half)]
    apply sum_filter_congr
    intro doc _
    constructor
    · rintro ⟨h1, h2⟩
      exact ⟨h1, by omega⟩
    · rintro ⟨h1, h2⟩
      exact ⟨h1, by omega⟩
  refine ⟨inc, scratch, ?_, hscratch, fun s hs => ?_⟩
  · simp only [CalcStatsInPartitions, hmap, hmerge, bind, Option.bind, if_true]
    exact hinc
  · have hs2 : s < half + half := by omega
    rw [getD_of_lt inc s (by omega), getD_of_lt scratch s (by omega)]
    congr 1
    rw [hincget s, hscSlot s hs2]
    by_cases hlow : s < half
    · rw [if_pos hlow, scratch_slot_lower n half s _ splitBit _ hp hlow, hmLower s hlow,
        hmUpper s hlow, hprevSlot s hlow]
      cases hsel : smallFold.SmallestSplitSideValue
      · simp
      · simp
    · have hi : s - half < half := by omega
      have hse : s = half + (s - half) := by omega
      rw [if_neg hlow, if_pos ⟨by omega, hs2⟩]
      have hup := hmUpper (s - half) hi
      have hse2 : s - half + half = s := by omega
      rw [hse2] at hup
      rw [hup, hmLower (s - half) hi, hprevSlot (s - half) hi]
      conv_rhs => rw [hse]
      rw [scratch_slot_upper n half (s - half) _ splitBit _ hp]
      cases hsel : smallFold.SmallestSplitSideValue
      · simp
      · simp

theorem C6_depth_cache_equivalence_witness :
    ∃ incremental scratch,
      CalcStatsInPartitions true [5, 4] exampleSmallFold false ⟨3⟩ 1 exampleSmallBodyTail 0
        [⟨0, 1⟩, ⟨1, 2⟩] (exampleCache :: [exampleStats]) = some incremental ∧
      CalcStatsKernel false exampleSingleIdx exampleFold false ⟨3⟩ 1 exampleBodyTail 0 ⟨0, 4⟩
        exampleStats = some scratch ∧
      ∀ s : Nat, (s : Int) < (TStatsIndexer.mk 3).CalcSize 1 → incremental[s]? = scratch[s]? :=
  C6_depth_cache_equivalence ⟨3⟩ 1 false 0 exampleFold exampleBodyTail 4
    (fun _ => 0) exampleBucket exampleSplitBit [0, 1, 2, 1] exampleSingleIdx
    exampleSmallFold exampleSmallBodyTail 2 [5, 4] [⟨0, 1⟩, ⟨1, 2⟩] [exampleStats]
    (List.replicate 3 ⟨7, 7, 7, 7⟩) examplePrevStats exampleCache exampleStats 6
    (by decide) (by decide) (by decide) (fun _ => by decide) (fun _ => by decide)
    (fun doc h => by interval_cases doc <;> decide)
    (fun doc h => by interval_cases doc <;> decide)
    (fun doc h => by interval_cases doc <;> decide)
    (by with_unfolding_all decide)
    ⟨rfl, by decide, rfl, by decide, rfl⟩ (by simp) (by decide) rfl (by decide) (by decide)
    (by decide) (by decide) (by decide)
    (by with_unfolding_all decide)
    (fun i hi => by
      have hc : (TStatsIndexer.mk 3).CalcSize (1 - 1) = 3 := by decide
      rw [hc] at hi
      have h3 : i < 3 := by omega
      interval_cases i <;> rfl)

/-! ## The score calculator: the calls made by `UpdateScores` -/

theorem runCalls_append {σ : Type}
    (closure : σ → TBucketStats → TBucketStats → Nat → Option σ)
    (l1 l2 : List (TBucketStats × TBucketStats × Nat)) (st : σ) :
    runCalls closure (l1 ++ l2) st = (runCalls closure l1 st).bind (runCalls closure l2) := by
  unfold runCalls
  rw [List.foldlM_append]
  rfl

theorem runCalls_nil {σ : Type} (closure : σ → TBucketStats → TBucketStats → Nat → Option σ)
    (st : σ) : runCalls closure [] st = some st := rfl

theorem runCalls_singleton {σ : Type}
    (closure : σ → TBucketStats → TBucketStats → Nat → Option σ)
    (call : TBucketStats × TBucketStats × Nat) (st : σ) :
    runCalls closure [call] st = closure st call.1 call.2.1 call.2.2 := by
  unfold runCalls
  rw [List.foldlM_cons]
  cases closure st call.1 call.2.1 call.2.2 <;> rfl

/-- A loop over `i < k` that makes one call per iteration and carries an accumulator. -/
theorem foldlM_range_calls {σ α S : Type}
    (closure : σ → TBucketStats → TBucketStats → Nat → Option σ) (mk : α → σ → S)
    (step : S → Nat → Option S) (acc : Nat → α)
    (call : Nat → TBucketStats × TBucketStats × Nat) :
    ∀ (k : Nat) (st : σ),
      (∀ i st2, i < k → step (mk (acc i) st2) i
        = (closure st2 (call i).1 (call i).2.1 (call i).2.2).map (fun st3 => mk (acc (i + 1)) st3)) →
      (List.range k).foldlM step (mk (acc 0) st)
        = (runCalls closure ((List.range k).map call) st).map (fun st3 => mk (acc k) st3) := by
  intro k
  induction k with
  | zero =>
    intro st _
    rfl
  | succ k ih =>
    intro st hstep
    rw [List.range_succ, List.foldlM_append, ih st (fun i st2 hi => hstep i st2 (by omega)),
      List.map_append, runCalls_append]
    cases h : runCalls closure ((List.range k).map call) st with
    | none => rfl
    | some st2 =>
      simp only [Option.map_some', Option.some_bind, List.map_cons, List.map_nil,
        runCalls_singleton, bind, Option.bind]
      rw [List.foldlM_cons, hstep k st2 (by omega)]
      cases closure st2 (call k).1 (call k).2.1 (call k).2.2 <;> rfl

/-- A loop over `i < k` that only accumulates reads. -/
theorem foldlM_range_sum (read : Nat → Option TBucketStats) (val : Nat → TBucketStats) :
    ∀ (k : Nat) (init : TBucketStats), (∀ i, i < k → read i = some (val i)) →
      (List.range k).foldlM (fun acc i => do
          let x ← read i
          pure (acc.Add x)) init
        = some (init + ∑ i ∈ Finset.range k, val i) := by
  intro k
  induction k with
  | zero =>
    intro init _
    simp
  | succ k ih =>
    intro init h
    rw [List.range_succ, List.foldlM_append, ih init (fun i hi => h i (by omega))]
    simp only [Option.some_bind, bind, Option.bind, List.foldlM_cons, List.foldlM_nil, pure,
      h k (by omega), Finset.sum_range_succ]
    congr 1
    show (_ : TBucketStats) + _ = _
    rw [add_assoc]

/-- The leaf loop: when every leaf makes the calls `calls leaf`, the loop makes the calls of
all leaves in order. -/
theorem foldlM_leaves {σ : Type}
    (closure : σ → TBucketStats → TBucketStats → Nat → Option σ)
    (body : σ → Nat → Option σ) (calls : Nat → List (TBucketStats × TBucketStats × Nat)) :
    ∀ (L : Nat) (st : σ),
      (∀ leaf st2, leaf < L → body st2 leaf = runCalls closure (calls leaf) st2) →
      (List.range L).foldlM body st
        = runCalls closure ((List.range L).map calls).flatten st := by
  intro L
  induction L with
  | zero =>
    intro st _
    rfl
  | succ L ih =>
    intro st h
    rw [List.range_succ, List.foldlM_append, ih st (fun leaf st2 hl => h leaf st2 (by omega)),
      List.map_append, List.flatten_append, runCalls_append]
    cases runCalls closure ((List.range L).map calls).flatten st with
    | none => rfl
    | some st2 =>
      simp only [Option.some_bind, bind, Option.bind, List.map_cons, List.map_nil,
        List.flatten_cons, List.flatten_nil, List.append_nil]
      rw [List.foldlM_cons, h L st2 (by omega)]
      cases runCalls closure (calls L) st2 <;> rfl

theorem statsAt_eq_statOf (stats : List TBucketStats) (indexer : TStatsIndexer) (leaf b : Nat)
    (h : (statsAt stats (indexer.GetIndex leaf b)).isSome = true) :
    statsAt stats (indexer.GetIndex leaf b) = some (statOf stats indexer leaf b) := by
  obtain ⟨x, hx⟩ := Option.isSome_iff_exists.mp h
  unfold statOf
  rw [hx]
  rfl

theorem sum_Ico_eq_sub (f : Nat → TBucketStats) (k B : Nat) (h : k ≤ B) :
    ∑ b ∈ Finset.Ico k B, f b = (∑ b ∈ Finset.range B, f b) - ∑ b ∈ Finset.range k, f b := by
  rw [eq_sub_iff_add_eq, add_comm]
  exact Finset.sum_range_add_sum_Ico f h

theorem toNat_cast_sub_one (B : Nat) : ((B : Int) - 1).toNat = B - 1 := by omega

theorem TBucketStats.mk_zero : (⟨0, 0, 0, 0⟩ : TBucketStats) = 0 := rfl

theorem TBucketStats.Add_eq (a b : TBucketStats) : a.Add b = a + b := rfl

theorem TBucketStats.Remove_eq (a b : TBucketStats) : a.Remove b = a - b := rfl

theorem oneFeature_float_leaf {σ : Type}
    (closure : σ → TBucketStats → TBucketStats → Nat → Option σ) (stats : List TBucketStats)
    (indexer : TStatsIndexer) (B : Nat) (splitType : ESplitType) (leaf : Nat) (st : σ)
    (hB : indexer.BucketCount = (B : Int))
    (htype : splitType = ESplitType.FloatFeature ∨ splitType = ESplitType.OnlineCtr)
    (hin : ∀ b, b < B → (statsAt stats (indexer.GetIndex leaf b)).isSome = true) :
    UpdateScoresOneFeature closure stats indexer splitType (leaf : Int) st
      = runCalls closure ((List.range (B - 1)).map (fun i =>
          (∑ b ∈ Finset.Ico (i + 1) B, statOf stats indexer leaf b,
            ∑ b ∈ Finset.range (i + 1), statOf stats indexer leaf b, i))) st := by
  have hread : ∀ b, b < B → statsAt stats (indexer.GetIndex leaf b)
      = some (statOf stats indexer leaf b) :=
    fun b hb => statsAt_eq_statOf stats indexer leaf b (hin b hb)
  have hall := foldlM_range_sum (fun b => statsAt stats (indexer.GetIndex leaf b))
    (fun b => statOf stats indexer leaf b) B 0 hread
  have hcond : splitType = ESplitType.OnlineCtr ∨ splitType = ESplitType.FloatFeature :=
    htype.symm
  have hloop := foldlM_range_calls closure
    (fun (a : TBucketStats × TBucketStats) (s : σ) => (a.1, a.2, s))
    (fun (acc : TBucketStats × TBucketStats × σ) (splitIdx : Nat) => do
        let s1 ← statsAt stats (indexer.GetIndex leaf splitIdx)
        let falseStats := acc.2.1.Add s1
        let s2 ← statsAt stats (indexer.GetIndex leaf splitIdx)
        let trueStats := acc.1.Remove s2
        let state ← closure acc.2.2 trueStats falseStats splitIdx
        pure (trueStats, falseStats, state))
    (fun i => ((∑ b ∈ Finset.range B, statOf stats indexer leaf b)
        - ∑ b ∈ Finset.range i, statOf stats indexer leaf b,
      ∑ b ∈ Finset.range i, statOf stats indexer leaf b))
    (fun i => (∑ b ∈ Finset.Ico (i + 1) B, statOf stats indexer leaf b,
      ∑ b ∈ Finset.range (i + 1), statOf stats indexer leaf b, i))
    (B - 1) st (by
      intro i st2 hi
      have e1 : ∑ b ∈ Finset.Ico (i + 1) B, statOf stats indexer leaf b
          = (∑ b ∈ Finset.range B, statOf stats indexer leaf b)
            - ∑ b ∈ Finset.range (i + 1), statOf stats indexer leaf b :=
        sum_Ico_eq_sub _ _ _ (by omega)
      have e2 : (∑ b ∈ Finset.range B, statOf stats indexer leaf b)
            - (∑ b ∈ Finset.range i, statOf stats indexer leaf b) - statOf stats indexer leaf i
          = (∑ b ∈ Finset.range B, statOf stats indexer leaf b)
            - ∑ b ∈ Finset.range (i + 1), statOf stats indexer leaf b := by
        rw [Finset.sum_range_succ]
        abel
      simp only [hread i (by omega), Option.bind_eq_bind, Option.some_bind, Option.pure_def,
        TBucketStats.Add_eq, TBucketStats.Remove_eq, e1, e2, ← Finset.sum_range_succ]
      cases closure st2 _ _ i <;> rfl)
  simp only [zero_add, Finset.range_zero, Finset.sum_empty, sub_zero, Option.bind_eq_bind,
    Option.pure_def, TBucketStats.Add_eq, TBucketStats.Remove_eq] at hall hloop
  unfold UpdateScoresOneFeature
  simp only [hB, Int.toNat_natCast, toNat_cast_sub_one, if_pos hcond, TBucketStats.mk_zero,
    Option.bind_eq_bind, Option.pure_def, TBucketStats.Add_eq, TBucketStats.Remove_eq, hall,
    Option.some_bind, hloop]
  cases runCalls closure _ st <;> rfl

/-- C8, in exact arithmetic (the `double` fields read as rationals; in `double`
arithmetic `trueStats` is the rounded leaf total with the buckets `0..i` subtracted one
after the other, which equals the sum of the other buckets only up to rounding): Float /
OnlineCtr candidates.  For a `OneFeature` ensemble of split type
`FloatFeature` or `OnlineCtr`, `UpdateScores` makes exactly the following calls of the score
update, in this order: for every leaf `< leafCount` and every candidate `i` with
`0 ≤ i < bucketCount - 1`, one call with `falseStats` = the sum of
`stats[index(leaf, b)]` for `b` in `0..i`, and `trueStats` = the sum for `b` in
`i+1..bucketCount-1`, which is the leaf total minus `falseStats`; no other call is made.
(All reads `stats[index(leaf, b)]`, `leaf < leafCount`, `b < bucketCount`, are inside the
array.) -/
theorem C8_float_candidates {σ : Type}
    (closure : σ → TBucketStats → TBucketStats → Nat → Option σ) (stats : List TBucketStats)
    (L B : Nat) (indexer : TStatsIndexer) (splitType : ESplitType)
    (parts : List TExclusiveBundlePart) (oneHotMaxSize : Nat)
    (useForCalcScores : TExclusiveBundlePart → Nat → Bool) (getValueBitCount : Int → Nat)
    (st : σ) (hB : indexer.BucketCount = (B : Int))
    (htype : splitType = ESplitType.FloatFeature ∨ splitType = ESplitType.OnlineCtr)
    (hin : ∀ leaf b : Nat, leaf < L → b < B →
      (statsAt stats (indexer.GetIndex leaf b)).isSome = true) :
    UpdateScores closure stats (L : Int) indexer
        ⟨ESplitEnsembleType.OneFeature, splitType, parts⟩ oneHotMaxSize useForCalcScores
        getValueBitCount st
      = runCalls closure
          ((List.range L).map (fun leaf => (List.range (B - 1)).map (fun i =>
            (∑ b ∈ Finset.Ico (i + 1) B, statOf stats indexer leaf b,
              ∑ b ∈ Finset.range (i + 1), statOf stats indexer leaf b, i)))).flatten st ∧
      ∀ leaf i : Nat, i < B - 1 →
        ∑ b ∈ Finset.Ico (i + 1) B, statOf stats indexer leaf b
          = (∑ b ∈ Finset.range B, statOf stats indexer leaf b)
            - ∑ b ∈ Finset.range (i + 1), statOf stats indexer leaf b := by
  refine ⟨?_, fun leaf i hi => sum_Ico_eq_sub _ _ _ (by omega)⟩
  unfold UpdateScores
  simp only [Int.toNat_natCast]
  exact foldlM_leaves closure _ _ L st (fun leaf st2 hl =>
    oneFeature_float_leaf closure stats indexer B splitType leaf st2 hB htype
      (fun b hb => hin leaf b hl hb))

theorem C8_float_candidates_witness :
    UpdateScores recordCall exampleScoreStats (2 : Nat) ⟨3⟩
        ⟨ESplitEnsembleType.OneFeature, ESplitType.FloatFeature, []⟩ 0 (fun _ _ => true)
        (fun _ => 0) []
      = runCalls recordCall
          ((List.range 2).map (fun leaf => (List.range (3 - 1)).map (fun i =>
            (∑ b ∈ Finset.Ico (i + 1) 3, statOf exampleScoreStats ⟨3⟩ leaf b,
              ∑ b ∈ Finset.range (i + 1), statOf exampleScoreStats ⟨3⟩ leaf b, i)))).flatten [] ∧
      ∀ leaf i : Nat, i < 3 - 1 →
        ∑ b ∈ Finset.Ico (i + 1) 3, statOf exampleScoreStats ⟨3⟩ leaf b
          = (∑ b ∈ Finset.range 3, statOf exampleScoreStats ⟨3⟩ leaf b)
            - ∑ b ∈ Finset.range (i + 1), statOf exampleScoreStats ⟨3⟩ leaf b :=
  C8_float_candidates recordCall exampleScoreStats 2 3 ⟨3⟩ ESplitType.FloatFeature [] 0
    (fun _ _ => true) (fun _ => 0) [] rfl (Or.inl rfl)
    (fun leaf b hl hb => by interval_cases leaf <;> interval_cases b <;> rfl)

theorem oneFeature_oneHot_leaf {σ : Type}
    (closure : σ → TBucketStats → TBucketStats → Nat → Option σ) (stats : List TBucketStats)
    (indexer : TStatsIndexer) (B : Nat) (leaf : Nat) (st : σ)
    (hB : indexer.BucketCount = (B : Int))
    (hin : ∀ b, b < B → (statsAt stats (indexer.GetIndex leaf b)).isSome = true) :
    UpdateScoresOneFeature closure stats indexer ESplitType.OneHotFeature (leaf : Int) st
      = runCalls closure ((List.range B).map (fun i =>
          (statOf stats indexer leaf i,
            (∑ b ∈ Finset.range B, statOf stats indexer leaf b) - statOf stats indexer leaf i,
            i))) st := by
  have hread : ∀ b, b < B → statsAt stats (indexer.GetIndex leaf b)
      = some (statOf stats indexer leaf b) :=
    fun b hb => statsAt_eq_statOf stats indexer leaf b (hin b hb)
  have hall := foldlM_range_sum (fun b => statsAt stats (indexer.GetIndex leaf b))
    (fun b => statOf stats indexer leaf b) B 0 hread
  have hcond : ¬ (ESplitType.OneHotFeature = ESplitType.OnlineCtr
      ∨ ESplitType.OneHotFeature = ESplitType.FloatFeature) := by decide
  have hloop := foldlM_range_calls closure
    (fun (a : TBucketStats) (s : σ) => (a, s))
    (fun (acc : TBucketStats × σ) (bucketIdx : Nat) => do
        let falseStats ←
          (if bucketIdx > 0 then
            (statsAt stats (indexer.GetIndex leaf ((bucketIdx : Int) - 1))).map
              (fun s => acc.1.Add s)
          else some acc.1)
        let s ← statsAt stats (indexer.GetIndex leaf bucketIdx)
        let falseStats := falseStats.Remove s
        let trueStats ← statsAt stats (indexer.GetIndex leaf bucketIdx)
        let state ← closure acc.2 trueStats falseStats bucketIdx
        pure (falseStats, state))
    (fun i => if i = 0 then ∑ b ∈ Finset.range B, statOf stats indexer leaf b
      else (∑ b ∈ Finset.range B, statOf stats indexer leaf b)
        - statOf stats indexer leaf (i - 1))
    (fun i => (statOf stats indexer leaf i,
      (∑ b ∈ Finset.range B, statOf stats indexer leaf b) - statOf stats indexer leaf i, i))
    B st (by
      intro i st2 hi
      have hfalse : (if i > 0 then
            (statsAt stats (indexer.GetIndex leaf ((i : Int) - 1))).map
              (fun s => (if i = 0 then ∑ b ∈ Finset.range B, statOf stats indexer leaf b
                else (∑ b ∈ Finset.range B, statOf stats indexer leaf b)
                  - statOf stats indexer leaf (i - 1)).Add s)
          else some (if i = 0 then ∑ b ∈ Finset.range B, statOf stats indexer leaf b
                else (∑ b ∈ Finset.range B, statOf stats indexer leaf b)
                  - statOf stats indexer leaf (i - 1)))
          = some (∑ b ∈ Finset.range B, statOf stats indexer leaf b) := by
        by_cases h0 : i = 0
        · simp [h0]
        · have hpos : i > 0 := by omega
          have hcast : ((i : Int) - 1) = ((i - 1 : Nat) : Int) := by omega
          rw [if_pos hpos, if_neg h0, hcast, hread (i - 1) (by omega)]
          simp only [Option.map_some', TBucketStats.Add_eq, sub_add_cancel]
      simp only [hfalse, hread i hi, Option.bind_eq_bind, Option.some_bind, Option.pure_def,
        TBucketStats.Remove_eq, Nat.add_sub_cancel, Nat.succ_ne_zero, if_false]
      cases closure st2 _ _ i <;> rfl)
  simp only [zero_add, if_true, Option.bind_eq_bind, Option.pure_def, TBucketStats.Add_eq,
    TBucketStats.Remove_eq] at hall hloop
  unfold UpdateScoresOneFeature
  simp only [hB, Int.toNat_natCast, if_neg hcond, TBucketStats.mk_zero,
    Option.bind_eq_bind, Option.pure_def, TBucketStats.Add_eq, TBucketStats.Remove_eq, hall,
    Option.some_bind, hloop]
  cases runCalls closure _ st <;> rfl

/-- C9: one-hot candidates.  For a `OneFeature` ensemble of split type `OneHotFeature`,
`UpdateScores` makes exactly the following calls of the score update, in this order: for
every leaf `< leafCount` and every candidate `i` with `0 ≤ i < bucketCount`, one call with
`trueStats = stats[index(leaf, i)]` and `falseStats = total - stats[index(leaf, i)]`, where
`total` is the sum over all buckets of the leaf.  (All reads are inside the array.) -/
theorem C9_oneHot_candidates {σ : Type}
    (closure : σ → TBucketStats → TBucketStats → Nat → Option σ) (stats : List TBucketStats)
    (L B : Nat) (indexer : TStatsIndexer) (parts : List TExclusiveBundlePart)
    (oneHotMaxSize : Nat) (useForCalcScores : TExclusiveBundlePart → Nat → Bool)
    (getValueBitCount : Int → Nat) (st : σ) (hB : indexer.BucketCount = (B : Int))
    (hin : ∀ leaf b : Nat, leaf < L → b < B →
      (statsAt stats (indexer.GetIndex leaf b)).isSome = true) :
    UpdateScores closure stats (L : Int) indexer
        ⟨ESplitEnsembleType.OneFeature, ESplitType.OneHotFeature, parts⟩ oneHotMaxSize
        useForCalcScores getValueBitCount st
      = runCalls closure
          ((List.range L).map (fun leaf => (List.range B).map (fun i =>
            (statOf stats indexer leaf i,
              (∑ b ∈ Finset.range B, statOf stats indexer leaf b) - statOf stats indexer leaf i,
              i)))).flatten st := by
  unfold UpdateScores
  simp only [Int.toNat_natCast]
  exact foldlM_leaves closure _ _ L st (fun leaf st2 hl =>
    oneFeature_oneHot_leaf closure stats indexer B leaf st2 hB (fun b hb => hin leaf b hl hb))

theorem C9_oneHot_candidates_witness :
    UpdateScores recordCall
        [⟨1, 1, 0, 0⟩, ⟨2, 1, 0, 0⟩, ⟨3, 2, 0, 0⟩, ⟨-4, 1, 0, 0⟩] (1 : Nat) ⟨4⟩
        ⟨ESplitEnsembleType.OneFeature, ESplitType.OneHotFeature, []⟩ 0 (fun _ _ => true)
        (fun _ => 0) []
      = runCalls recordCall
          ((List.range 1).map (fun leaf => (List.range 4).map (fun i =>
            (statOf [⟨1, 1, 0, 0⟩, ⟨2, 1, 0, 0⟩, ⟨3, 2, 0, 0⟩, ⟨-4, 1, 0, 0⟩] ⟨4⟩ leaf i,
              (∑ b ∈ Finset.range 4,
                  statOf [⟨1, 1, 0, 0⟩, ⟨2, 1, 0, 0⟩, ⟨3, 2, 0, 0⟩, ⟨-4, 1, 0, 0⟩] ⟨4⟩ leaf b)
                - statOf [⟨1, 1, 0, 0⟩, ⟨2, 1, 0, 0⟩, ⟨3, 2, 0, 0⟩, ⟨-4, 1, 0, 0⟩] ⟨4⟩ leaf i,
              i)))).flatten [] :=
  C9_oneHot_candidates recordCall [⟨1, 1, 0, 0⟩, ⟨2, 1, 0, 0⟩, ⟨3, 2, 0, 0⟩, ⟨-4, 1, 0, 0⟩]
    1 4 ⟨4⟩ [] 0 (fun _ _ => true) (fun _ => 0) [] rfl
    (fun leaf b hl hb => by
      interval_cases leaf
      interval_cases b <;> rfl)

theorem shift_and_one_iff_testBit (b j : Nat) :
    ((b >>> j) &&& 1 ≠ 0) ↔ b.testBit j = true := by
  unfold Nat.testBit
  rw [Nat.land_comm]
  simp

theorem binary_inner_loop (read : Nat → Option TBucketStats) (val : Nat → TBucketStats)
    (j : Nat) :
    ∀ (k : Nat), (∀ i, i < k → read i = some (val i)) →
      (List.range k).foldlM
          (fun (acc : TBucketStats × TBucketStats) (bucketIdx : Nat) => do
            let s ← read bucketIdx
            if (bucketIdx >>> j) &&& 1 ≠ 0 then pure (acc.1.Add s, acc.2)
            else pure (acc.1, acc.2.Add s))
          ((⟨0, 0, 0, 0⟩ : TBucketStats), (⟨0, 0, 0, 0⟩ : TBucketStats))
        = some (∑ b ∈ (Finset.range k).filter (fun b => b.testBit j = true), val b,
            ∑ b ∈ (Finset.range k).filter (fun b => ¬ b.testBit j = true), val b) := by
  intro k
  induction k with
  | zero =>
    intro _
    rfl
  | succ k ih =>
    intro h
    rw [List.range_succ, List.foldlM_append, ih (fun i hi => h i (by omega))]
    simp only [Option.bind_eq_bind, Option.some_bind, List.foldlM_cons, List.foldlM_nil,
      h k (by omega), Option.pure_def, TBucketStats.Add_eq, Finset.range_succ]
    by_cases hbit : k.testBit j = true
    · have hc : (k >>> j) &&& 1 ≠ 0 := (shift_and_one_iff_testBit k j).mpr hbit
      rw [if_pos hc, Finset.filter_insert, if_pos hbit, Finset.filter_insert,
        if_neg (by simpa using hbit), Finset.sum_insert (by simp)]
      simp only [Option.some_bind, add_comm]
    · have hc : ¬ ((k >>> j) &&& 1 ≠ 0) := fun hx => hbit ((shift_and_one_iff_testBit k j).mp hx)
      rw [if_neg hc, Finset.filter_insert, if_neg hbit, Finset.filter_insert,
        if_pos (by simpa using hbit), Finset.sum_insert (by simp)]
      simp only [Option.some_bind, add_comm]

theorem binarySplits_leaf {σ : Type}
    (closure : σ → TBucketStats → TBucketStats → Nat → Option σ) (stats : List TBucketStats)
    (indexer : TStatsIndexer) (B bitCount : Nat) (leaf : Nat) (st : σ)
    (hB : indexer.BucketCount = (B : Int))
    (hin : ∀ b, b < B → (statsAt stats (indexer.GetIndex leaf b)).isSome = true) :
    UpdateScoresBinarySplits closure stats indexer bitCount (leaf : Int) st
      = runCalls closure ((List.range bitCount).map (fun j =>
          (∑ b ∈ (Finset.range B).filter (fun b => b.testBit j = true),
              statOf stats indexer leaf b,
            ∑ b ∈ (Finset.range B).filter (fun b => ¬ b.testBit j = true),
              statOf stats indexer leaf b, j))) st := by
  have hread : ∀ b, b < B → statsAt stats (indexer.GetIndex leaf b)
      = some (statOf stats indexer leaf b) :=
    fun b hb => statsAt_eq_statOf stats indexer leaf b (hin b hb)
  have hloop := foldlM_range_calls closure (fun (_ : Unit) (s : σ) => s)
    (fun (state : σ) (binFeatureIdx : Nat) => do
      let r ← (List.range B).foldlM
        (fun (acc : TBucketStats × TBucketStats) (bucketIdx : Nat) => do
          let s ← statsAt stats (indexer.GetIndex leaf bucketIdx)
          if (bucketIdx >>> binFeatureIdx) &&& 1 ≠ 0 then pure (acc.1.Add s, acc.2)
          else pure (acc.1, acc.2.Add s))
        ((⟨0, 0, 0, 0⟩ : TBucketStats), (⟨0, 0, 0, 0⟩ : TBucketStats))
      closure state r.1 r.2 binFeatureIdx)
    (fun _ => ())
    (fun j => (∑ b ∈ (Finset.range B).filter (fun b => b.testBit j = true),
        statOf stats indexer leaf b,
      ∑ b ∈ (Finset.range B).filter (fun b => ¬ b.testBit j = true),
        statOf stats indexer leaf b, j))
    bitCount st (by
      intro j st2 _
      have := binary_inner_loop (fun b => statsAt stats (indexer.GetIndex leaf b))
        (fun b => statOf stats indexer leaf b) j B hread
      simp only [Option.bind_eq_bind] at this
      simp only [Option.bind_eq_bind, this, Option.some_bind]
      cases closure st2 _ _ j <;> rfl)
  unfold UpdateScoresBinarySplits
  rw [hB, Int.toNat_natCast]
  rw [hloop]
  cases runCalls closure _ st <;> rfl

/-- C10: binary-pack candidates.  For a `BinarySplits` ensemble, `UpdateScores` makes
exactly the following calls of the score update, in this order: for every leaf
`< leafCount` and every bit position `j` with `0 ≤ j < bitCount(bucketCount - 1)`, one call
with `trueStats` = the sum of `stats[index(leaf, b)]` over the buckets `b < bucketCount`
whose bit `j` is set and `falseStats` = the sum over the buckets whose bit `j` is clear.
(All reads are inside the array; `bitCount` is `GetValueBitCount`.) -/
theorem C10_binaryPack_candidates {σ : Type}
    (closure : σ → TBucketStats → TBucketStats → Nat → Option σ) (stats : List TBucketStats)
    (L B : Nat) (indexer : TStatsIndexer) (splitType : ESplitType)
    (parts : List TExclusiveBundlePart) (oneHotMaxSize : Nat)
    (useForCalcScores : TExclusiveBundlePart → Nat → Bool) (getValueBitCount : Int → Nat)
    (st : σ) (hB : indexer.BucketCount = (B : Int))
    (hin : ∀ leaf b : Nat, leaf < L → b < B →
      (statsAt stats (indexer.GetIndex leaf b)).isSome = true) :
    UpdateScores closure stats (L : Int) indexer
        ⟨ESplitEnsembleType.BinarySplits, splitType, parts⟩ oneHotMaxSize useForCalcScores
        getValueBitCount st
      = runCalls closure
          ((List.range L).map (fun leaf =>
            (List.range (getValueBitCount (indexer.BucketCount - 1))).map (fun j =>
              (∑ b ∈ (Finset.range B).filter (fun b => b.testBit j = true),
                  statOf stats indexer leaf b,
                ∑ b ∈ (Finset.range B).filter (fun b => ¬ b.testBit j = true),
                  statOf stats indexer leaf b, j)))).flatten st := by
  unfold UpdateScores
  simp only [Int.toNat_natCast]
  exact foldlM_leaves closure _ _ L st (fun leaf st2 hl =>
    binarySplits_leaf closure stats indexer B _ leaf st2 hB (fun b hb => hin leaf b hl hb))

theorem C10_binaryPack_candidates_witness :
    UpdateScores recordCall
        [⟨1, 1, 0, 0⟩, ⟨2, 1, 0, 0⟩, ⟨3, 2, 0, 0⟩, ⟨-4, 1, 0, 0⟩] (1 : Nat) ⟨4⟩
        ⟨ESplitEnsembleType.BinarySplits, ESplitType.FloatFeature, []⟩ 0 (fun _ _ => true)
        (fun _ => 2) []
      = runCalls recordCall
          ((List.range 1).map (fun leaf =>
            (List.range ((fun _ => 2) ((TStatsIndexer.mk 4).BucketCount - 1))).map (fun j =>
              (∑ b ∈ (Finset.range 4).filter (fun b => b.testBit j = true),
                  statOf [⟨1, 1, 0, 0⟩, ⟨2, 1, 0, 0⟩, ⟨3, 2, 0, 0⟩, ⟨-4, 1, 0, 0⟩] ⟨4⟩ leaf b,
                ∑ b ∈ (Finset.range 4).filter (fun b => ¬ b.testBit j = true),
                  statOf [⟨1, 1, 0, 0⟩, ⟨2, 1, 0, 0⟩, ⟨3, 2, 0, 0⟩, ⟨-4, 1, 0, 0⟩] ⟨4⟩ leaf b,
                j)))).flatten [] :=
  C10_binaryPack_candidates recordCall
    [⟨1, 1, 0, 0⟩, ⟨2, 1, 0, 0⟩, ⟨3, 2, 0, 0⟩, ⟨-4, 1, 0, 0⟩]
    1 4 ⟨4⟩ ESplitType.FloatFeature [] 0 (fun _ _ => true) (fun _ => 2) [] rfl
    (fun leaf b hl hb => by
      interval_cases leaf
      interval_cases b <;> rfl)

/-! ## The exclusive-bundle case of `UpdateScores` -/

/-- A loop over `i < k` that makes a list of calls per iteration and carries an
accumulator. -/
theorem foldlM_range_blocks {σ α S : Type}
    (closure : σ → TBucketStats → TBucketStats → Nat → Option σ) (mk : α → σ → S)
    (step : S → Nat → Option S) (acc : Nat → α)
    (calls : Nat → List (TBucketStats × TBucketStats × Nat)) :
    ∀ (k : Nat) (st : σ),
      (∀ i st2, i < k → step (mk (acc i) st2) i
        = (runCalls closure (calls i) st2).map (fun st3 => mk (acc (i + 1)) st3)) →
      (List.range k).foldlM step (mk (acc 0) st)
        = (runCalls closure ((List.range k).map calls).flatten st).map
            (fun st3 => mk (acc k) st3) := by
  intro k
  induction k with
  | zero =>
    intro st _
    rfl
  | succ k ih =>
    intro st hstep
    rw [List.range_succ, List.foldlM_append, ih st (fun i st2 hi => hstep i st2 (by omega)),
      List.map_append, List.flatten_append, runCalls_append]
    cases h : runCalls closure ((List.range k).map calls).flatten st with
    | none => rfl
    | some st2 =>
      simp only [Option.map_some', Option.some_bind, List.map_cons, List.map_nil,
        List.flatten_cons, List.flatten_nil, List.append_nil, bind, Option.bind]
      rw [List.foldlM_cons, hstep k st2 (by omega)]
      cases runCalls closure (calls k) st2 <;> rfl

/-- A loop over the buckets of a range that only accumulates reads. -/
theorem foldlM_range'_sum (read : Nat → Option TBucketStats) (val : Nat → TBucketStats) :
    ∀ (n s : Nat) (init : TBucketStats), (∀ b, s ≤ b → b < s + n → read b = some (val b)) →
      (List.range' s n).foldlM (fun acc b => do
          let x ← read b
          pure (acc.Add x)) init
        = some (init + ∑ b ∈ Finset.Ico s (s + n), val b) := by
  intro n
  induction n with
  | zero =>
    intro s init _
    simp
  | succ n ih =>
    intro s init h
    rw [List.range'_succ, List.foldlM_cons, h s (by omega) (by omega)]
    simp only [Option.some_bind, bind, Option.bind, pure]
    have := ih (s + 1) (init.Add (val s)) (fun b h1 h2 => h b (by omega) (by omega))
    simp only [bind, Option.bind, pure] at this
    rw [this, Finset.sum_eq_sum_Ico_succ_bot (by omega : s < s + (n + 1))]
    congr 1
    show (_ : TBucketStats) + _ + _ = _
    rw [add_assoc, show s + 1 + n = s + (n + 1) by omega]

theorem bundle_part_sum (stats : List TBucketStats) (indexer : TStatsIndexer) (leaf : Nat)
    (part : TExclusiveBundlePart)
    (hin : ∀ b, part.Bounds.Begin ≤ b → b < part.Bounds.End →
      (statsAt stats (indexer.GetIndex leaf b)).isSome = true) :
    part.Bounds.Iter.foldlM (fun partStats (bucketIdx : Nat) => do
        let leafStats ← statsAt stats (indexer.GetIndex leaf bucketIdx)
        pure (partStats.Add leafStats)) (⟨0, 0, 0, 0⟩ : TBucketStats)
      = some (bundlePartStatsOf stats indexer leaf part) := by
  have h := foldlM_range'_sum (fun b => statsAt stats (indexer.GetIndex leaf b))
    (fun b => statOf stats indexer leaf b) (part.Bounds.End - part.Bounds.Begin)
    part.Bounds.Begin 0
    (fun b h1 h2 => statsAt_eq_statOf stats indexer leaf b (hin b h1 (by omega)))
  unfold TIndexRange.Iter bundlePartStatsOf
  rw [TBucketStats.mk_zero, h, zero_add]
  by_cases hle : part.Bounds.Begin ≤ part.Bounds.End
  · rw [show part.Bounds.Begin + (part.Bounds.End - part.Bounds.Begin) = part.Bounds.End
      by omega]
  · rw [Finset.Ico_eq_empty (by omega), Finset.Ico_eq_empty (by omega)]

/-- The first loop of the bundle case: the total and the per-part statistics. -/
theorem bundle_parts_loop (stats : List TBucketStats) (indexer : TStatsIndexer) (leaf : Nat) :
    ∀ (parts : List TExclusiveBundlePart) (acc : TBucketStats × List TBucketStats),
      (∀ part ∈ parts, ∀ b, part.Bounds.Begin ≤ b → b < part.Bounds.End →
        (statsAt stats (indexer.GetIndex leaf b)).isSome = true) →
      parts.foldlM
        (fun (acc : TBucketStats × List TBucketStats) bundlePart => do
          let bundlePartStats ← bundlePart.Bounds.Iter.foldlM (fun partStats (bucketIdx : Nat) => do
            let leafStats ← statsAt stats (indexer.GetIndex leaf bucketIdx)
            pure (partStats.Add leafStats)) (⟨0, 0, 0, 0⟩ : TBucketStats)
          pure (acc.1.Add bundlePartStats, acc.2 ++ [bundlePartStats])) acc
        = some (acc.1 + (parts.map (bundlePartStatsOf stats indexer leaf)).sum,
            acc.2 ++ parts.map (bundlePartStatsOf stats indexer leaf)) := by
  intro parts
  induction parts with
  | nil =>
    intro acc _
    simp
  | cons part rest ih =>
    intro acc hin
    rw [List.foldlM_cons, bundle_part_sum stats indexer leaf part
      (hin part (List.mem_cons_self _ _))]
    simp only [Option.some_bind, bind, Option.bind, pure]
    have := ih (acc.1.Add (bundlePartStatsOf stats indexer leaf part),
        acc.2 ++ [bundlePartStatsOf stats indexer leaf part])
      (fun p hp => hin p (List.mem_cons_of_mem _ hp))
    simp only [bind, Option.bind, pure] at this
    rw [this]
    simp only [TBucketStats.Add_eq, List.map_cons, List.sum_cons, List.append_assoc,
      List.singleton_append, add_assoc]

theorem binsBeginOf_succ (parts : List TExclusiveBundlePart) (use : List Bool) (idx : Nat) :
    binsBeginOf parts use (idx + 1)
      = binsBeginOf parts use idx + usedCandidateCount parts use idx := by
  unfold binsBeginOf
  rw [List.range_succ, List.map_append, List.sum_append]
  simp

/-- The candidate loop of a float part (lines 843-859). -/
theorem bundle_float_loop {σ : Type}
    (closure : σ → TBucketStats → TBucketStats → Nat → Option σ) (stats : List TBucketStats)
    (indexer : TStatsIndexer) (leaf : Nat) (part : TExclusiveBundlePart)
    (allStats : TBucketStats) (binsBegin : Nat) (st : σ)
    (hin : ∀ b, part.Bounds.Begin ≤ b → b < part.Bounds.End →
      (statsAt stats (indexer.GetIndex leaf b)).isSome = true) :
    (List.range part.Bounds.GetSize).foldlM
        (fun (acc3 : TBucketStats × TBucketStats × σ) (splitIdx : Nat) => do
          let tf ←
            (if splitIdx ≠ 0 then
              (statsAt stats
                (indexer.GetIndex leaf ((part.Bounds.Begin + splitIdx : Nat) - 1 : Int))).map
                (fun statsPart => (acc3.1.Remove statsPart, acc3.2.1.Add statsPart))
            else some (acc3.1, acc3.2.1))
          let state ← closure acc3.2.2 tf.1 tf.2 (binsBegin + splitIdx)
          pure (tf.1, tf.2, state))
        (bundlePartStatsOf stats indexer leaf part,
          allStats.Remove (bundlePartStatsOf stats indexer leaf part), st)
      = (runCalls closure (floatPartCalls stats indexer leaf allStats binsBegin part) st).map
          (fun st3 =>
            (∑ b ∈ Finset.Ico (part.Bounds.Begin + (part.Bounds.GetSize - 1)) part.Bounds.End,
                statOf stats indexer leaf b,
              allStats
                - ∑ b ∈ Finset.Ico (part.Bounds.Begin + (part.Bounds.GetSize - 1))
                    part.Bounds.End, statOf stats indexer leaf b, st3)) := by
  refine foldlM_range_calls closure
    (fun (a : TBucketStats × TBucketStats) (s : σ) => (a.1, a.2, s)) _
    (fun i => (∑ b ∈ Finset.Ico (part.Bounds.Begin + (i - 1)) part.Bounds.End,
        statOf stats indexer leaf b,
      allStats - ∑ b ∈ Finset.Ico (part.Bounds.Begin + (i - 1)) part.Bounds.End,
        statOf stats indexer leaf b))
    (fun k => (∑ b ∈ Finset.Ico (part.Bounds.Begin + k) part.Bounds.End,
        statOf stats indexer leaf b,
      allStats - ∑ b ∈ Finset.Ico (part.Bounds.Begin + k) part.Bounds.End,
        statOf stats indexer leaf b, binsBegin + k))
    part.Bounds.GetSize st ?_
  intro i st2 hi
  have hsize : i < part.Bounds.End - part.Bounds.Begin := hi
  by_cases h0 : i = 0
  · subst h0
    simp only [ne_eq, not_true_eq_false, if_false, Option.bind_eq_bind, Option.some_bind,
      Option.pure_def, Nat.zero_sub, Nat.add_zero, Nat.zero_add, Nat.sub_self]
    cases closure st2 _ _ _ <;> rfl
  · have hcast : (((part.Bounds.Begin + i : Nat) : Int) - 1)
        = ((part.Bounds.Begin + (i - 1) : Nat) : Int) := by omega
    have hread := statsAt_eq_statOf stats indexer leaf (part.Bounds.Begin + (i - 1))
      (hin _ (by omega) (by omega))
    have hsum : ∑ b ∈ Finset.Ico (part.Bounds.Begin + (i - 1)) part.Bounds.End,
          statOf stats indexer leaf b
        = statOf stats indexer leaf (part.Bounds.Begin + (i - 1))
          + ∑ b ∈ Finset.Ico (part.Bounds.Begin + i) part.Bounds.End,
              statOf stats indexer leaf b := by
      rw [Finset.sum_eq_sum_Ico_succ_bot (by omega)]
      rw [show part.Bounds.Begin + (i - 1) + 1 = part.Bounds.Begin + i by omega]
    have e1 : (∑ b ∈ Finset.Ico (part.Bounds.Begin + (i - 1)) part.Bounds.End,
          statOf stats indexer leaf b) - statOf stats indexer leaf (part.Bounds.Begin + (i - 1))
        = ∑ b ∈ Finset.Ico (part.Bounds.Begin + i) part.Bounds.End,
            statOf stats indexer leaf b := by
      rw [hsum]
      abel
    have e2 : allStats - (∑ b ∈ Finset.Ico (part.Bounds.Begin + (i - 1)) part.Bounds.End,
          statOf stats indexer leaf b) + statOf stats indexer leaf (part.Bounds.Begin + (i - 1))
        = allStats - ∑ b ∈ Finset.Ico (part.Bounds.Begin + i) part.Bounds.End,
            statOf stats indexer leaf b := by
      rw [hsum]
      abel
    simp only [ne_eq, h0, not_false_eq_true, if_true, hcast, hread, Option.map_some',
      Option.bind_eq_bind, Option.some_bind, Option.pure_def, TBucketStats.Add_eq,
      TBucketStats.Remove_eq, e1, e2, Nat.add_sub_cancel]
    cases closure st2 _ _ _ <;> rfl

/-- The candidate loop of a categorical part (lines 880-893). -/
theorem bundle_categorical_loop {σ : Type}
    (closure : σ → TBucketStats → TBucketStats → Nat → Option σ) (stats : List TBucketStats)
    (indexer : TStatsIndexer) (leaf : Nat) (part : TExclusiveBundlePart)
    (allStats : TBucketStats) (binsBegin : Nat) (st : σ)
    (hin : ∀ b, part.Bounds.Begin ≤ b → b < part.Bounds.End →
      (statsAt stats (indexer.GetIndex leaf b)).isSome = true) :
    (List.range part.Bounds.GetSize).foldlM (fun state (binIdx : Nat) => do
        let statsPart ← statsAt stats (indexer.GetIndex leaf (part.Bounds.Begin + binIdx : Nat))
        closure state statsPart (allStats.Remove statsPart) (binsBegin + binIdx + 1)) st
      = runCalls closure ((List.range part.Bounds.GetSize).map (fun k =>
          (statOf stats indexer leaf (part.Bounds.Begin + k),
            allStats - statOf stats indexer leaf (part.Bounds.Begin + k),
            binsBegin + 1 + k))) st := by
  have h := foldlM_range_calls closure (fun (_ : Unit) (s : σ) => s)
    (fun state (binIdx : Nat) => do
        let statsPart ← statsAt stats (indexer.GetIndex leaf (part.Bounds.Begin + binIdx : Nat))
        closure state statsPart (allStats.Remove statsPart) (binsBegin + binIdx + 1))
    (fun _ => ())
    (fun k => (statOf stats indexer leaf (part.Bounds.Begin + k),
      allStats - statOf stats indexer leaf (part.Bounds.Begin + k), binsBegin + 1 + k))
    part.Bounds.GetSize st (by
      intro i st2 hi
      have hsize : i < part.Bounds.End - part.Bounds.Begin := hi
      have hread := statsAt_eq_statOf stats indexer leaf (part.Bounds.Begin + i)
        (hin _ (by omega) (by omega))
      simp only [hread, Option.bind_eq_bind, Option.some_bind, TBucketStats.Remove_eq,
        show binsBegin + i + 1 = binsBegin + 1 + i by omega]
      cases closure st2 _ _ _ <;> rfl)
  rw [h]
  cases runCalls closure _ st <;> rfl

/-- The calls of `UpdateScoresExclusiveBundle` in one leaf. -/
theorem bundle_leaf {σ : Type}
    (closure : σ → TBucketStats → TBucketStats → Nat → Option σ) (stats : List TBucketStats)
    (indexer : TStatsIndexer) (parts : List TExclusiveBundlePart) (use : List Bool)
    (oneHotMaxSize : Nat) (leaf : Nat) (st : σ)
    (hlen : use.length = parts.length)
    (habs : (statsAt stats (indexer.GetIndex leaf (indexer.BucketCount - 1))).isSome = true)
    (hin : ∀ part ∈ parts, ∀ b, part.Bounds.Begin ≤ b → b < part.Bounds.End →
      (statsAt stats (indexer.GetIndex leaf b)).isSome = true)
    (hcat : ∀ (idx : Nat) (part : TExclusiveBundlePart), parts[idx]? = some part → use[idx]? = some true →
      part.FeatureType ≠ EFeatureType.Float → part.Bounds.GetSize + 1 ≤ oneHotMaxSize) :
    UpdateScoresExclusiveBundle closure stats indexer parts use oneHotMaxSize (leaf : Int) st
      = runCalls closure (bundleLeafCalls stats indexer parts use leaf) st := by
  obtain ⟨a0, ha0⟩ := Option.isSome_iff_exists.mp habs
  have hall : bundleAllStats stats indexer parts leaf
      = a0 + (parts.map (bundlePartStatsOf stats indexer leaf)).sum := by
    unfold bundleAllStats
    rw [ha0]
    rfl
  have key : ∀ (step : Nat × σ → Nat → Option (Nat × σ)),
      (∀ i st2, i < parts.length → step (binsBeginOf parts use i, st2) i
        = (runCalls closure (bundlePartCalls stats indexer parts use leaf i) st2).map
            (fun st3 => (binsBeginOf parts use (i + 1), st3))) →
      ((List.range parts.length).foldlM step (0, st)).bind (fun r2 => some r2.2)
        = runCalls closure (bundleLeafCalls stats indexer parts use leaf) st := by
    intro step hstep
    have h := foldlM_range_blocks closure (fun (b : Nat) (s : σ) => (b, s)) step
      (binsBeginOf parts use) (bundlePartCalls stats indexer parts use leaf) parts.length st
      hstep
    have h0 : binsBeginOf parts use 0 = 0 := rfl
    rw [h0] at h
    rw [h]
    unfold bundleLeafCalls
    cases runCalls closure _ st <;> rfl
  unfold UpdateScoresExclusiveBundle
  simp only [Option.bind_eq_bind, Option.pure_def, ha0, Option.some_bind]
  have hfirst := bundle_parts_loop stats indexer leaf parts (a0, []) hin
  simp only [Option.bind_eq_bind, Option.pure_def, List.nil_append] at hfirst
  rw [hfirst]
  simp only [Option.some_bind, ← hall]
  apply key
  intro i st2 hi
  obtain ⟨part, hpart⟩ : ∃ part, parts[i]? = some part :=
    ⟨parts[i], List.getElem?_eq_getElem hi⟩
  obtain ⟨u, hu⟩ : ∃ u, use[i]? = some u :=
    ⟨use[i], List.getElem?_eq_getElem (by omega)⟩
  have hmem : part ∈ parts := by
    have h2 : parts[i]? = some parts[i] := List.getElem?_eq_getElem hi
    rw [hpart] at h2
    rw [Option.some.inj h2]
    exact List.getElem_mem hi
  have hps : (parts.map (bundlePartStatsOf stats indexer leaf))[i]?
      = some (bundlePartStatsOf stats indexer leaf part) := by
    rw [List.getElem?_map, hpart]
    rfl
  have hnext := binsBeginOf_succ parts use i
  cases u with
  | false =>
    have hc : bundlePartCalls stats indexer parts use leaf i = [] := by
      unfold bundlePartCalls
      rw [hpart, hu]
    have hn : usedCandidateCount parts use i = 0 := by
      unfold usedCandidateCount
      rw [hpart, hu]
    rw [hc, hnext, hn]
    simp only [hu, Option.some_bind, if_true, runCalls_nil, Option.map_some', Nat.add_zero]
  | true =>
    have hn : usedCandidateCount parts use i = candidateCount part := by
      unfold usedCandidateCount
      rw [hpart, hu]
    by_cases hf : part.FeatureType = EFeatureType.Float
    · have hc : bundlePartCalls stats indexer parts use leaf i
          = floatPartCalls stats indexer leaf (bundleAllStats stats indexer parts leaf)
              (binsBeginOf parts use i) part := by
        unfold bundlePartCalls
        rw [hpart, hu]
        simp only [hf, if_true]
      have hcount : candidateCount part = part.Bounds.GetSize := by
        unfold candidateCount
        rw [if_pos hf]
      have hfl := bundle_float_loop closure stats indexer leaf part
        (bundleAllStats stats indexer parts leaf) (binsBeginOf parts use i) st2 (hin part hmem)
      simp only [Option.bind_eq_bind, Option.pure_def] at hfl
      rw [hc, hnext, hn, hcount]
      simp only [hu, hpart, hps, Option.some_bind, Bool.true_eq_false, if_false, hf, if_true,
        hfl]
      cases runCalls closure _ st2 <;> rfl
    · have hc : bundlePartCalls stats indexer parts use leaf i
          = categoricalPartCalls stats indexer leaf (bundleAllStats stats indexer parts leaf)
              (binsBeginOf parts use i) part := by
        unfold bundlePartCalls
        rw [hpart, hu]
        simp only [hf, if_false]
      have hcount : candidateCount part = part.Bounds.GetSize + 1 := by
        unfold candidateCount
        rw [if_neg hf]
      have hle := hcat i part hpart hu hf
      have hcl := fun st3 => bundle_categorical_loop closure stats indexer leaf part
        (bundleAllStats stats indexer parts leaf) (binsBeginOf parts use i) st3 (hin part hmem)
      simp only [Option.bind_eq_bind, Option.pure_def] at hcl
      rw [hc, hnext, hn, hcount]
      unfold categoricalPartCalls
      rw [runCalls_append]
      simp only [hu, hpart, hps, Option.some_bind, Bool.true_eq_false, if_false, hf, hle,
        if_true, hcl]
      by_cases h1 : part.Bounds.GetSize > 1
      · simp only [h1, if_true, runCalls_singleton, TBucketStats.Remove_eq]
        cases closure st2 _ _ _ with
        | none => rfl
        | some st3 =>
          simp only [Option.some_bind]
          cases runCalls closure _ st3 <;> rfl
      · simp only [h1, if_false, runCalls_nil, Option.some_bind]
        cases runCalls closure _ st2 <;> rfl

theorem binsBeginOf_mono (parts : List TExclusiveBundlePart) (use : List Bool) (i j : Nat)
    (h : i ≤ j) : binsBeginOf parts use i ≤ binsBeginOf parts use j := by
  induction j with
  | zero =>
    have : i = 0 := by omega
    rw [this]
  | succ j ih =>
    by_cases hij : i = j + 1
    · rw [hij]
    · have := ih (by omega)
      rw [binsBeginOf_succ]
      omega

/-- The candidate indices of part `idx` lie between its base and the base of the next
part. -/
theorem bundlePartCalls_index_bounds (stats : List TBucketStats) (indexer : TStatsIndexer)
    (parts : List TExclusiveBundlePart) (use : List Bool) (leaf idx : Nat)
    (c : TBucketStats × TBucketStats × Nat)
    (hc : c ∈ bundlePartCalls stats indexer parts use leaf idx) :
    binsBeginOf parts use idx ≤ c.2.2 ∧ c.2.2 < binsBeginOf parts use (idx + 1) := by
  rw [binsBeginOf_succ]
  unfold bundlePartCalls at hc
  unfold usedCandidateCount candidateCount
  cases hp : parts[idx]? with
  | none => simp [hp] at hc
  | some part =>
    cases hu : use[idx]? with
    | none => simp [hp, hu] at hc
    | some u =>
      cases u with
      | false => simp [hp, hu] at hc
      | true =>
        simp only [hp, hu] at hc ⊢
        by_cases hf : part.FeatureType = EFeatureType.Float
        · simp only [hf, if_true, floatPartCalls, List.mem_map, List.mem_range] at hc ⊢
          obtain ⟨k, hk, rfl⟩ := hc
          simp only
          omega
        · simp only [hf, if_false, categoricalPartCalls, List.mem_append, List.mem_map,
            List.mem_range] at hc ⊢
          rcases hc with hc | ⟨k, hk, rfl⟩
          · by_cases h1 : part.Bounds.GetSize > 1
            · simp only [h1, if_true, List.mem_singleton] at hc
              rw [hc]
              simp only
              omega
            · simp [h1] at hc
          · simp only
            omega

theorem bundlePartCalls_nodup (stats : List TBucketStats) (indexer : TStatsIndexer)
    (parts : List TExclusiveBundlePart) (use : List Bool) (leaf idx : Nat) :
    ((bundlePartCalls stats indexer parts use leaf idx).map (fun c => c.2.2)).Nodup := by
  unfold bundlePartCalls
  cases hp : parts[idx]? with
  | none => simp
  | some part =>
    cases hu : use[idx]? with
    | none => simp
    | some u =>
      cases u with
      | false => simp
      | true =>
        simp only
        have hinj : ∀ base : Nat, ((List.range part.Bounds.GetSize).map
            (fun k => base + k)).Nodup :=
          fun base => List.Nodup.map (fun a b h => by simpa using h) (List.nodup_range _)
        by_cases hf : part.FeatureType = EFeatureType.Float
        · simp only [hf, if_true, floatPartCalls, List.map_map]
          exact hinj _
        · simp only [hf, if_false, categoricalPartCalls, List.map_append, List.map_map]
          by_cases h1 : part.Bounds.GetSize > 1
          · simp only [h1, if_true, List.map_cons, List.map_nil, List.singleton_append,
              List.nodup_cons]
            refine ⟨?_, hinj _⟩
            simp only [List.mem_map, List.mem_range, Function.comp, not_exists, not_and]
            intro k _
            omega
          · simp only [h1, if_false, List.map_nil, List.nil_append]
            exact hinj _

theorem mem_bundleLeafCalls (stats : List TBucketStats) (indexer : TStatsIndexer)
    (parts : List TExclusiveBundlePart) (use : List Bool) (leaf : Nat)
    (c : TBucketStats × TBucketStats × Nat) :
    c ∈ bundleLeafCalls stats indexer parts use leaf
      ↔ ∃ idx, idx < parts.length ∧ c ∈ bundlePartCalls stats indexer parts use leaf idx := by
  unfold bundleLeafCalls
  simp only [List.mem_flatten, List.mem_map, List.mem_range]
  constructor
  · rintro ⟨l, ⟨idx, hidx, rfl⟩, hc⟩
    exact ⟨idx, hidx, hc⟩
  · rintro ⟨idx, hidx, hc⟩
    exact ⟨_, ⟨idx, hidx, rfl⟩, hc⟩

/-- No candidate index is used twice in a leaf. -/
theorem bundleLeafCalls_nodup (stats : List TBucketStats) (indexer : TStatsIndexer)
    (parts : List TExclusiveBundlePart) (use : List Bool) (leaf : Nat) :
    ((bundleLeafCalls stats indexer parts use leaf).map (fun c => c.2.2)).Nodup := by
  unfold bundleLeafCalls
  have h : ∀ n, ((((List.range n).map
        (bundlePartCalls stats indexer parts use leaf)).flatten).map (fun c => c.2.2)).Nodup
      ∧ ∀ c ∈ ((List.range n).map (bundlePartCalls stats indexer parts use leaf)).flatten,
          c.2.2 < binsBeginOf parts use n := by
    intro n
    induction n with
    | zero => simp
    | succ n ih =>
      rw [List.range_succ, List.map_append, List.flatten_append, List.map_append]
      simp only [List.map_cons, List.map_nil, List.flatten_cons, List.flatten_nil,
        List.append_nil]
      refine ⟨List.Nodup.append ih.1 (bundlePartCalls_nodup stats indexer parts use leaf n)
        ?_, ?_⟩
      · intro x hx1 hx2
        obtain ⟨c1, hc1, rfl⟩ := List.mem_map.mp hx1
        obtain ⟨c2, hc2, he⟩ := List.mem_map.mp hx2
        have b1 := ih.2 c1 hc1
        have b2 := bundlePartCalls_index_bounds stats indexer parts use leaf n c2 hc2
        omega
      · intro c hc
        rcases List.mem_append.mp hc with hc | hc
        · have := ih.2 c hc
          have := binsBeginOf_mono parts use n (n + 1) (by omega)
          omega
        · exact (bundlePartCalls_index_bounds stats indexer parts use leaf n c hc).2
  exact (h parts.length).1

/-- The calls of `UpdateScores` for an `ExclusiveBundle` ensemble. -/
theorem UpdateScores_bundle {σ : Type}
    (closure : σ → TBucketStats → TBucketStats → Nat → Option σ) (stats : List TBucketStats)
    (L : Nat) (indexer : TStatsIndexer) (splitType : ESplitType)
    (parts : List TExclusiveBundlePart) (oneHotMaxSize : Nat)
    (useForCalcScores : TExclusiveBundlePart → Nat → Bool) (getValueBitCount : Int → Nat)
    (st : σ)
    (habs : ∀ leaf : Nat, leaf < L →
      (statsAt stats (indexer.GetIndex leaf (indexer.BucketCount - 1))).isSome = true)
    (hin : ∀ leaf : Nat, leaf < L → ∀ part ∈ parts, ∀ b : Nat,
      part.Bounds.Begin ≤ b → b < part.Bounds.End →
      (statsAt stats (indexer.GetIndex leaf b)).isSome = true)
    (hcat : ∀ part ∈ parts, useForCalcScores part oneHotMaxSize = true →
      part.FeatureType = EFeatureType.Categorical → part.Bounds.GetSize + 1 ≤ oneHotMaxSize) :
    UpdateScores closure stats (L : Int) indexer
        ⟨ESplitEnsembleType.ExclusiveBundle, splitType, parts⟩ oneHotMaxSize useForCalcScores
        getValueBitCount st
      = runCalls closure
          ((List.range L).map (fun leaf =>
            ((List.range parts.length).map
              (bundlePartCalls stats indexer parts
                (parts.map (fun p => useForCalcScores p oneHotMaxSize)) leaf)).flatten)).flatten
          st := by
  unfold UpdateScores
  simp only [Int.toNat_natCast, if_true]
  refine foldlM_leaves closure _ _ L st (fun leaf st2 hl => ?_)
  refine bundle_leaf closure stats indexer parts _ oneHotMaxSize leaf st2 (by simp)
    (habs leaf hl) (hin leaf hl) ?_
  intro idx part hpart huse hf
  have hmem : part ∈ parts := by
    obtain ⟨hi, he⟩ := List.getElem?_eq_some.mp hpart
    rw [← he]
    exact List.getElem_mem hi
  rw [List.getElem?_map, hpart] at huse
  refine hcat part hmem (Option.some.inj huse) ?_
  cases hft : part.FeatureType with
  | Float => exact absurd hft hf
  | Categorical => rfl

/-- C11, in exact arithmetic (the `double` fields read as rationals; in `double`
arithmetic `trueStats` is the rounded part total with the buckets `B..B+k-1` subtracted
one after the other, which equals the sum of the other buckets only up to rounding):
exclusive-bundle float parts.  For an `ExclusiveBundle` ensemble, `UpdateScores`
makes, for every leaf `< leafCount`, the calls of the parts one part after the other, and
no candidate index is used twice in a leaf.  With `allStats` = `stats[index(leaf,
bucketCount - 1)]` plus the sum of all parts' buckets (`bundleAllStats`) and `binsBegin` =
the total candidate count of the earlier used parts (`binsBeginOf`), the calls of a used
part of feature type `Float` with bucket bounds `[B, E)` are exactly: for every local
candidate `k` with `0 ≤ k < E - B`, one call with candidate index `binsBegin + k`,
`trueStats` = the sum of `stats[index(leaf, b)]` for `b` in `B+k..E-1`, and
`falseStats = allStats - trueStats`.  (All reads are inside the array, and every used
categorical part passes the assertion `size + 1 ≤ oneHotMaxSize`.) -/
theorem C11_bundle_float_candidates {σ : Type}
    (closure : σ → TBucketStats → TBucketStats → Nat → Option σ) (stats : List TBucketStats)
    (L : Nat) (indexer : TStatsIndexer) (splitType : ESplitType)
    (parts : List TExclusiveBundlePart) (oneHotMaxSize : Nat)
    (useForCalcScores : TExclusiveBundlePart → Nat → Bool) (getValueBitCount : Int → Nat)
    (st : σ)
    (habs : ∀ leaf : Nat, leaf < L →
      (statsAt stats (indexer.GetIndex leaf (indexer.BucketCount - 1))).isSome = true)
    (hin : ∀ leaf : Nat, leaf < L → ∀ part ∈ parts, ∀ b : Nat,
      part.Bounds.Begin ≤ b → b < part.Bounds.End →
      (statsAt stats (indexer.GetIndex leaf b)).isSome = true)
    (hcat : ∀ part ∈ parts, useForCalcScores part oneHotMaxSize = true →
      part.FeatureType = EFeatureType.Categorical → part.Bounds.GetSize + 1 ≤ oneHotMaxSize) :
    UpdateScores closure stats (L : Int) indexer
        ⟨ESplitEnsembleType.ExclusiveBundle, splitType, parts⟩ oneHotMaxSize useForCalcScores
        getValueBitCount st
      = runCalls closure
          ((List.range L).map (fun leaf =>
            ((List.range parts.length).map
              (bundlePartCalls stats indexer parts
                (parts.map (fun p => useForCalcScores p oneHotMaxSize)) leaf)).flatten)).flatten
          st ∧
      (∀ leaf : Nat,
        ((((List.range parts.length).map
          (bundlePartCalls stats indexer parts
            (parts.map (fun p => useForCalcScores p oneHotMaxSize)) leaf)).flatten).map
          (fun c => c.2.2)).Nodup) ∧
      ∀ (leaf idx : Nat) (part : TExclusiveBundlePart), parts[idx]? = some part →
        useForCalcScores part oneHotMaxSize = true →
        part.FeatureType = EFeatureType.Float →
        bundlePartCalls stats indexer parts
            (parts.map (fun p => useForCalcScores p oneHotMaxSize)) leaf idx
          = (List.range (part.Bounds.End - part.Bounds.Begin)).map (fun k =>
              (∑ b ∈ Finset.Ico (part.Bounds.Begin + k) part.Bounds.End,
                  statOf stats indexer leaf b,
                bundleAllStats stats indexer parts leaf
                  - ∑ b ∈ Finset.Ico (part.Bounds.Begin + k) part.Bounds.End,
                      statOf stats indexer leaf b,
                binsBeginOf parts (parts.map (fun p => useForCalcScores p oneHotMaxSize)) idx
                  + k)) := by
  refine ⟨UpdateScores_bundle closure stats L indexer splitType parts oneHotMaxSize
    useForCalcScores getValueBitCount st habs hin hcat,
    fun leaf => bundleLeafCalls_nodup stats indexer parts _ leaf, ?_⟩
  intro leaf idx part hpart huse hf
  unfold bundlePartCalls
  rw [List.getElem?_map, hpart]
  simp only [Option.map_some', huse, hf, if_true]
  rfl

theorem C11_bundle_float_candidates_witness :
    UpdateScores recordCall exampleBundleStats (1 : Nat) ⟨9⟩
        ⟨ESplitEnsembleType.ExclusiveBundle, ESplitType.FloatFeature, exampleBundleParts⟩ 3
        exampleUseForCalcScores (fun _ => 0) []
      = runCalls recordCall
          ((List.range 1).map (fun leaf =>
            ((List.range exampleBundleParts.length).map
              (bundlePartCalls exampleBundleStats ⟨9⟩ exampleBundleParts
                (exampleBundleParts.map (fun p => exampleUseForCalcScores p 3))
                leaf)).flatten)).flatten
          [] ∧
      (∀ leaf : Nat,
        ((((List.range exampleBundleParts.length).map
          (bundlePartCalls exampleBundleStats ⟨9⟩ exampleBundleParts
            (exampleBundleParts.map (fun p => exampleUseForCalcScores p 3)) leaf)).flatten).map
          (fun c => c.2.2)).Nodup) ∧
      ∀ (leaf idx : Nat) (part : TExclusiveBundlePart), exampleBundleParts[idx]? = some part →
        exampleUseForCalcScores part 3 = true →
        part.FeatureType = EFeatureType.Float →
        bundlePartCalls exampleBundleStats ⟨9⟩ exampleBundleParts
            (exampleBundleParts.map (fun p => exampleUseForCalcScores p 3)) leaf idx
          = (List.range (part.Bounds.End - part.Bounds.Begin)).map (fun k =>
              (∑ b ∈ Finset.Ico (part.Bounds.Begin + k) part.Bounds.End,
                  statOf exampleBundleStats ⟨9⟩ leaf b,
                bundleAllStats exampleBundleStats ⟨9⟩ exampleBundleParts leaf
                  - ∑ b ∈ Finset.Ico (part.Bounds.Begin + k) part.Bounds.End,
                      statOf exampleBundleStats ⟨9⟩ leaf b,
                binsBeginOf exampleBundleParts
                  (exampleBundleParts.map (fun p => exampleUseForCalcScores p 3)) idx
                  + k)) :=
  C11_bundle_float_candidates recordCall exampleBundleStats 1 ⟨9⟩ ESplitType.FloatFeature
    exampleBundleParts 3 exampleUseForCalcScores (fun _ => 0) []
    (fun leaf hl => by
      interval_cases leaf
      rfl)
    (fun leaf hl part hp b _ hb => by
      have hE : ∀ p ∈ exampleBundleParts, p.Bounds.End ≤ 8 := by decide
      have hb8 : b < 8 := Nat.lt_of_lt_of_le hb (hE part hp)
      interval_cases leaf
      interval_cases b <;> rfl)
    (by decide)

/-- C12: exclusive-bundle categorical parts.  For an `ExclusiveBundle` ensemble,
`UpdateScores` makes, for every leaf `< leafCount`, the calls of the parts one part after
the other, and no candidate index is used twice in a leaf.  With `allStats`
(`bundleAllStats`), `partStats` = the sum of the part's buckets and `binsBegin`
(`binsBeginOf`) the candidate base, the calls of a used part of feature type `Categorical`
with bucket bounds `[B, E)` are exactly: when `E - B > 1`, one call with candidate index
`binsBegin`, `trueStats = allStats - partStats` and `falseStats = partStats`; then for
every `k` with `0 ≤ k < E - B` one call with candidate index `binsBegin + 1 + k`,
`trueStats = stats[index(leaf, B + k)]` and `falseStats = allStats - stats[index(leaf, B +
k)]`.  The part occupies `E - B + 1` candidate indices, and when `E - B ≤ 1` no call of
the leaf has candidate index `binsBegin`.  (All reads are inside the array, and every used
categorical part passes the assertion `size + 1 ≤ oneHotMaxSize`.) -/
theorem C12_bundle_categorical_candidates {σ : Type}
    (closure : σ → TBucketStats → TBucketStats → Nat → Option σ) (stats : List TBucketStats)
    (L : Nat) (indexer : TStatsIndexer) (splitType : ESplitType)
    (parts : List TExclusiveBundlePart) (oneHotMaxSize : Nat)
    (useForCalcScores : TExclusiveBundlePart → Nat → Bool) (getValueBitCount : Int → Nat)
    (st : σ)
    (habs : ∀ leaf : Nat, leaf < L →
      (statsAt stats (indexer.GetIndex leaf (indexer.BucketCount - 1))).isSome = true)
    (hin : ∀ leaf : Nat, leaf < L → ∀ part ∈ parts, ∀ b : Nat,
      part.Bounds.Begin ≤ b → b < part.Bounds.End →
      (statsAt stats (indexer.GetIndex leaf b)).isSome = true)
    (hcat : ∀ part ∈ parts, useForCalcScores part oneHotMaxSize = true →
      part.FeatureType = EFeatureType.Categorical → part.Bounds.GetSize + 1 ≤ oneHotMaxSize) :
    UpdateScores closure stats (L : Int) indexer
        ⟨ESplitEnsembleType.ExclusiveBundle, splitType, parts⟩ oneHotMaxSize useForCalcScores
        getValueBitCount st
      = runCalls closure
          ((List.range L).map (fun leaf =>
            ((List.range parts.length).map
              (bundlePartCalls stats indexer parts
                (parts.map (fun p => useForCalcScores p oneHotMaxSize)) leaf)).flatten)).flatten
          st ∧
      (∀ leaf : Nat,
        ((((List.range parts.length).map
          (bundlePartCalls stats indexer parts
            (parts.map (fun p => useForCalcScores p oneHotMaxSize)) leaf)).flatten).map
          (fun c => c.2.2)).Nodup) ∧
      ∀ (leaf idx : Nat) (part : TExclusiveBundlePart), parts[idx]? = some part →
        useForCalcScores part oneHotMaxSize = true →
        part.FeatureType = EFeatureType.Categorical →
        bundlePartCalls stats indexer parts
            (parts.map (fun p => useForCalcScores p oneHotMaxSize)) leaf idx
          = (if part.Bounds.End - part.Bounds.Begin > 1 then
              [(bundleAllStats stats indexer parts leaf
                  - ∑ b ∈ Finset.Ico part.Bounds.Begin part.Bounds.End,
                      statOf stats indexer leaf b,
                ∑ b ∈ Finset.Ico part.Bounds.Begin part.Bounds.End,
                  statOf stats indexer leaf b,
                binsBeginOf parts (parts.map (fun p => useForCalcScores p oneHotMaxSize)) idx)]
            else [])
            ++ (List.range (part.Bounds.End - part.Bounds.Begin)).map (fun k =>
              (statOf stats indexer leaf (part.Bounds.Begin + k),
                bundleAllStats stats indexer parts leaf
                  - statOf stats indexer leaf (part.Bounds.Begin + k),
                binsBeginOf parts (parts.map (fun p => useForCalcScores p oneHotMaxSize)) idx
                  + 1 + k)) ∧
        binsBeginOf parts (parts.map (fun p => useForCalcScores p oneHotMaxSize)) (idx + 1)
          = binsBeginOf parts (parts.map (fun p => useForCalcScores p oneHotMaxSize)) idx
            + (part.Bounds.End - part.Bounds.Begin + 1) ∧
        (part.Bounds.End - part.Bounds.Begin ≤ 1 →
          ∀ c ∈ ((List.range parts.length).map
              (bundlePartCalls stats indexer parts
                (parts.map (fun p => useForCalcScores p oneHotMaxSize)) leaf)).flatten,
            c.2.2 ≠ binsBeginOf parts
              (parts.map (fun p => useForCalcScores p oneHotMaxSize)) idx) := by
  refine ⟨UpdateScores_bundle closure stats L indexer splitType parts oneHotMaxSize
    useForCalcScores getValueBitCount st habs hin hcat,
    fun leaf => bundleLeafCalls_nodup stats indexer parts _ leaf, ?_⟩
  intro leaf idx part hpart huse hf
  have hnf : ¬ part.FeatureType = EFeatureType.Float := by
    rw [hf]
    decide
  have hcalls : bundlePartCalls stats indexer parts
      (parts.map (fun p => useForCalcScores p oneHotMaxSize)) leaf idx
      = categoricalPartCalls stats indexer leaf (bundleAllStats stats indexer parts leaf)
          (binsBeginOf parts (parts.map (fun p => useForCalcScores p oneHotMaxSize)) idx)
          part := by
    unfold bundlePartCalls
    rw [List.getElem?_map, hpart]
    simp only [Option.map_some', huse, hnf, if_false]
  have hnext : binsBeginOf parts (parts.map (fun p => useForCalcScores p oneHotMaxSize))
      (idx + 1)
      = binsBeginOf parts (parts.map (fun p => useForCalcScores p oneHotMaxSize)) idx
        + (part.Bounds.End - part.Bounds.Begin + 1) := by
    rw [binsBeginOf_succ]
    unfold usedCandidateCount candidateCount
    rw [List.getElem?_map, hpart]
    simp only [Option.map_some', huse, hnf, if_false]
    rfl
  refine ⟨?_, hnext, ?_⟩
  · rw [hcalls]
    rfl
  · intro hsmall c hc heq
    obtain ⟨j, _, hcj⟩ := (mem_bundleLeafCalls stats indexer parts _ leaf c).mp hc
    have hb := bundlePartCalls_index_bounds stats indexer parts _ leaf j c hcj
    rcases Nat.lt_trichotomy j idx with hlt | rfl | hgt
    · have := binsBeginOf_mono parts (parts.map (fun p => useForCalcScores p oneHotMaxSize))
        (j + 1) idx (by omega)
      omega
    · rw [hcalls] at hcj
      unfold categoricalPartCalls at hcj
      have hs : ¬ part.Bounds.GetSize > 1 := by
        unfold TIndexRange.GetSize
        omega
      simp only [hs, if_false, List.nil_append, List.mem_map, List.mem_range] at hcj
      obtain ⟨k, _, rfl⟩ := hcj
      simp only at heq
      omega
    · have := binsBeginOf_mono parts (parts.map (fun p => useForCalcScores p oneHotMaxSize))
        (idx + 1) j (by omega)
      omega

theorem C12_bundle_categorical_candidates_witness :
    UpdateScores recordCall exampleBundleStats (1 : Nat) ⟨9⟩
        ⟨ESplitEnsembleType.ExclusiveBundle, ESplitType.FloatFeature, exampleBundleParts⟩ 3
        exampleUseForCalcScores (fun _ => 0) []
      = runCalls recordCall
          ((List.range 1).map (fun leaf =>
            ((List.range exampleBundleParts.length).map
              (bundlePartCalls exampleBundleStats ⟨9⟩ exampleBundleParts
                (exampleBundleParts.map (fun p => exampleUseForCalcScores p 3))
                leaf)).flatten)).flatten
          [] ∧
      (∀ leaf : Nat,
        ((((List.range exampleBundleParts.length).map
          (bundlePartCalls exampleBundleStats ⟨9⟩ exampleBundleParts
            (exampleBundleParts.map (fun p => exampleUseForCalcScores p 3)) leaf)).flatten).map
          (fun c => c.2.2)).Nodup) ∧
      ∀ (leaf idx : Nat) (part : TExclusiveBundlePart), exampleBundleParts[idx]? = some part →
        exampleUseForCalcScores part 3 = true →
        part.FeatureType = EFeatureType.Categorical →
        bundlePartCalls exampleBundleStats ⟨9⟩ exampleBundleParts
            (exampleBundleParts.map (fun p => exampleUseForCalcScores p 3)) leaf idx
          = (if part.Bounds.End - part.Bounds.Begin > 1 then
              [(bundleAllStats exampleBundleStats ⟨9⟩ exampleBundleParts leaf
                  - ∑ b ∈ Finset.Ico part.Bounds.Begin part.Bounds.End,
                      statOf exampleBundleStats ⟨9⟩ leaf b,
                ∑ b ∈ Finset.Ico part.Bounds.Begin part.Bounds.End,
                  statOf exampleBundleStats ⟨9⟩ leaf b,
                binsBeginOf exampleBundleParts
                  (exampleBundleParts.map (fun p => exampleUseForCalcScores p 3)) idx)]
            else [])
            ++ (List.range (part.Bounds.End - part.Bounds.Begin)).map (fun k =>
              (statOf exampleBundleStats ⟨9⟩ leaf (part.Bounds.Begin + k),
                bundleAllStats exampleBundleStats ⟨9⟩ exampleBundleParts leaf
                  - statOf exampleBundleStats ⟨9⟩ leaf (part.Bounds.Begin + k),
                binsBeginOf exampleBundleParts
                  (exampleBundleParts.map (fun p => exampleUseForCalcScores p 3)) idx
                  + 1 + k)) ∧
        binsBeginOf exampleBundleParts
            (exampleBundleParts.map (fun p => exampleUseForCalcScores p 3)) (idx + 1)
          = binsBeginOf exampleBundleParts
              (exampleBundleParts.map (fun p => exampleUseForCalcScores p 3)) idx
            + (part.Bounds.End - part.Bounds.Begin + 1) ∧
        (part.Bounds.End - part.Bounds.Begin ≤ 1 →
          ∀ c ∈ ((List.range exampleBundleParts.length).map
              (bundlePartCalls exampleBundleStats ⟨9⟩ exampleBundleParts
                (exampleBundleParts.map (fun p => exampleUseForCalcScores p 3)) leaf)).flatten,
            c.2.2 ≠ binsBeginOf exampleBundleParts
              (exampleBundleParts.map (fun p => exampleUseForCalcScores p 3)) idx) :=
  C12_bundle_categorical_candidates recordCall exampleBundleStats 1 ⟨9⟩
    ESplitType.FloatFeature exampleBundleParts 3 exampleUseForCalcScores (fun _ => 0) []
    (fun leaf hl => by
      interval_cases leaf
      rfl)
    (fun leaf hl part hp b _ hb => by
      have hE : ∀ p ∈ exampleBundleParts, p.Bounds.End ≤ 8 := by decide
      have hb8 : b < 8 := Nat.lt_of_lt_of_le hb (hE part hp)
      interval_cases leaf
      interval_cases b <;> rfl)
    (by decide)

/-! ## C13: the two sides of every candidate add up to the leaf total -/

theorem leafCalls_sum (stats : List TBucketStats) (indexer : TStatsIndexer) (B : Nat)
    (splitEnsembleSpec : TSplitEnsembleSpec) (use : List Bool) (bitCount : Nat) (leaf : Nat)
    (c : TBucketStats × TBucketStats × Nat)
    (hc : c ∈ leafCalls stats indexer B splitEnsembleSpec use bitCount leaf) :
    c.1 + c.2.1 = leafTotal stats indexer B splitEnsembleSpec leaf := by
  obtain ⟨kind, splitType, parts⟩ := splitEnsembleSpec
  cases kind with
  | OneFeature =>
    simp only [leafCalls, leafTotal] at hc ⊢
    by_cases h1 : splitType = ESplitType.OneHotFeature
    · simp only [h1, if_true, List.mem_map, List.mem_range] at hc
      obtain ⟨i, _, rfl⟩ := hc
      simp only [add_sub_cancel]
    · simp only [h1, if_false, List.mem_map, List.mem_range] at hc
      obtain ⟨i, hi, rfl⟩ := hc
      simp only
      rw [add_comm]
      exact Finset.sum_range_add_sum_Ico _ (by omega)
  | BinarySplits =>
    simp only [leafCalls, leafTotal, List.mem_map, List.mem_range] at hc ⊢
    obtain ⟨j, _, rfl⟩ := hc
    exact Finset.sum_filter_add_sum_filter_not _ _ _
  | ExclusiveBundle =>
    simp only [leafCalls, leafTotal] at hc ⊢
    obtain ⟨idx, _, hcj⟩ := (mem_bundleLeafCalls stats indexer parts use leaf c).mp hc
    unfold bundlePartCalls at hcj
    cases hp : parts[idx]? with
    | none => simp [hp] at hcj
    | some part =>
      cases hu : use[idx]? with
      | none => simp [hp, hu] at hcj
      | some u =>
        cases u with
        | false => simp [hp, hu] at hcj
        | true =>
          simp only [hp, hu] at hcj
          by_cases hf : part.FeatureType = EFeatureType.Float
          · simp only [hf, if_true, floatPartCalls, List.mem_map, List.mem_range] at hcj
            obtain ⟨k, _, rfl⟩ := hcj
            simp only [add_sub_cancel]
          · simp only [hf, if_false, categoricalPartCalls, List.mem_append, List.mem_map,
              List.mem_range] at hcj
            rcases hcj with hcj | ⟨k, _, rfl⟩
            · by_cases h1 : part.Bounds.GetSize > 1
              · simp only [h1, if_true, List.mem_singleton] at hcj
                rw [hcj]
                simp only [sub_add_cancel]
              · simp [h1] at hcj
            · simp only [add_sub_cancel]

/-- C13: for every ensemble kind (Float/OnlineCtr, OneHot, BinaryPack, ExclusiveBundle),
`UpdateScores` makes exactly the calls `leafCalls` of every leaf `< leafCount`, and every
such call has `trueStats + falseStats` equal to the total statistics of the leaf
(`leafTotal`: the sum over all buckets of the leaf, for a bundle the absent bucket plus all
parts' buckets), field by field; in particular `trueStats.SumWeight + falseStats.SumWeight
= total.SumWeight`.  Exact in rational arithmetic.  (All reads `stats[index(leaf, b)]`,
`leaf < leafCount`, `b < bucketCount`, are inside the array; the parts of a bundle lie
inside the `bucketCount ≥ 1` buckets and its used categorical parts pass the assertion
`size + 1 ≤ oneHotMaxSize`.) -/
theorem C13_true_plus_false_eq_total {σ : Type}
    (closure : σ → TBucketStats → TBucketStats → Nat → Option σ) (stats : List TBucketStats)
    (L B : Nat) (indexer : TStatsIndexer) (splitEnsembleSpec : TSplitEnsembleSpec)
    (oneHotMaxSize : Nat) (useForCalcScores : TExclusiveBundlePart → Nat → Bool)
    (getValueBitCount : Int → Nat) (st : σ) (hB : indexer.BucketCount = (B : Int))
    (hin : ∀ leaf b : Nat, leaf < L → b < B →
      (statsAt stats (indexer.GetIndex leaf b)).isSome = true)
    (hbundle : splitEnsembleSpec.EnsembleType = ESplitEnsembleType.ExclusiveBundle →
      1 ≤ B ∧ (∀ part ∈ splitEnsembleSpec.Parts, part.Bounds.End ≤ B) ∧
      ∀ part ∈ splitEnsembleSpec.Parts, useForCalcScores part oneHotMaxSize = true →
        part.FeatureType = EFeatureType.Categorical →
        part.Bounds.GetSize + 1 ≤ oneHotMaxSize) :
    UpdateScores closure stats (L : Int) indexer splitEnsembleSpec oneHotMaxSize
        useForCalcScores getValueBitCount st
      = runCalls closure
          ((List.range L).map (leafCalls stats indexer B splitEnsembleSpec
            (splitEnsembleSpec.Parts.map (fun p => useForCalcScores p oneHotMaxSize))
            (getValueBitCount (indexer.BucketCount - 1)))).flatten st ∧
      ∀ leaf : Nat, ∀ c ∈ leafCalls stats indexer B splitEnsembleSpec
          (splitEnsembleSpec.Parts.map (fun p => useForCalcScores p oneHotMaxSize))
          (getValueBitCount (indexer.BucketCount - 1)) leaf,
        c.1 + c.2.1 = leafTotal stats indexer B splitEnsembleSpec leaf ∧
        c.1.SumWeight + c.2.1.SumWeight
          = (leafTotal stats indexer B splitEnsembleSpec leaf).SumWeight := by
  refine ⟨?_, fun leaf c hc => ?_⟩
  · obtain ⟨kind, splitType, parts⟩ := splitEnsembleSpec
    cases kind with
    | OneFeature =>
      unfold UpdateScores
      simp only [Int.toNat_natCast]
      refine foldlM_leaves closure _ _ L st (fun leaf st2 hl => ?_)
      simp only [leafCalls]
      by_cases h1 : splitType = ESplitType.OneHotFeature
      · subst h1
        simp only [if_true]
        exact oneFeature_oneHot_leaf closure stats indexer B leaf st2 hB
          (fun b hb => hin leaf b hl hb)
      · simp only [h1, if_false]
        refine oneFeature_float_leaf closure stats indexer B splitType leaf st2 hB ?_
          (fun b hb => hin leaf b hl hb)
        cases splitType with
        | FloatFeature => exact Or.inl rfl
        | OnlineCtr => exact Or.inr rfl
        | OneHotFeature => exact absurd rfl h1
    | BinarySplits =>
      unfold UpdateScores
      simp only [Int.toNat_natCast]
      refine foldlM_leaves closure _ _ L st (fun leaf st2 hl => ?_)
      simp only [leafCalls]
      exact binarySplits_leaf closure stats indexer B _ leaf st2 hB
        (fun b hb => hin leaf b hl hb)
    | ExclusiveBundle =>
      obtain ⟨h1, hE, hcat⟩ := hbundle rfl
      have hcast : indexer.BucketCount - 1 = ((B - 1 : Nat) : Int) := by
        rw [hB]
        omega
      have h := UpdateScores_bundle closure stats L indexer splitType parts oneHotMaxSize
        useForCalcScores getValueBitCount st
        (fun leaf hl => by
          rw [hcast]
          exact hin leaf (B - 1) hl (by omega))
        (fun leaf hl part hp b _ hb => hin leaf b hl (Nat.lt_of_lt_of_le hb (hE part hp)))
        hcat
      rw [h]
      rfl
  · have h := leafCalls_sum stats indexer B splitEnsembleSpec _ _ leaf c hc
    refine ⟨h, ?_⟩
    rw [← h]
    rfl

theorem C13_true_plus_false_eq_total_witness :
    UpdateScores recordCall exampleBundleStats (1 : Nat) ⟨9⟩
        ⟨ESplitEnsembleType.ExclusiveBundle, ESplitType.FloatFeature, exampleBundleParts⟩ 3
        exampleUseForCalcScores (fun _ => 0) []
      = runCalls recordCall
          ((List.range 1).map (leafCalls exampleBundleStats ⟨9⟩ 9
            ⟨ESplitEnsembleType.ExclusiveBundle, ESplitType.FloatFeature, exampleBundleParts⟩
            (exampleBundleParts.map (fun p => exampleUseForCalcScores p 3))
            ((fun _ => 0) ((TStatsIndexer.mk 9).BucketCount - 1)))).flatten [] ∧
      ∀ leaf : Nat, ∀ c ∈ leafCalls exampleBundleStats ⟨9⟩ 9
          ⟨ESplitEnsembleType.ExclusiveBundle, ESplitType.FloatFeature, exampleBundleParts⟩
          (exampleBundleParts.map (fun p => exampleUseForCalcScores p 3))
          ((fun _ => 0) ((TStatsIndexer.mk 9).BucketCount - 1)) leaf,
        c.1 + c.2.1 = leafTotal exampleBundleStats ⟨9⟩ 9
          ⟨ESplitEnsembleType.ExclusiveBundle, ESplitType.FloatFeature, exampleBundleParts⟩
          leaf ∧
        c.1.SumWeight + c.2.1.SumWeight
          = (leafTotal exampleBundleStats ⟨9⟩ 9
              ⟨ESplitEnsembleType.ExclusiveBundle, ESplitType.FloatFeature,
                exampleBundleParts⟩ leaf).SumWeight :=
  C13_true_plus_false_eq_total recordCall exampleBundleStats 1 9 ⟨9⟩
    ⟨ESplitEnsembleType.ExclusiveBundle, ESplitType.FloatFeature, exampleBundleParts⟩ 3
    exampleUseForCalcScores (fun _ => 0) [] rfl
    (fun leaf b hl hb => by
      interval_cases leaf
      interval_cases b <;> rfl)
    (fun _ => ⟨by decide, by decide, by decide⟩)

/-! ## `SetSingleIndex`: the stores of the three regimes -/

/-- A loop that stores one value per document of a range. -/
theorem store_loop_spec (f : Nat → List Nat → Option (List Nat)) (v : Nat → Nat) :
    ∀ (n b : Nat) (s : List Nat), (n ≠ 0 → b + n ≤ s.length) →
      (∀ doc (t : List Nat), b ≤ doc → doc < b + n → doc < t.length →
        f doc t = some (t.set doc (v doc))) →
      ∃ out, (List.range' b n).foldlM (fun t doc => f doc t) s = some out ∧
        out.length = s.length ∧
        ∀ i, out[i]? = if b ≤ i ∧ i < b + n then some (v i) else s[i]? := by
  intro n
  induction n with
  | zero =>
    intro b s _ _
    exact ⟨s, rfl, rfl, fun i => by rw [if_neg (by omega)]⟩
  | succ n ih =>
    intro b s hlen hf
    have hl := hlen (by omega)
    obtain ⟨out, h1, h2, h3⟩ := ih (b + 1) (s.set b (v b))
      (fun _ => by rw [List.length_set]; omega)
      (fun doc t h4 h5 h6 => hf doc t (by omega) (by omega) h6)
    refine ⟨out, ?_, ?_, ?_⟩
    · rw [List.range'_succ, List.foldlM_cons, hf b s (by omega) (by omega) (by omega)]
      exact h1
    · rw [h2, List.length_set]
    · intro i
      rw [h3 i]
      by_cases hi : i = b
      · subst hi
        rw [if_neg (by omega), if_pos (by omega), List.getElem?_set_self (by omega)]
      · rw [List.getElem?_set_ne (by omega)]
        by_cases h4 : b + 1 ≤ i ∧ i < b + 1 + n
        · rw [if_pos h4, if_pos (by omega)]
        · rw [if_neg h4, if_neg (by omega)]

theorem setSingleIdxAt_eq (width : Nat) (indexer : TStatsIndexer) (indices : List Nat)
    (bucketIndex : List Nat) (doc orig : Nat) (t : List Nat)
    (hleaf : doc < indices.length) (hbucket : orig < bucketIndex.length)
    (hdoc : doc < t.length) :
    setSingleIdxAt width indexer (GetDataPtr indices) bucketIndex doc orig t
      = some (t.set doc (toFullIndexType width
          (indexer.GetIndex (indices.getD doc 0) (bucketIndex.getD orig 0)))) := by
  unfold setSingleIdxAt
  rw [readAt_GetDataPtr, List.getElem?_eq_getElem hleaf, List.getElem?_eq_getElem hbucket]
  simp only [Option.bind_eq_bind, Option.some_bind, if_pos hdoc, Option.pure_def,
    List.getD_eq_getElem?_getD, List.getElem?_eq_getElem hleaf,
    List.getElem?_eq_getElem hbucket, Option.getD_some]

theorem toFullIndexType_of_fits (width : Nat) (x : Int) (h0 : 0 ≤ x) (h1 : x < 2 ^ width) :
    toFullIndexType width x = x.toNat := by
  unfold toFullIndexType
  rw [Int.emod_eq_of_lt h0 h1]

/-- The two loops of `SetSingleIndex` that take one original document per document (no
permutation, arbitrary permutation). -/
theorem SetSingleIndex_direct (width : Nat) (fold : TCalcScoreFold) (indexer : TStatsIndexer)
    (bucketIndex : List Nat) (bucketIndexing : Option (List Nat))
    (bucketBeginOffset permBlockSize : Nat) (docIndexRange : TIndexRange) (singleIdx : List Nat)
    (hregime : bucketIndexing = none ∨ permBlockSize ≤ 1)
    (hsize : docIndexRange.End ≤ singleIdx.length)
    (hleaf : docIndexRange.End ≤ fold.Indices.length)
    (hperm : ∀ indexing, bucketIndexing = some indexing → docIndexRange.End ≤ indexing.length)
    (hbucket : ∀ doc, docIndexRange.Begin ≤ doc → doc < docIndexRange.End →
      originalDoc bucketIndexing bucketBeginOffset doc < bucketIndex.length) :
    ∃ out, SetSingleIndex width fold indexer bucketIndex bucketIndexing bucketBeginOffset
        permBlockSize docIndexRange singleIdx = some out ∧
      out.length = singleIdx.length ∧
      ∀ doc, out[doc]? =
        if docIndexRange.Begin ≤ doc ∧ doc < docIndexRange.End then
          some (toFullIndexType width (indexer.GetIndex (fold.Indices.getD doc 0)
            (bucketIndex.getD (originalDoc bucketIndexing bucketBeginOffset doc) 0)))
        else singleIdx[doc]? := by
  have hspec := store_loop_spec
    (fun doc t => match bucketIndexing with
      | none => setSingleIdxAt width indexer (GetDataPtr fold.Indices) bucketIndex doc
          (bucketBeginOffset + doc) t
      | some indexing => (indexing[doc]?).bind (fun originalDocIdx =>
          setSingleIdxAt width indexer (GetDataPtr fold.Indices) bucketIndex doc
            originalDocIdx t))
    (fun doc => toFullIndexType width (indexer.GetIndex (fold.Indices.getD doc 0)
      (bucketIndex.getD (originalDoc bucketIndexing bucketBeginOffset doc) 0)))
    (docIndexRange.End - docIndexRange.Begin) docIndexRange.Begin singleIdx
    (fun h => by omega)
    (fun doc t h1 h2 h3 => by
      have hb := hbucket doc h1 (by omega)
      cases bucketIndexing with
      | none =>
        simp only [originalDoc] at hb ⊢
        exact setSingleIdxAt_eq width indexer fold.Indices bucketIndex doc _ t (by omega)
          hb h3
      | some indexing =>
        have hp := hperm indexing rfl
        have hd : doc < indexing.length := by omega
        have hq : indexing[doc]? = some indexing[doc] := List.getElem?_eq_getElem hd
        have he : indexing.getD doc 0 = indexing[doc] := by
          rw [List.getD_eq_getElem?_getD, hq, Option.getD_some]
        simp only [originalDoc, he, hq, Option.some_bind] at hb ⊢
        exact setSingleIdxAt_eq width indexer fold.Indices bucketIndex doc _ t (by omega)
          hb h3)
  obtain ⟨out, h1, h2, h3⟩ := hspec
  refine ⟨out, ?_, h2, fun doc => ?_⟩
  · rw [← h1]
    unfold SetSingleIndex TIndexRange.Iter
    cases bucketIndexing with
    | none => rfl
    | some indexing =>
      have hp : ¬ permBlockSize > 1 := by
        rcases hregime with h | h
        · exact absurd h (by simp)
        · omega
      simp only [hp, if_false]
      rfl
  · rw [h3 doc]
    by_cases hd : docIndexRange.Begin ≤ doc ∧ doc < docIndexRange.End
    · rw [if_pos hd, if_pos (by omega)]
    · rw [if_neg hd, if_neg (by omega)]

theorem foldlM_congr_mem {α β : Type} (f g : β → α → Option β) :
    ∀ (l : List α) (s : β), (∀ x ∈ l, ∀ t, f t x = g t x) → l.foldlM f s = l.foldlM g s := by
  intro l
  induction l with
  | nil =>
    intro s _
    rfl
  | cons x rest ih =>
    intro s h
    rw [List.foldlM_cons, List.foldlM_cons, h x (List.mem_cons_self _ _) s]
    cases g s x with
    | none => rfl
    | some t => exact ih t (fun y hy => h y (List.mem_cons_of_mem _ hy))

theorem blockLoop_done (width : Nat) (indexer : TStatsIndexer) (indices : Option (List Nat))
    (bucketIndex bucketIndexing : List Nat) (docCount permBlockSize blockCount rangeEnd : Nat)
    (fuel blockStart : Nat) (s : List Nat) (h : ¬ blockStart < rangeEnd) :
    blockLoop width indexer indices bucketIndex bucketIndexing docCount permBlockSize
      blockCount rangeEnd fuel blockStart s = some s := by
  cases fuel with
  | zero =>
    unfold blockLoop
    rw [if_neg h]
  | succ fuel =>
    unfold blockLoop
    rw [if_neg h]

/-- The length of the block the loop steps over is the length of the original block. -/
theorem block_length (docCount B j : Nat) (hB : 0 < B) (hj : j * B < docCount) :
    (if j + 1 = (docCount + B - 1) / B then docCount - j * B else B)
      = min B (docCount - j * B) := by
  have hdm := Nat.div_add_mod (docCount + B - 1) B
  have hmod := Nat.mod_lt (docCount + B - 1) hB
  have hmul : B * ((docCount + B - 1) / B) = ((docCount + B - 1) / B) * B := Nat.mul_comm _ _
  have hsucc : (j + 1) * B = j * B + B := by ring
  by_cases h : j + 1 = (docCount + B - 1) / B
  · rw [if_pos h]
    rw [← h] at hdm hmul
    omega
  · rw [if_neg h]
    have hlt : j < (docCount + B - 1) / B := by
      by_contra hge
      have := Nat.mul_le_mul_right B (Nat.le_of_not_lt hge)
      omega
    have hle : (j + 1) * B ≤ ((docCount + B - 1) / B - 1) * B :=
      Nat.mul_le_mul_right B (by omega)
    have hsub : ((docCount + B - 1) / B - 1) * B = ((docCount + B - 1) / B) * B - B := by
      rw [Nat.sub_mul, Nat.one_mul]
    omega

theorem originalBlock_length (docCount B j : Nat) :
    (originalBlock docCount B j).length = min B (docCount - j * B) := by
  unfold originalBlock
  rw [List.length_range']

/-- Inside a block the permutation counts upwards from the first document of the block. -/
theorem getElem?_in_block (docCount B j : Nat) (pre tail : List Nat) (doc : Nat)
    (h1 : pre.length ≤ doc) (h2 : doc < pre.length + min B (docCount - j * B)) :
    (pre ++ (originalBlock docCount B j ++ tail))[doc]? = some (j * B + (doc - pre.length)) := by
  rw [List.getElem?_append_right h1, List.getElem?_append_left
    (by rw [originalBlock_length]; omega)]
  unfold originalBlock
  rw [List.getElem?_range' _ _ (by omega)]
  simp

/-- The block-stepping loop, started at a block boundary, makes the stores of the
arbitrary-permutation loop. -/
theorem blockLoop_eq (width : Nat) (indexer : TStatsIndexer) (indices : Option (List Nat))
    (bucketIndex bucketIndexing : List Nat) (docCount B rangeEnd : Nat) (hB : 0 < B) :
    ∀ (order pre : List Nat) (fuel : Nat) (s : List Nat),
      (∀ j ∈ order, j * B < docCount) →
      bucketIndexing = pre ++ blockPermutation docCount B order →
      rangeEnd ≤ bucketIndexing.length → rangeEnd - pre.length ≤ fuel →
      blockLoop width indexer indices bucketIndex bucketIndexing docCount B
          ((docCount + B - 1) / B) rangeEnd fuel pre.length s
        = (List.range' pre.length (rangeEnd - pre.length)).foldlM (fun singleIdx doc =>
            (bucketIndexing[doc]?).bind (fun originalDocIdx =>
              setSingleIdxAt width indexer indices bucketIndex doc originalDocIdx singleIdx))
            s := by
  intro order
  induction order with
  | nil =>
    intro pre fuel s _ hperm hend _
    have hlen : bucketIndexing.length = pre.length := by
      rw [hperm]
      simp [blockPermutation]
    rw [blockLoop_done _ _ _ _ _ _ _ _ _ _ _ _ (by omega),
      show rangeEnd - pre.length = 0 by omega]
    rfl
  | cons j rest ih =>
    intro pre fuel s hord hperm hend hfuel
    by_cases hlt : pre.length < rangeEnd
    · have hj := hord j (List.mem_cons_self _ _)
      have hpermc : bucketIndexing
          = pre ++ (originalBlock docCount B j ++ blockPermutation docCount B rest) := by
        rw [hperm]
        simp [blockPermutation]
      have hblk := block_length docCount B j hB hj
      have hlen1 : 1 ≤ min B (docCount - j * B) := by omega
      have hfirst : bucketIndexing[pre.length]? = some (j * B) := by
        rw [hpermc, getElem?_in_block docCount B j pre _ pre.length (le_refl _) (by omega)]
        simp
      obtain ⟨f, rfl⟩ : ∃ f, fuel = f + 1 := ⟨fuel - 1, by omega⟩
      unfold blockLoop
      rw [if_pos hlt, hfirst]
      simp only [Option.bind_eq_bind, Option.some_bind, Nat.mul_div_cancel _ hB, hblk]
      have hnext : pre.length ≤ min (pre.length + min B (docCount - j * B)) rangeEnd := by
        omega
      have hsplit : List.range' pre.length (rangeEnd - pre.length)
          = List.range' pre.length
              (min (pre.length + min B (docCount - j * B)) rangeEnd - pre.length)
            ++ List.range' (min (pre.length + min B (docCount - j * B)) rangeEnd)
              (rangeEnd - min (pre.length + min B (docCount - j * B)) rangeEnd) := by
        have h := List.range'_append pre.length
          (min (pre.length + min B (docCount - j * B)) rangeEnd - pre.length)
          (rangeEnd - min (pre.length + min B (docCount - j * B)) rangeEnd) 1
        simp only [Nat.one_mul] at h
        rw [show pre.length
            + (min (pre.length + min B (docCount - j * B)) rangeEnd - pre.length)
            = min (pre.length + min B (docCount - j * B)) rangeEnd by omega] at h
        rw [h]
        congr 1
        omega
      rw [hsplit, List.foldlM_append]
      have hinner : (List.range' pre.length
            (min (pre.length + min B (docCount - j * B)) rangeEnd - pre.length)).foldlM
            (fun singleIdx doc =>
              setSingleIdxAt width indexer indices bucketIndex doc
                (j * B + doc - pre.length) singleIdx) s
          = (List.range' pre.length
            (min (pre.length + min B (docCount - j * B)) rangeEnd - pre.length)).foldlM
            (fun singleIdx doc =>
              (bucketIndexing[doc]?).bind (fun originalDocIdx =>
                setSingleIdxAt width indexer indices bucketIndex doc originalDocIdx singleIdx))
            s := by
        refine foldlM_congr_mem _ _ _ s (fun doc hdoc t => ?_)
        have hm := List.mem_range'_1.mp hdoc
        have hread : bucketIndexing[doc]? = some (j * B + (doc - pre.length)) := by
          rw [hpermc]
          exact getElem?_in_block docCount B j pre _ doc hm.1 (by omega)
        rw [hread, Option.some_bind, show j * B + doc - pre.length
          = j * B + (doc - pre.length) by omega]
      rw [hinner]
      cases (List.range' pre.length
            (min (pre.length + min B (docCount - j * B)) rangeEnd - pre.length)).foldlM
            (fun singleIdx doc =>
              (bucketIndexing[doc]?).bind (fun originalDocIdx =>
                setSingleIdxAt width indexer indices bucketIndex doc originalDocIdx singleIdx))
            s with
      | none => rfl
      | some s2 =>
        simp only [Option.some_bind, bind, Option.bind]
        by_cases hfull : pre.length + min B (docCount - j * B) ≤ rangeEnd
        · have hmin : min (pre.length + min B (docCount - j * B)) rangeEnd
              = (pre ++ originalBlock docCount B j).length := by
            rw [List.length_append, originalBlock_length]
            omega
          rw [hmin]
          refine ih (pre ++ originalBlock docCount B j) f s2
            (fun i hi => hord i (List.mem_cons_of_mem _ hi)) ?_ hend ?_
          · rw [hpermc, List.append_assoc]
          · rw [List.length_append, originalBlock_length]
            omega
        · have hmin : min (pre.length + min B (docCount - j * B)) rangeEnd = rangeEnd := by
            omega
          rw [hmin, blockLoop_done _ _ _ _ _ _ _ _ _ _ _ _ (by omega), Nat.sub_self]
          rfl
    · rw [blockLoop_done _ _ _ _ _ _ _ _ _ _ _ _ hlt,
        show rangeEnd - pre.length = 0 by omega]
      rfl

theorem blockPermutation_take_drop (docCount B : Nat) (order : List Nat) (t : Nat) :
    blockPermutation docCount B order
      = blockPermutation docCount B (order.take t)
        ++ blockPermutation docCount B (order.drop t) := by
  unfold blockPermutation
  rw [← List.flatten_append, ← List.map_append, List.take_append_drop]

/-- The assertion of the block-permutation branch holds for a block permutation. -/
theorem block_assertion (docCount B : Nat) (order : List Nat) (hB : 1 < B)
    (hne : order ≠ []) (hord : ∀ j ∈ order, j * B < docCount) :
    ∃ first, (blockPermutation docCount B order)[0]? = some first ∧
      (if first / B + 1 = (docCount + B - 1) / B then some true
        else ((blockPermutation docCount B order)[B - 1]?).map
          (fun last => decide (first + B - 1 = last))) = some true := by
  cases order with
  | nil => exact absurd rfl hne
  | cons j rest =>
    have hj := hord j (List.mem_cons_self _ _)
    have hblk := block_length docCount B j (by omega) hj
    have hperm : blockPermutation docCount B (j :: rest)
        = [] ++ (originalBlock docCount B j ++ blockPermutation docCount B rest) := by
      simp [blockPermutation]
    refine ⟨j * B, ?_, ?_⟩
    · rw [hperm, getElem?_in_block docCount B j [] _ 0 (Nat.zero_le _)
        (by simp only [List.length_nil]; omega)]
      simp
    · rw [Nat.mul_div_cancel _ (by omega : 0 < B)]
      by_cases h : j + 1 = (docCount + B - 1) / B
      · rw [if_pos h]
      · rw [if_neg h] at hblk
        rw [if_neg h, hperm, getElem?_in_block docCount B j [] _ (B - 1) (Nat.zero_le _)
          (by simp only [List.length_nil]; omega)]
        simp only [List.length_nil, Nat.sub_zero, Option.map_some', Option.some.injEq,
          decide_eq_true_eq]
        omega

/-- C16: composite index assignment.  In the no-permutation regime (`bucketIndexing ==
nullptr`) and in the arbitrary-permutation regime (`permBlockSize <= 1`), `SetSingleIndex`
returns, and for every document `doc` of the range it has stored `singleIdx[doc] =
GetIndex(leaf[doc], bucket[orig(doc)])`, where `orig(doc) = bucketBeginOffset + doc`
without a permutation and `orig(doc) = bucketIndexing[doc]` with one (`originalDoc`); the
entries of `singleIdx` outside the range are unchanged.  (The range lies inside
`singleIdx`, `fold.Indices` and `bucketIndexing`, every `orig(doc)` lies inside the bucket
column, and every index fits the `width` bits of the index type.) -/
theorem C16_SetSingleIndex_assignment (width : Nat) (fold : TCalcScoreFold)
    (indexer : TStatsIndexer) (bucketIndex : List Nat) (bucketIndexing : Option (List Nat))
    (bucketBeginOffset permBlockSize : Nat) (docIndexRange : TIndexRange) (singleIdx : List Nat)
    (hregime : bucketIndexing = none ∨ permBlockSize ≤ 1)
    (hsize : docIndexRange.End ≤ singleIdx.length)
    (hleaf : docIndexRange.End ≤ fold.Indices.length)
    (hperm : ∀ indexing, bucketIndexing = some indexing → docIndexRange.End ≤ indexing.length)
    (hbucket : ∀ doc, docIndexRange.Begin ≤ doc → doc < docIndexRange.End →
      originalDoc bucketIndexing bucketBeginOffset doc < bucketIndex.length)
    (hfit : ∀ doc, docIndexRange.Begin ≤ doc → doc < docIndexRange.End →
      0 ≤ indexer.GetIndex (fold.Indices.getD doc 0)
          (bucketIndex.getD (originalDoc bucketIndexing bucketBeginOffset doc) 0) ∧
      indexer.GetIndex (fold.Indices.getD doc 0)
          (bucketIndex.getD (originalDoc bucketIndexing bucketBeginOffset doc) 0)
        < 2 ^ width) :
    ∃ out, SetSingleIndex width fold indexer bucketIndex bucketIndexing bucketBeginOffset
        permBlockSize docIndexRange singleIdx = some out ∧
      out.length = singleIdx.length ∧
      (∀ doc, docIndexRange.Begin ≤ doc → doc < docIndexRange.End →
        ∃ v : Nat, out[doc]? = some v ∧
          (v : Int) = indexer.GetIndex (fold.Indices.getD doc 0)
            (bucketIndex.getD (originalDoc bucketIndexing bucketBeginOffset doc) 0)) ∧
      ∀ doc, ¬ (docIndexRange.Begin ≤ doc ∧ doc < docIndexRange.End) →
        out[doc]? = singleIdx[doc]? := by
  obtain ⟨out, h1, h2, h3⟩ := SetSingleIndex_direct width fold indexer bucketIndex
    bucketIndexing bucketBeginOffset permBlockSize docIndexRange singleIdx hregime hsize hleaf
    hperm hbucket
  refine ⟨out, h1, h2, fun doc hb he => ?_, fun doc hd => ?_⟩
  · refine ⟨toFullIndexType width (indexer.GetIndex (fold.Indices.getD doc 0)
      (bucketIndex.getD (originalDoc bucketIndexing bucketBeginOffset doc) 0)), ?_, ?_⟩
    · rw [h3 doc, if_pos ⟨hb, he⟩]
    · rw [toFullIndexType_of_fits width _ (hfit doc hb he).1 (hfit doc hb he).2]
      exact Int.toNat_of_nonneg (hfit doc hb he).1
  · rw [h3 doc, if_neg hd]

theorem C16_SetSingleIndex_assignment_witness :
    ∃ out, SetSingleIndex 8 exampleBlockFold ⟨3⟩ exampleBlockBuckets (some [2, 0, 3, 1, 4]) 0
        1 ⟨1, 4⟩ [9, 9, 9, 9, 9] = some out ∧
      out.length = [9, 9, 9, 9, 9].length ∧
      (∀ doc, (TIndexRange.mk 1 4).Begin ≤ doc → doc < (TIndexRange.mk 1 4).End →
        ∃ v : Nat, out[doc]? = some v ∧
          (v : Int) = (TStatsIndexer.mk 3).GetIndex (exampleBlockFold.Indices.getD doc 0)
            (exampleBlockBuckets.getD (originalDoc (some [2, 0, 3, 1, 4]) 0 doc) 0)) ∧
      ∀ doc, ¬ ((TIndexRange.mk 1 4).Begin ≤ doc ∧ doc < (TIndexRange.mk 1 4).End) →
        out[doc]? = [9, 9, 9, 9, 9][doc]? :=
  C16_SetSingleIndex_assignment 8 exampleBlockFold ⟨3⟩ exampleBlockBuckets
    (some [2, 0, 3, 1, 4]) 0 1 ⟨1, 4⟩ [9, 9, 9, 9, 9] (Or.inr (by decide)) (by decide)
    (by decide)
    (fun indexing h => by
      rw [← Option.some.inj h]
      decide)
    (fun doc h1 h2 => by
      simp only at h1 h2
      interval_cases doc <;> decide)
    (fun doc h1 h2 => by
      simp only at h1 h2
      interval_cases doc <;> decide)

/-- The block-arithmetic branch of `SetSingleIndex` on a block permutation equals the
arbitrary-permutation branch. -/
theorem SetSingleIndex_block_eq (width : Nat) (fold : TCalcScoreFold)
    (indexer : TStatsIndexer) (bucketIndex : List Nat) (bucketBeginOffset B : Nat)
    (docIndexRange : TIndexRange) (singleIdx : List Nat) (order : List Nat) (t : Nat)
    (hB : 1 < B) (hne : order ≠ []) (hord : ∀ j ∈ order, j * B < fold.DocCount)
    (hbegin : docIndexRange.Begin = (blockPermutation fold.DocCount B (order.take t)).length)
    (hend : docIndexRange.End ≤ (blockPermutation fold.DocCount B order).length) :
    SetSingleIndex width fold indexer bucketIndex
        (some (blockPermutation fold.DocCount B order)) bucketBeginOffset B docIndexRange
        singleIdx
      = SetSingleIndex width fold indexer bucketIndex
          (some (blockPermutation fold.DocCount B order)) bucketBeginOffset 1 docIndexRange
          singleIdx := by
  obtain ⟨first, hfirst, hassert⟩ := block_assertion fold.DocCount B order hB hne hord
  have hloop := blockLoop_eq width indexer (GetDataPtr fold.Indices) bucketIndex
    (blockPermutation fold.DocCount B order) fold.DocCount B docIndexRange.End (by omega)
    (order.drop t) (blockPermutation fold.DocCount B (order.take t))
    (docIndexRange.End - docIndexRange.Begin) singleIdx
    (fun j hj => hord j (List.mem_of_mem_drop hj))
    (blockPermutation_take_drop fold.DocCount B order t) hend (by omega)
  rw [← hbegin] at hloop
  unfold SetSingleIndex
  simp only [gt_iff_lt, hB, if_true, hfirst, Option.bind_eq_bind, Option.some_bind, hassert,
    hloop, Nat.lt_irrefl, if_false]
  rfl

/-- C17: the block-permutation regime equals indirect lookup.  Let `bucketIndexing` be a
block permutation: the blocks `[j*B, min((j+1)*B, docCount))` of the original order, `B =
permBlockSize > 1`, concatenated in the order `order` (every `j` of `order` is a block of
the `docCount` documents; the short last block may stand anywhere).  If the document range
begins where a block of the order begins (after the first `t` blocks) and ends anywhere
inside the permutation, the block-arithmetic branch of `SetSingleIndex` returns what the
arbitrary-permutation branch (`permBlockSize = 1`) returns; and when the range lies inside
`singleIdx` and `fold.Indices` and the permutation points inside the bucket column, both
return, having stored for every `doc` of the range the index `GetIndex(leaf[doc],
bucket[bucketIndexing[doc]])` (converted to the index type) and left the other entries
unchanged. -/
theorem C17_block_permutation_equivalence (width : Nat) (fold : TCalcScoreFold)
    (indexer : TStatsIndexer) (bucketIndex : List Nat) (bucketBeginOffset B : Nat)
    (docIndexRange : TIndexRange) (singleIdx : List Nat) (order : List Nat) (t : Nat)
    (hB : 1 < B) (hne : order ≠ []) (hord : ∀ j ∈ order, j * B < fold.DocCount)
    (hbegin : docIndexRange.Begin = (blockPermutation fold.DocCount B (order.take t)).length)
    (hend : docIndexRange.End ≤ (blockPermutation fold.DocCount B order).length)
    (hsize : docIndexRange.End ≤ singleIdx.length)
    (hleaf : docIndexRange.End ≤ fold.Indices.length)
    (hbucket : ∀ doc, docIndexRange.Begin ≤ doc → doc < docIndexRange.End →
      (blockPermutation fold.DocCount B order).getD doc 0 < bucketIndex.length) :
    SetSingleIndex width fold indexer bucketIndex
        (some (blockPermutation fold.DocCount B order)) bucketBeginOffset B docIndexRange
        singleIdx
      = SetSingleIndex width fold indexer bucketIndex
          (some (blockPermutation fold.DocCount B order)) bucketBeginOffset 1 docIndexRange
          singleIdx ∧
      ∃ out, SetSingleIndex width fold indexer bucketIndex
          (some (blockPermutation fold.DocCount B order)) bucketBeginOffset B docIndexRange
          singleIdx = some out ∧
        out.length = singleIdx.length ∧
        ∀ doc, out[doc]? =
          if docIndexRange.Begin ≤ doc ∧ doc < docIndexRange.End then
            some (toFullIndexType width (indexer.GetIndex (fold.Indices.getD doc 0)
              (bucketIndex.getD ((blockPermutation fold.DocCount B order).getD doc 0) 0)))
          else singleIdx[doc]? := by
  have heq := SetSingleIndex_block_eq width fold indexer bucketIndex bucketBeginOffset B
    docIndexRange singleIdx order t hB hne hord hbegin hend
  refine ⟨heq, ?_⟩
  rw [heq]
  exact SetSingleIndex_direct width fold indexer bucketIndex
    (some (blockPermutation fold.DocCount B order)) bucketBeginOffset 1 docIndexRange
    singleIdx (Or.inr (le_refl 1)) hsize hleaf
    (fun indexing h => by
      rw [← Option.some.inj h]
      exact hend)
    hbucket

theorem C17_block_permutation_equivalence_witness :
    SetSingleIndex 8 exampleBlockFold ⟨3⟩ exampleBlockBuckets
        (some (blockPermutation exampleBlockFold.DocCount 2 [1, 2, 0])) 0 2 ⟨2, 4⟩
        [9, 9, 9, 9, 9]
      = SetSingleIndex 8 exampleBlockFold ⟨3⟩ exampleBlockBuckets
          (some (blockPermutation exampleBlockFold.DocCount 2 [1, 2, 0])) 0 1 ⟨2, 4⟩
          [9, 9, 9, 9, 9] ∧
      ∃ out, SetSingleIndex 8 exampleBlockFold ⟨3⟩ exampleBlockBuckets
          (some (blockPermutation exampleBlockFold.DocCount 2 [1, 2, 0])) 0 2 ⟨2, 4⟩
          [9, 9, 9, 9, 9] = some out ∧
        out.length = [9, 9, 9, 9, 9].length ∧
        ∀ doc, out[doc]? =
          if (TIndexRange.mk 2 4).Begin ≤ doc ∧ doc < (TIndexRange.mk 2 4).End then
            some (toFullIndexType 8 ((TStatsIndexer.mk 3).GetIndex
              (exampleBlockFold.Indices.getD doc 0)
              (exampleBlockBuckets.getD
                ((blockPermutation exampleBlockFold.DocCount 2 [1, 2, 0]).getD doc 0) 0)))
          else [9, 9, 9, 9, 9][doc]? :=
  C17_block_permutation_equivalence 8 exampleBlockFold ⟨3⟩ exampleBlockBuckets 0 2 ⟨2, 4⟩
    [9, 9, 9, 9, 9] [1, 2, 0] 1 (by decide) (by decide) (by decide) (by decide) (by decide)
    (by decide) (by decide)
    (fun doc h1 h2 => by
      simp only at h1 h2
      interval_cases doc <;> decide)

/-! ## C14: the four-document scenario -/

/-- C14: the scenario `bucketCount = 3`, `depth = 1`, four documents with (weighted
derivative, weight) = (-1,1), (2,1), (0.5,1), (-0.5,1), buckets {0,1,2,1} and leaves
{0,0,1,1}.  The composite indices are 0, 1, 5, 4; plain-mode accumulation from scratch
(whatever the six slots held before) yields (SumWeightedDelta, SumWeight) per slot 0..5 =
(-1,1), (2,1), (0,0), (0,0), (-0.5,1), (0.5,1); and the Float candidates get, in this order,
leaf 0, candidate 0: true = (2,1), false = (-1,1); candidate 1: true = (0,0), false =
(1,2); leaf 1, candidate 0: true = (0,2), false = (0,0); candidate 1: true = (0.5,1),
false = (-0.5,1). -/
theorem C14_four_document_scenario (s0 s1 s2 s3 s4 s5 : TBucketStats) :
    BuildSingleIndex 8 exampleIndexedFold [0, 1, 2, 1] ⟨3⟩ ⟨0, 4⟩ [0, 0, 0, 0]
      = some [0, 1, 5, 4] ∧
    CalcStatsKernel false [0, 1, 5, 4] exampleIndexedFold true ⟨3⟩ 1 exampleBodyTail 0 ⟨0, 4⟩
        [s0, s1, s2, s3, s4, s5]
      = some [⟨-1, 1, 0, 0⟩, ⟨2, 1, 0, 0⟩, ⟨0, 0, 0, 0⟩, ⟨0, 0, 0, 0⟩, ⟨-1 / 2, 1, 0, 0⟩,
          ⟨1 / 2, 1, 0, 0⟩] ∧
    UpdateScores recordCall
        [⟨-1, 1, 0, 0⟩, ⟨2, 1, 0, 0⟩, ⟨0, 0, 0, 0⟩, ⟨0, 0, 0, 0⟩, ⟨-1 / 2, 1, 0, 0⟩,
          ⟨1 / 2, 1, 0, 0⟩]
        2 ⟨3⟩ ⟨ESplitEnsembleType.OneFeature, ESplitType.FloatFeature, []⟩ 0
        (fun _ _ => true) (fun _ => 0) []
      = some [(⟨2, 1, 0, 0⟩, ⟨-1, 1, 0, 0⟩, 0), (⟨0, 0, 0, 0⟩, ⟨1, 2, 0, 0⟩, 1),
          (⟨0, 2, 0, 0⟩, ⟨0, 0, 0, 0⟩, 0), (⟨1 / 2, 1, 0, 0⟩, ⟨-1 / 2, 1, 0, 0⟩, 1)] := by
  refine ⟨by decide, ?_, by with_unfolding_all decide⟩
  have hfill : Fill [s0, s1, s2, s3, s4, s5] 0 ((TStatsIndexer.mk 3).CalcSize 1) ⟨0, 0, 0, 0⟩
      = Fill exampleStats 0 ((TStatsIndexer.mk 3).CalcSize 1) ⟨0, 0, 0, 0⟩ := by
    have h1 : (TStatsIndexer.mk 3).CalcSize 1 = 6 := by decide
    rw [h1]
    rfl
  have hclosed : CalcStatsKernel false [0, 1, 5, 4] exampleIndexedFold true ⟨3⟩ 1
      exampleBodyTail 0 ⟨0, 4⟩ exampleStats
      = some [⟨-1, 1, 0, 0⟩, ⟨2, 1, 0, 0⟩, ⟨0, 0, 0, 0⟩, ⟨0, 0, 0, 0⟩, ⟨-1 / 2, 1, 0, 0⟩,
          ⟨1 / 2, 1, 0, 0⟩] := by
    with_unfolding_all decide
  rw [← hclosed]
  unfold CalcStatsKernel
  simp only [Bool.false_eq_true, false_and, if_false, hfill]

/-! ## C15: the algebra of `Add` and `Remove` -/

/-- C15: bucket-statistics accumulation algebra.  `Add` is commutative and associative
with the all-zero statistic as identity, and `Remove` is its inverse: for all statistics
`s` and `x`, `Remove(Add(s, x), x) = s` and `Add(Remove(s, x), x) = s`.  The equalities are
equalities of all four fields (`SumWeightedDelta`, `SumWeight`, `SumDelta`, `Count`), in
exact arithmetic. -/
theorem C15_add_remove_algebra :
    (∀ a b : TBucketStats, a.Add b = b.Add a) ∧
    (∀ a b c : TBucketStats, (a.Add b).Add c = a.Add (b.Add c)) ∧
    (∀ a : TBucketStats, a.Add ⟨0, 0, 0, 0⟩ = a ∧ (⟨0, 0, 0, 0⟩ : TBucketStats).Add a = a) ∧
    (∀ s x : TBucketStats, (s.Add x).Remove x = s) ∧
    (∀ s x : TBucketStats, (s.Remove x).Add x = s) ∧
    (∀ s x : TBucketStats,
      ((s.Add x).Remove x).SumWeightedDelta = s.SumWeightedDelta ∧
      ((s.Add x).Remove x).SumWeight = s.SumWeight ∧
      ((s.Add x).Remove x).SumDelta = s.SumDelta ∧
      ((s.Add x).Remove x).Count = s.Count) := by
  refine ⟨fun a b => ?_, fun a b c => ?_, fun a => ⟨?_, ?_⟩, fun s x => ?_, fun s x => ?_,
    fun s x => ?_⟩
  · simp only [TBucketStats.Add_eq]
    exact add_comm a b
  · simp only [TBucketStats.Add_eq]
    exact add_assoc a b c
  · simp only [TBucketStats.Add_eq, TBucketStats.mk_zero]
    exact add_zero a
  · simp only [TBucketStats.Add_eq, TBucketStats.mk_zero]
    exact zero_add a
  · simp only [TBucketStats.Add_eq, TBucketStats.Remove_eq]
    exact add_sub_cancel_right s x
  · simp only [TBucketStats.Add_eq, TBucketStats.Remove_eq]
    exact sub_add_cancel s x
  · simp [TBucketStats.Add, TBucketStats.Remove]

/-! ## C19: what `CalcStatsKernel` clears -/

/-- C19: clearing policy.  Before accumulating, `CalcStatsKernel` replaces the statistics
array by the array `cleared`: with `isCaching = false` every slot in `[0, CalcSize(depth))`
is the zero statistic; with `isCaching = true` (`depth > 0`) exactly the slots in
`[CalcSize(depth-1), CalcSize(depth))` are zeroed and the slots in `[0, CalcSize(depth-1))`
keep their previous values; in both cases the slots at or above `CalcSize(depth)` keep their
previous values.  The kernel then is the accumulation run on `cleared`, and on an empty
document range it returns `cleared` itself.  (The cleared range lies inside the array; the
derivative arrays of dimension `dim` exist and, in ordered mode, `BodyFinish ≤
TailFinish`.) -/
theorem C19_clearing_policy (isCaching : Bool) (singleIdx : List Nat) (fold : TCalcScoreFold)
    (isPlainMode : Bool) (indexer : TStatsIndexer) (depth : Nat) (bt : TBodyTail) (dim : Nat)
    (r : TIndexRange) (stats : List TBucketStats)
    (hdim1 : dim < bt.SampleWeightedDerivatives.length)
    (hdim2 : isPlainMode = false → dim < bt.WeightedDerivatives.length)
    (hbt : isPlainMode = false → bt.BodyFinish ≤ bt.TailFinish)
    (hdepth : isCaching = true → depth ≠ 0)
    (hlo : isCaching = true → 0 ≤ indexer.CalcSize (depth - 1) ∧
      indexer.CalcSize (depth - 1) ≤ indexer.CalcSize depth)
    (hsize0 : 0 ≤ indexer.CalcSize depth)
    (hsize : indexer.CalcSize depth ≤ (stats.length : Int)) :
    ∃ cleared : List TBucketStats, cleared.length = stats.length ∧
      (isCaching = false → ∀ s : Nat, (s : Int) < indexer.CalcSize depth →
        cleared[s]? = some 0) ∧
      (isCaching = true →
        (∀ s : Nat, indexer.CalcSize (depth - 1) ≤ (s : Int) →
          (s : Int) < indexer.CalcSize depth → cleared[s]? = some 0) ∧
        (∀ s : Nat, (s : Int) < indexer.CalcSize (depth - 1) → cleared[s]? = stats[s]?)) ∧
      (∀ s : Nat, indexer.CalcSize depth ≤ (s : Int) → cleared[s]? = stats[s]?) ∧
      CalcStatsKernel isCaching singleIdx fold isPlainMode indexer depth bt dim r stats
        = accumulate singleIdx (docRead fold bt dim isPlainMode)
            (List.range' r.Begin (min bt.TailFinish r.End - r.Begin)) cleared ∧
      CalcStatsKernel isCaching singleIdx fold isPlainMode indexer depth bt dim
        ⟨r.Begin, r.Begin⟩ stats = some cleared := by
  have hc : ¬ (isCaching = true ∧ depth = 0) := fun h => hdepth h.1 h.2
  have key : ∀ lo : Int, 0 ≤ lo → lo ≤ indexer.CalcSize depth →
      (if isCaching = true then
          Fill stats (indexer.CalcSize (depth - 1)) (indexer.CalcSize depth) ⟨0, 0, 0, 0⟩
        else Fill stats 0 (indexer.CalcSize depth) ⟨0, 0, 0, 0⟩)
        = Fill stats lo (indexer.CalcSize depth) 0 →
      ∃ cleared : List TBucketStats, cleared.length = stats.length ∧
        (∀ s : Nat, cleared[s]?
          = if lo ≤ (s : Int) ∧ (s : Int) < indexer.CalcSize depth then some 0
            else stats[s]?) ∧
        CalcStatsKernel isCaching singleIdx fold isPlainMode indexer depth bt dim r stats
          = accumulate singleIdx (docRead fold bt dim isPlainMode)
              (List.range' r.Begin (min bt.TailFinish r.End - r.Begin)) cleared ∧
        CalcStatsKernel isCaching singleIdx fold isPlainMode indexer depth bt dim
          ⟨r.Begin, r.Begin⟩ stats = some cleared := by
    intro lo h0 h1 hfill
    obtain ⟨cleared, hf, hlen, hget⟩ := Fill_spec stats lo (indexer.CalcSize depth) 0 h0 h1
      hsize
    refine ⟨cleared, hlen, fun s => ?_, ?_, ?_⟩
    · by_cases hs : s < stats.length
      · rw [getElem?_of_getD cleared s _ (by omega) (hget s)]
        by_cases hin : lo ≤ (s : Int) ∧ (s : Int) < indexer.CalcSize depth
        · rw [if_pos hin, if_pos hin]
        · rw [if_neg hin, if_neg hin, List.getD_eq_getElem?_getD,
            List.getElem?_eq_getElem hs, Option.getD_some]
      · rw [List.getElem?_eq_none (by omega), if_neg (by omega),
          List.getElem?_eq_none (by omega)]
    · rw [CalcStatsKernel_eq isCaching singleIdx fold isPlainMode indexer depth bt dim r stats
        hdim1 hdim2 hbt, if_neg hc, hfill, hf]
      rfl
    · rw [CalcStatsKernel_eq isCaching singleIdx fold isPlainMode indexer depth bt dim
        ⟨r.Begin, r.Begin⟩ stats hdim1 hdim2 hbt, if_neg hc, hfill, hf,
        show min bt.TailFinish r.Begin - r.Begin = 0 by omega]
      rfl
  cases isCaching with
  | false =>
    obtain ⟨cleared, hlen, hget, hk1, hk2⟩ := key 0 (le_refl 0) hsize0 (by simp; rfl)
    refine ⟨cleared, hlen, fun _ s hs => ?_, fun h => absurd h (by simp), fun s hs => ?_,
      hk1, hk2⟩
    · rw [hget s, if_pos ⟨by omega, hs⟩]
    · rw [hget s, if_neg (by omega)]
  | true =>
    obtain ⟨h0, h1⟩ := hlo rfl
    obtain ⟨cleared, hlen, hget, hk1, hk2⟩ := key (indexer.CalcSize (depth - 1)) h0 h1
      (by simp; rfl)
    refine ⟨cleared, hlen, fun h => absurd h (by simp), fun _ => ⟨fun s hs1 hs2 => ?_,
      fun s hs => ?_⟩, fun s hs => ?_, hk1, hk2⟩
    · rw [hget s, if_pos ⟨hs1, hs2⟩]
    · rw [hget s, if_neg (by omega)]
    · rw [hget s, if_neg (by omega)]

theorem C19_clearing_policy_witness :
    ∃ cleared : List TBucketStats, cleared.length = exampleStats.length ∧
      (true = false → ∀ s : Nat, (s : Int) < (TStatsIndexer.mk 3).CalcSize 1 →
        cleared[s]? = some 0) ∧
      (true = true →
        (∀ s : Nat, (TStatsIndexer.mk 3).CalcSize (1 - 1) ≤ (s : Int) →
          (s : Int) < (TStatsIndexer.mk 3).CalcSize 1 → cleared[s]? = some 0) ∧
        (∀ s : Nat, (s : Int) < (TStatsIndexer.mk 3).CalcSize (1 - 1) →
          cleared[s]? = exampleStats[s]?)) ∧
      (∀ s : Nat, (TStatsIndexer.mk 3).CalcSize 1 ≤ (s : Int) →
        cleared[s]? = exampleStats[s]?) ∧
      CalcStatsKernel true exampleSingleIdx exampleFold true ⟨3⟩ 1 exampleBodyTail 0 ⟨0, 4⟩
          exampleStats
        = accumulate exampleSingleIdx (docRead exampleFold exampleBodyTail 0 true)
            (List.range' (TIndexRange.mk 0 4).Begin
              (min exampleBodyTail.TailFinish (TIndexRange.mk 0 4).End
                - (TIndexRange.mk 0 4).Begin)) cleared ∧
      CalcStatsKernel true exampleSingleIdx exampleFold true ⟨3⟩ 1 exampleBodyTail 0
        ⟨(TIndexRange.mk 0 4).Begin, (TIndexRange.mk 0 4).Begin⟩ exampleStats = some cleared :=
  C19_clearing_policy true exampleSingleIdx exampleFold true ⟨3⟩ 1 exampleBodyTail 0 ⟨0, 4⟩
    exampleStats (by decide) (by decide) (by decide) (by decide) (fun _ => by decide)
    (by decide) (by decide)

/-! ## C18: the selected index width suffices -/

theorem composite_index_lt (bucketCount : Int) (depth bits : Nat) (leaf bucket : Int)
    (hbits : bucketCount - 1 < 2 ^ bits) (hleaf0 : 0 ≤ leaf) (hleaf : leaf < 2 ^ depth)
    (hb0 : 0 ≤ bucket) (hb : bucket < bucketCount) :
    0 ≤ bucketCount * leaf + bucket ∧ bucketCount * leaf + bucket < 2 ^ (depth + bits) := by
  have hB0 : 0 ≤ bucketCount := by omega
  have hB : bucketCount ≤ 2 ^ bits := by omega
  have h1 : bucketCount * leaf ≤ bucketCount * (2 ^ depth - 1) :=
    mul_le_mul_of_nonneg_left (by omega) hB0
  have h2 : bucketCount * 2 ^ depth ≤ 2 ^ bits * 2 ^ depth :=
    mul_le_mul_of_nonneg_right hB (by positivity)
  have h3 : (2 : Int) ^ (depth + bits) = 2 ^ bits * 2 ^ depth := by
    rw [pow_add, mul_comm]
  have h4 : bucketCount * (2 ^ depth - 1) = bucketCount * 2 ^ depth - bucketCount := by ring
  have h5 : 0 ≤ bucketCount * leaf := mul_nonneg hB0 hleaf0
  constructor
  · omega
  · rw [h3]
    omega

theorem selectCalcStatsImpl_cases (n width : Nat) (h : selectCalcStatsImpl n = some width) :
    (n ≤ 8 ∧ width = 8) ∨ (8 < n ∧ n ≤ 16 ∧ width = 16) ∨ (16 < n ∧ n ≤ 32 ∧ width = 32) := by
  unfold selectCalcStatsImpl at h
  by_cases h8 : n ≤ 8
  · rw [if_pos h8] at h
    exact Or.inl ⟨h8, (Option.some.inj h).symm⟩
  · rw [if_neg h8] at h
    by_cases h16 : n ≤ 16
    · rw [if_pos h16] at h
      exact Or.inr (Or.inl ⟨by omega, h16, (Option.some.inj h).symm⟩)
    · rw [if_neg h16] at h
      by_cases h32 : n ≤ 32
      · rw [if_pos h32] at h
        exact Or.inr (Or.inr ⟨by omega, h32, (Option.some.inj h).symm⟩)
      · rw [if_neg h32] at h
        exact absurd h (by simp)

/-- The stored index is the composite index whenever the composite index fits the width
(the wrap of `GetIndex` to 32 bits is undone by the store). -/
theorem stored_index_eq (bucketCount leaf bucket : Int) (width : Nat)
    (hw : width = 8 ∨ width = 16 ∨ width = 32)
    (h0 : 0 ≤ bucketCount * leaf + bucket) (h1 : bucketCount * leaf + bucket < 2 ^ width) :
    (toFullIndexType width ((TStatsIndexer.mk bucketCount).GetIndex leaf bucket) : Int)
        = bucketCount * leaf + bucket ∧
      (TStatsIndexer.mk bucketCount).GetIndex leaf bucket ≤ bucketCount * leaf + bucket := by
  unfold toFullIndexType TStatsIndexer.GetIndex toInt
  simp only
  generalize bucketCount * leaf = X at h0 h1 ⊢
  rcases hw with rfl | rfl | rfl
  · norm_num at h1 ⊢
    omega
  · norm_num at h1 ⊢
    omega
  · norm_num at h1 ⊢
    omega

/-- C18: index width suffices.  With `fullIndexBitCount = depth + bitCount(bucketCount - 1)`
(for `bucketCount ≥ 2`, and for `bucketCount = 1` as well), for every `leaf < 2^depth` and
`bucket < bucketCount` the composite
index `bucketCount * leaf + bucket`, and with it `GetIndex(leaf, bucket)`, is `<
2^fullIndexBitCount`.  `CalcStatsAndScores` selects the 8-bit type when `fullIndexBitCount
≤ 8`, else the 16-bit type when `≤ 16`, else the 32-bit type when `≤ 32`; the selected
width is at least `fullIndexBitCount`, so the index stored in the selected unsigned type
equals the untruncated composite index (`index mod 2^width = index`), and it equals the
value of `GetIndex` whenever that value is not negative (always when `fullIndexBitCount ≤
31`).  (`bitCount` is any function with `bucketCount - 1 < 2^bitCount(bucketCount - 1)`.) -/
theorem C18_index_width_suffices (bucketCount : Int) (depth : Nat)
    (getValueBitCount : Int → Nat) (leaf bucket : Int) (width : Nat)
    (hbits : bucketCount - 1 < 2 ^ getValueBitCount (bucketCount - 1))
    (hleaf0 : 0 ≤ leaf) (hleaf : leaf < 2 ^ depth)
    (hb0 : 0 ≤ bucket) (hb : bucket < bucketCount)
    (hsel : selectCalcStatsImpl (fullIndexBitCount depth getValueBitCount bucketCount)
      = some width) :
    bucketCount * leaf + bucket < 2 ^ fullIndexBitCount depth getValueBitCount bucketCount ∧
    (TStatsIndexer.mk bucketCount).GetIndex leaf bucket
      < 2 ^ fullIndexBitCount depth getValueBitCount bucketCount ∧
    ((fullIndexBitCount depth getValueBitCount bucketCount ≤ 8 ∧ width = 8) ∨
      (8 < fullIndexBitCount depth getValueBitCount bucketCount ∧
        fullIndexBitCount depth getValueBitCount bucketCount ≤ 16 ∧ width = 16) ∨
      (16 < fullIndexBitCount depth getValueBitCount bucketCount ∧
        fullIndexBitCount depth getValueBitCount bucketCount ≤ 32 ∧ width = 32)) ∧
    fullIndexBitCount depth getValueBitCount bucketCount ≤ width ∧
    (toFullIndexType width ((TStatsIndexer.mk bucketCount).GetIndex leaf bucket) : Int)
      = bucketCount * leaf + bucket ∧
    (bucketCount * leaf + bucket) % 2 ^ width = bucketCount * leaf + bucket ∧
    (0 ≤ (TStatsIndexer.mk bucketCount).GetIndex leaf bucket →
      (toFullIndexType width ((TStatsIndexer.mk bucketCount).GetIndex leaf bucket) : Int)
        = (TStatsIndexer.mk bucketCount).GetIndex leaf bucket) ∧
    (fullIndexBitCount depth getValueBitCount bucketCount ≤ 31 →
      (TStatsIndexer.mk bucketCount).GetIndex leaf bucket = bucketCount * leaf + bucket) := by
  have hidx := composite_index_lt bucketCount depth (getValueBitCount (bucketCount - 1)) leaf
    bucket hbits hleaf0 hleaf hb0 hb
  have hcases := selectCalcStatsImpl_cases _ _ hsel
  have hn : fullIndexBitCount depth getValueBitCount bucketCount
      = depth + getValueBitCount (bucketCount - 1) := rfl
  have hle : fullIndexBitCount depth getValueBitCount bucketCount ≤ width := by omega
  have hw : width = 8 ∨ width = 16 ∨ width = 32 := by omega
  have hpow : (2 : Int) ^ fullIndexBitCount depth getValueBitCount bucketCount ≤ 2 ^ width :=
    pow_le_pow_right₀ (by norm_num) hle
  have hlt : bucketCount * leaf + bucket < 2 ^ width := by
    rw [hn] at hpow
    omega
  obtain ⟨hstore, hget⟩ := stored_index_eq bucketCount leaf bucket width hw hidx.1 hlt
  have hfit : 0 ≤ (TStatsIndexer.mk bucketCount).GetIndex leaf bucket →
      (TStatsIndexer.mk bucketCount).GetIndex leaf bucket = bucketCount * leaf + bucket := by
    intro hnn
    have h32 : bucketCount * leaf + bucket < 2 ^ 32 :=
      lt_of_lt_of_le hlt (pow_le_pow_right₀ (by norm_num) (by omega))
    revert hnn
    unfold TStatsIndexer.GetIndex toInt
    simp only
    generalize bucketCount * leaf = X at hidx h32 ⊢
    norm_num at h32 ⊢
    omega
  refine ⟨hidx.2, ?_, hcases, hle, hstore, Int.emod_eq_of_lt hidx.1 hlt, ?_, ?_⟩
  · rw [hn]
    omega
  · intro hnn
    rw [hstore, hfit hnn]
  · intro h31
    have h31b : bucketCount * leaf + bucket < 2 ^ 31 := by
      have hp : (2 : Int) ^ fullIndexBitCount depth getValueBitCount bucketCount ≤ 2 ^ 31 :=
        pow_le_pow_right₀ (by norm_num) h31
      rw [hn] at hp
      omega
    unfold TStatsIndexer.GetIndex toInt
    simp only
    generalize bucketCount * leaf = X at hidx h31b ⊢
    norm_num at h31b ⊢
    omega

theorem C18_index_width_suffices_witness :
    (3 : Int) * 1 + 2 < 2 ^ fullIndexBitCount 1 (fun _ => 2) 3 ∧
    (TStatsIndexer.mk 3).GetIndex 1 2 < 2 ^ fullIndexBitCount 1 (fun _ => 2) 3 ∧
    ((fullIndexBitCount 1 (fun _ => 2) 3 ≤ 8 ∧ 8 = 8) ∨
      (8 < fullIndexBitCount 1 (fun _ => 2) 3 ∧
        fullIndexBitCount 1 (fun _ => 2) 3 ≤ 16 ∧ 8 = 16) ∨
      (16 < fullIndexBitCount 1 (fun _ => 2) 3 ∧
        fullIndexBitCount 1 (fun _ => 2) 3 ≤ 32 ∧ 8 = 32)) ∧
    fullIndexBitCount 1 (fun _ => 2) 3 ≤ 8 ∧
    (toFullIndexType 8 ((TStatsIndexer.mk 3).GetIndex 1 2) : Int) = (3 : Int) * 1 + 2 ∧
    ((3 : Int) * 1 + 2) % 2 ^ 8 = (3 : Int) * 1 + 2 ∧
    (0 ≤ (TStatsIndexer.mk 3).GetIndex 1 2 →
      (toFullIndexType 8 ((TStatsIndexer.mk 3).GetIndex 1 2) : Int)
        = (TStatsIndexer.mk 3).GetIndex 1 2) ∧
    (fullIndexBitCount 1 (fun _ => 2) 3 ≤ 31 →
      (TStatsIndexer.mk 3).GetIndex 1 2 = (3 : Int) * 1 + 2) :=
  C18_index_width_suffices 3 1 (fun _ => 2) 1 2 8 (by decide) (by decide) (by decide)
    (by decide) (by decide) (by decide)

/-! ## C20: partitions by groups -/

/-- Contiguous groups `gb, …, gb + n` cover exactly the documents from the begin of the
first to the end of the last. -/
theorem groups_cover (groupBegin groupEnd : Nat → Nat) (gb : Nat) :
    ∀ n : Nat, (∀ i, gb ≤ i → i ≤ gb + n → groupBegin i ≤ groupEnd i) →
      (∀ i, gb ≤ i → i < gb + n → groupEnd i = groupBegin (i + 1)) →
      groupBegin gb ≤ groupEnd (gb + n) ∧
      ∀ doc, (groupBegin gb ≤ doc ∧ doc < groupEnd (gb + n))
        ↔ ∃ i, gb ≤ i ∧ i ≤ gb + n ∧ groupBegin i ≤ doc ∧ doc < groupEnd i := by
  intro n
  induction n with
  | zero =>
    intro hwf _
    refine ⟨hwf gb (le_refl _) (le_refl _), fun doc => ⟨fun h => ⟨gb, le_refl _, le_refl _, h⟩,
      ?_⟩⟩
    rintro ⟨i, h1, h2, h3⟩
    have : i = gb := by omega
    rw [this] at h3
    exact h3
  | succ n ih =>
    intro hwf hcontig
    obtain ⟨hle, hcover⟩ := ih (fun i h1 h2 => hwf i h1 (by omega))
      (fun i h1 h2 => hcontig i h1 (by omega))
    have hlink := hcontig (gb + n) (by omega) (by omega)
    have hlast := hwf (gb + n + 1) (by omega) (by omega)
    rw [show gb + (n + 1) = gb + n + 1 by omega]
    refine ⟨by omega, fun doc => ⟨fun h => ?_, ?_⟩⟩
    · by_cases hd : doc < groupEnd (gb + n)
      · obtain ⟨i, h1, h2, h3⟩ := (hcover doc).mp ⟨h.1, hd⟩
        exact ⟨i, h1, by omega, h3⟩
      · exact ⟨gb + n + 1, by omega, le_refl _, by omega, h.2⟩
    · rintro ⟨i, h1, h2, h3, h4⟩
      by_cases hi : i ≤ gb + n
      · have := (hcover doc).mpr ⟨i, h1, hi, h3, h4⟩
        omega
      · have : i = gb + n + 1 := by omega
        rw [this] at h3 h4
        omega

theorem mapFuncDocIndexRange_groups (fold : TCalcScoreFold) (gb ge : Nat)
    (hq : fold.HasQueryInfo = true) (hlt : gb < ge)
    (hlen : ge ≤ fold.LearnQueriesInfo.length) :
    mapFuncDocIndexRange fold ⟨gb, ge⟩
      = some ⟨(fold.LearnQueriesInfo.getD gb ⟨0, 0⟩).Begin,
          (fold.LearnQueriesInfo.getD (ge - 1) ⟨0, 0⟩).End⟩ := by
  have h1 : fold.LearnQueriesInfo[gb]? = some (fold.LearnQueriesInfo.getD gb ⟨0, 0⟩) := by
    rw [List.getD_eq_getElem?_getD, List.getElem?_eq_getElem (by omega), Option.getD_some]
  have h2 : fold.LearnQueriesInfo[ge - 1]?
      = some (fold.LearnQueriesInfo.getD (ge - 1) ⟨0, 0⟩) := by
    rw [List.getD_eq_getElem?_getD, List.getElem?_eq_getElem (by omega), Option.getD_some]
  unfold mapFuncDocIndexRange
  simp only [hq, if_true, h1, h2, Option.bind_eq_bind, Option.some_bind,
    show ¬ ge = 0 by omega, if_false, Option.map_some', Option.pure_def]

/-- C20: group-respecting partitioning.  When the fold has query (group) info with
contiguous groups (`group[i].End = group[i+1].Begin`), a partition given as the group-index
range `[gb, ge)` with `gb < ge` is mapped by `CalcStatsImpl` to the document range
`[group[gb].Begin, group[ge-1].End)`, which is exactly the union of the documents of the
groups `gb..ge-1`; every group of the partition lies inside that document range, so no
group is split across two partitions; and two consecutive group partitions `[gb, gm)`,
`[gm, ge)` are mapped to adjacent, non-overlapping document ranges (the first ends where
the second begins).  (The groups are inside `LearnQueriesInfo` and every group has `Begin
≤ End`.) -/
theorem C20_group_partitioning (fold : TCalcScoreFold) (gb ge : Nat)
    (hq : fold.HasQueryInfo = true) (hlt : gb < ge)
    (hlen : ge ≤ fold.LearnQueriesInfo.length)
    (hwf : ∀ i, gb ≤ i → i < ge →
      (fold.LearnQueriesInfo.getD i ⟨0, 0⟩).Begin ≤ (fold.LearnQueriesInfo.getD i ⟨0, 0⟩).End)
    (hcontig : ∀ i, gb ≤ i → i + 1 < ge →
      (fold.LearnQueriesInfo.getD i ⟨0, 0⟩).End
        = (fold.LearnQueriesInfo.getD (i + 1) ⟨0, 0⟩).Begin) :
    mapFuncDocIndexRange fold ⟨gb, ge⟩
      = some ⟨(fold.LearnQueriesInfo.getD gb ⟨0, 0⟩).Begin,
          (fold.LearnQueriesInfo.getD (ge - 1) ⟨0, 0⟩).End⟩ ∧
    (∀ doc, ((fold.LearnQueriesInfo.getD gb ⟨0, 0⟩).Begin ≤ doc ∧
        doc < (fold.LearnQueriesInfo.getD (ge - 1) ⟨0, 0⟩).End)
      ↔ ∃ i, gb ≤ i ∧ i < ge ∧ (fold.LearnQueriesInfo.getD i ⟨0, 0⟩).Begin ≤ doc ∧
          doc < (fold.LearnQueriesInfo.getD i ⟨0, 0⟩).End) ∧
    (∀ i, gb ≤ i → i < ge →
      (fold.LearnQueriesInfo.getD gb ⟨0, 0⟩).Begin
          ≤ (fold.LearnQueriesInfo.getD i ⟨0, 0⟩).Begin ∧
        (fold.LearnQueriesInfo.getD i ⟨0, 0⟩).End
          ≤ (fold.LearnQueriesInfo.getD (ge - 1) ⟨0, 0⟩).End) ∧
    ∀ gm, gb < gm → gm < ge →
      ∃ r1 r2, mapFuncDocIndexRange fold ⟨gb, gm⟩ = some r1 ∧
        mapFuncDocIndexRange fold ⟨gm, ge⟩ = some r2 ∧
        r1.Begin = (fold.LearnQueriesInfo.getD gb ⟨0, 0⟩).Begin ∧
        r1.Begin ≤ r1.End ∧ r1.End = r2.Begin ∧ r2.Begin ≤ r2.End ∧
        r2.End = (fold.LearnQueriesInfo.getD (ge - 1) ⟨0, 0⟩).End := by
  have hcov : ∀ a b, gb ≤ a → a ≤ b → b < ge →
      (fold.LearnQueriesInfo.getD a ⟨0, 0⟩).Begin ≤ (fold.LearnQueriesInfo.getD b ⟨0, 0⟩).End ∧
      ∀ doc, ((fold.LearnQueriesInfo.getD a ⟨0, 0⟩).Begin ≤ doc ∧
          doc < (fold.LearnQueriesInfo.getD b ⟨0, 0⟩).End)
        ↔ ∃ i, a ≤ i ∧ i ≤ b ∧ (fold.LearnQueriesInfo.getD i ⟨0, 0⟩).Begin ≤ doc ∧
            doc < (fold.LearnQueriesInfo.getD i ⟨0, 0⟩).End := by
    intro a b ha hab hb
    have h := groups_cover (fun i => (fold.LearnQueriesInfo.getD i ⟨0, 0⟩).Begin)
      (fun i => (fold.LearnQueriesInfo.getD i ⟨0, 0⟩).End) a (b - a)
      (fun i h1 h2 => hwf i (by omega) (by omega))
      (fun i h1 h2 => hcontig i (by omega) (by omega))
    rw [show a + (b - a) = b by omega] at h
    exact h
  refine ⟨mapFuncDocIndexRange_groups fold gb ge hq hlt hlen, fun doc => ?_, fun i h1 h2 => ?_,
    fun gm h1 h2 => ?_⟩
  · rw [(hcov gb (ge - 1) (le_refl _) (by omega) (by omega)).2 doc]
    constructor
    · rintro ⟨i, h1, h2, h3⟩
      exact ⟨i, h1, by omega, h3⟩
    · rintro ⟨i, h1, h2, h3⟩
      exact ⟨i, h1, by omega, h3⟩
  · constructor
    · by_cases hi : i = gb
      · rw [hi]
      · have := (hcov gb (i - 1) (le_refl _) (by omega) (by omega)).1
        have hl := hcontig (i - 1) (by omega) (by omega)
        rw [show i - 1 + 1 = i by omega] at hl
        omega
    · by_cases hi : i = ge - 1
      · rw [hi]
      · have := (hcov (i + 1) (ge - 1) (by omega) (by omega) (by omega)).1
        have hl := hcontig i h1 (by omega)
        omega
  · refine ⟨_, _, mapFuncDocIndexRange_groups fold gb gm hq h1 (by omega),
      mapFuncDocIndexRange_groups fold gm ge hq h2 hlen, rfl, ?_, ?_, ?_, rfl⟩
    · exact (hcov gb (gm - 1) (le_refl _) (by omega) (by omega)).1
    · have hl := hcontig (gm - 1) (by omega) (by omega)
      rw [show gm - 1 + 1 = gm by omega] at hl
      exact hl
    · exact (hcov gm (ge - 1) (by omega) (by omega) (by omega)).1

theorem C20_group_partitioning_witness :
    mapFuncDocIndexRange exampleGroupFold ⟨0, 3⟩
      = some ⟨(exampleGroupFold.LearnQueriesInfo.getD 0 ⟨0, 0⟩).Begin,
          (exampleGroupFold.LearnQueriesInfo.getD (3 - 1) ⟨0, 0⟩).End⟩ ∧
    (∀ doc, ((exampleGroupFold.LearnQueriesInfo.getD 0 ⟨0, 0⟩).Begin ≤ doc ∧
        doc < (exampleGroupFold.LearnQueriesInfo.getD (3 - 1) ⟨0, 0⟩).End)
      ↔ ∃ i, 0 ≤ i ∧ i < 3 ∧ (exampleGroupFold.LearnQueriesInfo.getD i ⟨0, 0⟩).Begin ≤ doc ∧
          doc < (exampleGroupFold.LearnQueriesInfo.getD i ⟨0, 0⟩).End) ∧
    (∀ i, 0 ≤ i → i < 3 →
      (exampleGroupFold.LearnQueriesInfo.getD 0 ⟨0, 0⟩).Begin
          ≤ (exampleGroupFold.LearnQueriesInfo.getD i ⟨0, 0⟩).Begin ∧
        (exampleGroupFold.LearnQueriesInfo.getD i ⟨0, 0⟩).End
          ≤ (exampleGroupFold.LearnQueriesInfo.getD (3 - 1) ⟨0, 0⟩).End) ∧
    ∀ gm, 0 < gm → gm < 3 →
      ∃ r1 r2, mapFuncDocIndexRange exampleGroupFold ⟨0, gm⟩ = some r1 ∧
        mapFuncDocIndexRange exampleGroupFold ⟨gm, 3⟩ = some r2 ∧
        r1.Begin = (exampleGroupFold.LearnQueriesInfo.getD 0 ⟨0, 0⟩).Begin ∧
        r1.Begin ≤ r1.End ∧ r1.End = r2.Begin ∧ r2.Begin ≤ r2.End ∧
        r2.End = (exampleGroupFold.LearnQueriesInfo.getD (3 - 1) ⟨0, 0⟩).End :=
  C20_group_partitioning exampleGroupFold 0 3 rfl (by decide) (by decide)
    (fun i _ h2 => by interval_cases i <;> decide)
    (fun i _ h2 => by
      have h3 : i < 2 := by omega
      interval_cases i <;> decide)

/-! ## C21: the statistics slices are independent -/

theorem foldlM_flatten_map {α β σ : Type} (g : α → List β) (f : σ → β → Option σ) :
    ∀ (xs : List α) (st : σ),
      (xs.map g).flatten.foldlM f st = xs.foldlM (fun st x => (g x).foldlM f st) st := by
  intro xs
  induction xs with
  | nil => intro st; rfl
  | cons x xs ih =>
    intro st
    rw [List.map_cons, List.flatten_cons, List.foldlM_append, List.foldlM_cons]
    cases h : (g x).foldlM f st with
    | none => rfl
    | some st2 => exact ih st2

theorem forEach_eq_pairs {σ : Type} (fold : TCalcScoreFold) (splitStatsCount : Nat)
    (bodyFunc : Nat → Nat → Nat → σ → Option σ) (state : σ) :
    forEachBodyTailAndApproxDimension fold splitStatsCount bodyFunc state
      = (slicePairs fold).foldlM (fun state p =>
          bodyFunc p.1 p.2 (statsSliceBegin fold splitStatsCount p.1 p.2) state) state := by
  unfold forEachBodyTailAndApproxDimension slicePairs
  rw [foldlM_flatten_map]
  simp only [List.foldlM_map, statsSliceBegin]

theorem mem_slicePairs (fold : TCalcScoreFold) (p : Nat × Nat) :
    p ∈ slicePairs fold ↔ p.1 < fold.BodyTailCount ∧ p.2 < fold.ApproxDimension := by
  unfold slicePairs
  simp only [List.mem_flatten, List.mem_map, List.mem_range]
  constructor
  · rintro ⟨l, ⟨bt, hbt, rfl⟩, hp⟩
    simp only [List.mem_map, List.mem_range] at hp
    obtain ⟨dim, hdim, rfl⟩ := hp
    exact ⟨hbt, hdim⟩
  · rintro ⟨h1, h2⟩
    exact ⟨_, ⟨p.1, h1, rfl⟩, by simp only [List.mem_map, List.mem_range]; exact ⟨p.2, h2, rfl⟩⟩

theorem slice_order (S p q C i : Nat) (hpq : p < q) (hC : C ≤ S) (hi : i < C) (j : Nat) :
    p * S + i < q * S + j := by
  have h1 : (p + 1) * S ≤ q * S := Nat.mul_le_mul_right S hpq
  have h2 : (p + 1) * S = p * S + S := by ring
  omega

theorem slice_index_inj (A bt dim bt2 dim2 : Nat) (hd : dim < A) (hd2 : dim2 < A)
    (h : bt * A + dim = bt2 * A + dim2) : bt = bt2 ∧ dim = dim2 := by
  have h1 : (bt * A + dim) / A = bt := by
    rw [Nat.mul_comm, Nat.mul_add_div (by omega), Nat.div_eq_of_lt hd, Nat.add_zero]
  have h2 : (bt2 * A + dim2) / A = bt2 := by
    rw [Nat.mul_comm, Nat.mul_add_div (by omega), Nat.div_eq_of_lt hd2, Nat.add_zero]
  have hb : bt = bt2 := by rw [← h1, ← h2, h]
  subst hb
  exact ⟨rfl, by omega⟩

theorem slices_disjoint (fold : TCalcScoreFold) (S C bt dim bt2 dim2 i j : Nat)
    (hd : dim < fold.ApproxDimension) (hd2 : dim2 < fold.ApproxDimension)
    (hne : (bt, dim) ≠ (bt2, dim2)) (hC : C ≤ S) (hi : i < C) (hj : j < C) :
    statsSliceBegin fold S bt dim + i ≠ statsSliceBegin fold S bt2 dim2 + j := by
  unfold statsSliceBegin
  have hpq : bt * fold.ApproxDimension + dim ≠ bt2 * fold.ApproxDimension + dim2 := by
    intro h
    obtain ⟨h1, h2⟩ := slice_index_inj fold.ApproxDimension bt dim bt2 dim2 hd hd2 h
    exact hne (by rw [h1, h2])
  rcases Nat.lt_or_gt_of_ne hpq with h | h
  · exact Nat.ne_of_lt (slice_order S _ _ C i h hC hi j)
  · exact Nat.ne_of_gt (slice_order S _ _ C j h hC hj i)

theorem slice_inside (fold : TCalcScoreFold) (S bt dim : Nat)
    (hb : bt < fold.BodyTailCount) (hd : dim < fold.ApproxDimension) :
    statsSliceBegin fold S bt dim + S ≤ fold.BodyTailCount * fold.ApproxDimension * S := by
  unfold statsSliceBegin
  have h1 : bt * fold.ApproxDimension + dim + 1 ≤ fold.BodyTailCount * fold.ApproxDimension := by
    have h2 : (bt + 1) * fold.ApproxDimension ≤ fold.BodyTailCount * fold.ApproxDimension :=
      Nat.mul_le_mul_right _ hb
    have h3 : (bt + 1) * fold.ApproxDimension = bt * fold.ApproxDimension + fold.ApproxDimension := by
      ring
    omega
  have h4 := Nat.mul_le_mul_right S h1
  have h5 : (bt * fold.ApproxDimension + dim + 1) * S
      = (bt * fold.ApproxDimension + dim) * S + S := by ring
  omega

theorem atOffset_frame (offset n : Nat) (f : List TBucketStats → Option (List TBucketStats))
    (data : List TBucketStats) (hlen : offset + n ≤ data.length) (hf : ConfinedTo n f) :
    ∃ out, atOffset offset f data = some out ∧ out.length = data.length ∧
      ∀ s, (s < offset ∨ offset + n ≤ s) → out[s]? = data[s]? := by
  obtain ⟨out, hout, hl, hframe⟩ := hf (data.drop offset) (by rw [List.length_drop]; omega)
  refine ⟨data.take offset ++ out, ?_, ?_, ?_⟩
  · unfold atOffset
    rw [if_pos (by omega), hout]
    rfl
  · rw [List.length_append, List.length_take, hl, List.length_drop]
    omega
  · intro s hs
    have htl : (data.take offset).length = offset := by
      rw [List.length_take]; omega
    rcases hs with hs | hs
    · rw [List.getElem?_append_left (by omega), List.getElem?_take_of_lt hs]
    · rw [List.getElem?_append_right (by omega), htl, hframe (s - offset) (by omega),
        List.getElem?_drop]
      congr 1
      omega

theorem kernel_confined (isCaching : Bool) (singleIdx : List Nat) (fold : TCalcScoreFold)
    (isPlainMode : Bool) (indexer : TStatsIndexer) (depth : Nat) (bt : TBodyTail) (dim : Nat)
    (r : TIndexRange)
    (hbt : isPlainMode = false → bt.BodyFinish ≤ bt.TailFinish)
    (hreads : ReadsInBounds singleIdx fold bt dim isPlainMode r (indexer.CalcSize depth).toNat)
    (hpos : 0 ≤ indexer.CalcSize depth)
    (hcache : isCaching = true → depth ≠ 0 ∧ 0 ≤ indexer.CalcSize (depth - 1) ∧
      indexer.CalcSize (depth - 1) ≤ indexer.CalcSize depth) :
    ConfinedTo (indexer.CalcSize depth).toNat
      (CalcStatsKernel isCaching singleIdx fold isPlainMode indexer depth bt dim r) := by
  intro slice hlen
  have hC : ((indexer.CalcSize depth).toNat : Int) = indexer.CalcSize depth :=
    Int.toNat_of_nonneg hpos
  obtain ⟨out, hout, hl, hget⟩ := CalcStatsKernel_spec isCaching singleIdx fold isPlainMode
    indexer depth bt dim r slice (if isCaching = true then indexer.CalcSize (depth - 1) else 0)
    hbt (ReadsInBounds_mono singleIdx fold bt dim isPlainMode r r _ _ hreads (le_refl _)
      (le_refl _) hlen) rfl (fun h => (hcache h).1)
    (by split
        · next h => exact (hcache h).2.1
        · exact le_refl _)
    (by split
        · next h => exact (hcache h).2.2
        · exact hpos)
    (by rw [← hC]; exact_mod_cast hlen)
  refine ⟨out, hout, hl, fun s hs => ?_⟩
  apply getElem?_eq_of_getD_eq out slice s hl
  rw [hget s, if_neg (by
    intro h
    have h2 := h.2
    rw [← hC] at h2
    have h3 : s < (indexer.CalcSize depth).toNat := by exact_mod_cast h2
    omega)]
  have hz : slotSum singleIdx (docContribution fold bt dim isPlainMode) r.Iter s = 0 := by
    unfold slotSum
    have hnil : r.Iter.filter (fun doc => singleIdx[doc]? = some s)
        = (r.Iter.filter (fun doc => singleIdx[doc]? = some s)).filter
            (fun doc => decide (¬ doc < bt.TailFinish)) := by
      rw [List.filter_filter]
      apply List.filter_congr
      intro doc hdoc
      by_cases hd : singleIdx[doc]? = some s
      · by_cases ht : doc < bt.TailFinish
        · exfalso
          obtain ⟨_, h1, h2⟩ := hreads.2.2 doc hdoc ht
          rw [List.getD_eq_getElem?_getD, hd] at h2
          simp only [Option.getD_some] at h2
          omega
        · simp [hd, ht]
      · simp [hd]
    rw [hnil]
    apply List.sum_eq_zero
    intro x hx
    rw [List.mem_map] at hx
    obtain ⟨doc, hdoc, rfl⟩ := hx
    rw [List.mem_filter] at hdoc
    have ht : ¬ doc < bt.TailFinish := by simpa using hdoc.2
    unfold docContribution
    rw [if_neg ht]
  rw [hz, add_zero]

theorem merge_confined (N : Nat) (addVector : List (List TBucketStats))
    (hadd : ∀ a ∈ addVector, N ≤ a.length) :
    ConfinedTo N (fun outputStatsSubset => mergeStatsSubset (N : Int) outputStatsSubset addVector) := by
  intro slice hlen
  obtain ⟨out, hout, hl, hget⟩ := mergeStatsSubset_spec N addVector slice hadd hlen
  refine ⟨out, hout, hl, fun s hs => ?_⟩
  apply getElem?_eq_of_getD_eq out slice s hl
  rw [hget s, if_neg (by omega), add_zero]

theorem FixUpStats_confined (depth : Nat) (indexer : TStatsIndexer) (selectedSplitValue : Bool)
    (n : Nat) (hd : depth ≠ 0) (h0 : 0 ≤ indexer.CalcSize (depth - 1))
    (hn : 2 * indexer.CalcSize (depth - 1) ≤ (n : Int)) :
    ConfinedTo n (FixUpStats depth indexer selectedSplitValue) := by
  intro slice hlen
  have hhalf : indexer.CalcSize (depth - 1) = ((indexer.CalcSize (depth - 1)).toNat : Int) :=
    (Int.toNat_of_nonneg h0).symm
  have h2 : 2 * (indexer.CalcSize (depth - 1)).toNat ≤ n := by
    have : ((2 * (indexer.CalcSize (depth - 1)).toNat : Nat) : Int) ≤ (n : Int) := by
      push_cast
      rw [← hhalf]
      exact hn
    exact_mod_cast this
  obtain ⟨out, hout, hl, hget⟩ := FixUpStats_spec depth indexer selectedSplitValue slice
    (indexer.CalcSize (depth - 1)).toNat hd hhalf (by omega)
  refine ⟨out, hout, hl, fun s hs => ?_⟩
  apply getElem?_eq_of_getD_eq out slice s hl
  rw [hget s, if_neg (by omega), if_neg (by omega)]

theorem foldlM_record {α β : Type} (g : α → β) :
    ∀ (xs : List α) (st : List β),
      xs.foldlM (fun st x => some (st ++ [g x])) st = some (st ++ xs.map g) := by
  intro xs
  induction xs with
  | nil => intro st; simp
  | cons x xs ih =>
    intro st
    rw [List.foldlM_cons]
    simp only [Option.bind_eq_bind, Option.some_bind]
    rw [ih]
    simp

/-- C21: the slice of `(bodyTailIdx, dim)` starts at `(bodyTailIdx * approxDimension + dim) *
splitStatsCount` (the offsets `forEachBodyTailAndApproxDimension` passes, in order); when
`CalcSize(depth) <= splitStatsCount`, the ranges `[offset, offset + CalcSize(depth))` of the
pairs with `bodyTailIdx < bodyTailCount`, `dim < approxDimension` lie inside
`[0, bodyTailCount * approxDimension * splitStatsCount)` and those of distinct pairs are
disjoint; an operation run at the offset of one pair that works inside the first
`CalcSize(depth)` slots of its slice returns and leaves every slot of every other pair as it
was; accumulation (`CalcStatsKernel` on documents whose composite index is below
`CalcSize(depth)`), the merge step and `FixUpStats` are such operations. -/
theorem C21_independent_slices (fold : TCalcScoreFold) (indexer : TStatsIndexer)
    (depth splitStatsCount : Nat) (hS : indexer.CalcSize depth ≤ (splitStatsCount : Int)) :
    forEachBodyTailAndApproxDimension fold splitStatsCount
        (fun bodyTailIdx dim bucketStatsArrayBegin calls =>
          some (calls ++ [(bodyTailIdx, dim, bucketStatsArrayBegin)])) []
      = some ((slicePairs fold).map (fun p =>
          (p.1, p.2, (p.1 * fold.ApproxDimension + p.2) * splitStatsCount))) ∧
    (∀ bodyTailIdx dim, bodyTailIdx < fold.BodyTailCount → dim < fold.ApproxDimension →
      (∀ i : Nat, (i : Int) < indexer.CalcSize depth →
        statsSliceBegin fold splitStatsCount bodyTailIdx dim + i
          < fold.BodyTailCount * fold.ApproxDimension * splitStatsCount) ∧
      (∀ bodyTailIdx2 dim2, bodyTailIdx2 < fold.BodyTailCount → dim2 < fold.ApproxDimension →
        (bodyTailIdx, dim) ≠ (bodyTailIdx2, dim2) →
        ∀ i j : Nat, (i : Int) < indexer.CalcSize depth → (j : Int) < indexer.CalcSize depth →
          statsSliceBegin fold splitStatsCount bodyTailIdx dim + i
            ≠ statsSliceBegin fold splitStatsCount bodyTailIdx2 dim2 + j) ∧
      (∀ (f : List TBucketStats → Option (List TBucketStats)) (data : List TBucketStats),
        data.length = fold.BodyTailCount * fold.ApproxDimension * splitStatsCount →
        ConfinedTo (indexer.CalcSize depth).toNat f →
        ∃ out, atOffset (statsSliceBegin fold splitStatsCount bodyTailIdx dim) f data = some out ∧
          out.length = data.length ∧
          ∀ bodyTailIdx2 dim2, bodyTailIdx2 < fold.BodyTailCount →
            dim2 < fold.ApproxDimension → (bodyTailIdx, dim) ≠ (bodyTailIdx2, dim2) →
            ∀ i, i < splitStatsCount →
              out[statsSliceBegin fold splitStatsCount bodyTailIdx2 dim2 + i]?
                = data[statsSliceBegin fold splitStatsCount bodyTailIdx2 dim2 + i]?)) ∧
    (∀ (isCaching : Bool) (singleIdx : List Nat) (isPlainMode : Bool) (bodyTail : TBodyTail)
        (dim : Nat) (docIndexRange : TIndexRange),
      (isPlainMode = false → bodyTail.BodyFinish ≤ bodyTail.TailFinish) →
      ReadsInBounds singleIdx fold bodyTail dim isPlainMode docIndexRange
        (indexer.CalcSize depth).toNat →
      0 ≤ indexer.CalcSize depth →
      (isCaching = true → depth ≠ 0 ∧ 0 ≤ indexer.CalcSize (depth - 1) ∧
        indexer.CalcSize (depth - 1) ≤ indexer.CalcSize depth) →
      ConfinedTo (indexer.CalcSize depth).toNat
        (CalcStatsKernel isCaching singleIdx fold isPlainMode indexer depth bodyTail dim
          docIndexRange)) ∧
    (∀ addVector : List (List TBucketStats),
      (∀ a ∈ addVector, (indexer.CalcSize depth).toNat ≤ a.length) →
      ConfinedTo (indexer.CalcSize depth).toNat
        (fun outputStatsSubset =>
          mergeStatsSubset (indexer.CalcSize depth) outputStatsSubset addVector)) ∧
    (depth ≠ 0 → 0 ≤ indexer.CalcSize (depth - 1) →
      2 * indexer.CalcSize (depth - 1) ≤ indexer.CalcSize depth →
      ConfinedTo (indexer.CalcSize depth).toNat
        (FixUpStats depth indexer fold.SmallestSplitSideValue)) := by
  have hC : (indexer.CalcSize depth).toNat ≤ splitStatsCount := by omega
  have hlt : ∀ i : Nat, (i : Int) < indexer.CalcSize depth →
      i < (indexer.CalcSize depth).toNat := fun i hi => by omega
  refine ⟨?_, ?_, ?_, ?_, ?_⟩
  · rw [forEach_eq_pairs, foldlM_record]
    rfl
  · intro bt dim hbt hdim
    have hin := slice_inside fold splitStatsCount bt dim hbt hdim
    refine ⟨fun i hi => ?_, ?_, ?_⟩
    · have := hlt i hi
      omega
    · intro bt2 dim2 _ hdim2 hne i j hi hj
      exact slices_disjoint fold splitStatsCount _ bt dim bt2 dim2 i j hdim hdim2 hne hC
        (hlt i hi) (hlt j hj)
    · intro f data hlen hf
      obtain ⟨out, hout, hl, hframe⟩ := atOffset_frame
        (statsSliceBegin fold splitStatsCount bt dim) _ f data (by omega) hf
      refine ⟨out, hout, hl, fun bt2 dim2 _ hdim2 hne i hi => hframe _ ?_⟩
      by_cases hlo : statsSliceBegin fold splitStatsCount bt2 dim2 + i
          < statsSliceBegin fold splitStatsCount bt dim
      · exact Or.inl hlo
      · right
        by_contra hcon
        have hj : statsSliceBegin fold splitStatsCount bt2 dim2 + i
            - statsSliceBegin fold splitStatsCount bt dim < splitStatsCount := by omega
        exact slices_disjoint fold splitStatsCount splitStatsCount bt dim bt2 dim2
          (statsSliceBegin fold splitStatsCount bt2 dim2 + i
            - statsSliceBegin fold splitStatsCount bt dim) i hdim hdim2 hne (le_refl _) hj hi
          (by omega)
  · intro isCaching singleIdx isPlainMode bodyTail dim r hbt hreads hpos hcache
    exact kernel_confined isCaching singleIdx fold isPlainMode indexer depth bodyTail dim r hbt
      hreads hpos hcache
  · intro addVector hadd
    have h := merge_confined (indexer.CalcSize depth).toNat addVector hadd
    have he : ∀ o, mergeStatsSubset (((indexer.CalcSize depth).toNat : Nat) : Int) o addVector
        = mergeStatsSubset (indexer.CalcSize depth) o addVector := by
      intro o
      unfold mergeStatsSubset
      rw [Int.toNat_natCast]
    simpa only [he] using h
  · intro hd h0 h2
    exact FixUpStats_confined depth indexer fold.SmallestSplitSideValue _ hd h0 (by omega)

theorem C21_independent_slices_witness :
    (TStatsIndexer.mk 3).CalcSize 1 ≤ ((8 : Nat) : Int) ∧
    forEachBodyTailAndApproxDimension exampleSliceFold 8
        (fun bodyTailIdx dim bucketStatsArrayBegin calls =>
          some (calls ++ [(bodyTailIdx, dim, bucketStatsArrayBegin)])) []
      = some [(0, 0, 0), (1, 0, 8)] ∧
    ∃ out, atOffset 8
        (CalcStatsKernel false exampleSingleIdx exampleSliceFold true ⟨3⟩ 1 exampleBodyTail 0
          ⟨0, 4⟩) exampleShared = some out ∧
      out.length = 16 ∧ ∀ i, i < 8 → out[i]? = exampleShared[i]? := by
  have h := C21_independent_slices exampleSliceFold ⟨3⟩ 1 8 (by decide)
  refine ⟨by decide, h.1, ?_⟩
  have hk := h.2.2.1 false exampleSingleIdx true exampleBodyTail 0 ⟨0, 4⟩ (by decide)
    (by decide) (by decide) (by decide)
  obtain ⟨out, hout, hl, hframe⟩ := (h.2.1 1 0 (by decide) (by decide)).2.2 _ exampleShared
    (by decide) hk
  exact ⟨out, hout, hl, fun i hi => by
    have := hframe 0 0 (by decide) (by decide) (by decide) i hi
    simpa [statsSliceBegin] using this⟩

/-! ## C27: which partitions write the output array during the parallel phase -/

theorem CalcStatsImplMapFunc_singleIdx (width : Nat) (isCaching : Bool) (fold : TCalcScoreFold)
    (column : List Nat) (indexer : TStatsIndexer) (isPlainMode : Bool) (depth : Nat)
    (splitStatsCount : Nat) (fresh : Nat → TBucketStats) (indexRange : TIndexRange)
    (singleIdx : List Nat) (output : Option (List TBucketStats))
    (res : List Nat × List TBucketStats)
    (h : CalcStatsImplMapFunc width isCaching fold column indexer isPlainMode depth
      splitStatsCount fresh indexRange singleIdx output = some res) :
    ∃ docIndexRange, mapFuncDocIndexRange fold indexRange = some docIndexRange ∧
      BuildSingleIndex width fold column indexer docIndexRange singleIdx = some res.1 ∧
      (output.isSome = true → docIndexRange.Begin = 0) := by
  unfold CalcStatsImplMapFunc at h
  simp only [Option.bind_eq_bind, Option.pure_def] at h
  cases hr : mapFuncDocIndexRange fold indexRange with
  | none => rw [hr] at h; simp at h
  | some r =>
    rw [hr, Option.some_bind] at h
    cases hb : BuildSingleIndex width fold column indexer r singleIdx with
    | none => rw [hb] at h; simp at h
    | some idx =>
      rw [hb, Option.some_bind] at h
      refine ⟨r, rfl, ?_, ?_⟩
      · rw [Option.bind_eq_some] at h
        obtain ⟨d, _, h2⟩ := h
        rw [Option.bind_eq_some] at h2
        obtain ⟨d2, _, h3⟩ := h2
        rw [Option.some.injEq] at h3
        rw [← h3]
        exact hb
      · intro hsome
        cases output with
        | none => simp at hsome
        | some data =>
          by_contra hne
          simp [hne] at h

/-- C27 (as amended): in the parallel phase every partition other than the first works on
a holder of its own, and what these partitions produce does not depend on the content of
the output array; the first partition accumulates directly into the output array, which the
map function accepts only for a document range that begins at `0`, and the output array
after the parallel phase is what that partition alone made of it. -/
theorem C27_only_first_partition_writes_output (width : Nat) (isCaching : Bool)
    (fold : TCalcScoreFold) (column : List Nat) (indexer : TStatsIndexer) (isPlainMode : Bool)
    (depth : Nat) (splitStatsCount : Nat) (fresh : Nat → Nat → TBucketStats)
    (first : TIndexRange) (others : List TIndexRange) (singleIdx : List Nat)
    (shared : List TBucketStats) (output : Option (List TBucketStats))
    (addVector : List (List TBucketStats))
    (h : mapPhase (first :: others)
      (fun blockId indexRange singleIdx output =>
        CalcStatsImplMapFunc width isCaching fold column indexer isPlainMode depth
          splitStatsCount (fresh blockId) indexRange singleIdx output)
      singleIdx (some shared) = some (output, addVector)) :
    (∃ docIndexRange, mapFuncDocIndexRange fold first = some docIndexRange ∧
      docIndexRange.Begin = 0) ∧
    (∃ idx out, CalcStatsImplMapFunc width isCaching fold column indexer isPlainMode depth
        splitStatsCount (fresh 0) first singleIdx (some shared) = some (idx, out) ∧
      output = some out ∧
      ∃ idx2, mapOthers
        (fun blockId indexRange singleIdx output =>
          CalcStatsImplMapFunc width isCaching fold column indexer isPlainMode depth
            splitStatsCount (fresh blockId) indexRange singleIdx output)
        1 others idx = some (idx2, addVector)) ∧
    (∀ (shared2 : List TBucketStats) (output2 : Option (List TBucketStats))
        (addVector2 : List (List TBucketStats)),
      mapPhase (first :: others)
        (fun blockId indexRange singleIdx output =>
          CalcStatsImplMapFunc width isCaching fold column indexer isPlainMode depth
            splitStatsCount (fresh blockId) indexRange singleIdx output)
        singleIdx (some shared2) = some (output2, addVector2) →
      addVector2 = addVector) := by
  have key : ∀ (sh : List TBucketStats) (o : Option (List TBucketStats))
      (av : List (List TBucketStats)),
      mapPhase (first :: others)
        (fun blockId indexRange singleIdx output =>
          CalcStatsImplMapFunc width isCaching fold column indexer isPlainMode depth
            splitStatsCount (fresh blockId) indexRange singleIdx output)
        singleIdx (some sh) = some (o, av) →
      ∃ idx out idx2, CalcStatsImplMapFunc width isCaching fold column indexer isPlainMode depth
          splitStatsCount (fresh 0) first singleIdx (some sh) = some (idx, out) ∧
        o = some out ∧
        mapOthers
          (fun blockId indexRange singleIdx output =>
            CalcStatsImplMapFunc width isCaching fold column indexer isPlainMode depth
              splitStatsCount (fresh blockId) indexRange singleIdx output)
          1 others idx = some (idx2, av) := by
    intro sh o av hm
    unfold mapPhase at hm
    simp only [Option.bind_eq_bind, Option.pure_def] at hm
    rw [Option.bind_eq_some] at hm
    obtain ⟨⟨idx, out⟩, h1, h2⟩ := hm
    rw [Option.bind_eq_some] at h2
    obtain ⟨⟨idx2, av2⟩, h3, h4⟩ := h2
    simp only [Option.some.injEq, Prod.mk.injEq] at h4
    exact ⟨idx, out, idx2, h1, h4.1.symm, by rw [h3, h4.2]⟩
  obtain ⟨idx, out, idx2, h1, h2, h3⟩ := key shared output addVector h
  obtain ⟨r, hr, hb, h0⟩ := CalcStatsImplMapFunc_singleIdx _ _ _ _ _ _ _ _ _ _ _ _ _ h1
  refine ⟨⟨r, hr, h0 rfl⟩, ⟨idx, out, h1, h2, idx2, h3⟩, ?_⟩
  intro shared2 output2 addVector2 hm2
  obtain ⟨idx', out', idx2', h1', _, h3'⟩ := key shared2 output2 addVector2 hm2
  obtain ⟨r', hr', hb', _⟩ := CalcStatsImplMapFunc_singleIdx _ _ _ _ _ _ _ _ _ _ _ _ _ h1'
  rw [hr] at hr'
  have hrr : r = r' := Option.some.inj hr'
  subst hrr
  rw [hb] at hb'
  have hii : idx = idx' := Option.some.inj hb'
  subst hii
  rw [h3] at h3'
  exact ((Prod.mk.injEq _ _ _ _).mp (Option.some.inj h3')).2.symm

theorem C27_only_first_partition_writes_output_witness :
    ∃ docIndexRange, mapFuncDocIndexRange exampleSliceFold ⟨0, 2⟩ = some docIndexRange ∧
      docIndexRange.Begin = 0 :=
  (C27_only_first_partition_writes_output 8 false exampleSliceFold [0, 1, 2, 1] ⟨3⟩ true 1 8
    (fun _ _ => ⟨5, 5, 5, 5⟩) ⟨0, 2⟩ [⟨2, 4⟩] [9, 9, 9, 9] exampleShared
    (some exampleMapOutput) [exampleMapPrivate] (by with_unfolding_all decide)).1

/-- C27 fails as stated: handed the output array of the caller (an initialised holder), the
map function of the partition `[0, 2)` accumulates straight into it, and after the parallel
phase on the partitions `[0, 2)`, `[2, 4)`, before any merge, slot `0` of the output array
holds the statistics of document `0` instead of its former content. -/
theorem C27_first_partition_writes_output_array :
    (∃ idx out, CalcStatsImplMapFunc 8 false exampleSliceFold [0, 1, 2, 1] ⟨3⟩ true 1 8
        (fun _ => ⟨5, 5, 5, 5⟩) ⟨0, 2⟩ [9, 9, 9, 9] (some exampleShared) = some (idx, out) ∧
      out[0]? ≠ exampleShared[0]?) ∧
    ∃ out addVector, mapPhase [⟨0, 2⟩, ⟨2, 4⟩]
        (fun _ indexRange singleIdx output =>
          CalcStatsImplMapFunc 8 false exampleSliceFold [0, 1, 2, 1] ⟨3⟩ true 1 8
            (fun _ => ⟨5, 5, 5, 5⟩) indexRange singleIdx output)
        [9, 9, 9, 9] (some exampleShared) = some (some out, addVector) ∧
      exampleShared[0]? = some ⟨7, 7, 7, 7⟩ ∧ out[0]? = some ⟨-1, 1, 0, 0⟩ :=
  ⟨⟨[0, 1, 9, 9], exampleMapOutput, by with_unfolding_all decide, by with_unfolding_all decide⟩,
    ⟨exampleMapOutput, [exampleMapPrivate], by with_unfolding_all decide,
      by with_unfolding_all decide, by with_unfolding_all decide⟩⟩

/-! ## C24: the depth-cache policy -/

theorem CalcStatsImpl_scratch (width : Nat) (fold : TCalcScoreFold) (column : List Nat)
    (indexer : TStatsIndexer) (isPlainMode : Bool) (depth : Nat) (splitStatsCount : Nat)
    (garbage : Nat → Nat) (fresh : Nat → Nat → TBucketStats) (ranges : List TIndexRange)
    (stats : Option (List TBucketStats)) :
    CalcStatsImpl width false fold column indexer isPlainMode depth splitStatsCount garbage
        fresh ranges stats
      = CalcStatsImplMapMerge width false fold column indexer isPlainMode depth splitStatsCount
          garbage fresh ranges stats := by
  unfold CalcStatsImpl
  simp

theorem CalcStatsImpl_caching (width : Nat) (fold : TCalcScoreFold) (column : List Nat)
    (indexer : TStatsIndexer) (isPlainMode : Bool) (depth : Nat) (splitStatsCount : Nat)
    (garbage : Nat → Nat) (fresh : Nat → Nat → TBucketStats) (ranges : List TIndexRange)
    (stats : Option (List TBucketStats)) (hd : depth ≠ 0) :
    CalcStatsImpl width true fold column indexer isPlainMode depth splitStatsCount garbage
        fresh ranges stats
      = (CalcStatsImplMapMerge width true fold column indexer isPlainMode depth splitStatsCount
          garbage fresh ranges stats).bind (fun merged =>
            merged.bind (fun data =>
              (CalcStatsImplFixUp fold indexer depth splitStatsCount data).map some)) := by
  unfold CalcStatsImpl
  simp only [hd, and_false, if_false, if_true, Option.bind_eq_bind, Option.pure_def]
  congr 1
  funext merged
  cases merged with
  | none => rfl
  | some data =>
    simp only [Option.some_bind]
    cases CalcStatsImplFixUp fold indexer depth splitStatsCount data <;> rfl

/-- C24: with tree-level caching and pointwise scoring (and an index width that
`selectCalcStatsImpl` serves, `fullIndexBitCount <= 32`), `CalcStatsAndScores` calls
`CalcStatsImpl` without caching on the current fold when `depth == 0` or the cache entry is
dirty, which is the map and merge phases alone (kernels run with `isCaching = false`, no
`FixUpStats`); it calls `CalcStatsImpl` with caching on the previous-level fold, which is
the map and merge phases followed by `FixUpStats` on every slice, exactly when `depth > 0`
and the entry is clean; so the call never has `isCaching` with `depth == 0` and the
assertion `!isCaching || depth > 0` holds. -/
theorem C24_depth_cache_policy (fullIndexBitCount : Nat) (fold prevLevelData : TCalcScoreFold)
    (column : List Nat) (indexer : TStatsIndexer) (isPlainMode : Bool) (depth maxDepth : Nat)
    (garbage : Nat → Nat) (fresh : Nat → Nat → TBucketStats)
    (calcStatsIndexRanges : TCalcScoreFold → List TIndexRange)
    (splitStatsFromCache : List TBucketStats) (areStatsDirty : Bool)
    (hbits : fullIndexBitCount ≤ 32) :
    ∃ width, selectCalcStatsImpl fullIndexBitCount = some width ∧
      (depth = 0 ∨ areStatsDirty = true →
        pointwiseCalcStatsImplCall true fold prevLevelData indexer depth maxDepth
            splitStatsFromCache areStatsDirty
          = ⟨false, fold, indexer.CalcSize maxDepth, some splitStatsFromCache⟩ ∧
        CalcStatsAndScoresStats true fullIndexBitCount fold prevLevelData column indexer
            isPlainMode depth maxDepth garbage fresh calcStatsIndexRanges splitStatsFromCache
            areStatsDirty
          = CalcStatsImplMapMerge width false fold column indexer isPlainMode depth
              (indexer.CalcSize maxDepth).toNat garbage fresh (calcStatsIndexRanges fold)
              (some splitStatsFromCache)) ∧
      (depth ≠ 0 ∧ areStatsDirty = false →
        pointwiseCalcStatsImplCall true fold prevLevelData indexer depth maxDepth
            splitStatsFromCache areStatsDirty
          = ⟨true, prevLevelData, indexer.CalcSize maxDepth, some splitStatsFromCache⟩ ∧
        CalcStatsAndScoresStats true fullIndexBitCount fold prevLevelData column indexer
            isPlainMode depth maxDepth garbage fresh calcStatsIndexRanges splitStatsFromCache
            areStatsDirty
          = (CalcStatsImplMapMerge width true prevLevelData column indexer isPlainMode depth
              (indexer.CalcSize maxDepth).toNat garbage fresh
              (calcStatsIndexRanges prevLevelData) (some splitStatsFromCache)).bind
              (fun merged => merged.bind (fun data =>
                (CalcStatsImplFixUp prevLevelData indexer depth
                  (indexer.CalcSize maxDepth).toNat data).map some))) ∧
      ((pointwiseCalcStatsImplCall true fold prevLevelData indexer depth maxDepth
          splitStatsFromCache areStatsDirty).IsCaching = true
        ↔ depth ≠ 0 ∧ areStatsDirty = false) ∧
      ¬ ((pointwiseCalcStatsImplCall true fold prevLevelData indexer depth maxDepth
          splitStatsFromCache areStatsDirty).IsCaching = true ∧ depth = 0) := by
  obtain ⟨width, hw⟩ : ∃ width, selectCalcStatsImpl fullIndexBitCount = some width := by
    unfold selectCalcStatsImpl
    by_cases h8 : fullIndexBitCount ≤ 8
    · exact ⟨8, by rw [if_pos h8]⟩
    · by_cases h16 : fullIndexBitCount ≤ 16
      · exact ⟨16, by rw [if_neg h8, if_pos h16]⟩
      · exact ⟨32, by rw [if_neg h8, if_neg h16, if_pos hbits]⟩
  refine ⟨width, hw, ?_, ?_, ?_, ?_⟩
  · intro h
    have hc : pointwiseCalcStatsImplCall true fold prevLevelData indexer depth maxDepth
        splitStatsFromCache areStatsDirty
        = ⟨false, fold, indexer.CalcSize maxDepth, some splitStatsFromCache⟩ := by
      unfold pointwiseCalcStatsImplCall
      simp [h]
    refine ⟨hc, ?_⟩
    unfold CalcStatsAndScoresStats runCalcStatsImplCall
    rw [hc, hw]
    exact CalcStatsImpl_scratch _ _ _ _ _ _ _ _ _ _ _
  · intro h
    have hc : pointwiseCalcStatsImplCall true fold prevLevelData indexer depth maxDepth
        splitStatsFromCache areStatsDirty
        = ⟨true, prevLevelData, indexer.CalcSize maxDepth, some splitStatsFromCache⟩ := by
      unfold pointwiseCalcStatsImplCall
      simp [h.1, h.2]
    refine ⟨hc, ?_⟩
    unfold CalcStatsAndScoresStats runCalcStatsImplCall
    rw [hc, hw]
    exact CalcStatsImpl_caching _ _ _ _ _ _ _ _ _ _ _ h.1
  · unfold pointwiseCalcStatsImplCall
    by_cases hd : depth = 0
    · simp [hd]
    · cases areStatsDirty <;> simp [hd]
  · unfold pointwiseCalcStatsImplCall
    by_cases hd : depth = 0
    · simp [hd]
    · simp [hd]

theorem C24_depth_cache_policy_witness :
    ∃ width, selectCalcStatsImpl 3 = some width ∧
      (1 = 0 ∨ false = true →
        pointwiseCalcStatsImplCall true exampleSliceFold exampleSliceFold ⟨3⟩ 1 1
            exampleShared false
          = ⟨false, exampleSliceFold, (TStatsIndexer.mk 3).CalcSize 1, some exampleShared⟩ ∧
        CalcStatsAndScoresStats true 3 exampleSliceFold exampleSliceFold [0, 1, 2, 1] ⟨3⟩ true 1
            1 (fun _ => 9) (fun _ _ => ⟨5, 5, 5, 5⟩) (fun _ => [⟨0, 2⟩, ⟨2, 4⟩]) exampleShared
            false
          = CalcStatsImplMapMerge width false exampleSliceFold [0, 1, 2, 1] ⟨3⟩ true 1
              ((TStatsIndexer.mk 3).CalcSize 1).toNat (fun _ => 9) (fun _ _ => ⟨5, 5, 5, 5⟩)
              [⟨0, 2⟩, ⟨2, 4⟩] (some exampleShared)) ∧
      (1 ≠ 0 ∧ false = false →
        pointwiseCalcStatsImplCall true exampleSliceFold exampleSliceFold ⟨3⟩ 1 1
            exampleShared false
          = ⟨true, exampleSliceFold, (TStatsIndexer.mk 3).CalcSize 1, some exampleShared⟩ ∧
        CalcStatsAndScoresStats true 3 exampleSliceFold exampleSliceFold [0, 1, 2, 1] ⟨3⟩ true 1
            1 (fun _ => 9) (fun _ _ => ⟨5, 5, 5, 5⟩) (fun _ => [⟨0, 2⟩, ⟨2, 4⟩]) exampleShared
            false
          = (CalcStatsImplMapMerge width true exampleSliceFold [0, 1, 2, 1] ⟨3⟩ true 1
              ((TStatsIndexer.mk 3).CalcSize 1).toNat (fun _ => 9) (fun _ _ => ⟨5, 5, 5, 5⟩)
              [⟨0, 2⟩, ⟨2, 4⟩] (some exampleShared)).bind
              (fun merged => merged.bind (fun data =>
                (CalcStatsImplFixUp exampleSliceFold ⟨3⟩ 1
                  ((TStatsIndexer.mk 3).CalcSize 1).toNat data).map some))) ∧
      ((pointwiseCalcStatsImplCall true exampleSliceFold exampleSliceFold ⟨3⟩ 1 1
          exampleShared false).IsCaching = true
        ↔ 1 ≠ 0 ∧ false = false) ∧
      ¬ ((pointwiseCalcStatsImplCall true exampleSliceFold exampleSliceFold ⟨3⟩ 1 1
          exampleShared false).IsCaching = true ∧ 1 = 0) :=
  C24_depth_cache_policy 3 exampleSliceFold exampleSliceFold [0, 1, 2, 1] ⟨3⟩ true 1 1
    (fun _ => 9) (fun _ _ => ⟨5, 5, 5, 5⟩) (fun _ => [⟨0, 2⟩, ⟨2, 4⟩]) exampleShared false
    (by decide)

/-! ## C22: the accumulator writes land in `[0, CalcSize(depth))` -/

theorem composite_index_lt_size (indexer : TStatsIndexer) (depth : Nat) (leaf bucket : Nat)
    (hfit : indexer.BucketCount * 2 ^ depth < 2 ^ 31) (hleaf : leaf < 2 ^ depth)
    (hbucket : (bucket : Int) < indexer.BucketCount) :
    0 ≤ indexer.GetIndex (leaf : Int) (bucket : Int) ∧
      indexer.GetIndex (leaf : Int) (bucket : Int) < indexer.CalcSize depth := by
  have hl : (leaf : Int) < 2 ^ depth := by exact_mod_cast hleaf
  have hb0 : 0 ≤ indexer.BucketCount := by omega
  rw [GetIndex_of_fits indexer depth leaf bucket hfit (by omega) hl (by omega) hbucket,
    CalcSize_of_fits indexer depth hb0 hfit]
  have h1 : indexer.BucketCount * ((leaf : Int) + 1) ≤ indexer.BucketCount * 2 ^ depth :=
    mul_le_mul_of_nonneg_left (by omega) hb0
  have h2 : indexer.BucketCount * ((leaf : Int) + 1)
      = indexer.BucketCount * leaf + indexer.BucketCount := by ring
  have h3 : 0 ≤ indexer.BucketCount * (leaf : Int) := mul_nonneg hb0 (by omega)
  constructor
  · omega
  · omega

/-- C22 (as amended): when `bucketCount * 2^depth` fits a signed 32-bit int and every
document that the kernel accumulates has a leaf index `< 2^depth` and a bucket value
`< bucketCount`, its slot index `singleIdx[doc] = GetIndex(leaf, bucket)` is in
`[0, CalcSize(depth))`, and `CalcStatsKernel` (clearing, `UpdateWeighted`,
`UpdateDeltaCount`) returns for every slice of at least `CalcSize(depth)` slots: no access
to the statistics array fails.  (The derivative and weight arrays cover the accumulated
documents.) -/
theorem C22_writes_land_in_range (isCaching : Bool) (singleIdx : List Nat)
    (fold : TCalcScoreFold) (isPlainMode : Bool) (indexer : TStatsIndexer) (depth : Nat)
    (bodyTail : TBodyTail) (dim : Nat) (docIndexRange : TIndexRange) (leaf bucket : Nat → Nat)
    (hb : 1 ≤ indexer.BucketCount)
    (hfit : indexer.BucketCount * 2 ^ depth < 2 ^ 31)
    (hidx : ∀ doc ∈ docIndexRange.Iter, doc < bodyTail.TailFinish →
      leaf doc < 2 ^ depth ∧ (bucket doc : Int) < indexer.BucketCount ∧
      ∃ v : Nat, singleIdx[doc]? = some v ∧
        (v : Int) = indexer.GetIndex (leaf doc : Int) (bucket doc : Int))
    (hdata : dim < bodyTail.SampleWeightedDerivatives.length ∧
      (isPlainMode = false → dim < bodyTail.WeightedDerivatives.length) ∧
      ∀ doc ∈ docIndexRange.Iter, doc < bodyTail.TailFinish →
        (docRead fold bodyTail dim isPlainMode doc).isSome = true)
    (hbt : isPlainMode = false → bodyTail.BodyFinish ≤ bodyTail.TailFinish)
    (hdepth : isCaching = true → depth ≠ 0) :
    (∀ doc ∈ docIndexRange.Iter, doc < bodyTail.TailFinish →
      ∃ idx : Nat, singleIdx[doc]? = some idx ∧ (0 : Int) ≤ idx ∧
        (idx : Int) < indexer.CalcSize depth) ∧
    ∀ stats : List TBucketStats, indexer.CalcSize depth ≤ (stats.length : Int) →
      ∃ out, CalcStatsKernel isCaching singleIdx fold isPlainMode indexer depth bodyTail dim
          docIndexRange stats = some out ∧ out.length = stats.length := by
  have hb0 : 0 ≤ indexer.BucketCount := by omega
  have hslots : ∀ doc ∈ docIndexRange.Iter, doc < bodyTail.TailFinish →
      ∃ idx : Nat, singleIdx[doc]? = some idx ∧ (idx : Int) < indexer.CalcSize depth := by
    intro doc hdoc ht
    obtain ⟨hl, hbk, v, hv, hve⟩ := hidx doc hdoc ht
    exact ⟨v, hv, by
      rw [hve]
      exact (composite_index_lt_size indexer depth _ _ hfit hl hbk).2⟩
  refine ⟨fun doc hdoc ht => ?_, fun stats hlen => ?_⟩
  · obtain ⟨idx, h1, h2⟩ := hslots doc hdoc ht
    exact ⟨idx, h1, by omega, h2⟩
  · have hsize := CalcSize_of_fits indexer depth hb0 hfit
    have hpos : 0 ≤ indexer.CalcSize depth := by
      rw [hsize]
      exact mul_nonneg hb0 (le_of_lt (two_pow_pos_int depth))
    have hreads : ReadsInBounds singleIdx fold bodyTail dim isPlainMode docIndexRange
        stats.length := by
      refine ⟨hdata.1, hdata.2.1, fun doc hdoc ht => ?_⟩
      obtain ⟨idx, h1, h2⟩ := hslots doc hdoc ht
      have hlt : doc < singleIdx.length := by
        by_contra hn
        rw [List.getElem?_eq_none (by omega)] at h1
        exact Option.noConfusion h1
      refine ⟨hdata.2.2 doc hdoc ht, hlt, ?_⟩
      rw [List.getD_eq_getElem?_getD, h1]
      simp only [Option.getD_some]
      omega
    obtain ⟨out, hout, hl, _⟩ := CalcStatsKernel_spec isCaching singleIdx fold isPlainMode
      indexer depth bodyTail dim docIndexRange stats
      (if isCaching = true then indexer.CalcSize (depth - 1) else 0) hbt hreads rfl hdepth
      (by split
          · next h =>
            have hd := CalcSize_double indexer depth (by have := hdepth h; omega) hb0 hfit
            omega
          · exact le_refl _)
      (by split
          · next h =>
            have hd := CalcSize_double indexer depth (by have := hdepth h; omega) hb0 hfit
            omega
          · exact hpos)
      hlen
    exact ⟨out, hout, hl⟩

theorem C22_writes_land_in_range_witness :
    (∀ doc ∈ (TIndexRange.mk 0 4).Iter, doc < exampleBodyTail.TailFinish →
      ∃ idx : Nat, exampleSingleIdx[doc]? = some idx ∧ (0 : Int) ≤ idx ∧
        (idx : Int) < (TStatsIndexer.mk 3).CalcSize 1) ∧
    ∀ stats : List TBucketStats, (TStatsIndexer.mk 3).CalcSize 1 ≤ (stats.length : Int) →
      ∃ out, CalcStatsKernel false exampleSingleIdx exampleFold true ⟨3⟩ 1 exampleBodyTail 0
          ⟨0, 4⟩ stats = some out ∧ out.length = stats.length :=
  C22_writes_land_in_range false exampleSingleIdx exampleFold true ⟨3⟩ 1 exampleBodyTail 0
    ⟨0, 4⟩ (fun doc => [0, 0, 1, 1].getD doc 0) exampleBucket (by decide) (by decide)
    (by decide) (by decide) (by decide) (by decide)

/-- C22 fails as stated: with `bucketCount = 65536` and `depth = 16` (a 32-bit index) the
product `(1U << 16) * 65536` wraps to `CalcSize(16) = 0`; the document with leaf `0` and
bucket `0` has the slot index `GetIndex(0, 0) = 0`, which is not in `[0, 0)`, and on the
empty slice, which has `CalcSize(16)` slots, the access of the kernel fails. -/
theorem C22_slot_outside_range_on_overflow :
    (0 : Nat) < 2 ^ 16 ∧ ((0 : Nat) : Int) < (TStatsIndexer.mk 65536).BucketCount ∧
    ((0 : Nat) : Int) = (TStatsIndexer.mk 65536).GetIndex 0 0 ∧
    (TStatsIndexer.mk 65536).CalcSize 16 = 0 ∧
    ¬ (((0 : Nat) : Int) < (TStatsIndexer.mk 65536).CalcSize 16) ∧
    (TStatsIndexer.mk 65536).CalcSize 16 ≤ ((([] : List TBucketStats).length : Nat) : Int) ∧
    CalcStatsKernel false [0] exampleFold true ⟨65536⟩ 16 exampleBodyTail 0 ⟨0, 1⟩ [] = none := by
  refine ⟨by decide, by decide, by decide, by decide, by decide, by decide, ?_⟩
  with_unfolding_all decide

/-! ## C23: the weight and count fields are non-negative -/

theorem docContribution_nonneg (fold : TCalcScoreFold) (bt : TBodyTail) (dim : Nat)
    (isPlainMode : Bool)
    (hsw : ∀ w ∈ (sampleWeightsData fold bt).getD [], (0 : ℚ) ≤ w)
    (hlw : ∀ w ∈ (weightsData fold bt).getD [], (0 : ℚ) ≤ w) (doc : Nat) :
    0 ≤ (docContribution fold bt dim isPlainMode doc).SumWeight ∧
      0 ≤ (docContribution fold bt dim isPlainMode doc).Count := by
  have hz : (0 : ℚ) ≤ (0 : TBucketStats).SumWeight ∧ (0 : ℚ) ≤ (0 : TBucketStats).Count :=
    ⟨le_refl _, le_refl _⟩
  unfold docContribution
  split
  · unfold docRead
    split
    · cases hv : bt.SampleWeightedDerivatives[dim]? with
      | none => exact hz
      | some v =>
        rw [Option.some_bind]
        unfold weightedRead
        simp only [Option.bind_eq_bind, Option.pure_def]
        cases hwd : readAt (GetDataPtr v) doc with
        | none => exact hz
        | some wd =>
          rw [Option.some_bind]
          cases hs : sampleWeightsData fold bt with
          | none => exact hz
          | some sw =>
            rw [hs] at hsw
            unfold readAt
            rw [Option.some_bind]
            cases hx : sw[doc]? with
            | none => exact hz
            | some x =>
              have hmem : x ∈ sw := by
                obtain ⟨hl, hv⟩ := List.getElem?_eq_some.mp hx
                rw [← hv]
                exact List.getElem_mem _
              exact ⟨hsw x hmem, le_refl _⟩
    · cases hv : bt.WeightedDerivatives[dim]? with
      | none => exact hz
      | some v =>
        rw [Option.some_bind]
        unfold deltaCountRead
        cases hl : weightsData fold bt with
        | none =>
          simp only [Option.bind_eq_bind, Option.pure_def]
          cases hder : readAt (GetDataPtr v) doc with
          | none => exact hz
          | some der => exact ⟨le_refl _, by show (0 : ℚ) ≤ 1; norm_num⟩
        | some lw =>
          rw [hl] at hlw
          simp only [Option.bind_eq_bind, Option.pure_def]
          cases hder : readAt (GetDataPtr v) doc with
          | none => exact hz
          | some der =>
            rw [Option.some_bind]
            cases hx : lw[doc]? with
            | none => exact hz
            | some x =>
              have hmem : x ∈ lw := by
                obtain ⟨hl, hv⟩ := List.getElem?_eq_some.mp hx
                rw [← hv]
                exact List.getElem_mem _
              exact ⟨le_refl _, hlw x hmem⟩
  · exact hz

theorem sum_fields_nonneg (c : Nat → TBucketStats) (l : List Nat)
    (h : ∀ doc ∈ l, 0 ≤ (c doc).SumWeight ∧ 0 ≤ (c doc).Count) :
    0 ≤ (l.map c).sum.SumWeight ∧ 0 ≤ (l.map c).sum.Count := by
  rw [sum_map_SumWeight, sum_map_Count]
  constructor
  · apply List.sum_nonneg
    intro x hx
    rw [List.mem_map] at hx
    obtain ⟨doc, hdoc, rfl⟩ := hx
    exact (h doc hdoc).1
  · apply List.sum_nonneg
    intro x hx
    rw [List.mem_map] at hx
    obtain ⟨doc, hdoc, rfl⟩ := hx
    exact (h doc hdoc).2

theorem slotSum_fields_nonneg (singleIdx : List Nat) (c : Nat → TBucketStats) (docs : List Nat)
    (s : Nat) (h : ∀ doc, 0 ≤ (c doc).SumWeight ∧ 0 ≤ (c doc).Count) :
    0 ≤ (slotSum singleIdx c docs s).SumWeight ∧ 0 ≤ (slotSum singleIdx c docs s).Count := by
  unfold slotSum
  exact sum_fields_nonneg c _ (fun doc _ => h doc)

/-- C23, in exact arithmetic (the `double` fields read as rationals; in `double`
arithmetic the sum of the new half can exceed the sum of the parent by a rounding error,
and the difference that `FixUpStats` stores is then negative): with non-negative sample and
learn weights (the weight arrays the kernel reads), accumulation from scratch returns and leaves `SumWeight >= 0` and `Count >= 0` in every slot
of `[0, CalcSize(depth))` (these are all slots when the slice has `CalcSize(depth)` slots);
and after the incremental step (kernel with caching on the new half, merge, `FixUpStats`)
every slot of `[0, CalcSize(depth))` has `SumWeight >= 0` and `Count >= 0`, provided the
parent half `[0, CalcSize(depth - 1))` of the cache holds the statistics of the documents
`0 .. n-1` (`hcache`) and the new half is accumulated from a subset `sel` of these
documents, each with its contribution and in the slot of its parent slot plus
`CalcSize(depth - 1)` (`hsmall`). -/
theorem C23_weight_fields_nonnegative
    (indexer : TStatsIndexer) (depth : Nat) (isPlainMode : Bool) (dim : Nat)
    (fold : TCalcScoreFold) (bt : TBodyTail) (n : Nat) (idxPrev : List Nat) (sel : Nat → Bool)
    (smallFold : TCalcScoreFold) (smallBt : TBodyTail) (nSmall : Nat) (idxSmall : List Nat)
    (ranges : List TIndexRange) (buffers : List (List TBucketStats))
    (cache : List TBucketStats) (m : Nat)
    (hsw : ∀ w ∈ (sampleWeightsData fold bt).getD [], (0 : ℚ) ≤ w)
    (hlw : ∀ w ∈ (weightsData fold bt).getD [], (0 : ℚ) ≤ w)
    (hbt : isPlainMode = false → bt.BodyFinish ≤ bt.TailFinish)
    (hd : 1 ≤ depth) (hb : 0 ≤ indexer.BucketCount)
    (hfit : indexer.BucketCount * 2 ^ depth < 2 ^ 31)
    (hsbt : isPlainMode = false → smallBt.BodyFinish ≤ smallBt.TailFinish)
    (hprev : ∀ doc, doc < n →
      ∃ v : Nat, idxPrev[doc]? = some v ∧ (v : Int) < indexer.CalcSize (depth - 1))
    (hcache : ∀ i : Nat, (i : Int) < indexer.CalcSize (depth - 1) →
      cache.getD i 0
        = slotSum idxPrev (docContribution fold bt dim isPlainMode) (List.range n) i)
    (hsmall : (List.range nSmall).map
        (fun k => (idxSmall[k]?, docContribution smallFold smallBt dim isPlainMode k))
      = ((List.range n).filter (fun doc => sel doc)).map
          (fun doc => ((idxPrev[doc]?).map (fun v => v + (indexer.CalcSize (depth - 1)).toNat),
            docContribution fold bt dim isPlainMode doc)))
    (hsplit : IsSplitOf 0 nSmall ranges) (hne : ranges ≠ [])
    (htail : ∀ r ∈ ranges.tail, r.Begin ≠ 0)
    (hlen : buffers.length + 1 = ranges.length)
    (hbufs : ∀ buf ∈ cache :: buffers, m ≤ buf.length)
    (hsize : indexer.CalcSize depth ≤ (m : Int))
    (hsreads : ReadsInBounds idxSmall smallFold smallBt dim isPlainMode ⟨0, nSmall⟩ m) :
    (∀ (singleIdx : List Nat) (d : Nat) (r : TIndexRange) (stats : List TBucketStats),
      ReadsInBounds singleIdx fold bt dim isPlainMode r stats.length →
      0 ≤ indexer.CalcSize d → indexer.CalcSize d ≤ (stats.length : Int) →
      ∃ out, CalcStatsKernel false singleIdx fold isPlainMode indexer d bt dim r stats
          = some out ∧
        ∀ s : Nat, (s : Int) < indexer.CalcSize d →
          0 ≤ (out.getD s 0).SumWeight ∧ 0 ≤ (out.getD s 0).Count) ∧
    ∃ incremental,
      CalcStatsInPartitions true idxSmall smallFold isPlainMode indexer depth smallBt dim
        ranges (cache :: buffers) = some incremental ∧
      ∀ s : Nat, (s : Int) < indexer.CalcSize depth →
        0 ≤ (incremental.getD s 0).SumWeight ∧ 0 ≤ (incremental.getD s 0).Count := by
  have hc := docContribution_nonneg fold bt dim isPlainMode hsw hlw
  constructor
  · intro singleIdx d r stats hreads hpos hlen
    obtain ⟨out, hout, _, hget⟩ := CalcStatsKernel_spec false singleIdx fold isPlainMode
      indexer d bt dim r stats 0 hbt hreads (by simp) (by simp) le_rfl hpos hlen
    refine ⟨out, hout, fun s hs => ?_⟩
    rw [hget s, if_pos ⟨by omega, hs⟩, zero_add]
    exact slotSum_fields_nonneg _ _ _ _ hc
  · obtain ⟨hc1, hc2⟩ := CalcSize_double indexer depth hd hb hfit
    have hh0 : 0 ≤ indexer.CalcSize (depth - 1) := by
      rw [hc1]
      exact mul_nonneg hb (le_of_lt (two_pow_pos_int (depth - 1)))
    have hhalf : indexer.CalcSize (depth - 1)
        = (((indexer.CalcSize (depth - 1)).toNat : Nat) : Int) := (Int.toNat_of_nonneg hh0).symm
    generalize hhdef : (indexer.CalcSize (depth - 1)).toNat = half at hhalf hsmall
    have hsz : indexer.CalcSize depth = ((half + half : Nat) : Int) := by
      rw [hc2, hhalf]
      push_cast
      ring
    have hm : half + half ≤ m := by omega
    have hpidx : ∀ doc, doc < n →
        idxPrev[doc]? = some (idxPrev.getD doc 0) ∧ idxPrev.getD doc 0 < half := by
      intro doc hdoc
      obtain ⟨v, hv, hvlt⟩ := hprev doc hdoc
      rw [List.getD_eq_getElem?_getD, hv]
      simp only [Option.getD_some]
      exact ⟨trivial, by omega⟩
    obtain ⟨out0, rest, merged, hmap, hmerge, hmlen, hmget⟩ := cached_merge_spec idxSmall
      smallFold isPlainMode indexer depth smallBt dim nSmall m half ranges cache buffers
      (by omega) hhalf hsz hm hsbt hsplit hne htail hlen hbufs hsreads
    have hcl : m ≤ cache.length := hbufs cache (by simp)
    obtain ⟨inc, hinc, hinclen, hincget⟩ := FixUpStats_spec depth indexer
      smallFold.SmallestSplitSideValue merged half (by omega) hhalf (by omega)
    have hsmallSlot : ∀ s, slotSum idxSmall (docContribution smallFold smallBt dim isPlainMode)
          (List.range' 0 nSmall) s
        = (((List.range n).filter (fun doc => sel doc = true ∧
              idxPrev.getD doc 0 + half = s)).map
              (docContribution fold bt dim isPlainMode)).sum := by
      intro s
      unfold slotSum
      rw [← List.range_eq_range', sum_filter_pairs (List.range nSmall) (fun k => idxSmall[k]?),
        hsmall, ← sum_filter_pairs _
          (fun doc => (idxPrev[doc]?).map (fun v => v + half)), List.filter_filter]
      congr 2
      apply List.filter_congr
      intro doc hdoc
      rw [(hpidx doc (List.mem_range.mp hdoc)).1]
      simp [Bool.and_comm]
    have hparent : ∀ i, i < half → cache.getD i 0
        = (((List.range n).filter (fun doc => sel doc = true ∧ idxPrev.getD doc 0 = i)).map
              (docContribution fold bt dim isPlainMode)).sum
          + (((List.range n).filter (fun doc => sel doc = false ∧ idxPrev.getD doc 0 = i)).map
              (docContribution fold bt dim isPlainMode)).sum := by
      intro i hi
      rw [hcache i (by omega), slotSum_eq_filter idxPrev _ (List.range n) i
        (fun doc => idxPrev.getD doc 0)
        (fun doc hdoc => (hpidx doc (List.mem_range.mp hdoc)).1)]
      exact sum_filter_split (List.range n) _ sel (fun doc => idxPrev.getD doc 0 = i)
    have hmLower : ∀ i, i < half → merged.getD i 0 = cache.getD i 0 := by
      intro i hi
      rw [hmget i (by omega), if_pos hi, hsmallSlot i, sum_filter_empty, add_zero]
      intro doc _
      omega
    have hmUpper : ∀ i, i < half → merged.getD (i + half) 0
        = (((List.range n).filter (fun doc => sel doc = true ∧ idxPrev.getD doc 0 = i)).map
              (docContribution fold bt dim isPlainMode)).sum := by
      intro i hi
      rw [hmget (i + half) (by omega), if_neg (by omega), zero_add, hsmallSlot (i + half)]
      apply sum_filter_congr
      intro doc _
      constructor
      · rintro ⟨h1, h2⟩
        exact ⟨h1, by omega⟩
      · rintro ⟨h1, h2⟩
        exact ⟨h1, by omega⟩
    have hnew : ∀ i, 0 ≤ ((((List.range n).filter (fun doc => sel doc = true ∧
          idxPrev.getD doc 0 = i)).map (docContribution fold bt dim isPlainMode)).sum).SumWeight ∧
        0 ≤ ((((List.range n).filter (fun doc => sel doc = true ∧
          idxPrev.getD doc 0 = i)).map (docContribution fold bt dim isPlainMode)).sum).Count :=
      fun i => sum_fields_nonneg _ _ (fun doc _ => hc doc)
    have hrest : ∀ i, 0 ≤ ((((List.range n).filter (fun doc => sel doc = false ∧
          idxPrev.getD doc 0 = i)).map (docContribution fold bt dim isPlainMode)).sum).SumWeight ∧
        0 ≤ ((((List.range n).filter (fun doc => sel doc = false ∧
          idxPrev.getD doc 0 = i)).map (docContribution fold bt dim isPlainMode)).sum).Count :=
      fun i => sum_fields_nonneg _ _ (fun doc _ => hc doc)
    have hdiff : ∀ i, i < half → merged.getD i 0 - merged.getD (i + half) 0
        = (((List.range n).filter (fun doc => sel doc = false ∧ idxPrev.getD doc 0 = i)).map
              (docContribution fold bt dim isPlainMode)).sum := by
      intro i hi
      rw [hmLower i hi, hmUpper i hi, hparent i hi, add_sub_cancel_left]
    refine ⟨inc, ?_, fun s hs => ?_⟩
    · simp only [CalcStatsInPartitions, hmap, hmerge, bind, Option.bind, if_true]
      exact hinc
    · have hs2 : s < half + half := by omega
      rw [hincget s]
      by_cases hlow : s < half
      · rw [if_pos hlow]
        cases hsel : smallFold.SmallestSplitSideValue
        · simp only [Bool.false_eq_true, if_false]
          rw [hmUpper s hlow]
          exact hnew s
        · simp only [if_true]
          rw [hdiff s hlow]
          exact hrest s
      · have hi : s - half < half := by omega
        have hse2 : s - half + half = s := by omega
        rw [if_neg hlow, if_pos ⟨by omega, hs2⟩]
        cases hsel : smallFold.SmallestSplitSideValue
        · simp only [Bool.false_eq_true, if_false]
          have := hdiff (s - half) hi
          rw [hse2] at this
          rw [this]
          exact hrest (s - half)
        · simp only [if_true]
          have := hmUpper (s - half) hi
          rw [hse2] at this
          rw [this]
          exact hnew (s - half)

theorem C23_weight_fields_nonnegative_witness :
    (∀ (singleIdx : List Nat) (d : Nat) (r : TIndexRange) (stats : List TBucketStats),
      ReadsInBounds singleIdx exampleFold exampleBodyTail 0 false r stats.length →
      0 ≤ (TStatsIndexer.mk 3).CalcSize d →
      (TStatsIndexer.mk 3).CalcSize d ≤ (stats.length : Int) →
      ∃ out, CalcStatsKernel false singleIdx exampleFold false ⟨3⟩ d exampleBodyTail 0 r stats
          = some out ∧
        ∀ s : Nat, (s : Int) < (TStatsIndexer.mk 3).CalcSize d →
          0 ≤ (out.getD s 0).SumWeight ∧ 0 ≤ (out.getD s 0).Count) ∧
    ∃ incremental,
      CalcStatsInPartitions true [5, 4] exampleSmallFold false ⟨3⟩ 1 exampleSmallBodyTail 0
        [⟨0, 1⟩, ⟨1, 2⟩] (exampleCache :: [exampleStats]) = some incremental ∧
      ∀ s : Nat, (s : Int) < (TStatsIndexer.mk 3).CalcSize 1 →
        0 ≤ (incremental.getD s 0).SumWeight ∧ 0 ≤ (incremental.getD s 0).Count :=
  C23_weight_fields_nonnegative ⟨3⟩ 1 false 0 exampleFold exampleBodyTail 4 [0, 1, 2, 1]
    exampleSplitBit exampleSmallFold exampleSmallBodyTail 2 [5, 4] [⟨0, 1⟩, ⟨1, 2⟩]
    [exampleStats] exampleCache 6
    (by with_unfolding_all decide) (by with_unfolding_all decide) (fun _ => by decide)
    (by decide) (by decide) (by decide) (fun _ => by decide)
    (fun doc h => by interval_cases doc <;> exact ⟨_, rfl, by decide⟩)
    (fun i hi => by
      have hc : (TStatsIndexer.mk 3).CalcSize (1 - 1) = 3 := by decide
      rw [hc] at hi
      have h3 : i < 3 := by omega
      interval_cases i <;> with_unfolding_all decide)
    (by with_unfolding_all decide)
    ⟨rfl, by decide, rfl, by decide, rfl⟩ (by simp) (by decide) rfl (by decide) (by decide)
    (by decide)

/-! ## C25: when the monotonic-constraint path is engaged -/

theorem foldlM_invariant {α σ : Type} (P : σ → Prop) (f : σ → α → Option σ)
    (hf : ∀ st x st2, P st → f st x = some st2 → P st2) :
    ∀ (xs : List α) (st st2 : σ), P st → xs.foldlM f st = some st2 → P st2 := by
  intro xs
  induction xs with
  | nil =>
    intro st st2 hP h
    simp only [List.foldlM_nil, Option.pure_def, Option.some.injEq] at h
    exact h ▸ hP
  | cons x xs ih =>
    intro st st2 hP h
    rw [List.foldlM_cons] at h
    simp only [Option.bind_eq_bind] at h
    rw [Option.bind_eq_some] at h
    obtain ⟨st1, h1, h2⟩ := h
    exact ih st1 st2 (hf st x st1 hP h1) h2

theorem candidateConstraints_length (monotonicConstraints : List Int) (n : Nat)
    (getSplit : Nat → TSplit) (v : List Int) (hne : monotonicConstraints ≠ [])
    (h : candidateSplitMonotonicConstraintsOf monotonicConstraints n getSplit = some v) :
    v.length = n := by
  unfold candidateSplitMonotonicConstraintsOf at h
  have hemp : monotonicConstraints.isEmpty = false := by
    cases monotonicConstraints with
    | nil => exact absurd rfl hne
    | cons a l => rfl
  simp only [hemp, Bool.not_false, if_true] at h
  refine foldlM_invariant (fun c : List Int => c.length = n) _ ?_ _ _ _ (by simp) h
  intro st x st2 hP hstep
  simp only [Option.bind_eq_bind, Option.pure_def] at hstep
  split at hstep
  · split at hstep
    · rw [Option.bind_eq_some] at hstep
      obtain ⟨c, _, hc⟩ := hstep
      rw [Option.some.injEq] at hc
      rw [← hc, List.length_set]
      exact hP
    · exact Option.noConfusion hstep
  · rw [Option.some.injEq] at hstep
    exact hstep ▸ hP

theorem UpdateScoresOfCalcer_unconstrained (calcAverage : ℚ → ℚ → ℚ → ℚ)
    (build : List Int → List (List Nat))
    (iso : List ℚ → List ℚ → List Nat → List ℚ → Option (List ℚ))
    (stats : List TBucketStats) (leafCount : Nat) (indexer : TStatsIndexer)
    (splitEnsembleSpec : TSplitEnsembleSpec) (scaledL2Regularizer : ℚ) (isPlainMode : Bool)
    (oneHotMaxSize : Nat) (currTreeMonotonicConstraints : List Int)
    (useForCalcScores : TExclusiveBundlePart → Nat → Bool) (getValueBitCount : Int → Nat)
    (splitsCount : Nat) (scoreCalcer : List TScoreCalcerCall) :
    UpdateScoresOfCalcer calcAverage build iso stats leafCount indexer splitEnsembleSpec
        scaledL2Regularizer isPlainMode false oneHotMaxSize currTreeMonotonicConstraints []
        useForCalcScores getValueBitCount splitsCount scoreCalcer
      = (UpdateScores
          (fun (state : TUpdateScoresState) trueStats falseStats splitIdx =>
            some { state with
              scoreCalcer :=
                UpdateSplitScore isPlainMode trueStats falseStats splitIdx state.scoreCalcer })
          stats (leafCount : Int) indexer splitEnsembleSpec oneHotMaxSize useForCalcScores
          getValueBitCount ⟨[], [], [], [], [], scoreCalcer⟩).map
          (fun state => state.scoreCalcer) := by
  unfold UpdateScoresOfCalcer
  have hc : updateSplitScoreClosure calcAverage isPlainMode false leafCount scaledL2Regularizer
      = (fun (state : TUpdateScoresState) trueStats falseStats splitIdx =>
          some { state with
            scoreCalcer :=
              UpdateSplitScore isPlainMode trueStats falseStats splitIdx state.scoreCalcer }) := by
    funext state t f i
    simp [updateSplitScoreClosure]
  have hi : initialUpdateScoresState false splitsCount leafCount scoreCalcer
      = ⟨[], [], [], [], [], scoreCalcer⟩ := by
    simp [initialUpdateScoresState]
  rw [hc, hi]
  simp only [List.isEmpty_nil, Bool.not_true, if_true, Bool.false_eq_true, if_false,
    Option.bind_eq_bind, Option.pure_def, Option.some_bind]
  cases UpdateScores
      (fun (state : TUpdateScoresState) trueStats falseStats splitIdx =>
        some { state with
          scoreCalcer :=
            UpdateSplitScore isPlainMode trueStats falseStats splitIdx state.scoreCalcer })
      stats (leafCount : Int) indexer splitEnsembleSpec oneHotMaxSize useForCalcScores
      getValueBitCount ⟨[], [], [], [], [], scoreCalcer⟩ <;> rfl

theorem UpdateScoresOneFeature_invariant {σ : Type} (P : σ → Prop)
    (closure : σ → TBucketStats → TBucketStats → Nat → Option σ)
    (hc : ∀ st t f i st2, P st → closure st t f i = some st2 → P st2)
    (stats : List TBucketStats) (indexer : TStatsIndexer) (splitType : ESplitType) (leaf : Int)
    (st st2 : σ) (hP : P st)
    (h : UpdateScoresOneFeature closure stats indexer splitType leaf st = some st2) : P st2 := by
  unfold UpdateScoresOneFeature at h
  simp only [Option.bind_eq_bind, Option.pure_def] at h
  rw [Option.bind_eq_some] at h
  obtain ⟨allStats, _, h⟩ := h
  split at h
  · rw [Option.bind_eq_some] at h
    obtain ⟨r, hr, h⟩ := h
    rw [Option.some.injEq] at h
    rw [← h]
    refine foldlM_invariant (fun acc : TBucketStats × TBucketStats × σ => P acc.2.2) _ ?_ _ _ _
      hP hr
    intro acc x acc2 hacc hstep
    rw [Option.bind_eq_some] at hstep
    obtain ⟨s1, _, hstep⟩ := hstep
    rw [Option.bind_eq_some] at hstep
    obtain ⟨s2, _, hstep⟩ := hstep
    rw [Option.bind_eq_some] at hstep
    obtain ⟨st3, h3, hstep⟩ := hstep
    rw [Option.some.injEq] at hstep
    rw [← hstep]
    exact hc _ _ _ _ _ hacc h3
  · rw [Option.bind_eq_some] at h
    obtain ⟨r, hr, h⟩ := h
    rw [Option.some.injEq] at h
    rw [← h]
    refine foldlM_invariant (fun acc : TBucketStats × σ => P acc.2) _ ?_ _ _ _ hP hr
    intro acc x acc2 hacc hstep
    rw [Option.bind_eq_some] at hstep
    obtain ⟨s1, _, hstep⟩ := hstep
    rw [Option.bind_eq_some] at hstep
    obtain ⟨s2, _, hstep⟩ := hstep
    rw [Option.bind_eq_some] at hstep
    obtain ⟨s3, _, hstep⟩ := hstep
    rw [Option.bind_eq_some] at hstep
    obtain ⟨st3, h3, hstep⟩ := hstep
    rw [Option.some.injEq] at hstep
    rw [← hstep]
    exact hc _ _ _ _ _ hacc h3

theorem UpdateScoresBinarySplits_invariant {σ : Type} (P : σ → Prop)
    (closure : σ → TBucketStats → TBucketStats → Nat → Option σ)
    (hc : ∀ st t f i st2, P st → closure st t f i = some st2 → P st2)
    (stats : List TBucketStats) (indexer : TStatsIndexer) (binaryFeaturesCount : Nat)
    (leaf : Int) (st st2 : σ) (hP : P st)
    (h : UpdateScoresBinarySplits closure stats indexer binaryFeaturesCount leaf st = some st2) :
    P st2 := by
  unfold UpdateScoresBinarySplits at h
  refine foldlM_invariant P _ ?_ _ _ _ hP h
  intro st3 x st4 h3 hstep
  simp only [Option.bind_eq_bind, Option.pure_def] at hstep
  rw [Option.bind_eq_some] at hstep
  obtain ⟨r, _, hstep⟩ := hstep
  exact hc _ _ _ _ _ h3 hstep

theorem UpdateScoresExclusiveBundle_invariant {σ : Type} (P : σ → Prop)
    (closure : σ → TBucketStats → TBucketStats → Nat → Option σ)
    (hc : ∀ st t f i st2, P st → closure st t f i = some st2 → P st2)
    (stats : List TBucketStats) (indexer : TStatsIndexer) (parts : List TExclusiveBundlePart)
    (use : List Bool) (oneHotMaxSize : Nat) (leaf : Int) (st st2 : σ) (hP : P st)
    (h : UpdateScoresExclusiveBundle closure stats indexer parts use oneHotMaxSize leaf st
      = some st2) : P st2 := by
  unfold UpdateScoresExclusiveBundle at h
  simp only [Option.bind_eq_bind, Option.pure_def] at h
  rw [Option.bind_eq_some] at h
  obtain ⟨allStats0, _, h⟩ := h
  rw [Option.bind_eq_some] at h
  obtain ⟨r, _, h⟩ := h
  rw [Option.bind_eq_some] at h
  obtain ⟨r2, hr2, h⟩ := h
  rw [Option.some.injEq] at h
  rw [← h]
  refine foldlM_invariant (fun acc : Nat × σ => P acc.2) _ ?_ _ _ _ hP hr2
  intro acc idx acc2 hacc hstep
  rw [Option.bind_eq_some] at hstep
  obtain ⟨u, _, hstep⟩ := hstep
  split at hstep
  · rw [Option.some.injEq] at hstep
    rw [← hstep]
    exact hacc
  · rw [Option.bind_eq_some] at hstep
    obtain ⟨bundlePart, _, hstep⟩ := hstep
    rw [Option.bind_eq_some] at hstep
    obtain ⟨partStats, _, hstep⟩ := hstep
    split at hstep
    · rw [Option.bind_eq_some] at hstep
      obtain ⟨r3, hr3, hstep⟩ := hstep
      rw [Option.some.injEq] at hstep
      rw [← hstep]
      refine foldlM_invariant (fun acc3 : TBucketStats × TBucketStats × σ => P acc3.2.2) _ ?_
        _ _ _ hacc hr3
      intro acc3 splitIdx acc4 h3 hs
      rw [Option.bind_eq_some] at hs
      obtain ⟨tf, _, hs⟩ := hs
      rw [Option.bind_eq_some] at hs
      obtain ⟨st3, hst3, hs⟩ := hs
      rw [Option.some.injEq] at hs
      rw [← hs]
      exact hc _ _ _ _ _ h3 hst3
    · split at hstep
      · rw [Option.bind_eq_some] at hstep
        obtain ⟨st3, hst3, hstep⟩ := hstep
        rw [Option.bind_eq_some] at hstep
        obtain ⟨st4, hst4, hstep⟩ := hstep
        rw [Option.some.injEq] at hstep
        rw [← hstep]
        have h3 : P st3 := by
          split at hst3
          · exact hc _ _ _ _ _ hacc hst3
          · rw [Option.some.injEq] at hst3
            exact hst3 ▸ hacc
        refine foldlM_invariant P _ ?_ _ _ _ h3 hst4
        intro st5 binIdx st6 h5 hs
        rw [Option.bind_eq_some] at hs
        obtain ⟨statsPart, _, hs⟩ := hs
        exact hc _ _ _ _ _ h5 hs
      · exact Option.noConfusion hstep

/-- Whatever the update closure keeps true of its state, the loop over the leaves keeps
true. -/
theorem UpdateScores_invariant {σ : Type} (P : σ → Prop)
    (closure : σ → TBucketStats → TBucketStats → Nat → Option σ)
    (hc : ∀ st t f i st2, P st → closure st t f i = some st2 → P st2)
    (stats : List TBucketStats) (leafCount : Int) (indexer : TStatsIndexer)
    (splitEnsembleSpec : TSplitEnsembleSpec) (oneHotMaxSize : Nat)
    (useForCalcScores : TExclusiveBundlePart → Nat → Bool) (getValueBitCount : Int → Nat)
    (st st2 : σ) (hP : P st)
    (h : UpdateScores closure stats leafCount indexer splitEnsembleSpec oneHotMaxSize
      useForCalcScores getValueBitCount st = some st2) : P st2 := by
  unfold UpdateScores at h
  refine foldlM_invariant P _ ?_ _ _ _ hP h
  intro st3 leaf st4 h3 hstep
  split at hstep
  · exact UpdateScoresOneFeature_invariant P closure hc _ _ _ _ _ _ h3 hstep
  · exact UpdateScoresBinarySplits_invariant P closure hc _ _ _ _ _ _ h3 hstep
  · exact UpdateScoresExclusiveBundle_invariant P closure hc _ _ _ _ _ _ _ _ h3 hstep

theorem AddsOnly_refl (q : TScoreCalcerCall → Bool) (log : List TScoreCalcerCall) :
    AddsOnly q log log :=
  ⟨[], by simp, by simp⟩

theorem AddsOnly_trans (q : TScoreCalcerCall → Bool) (a b c : List TScoreCalcerCall)
    (h1 : AddsOnly q a b) (h2 : AddsOnly q b c) : AddsOnly q a c := by
  obtain ⟨x, hx, hqx⟩ := h1
  obtain ⟨y, hy, hqy⟩ := h2
  refine ⟨x ++ y, by rw [hy, hx, List.append_assoc], fun e he => ?_⟩
  rcases List.mem_append.mp he with h | h
  · exact hqx e h
  · exact hqy e h

theorem AddsOnly_snoc (q : TScoreCalcerCall → Bool) (a b : List TScoreCalcerCall)
    (e : TScoreCalcerCall) (h1 : AddsOnly q a b) (he : q e = true) : AddsOnly q a (b ++ [e]) :=
  AddsOnly_trans q a b _ h1 ⟨[e], rfl, fun x hx => by
    rw [List.mem_singleton] at hx
    rw [hx]
    exact he⟩

theorem setEntry_some (vec : List (List ℚ)) (splitIdx leafId : Nat) (value : ℚ)
    (out : List (List ℚ)) (h : setEntry vec splitIdx leafId value = some out) :
    ∃ row, vec[splitIdx]? = some row ∧ leafId < row.length ∧
      out = vec.set splitIdx (row.set leafId value) := by
  unfold setEntry at h
  simp only [Option.bind_eq_bind, Option.pure_def] at h
  rw [Option.bind_eq_some] at h
  obtain ⟨row, hrow, h⟩ := h
  split at h
  · next hlt =>
    rw [Option.some.injEq] at h
    exact ⟨row, hrow, hlt, h.symm⟩
  · exact Option.noConfusion h

theorem storeLeafStats_scoreCalcer (calcAverage : ℚ → ℚ → ℚ → ℚ) (isPlainMode : Bool)
    (leafCount : Nat) (scaledL2Regularizer : ℚ) (splitIdx : Nat)
    (acc acc2 : TUpdateScoresState × Nat) (leafStats : TBucketStats)
    (h : storeLeafStats calcAverage isPlainMode leafCount scaledL2Regularizer splitIdx acc
      leafStats = some acc2) :
    acc2.1.scoreCalcer = acc.1.scoreCalcer ∧ acc2.1.leafsProcessed = acc.1.leafsProcessed := by
  unfold storeLeafStats at h
  simp only [Option.bind_eq_bind, Option.pure_def] at h
  rw [Option.bind_eq_some] at h
  obtain ⟨a, _, h⟩ := h
  rw [Option.bind_eq_some] at h
  obtain ⟨b, _, h⟩ := h
  rw [Option.bind_eq_some] at h
  obtain ⟨c, _, h⟩ := h
  rw [Option.bind_eq_some] at h
  obtain ⟨d, _, h⟩ := h
  rw [Option.some.injEq] at h
  rw [← h]
  exact ⟨rfl, rfl⟩

/-- With monotonic constraints the closure makes no call on the calcer. -/
theorem closure_engaged_scoreCalcer (calcAverage : ℚ → ℚ → ℚ → ℚ) (isPlainMode : Bool)
    (leafCount : Nat) (scaledL2Regularizer : ℚ) (state state2 : TUpdateScoresState)
    (trueStats falseStats : TBucketStats) (splitIdx : Nat)
    (h : updateSplitScoreClosure calcAverage isPlainMode true leafCount scaledL2Regularizer
      state trueStats falseStats splitIdx = some state2) :
    state2.scoreCalcer = state.scoreCalcer := by
  unfold updateSplitScoreClosure at h
  simp only [Bool.not_true, Bool.false_eq_true, if_false, Option.bind_eq_bind,
    Option.pure_def] at h
  rw [Option.bind_eq_some] at h
  obtain ⟨k, _, h⟩ := h
  split at h
  · rw [Option.bind_eq_some] at h
    obtain ⟨acc, hacc, h⟩ := h
    rw [Option.some.injEq] at h
    rw [← h]
    exact foldlM_invariant
      (fun a : TUpdateScoresState × Nat => a.1.scoreCalcer = state.scoreCalcer) _
      (fun a x a2 ha hs => by
        show a2.1.scoreCalcer = state.scoreCalcer
        rw [(storeLeafStats_scoreCalcer _ _ _ _ _ _ _ _ hs).1]
        exact ha) _ _ _ rfl hacc
  · exact Option.noConfusion h

theorem monotonicPostProcessing_calls (build : List Int → List (List Nat))
    (iso : List ℚ → List ℚ → List Nat → List ℚ → Option (List ℚ)) (leafCount splitsCount : Nat)
    (curr cand : List Int) (state state2 : TUpdateScoresState)
    (h : monotonicPostProcessing build iso leafCount splitsCount curr cand state = some state2) :
    AddsOnly (fun e => e.isAddLeaf) state.scoreCalcer state2.scoreCalcer := by
  unfold monotonicPostProcessing at h
  split at h
  · refine foldlM_invariant
      (fun st : TUpdateScoresState => AddsOnly (fun e => e.isAddLeaf) state.scoreCalcer
        st.scoreCalcer) _ ?_ _ _ _ (AddsOnly_refl _ _) h
    intro st splitIdx st2 hst hstep
    simp only [Option.bind_eq_bind, Option.pure_def] at hstep
    rw [Option.bind_eq_some] at hstep
    obtain ⟨constraint, _, hstep⟩ := hstep
    rw [Option.bind_eq_some] at hstep
    obtain ⟨deltas, _, hstep⟩ := hstep
    rw [Option.bind_eq_some] at hstep
    obtain ⟨weights, _, hstep⟩ := hstep
    rw [Option.bind_eq_some] at hstep
    obtain ⟨projected, _, hstep⟩ := hstep
    refine foldlM_invariant
      (fun st3 : TUpdateScoresState => AddsOnly (fun e => e.isAddLeaf) state.scoreCalcer
        st3.scoreCalcer) _ ?_ _ _ _ (by exact hst) hstep
    intro st3 leafIndex st4 h3 hs
    rw [Option.bind_eq_some] at hs
    obtain ⟨leafDelta, _, hs⟩ := hs
    rw [Option.bind_eq_some] at hs
    obtain ⟨ders, _, hs⟩ := hs
    rw [Option.bind_eq_some] at hs
    obtain ⟨der, _, hs⟩ := hs
    rw [Option.bind_eq_some] at hs
    obtain ⟨tw, _, hs⟩ := hs
    rw [Option.bind_eq_some] at hs
    obtain ⟨w, _, hs⟩ := hs
    rw [Option.some.injEq] at hs
    rw [← hs]
    exact AddsOnly_snoc _ _ _ _ h3 rfl
  · exact Option.noConfusion h

theorem AddsOnly_mono (q q2 : TScoreCalcerCall → Bool) (a b : List TScoreCalcerCall)
    (hq : ∀ e, q e = true → q2 e = true) (h : AddsOnly q a b) : AddsOnly q2 a b := by
  obtain ⟨x, hx, hqx⟩ := h
  exact ⟨x, hx, fun e he => hq e (hqx e he)⟩

theorem UpdateScoresOfCalcer_calls (calcAverage : ℚ → ℚ → ℚ → ℚ)
    (build : List Int → List (List Nat))
    (iso : List ℚ → List ℚ → List Nat → List ℚ → Option (List ℚ))
    (stats : List TBucketStats) (leafCount : Nat) (indexer : TStatsIndexer)
    (splitEnsembleSpec : TSplitEnsembleSpec) (scaledL2Regularizer : ℚ)
    (isPlainMode haveMonotonicConstraints : Bool) (oneHotMaxSize : Nat)
    (curr cand : List Int) (useForCalcScores : TExclusiveBundlePart → Nat → Bool)
    (getValueBitCount : Int → Nat) (splitsCount : Nat) (scoreCalcer log : List TScoreCalcerCall)
    (h : UpdateScoresOfCalcer calcAverage build iso stats leafCount indexer splitEnsembleSpec
      scaledL2Regularizer isPlainMode haveMonotonicConstraints oneHotMaxSize curr cand
      useForCalcScores getValueBitCount splitsCount scoreCalcer = some log) :
    haveMonotonicConstraints = !cand.isEmpty ∧
    AddsOnly (fun e => if haveMonotonicConstraints then e.isAddLeaf else e.isUpdateSplitScore)
      scoreCalcer log := by
  unfold UpdateScoresOfCalcer at h
  split at h
  · next hflag =>
    refine ⟨hflag, ?_⟩
    simp only [Option.bind_eq_bind, Option.pure_def] at h
    rw [Option.bind_eq_some] at h
    obtain ⟨st, hst, h⟩ := h
    rw [Option.bind_eq_some] at h
    obtain ⟨st2, hst2, h⟩ := h
    rw [Option.some.injEq] at h
    rw [← h]
    have hinit : (initialUpdateScoresState haveMonotonicConstraints splitsCount leafCount
        scoreCalcer).scoreCalcer = scoreCalcer := by
      unfold initialUpdateScoresState
      split <;> rfl
    cases hm : haveMonotonicConstraints with
    | true =>
      rw [hm] at hst hst2
      simp only [if_true] at hst2 ⊢
      have hkeep : st.scoreCalcer = scoreCalcer := by
        refine UpdateScores_invariant
          (fun s : TUpdateScoresState => s.scoreCalcer = scoreCalcer) _ ?_ _ _ _ _ _ _ _ _ _
          (by rw [← hm]; exact hinit) hst
        intro s t f i s2 hs hcl
        show s2.scoreCalcer = scoreCalcer
        rw [closure_engaged_scoreCalcer _ _ _ _ _ _ _ _ _ hcl]
        exact hs
      have := monotonicPostProcessing_calls _ _ _ _ _ _ _ _ hst2
      rw [hkeep] at this
      exact this
    | false =>
      rw [hm] at hst hst2
      simp only [Bool.false_eq_true, if_false, Option.some.injEq] at hst2 ⊢
      rw [← hst2]
      refine UpdateScores_invariant
        (fun s : TUpdateScoresState =>
          AddsOnly (fun e => e.isUpdateSplitScore) scoreCalcer s.scoreCalcer) _ ?_ _ _ _ _ _ _ _
        _ _ (by
          show AddsOnly _ scoreCalcer _
          rw [← hm, hinit]
          exact AddsOnly_refl _ _) hst
      intro s t f i s2 hs hcl
      unfold updateSplitScoreClosure at hcl
      simp only [Bool.not_false, if_true, Option.some.injEq] at hcl
      rw [← hcl]
      show AddsOnly _ scoreCalcer (UpdateSplitScore isPlainMode t f i s.scoreCalcer)
      unfold UpdateSplitScore
      split
      · exact AddsOnly_snoc _ _ _ _ hs rfl
      · exact AddsOnly_snoc _ _ _ _ hs rfl
  · exact Option.noConfusion h

theorem CalculateNonPairwiseScore_calls (calcAverage : ℚ → ℚ → ℚ → ℚ)
    (build : List Int → List (List Nat))
    (iso : List ℚ → List ℚ → List Nat → List ℚ → Option (List ℚ))
    (fold : TCalcScoreFold) (initialFoldBodyTailArr : List TFoldBodyTail)
    (splitEnsembleSpec : TSplitEnsembleSpec) (isPlainMode : Bool) (leafCount : Nat)
    (l2Regularizer : ℚ) (oneHotMaxSize : Nat) (indexer : TStatsIndexer)
    (splitStats : List TBucketStats) (splitStatsCount : Nat) (curr cand : List Int)
    (useForCalcScores : TExclusiveBundlePart → Nat → Bool) (getValueBitCount : Int → Nat)
    (splitsCount : Nat) (scoreCalcer log : List TScoreCalcerCall)
    (h : CalculateNonPairwiseScore calcAverage build iso fold initialFoldBodyTailArr
      splitEnsembleSpec isPlainMode leafCount l2Regularizer oneHotMaxSize indexer splitStats
      splitStatsCount curr cand useForCalcScores getValueBitCount splitsCount scoreCalcer
      = some log) :
    AddsOnly (fun e => if cand.isEmpty then !e.isAddLeaf else !e.isUpdateSplitScore)
      scoreCalcer log := by
  unfold CalculateNonPairwiseScore at h
  refine foldlM_invariant
    (fun l : List TScoreCalcerCall =>
      AddsOnly (fun e => if cand.isEmpty then !e.isAddLeaf else !e.isUpdateSplitScore)
        scoreCalcer l) _ ?_ _ _ _ (AddsOnly_refl _ _) h
  intro l bodyTailIdx l2 hl hstep
  simp only [Option.bind_eq_bind, Option.pure_def] at hstep
  rw [Option.bind_eq_some] at hstep
  obtain ⟨bodyTail, _, hstep⟩ := hstep
  refine foldlM_invariant
    (fun l : List TScoreCalcerCall =>
      AddsOnly (fun e => if cand.isEmpty then !e.isAddLeaf else !e.isUpdateSplitScore)
        scoreCalcer l) _ ?_ _ _ _ (AddsOnly_snoc _ _ _ _ hl (by split <;> rfl)) hstep
  intro l3 dim l4 hl3 hs
  split at hs
  · obtain ⟨_, hadd⟩ := UpdateScoresOfCalcer_calls _ _ _ _ _ _ _ _ _ _ _ _ _ _ _ _ _ _ hs
    refine AddsOnly_trans _ _ _ _ hl3 (AddsOnly_mono _ _ _ _ ?_ hadd)
    intro e he
    cases hce : cand.isEmpty
    · simp only [hce, Bool.not_false, if_true, Bool.false_eq_true, if_false] at he ⊢
      cases e <;> simp_all [TScoreCalcerCall.isAddLeaf, TScoreCalcerCall.isUpdateSplitScore]
    · simp only [hce, Bool.not_true, Bool.false_eq_true, if_false, if_true] at he ⊢
      cases e <;> simp_all [TScoreCalcerCall.isAddLeaf, TScoreCalcerCall.isUpdateSplitScore]
  · exact Option.noConfusion hs

theorem CalculateNonPairwiseScore_unconstrained (calcAverage : ℚ → ℚ → ℚ → ℚ)
    (build build2 : List Int → List (List Nat))
    (iso iso2 : List ℚ → List ℚ → List Nat → List ℚ → Option (List ℚ))
    (fold : TCalcScoreFold) (initialFoldBodyTailArr : List TFoldBodyTail)
    (splitEnsembleSpec : TSplitEnsembleSpec) (isPlainMode : Bool) (leafCount : Nat)
    (l2Regularizer : ℚ) (oneHotMaxSize : Nat) (indexer : TStatsIndexer)
    (splitStats : List TBucketStats) (splitStatsCount : Nat) (curr : List Int)
    (useForCalcScores : TExclusiveBundlePart → Nat → Bool) (getValueBitCount : Int → Nat)
    (splitsCount : Nat) (scoreCalcer : List TScoreCalcerCall) :
    CalculateNonPairwiseScore calcAverage build iso fold initialFoldBodyTailArr
        splitEnsembleSpec isPlainMode leafCount l2Regularizer oneHotMaxSize indexer splitStats
        splitStatsCount curr [] useForCalcScores getValueBitCount splitsCount scoreCalcer
      = CalculateNonPairwiseScore calcAverage build2 iso2 fold initialFoldBodyTailArr
        splitEnsembleSpec isPlainMode leafCount l2Regularizer oneHotMaxSize indexer splitStats
        splitStatsCount curr [] useForCalcScores getValueBitCount splitsCount scoreCalcer := by
  unfold CalculateNonPairwiseScore
  simp only [List.isEmpty_nil, Bool.not_true, UpdateScoresOfCalcer_unconstrained]

/-- C25 (as amended): the monotonic-constraint path is engaged exactly when the vector of
candidate constraints is not empty (`UpdateScores` asserts it), and `CalcStatsAndScores`
makes that vector empty for an empty configured constraint vector and gives it one entry
per candidate for every other one, whatever the values.  With an empty vector
`CalculateNonPairwiseScore` makes no `AddLeaf` call, every `UpdateScores` is the loop over
the leaves with `UpdateSplitScore` as its update, and the result does not depend on the
order builder or on the regression (no regression is run); with a vector that is not
empty, no call of `UpdateSplitScore` (`AddLeafPlain`, `AddLeafOrdered`) is made. -/
theorem C25_monotonic_path_engagement (calcAverage : ℚ → ℚ → ℚ → ℚ)
    (build : List Int → List (List Nat))
    (iso : List ℚ → List ℚ → List Nat → List ℚ → Option (List ℚ))
    (fold : TCalcScoreFold) (initialFoldBodyTailArr : List TFoldBodyTail)
    (splitEnsembleSpec : TSplitEnsembleSpec) (isPlainMode : Bool) (leafCount : Nat)
    (l2Regularizer : ℚ) (oneHotMaxSize : Nat) (indexer : TStatsIndexer)
    (splitStats : List TBucketStats) (splitStatsCount : Nat) (curr : List Int)
    (useForCalcScores : TExclusiveBundlePart → Nat → Bool) (getValueBitCount : Int → Nat)
    (splitsCount : Nat) (scoreCalcer : List TScoreCalcerCall) :
    (∀ (n : Nat) (getSplit : Nat → TSplit),
      candidateSplitMonotonicConstraintsOf [] n getSplit = some []) ∧
    (∀ (monotonicConstraints : List Int) (n : Nat) (getSplit : Nat → TSplit) (v : List Int),
      monotonicConstraints ≠ [] →
      candidateSplitMonotonicConstraintsOf monotonicConstraints n getSplit = some v →
      v.length = n) ∧
    (∀ (stats : List TBucketStats) (scaledL2Regularizer : ℚ) (flag : Bool) (cand : List Int)
        (log : List TScoreCalcerCall),
      UpdateScoresOfCalcer calcAverage build iso stats leafCount indexer splitEnsembleSpec
          scaledL2Regularizer isPlainMode flag oneHotMaxSize curr cand useForCalcScores
          getValueBitCount splitsCount scoreCalcer = some log →
      flag = !cand.isEmpty) ∧
    (∀ (stats : List TBucketStats) (scaledL2Regularizer : ℚ),
      UpdateScoresOfCalcer calcAverage build iso stats leafCount indexer splitEnsembleSpec
          scaledL2Regularizer isPlainMode false oneHotMaxSize curr [] useForCalcScores
          getValueBitCount splitsCount scoreCalcer
        = (UpdateScores
            (fun (state : TUpdateScoresState) trueStats falseStats splitIdx =>
              some { state with
                scoreCalcer :=
                  UpdateSplitScore isPlainMode trueStats falseStats splitIdx state.scoreCalcer })
            stats (leafCount : Int) indexer splitEnsembleSpec oneHotMaxSize useForCalcScores
            getValueBitCount ⟨[], [], [], [], [], scoreCalcer⟩).map
            (fun state => state.scoreCalcer)) ∧
    (∀ log, CalculateNonPairwiseScore calcAverage build iso fold initialFoldBodyTailArr
        splitEnsembleSpec isPlainMode leafCount l2Regularizer oneHotMaxSize indexer splitStats
        splitStatsCount curr [] useForCalcScores getValueBitCount splitsCount scoreCalcer
        = some log →
      AddsOnly (fun e => !e.isAddLeaf) scoreCalcer log) ∧
    (∀ (build2 : List Int → List (List Nat))
        (iso2 : List ℚ → List ℚ → List Nat → List ℚ → Option (List ℚ)),
      CalculateNonPairwiseScore calcAverage build iso fold initialFoldBodyTailArr
          splitEnsembleSpec isPlainMode leafCount l2Regularizer oneHotMaxSize indexer splitStats
          splitStatsCount curr [] useForCalcScores getValueBitCount splitsCount scoreCalcer
        = CalculateNonPairwiseScore calcAverage build2 iso2 fold initialFoldBodyTailArr
          splitEnsembleSpec isPlainMode leafCount l2Regularizer oneHotMaxSize indexer splitStats
          splitStatsCount curr [] useForCalcScores getValueBitCount splitsCount scoreCalcer) ∧
    (∀ (cand : List Int) (log : List TScoreCalcerCall), cand ≠ [] →
      CalculateNonPairwiseScore calcAverage build iso fold initialFoldBodyTailArr
        splitEnsembleSpec isPlainMode leafCount l2Regularizer oneHotMaxSize indexer splitStats
        splitStatsCount curr cand useForCalcScores getValueBitCount splitsCount scoreCalcer
        = some log →
      AddsOnly (fun e => !e.isUpdateSplitScore) scoreCalcer log) := by
  refine ⟨fun n getSplit => rfl, fun mc n getSplit v hne h =>
    candidateConstraints_length mc n getSplit v hne h, ?_, ?_, ?_, ?_, ?_⟩
  · intro stats lam flag cand log h
    exact (UpdateScoresOfCalcer_calls _ _ _ _ _ _ _ _ _ _ _ _ _ _ _ _ _ _ h).1
  · intro stats lam
    exact UpdateScoresOfCalcer_unconstrained _ _ _ _ _ _ _ _ _ _ _ _ _ _ _
  · intro log h
    have := CalculateNonPairwiseScore_calls _ _ _ _ _ _ _ _ _ _ _ _ _ _ _ _ _ _ _ _ h
    simpa using this
  · intro build2 iso2
    exact CalculateNonPairwiseScore_unconstrained _ _ _ _ _ _ _ _ _ _ _ _ _ _ _ _ _ _ _ _
  · intro cand log hne h
    have := CalculateNonPairwiseScore_calls _ _ _ _ _ _ _ _ _ _ _ _ _ _ _ _ _ _ _ _ h
    have hemp : cand.isEmpty = false := by
      cases cand with
      | nil => exact absurd rfl hne
      | cons a l => rfl
    simpa [hemp] using this

/-- C25 fails as stated: with the configured constraints `[1, 0]`, two float candidates of
feature `1` and a current tree whose only constraint is `0`, all candidate constraints and
all current-tree constraints are zero, yet the vector of candidate constraints `[0, 0]` is
not empty and the monotonic path is engaged: for every order builder and every regression,
no call of `UpdateSplitScore` is made; with every leaf an order of its own the calcer
receives the `AddLeaf` calls of `exampleMonotonicCalls`, whereas the unconstrained update
(empty constraint vector) makes the `AddLeafPlain` calls of `exampleUnconstrainedCalls`. -/
theorem C25_zero_constraints_engage_monotonic_path :
    candidateSplitMonotonicConstraintsOf [1, 0] 2 (fun _ => ⟨ESplitType.FloatFeature, 1⟩)
      = some [0, 0] ∧
    (∀ (build : List Int → List (List Nat))
        (iso : List ℚ → List ℚ → List Nat → List ℚ → Option (List ℚ))
        (log : List TScoreCalcerCall),
      CalcStatsAndScoresScores CalcAverage build iso exampleScoreFold [⟨4, 4⟩]
          ⟨ESplitEnsembleType.OneFeature, ESplitType.FloatFeature, []⟩ true 1 1 0 ⟨3⟩
          exampleScoreStats 6 [0] [1, 0] 2 (fun _ => ⟨ESplitType.FloatFeature, 1⟩)
          (fun _ _ => true) (fun _ => 0) [] = some log →
      ∀ e ∈ log, e.isUpdateSplitScore = false) ∧
    CalcStatsAndScoresScores CalcAverage (fun _ => [[0], [1], [2], [3]])
        (fun _ _ _ solution => some solution) exampleScoreFold [⟨4, 4⟩]
        ⟨ESplitEnsembleType.OneFeature, ESplitType.FloatFeature, []⟩ true 1 1 0 ⟨3⟩
        exampleScoreStats 6 [0] [1, 0] 2 (fun _ => ⟨ESplitType.FloatFeature, 1⟩)
        (fun _ _ => true) (fun _ => 0) [] = some exampleMonotonicCalls ∧
    CalcStatsAndScoresScores CalcAverage (fun _ => [[0], [1], [2], [3]])
        (fun _ _ _ solution => some solution) exampleScoreFold [⟨4, 4⟩]
        ⟨ESplitEnsembleType.OneFeature, ESplitType.FloatFeature, []⟩ true 1 1 0 ⟨3⟩
        exampleScoreStats 6 [0] [] 2 (fun _ => ⟨ESplitType.FloatFeature, 1⟩)
        (fun _ _ => true) (fun _ => 0) [] = some exampleUnconstrainedCalls := by
  have hcand : candidateSplitMonotonicConstraintsOf [1, 0] 2
      (fun _ => ⟨ESplitType.FloatFeature, 1⟩) = some [0, 0] := by decide
  refine ⟨hcand, ?_, by with_unfolding_all decide, by with_unfolding_all decide⟩
  intro build iso log h
  unfold CalcStatsAndScoresScores at h
  simp only [hcand, Option.bind_eq_bind, Option.some_bind] at h
  obtain ⟨added, hlog, hadd⟩ :=
    CalculateNonPairwiseScore_calls _ _ _ _ _ _ _ _ _ _ _ _ _ _ _ _ _ _ _ _ h
  intro e he
  rw [hlog] at he
  rcases List.mem_append.mp he with h1 | h1
  · simp only [List.nil_append, List.mem_singleton] at h1
    rw [h1]
    rfl
  · have := hadd e h1
    simpa using this

/-! ## C29 and C30: what the closure records -/

theorem setEntry_eq (vec : List (List ℚ)) (splitIdx leafId : Nat) (value : ℚ)
    (hs : splitIdx < vec.length) (hl : leafId < (vec.getD splitIdx []).length) :
    setEntry vec splitIdx leafId value
      = some (vec.set splitIdx ((vec.getD splitIdx []).set leafId value)) := by
  unfold setEntry
  have hrow : vec[splitIdx]? = some (vec.getD splitIdx []) := by
    rw [List.getD_eq_getElem?_getD, List.getElem?_eq_getElem hs]
    rfl
  simp only [Option.bind_eq_bind, Option.pure_def, hrow, Option.some_bind, if_pos hl]

theorem entryAt_set (vec : List (List ℚ)) (splitIdx leafId : Nat) (value : ℚ) (c p : Nat)
    (hs : splitIdx < vec.length) (hl : leafId < (vec.getD splitIdx []).length) :
    entryAt (vec.set splitIdx ((vec.getD splitIdx []).set leafId value)) c p
      = if c = splitIdx ∧ p = leafId then value else entryAt vec c p := by
  unfold entryAt
  simp only [List.getD_eq_getElem?_getD] at hl ⊢
  by_cases hc : c = splitIdx
  · subst hc
    rw [List.getElem?_set_self hs]
    simp only [Option.getD_some, true_and]
    by_cases hp : p = leafId
    · subst hp
      rw [if_pos rfl, List.getElem?_set_self hl]
      rfl
    · rw [if_neg hp, List.getElem?_set_ne (Ne.symm hp)]
  · rw [if_neg (fun h => hc h.1), List.getElem?_set_ne (Ne.symm hc)]

theorem sized_set (vec : List (List ℚ)) (S n splitIdx leafId : Nat) (value : ℚ)
    (h : vec.length = S ∧ ∀ row ∈ vec, row.length = n) :
    (vec.set splitIdx ((vec.getD splitIdx []).set leafId value)).length = S ∧
      ∀ row ∈ vec.set splitIdx ((vec.getD splitIdx []).set leafId value), row.length = n := by
  refine ⟨by rw [List.length_set]; exact h.1, fun row hrow => ?_⟩
  by_cases hs : splitIdx < vec.length
  · rcases List.mem_or_eq_of_mem_set hrow with h1 | h1
    · exact h.2 row h1
    · rw [h1, List.length_set]
      apply h.2
      rw [List.getD_eq_getElem?_getD, List.getElem?_eq_getElem hs]
      exact List.getElem_mem _
  · rw [List.set_eq_of_length_le (by omega)] at hrow
    exact h.2 row hrow

theorem sized_row (vec : List (List ℚ)) (S n splitIdx : Nat)
    (h : vec.length = S ∧ ∀ row ∈ vec, row.length = n) (hs : splitIdx < S) :
    splitIdx < vec.length ∧ (vec.getD splitIdx []).length = n := by
  have hlt : splitIdx < vec.length := by omega
  refine ⟨hlt, h.2 _ ?_⟩
  rw [List.getD_eq_getElem?_getD, List.getElem?_eq_getElem hlt]
  exact List.getElem_mem _

theorem storeLeafStats_spec (calcAverage : ℚ → ℚ → ℚ → ℚ) (isPlainMode : Bool)
    (leafCount : Nat) (scaledL2Regularizer : ℚ) (splitsCount splitIdx k : Nat)
    (state : TUpdateScoresState) (leafStats : TBucketStats)
    (hsized : TablesSized splitsCount leafCount state) (hs : splitIdx < splitsCount)
    (hk : k < 2 * leafCount) :
    ∃ state2, storeLeafStats calcAverage isPlainMode leafCount scaledL2Regularizer splitIdx
        (state, k) leafStats = some (state2, k + leafCount) ∧
      TablesSized splitsCount leafCount state2 ∧
      state2.leafsProcessed = state.leafsProcessed ∧
      state2.scoreCalcer = state.scoreCalcer ∧
      ∀ c p, stateEntry state2 c p
        = if c = splitIdx ∧ p = k then
            leafEntry calcAverage isPlainMode scaledL2Regularizer leafStats
          else stateEntry state c p := by
  obtain ⟨hlp, htab⟩ := hsized
  have h1 := htab state.leafDeltas (by simp)
  have h2 := htab state.bodyLeafWeights (by simp)
  have h3 := htab state.tailLeafSumWeightedDers (by simp)
  have h4 := htab state.tailLeafWeights (by simp)
  obtain ⟨a1, b1⟩ := sized_row _ _ _ _ h1 hs
  obtain ⟨a2, b2⟩ := sized_row _ _ _ _ h2 hs
  obtain ⟨a3, b3⟩ := sized_row _ _ _ _ h3 hs
  obtain ⟨a4, b4⟩ := sized_row _ _ _ _ h4 hs
  refine ⟨{ state with
      leafDeltas := state.leafDeltas.set splitIdx ((state.leafDeltas.getD splitIdx []).set k
        (leafEntry calcAverage isPlainMode scaledL2Regularizer leafStats).1)
      bodyLeafWeights := state.bodyLeafWeights.set splitIdx
        ((state.bodyLeafWeights.getD splitIdx []).set k
          (leafEntry calcAverage isPlainMode scaledL2Regularizer leafStats).2.1)
      tailLeafWeights := state.tailLeafWeights.set splitIdx
        ((state.tailLeafWeights.getD splitIdx []).set k leafStats.SumWeight)
      tailLeafSumWeightedDers := state.tailLeafSumWeightedDers.set splitIdx
        ((state.tailLeafSumWeightedDers.getD splitIdx []).set k leafStats.SumWeightedDelta) },
    ?_, ⟨hlp, ?_⟩, rfl, rfl, ?_⟩
  · unfold storeLeafStats
    simp only [Option.bind_eq_bind, Option.pure_def]
    rw [setEntry_eq _ _ _ _ a1 (by omega), Option.some_bind,
      setEntry_eq _ _ _ _ a2 (by omega), Option.some_bind,
      setEntry_eq _ _ _ _ a4 (by omega), Option.some_bind,
      setEntry_eq _ _ _ _ a3 (by omega), Option.some_bind]
    cases isPlainMode <;> rfl
  · intro vec hvec
    simp only [List.mem_cons, List.mem_singleton, List.not_mem_nil, or_false] at hvec
    rcases hvec with rfl | rfl | rfl | rfl
    · exact sized_set _ _ _ _ _ _ h1
    · exact sized_set _ _ _ _ _ _ h2
    · exact sized_set _ _ _ _ _ _ h3
    · exact sized_set _ _ _ _ _ _ h4
  · intro c p
    unfold stateEntry leafEntry
    simp only
    rw [entryAt_set _ _ _ _ _ _ a1 (by omega), entryAt_set _ _ _ _ _ _ a2 (by omega),
      entryAt_set _ _ _ _ _ _ a3 (by omega), entryAt_set _ _ _ _ _ _ a4 (by omega)]
    by_cases hcp : c = splitIdx ∧ p = k
    · simp only [if_pos hcp]
    · simp only [if_neg hcp]

theorem closure_step_spec (calcAverage : ℚ → ℚ → ℚ → ℚ) (isPlainMode : Bool)
    (leafCount : Nat) (scaledL2Regularizer : ℚ) (splitsCount splitIdx k : Nat)
    (state : TUpdateScoresState) (trueStats falseStats : TBucketStats)
    (hsized : TablesSized splitsCount leafCount state) (hs : splitIdx < splitsCount)
    (hcur : state.leafsProcessed.getD splitIdx 0 = k) (hk : k < leafCount) :
    ∃ state2, updateSplitScoreClosure calcAverage isPlainMode true leafCount
        scaledL2Regularizer state trueStats falseStats splitIdx = some state2 ∧
      TablesSized splitsCount leafCount state2 ∧
      state2.leafsProcessed = state.leafsProcessed.set splitIdx (k + 1) ∧
      state2.scoreCalcer = state.scoreCalcer ∧
      ∀ c p, stateEntry state2 c p
        = if c = splitIdx ∧ p = k then
            leafEntry calcAverage isPlainMode scaledL2Regularizer falseStats
          else if c = splitIdx ∧ p = k + leafCount then
            leafEntry calcAverage isPlainMode scaledL2Regularizer trueStats
          else stateEntry state c p := by
  obtain ⟨st1, hst1, hsz1, hlp1, hsc1, hent1⟩ := storeLeafStats_spec calcAverage isPlainMode
    leafCount scaledL2Regularizer splitsCount splitIdx k state falseStats hsized hs (by omega)
  obtain ⟨st2, hst2, hsz2, hlp2, hsc2, hent2⟩ := storeLeafStats_spec calcAverage isPlainMode
    leafCount scaledL2Regularizer splitsCount splitIdx (k + leafCount) st1 trueStats hsz1 hs
    (by omega)
  have hread : state.leafsProcessed[splitIdx]? = some k := by
    rw [List.getD_eq_getElem?_getD, List.getElem?_eq_getElem (by rw [hsized.1]; exact hs)]
      at hcur
    rw [List.getElem?_eq_getElem (by rw [hsized.1]; exact hs)]
    exact congrArg some hcur
  refine ⟨{ st2 with leafsProcessed := st2.leafsProcessed.set splitIdx (k + 1) }, ?_,
    ⟨?_, hsz2.2⟩, ?_, ?_, ?_⟩
  · unfold updateSplitScoreClosure
    simp only [Bool.not_true, Bool.false_eq_true, if_false, Option.bind_eq_bind,
      Option.pure_def, hread, Option.some_bind, if_pos hk, List.foldlM_cons, List.foldlM_nil,
      hst1, hst2]
  · show (st2.leafsProcessed.set splitIdx (k + 1)).length = splitsCount
    rw [List.length_set]
    exact hsz2.1
  · show st2.leafsProcessed.set splitIdx (k + 1) = _
    rw [hlp2, hlp1]
  · show st2.scoreCalcer = _
    rw [hsc2, hsc1]
  · intro c p
    show stateEntry st2 c p = _
    rw [hent2 c p, hent1 c p]
    by_cases h1 : c = splitIdx ∧ p = k
    · rw [if_pos h1, if_neg (by omega), if_pos h1]
    · rw [if_neg h1, if_neg h1]

theorem expectedEntry_snoc (calcAverage : ℚ → ℚ → ℚ → ℚ) (isPlainMode : Bool)
    (scaledL2Regularizer : ℚ) (leafCount : Nat)
    (updates : List (TBucketStats × TBucketStats × Nat)) (call : TBucketStats × TBucketStats × Nat)
    (p : Nat) (hlen : updates.length < leafCount) :
    expectedEntry calcAverage isPlainMode scaledL2Regularizer leafCount (updates ++ [call]) p
      = if p = updates.length then
          leafEntry calcAverage isPlainMode scaledL2Regularizer call.2.1
        else if p = updates.length + leafCount then
          leafEntry calcAverage isPlainMode scaledL2Regularizer call.1
        else expectedEntry calcAverage isPlainMode scaledL2Regularizer leafCount updates p := by
  unfold expectedEntry
  simp only [List.length_append, List.length_singleton, List.getD_eq_getElem?_getD]
  by_cases h1 : p = updates.length
  · subst h1
    rw [if_pos (by omega), if_pos rfl, List.getElem?_append_right (le_refl _)]
    simp
  · rw [if_neg h1]
    by_cases h2 : p = updates.length + leafCount
    · subst h2
      rw [if_neg (by omega), if_pos ⟨by omega, by omega⟩, if_pos rfl,
        List.getElem?_append_right (by omega)]
      simp
    · rw [if_neg h2]
      by_cases h3 : p < updates.length
      · rw [if_pos (by omega), if_pos h3, List.getElem?_append_left h3]
      · rw [if_neg (by omega), if_neg h3]
        by_cases h4 : leafCount ≤ p ∧ p - leafCount < updates.length
        · rw [if_pos ⟨h4.1, by omega⟩, if_pos h4, List.getElem?_append_left h4.2]
        · rw [if_neg (by omega), if_neg h4]

theorem updatesOf_append (l1 l2 : List (TBucketStats × TBucketStats × Nat)) (c : Nat) :
    updatesOf (l1 ++ l2) c = updatesOf l1 c ++ updatesOf l2 c := by
  unfold updatesOf
  exact List.filter_append _ _

theorem runCalls_recorded (calcAverage : ℚ → ℚ → ℚ → ℚ) (isPlainMode : Bool)
    (scaledL2Regularizer : ℚ) (splitsCount leafCount : Nat)
    (scoreCalcer : List TScoreCalcerCall) :
    ∀ (rest done : List (TBucketStats × TBucketStats × Nat)) (state : TUpdateScoresState),
      Recorded calcAverage isPlainMode scaledL2Regularizer splitsCount leafCount scoreCalcer
        done state →
      (∀ c, c < splitsCount → (updatesOf (done ++ rest) c).length ≤ leafCount) →
      (∀ call ∈ rest, call.2.2 < splitsCount) →
      ∃ state2, runCalls (updateSplitScoreClosure calcAverage isPlainMode true leafCount
          scaledL2Regularizer) rest state = some state2 ∧
        Recorded calcAverage isPlainMode scaledL2Regularizer splitsCount leafCount scoreCalcer
          (done ++ rest) state2 := by
  intro rest
  induction rest with
  | nil =>
    intro done state hrec _ _
    exact ⟨state, rfl, by rw [List.append_nil]; exact hrec⟩
  | cons call rest ih =>
    intro done state hrec hcount hidx
    obtain ⟨hsized, hsc, hlp, hent⟩ := hrec
    have hc0 : call.2.2 < splitsCount := hidx call (List.mem_cons_self _ _)
    have hself : updatesOf [call] call.2.2 = [call] := by
      simp [updatesOf]
    have hk : (updatesOf done call.2.2).length < leafCount := by
      have := hcount call.2.2 hc0
      rw [updatesOf_append, List.length_append] at this
      have h2 : 1 ≤ (updatesOf (call :: rest) call.2.2).length := by
        have : call :: rest = [call] ++ rest := rfl
        rw [this, updatesOf_append, hself, List.length_append]
        simp
      omega
    obtain ⟨st1, hst1, hsz1, hlp1, hsc1, hent1⟩ := closure_step_spec calcAverage isPlainMode
      leafCount scaledL2Regularizer splitsCount call.2.2 _ state call.1 call.2.1 hsized hc0
      (hlp call.2.2 hc0) hk
    have hrec1 : Recorded calcAverage isPlainMode scaledL2Regularizer splitsCount leafCount
        scoreCalcer (done ++ [call]) st1 := by
      refine ⟨hsz1, by rw [hsc1, hsc], fun c hc => ?_, fun c p hc => ?_⟩
      · rw [hlp1, updatesOf_append, List.length_append]
        by_cases hcc : c = call.2.2
        · subst hcc
          rw [List.getD_eq_getElem?_getD, List.getElem?_set_self (by rw [hsized.1]; exact hc),
            hself]
          rfl
        · have hnil : updatesOf [call] c = [] := by
            simp [updatesOf, Ne.symm hcc]
          rw [List.getD_eq_getElem?_getD, List.getElem?_set_ne (Ne.symm hcc),
            ← List.getD_eq_getElem?_getD, hlp c hc, hnil]
          rfl
      · rw [hent1 c p, updatesOf_append]
        by_cases hcc : c = call.2.2
        · subst hcc
          rw [hself, expectedEntry_snoc _ _ _ _ _ _ _ hk, hent call.2.2 p hc]
          by_cases h1 : p = (updatesOf done call.2.2).length
          · rw [if_pos ⟨rfl, h1⟩, if_pos h1]
          · rw [if_neg (fun h => h1 h.2), if_neg h1]
            by_cases h2 : p = (updatesOf done call.2.2).length + leafCount
            · rw [if_pos ⟨rfl, h2⟩, if_pos h2]
            · rw [if_neg (fun h => h2 h.2), if_neg h2]
        · have hnil : updatesOf [call] c = [] := by
            simp [updatesOf, Ne.symm hcc]
          rw [if_neg (fun h => hcc h.1), if_neg (fun h => hcc h.1), hnil, List.append_nil,
            hent c p hc]
    have happ : done ++ call :: rest = (done ++ [call]) ++ rest := by simp
    obtain ⟨st2, hst2, hrec2⟩ := ih (done ++ [call]) st1 hrec1
      (by rw [← happ]; exact hcount) (fun c hc => hidx c (List.mem_cons_of_mem _ hc))
    refine ⟨st2, ?_, by rw [happ]; exact hrec2⟩
    unfold runCalls at hst2 ⊢
    rw [List.foldlM_cons, hst1]
    exact hst2

theorem initial_recorded (calcAverage : ℚ → ℚ → ℚ → ℚ) (isPlainMode : Bool)
    (scaledL2Regularizer : ℚ) (splitsCount leafCount : Nat)
    (scoreCalcer : List TScoreCalcerCall) :
    Recorded calcAverage isPlainMode scaledL2Regularizer splitsCount leafCount scoreCalcer []
      (initialUpdateScoresState true splitsCount leafCount scoreCalcer) := by
  have hzero : ∀ c p, entryAt (List.replicate splitsCount (List.replicate (2 * leafCount) 0))
      c p = 0 := by
    intro c p
    unfold entryAt
    simp only [List.getD_eq_getElem?_getD, List.getElem?_replicate]
    split
    · simp only [Option.getD_some, List.getElem?_replicate]
      split <;> rfl
    · rfl
  refine ⟨⟨by simp [initialUpdateScoresState], ?_⟩, by simp [initialUpdateScoresState], ?_, ?_⟩
  · intro vec hvec
    simp only [initialUpdateScoresState, if_true, List.mem_cons, List.mem_singleton,
      List.not_mem_nil, or_false, or_self] at hvec
    subst hvec
    refine ⟨by simp, fun row hrow => ?_⟩
    rw [List.eq_of_mem_replicate hrow, List.length_replicate]
  · intro c hc
    simp [initialUpdateScoresState, updatesOf, hc]
  · intro c p _
    simp only [initialUpdateScoresState, if_true, stateEntry, hzero, expectedEntry, updatesOf,
      List.filter_nil, List.length_nil, Nat.not_lt_zero, if_false, and_false]

theorem UpdateScores_eq_runCalls {σ : Type}
    (closure : σ → TBucketStats → TBucketStats → Nat → Option σ) (stats : List TBucketStats)
    (L B : Nat) (indexer : TStatsIndexer) (splitEnsembleSpec : TSplitEnsembleSpec)
    (oneHotMaxSize : Nat) (useForCalcScores : TExclusiveBundlePart → Nat → Bool)
    (getValueBitCount : Int → Nat) (st : σ) (hB : indexer.BucketCount = (B : Int))
    (hin : ∀ leaf b : Nat, leaf < L → b < B →
      (statsAt stats (indexer.GetIndex leaf b)).isSome = true)
    (hbundle : splitEnsembleSpec.EnsembleType = ESplitEnsembleType.ExclusiveBundle →
      1 ≤ B ∧ (∀ part ∈ splitEnsembleSpec.Parts, part.Bounds.End ≤ B) ∧
      ∀ part ∈ splitEnsembleSpec.Parts, useForCalcScores part oneHotMaxSize = true →
        part.FeatureType = EFeatureType.Categorical →
        part.Bounds.GetSize + 1 ≤ oneHotMaxSize) :
    UpdateScores closure stats (L : Int) indexer splitEnsembleSpec oneHotMaxSize
        useForCalcScores getValueBitCount st
      = runCalls closure
          ((List.range L).map (leafCalls stats indexer B splitEnsembleSpec
            (splitEnsembleSpec.Parts.map (fun p => useForCalcScores p oneHotMaxSize))
            (getValueBitCount (indexer.BucketCount - 1)))).flatten st := by
  obtain ⟨kind, splitType, parts⟩ := splitEnsembleSpec
  cases kind with
  | OneFeature =>
    unfold UpdateScores
    simp only [Int.toNat_natCast]
    refine foldlM_leaves closure _ _ L st (fun leaf st2 hl => ?_)
    simp only [leafCalls]
    by_cases h1 : splitType = ESplitType.OneHotFeature
    · subst h1
      simp only [if_true]
      exact oneFeature_oneHot_leaf closure stats indexer B leaf st2 hB
        (fun b hb => hin leaf b hl hb)
    · simp only [h1, if_false]
      refine oneFeature_float_leaf closure stats indexer B splitType leaf st2 hB ?_
        (fun b hb => hin leaf b hl hb)
      cases splitType with
      | FloatFeature => exact Or.inl rfl
      | OnlineCtr => exact Or.inr rfl
      | OneHotFeature => exact absurd rfl h1
  | BinarySplits =>
    unfold UpdateScores
    simp only [Int.toNat_natCast]
    refine foldlM_leaves closure _ _ L st (fun leaf st2 hl => ?_)
    simp only [leafCalls]
    exact binarySplits_leaf closure stats indexer B _ leaf st2 hB
      (fun b hb => hin leaf b hl hb)
  | ExclusiveBundle =>
    obtain ⟨h1, hE, hcat⟩ := hbundle rfl
    have hcast : indexer.BucketCount - 1 = ((B - 1 : Nat) : Int) := by
      rw [hB]
      omega
    have h := UpdateScores_bundle closure stats L indexer splitType parts oneHotMaxSize
      useForCalcScores getValueBitCount st
      (fun leaf hl => by
        rw [hcast]
        exact hin leaf (B - 1) hl (by omega))
      (fun leaf hl part hp b _ hb => hin leaf b hl (Nat.lt_of_lt_of_le hb (hE part hp)))
      hcat
    rw [h]
    rfl

theorem updatesOf_leaves (callsOfLeaf : Nat → List (TBucketStats × TBucketStats × Nat))
    (c : Nat) (t f : Nat → TBucketStats) :
    ∀ L : Nat, (∀ leaf, leaf < L → updatesOf (callsOfLeaf leaf) c = [(t leaf, f leaf, c)]) →
      updatesOf ((List.range L).map callsOfLeaf).flatten c
        = (List.range L).map (fun leaf => (t leaf, f leaf, c)) := by
  intro L
  induction L with
  | zero => intro _; rfl
  | succ L ih =>
    intro h
    rw [List.range_succ, List.map_append, List.flatten_append, updatesOf_append,
      ih (fun leaf hl => h leaf (by omega)), List.map_append]
    congr 1
    simp only [List.map_cons, List.map_nil, List.flatten_cons, List.flatten_nil,
      List.append_nil]
    exact h L (by omega)

/-- C29: with monotonic constraints engaged, the loop over the `leafCount` leaves returns,
and for every candidate `c` that is updated once per leaf (`hc`: leaf `leaf` makes the one
call `(t leaf, f leaf, c)` for it) the four tables of length `2 * leafCount` hold at
position `leaf` the entry of `falseStats = f leaf` and at position `leaf + leafCount` the
entry of `trueStats = t leaf`, with `leafsProcessed[c] = leafCount`.  Each position is
written once: a call for a candidate with `leafsProcessed = k` writes the positions `k` and
`k + leafCount` of that candidate and nothing else in the tables, and moves
`leafsProcessed` to `k + 1`.  (The reads of the statistics are inside the array, the
candidates are below `GetSplitsCount()`, and no candidate is updated more than
`leafCount` times, so that `Y_ASSERT(currLeafId < leafCount)` passes.) -/
theorem C29_recorded_positions (calcAverage : ℚ → ℚ → ℚ → ℚ) (isPlainMode : Bool)
    (scaledL2Regularizer : ℚ) (stats : List TBucketStats) (L B : Nat) (indexer : TStatsIndexer)
    (splitEnsembleSpec : TSplitEnsembleSpec) (oneHotMaxSize : Nat)
    (useForCalcScores : TExclusiveBundlePart → Nat → Bool) (getValueBitCount : Int → Nat)
    (splitsCount : Nat) (scoreCalcer : List TScoreCalcerCall)
    (hB : indexer.BucketCount = (B : Int))
    (hin : ∀ leaf b : Nat, leaf < L → b < B →
      (statsAt stats (indexer.GetIndex leaf b)).isSome = true)
    (hbundle : splitEnsembleSpec.EnsembleType = ESplitEnsembleType.ExclusiveBundle →
      1 ≤ B ∧ (∀ part ∈ splitEnsembleSpec.Parts, part.Bounds.End ≤ B) ∧
      ∀ part ∈ splitEnsembleSpec.Parts, useForCalcScores part oneHotMaxSize = true →
        part.FeatureType = EFeatureType.Categorical →
        part.Bounds.GetSize + 1 ≤ oneHotMaxSize)
    (hidx : ∀ call ∈ ((List.range L).map (leafCalls stats indexer B splitEnsembleSpec
        (splitEnsembleSpec.Parts.map (fun p => useForCalcScores p oneHotMaxSize))
        (getValueBitCount (indexer.BucketCount - 1)))).flatten, call.2.2 < splitsCount)
    (hcount : ∀ c, c < splitsCount →
      (updatesOf ((List.range L).map (leafCalls stats indexer B splitEnsembleSpec
        (splitEnsembleSpec.Parts.map (fun p => useForCalcScores p oneHotMaxSize))
        (getValueBitCount (indexer.BucketCount - 1)))).flatten c).length ≤ L) :
    (∃ state, UpdateScores
        (updateSplitScoreClosure calcAverage isPlainMode true L scaledL2Regularizer)
        stats (L : Int) indexer splitEnsembleSpec oneHotMaxSize useForCalcScores
        getValueBitCount (initialUpdateScoresState true splitsCount L scoreCalcer)
        = some state ∧
      TablesSized splitsCount L state ∧
      ∀ (c : Nat) (t f : Nat → TBucketStats), c < splitsCount →
        (∀ leaf, leaf < L →
          updatesOf (leafCalls stats indexer B splitEnsembleSpec
            (splitEnsembleSpec.Parts.map (fun p => useForCalcScores p oneHotMaxSize))
            (getValueBitCount (indexer.BucketCount - 1)) leaf) c = [(t leaf, f leaf, c)]) →
        state.leafsProcessed[c]? = some L ∧
        ∀ leaf, leaf < L →
          stateEntry state c leaf
            = leafEntry calcAverage isPlainMode scaledL2Regularizer (f leaf) ∧
          stateEntry state c (leaf + L)
            = leafEntry calcAverage isPlainMode scaledL2Regularizer (t leaf)) ∧
    ∀ (state : TUpdateScoresState) (trueStats falseStats : TBucketStats) (c k : Nat),
      TablesSized splitsCount L state → c < splitsCount →
      state.leafsProcessed.getD c 0 = k → k < L →
      ∃ state2, updateSplitScoreClosure calcAverage isPlainMode true L scaledL2Regularizer
          state trueStats falseStats c = some state2 ∧
        state2.leafsProcessed = state.leafsProcessed.set c (k + 1) ∧
        ∀ c2 p, stateEntry state2 c2 p
          = if c2 = c ∧ p = k then
              leafEntry calcAverage isPlainMode scaledL2Regularizer falseStats
            else if c2 = c ∧ p = k + L then
              leafEntry calcAverage isPlainMode scaledL2Regularizer trueStats
            else stateEntry state c2 p := by
  constructor
  · obtain ⟨state, hrun, hsized, hsc, hlp, hent⟩ := runCalls_recorded calcAverage isPlainMode
      scaledL2Regularizer splitsCount L scoreCalcer _ [] _
      (initial_recorded calcAverage isPlainMode scaledL2Regularizer splitsCount L scoreCalcer)
      (by simpa using hcount) hidx
    refine ⟨state, ?_, hsized, fun c t f hc honce => ?_⟩
    · rw [UpdateScores_eq_runCalls _ stats L B indexer splitEnsembleSpec oneHotMaxSize
        useForCalcScores getValueBitCount _ hB hin hbundle]
      exact hrun
    · have hup := updatesOf_leaves _ c t f L honce
      rw [List.nil_append] at hlp hent
      have hlen : (updatesOf ((List.range L).map (leafCalls stats indexer B splitEnsembleSpec
          (splitEnsembleSpec.Parts.map (fun p => useForCalcScores p oneHotMaxSize))
          (getValueBitCount (indexer.BucketCount - 1)))).flatten c).length = L := by
        rw [hup, List.length_map, List.length_range]
      constructor
      · have h1 := hlp c hc
        rw [hlen] at h1
        rw [List.getElem?_eq_getElem (by rw [hsized.1]; exact hc)]
        rw [List.getD_eq_getElem?_getD, List.getElem?_eq_getElem (by rw [hsized.1]; exact hc)]
          at h1
        exact congrArg some h1
      · intro leaf hl
        rw [hent c leaf hc, hent c (leaf + L) hc]
        unfold expectedEntry
        rw [hlen, if_pos hl, if_neg (by omega), if_pos ⟨by omega, by omega⟩, hup]
        simp only [List.getD_eq_getElem?_getD, List.getElem?_map, Nat.add_sub_cancel,
          List.getElem?_range hl, Option.map_some', Option.getD_some, and_self]
  · intro state t f c k hsized hc hcur hk
    obtain ⟨st2, h1, _, h3, _, h5⟩ := closure_step_spec calcAverage isPlainMode L
      scaledL2Regularizer splitsCount c k state t f hsized hc hcur hk
    exact ⟨st2, h1, h3, h5⟩

theorem C29_recorded_positions_witness :
    ∃ state, UpdateScores (updateSplitScoreClosure CalcAverage true true 2 1) exampleScoreStats
        ((2 : Nat) : Int) ⟨3⟩ ⟨ESplitEnsembleType.OneFeature, ESplitType.FloatFeature, []⟩ 0
        (fun _ _ => true) (fun _ => 0) (initialUpdateScoresState true 2 2 []) = some state ∧
      TablesSized 2 2 state ∧ state.leafsProcessed[1]? = some 2 ∧
      stateEntry state 1 0 = leafEntry CalcAverage true 1 ⟨1, 2, 0, 0⟩ ∧
      stateEntry state 1 (0 + 2) = leafEntry CalcAverage true 1 ⟨0, 0, 0, 0⟩ := by
  obtain ⟨state, h1, h2, h3⟩ := (C29_recorded_positions CalcAverage true 1 exampleScoreStats 2 3
    ⟨3⟩ ⟨ESplitEnsembleType.OneFeature, ESplitType.FloatFeature, []⟩ 0 (fun _ _ => true)
    (fun _ => 0) 2 [] rfl
    (fun leaf b hl hb => by interval_cases leaf <;> interval_cases b <;> decide)
    (fun h => by cases h) (by with_unfolding_all decide) (by with_unfolding_all decide)).1
  obtain ⟨h4, h5⟩ := h3 1
    (fun leaf => [(⟨0, 0, 0, 0⟩ : TBucketStats), ⟨1 / 2, 1, 0, 0⟩].getD leaf 0)
    (fun leaf => [(⟨1, 2, 0, 0⟩ : TBucketStats), ⟨-1 / 2, 1, 0, 0⟩].getD leaf 0) (by decide)
    (fun leaf hl => by interval_cases leaf <;> with_unfolding_all decide)
  exact ⟨state, h1, h2, h4, (h5 0 (by decide)).1, (h5 0 (by decide)).2⟩

theorem addLeaf_loop (splitIdx : Nat) (deltas : List ℚ) :
    ∀ (n : Nat) (st st2 : TUpdateScoresState),
      (List.range n).foldlM (fun (state : TUpdateScoresState) leafIndex =>
        (deltas[leafIndex]?).bind fun leafDelta =>
          (state.tailLeafSumWeightedDers[splitIdx]?).bind fun ders =>
            (ders[leafIndex]?).bind fun der =>
              (state.tailLeafWeights[splitIdx]?).bind fun tailWeights =>
                (tailWeights[leafIndex]?).bind fun weight =>
                  some { state with
                    scoreCalcer := state.scoreCalcer
                      ++ [TScoreCalcerCall.AddLeaf splitIdx leafDelta ⟨der, weight, 0, 0⟩] })
        st = some st2 →
      st2 = { st with
        scoreCalcer := st.scoreCalcer ++ (List.range n).map (fun leafIndex =>
          TScoreCalcerCall.AddLeaf splitIdx (deltas.getD leafIndex 0)
            ⟨entryAt st.tailLeafSumWeightedDers splitIdx leafIndex,
              entryAt st.tailLeafWeights splitIdx leafIndex, 0, 0⟩) } := by
  intro n
  induction n with
  | zero =>
    intro st st2 h
    simp only [List.range_zero, List.foldlM_nil, Option.pure_def, Option.some.injEq] at h
    rw [← h]
    simp
  | succ n ih =>
    intro st st2 h
    rw [List.range_succ, List.foldlM_append] at h
    simp only [Option.bind_eq_bind] at h
    rw [Option.bind_eq_some] at h
    obtain ⟨st1, h1, h2⟩ := h
    have e1 := ih st st1 h1
    simp only [List.foldlM_cons, List.foldlM_nil, Option.bind_eq_bind, Option.pure_def] at h2
    rw [Option.bind_eq_some] at h2
    obtain ⟨st3, h3, h4⟩ := h2
    rw [Option.some.injEq] at h4
    rw [Option.bind_eq_some] at h3
    obtain ⟨leafDelta, hd, h3⟩ := h3
    rw [Option.bind_eq_some] at h3
    obtain ⟨ders, hders, h3⟩ := h3
    rw [Option.bind_eq_some] at h3
    obtain ⟨der, hder, h3⟩ := h3
    rw [Option.bind_eq_some] at h3
    obtain ⟨tw, htw, h3⟩ := h3
    rw [Option.bind_eq_some] at h3
    obtain ⟨w, hw, h3⟩ := h3
    rw [Option.some.injEq] at h3
    rw [← h4, ← h3]
    have hdv : deltas.getD n 0 = leafDelta := by
      rw [List.getD_eq_getElem?_getD, hd]
      rfl
    rw [e1] at hders htw
    simp only at hders htw
    have hderv : entryAt st.tailLeafSumWeightedDers splitIdx n = der := by
      unfold entryAt
      simp only [List.getD_eq_getElem?_getD, hders, hder, Option.getD_some]
    have hwv : entryAt st.tailLeafWeights splitIdx n = w := by
      unfold entryAt
      simp only [List.getD_eq_getElem?_getD, htw, hw, Option.getD_some]
    rw [e1]
    simp only [List.range_succ, List.map_append, List.map_cons, List.map_nil, hdv, hderv, hwv,
      List.append_assoc]

theorem addLeafCalls_succ (leafDelta : Nat → Nat → ℚ) (tders tw : List (List ℚ))
    (n leafCount : Nat) :
    addLeafCalls leafDelta tders tw (n + 1) leafCount
      = addLeafCalls leafDelta tders tw n leafCount
        ++ (List.range (2 * leafCount)).map (fun leafIndex =>
          TScoreCalcerCall.AddLeaf n (leafDelta n leafIndex)
            ⟨entryAt tders n leafIndex, entryAt tw n leafIndex, 0, 0⟩) := by
  unfold addLeafCalls
  rw [List.range_succ, List.map_append, List.flatten_append]
  simp

theorem addLeafCalls_congr (d1 d2 : Nat → Nat → ℚ) (tders tw : List (List ℚ))
    (n leafCount : Nat) (h : ∀ s i, s < n → d1 s i = d2 s i) :
    addLeafCalls d1 tders tw n leafCount = addLeafCalls d2 tders tw n leafCount := by
  unfold addLeafCalls
  congr 1
  apply List.map_congr_left
  intro s hs
  apply List.map_congr_left
  intro i _
  rw [h s i (List.mem_range.mp hs)]

theorem monotonicPostProcessing_addLeaf (build : List Int → List (List Nat))
    (iso : List ℚ → List ℚ → List Nat → List ℚ → Option (List ℚ)) (leafCount splitsCount : Nat)
    (curr cand : List Int) (state state2 : TUpdateScoresState)
    (h : monotonicPostProcessing build iso leafCount splitsCount curr cand state = some state2) :
    ∃ leafDelta : Nat → Nat → ℚ,
      state2.scoreCalcer = state.scoreCalcer
        ++ addLeafCalls leafDelta state.tailLeafSumWeightedDers state.tailLeafWeights
            splitsCount leafCount := by
  unfold monotonicPostProcessing at h
  split at h
  · have key : ∀ (n : Nat) (st st2 : TUpdateScoresState),
        (List.range n).foldlM (fun (state : TUpdateScoresState) splitIdx => do
          let constraint ← cand[splitIdx]?
          let indexOrder := build (curr ++ [constraint])
          let deltas ← state.leafDeltas[splitIdx]?
          let weights ← state.bodyLeafWeights[splitIdx]?
          let deltas ← projectLeafDeltas iso weights indexOrder deltas
          let state := { state with leafDeltas := state.leafDeltas.set splitIdx deltas }
          (List.range (2 * leafCount)).foldlM (fun state leafIndex => do
            let leafDelta ← deltas[leafIndex]?
            let ders ← state.tailLeafSumWeightedDers[splitIdx]?
            let der ← ders[leafIndex]?
            let tailWeights ← state.tailLeafWeights[splitIdx]?
            let weight ← tailWeights[leafIndex]?
            pure { state with
              scoreCalcer := state.scoreCalcer
                ++ [TScoreCalcerCall.AddLeaf splitIdx leafDelta ⟨der, weight, 0, 0⟩] }) state)
          st = some st2 →
        ∃ leafDelta : Nat → Nat → ℚ,
          st2.tailLeafSumWeightedDers = st.tailLeafSumWeightedDers ∧
          st2.tailLeafWeights = st.tailLeafWeights ∧
          st2.scoreCalcer = st.scoreCalcer
            ++ addLeafCalls leafDelta st.tailLeafSumWeightedDers st.tailLeafWeights n
                leafCount := by
      intro n
      induction n with
      | zero =>
        intro st st2 h0
        simp only [List.range_zero, List.foldlM_nil, Option.pure_def, Option.some.injEq] at h0
        rw [← h0]
        exact ⟨fun _ _ => 0, rfl, rfl, by simp [addLeafCalls]⟩
      | succ n ih =>
        intro st st2 h0
        rw [List.range_succ, List.foldlM_append] at h0
        simp only [Option.bind_eq_bind] at h0
        rw [Option.bind_eq_some] at h0
        obtain ⟨st1, h1, h2⟩ := h0
        obtain ⟨d1, e1, e2, e3⟩ := ih st st1 h1
        simp only [List.foldlM_cons, List.foldlM_nil, Option.bind_eq_bind, Option.pure_def]
          at h2
        rw [Option.bind_eq_some] at h2
        obtain ⟨st3, h3, h4⟩ := h2
        rw [Option.some.injEq] at h4
        rw [Option.bind_eq_some] at h3
        obtain ⟨constraint, _, h3⟩ := h3
        rw [Option.bind_eq_some] at h3
        obtain ⟨deltas, _, h3⟩ := h3
        rw [Option.bind_eq_some] at h3
        obtain ⟨weights, _, h3⟩ := h3
        rw [Option.bind_eq_some] at h3
        obtain ⟨projected, _, h3⟩ := h3
        have e4 := addLeaf_loop n projected (2 * leafCount) _ _ h3
        rw [← h4, e4]
        refine ⟨fun s i => if s = n then projected.getD i 0 else d1 s i, e1, e2, ?_⟩
        simp only
        rw [e3, addLeafCalls_succ, List.append_assoc, e1, e2,
          addLeafCalls_congr (fun s i => if s = n then projected.getD i 0 else d1 s i) d1 _ _ n
            leafCount (fun s i hs => by simp only [if_neg (Nat.ne_of_lt hs)])]
        simp only [if_true]
    obtain ⟨d, _, _, hd⟩ := key splitsCount state state2 h
    exact ⟨d, hd⟩
  · exact Option.noConfusion h

/-- C30: with monotonic constraints engaged, a call of the closure for a candidate with
`leafsProcessed = k` stores, for the false side at position `k` and for the true side at
position `k + leafCount`: in `leafDeltas` the value `CalcAverage(sum, weight, lambda) = sum
/ (weight + lambda)` with `(sum, weight) = (SumWeightedDelta, SumWeight)` in plain mode and
`(SumDelta, Count)` in ordered mode, `lambda` being the scaled regulariser; in
`bodyLeafWeights`, the weights later given to the regression, `weight + lambda`; in
`tailLeafSumWeightedDers` and `tailLeafWeights` the `SumWeightedDelta` and `SumWeight` of
that side in both modes.  The last block of `UpdateScores` then passes to `AddLeaf`, for
every position, the statistics `{tailLeafSumWeightedDers, tailLeafWeights, 0, 0}` of that
position. -/
theorem C30_stored_values (isPlainMode : Bool) (scaledL2Regularizer : ℚ)
    (leafCount splitsCount : Nat) (state : TUpdateScoresState)
    (trueStats falseStats : TBucketStats) (c k : Nat)
    (hsized : TablesSized splitsCount leafCount state) (hc : c < splitsCount)
    (hcur : state.leafsProcessed.getD c 0 = k) (hk : k < leafCount) :
    (∃ state2, updateSplitScoreClosure CalcAverage isPlainMode true leafCount
        scaledL2Regularizer state trueStats falseStats c = some state2 ∧
      entryAt state2.leafDeltas c k
        = (if isPlainMode then
            falseStats.SumWeightedDelta / (falseStats.SumWeight + scaledL2Regularizer)
          else falseStats.SumDelta / (falseStats.Count + scaledL2Regularizer)) ∧
      entryAt state2.leafDeltas c (k + leafCount)
        = (if isPlainMode then
            trueStats.SumWeightedDelta / (trueStats.SumWeight + scaledL2Regularizer)
          else trueStats.SumDelta / (trueStats.Count + scaledL2Regularizer)) ∧
      entryAt state2.bodyLeafWeights c k
        = (if isPlainMode then falseStats.SumWeight else falseStats.Count)
          + scaledL2Regularizer ∧
      entryAt state2.bodyLeafWeights c (k + leafCount)
        = (if isPlainMode then trueStats.SumWeight else trueStats.Count)
          + scaledL2Regularizer ∧
      entryAt state2.tailLeafSumWeightedDers c k = falseStats.SumWeightedDelta ∧
      entryAt state2.tailLeafWeights c k = falseStats.SumWeight ∧
      entryAt state2.tailLeafSumWeightedDers c (k + leafCount) = trueStats.SumWeightedDelta ∧
      entryAt state2.tailLeafWeights c (k + leafCount) = trueStats.SumWeight) ∧
    (∀ (build : List Int → List (List Nat))
        (iso : List ℚ → List ℚ → List Nat → List ℚ → Option (List ℚ)) (curr cand : List Int)
        (st st2 : TUpdateScoresState),
      monotonicPostProcessing build iso leafCount splitsCount curr cand st = some st2 →
      ∃ leafDelta : Nat → Nat → ℚ,
        st2.scoreCalcer = st.scoreCalcer
          ++ addLeafCalls leafDelta st.tailLeafSumWeightedDers st.tailLeafWeights splitsCount
              leafCount) ∧
    ∀ sum weight : ℚ,
      CalcAverage sum weight scaledL2Regularizer = sum / (weight + scaledL2Regularizer) := by
  refine ⟨?_, fun build iso curr cand st st2 h =>
    monotonicPostProcessing_addLeaf build iso leafCount splitsCount curr cand st st2 h,
    fun _ _ => rfl⟩
  obtain ⟨state2, h1, _, _, _, hent⟩ := closure_step_spec CalcAverage isPlainMode leafCount
    scaledL2Regularizer splitsCount c k state trueStats falseStats hsized hc hcur hk
  have hF := hent c k
  have hT := hent c (k + leafCount)
  rw [if_pos ⟨rfl, rfl⟩] at hF
  rw [if_neg (by omega), if_pos ⟨rfl, rfl⟩] at hT
  unfold stateEntry leafEntry at hF hT
  simp only [Prod.mk.injEq] at hF hT
  obtain ⟨f1, f2, f3, f4⟩ := hF
  obtain ⟨t1, t2, t3, t4⟩ := hT
  refine ⟨state2, h1, ?_, ?_, f2, t2, f3, f4, t3, t4⟩
  · rw [f1]
    rfl
  · rw [t1]
    rfl

theorem C30_stored_values_witness :
    ∃ state2, updateSplitScoreClosure CalcAverage true true 2 1
        (initialUpdateScoresState true 2 2 []) ⟨2, 1, 0, 0⟩ ⟨-1, 1, 0, 0⟩ 0 = some state2 ∧
      entryAt state2.leafDeltas 0 0 = -1 / (1 + 1) ∧
      entryAt state2.leafDeltas 0 (0 + 2) = 2 / (1 + 1) ∧
      entryAt state2.bodyLeafWeights 0 0 = 1 + 1 ∧
      entryAt state2.tailLeafSumWeightedDers 0 (0 + 2) = 2 ∧
      entryAt state2.tailLeafWeights 0 (0 + 2) = 1 := by
  obtain ⟨state2, h, h1, h2, h3, _, _, _, h7, h8⟩ := (C30_stored_values true 1 2 2
    (initialUpdateScoresState true 2 2 []) ⟨2, 1, 0, 0⟩ ⟨-1, 1, 0, 0⟩ 0 0
    (initial_recorded CalcAverage true 1 2 2 []).1 (by decide) (by decide) (by decide)).1
  exact ⟨state2, h, h1, h2, h3, h7, h8⟩

/-! ## C26: the error of `GetScores` and its result -/

theorem splitsCountOf_append (base added : List TScoreCalcerCall)
    (h : ∀ e ∈ added, e.isUpdateSplitScore = true) :
    splitsCountOf (base ++ added) = splitsCountOf base := by
  unfold splitsCountOf
  rw [List.foldl_append]
  generalize List.foldl (fun splitsCount call =>
    match call with
    | TScoreCalcerCall.SetSplitsCount n => n
    | _ => splitsCount) 0 base = n0
  induction added generalizing n0 with
  | nil => rfl
  | cons e rest ih =>
    rw [List.foldl_cons]
    have he := h e (List.mem_cons_self _ _)
    have hrest := ih (fun x hx => h x (List.mem_cons_of_mem _ hx))
    cases e with
    | SetSplitsCount n => exact absurd he (by simp [TScoreCalcerCall.isUpdateSplitScore])
    | SetL2Regularizer x => exact hrest n0
    | AddLeafPlain i l r => exact hrest n0
    | AddLeafOrdered i l r => exact hrest n0
    | AddLeaf i d st => exact hrest n0

theorem runCalls_total {σ : Type} (closure : σ → TBucketStats → TBucketStats → Nat → Option σ)
    (h : ∀ st t f i, ∃ st2, closure st t f i = some st2) :
    ∀ (calls : List (TBucketStats × TBucketStats × Nat)) (st : σ),
      ∃ st2, runCalls closure calls st = some st2 := by
  intro calls
  induction calls with
  | nil => intro st; exact ⟨st, rfl⟩
  | cons call rest ih =>
    intro st
    obtain ⟨st1, h1⟩ := h st call.1 call.2.1 call.2.2
    obtain ⟨st2, h2⟩ := ih st1
    refine ⟨st2, ?_⟩
    unfold runCalls at h2 ⊢
    rw [List.foldlM_cons, h1]
    exact h2

theorem getScoresLoop_returns (calcAverage : ℚ → ℚ → ℚ → ℚ) (stats3d : TStats3D)
    (leafCount : Nat) (indexer : TStatsIndexer) (scaledL2Regularizer : ℚ) (oneHotMaxSize : Nat)
    (useForCalcScores : TExclusiveBundlePart → Nat → Bool) (getValueBitCount : Int → Nat)
    (splitsCount S : Nat)
    (hcall : ∀ (statsIdx : Nat) (calls : List TScoreCalcerCall),
      statsIdx * S < stats3d.Stats.length →
      ∃ calls2, UpdateScoresOfCalcer calcAverage (fun _ => []) (fun _ _ _ _ => none)
        (stats3d.Stats.drop (statsIdx * S)) leafCount indexer stats3d.SplitEnsembleSpec
        scaledL2Regularizer true false oneHotMaxSize [] [] useForCalcScores getValueBitCount
        splitsCount calls = some calls2) :
    ∀ (fuel statsIdx : Nat) (calls : List TScoreCalcerCall), 1 ≤ fuel →
      stats3d.Stats.length ≤ (statsIdx + fuel - 1) * S →
      ∃ calls2, getScoresLoop calcAverage stats3d leafCount indexer scaledL2Regularizer
          oneHotMaxSize useForCalcScores getValueBitCount splitsCount (S : Int) fuel statsIdx
          calls = some calls2 ∧
        AddsOnly (fun e => e.isUpdateSplitScore) calls calls2 := by
  intro fuel
  induction fuel with
  | zero => intro _ _ h; omega
  | succ fuel ih =>
    intro statsIdx calls _ hlen
    unfold getScoresLoop
    have hprod : (statsIdx : Int) * (S : Int) = ((statsIdx * S : Nat) : Int) := by push_cast; rfl
    by_cases hcond : statsIdx * S < stats3d.Stats.length
    · have hc1 : (statsIdx : Int) * (S : Int) < (stats3d.Stats.length : Int) := by
        rw [hprod]
        exact_mod_cast hcond
      have hc2 : 0 ≤ (statsIdx : Int) * (S : Int) := by
        rw [hprod]
        exact Int.natCast_nonneg _
      obtain ⟨calls1, h1⟩ := hcall statsIdx calls hcond
      have hadd1 := (UpdateScoresOfCalcer_calls _ _ _ _ _ _ _ _ _ _ _ _ _ _ _ _ _ _ h1).2
      have hfuel : 1 ≤ fuel := by
        by_contra hn
        have h0 : fuel = 0 := by omega
        rw [h0] at hlen
        simp only [Nat.zero_add, Nat.add_sub_cancel] at hlen
        omega
      obtain ⟨calls2, h2, hadd2⟩ := ih (statsIdx + 1) calls1 hfuel (by
        have : statsIdx + 1 + fuel - 1 = statsIdx + (fuel + 1) - 1 := by omega
        rw [this]
        exact hlen)
      refine ⟨calls2, ?_, AddsOnly_trans _ _ _ _ (by simpa using hadd1) hadd2⟩
      rw [if_pos hc1, if_pos hc2]
      simp only [Option.bind_eq_bind]
      rw [hprod, Int.toNat_natCast, h1, Option.some_bind]
      exact h2
    · have hc1 : ¬ (statsIdx : Int) * (S : Int) < (stats3d.Stats.length : Int) := by
        rw [hprod]
        exact_mod_cast hcond
      rw [if_neg hc1]
      exact ⟨calls, rfl, AddsOnly_refl _ _⟩

theorem UpdateScoresOfCalcer_returns (calcAverage : ℚ → ℚ → ℚ → ℚ)
    (build : List Int → List (List Nat))
    (iso : List ℚ → List ℚ → List Nat → List ℚ → Option (List ℚ))
    (stats : List TBucketStats) (L B : Nat) (indexer : TStatsIndexer)
    (splitEnsembleSpec : TSplitEnsembleSpec) (scaledL2Regularizer : ℚ) (isPlainMode : Bool)
    (oneHotMaxSize : Nat) (curr : List Int)
    (useForCalcScores : TExclusiveBundlePart → Nat → Bool) (getValueBitCount : Int → Nat)
    (splitsCount : Nat) (scoreCalcer : List TScoreCalcerCall)
    (hB : indexer.BucketCount = (B : Int))
    (hin : ∀ leaf b : Nat, leaf < L → b < B →
      (statsAt stats (indexer.GetIndex leaf b)).isSome = true)
    (hbundle : splitEnsembleSpec.EnsembleType = ESplitEnsembleType.ExclusiveBundle →
      1 ≤ B ∧ (∀ part ∈ splitEnsembleSpec.Parts, part.Bounds.End ≤ B) ∧
      ∀ part ∈ splitEnsembleSpec.Parts, useForCalcScores part oneHotMaxSize = true →
        part.FeatureType = EFeatureType.Categorical →
        part.Bounds.GetSize + 1 ≤ oneHotMaxSize) :
    ∃ calls, UpdateScoresOfCalcer calcAverage build iso stats L indexer splitEnsembleSpec
      scaledL2Regularizer isPlainMode false oneHotMaxSize curr [] useForCalcScores
      getValueBitCount splitsCount scoreCalcer = some calls := by
  rw [UpdateScoresOfCalcer_unconstrained, UpdateScores_eq_runCalls _ stats L B indexer
    splitEnsembleSpec oneHotMaxSize useForCalcScores getValueBitCount _ hB hin hbundle]
  obtain ⟨st, hst⟩ := runCalls_total
    (fun (state : TUpdateScoresState) trueStats falseStats splitIdx =>
      some { state with
        scoreCalcer :=
          UpdateSplitScore isPlainMode trueStats falseStats splitIdx state.scoreCalcer })
    (fun st t f i => ⟨_, rfl⟩) _ ⟨[], [], [], [], [], scoreCalcer⟩
  rw [hst]
  exact ⟨_, rfl⟩

theorem GetScores_ok (calcAverage : ℚ → ℚ → ℚ → ℚ)
    (candidateScore : EScoreFunction → List TScoreCalcerCall → Nat → ℚ)
    (calcSplitsCount : TSplitEnsembleSpec → Int → Nat → Nat)
    (useForCalcScores : TExclusiveBundlePart → Nat → Bool) (getValueBitCount : Int → Nat)
    (stats3d : TStats3D) (depth : Nat) (sumAllWeights : ℚ) (allDocCount : Int)
    (scoreFunction : EScoreFunction) (l2Regularizer : ℚ) (oneHotMaxSize : Nat)
    (h : scoreFunction = EScoreFunction.Cosine ∨ scoreFunction = EScoreFunction.L2) :
    GetScores calcAverage candidateScore calcSplitsCount useForCalcScores getValueBitCount
        stats3d depth sumAllWeights allDocCount scoreFunction l2Regularizer oneHotMaxSize
      = Except.ok ((getScoresLoop calcAverage stats3d (2 ^ depth) ⟨stats3d.BucketCount⟩
          (l2Regularizer * (sumAllWeights / allDocCount)) oneHotMaxSize useForCalcScores
          getValueBitCount
          (calcSplitsCount stats3d.SplitEnsembleSpec stats3d.BucketCount oneHotMaxSize)
          (stats3d.BucketCount * stats3d.MaxLeafCount) (stats3d.Stats.length + 1) 0
          [TScoreCalcerCall.SetSplitsCount
              (calcSplitsCount stats3d.SplitEnsembleSpec stats3d.BucketCount oneHotMaxSize),
            TScoreCalcerCall.SetL2Regularizer
              (l2Regularizer * (sumAllWeights / allDocCount))]).map
          (scoreCalcerGetScores candidateScore scoreFunction)) := by
  rcases h with h | h <;> subst h <;> rfl

theorem GetScores_error (calcAverage : ℚ → ℚ → ℚ → ℚ)
    (candidateScore : EScoreFunction → List TScoreCalcerCall → Nat → ℚ)
    (calcSplitsCount : TSplitEnsembleSpec → Int → Nat → Nat)
    (useForCalcScores : TExclusiveBundlePart → Nat → Bool) (getValueBitCount : Int → Nat)
    (stats3d : TStats3D) (depth : Nat) (sumAllWeights : ℚ) (allDocCount : Int)
    (scoreFunction : EScoreFunction) (l2Regularizer : ℚ) (oneHotMaxSize : Nat)
    (h : scoreFunction ≠ EScoreFunction.Cosine ∧ scoreFunction ≠ EScoreFunction.L2) :
    GetScores calcAverage candidateScore calcSplitsCount useForCalcScores getValueBitCount
        stats3d depth sumAllWeights allDocCount scoreFunction l2Regularizer oneHotMaxSize
      = Except.error "Error: score function for CPU should be Cosine or L2" := by
  cases scoreFunction with
  | Cosine => exact absurd rfl h.1
  | L2 => exact absurd rfl h.2
  | Other code => rfl

/-- C26: `GetScores` fails with the message of its `CB_ENSURE` if and only if the score
function is neither `Cosine` nor `L2`, and then whatever the statistics are (the check
precedes every read: the error does not depend on `stats3d`, `depth` or the weights); for
`Cosine` and `L2`, when the slices of `stats3d.Stats` hold the statistics of every leaf and
bucket (`splitStatsCount = BucketCount * MaxLeafCount >= 1`), it returns the score vector
of the calcer, which has one value per candidate (`CalcSplitsCount` many). -/
theorem C26_GetScores_error_iff (calcAverage : ℚ → ℚ → ℚ → ℚ)
    (candidateScore : EScoreFunction → List TScoreCalcerCall → Nat → ℚ)
    (calcSplitsCount : TSplitEnsembleSpec → Int → Nat → Nat)
    (useForCalcScores : TExclusiveBundlePart → Nat → Bool) (getValueBitCount : Int → Nat)
    (stats3d : TStats3D) (depth : Nat) (sumAllWeights : ℚ) (allDocCount : Int)
    (scoreFunction : EScoreFunction) (l2Regularizer : ℚ) (oneHotMaxSize : Nat) :
    ((∃ message, GetScores calcAverage candidateScore calcSplitsCount useForCalcScores
        getValueBitCount stats3d depth sumAllWeights allDocCount scoreFunction l2Regularizer
        oneHotMaxSize = Except.error message)
      ↔ scoreFunction ≠ EScoreFunction.Cosine ∧ scoreFunction ≠ EScoreFunction.L2) ∧
    (scoreFunction ≠ EScoreFunction.Cosine ∧ scoreFunction ≠ EScoreFunction.L2 →
      ∀ (stats3d2 : TStats3D) (depth2 : Nat) (sumAllWeights2 : ℚ) (allDocCount2 : Int),
        GetScores calcAverage candidateScore calcSplitsCount useForCalcScores getValueBitCount
            stats3d2 depth2 sumAllWeights2 allDocCount2 scoreFunction l2Regularizer
            oneHotMaxSize
          = Except.error "Error: score function for CPU should be Cosine or L2") ∧
    (scoreFunction = EScoreFunction.Cosine ∨ scoreFunction = EScoreFunction.L2 →
      ∀ S B : Nat, stats3d.BucketCount * stats3d.MaxLeafCount = (S : Int) → 1 ≤ S →
        stats3d.BucketCount = (B : Int) →
        (∀ statsIdx leaf b : Nat, statsIdx * S < stats3d.Stats.length → leaf < 2 ^ depth →
          b < B →
          (statsAt (stats3d.Stats.drop (statsIdx * S))
            ((TStatsIndexer.mk stats3d.BucketCount).GetIndex leaf b)).isSome = true) →
        (stats3d.SplitEnsembleSpec.EnsembleType = ESplitEnsembleType.ExclusiveBundle →
          1 ≤ B ∧ (∀ part ∈ stats3d.SplitEnsembleSpec.Parts, part.Bounds.End ≤ B) ∧
          ∀ part ∈ stats3d.SplitEnsembleSpec.Parts,
            useForCalcScores part oneHotMaxSize = true →
            part.FeatureType = EFeatureType.Categorical →
            part.Bounds.GetSize + 1 ≤ oneHotMaxSize) →
        ∃ calls scores,
          GetScores calcAverage candidateScore calcSplitsCount useForCalcScores
            getValueBitCount stats3d depth sumAllWeights allDocCount scoreFunction
            l2Regularizer oneHotMaxSize = Except.ok (some scores) ∧
          scores = scoreCalcerGetScores candidateScore scoreFunction calls ∧
          scores.length
            = calcSplitsCount stats3d.SplitEnsembleSpec stats3d.BucketCount oneHotMaxSize) := by
  refine ⟨⟨?_, fun h => ⟨_, GetScores_error _ _ _ _ _ _ _ _ _ _ _ _ h⟩⟩,
    fun h stats3d2 depth2 w2 n2 => GetScores_error _ _ _ _ _ _ _ _ _ _ _ _ h, ?_⟩
  · rintro ⟨message, hm⟩
    by_contra hn
    have hok : scoreFunction = EScoreFunction.Cosine ∨ scoreFunction = EScoreFunction.L2 := by
      by_cases h1 : scoreFunction = EScoreFunction.Cosine
      · exact Or.inl h1
      · by_cases h2 : scoreFunction = EScoreFunction.L2
        · exact Or.inr h2
        · exact absurd ⟨h1, h2⟩ hn
    rw [GetScores_ok _ _ _ _ _ _ _ _ _ _ _ _ hok] at hm
    exact Except.noConfusion hm
  · intro hok S B hS hS1 hB hin hbundle
    rw [GetScores_ok _ _ _ _ _ _ _ _ _ _ _ _ hok, hS]
    obtain ⟨calls, hloop, added, hcalls, hadd⟩ := getScoresLoop_returns calcAverage stats3d
      (2 ^ depth) ⟨stats3d.BucketCount⟩ (l2Regularizer * (sumAllWeights / allDocCount))
      oneHotMaxSize useForCalcScores getValueBitCount
      (calcSplitsCount stats3d.SplitEnsembleSpec stats3d.BucketCount oneHotMaxSize) S
      (fun statsIdx calls hlt =>
        UpdateScoresOfCalcer_returns _ _ _ _ (2 ^ depth) B _ _ _ _ _ _ _ _ _ _ hB
          (fun leaf b hl hb => hin statsIdx leaf b hlt hl hb) hbundle)
      (stats3d.Stats.length + 1) 0
      [TScoreCalcerCall.SetSplitsCount
          (calcSplitsCount stats3d.SplitEnsembleSpec stats3d.BucketCount oneHotMaxSize),
        TScoreCalcerCall.SetL2Regularizer (l2Regularizer * (sumAllWeights / allDocCount))]
      (by omega) (by
        simp only [Nat.zero_add, Nat.add_sub_cancel]
        exact Nat.le_mul_of_pos_right _ hS1)
    refine ⟨calls, _, by rw [hloop]; rfl, rfl, ?_⟩
    unfold scoreCalcerGetScores
    rw [List.length_map, List.length_range, hcalls, splitsCountOf_append _ _ hadd]
    rfl

theorem C26_GetScores_error_iff_witness :
    GetScores CalcAverage (fun _ _ _ => 0) (fun _ bucketCount _ => (bucketCount - 1).toNat)
        (fun _ _ => true) (fun _ => 0) exampleStats3D 1 4 4 (EScoreFunction.Other 0) 1 0
      = Except.error "Error: score function for CPU should be Cosine or L2" ∧
    ∃ calls scores,
      GetScores CalcAverage (fun _ _ _ => 0) (fun _ bucketCount _ => (bucketCount - 1).toNat)
        (fun _ _ => true) (fun _ => 0) exampleStats3D 1 4 4 EScoreFunction.L2 1 0
        = Except.ok (some scores) ∧
      scores = scoreCalcerGetScores (fun _ _ _ => 0) EScoreFunction.L2 calls ∧
      scores.length = 2 :=
  ⟨(C26_GetScores_error_iff CalcAverage (fun _ _ _ => 0)
      (fun _ bucketCount _ => (bucketCount - 1).toNat) (fun _ _ => true) (fun _ => 0)
      exampleStats3D 1 4 4 (EScoreFunction.Other 0) 1 0).2.1 ⟨by decide, by decide⟩
      exampleStats3D 1 4 4,
    (C26_GetScores_error_iff CalcAverage (fun _ _ _ => 0)
      (fun _ bucketCount _ => (bucketCount - 1).toNat) (fun _ _ => true) (fun _ => 0)
      exampleStats3D 1 4 4 EScoreFunction.L2 1 0).2.2 (Or.inr rfl) 6 3 (by decide) (by decide)
      rfl
      (fun statsIdx leaf b h1 h2 h3 => by
        have h0 : statsIdx = 0 := by
          have : statsIdx * 6 < 6 := h1
          omega
        subst h0
        have hl : leaf < 2 := h2
        interval_cases leaf <;> interval_cases b <;> decide)
      (fun h => by cases h)⟩

/-! ## C28: the monotonic projection is idempotent -/

theorem pushBlock_sorted :
    ∀ (active : List TIsotonicBlock) (current : TIsotonicBlock),
      active.Pairwise (fun a b => b.value ≤ a.value) →
      (pushBlock active current).Pairwise (fun a b => b.value ≤ a.value) := by
  intro active
  induction active with
  | nil =>
    intro current _
    simp [pushBlock]
  | cons previous active ih =>
    intro current h
    unfold pushBlock
    rw [List.pairwise_cons] at h
    split
    · exact ih _ h.2
    · next hnot =>
      rw [List.pairwise_cons, List.pairwise_cons]
      refine ⟨fun x hx => ?_, h⟩
      have hp : previous.value ≤ current.value := not_lt.mp hnot
      rcases List.mem_cons.mp hx with hx | hx
      · rw [hx]
        exact hp
      · exact le_trans (h.1 x hx) hp

theorem foldl_pushBlock_sorted :
    ∀ (points : List (ℚ × ℚ)) (active : List TIsotonicBlock),
      active.Pairwise (fun a b => b.value ≤ a.value) →
      (points.foldl (fun active point => pushBlock active ⟨point.1, point.2, 1⟩)
        active).Pairwise (fun a b => b.value ≤ a.value) := by
  intro points
  induction points with
  | nil => intro active h; exact h
  | cons p points ih =>
    intro active h
    rw [List.foldl_cons]
    exact ih _ (pushBlock_sorted active _ h)

theorem pushBlock_size :
    ∀ (active : List TIsotonicBlock) (current : TIsotonicBlock),
      ((pushBlock active current).map (fun b => b.size)).sum
        = (active.map (fun b => b.size)).sum + current.size := by
  intro active
  induction active with
  | nil =>
    intro current
    simp [pushBlock]
  | cons previous active ih =>
    intro current
    unfold pushBlock
    split
    · rw [ih]
      simp only [poolBlocks, List.map_cons, List.sum_cons]
      omega
    · simp only [List.map_cons, List.sum_cons]
      omega

theorem foldl_pushBlock_size :
    ∀ (points : List (ℚ × ℚ)) (active : List TIsotonicBlock),
      ((points.foldl (fun active point => pushBlock active ⟨point.1, point.2, 1⟩)
        active).map (fun b => b.size)).sum
        = (active.map (fun b => b.size)).sum + points.length := by
  intro points
  induction points with
  | nil => intro active; simp
  | cons p points ih =>
    intro active
    rw [List.foldl_cons, ih, pushBlock_size, List.length_cons]
    show _ + 1 + _ = _
    omega

theorem fittedValues_length (active : List TIsotonicBlock) :
    (fittedValues active).length = (active.map (fun b => b.size)).sum := by
  unfold fittedValues
  rw [List.length_flatten, List.map_map, List.map_reverse, List.sum_reverse]
  congr 1
  apply List.map_congr_left
  intro b _
  simp

theorem fittedValues_sorted (active : List TIsotonicBlock)
    (h : active.Pairwise (fun a b => b.value ≤ a.value)) :
    (fittedValues active).Pairwise (fun a b => a ≤ b) := by
  unfold fittedValues
  rw [List.pairwise_flatten]
  constructor
  · intro l hl
    rw [List.mem_map] at hl
    obtain ⟨b, _, rfl⟩ := hl
    rw [List.pairwise_replicate]
    exact Or.inr (le_refl _)
  · rw [List.pairwise_map, List.pairwise_reverse]
    refine h.imp ?_
    intro a b hab x hx y hy
    rw [List.eq_of_mem_replicate hx, List.eq_of_mem_replicate hy]
    exact hab

theorem foldl_pushBlock_monotone :
    ∀ (points : List (ℚ × ℚ)) (active : List TIsotonicBlock),
      (∀ p ∈ points, ∀ b ∈ active, b.value ≤ p.1) →
      (points.map (fun p => p.1)).Pairwise (fun a b => a ≤ b) →
      points.foldl (fun active point => pushBlock active ⟨point.1, point.2, 1⟩) active
        = (points.reverse.map (fun p => (⟨p.1, p.2, 1⟩ : TIsotonicBlock))) ++ active := by
  intro points
  induction points with
  | nil => intro active _ _; rfl
  | cons p points ih =>
    intro active hle hsorted
    rw [List.map_cons, List.pairwise_cons] at hsorted
    have hpush : pushBlock active ⟨p.1, p.2, 1⟩ = ⟨p.1, p.2, 1⟩ :: active := by
      cases active with
      | nil => rfl
      | cons previous active =>
        unfold pushBlock
        rw [if_neg]
        exact not_lt.mpr (hle p (List.mem_cons_self _ _) previous (List.mem_cons_self _ _))
    rw [List.foldl_cons, hpush, ih _ ?_ hsorted.2, List.reverse_cons, List.map_append,
      List.append_assoc]
    · rfl
    · intro q hq b hb
      rcases List.mem_cons.mp hb with hb | hb
      · rw [hb]
        exact hsorted.1 q.1 (List.mem_map_of_mem _ hq)
      · exact hle q (List.mem_cons_of_mem _ hq) b hb

theorem fittedValues_monotone (points : List (ℚ × ℚ))
    (h : (points.map (fun p => p.1)).Pairwise (fun a b => a ≤ b)) :
    fittedValues (activeBlocks points) = points.map (fun p => p.1) := by
  unfold activeBlocks
  rw [foldl_pushBlock_monotone points [] (fun _ _ _ hb => absurd hb (List.not_mem_nil _)) h]
  unfold fittedValues
  rw [List.append_nil, ← List.map_reverse, List.reverse_reverse, List.map_map]
  induction points with
  | nil => rfl
  | cons p points ih =>
    rw [List.map_cons, List.pairwise_cons] at h
    rw [List.map_cons, List.flatten_cons, ih h.2]
    rfl

theorem readPoints_eq (values weight : List ℚ) :
    ∀ indexOrder : List Nat, (∀ i ∈ indexOrder, i < values.length ∧ i < weight.length) →
      readPoints values weight indexOrder
        = some (indexOrder.map (fun i => (values.getD i 0, weight.getD i 0))) := by
  intro indexOrder
  induction indexOrder with
  | nil => intro _; rfl
  | cons i indexOrder ih =>
    intro h
    obtain ⟨h1, h2⟩ := h i (List.mem_cons_self _ _)
    unfold readPoints
    rw [ih (fun j hj => h j (List.mem_cons_of_mem _ hj))]
    simp only [Option.bind_eq_bind, Option.pure_def, List.getElem?_eq_getElem h1,
      List.getElem?_eq_getElem h2, Option.some_bind, List.map_cons,
      List.getD_eq_getElem?_getD, Option.getD_some]

theorem getD_set_rat (l : List ℚ) (i j : Nat) (v : ℚ) (hi : i < l.length) :
    (l.set i v).getD j 0 = if j = i then v else l.getD j 0 := by
  simp only [List.getD_eq_getElem?_getD]
  by_cases hj : j = i
  · subst hj
    rw [List.getElem?_set_self hi, if_pos rfl]
    rfl
  · rw [List.getElem?_set_ne (Ne.symm hj), if_neg hj]

theorem set_getD_self (l : List ℚ) (i : Nat) : l.set i (l.getD i 0) = l := by
  apply List.ext_getElem?
  intro j
  by_cases hi : i < l.length
  · by_cases hj : j = i
    · subst hj
      rw [List.getElem?_set_self hi, List.getD_eq_getElem?_getD, List.getElem?_eq_getElem hi]
      rfl
    · rw [List.getElem?_set_ne (Ne.symm hj)]
  · rw [List.set_eq_of_length_le (by omega)]

theorem writeSolution_id :
    ∀ (indexOrder : List Nat) (solution : List ℚ), (∀ i ∈ indexOrder, i < solution.length) →
      writeSolution indexOrder (indexOrder.map (fun i => solution.getD i 0)) solution
        = some solution := by
  intro indexOrder
  induction indexOrder with
  | nil => intro solution _; rfl
  | cons i indexOrder ih =>
    intro solution h
    rw [List.map_cons]
    unfold writeSolution
    rw [if_pos (h i (List.mem_cons_self _ _)), set_getD_self]
    exact ih solution (fun j hj => h j (List.mem_cons_of_mem _ hj))

theorem writeSolution_spec :
    ∀ (indexOrder : List Nat) (fitted solution : List ℚ), indexOrder.Nodup →
      fitted.length = indexOrder.length → (∀ i ∈ indexOrder, i < solution.length) →
      ∃ out, writeSolution indexOrder fitted solution = some out ∧
        out.length = solution.length ∧
        indexOrder.map (fun i => out.getD i 0) = fitted ∧
        ∀ j, j ∉ indexOrder → out.getD j 0 = solution.getD j 0 := by
  intro indexOrder
  induction indexOrder with
  | nil =>
    intro fitted solution _ hlen _
    have : fitted = [] := List.length_eq_zero.mp hlen
    subst this
    exact ⟨solution, rfl, rfl, rfl, fun _ _ => rfl⟩
  | cons i indexOrder ih =>
    intro fitted solution hnodup hlen hin
    cases fitted with
    | nil => simp at hlen
    | cons v fitted =>
      rw [List.nodup_cons] at hnodup
      have hi : i < solution.length := hin i (List.mem_cons_self _ _)
      obtain ⟨out, hout, hl, hmap, hframe⟩ := ih fitted (solution.set i v) hnodup.2
        (by simpa using hlen)
        (fun j hj => by rw [List.length_set]; exact hin j (List.mem_cons_of_mem _ hj))
      refine ⟨out, ?_, by rw [hl, List.length_set], ?_, fun j hj => ?_⟩
      · unfold writeSolution
        rw [if_pos hi]
        exact hout
      · rw [List.map_cons, hmap, hframe i hnodup.1, getD_set_rat _ _ _ _ hi, if_pos rfl]
      · rw [List.mem_cons, not_or] at hj
        rw [hframe j hj.2, getD_set_rat _ _ _ _ hi, if_neg hj.1]

theorem regression_monotone_id (values weight : List ℚ) (indexOrder : List Nat)
    (hin : ∀ i ∈ indexOrder, i < values.length ∧ i < weight.length)
    (hmono : MonotoneAlong values indexOrder) :
    CalcOneDimensionalIsotonicRegression values weight indexOrder values = some values := by
  unfold CalcOneDimensionalIsotonicRegression
  rw [readPoints_eq values weight indexOrder hin]
  simp only [Option.bind_eq_bind, Option.some_bind]
  have hfst : (indexOrder.map (fun i => (values.getD i 0, weight.getD i 0))).map (fun p => p.1)
      = indexOrder.map (fun i => values.getD i 0) := by
    rw [List.map_map]
    rfl
  rw [fittedValues_monotone _ (by rw [hfst]; exact hmono), hfst]
  exact writeSolution_id indexOrder values (fun i hi => (hin i hi).1)

theorem regression_spec (values weight : List ℚ) (indexOrder : List Nat)
    (hin : ∀ i ∈ indexOrder, i < values.length ∧ i < weight.length)
    (hnodup : indexOrder.Nodup) :
    ∃ out, CalcOneDimensionalIsotonicRegression values weight indexOrder values = some out ∧
      out.length = values.length ∧ MonotoneAlong out indexOrder ∧
      ∀ j, j ∉ indexOrder → out.getD j 0 = values.getD j 0 := by
  have hlen : (fittedValues (activeBlocks
      (indexOrder.map (fun i => (values.getD i 0, weight.getD i 0))))).length
      = indexOrder.length := by
    rw [fittedValues_length]
    unfold activeBlocks
    rw [foldl_pushBlock_size]
    simp
  obtain ⟨out, hout, hl, hmap, hframe⟩ := writeSolution_spec indexOrder _ values hnodup hlen
    (fun i hi => (hin i hi).1)
  refine ⟨out, ?_, hl, ?_, hframe⟩
  · unfold CalcOneDimensionalIsotonicRegression
    rw [readPoints_eq values weight indexOrder hin]
    exact hout
  · unfold MonotoneAlong
    rw [hmap]
    exact fittedValues_sorted _ (foldl_pushBlock_sorted _ [] List.Pairwise.nil)

theorem MonotoneAlong_congr (v1 v2 : List ℚ) (indexOrder : List Nat)
    (h : ∀ i ∈ indexOrder, v1.getD i 0 = v2.getD i 0) (hm : MonotoneAlong v1 indexOrder) :
    MonotoneAlong v2 indexOrder := by
  unfold MonotoneAlong at hm ⊢
  have : indexOrder.map (fun i => v2.getD i 0) = indexOrder.map (fun i => v1.getD i 0) :=
    List.map_congr_left (fun i hi => (h i hi).symm)
  rw [this]
  exact hm

theorem project_monotone_id (weight : List ℚ) :
    ∀ (orders : List (List Nat)) (values : List ℚ),
      (∀ o ∈ orders, (∀ i ∈ o, i < values.length ∧ i < weight.length) ∧
        MonotoneAlong values o) →
      projectLeafDeltas CalcOneDimensionalIsotonicRegression weight orders values
        = some values := by
  intro orders
  induction orders with
  | nil => intro values _; rfl
  | cons o orders ih =>
    intro values h
    unfold projectLeafDeltas
    rw [List.foldlM_cons, regression_monotone_id values weight o
      (h o (List.mem_cons_self _ _)).1 (h o (List.mem_cons_self _ _)).2]
    exact ih values (fun o2 ho2 => h o2 (List.mem_cons_of_mem _ ho2))

theorem project_spec (weight : List ℚ) :
    ∀ (orders : List (List Nat)) (values : List ℚ),
      (∀ o ∈ orders, o.Nodup ∧ ∀ i ∈ o, i < values.length ∧ i < weight.length) →
      orders.Pairwise List.Disjoint →
      ∃ out, projectLeafDeltas CalcOneDimensionalIsotonicRegression weight orders values
          = some out ∧
        out.length = values.length ∧ (∀ o ∈ orders, MonotoneAlong out o) ∧
        ∀ j, (∀ o ∈ orders, j ∉ o) → out.getD j 0 = values.getD j 0 := by
  intro orders
  induction orders with
  | nil =>
    intro values _ _
    exact ⟨values, rfl, rfl, fun o ho => absurd ho (List.not_mem_nil _), fun _ _ => rfl⟩
  | cons o orders ih =>
    intro values h hdisj
    rw [List.pairwise_cons] at hdisj
    obtain ⟨hnodup, hin⟩ := h o (List.mem_cons_self _ _)
    obtain ⟨out1, hout1, hl1, hm1, hf1⟩ := regression_spec values weight o hin hnodup
    obtain ⟨out, hout, hl, hm, hf⟩ := ih out1
      (fun o2 ho2 => by
        obtain ⟨a, b⟩ := h o2 (List.mem_cons_of_mem _ ho2)
        exact ⟨a, fun i hi => by rw [hl1]; exact b i hi⟩)
      hdisj.2
    refine ⟨out, ?_, by rw [hl, hl1], fun o2 ho2 => ?_, fun j hj => ?_⟩
    · unfold projectLeafDeltas
      rw [List.foldlM_cons, hout1]
      exact hout
    · rcases List.mem_cons.mp ho2 with ho2 | ho2
      · subst ho2
        refine MonotoneAlong_congr out1 out o2 (fun i hi => ?_) hm1
        exact (hf i (fun o3 ho3 hi3 => hdisj.1 o3 ho3 hi hi3)).symm
      · exact hm o2 ho2
    · rw [hf j (fun o2 ho2 => hj o2 (List.mem_cons_of_mem _ ho2)),
        hf1 j (hj o (List.mem_cons_self _ _))]

/-- C28: for leaf values that already satisfy every linear order (`MonotoneAlong`), the
isotonic projection used by `UpdateScores` (`CalcOneDimensionalIsotonicRegression` along
each linear order, one after the other, with the values as input and as solution) returns
the same values; and for every input the projection returns values that satisfy every
order, so that applying it twice gives the result of applying it once.  (The indices of
the orders are inside the vectors; for the second part every leaf belongs to at most one
order and occurs once in it.) -/
theorem C28_projection_idempotent (weight : List ℚ) (orders : List (List Nat))
    (values : List ℚ)
    (hin : ∀ o ∈ orders, ∀ i ∈ o, i < values.length ∧ i < weight.length) :
    ((∀ o ∈ orders, MonotoneAlong values o) →
      projectLeafDeltas CalcOneDimensionalIsotonicRegression weight orders values
        = some values) ∧
    ((∀ o ∈ orders, o.Nodup) → orders.Pairwise List.Disjoint →
      ∃ once, projectLeafDeltas CalcOneDimensionalIsotonicRegression weight orders values
          = some once ∧
        (∀ o ∈ orders, MonotoneAlong once o) ∧
        projectLeafDeltas CalcOneDimensionalIsotonicRegression weight orders once
          = some once) := by
  constructor
  · intro hm
    exact project_monotone_id weight orders values (fun o ho => ⟨hin o ho, hm o ho⟩)
  · intro hnodup hdisj
    obtain ⟨once, hout, hl, hm, _⟩ := project_spec weight orders values
      (fun o ho => ⟨hnodup o ho, hin o ho⟩) hdisj
    exact ⟨once, hout, hm, project_monotone_id weight orders once
      (fun o ho => ⟨fun i hi => by rw [hl]; exact hin o ho i hi, hm o ho⟩)⟩

theorem C28_projection_idempotent_witness :
    projectLeafDeltas CalcOneDimensionalIsotonicRegression [1, 2, 1, 1, 3] [[0, 1], [4, 3, 2]]
        [3, 1, 2, 5, 4] = some [5 / 3, 5 / 3, 19 / 5, 19 / 5, 19 / 5] ∧
    ∃ once, projectLeafDeltas CalcOneDimensionalIsotonicRegression [1, 2, 1, 1, 3]
        [[0, 1], [4, 3, 2]] [3, 1, 2, 5, 4] = some once ∧
      (∀ o ∈ [[0, 1], [4, 3, 2]], MonotoneAlong once o) ∧
      projectLeafDeltas CalcOneDimensionalIsotonicRegression [1, 2, 1, 1, 3]
        [[0, 1], [4, 3, 2]] once = some once :=
  ⟨by with_unfolding_all decide,
    (C28_projection_idempotent [1, 2, 1, 1, 3] [[0, 1], [4, 3, 2]] [3, 1, 2, 5, 4]
      (by decide)).2 (by decide) (by simp [List.Disjoint])⟩

theorem candidateConstraints_loop (monotonicConstraints : List Int) (n : Nat)
    (getSplit : Nat → TSplit)
    (hidx : ∀ i, i < n → (getSplit i).SplitType = ESplitType.FloatFeature →
      0 ≤ (getSplit i).FeatureIdx ∧
        (getSplit i).FeatureIdx.toNat < monotonicConstraints.length) :
    ∀ k, k ≤ n →
      ∃ v, (List.range k).foldlM (fun (candidateConstraints : List Int) splitIdx =>
          let split := getSplit splitIdx
          if split.SplitType = ESplitType.FloatFeature then
            if 0 ≤ split.FeatureIdx then do
              let constraint ← monotonicConstraints[split.FeatureIdx.toNat]?
              pure (candidateConstraints.set splitIdx constraint)
            else none
          else some candidateConstraints) (List.replicate n 0) = some v ∧
        v.length = n ∧
        ∀ i, i < n → v[i]? = some (if i < k then
          candidateConstraintOf monotonicConstraints (getSplit i) else 0) := by
  intro k
  induction k with
  | zero =>
    intro _
    refine ⟨List.replicate n 0, rfl, by simp, ?_⟩
    intro i hi
    rw [List.getElem?_replicate, if_pos hi]
    simp
  | succ k ih =>
    intro hk
    obtain ⟨v, hv, hlen, hent⟩ := ih (by omega)
    rw [List.range_succ, List.foldlM_append, hv]
    simp only [Option.bind_eq_bind, Option.some_bind, List.foldlM_cons, List.foldlM_nil,
      Option.pure_def]
    by_cases hf : (getSplit k).SplitType = ESplitType.FloatFeature
    · obtain ⟨h0, hlt⟩ := hidx k (by omega) hf
      rw [if_pos hf, if_pos h0, List.getElem?_eq_getElem hlt]
      simp only [Option.some_bind, Option.bind_some]
      refine ⟨_, rfl, by rw [List.length_set]; exact hlen, ?_⟩
      intro i hi
      rw [List.getElem?_set]
      by_cases hik : k = i
      · subst hik
        rw [if_pos rfl, if_pos (by omega), if_pos (by omega)]
        unfold candidateConstraintOf
        rw [if_pos hf, List.getD_eq_getElem?_getD, List.getElem?_eq_getElem hlt]
        rfl
      · rw [if_neg hik, hent i hi]
        by_cases hlt2 : i < k
        · rw [if_pos hlt2, if_pos (by omega)]
        · rw [if_neg hlt2, if_neg (by omega)]
    · rw [if_neg hf]
      simp only [Option.some_bind, Option.bind_some]
      refine ⟨v, rfl, hlen, ?_⟩
      intro i hi
      rw [hent i hi]
      by_cases hik : i = k
      · subst hik
        rw [if_neg (by omega), if_pos (by omega)]
        unfold candidateConstraintOf
        rw [if_neg hf]
      · by_cases hlt2 : i < k
        · rw [if_pos hlt2, if_pos (by omega)]
        · rw [if_neg hlt2, if_neg (by omega)]

/-- C31: candidate constraints of `CalcStatsAndScores`.  For a configured constraint vector
that is not empty, when the feature index of every float candidate lies inside it, the
vector `candidateSplitMonotonicConstraints` is built, has one entry per candidate, and the
entry of candidate `i < candidateSplitCount` is `monotonicConstraints[FeatureIdx of split
i]` for a float split and `0` for every other split type.  For an empty configured vector
the candidate vector is empty, and the scoring step is `CalculateNonPairwiseScore` with
the empty vector: it makes no `AddLeaf` call (the calls of the constraint path) and does
not depend on the order builder or on the regression. -/
theorem C31_candidate_constraints (calcAverage : ℚ → ℚ → ℚ → ℚ)
    (build : List Int → List (List Nat))
    (iso : List ℚ → List ℚ → List Nat → List ℚ → Option (List ℚ))
    (fold : TCalcScoreFold) (initialFoldBodyTailArr : List TFoldBodyTail)
    (splitEnsembleSpec : TSplitEnsembleSpec) (isPlainMode : Bool) (depth : Nat)
    (l2Regularizer : ℚ) (oneHotMaxSize : Nat) (indexer : TStatsIndexer)
    (splitStats : List TBucketStats) (splitStatsCount : Nat) (curr : List Int)
    (monotonicConstraints : List Int) (candidateSplitCount : Nat) (getSplit : Nat → TSplit)
    (useForCalcScores : TExclusiveBundlePart → Nat → Bool) (getValueBitCount : Int → Nat)
    (scoreCalcer : List TScoreCalcerCall)
    (hidx : ∀ i, i < candidateSplitCount →
      (getSplit i).SplitType = ESplitType.FloatFeature →
      0 ≤ (getSplit i).FeatureIdx ∧
        (getSplit i).FeatureIdx.toNat < monotonicConstraints.length) :
    (monotonicConstraints ≠ [] →
      ∃ v, candidateSplitMonotonicConstraintsOf monotonicConstraints candidateSplitCount
          getSplit = some v ∧
        v.length = candidateSplitCount ∧
        ∀ i, i < candidateSplitCount →
          v[i]? = some (if (getSplit i).SplitType = ESplitType.FloatFeature then
            monotonicConstraints.getD (getSplit i).FeatureIdx.toNat 0 else 0)) ∧
    candidateSplitMonotonicConstraintsOf [] candidateSplitCount getSplit = some [] ∧
    CalcStatsAndScoresScores calcAverage build iso fold initialFoldBodyTailArr
        splitEnsembleSpec isPlainMode depth l2Regularizer oneHotMaxSize indexer splitStats
        splitStatsCount curr [] candidateSplitCount getSplit useForCalcScores getValueBitCount
        scoreCalcer
      = CalculateNonPairwiseScore calcAverage (fun _ => []) (fun _ _ _ _ => none) fold
        initialFoldBodyTailArr splitEnsembleSpec isPlainMode (2 ^ depth) l2Regularizer
        oneHotMaxSize indexer splitStats splitStatsCount curr [] useForCalcScores
        getValueBitCount candidateSplitCount
        (scoreCalcer ++ [TScoreCalcerCall.SetSplitsCount candidateSplitCount]) ∧
    ∀ log, CalcStatsAndScoresScores calcAverage build iso fold initialFoldBodyTailArr
        splitEnsembleSpec isPlainMode depth l2Regularizer oneHotMaxSize indexer splitStats
        splitStatsCount curr [] candidateSplitCount getSplit useForCalcScores getValueBitCount
        scoreCalcer = some log →
      AddsOnly (fun e => !e.isAddLeaf) scoreCalcer log := by
  have hempty : candidateSplitMonotonicConstraintsOf [] candidateSplitCount getSplit
      = some [] := by
    simp [candidateSplitMonotonicConstraintsOf]
  have hscores : CalcStatsAndScoresScores calcAverage build iso fold initialFoldBodyTailArr
        splitEnsembleSpec isPlainMode depth l2Regularizer oneHotMaxSize indexer splitStats
        splitStatsCount curr [] candidateSplitCount getSplit useForCalcScores getValueBitCount
        scoreCalcer
      = CalculateNonPairwiseScore calcAverage (fun _ => []) (fun _ _ _ _ => none) fold
        initialFoldBodyTailArr splitEnsembleSpec isPlainMode (2 ^ depth) l2Regularizer
        oneHotMaxSize indexer splitStats splitStatsCount curr [] useForCalcScores
        getValueBitCount candidateSplitCount
        (scoreCalcer ++ [TScoreCalcerCall.SetSplitsCount candidateSplitCount]) := by
    unfold CalcStatsAndScoresScores
    rw [hempty]
    simp only [Option.bind_eq_bind, Option.some_bind]
    exact CalculateNonPairwiseScore_unconstrained _ _ _ _ _ _ _ _ _ _ _ _ _ _ _ _ _ _ _ _
  refine ⟨?_, hempty, hscores, ?_⟩
  · intro hne
    have hemp : monotonicConstraints.isEmpty = false := by
      cases monotonicConstraints with
      | nil => exact absurd rfl hne
      | cons a l => rfl
    obtain ⟨v, hv, hlen, hent⟩ := candidateConstraints_loop monotonicConstraints
      candidateSplitCount getSplit hidx candidateSplitCount (Nat.le_refl _)
    refine ⟨v, ?_, hlen, ?_⟩
    · unfold candidateSplitMonotonicConstraintsOf
      simp only [hemp, Bool.not_false, if_true]
      exact hv
    · intro i hi
      rw [hent i hi, if_pos hi]
      rfl
  · intro log hlog
    rw [hscores] at hlog
    have h := CalculateNonPairwiseScore_calls _ _ _ _ _ _ _ _ _ _ _ _ _ _ _ _ _ _ _ _ hlog
    simp only [List.isEmpty_nil, if_true] at h
    obtain ⟨added, hadd, hq⟩ := h
    refine ⟨TScoreCalcerCall.SetSplitsCount candidateSplitCount :: added, ?_, ?_⟩
    · rw [hadd]
      simp
    · intro e he
      rcases List.mem_cons.mp he with h1 | h1
      · rw [h1]
        rfl
      · exact hq e h1

theorem C31_candidate_constraints_witness :
    (∃ v, candidateSplitMonotonicConstraintsOf [1, -1] 3 exampleSplits = some v ∧
        v.length = 3 ∧
        ∀ i, i < 3 →
          v[i]? = some (if (exampleSplits i).SplitType = ESplitType.FloatFeature then
            ([1, -1] : List Int).getD (exampleSplits i).FeatureIdx.toNat 0 else 0)) ∧
    candidateSplitMonotonicConstraintsOf [] 3 exampleSplits = some [] ∧
    candidateSplitMonotonicConstraintsOf [1, -1] 3 exampleSplits = some [-1, 0, 1] :=
  ⟨(C31_candidate_constraints CalcAverage (fun _ => []) (fun _ _ _ _ => none) exampleScoreFold
      [⟨4, 4⟩] ⟨ESplitEnsembleType.OneFeature, ESplitType.FloatFeature, []⟩ true 1 1 0 ⟨3⟩
      exampleScoreStats 6 [] [1, -1] 3 exampleSplits (fun _ _ => true) (fun _ => 0) []
      (by decide)).1 (by decide),
    (C31_candidate_constraints CalcAverage (fun _ => []) (fun _ _ _ _ => none) exampleScoreFold
      [⟨4, 4⟩] ⟨ESplitEnsembleType.OneFeature, ESplitType.FloatFeature, []⟩ true 1 1 0 ⟨3⟩
      exampleScoreStats 6 [] [1, -1] 3 exampleSplits (fun _ _ => true) (fun _ => 0) []
      (by decide)).2.1,
    by decide⟩

/-- C35: `CalcStatsAndScores` rejects the call with the error of one of its four checks
whenever (a) `stats3d`, `pairwiseStats` and `scoreCalcer` are all absent, or (b)
`scoreCalcer` is given but `initialFold` is absent, or (c) the loss uses pairwise scoring
and `stats3d` is given, or (d) the loss uses pointwise scoring and `pairwiseStats` is given,
whatever the rest of the function would do; (a) and (b) are reported by the first and the
second check.  When none of (a)-(d) holds, none of the four checks fails: the call is the
rest of the branch of the loss. -/
theorem C35_argument_checks {α : Type}
    (stats3d pairwiseStats scoreCalcer initialFold isPairwiseScoring : Bool)
    (pairwiseBranch pointwiseBranch : Except String α) :
    (calcStatsAndScoresRejected stats3d pairwiseStats scoreCalcer initialFold
        isPairwiseScoring = true →
      ∃ message ∈ calcStatsAndScoresErrors,
        CalcStatsAndScores stats3d pairwiseStats scoreCalcer initialFold isPairwiseScoring
          pairwiseBranch pointwiseBranch = Except.error message) ∧
    (stats3d = false ∧ pairwiseStats = false ∧ scoreCalcer = false →
      CalcStatsAndScores stats3d pairwiseStats scoreCalcer initialFold isPairwiseScoring
          pairwiseBranch pointwiseBranch
        = Except.error
          "stats3d, pairwiseStats, and scoreCalcer are empty - nothing to calculate") ∧
    (scoreCalcer = true ∧ initialFold = false →
      CalcStatsAndScores stats3d pairwiseStats scoreCalcer initialFold isPairwiseScoring
          pairwiseBranch pointwiseBranch
        = Except.error "initialFold must be non-nullptr for scores calculation") ∧
    (calcStatsAndScoresRejected stats3d pairwiseStats scoreCalcer initialFold
        isPairwiseScoring = false →
      CalcStatsAndScores stats3d pairwiseStats scoreCalcer initialFold isPairwiseScoring
          pairwiseBranch pointwiseBranch
        = if isPairwiseScoring then pairwiseBranch else pointwiseBranch) := by
  refine ⟨?_, ?_, ?_, ?_⟩
  · intro h
    cases stats3d <;> cases pairwiseStats <;> cases scoreCalcer <;> cases initialFold <;>
      cases isPairwiseScoring <;>
      first
      | exact absurd h (by decide)
      | exact ⟨_, by simp [calcStatsAndScoresErrors], rfl⟩
  · rintro ⟨h1, h2, h3⟩
    subst h1 h2 h3
    rfl
  · rintro ⟨h1, h2⟩
    subst h1 h2
    cases stats3d <;> cases pairwiseStats <;> rfl
  · intro h
    cases stats3d <;> cases pairwiseStats <;> cases scoreCalcer <;> cases initialFold <;>
      cases isPairwiseScoring <;>
      first
      | exact absurd h (by decide)
      | rfl

theorem C35_argument_checks_witness :
    (∃ message ∈ calcStatsAndScoresErrors,
      CalcStatsAndScores true false false false true (Except.ok 0) (Except.ok 1)
        = Except.error message) ∧
    CalcStatsAndScores true false true true false (Except.ok 0) (Except.ok 1)
      = Except.ok 1 :=
  ⟨(C35_argument_checks true false false false true (Except.ok 0) (Except.ok 1)).1
      (by decide),
    (C35_argument_checks true false true true false (Except.ok 0) (Except.ok 1)).2.2.2
      (by decide)⟩

theorem slice_begins_inside (len S idx : Nat) (hS : 1 ≤ S) :
    idx * S < len ↔ idx < sliceCount len S := by
  unfold sliceCount
  rw [Nat.lt_iff_add_one_le, Nat.lt_iff_add_one_le, Nat.le_div_iff_mul_le (by omega)]
  have : (idx + 1) * S = idx * S + S := by ring
  omega

theorem sliceCount_eq_ceil (len S : Nat) (hS : 1 ≤ S) :
    sliceCount len S = ⌈(len : ℚ) / (S : ℚ)⌉₊ := by
  have hSq : (0 : ℚ) < (S : ℚ) := by exact_mod_cast hS
  apply le_antisymm
  · by_contra hlt
    have h1 : ⌈(len : ℚ) / (S : ℚ)⌉₊ * S < len :=
      (slice_begins_inside len S _ hS).mpr (Nat.lt_of_not_le hlt)
    have h2 : (len : ℚ) / (S : ℚ) ≤ (⌈(len : ℚ) / (S : ℚ)⌉₊ : ℚ) := Nat.le_ceil _
    rw [div_le_iff₀ hSq] at h2
    have h3 : (len : ℚ) ≤ ((⌈(len : ℚ) / (S : ℚ)⌉₊ * S : Nat) : ℚ) := by
      push_cast
      exact h2
    have h4 : len ≤ ⌈(len : ℚ) / (S : ℚ)⌉₊ * S := by exact_mod_cast h3
    omega
  · apply Nat.ceil_le.mpr
    rw [div_le_iff₀ hSq]
    have h1 : ¬ sliceCount len S * S < len := by
      rw [slice_begins_inside len S _ hS]
      omega
    have h2 : len ≤ sliceCount len S * S := Nat.le_of_not_lt h1
    exact_mod_cast h2

theorem getScoresLoop_eq (calcAverage : ℚ → ℚ → ℚ → ℚ) (stats3d : TStats3D)
    (leafCount : Nat) (indexer : TStatsIndexer) (scaledL2Regularizer : ℚ) (oneHotMaxSize : Nat)
    (useForCalcScores : TExclusiveBundlePart → Nat → Bool) (getValueBitCount : Int → Nat)
    (splitsCount S : Nat) (hS : 1 ≤ S) :
    ∀ (fuel statsIdx : Nat) (calls : List TScoreCalcerCall), 1 ≤ fuel →
      sliceCount stats3d.Stats.length S + 1 ≤ statsIdx + fuel →
      getScoresLoop calcAverage stats3d leafCount indexer scaledL2Regularizer
          oneHotMaxSize useForCalcScores getValueBitCount splitsCount (S : Int) fuel statsIdx
          calls
        = (List.range' statsIdx (sliceCount stats3d.Stats.length S - statsIdx)).foldlM
            (getScoresStep calcAverage stats3d leafCount indexer scaledL2Regularizer
              oneHotMaxSize useForCalcScores getValueBitCount splitsCount S) calls := by
  intro fuel
  induction fuel with
  | zero =>
    intro statsIdx calls h
    omega
  | succ fuel ih =>
    intro statsIdx calls _ hfuel
    unfold getScoresLoop
    have hprod : (statsIdx : Int) * (S : Int) = ((statsIdx * S : Nat) : Int) := by
      push_cast
      rfl
    by_cases hcond : statsIdx * S < stats3d.Stats.length
    · have hc1 : (statsIdx : Int) * (S : Int) < (stats3d.Stats.length : Int) := by
        rw [hprod]
        exact_mod_cast hcond
      have hc2 : 0 ≤ (statsIdx : Int) * (S : Int) := by
        rw [hprod]
        exact Int.natCast_nonneg _
      have hlt := (slice_begins_inside _ _ _ hS).mp hcond
      have hlen : sliceCount stats3d.Stats.length S - statsIdx
          = (sliceCount stats3d.Stats.length S - (statsIdx + 1)) + 1 := by omega
      rw [if_pos hc1, if_pos hc2, hlen, List.range'_succ, List.foldlM_cons]
      simp only [Option.bind_eq_bind]
      rw [hprod, Int.toNat_natCast]
      unfold getScoresStep
      cases hstep : UpdateScoresOfCalcer calcAverage (fun _ => []) (fun _ _ _ _ => none)
          (stats3d.Stats.drop (statsIdx * S)) leafCount indexer stats3d.SplitEnsembleSpec
          scaledL2Regularizer true false oneHotMaxSize [] [] useForCalcScores getValueBitCount
          splitsCount calls with
      | none => rfl
      | some calls1 =>
        simp only [Option.some_bind]
        rw [ih (statsIdx + 1) calls1 (by omega) (by omega)]
        rfl
    · have hc1 : ¬ (statsIdx : Int) * (S : Int) < (stats3d.Stats.length : Int) := by
        rw [hprod]
        exact_mod_cast hcond
      have hge : ¬ statsIdx < sliceCount stats3d.Stats.length S := by
        rw [← slice_begins_inside _ _ _ hS]
        exact hcond
      have : sliceCount stats3d.Stats.length S - statsIdx = 0 := by omega
      rw [if_neg hc1, this]
      rfl

theorem range_eq_slicePairs (fold : TCalcScoreFold) :
    List.range (fold.BodyTailCount * fold.ApproxDimension)
      = (slicePairs fold).map (fun p => p.1 * fold.ApproxDimension + p.2) := by
  unfold slicePairs
  rw [List.map_flatten, List.map_map]
  generalize fold.BodyTailCount = n
  induction n with
  | zero => simp
  | succ k ih =>
    rw [List.range_succ, List.map_append, List.flatten_append, ← ih,
      show (k + 1) * fold.ApproxDimension = k * fold.ApproxDimension + fold.ApproxDimension by
        ring,
      List.range_add]
    simp [Function.comp_def]

/-- C34: the slice loop of `GetScores`.  When the stride `BucketCount * MaxLeafCount` is at
least 1, the loop started with enough fuel (any amount above the number of slices; the
function gives it `|Stats| + 1`) is the sequence of the calls of `UpdateScores` for
`statsIdx = 0, 1, ..., n - 1` in this order, where `n = ceil(|Stats| / stride)`, each on
the statistics from offset `statsIdx * stride` on: it stops after exactly `n` calls (when
each of them returns), and `GetScores` returns the scores of the calcer that received
them.  For the statistics that `CalcStatsAndScores` fills without caching, with a bucket
count of at least 1 and `bucketCount * 2^depth` below `2^31`, the stride is `bucketCount *
2^depth`, `n = bodyTailCount * approxDimension`, and the calls are one per pair (body/tail
segment, dimension), in the order of the pairs, each at the offset of the slice of its
pair. -/
theorem C34_slice_loop (calcAverage : ℚ → ℚ → ℚ → ℚ)
    (candidateScore : EScoreFunction → List TScoreCalcerCall → Nat → ℚ)
    (calcSplitsCount : TSplitEnsembleSpec → Int → Nat → Nat)
    (useForCalcScores : TExclusiveBundlePart → Nat → Bool) (getValueBitCount : Int → Nat)
    (stats3d : TStats3D) (depth : Nat) (sumAllWeights : ℚ) (allDocCount : Int)
    (scoreFunction : EScoreFunction) (l2Regularizer : ℚ) (oneHotMaxSize : Nat) (S : Nat)
    (hstride : stats3d.BucketCount * stats3d.MaxLeafCount = (S : Int)) (hS : 1 ≤ S)
    (hscore : scoreFunction = EScoreFunction.Cosine ∨ scoreFunction = EScoreFunction.L2) :
    sliceCount stats3d.Stats.length S = ⌈(stats3d.Stats.length : ℚ) / (S : ℚ)⌉₊ ∧
    (∀ (fuel : Nat) (leafCount splitsCount : Nat) (indexer : TStatsIndexer)
        (scaledL2Regularizer : ℚ) (calls : List TScoreCalcerCall),
      sliceCount stats3d.Stats.length S + 1 ≤ fuel →
      getScoresLoop calcAverage stats3d leafCount indexer scaledL2Regularizer oneHotMaxSize
          useForCalcScores getValueBitCount splitsCount
          (stats3d.BucketCount * stats3d.MaxLeafCount) fuel 0 calls
        = (List.range (sliceCount stats3d.Stats.length S)).foldlM
            (getScoresStep calcAverage stats3d leafCount indexer scaledL2Regularizer
              oneHotMaxSize useForCalcScores getValueBitCount splitsCount S) calls) ∧
    GetScores calcAverage candidateScore calcSplitsCount useForCalcScores getValueBitCount
        stats3d depth sumAllWeights allDocCount scoreFunction l2Regularizer oneHotMaxSize
      = Except.ok (((List.range (sliceCount stats3d.Stats.length S)).foldlM
          (getScoresStep calcAverage stats3d (2 ^ depth) ⟨stats3d.BucketCount⟩
            (l2Regularizer * (sumAllWeights / allDocCount)) oneHotMaxSize useForCalcScores
            getValueBitCount
            (calcSplitsCount stats3d.SplitEnsembleSpec stats3d.BucketCount oneHotMaxSize) S)
          [TScoreCalcerCall.SetSplitsCount
              (calcSplitsCount stats3d.SplitEnsembleSpec stats3d.BucketCount oneHotMaxSize),
            TScoreCalcerCall.SetL2Regularizer
              (l2Regularizer * (sumAllWeights / allDocCount))]).map
          (scoreCalcerGetScores candidateScore scoreFunction)) ∧
    ∀ (fold : TCalcScoreFold) (bucketCount : Nat) (splitEnsembleSpec : TSplitEnsembleSpec)
        (content : Nat → TBucketStats),
      1 ≤ bucketCount → bucketCount * 2 ^ depth < 2 ^ 31 →
      stats3d = stats3dWithoutCaching fold ⟨bucketCount⟩ depth splitEnsembleSpec content →
      S = bucketCount * 2 ^ depth ∧
      sliceCount stats3d.Stats.length S = fold.BodyTailCount * fold.ApproxDimension ∧
      ∀ (leafCount splitsCount : Nat) (indexer : TStatsIndexer) (scaledL2Regularizer : ℚ)
          (calls : List TScoreCalcerCall),
        (List.range (sliceCount stats3d.Stats.length S)).foldlM
            (getScoresStep calcAverage stats3d leafCount indexer scaledL2Regularizer
              oneHotMaxSize useForCalcScores getValueBitCount splitsCount S) calls
          = (slicePairs fold).foldlM (fun calls p =>
              UpdateScoresOfCalcer calcAverage (fun _ => []) (fun _ _ _ _ => none)
                (stats3d.Stats.drop (statsSliceBegin fold S p.1 p.2)) leafCount indexer
                stats3d.SplitEnsembleSpec scaledL2Regularizer true false oneHotMaxSize [] []
                useForCalcScores getValueBitCount splitsCount calls) calls := by
  have hloop : ∀ (fuel : Nat) (leafCount splitsCount : Nat) (indexer : TStatsIndexer)
      (scaledL2Regularizer : ℚ) (calls : List TScoreCalcerCall),
      sliceCount stats3d.Stats.length S + 1 ≤ fuel →
      getScoresLoop calcAverage stats3d leafCount indexer scaledL2Regularizer oneHotMaxSize
          useForCalcScores getValueBitCount splitsCount
          (stats3d.BucketCount * stats3d.MaxLeafCount) fuel 0 calls
        = (List.range (sliceCount stats3d.Stats.length S)).foldlM
            (getScoresStep calcAverage stats3d leafCount indexer scaledL2Regularizer
              oneHotMaxSize useForCalcScores getValueBitCount splitsCount S) calls := by
    intro fuel leafCount splitsCount indexer scaledL2Regularizer calls hfuel
    rw [hstride, getScoresLoop_eq calcAverage stats3d leafCount indexer scaledL2Regularizer
      oneHotMaxSize useForCalcScores getValueBitCount splitsCount S hS fuel 0 calls
      (by omega) (by omega), Nat.sub_zero, List.range_eq_range']
  have hcount : sliceCount stats3d.Stats.length S ≤ stats3d.Stats.length := by
    by_contra hlt
    have h := (slice_begins_inside stats3d.Stats.length S stats3d.Stats.length hS).mpr
      (by omega)
    have h2 : stats3d.Stats.length * 1 ≤ stats3d.Stats.length * S :=
      Nat.mul_le_mul_left _ hS
    omega
  refine ⟨sliceCount_eq_ceil _ _ hS, hloop, ?_, ?_⟩
  · rw [GetScores_ok _ _ _ _ _ _ _ _ _ _ _ _ hscore, hloop _ _ _ _ _ _ (by omega)]
  · intro fold bucketCount splitEnsembleSpec content hB hfit hstats
    have hpow : (2 : Int) ^ depth < 2 ^ 31 := by
      have h1 : 2 ^ depth ≤ bucketCount * 2 ^ depth := Nat.le_mul_of_pos_left _ hB
      have h2 : (2 : Nat) ^ depth < 2 ^ 31 := by omega
      exact_mod_cast h2
    have hpos : (0 : Int) < 2 ^ depth := by positivity
    have hleaf : toInt (toUnsigned (1 * 2 ^ depth)) = 2 ^ depth := by
      rw [one_mul, toUnsigned_of_range hpos.le (by omega)]
      exact toInt_of_range (by omega) hpow
    have hsize : (⟨bucketCount⟩ : TStatsIndexer).CalcSize depth
        = ((bucketCount * 2 ^ depth : Nat) : Int) := by
      rw [CalcSize_of_fits ⟨bucketCount⟩ depth (by simp) (by
        show (bucketCount : Int) * 2 ^ depth < 2 ^ 31
        exact_mod_cast hfit)]
      push_cast
      ring
    have hSeq : S = bucketCount * 2 ^ depth := by
      have h1 : stats3d.BucketCount * stats3d.MaxLeafCount
          = ((bucketCount * 2 ^ depth : Nat) : Int) := by
        rw [hstats]
        show (bucketCount : Int) * toInt (toUnsigned (1 * 2 ^ depth)) = _
        rw [hleaf]
        push_cast
        rfl
      rw [hstride] at h1
      exact_mod_cast h1
    have hlen : stats3d.Stats.length
        = fold.BodyTailCount * fold.ApproxDimension * S := by
      rw [hstats]
      show ((List.range _).map content).length = _
      rw [List.length_map, List.length_range, hsize, hSeq]
      have : (fold.BodyTailCount : Int) * fold.ApproxDimension
            * ((bucketCount * 2 ^ depth : Nat) : Int)
          = ((fold.BodyTailCount * fold.ApproxDimension * (bucketCount * 2 ^ depth) : Nat)
            : Int) := by
        push_cast
        rfl
      rw [this, Int.toNat_natCast]
    have hn : sliceCount stats3d.Stats.length S
        = fold.BodyTailCount * fold.ApproxDimension := by
      rw [hlen]
      unfold sliceCount
      have h1 : fold.BodyTailCount * fold.ApproxDimension * S + S - 1
          = (S - 1) + S * (fold.BodyTailCount * fold.ApproxDimension) := by
        rw [Nat.mul_comm S]
        omega
      rw [h1, Nat.add_mul_div_left _ _ (by omega), Nat.div_eq_of_lt (by omega), Nat.zero_add]
    refine ⟨hSeq, hn, ?_⟩
    intro leafCount splitsCount indexer scaledL2Regularizer calls
    rw [hn, range_eq_slicePairs, List.foldlM_map]
    rfl

theorem C34_slice_loop_witness :
    sliceCount exampleTwoSlices.Stats.length 6 = 2 ∧
    sliceCount exampleTwoSlices.Stats.length 6
      = ⌈(exampleTwoSlices.Stats.length : ℚ) / ((6 : Nat) : ℚ)⌉₊ ∧
    ∀ (fuel : Nat) (leafCount splitsCount : Nat) (indexer : TStatsIndexer)
        (scaledL2Regularizer : ℚ) (calls : List TScoreCalcerCall),
      sliceCount exampleTwoSlices.Stats.length 6 + 1 ≤ fuel →
      getScoresLoop CalcAverage exampleTwoSlices leafCount indexer scaledL2Regularizer 0
          (fun _ _ => true) (fun _ => 0) splitsCount
          (exampleTwoSlices.BucketCount * exampleTwoSlices.MaxLeafCount) fuel 0 calls
        = (List.range (sliceCount exampleTwoSlices.Stats.length 6)).foldlM
            (getScoresStep CalcAverage exampleTwoSlices leafCount indexer scaledL2Regularizer
              0 (fun _ _ => true) (fun _ => 0) splitsCount 6) calls :=
  ⟨by decide,
    (C34_slice_loop CalcAverage (fun _ _ _ => 0) (fun _ _ _ => 2) (fun _ _ => true)
      (fun _ => 0) exampleTwoSlices 1 4 4 EScoreFunction.L2 1 0 6 (by decide) (by decide)
      (Or.inr rfl)).1,
    (C34_slice_loop CalcAverage (fun _ _ _ => 0) (fun _ _ _ => 2) (fun _ _ => true)
      (fun _ => 0) exampleTwoSlices 1 4 4 EScoreFunction.L2 1 0 6 (by decide) (by decide)
      (Or.inr rfl)).2.1⟩

theorem blockLengthUsed_pos (docCount permBlockSize originalBlockIdx : Int)
    (hd : 1 ≤ docCount) (hB : 1 < permBlockSize) :
    1 ≤ blockLengthUsed docCount permBlockSize originalBlockIdx := by
  unfold blockLengthUsed
  simp only
  split
  · next h =>
    have hnn : 0 ≤ docCount + permBlockSize - 1 := by omega
    have hdiv : (docCount + permBlockSize - 1).tdiv permBlockSize
        = (docCount + permBlockSize - 1) / permBlockSize :=
      Int.tdiv_eq_ediv hnn (by omega)
    rw [hdiv] at h
    have hmul := Int.ediv_mul_le (docCount + permBlockSize - 1)
      (show permBlockSize ≠ 0 by omega)
    rw [← h] at hmul
    have hexp : (originalBlockIdx.tdiv permBlockSize + 1) * permBlockSize
        = originalBlockIdx.tdiv permBlockSize * permBlockSize + permBlockSize := by ring
    omega
  · omega

theorem blockLengthUsed_natCast (docCount permBlockSize entry : Nat) (hB : 1 < permBlockSize) :
    blockLengthUsed docCount permBlockSize entry
      = ((if entry / permBlockSize + 1 = (docCount + permBlockSize - 1) / permBlockSize
          then docCount - entry / permBlockSize * permBlockSize else permBlockSize : Nat)
        : Int) := by
  unfold blockLengthUsed
  simp only
  have h1 : ((docCount : Int) + permBlockSize - 1).tdiv permBlockSize
      = (((docCount + permBlockSize - 1) / permBlockSize : Nat) : Int) := by
    have : (docCount : Int) + permBlockSize - 1 = ((docCount + permBlockSize - 1 : Nat) : Int) := by
      omega
    rw [this, Int.tdiv_eq_ediv (by omega) (by omega)]
    rfl
  have h2 : (entry : Int).tdiv permBlockSize = ((entry / permBlockSize : Nat) : Int) := by
    rw [Int.tdiv_eq_ediv (by omega) (by omega)]
    rfl
  rw [h1, h2]
  by_cases hc : entry / permBlockSize + 1 = (docCount + permBlockSize - 1) / permBlockSize
  · rw [if_pos hc, if_pos (by exact_mod_cast hc)]
    have hle : entry / permBlockSize * permBlockSize ≤ docCount := by
      have hmul := Nat.div_mul_le_self (docCount + permBlockSize - 1) permBlockSize
      rw [← hc] at hmul
      have : (entry / permBlockSize + 1) * permBlockSize
          = entry / permBlockSize * permBlockSize + permBlockSize := by ring
      omega
    push_cast [Nat.cast_sub hle]
    rfl
  · rw [if_neg hc, if_neg (by
      intro h
      exact hc (by exact_mod_cast h))]

theorem block_step_bounds (docCount B rangeEnd blockStart entry : Nat) (hd : 1 ≤ docCount)
    (hB : 1 < B) (hlt : blockStart < rangeEnd) :
    blockStart + 1 ≤ min (blockStart
        + (if entry / B + 1 = (docCount + B - 1) / B then docCount - entry / B * B else B))
        rangeEnd ∧
      min (blockStart
        + (if entry / B + 1 = (docCount + B - 1) / B then docCount - entry / B * B else B))
        rangeEnd ≤ rangeEnd := by
  have hpos : 1 ≤ (if entry / B + 1 = (docCount + B - 1) / B then docCount - entry / B * B
      else B) := by
    have h := blockLengthUsed_pos docCount B entry (by exact_mod_cast hd) (by exact_mod_cast hB)
    rw [blockLengthUsed_natCast docCount B entry hB] at h
    exact_mod_cast h
  omega

theorem foldlM_invariant_mem {α σ : Type} (P : σ → Prop) (f : σ → α → Option σ) :
    ∀ (xs : List α) (st st2 : σ),
      (∀ st x st2, x ∈ xs → P st → f st x = some st2 → P st2) →
      P st → xs.foldlM f st = some st2 → P st2 := by
  intro xs
  induction xs with
  | nil =>
    intro st st2 _ hP h
    simp only [List.foldlM_nil, Option.pure_def, Option.some.injEq] at h
    exact h ▸ hP
  | cons x xs ih =>
    intro st st2 hf hP h
    rw [List.foldlM_cons] at h
    simp only [Option.bind_eq_bind] at h
    rw [Option.bind_eq_some] at h
    obtain ⟨st1, h1, h2⟩ := h
    exact ih st1 st2 (fun a y b hy => hf a y b (List.mem_cons_of_mem _ hy))
      (hf st x st1 (List.mem_cons_self _ _) hP h1) h2

theorem setSingleIdxAt_frame (width : Nat) (indexer : TStatsIndexer)
    (indices : Option (List Nat)) (bucketIndex : List Nat) (doc orig : Nat) (t out : List Nat)
    (h : setSingleIdxAt width indexer indices bucketIndex doc orig t = some out) :
    out.length = t.length ∧ ∀ i, i ≠ doc → out[i]? = t[i]? := by
  unfold setSingleIdxAt at h
  simp only [Option.bind_eq_bind, Option.pure_def] at h
  rw [Option.bind_eq_some] at h
  obtain ⟨leaf, _, h⟩ := h
  rw [Option.bind_eq_some] at h
  obtain ⟨bucket, _, h⟩ := h
  split at h
  · rw [Option.some.injEq] at h
    rw [← h]
    exact ⟨List.length_set _ _ _, fun i hi => List.getElem?_set_ne (Ne.symm hi)⟩
  · exact Option.noConfusion h

theorem blockLoop_fuel (width : Nat) (indexer : TStatsIndexer) (indices : Option (List Nat))
    (bucketIndex bucketIndexing : List Nat) (docCount B rangeEnd : Nat) (hd : 1 ≤ docCount)
    (hB : 1 < B) :
    ∀ (fuel blockStart : Nat) (s : List Nat), rangeEnd - blockStart ≤ fuel →
      blockLoop width indexer indices bucketIndex bucketIndexing docCount B
          ((docCount + B - 1) / B) rangeEnd fuel blockStart s
        = blockLoop width indexer indices bucketIndex bucketIndexing docCount B
          ((docCount + B - 1) / B) rangeEnd (rangeEnd - blockStart) blockStart s := by
  intro fuel
  induction fuel using Nat.strong_induction_on with
  | _ fuel ih =>
    intro blockStart s hfuel
    by_cases hlt : blockStart < rangeEnd
    · generalize hn : rangeEnd - blockStart = n at hfuel
      obtain ⟨f, rfl⟩ : ∃ f, fuel = f + 1 := ⟨fuel - 1, by omega⟩
      obtain ⟨m, rfl⟩ : ∃ m, n = m + 1 := ⟨n - 1, by omega⟩
      unfold blockLoop
      simp only [if_pos hlt, Option.bind_eq_bind]
      cases he : bucketIndexing[blockStart]? with
      | none => rfl
      | some entry =>
        simp only [Option.some_bind]
        obtain ⟨h1, h2⟩ := block_step_bounds docCount B rangeEnd blockStart entry hd hB hlt
        cases hs : (List.range' blockStart
            (min (blockStart
              + (if entry / B + 1 = (docCount + B - 1) / B then docCount - entry / B * B
                else B)) rangeEnd - blockStart)).foldlM
            (fun singleIdx doc =>
              setSingleIdxAt width indexer indices bucketIndex doc
                (entry + doc - blockStart) singleIdx) s with
        | none => rfl
        | some s2 =>
          simp only [Option.some_bind]
          rw [ih f (by omega) _ s2 (by omega), ih m (by omega) _ s2 (by omega)]
    · rw [blockLoop_done _ _ _ _ _ _ _ _ _ _ _ _ hlt, blockLoop_done _ _ _ _ _ _ _ _ _ _ _ _ hlt]

theorem blockLoop_frame (width : Nat) (indexer : TStatsIndexer) (indices : Option (List Nat))
    (bucketIndex bucketIndexing : List Nat) (docCount B blockCount rangeEnd : Nat) :
    ∀ (fuel blockStart : Nat) (s out : List Nat),
      blockLoop width indexer indices bucketIndex bucketIndexing docCount B blockCount
          rangeEnd fuel blockStart s = some out →
      out.length = s.length ∧ ∀ i, (i < blockStart ∨ rangeEnd ≤ i) → out[i]? = s[i]? := by
  intro fuel
  induction fuel with
  | zero =>
    intro blockStart s out h
    unfold blockLoop at h
    split at h
    · exact Option.noConfusion h
    · rw [Option.some.injEq] at h
      exact h ▸ ⟨rfl, fun _ _ => rfl⟩
  | succ fuel ih =>
    intro blockStart s out h
    unfold blockLoop at h
    split at h
    · next hlt =>
      simp only [Option.bind_eq_bind] at h
      rw [Option.bind_eq_some] at h
      obtain ⟨entry, _, h⟩ := h
      rw [Option.bind_eq_some] at h
      obtain ⟨s2, hs2, h⟩ := h
      obtain ⟨hl, hout⟩ := ih _ s2 out h
      have hinner := foldlM_invariant_mem
        (fun t : List Nat => t.length = s.length ∧
          ∀ i, (i < blockStart ∨ rangeEnd ≤ i) → t[i]? = s[i]?) _ _ s s2
        (by
          intro t doc t2 hdoc hP hstep
          obtain ⟨hl2, hother⟩ := setSingleIdxAt_frame _ _ _ _ _ _ _ _ hstep
          rw [List.mem_range'_1] at hdoc
          refine ⟨by rw [hl2]; exact hP.1, fun i hi => ?_⟩
          rw [hother i (by omega)]
          exact hP.2 i hi)
        ⟨rfl, fun _ _ => rfl⟩ hs2
      refine ⟨by rw [hl]; exact hinner.1, fun i hi => ?_⟩
      by_cases hlt2 : blockStart < min (blockStart
          + (if entry / B + 1 = blockCount then docCount - entry / B * B else B)) rangeEnd
      · rw [hout i (by omega)]
        exact hinner.2 i hi
      · rw [hout i (by omega)]
        exact hinner.2 i hi
    · rw [Option.some.injEq] at h
      exact h ▸ ⟨rfl, fun _ _ => rfl⟩

theorem blockLoop_returns (width : Nat) (indexer : TStatsIndexer)
    (indices : Option (List Nat)) (bucketIndex bucketIndexing : List Nat)
    (docCount B rangeBegin rangeEnd : Nat) (hd : 1 ≤ docCount) (hB : 1 < B)
    (hidx : rangeEnd ≤ bucketIndexing.length)
    (hleaf : ∀ doc, doc < rangeEnd → ∃ leaf, readAt indices doc = some leaf)
    (hbucket : ∀ b doc entry, rangeBegin ≤ b → b ≤ doc → doc < rangeEnd →
      bucketIndexing[b]? = some entry → entry + doc - b < bucketIndex.length) :
    ∀ (fuel blockStart : Nat) (s : List Nat), rangeEnd - blockStart ≤ fuel →
      rangeBegin ≤ blockStart → rangeEnd ≤ s.length →
      ∃ out, blockLoop width indexer indices bucketIndex bucketIndexing docCount B
          ((docCount + B - 1) / B) rangeEnd fuel blockStart s = some out := by
  intro fuel
  induction fuel with
  | zero =>
    intro blockStart s hfuel _ _
    exact ⟨s, blockLoop_done _ _ _ _ _ _ _ _ _ _ _ _ (by omega)⟩
  | succ fuel ih =>
    intro blockStart s hfuel hbegin hlen
    by_cases hlt : blockStart < rangeEnd
    · obtain ⟨entry, hentry⟩ : ∃ entry, bucketIndexing[blockStart]? = some entry :=
        ⟨_, List.getElem?_eq_getElem (by omega)⟩
      unfold blockLoop
      simp only [if_pos hlt, Option.bind_eq_bind, hentry, Option.some_bind]
      obtain ⟨h1, h2⟩ := block_step_bounds docCount B rangeEnd blockStart entry hd hB hlt
      obtain ⟨s2, hs2, hl2, _⟩ := store_loop_spec
        (fun doc t => setSingleIdxAt width indexer indices bucketIndex doc
          (entry + doc - blockStart) t)
        (fun doc => toFullIndexType width (indexer.GetIndex ((readAt indices doc).getD 0)
          (bucketIndex.getD (entry + doc - blockStart) 0)))
        (min (blockStart
          + (if entry / B + 1 = (docCount + B - 1) / B then docCount - entry / B * B
            else B)) rangeEnd - blockStart) blockStart s (fun _ => by omega)
        (by
          intro doc t hb hdoc hdt
          obtain ⟨leaf, hleaf2⟩ := hleaf doc (by omega)
          have hbk := hbucket blockStart doc _ hbegin hb (by omega) hentry
          unfold setSingleIdxAt
          simp only [hleaf2, Option.bind_eq_bind, Option.some_bind,
            List.getElem?_eq_getElem hbk, if_pos hdt, Option.pure_def, Option.getD_some,
            List.getD_eq_getElem?_getD])
      rw [hs2]
      simp only [Option.some_bind]
      exact ih _ s2 (by omega) (by omega) (by omega)
    · exact ⟨s, blockLoop_done _ _ _ _ _ _ _ _ _ _ _ _ hlt⟩

/-- C33: the block-walking loop of `SetSingleIndex` terminates.  For `docCount >= 1` and
`permBlockSize > 1`, whatever `bucketIndexing` holds: the block length that an iteration
adds to `blockStart` is at least 1 for every `int` value of the entry read (it is
`permBlockSize`, or `docCount - blockIdx * permBlockSize` for the last block), so
`nextBlockStart` lies in `(blockStart, End]`; `End - Begin` iterations are always enough
(the loop run with more fuel does what it does with `End - Begin`), and the loop returns
when its reads are inside the arrays (the range inside `bucketIndexing`, `indices` and
`singleIdx`, and the entries pointing inside `bucketIndex`); what it returns has the length
of `singleIdx` and differs from it only at positions inside `[Begin, End)`. -/
theorem C33_block_loop_terminates (width : Nat) (indexer : TStatsIndexer)
    (indices : Option (List Nat)) (bucketIndex bucketIndexing : List Nat)
    (docCount permBlockSize rangeBegin rangeEnd : Nat) (singleIdx : List Nat)
    (hd : 1 ≤ docCount) (hB : 1 < permBlockSize) :
    (∀ originalBlockIdx : Int, 1 ≤ blockLengthUsed docCount permBlockSize originalBlockIdx) ∧
    (∀ blockStart entry : Nat, blockStart < rangeEnd →
      blockStart + 1 ≤ min (blockStart + (blockLengthUsed docCount permBlockSize entry).toNat)
        rangeEnd ∧
      min (blockStart + (blockLengthUsed docCount permBlockSize entry).toNat) rangeEnd
        ≤ rangeEnd) ∧
    (∀ fuel, rangeEnd - rangeBegin ≤ fuel →
      blockLoop width indexer indices bucketIndex bucketIndexing docCount permBlockSize
          ((docCount + permBlockSize - 1) / permBlockSize) rangeEnd fuel rangeBegin singleIdx
        = blockLoop width indexer indices bucketIndex bucketIndexing docCount permBlockSize
          ((docCount + permBlockSize - 1) / permBlockSize) rangeEnd (rangeEnd - rangeBegin)
          rangeBegin singleIdx) ∧
    (rangeEnd ≤ bucketIndexing.length → rangeEnd ≤ singleIdx.length →
      (∀ doc, doc < rangeEnd → (readAt indices doc).isSome = true) →
      (∀ b, b < rangeEnd → ∀ doc, doc < rangeEnd → rangeBegin ≤ b → b ≤ doc →
        bucketIndexing.getD b 0 + doc - b < bucketIndex.length) →
      ∃ out, blockLoop width indexer indices bucketIndex bucketIndexing docCount
          permBlockSize ((docCount + permBlockSize - 1) / permBlockSize) rangeEnd
          (rangeEnd - rangeBegin) rangeBegin singleIdx = some out) ∧
    ∀ fuel out,
      blockLoop width indexer indices bucketIndex bucketIndexing docCount permBlockSize
          ((docCount + permBlockSize - 1) / permBlockSize) rangeEnd fuel rangeBegin singleIdx
        = some out →
      out.length = singleIdx.length ∧
        ∀ i, (i < rangeBegin ∨ rangeEnd ≤ i) → out[i]? = singleIdx[i]? := by
  refine ⟨fun e => blockLengthUsed_pos _ _ e (by exact_mod_cast hd) (by exact_mod_cast hB),
    ?_, ?_, ?_, ?_⟩
  · intro blockStart entry hlt
    rw [blockLengthUsed_natCast docCount permBlockSize entry hB, Int.toNat_natCast]
    exact block_step_bounds docCount permBlockSize rangeEnd blockStart entry hd hB hlt
  · intro fuel hfuel
    exact blockLoop_fuel width indexer indices bucketIndex bucketIndexing docCount
      permBlockSize rangeEnd hd hB fuel rangeBegin singleIdx hfuel
  · intro hidx hlen hleaf hbucket
    refine blockLoop_returns width indexer indices bucketIndex bucketIndexing docCount
      permBlockSize rangeBegin rangeEnd hd hB hidx ?_ ?_ _ rangeBegin singleIdx
      (Nat.le_refl _) (Nat.le_refl _) hlen
    · intro doc hdoc
      exact Option.isSome_iff_exists.mp (hleaf doc hdoc)
    · intro b doc entry hb hbd hdoc hentry
      have h := hbucket b (by omega) doc hdoc hb hbd
      rw [List.getD_eq_getElem?_getD, hentry] at h
      exact h
  · intro fuel out h
    exact blockLoop_frame _ _ _ _ _ _ _ _ _ fuel rangeBegin singleIdx out h

theorem C33_block_loop_terminates_witness :
    (∃ out, blockLoop 8 ⟨3⟩ (some [0, 1, 0, 1, 0, 1]) [0, 1, 2, 1, 0, 2, 1, 0, 2, 1, 0, 2]
        [9, 3, 0, 7, 7, 2] 5 2 ((5 + 2 - 1) / 2) 5 (5 - 1) 1 [7, 7, 7, 7, 7, 7] = some out) ∧
    ∀ fuel, 5 - 1 ≤ fuel →
      blockLoop 8 ⟨3⟩ (some [0, 1, 0, 1, 0, 1]) [0, 1, 2, 1, 0, 2, 1, 0, 2, 1, 0, 2]
          [9, 3, 0, 7, 7, 2] 5 2 ((5 + 2 - 1) / 2) 5 fuel 1 [7, 7, 7, 7, 7, 7]
        = some [7, 4, 0, 3, 2, 7] :=
  ⟨(C33_block_loop_terminates 8 ⟨3⟩ (some [0, 1, 0, 1, 0, 1])
      [0, 1, 2, 1, 0, 2, 1, 0, 2, 1, 0, 2] [9, 3, 0, 7, 7, 2] 5 2 1 5 [7, 7, 7, 7, 7, 7]
      (by decide) (by decide)).2.2.2.1 (by decide) (by decide) (by decide) (by decide),
    fun fuel hfuel =>
      ((C33_block_loop_terminates 8 ⟨3⟩ (some [0, 1, 0, 1, 0, 1])
        [0, 1, 2, 1, 0, 2, 1, 0, 2, 1, 0, 2] [9, 3, 0, 7, 7, 2] 5 2 1 5 [7, 7, 7, 7, 7, 7]
        (by decide) (by decide)).2.2.1 fuel hfuel).trans (by decide)⟩

theorem bundlePartCalls_candidates (stats : List TBucketStats) (indexer : TStatsIndexer)
    (parts : List TExclusiveBundlePart) (use : List Bool) (leaf leaf2 idx : Nat) :
    (bundlePartCalls stats indexer parts use leaf idx).map (fun call => call.2.2)
      = (bundlePartCalls stats indexer parts use leaf2 idx).map (fun call => call.2.2) := by
  unfold bundlePartCalls
  cases parts[idx]? with
  | none => rfl
  | some part =>
    cases use[idx]? with
    | none => rfl
    | some u =>
      cases u with
      | false => rfl
      | true =>
        simp only
        split
        · simp [floatPartCalls, List.map_map, Function.comp_def]
        · unfold categoricalPartCalls
          split <;> simp [List.map_map, Function.comp_def]

theorem leafCandidates_leaf (stats : List TBucketStats) (indexer : TStatsIndexer) (B : Nat)
    (splitEnsembleSpec : TSplitEnsembleSpec) (use : List Bool) (bitCount : Nat)
    (leaf leaf2 : Nat) :
    leafCandidates stats indexer B splitEnsembleSpec use bitCount leaf
      = leafCandidates stats indexer B splitEnsembleSpec use bitCount leaf2 := by
  unfold leafCandidates leafCalls
  cases splitEnsembleSpec.EnsembleType with
  | OneFeature =>
    simp only
    split <;> simp [List.map_map, Function.comp_def]
  | BinarySplits => simp [List.map_map, Function.comp_def]
  | ExclusiveBundle =>
    simp only [List.map_flatten, List.map_map]
    congr 1
    apply List.map_congr_left
    intro idx _
    exact bundlePartCalls_candidates stats indexer _ use leaf leaf2 idx

theorem leafCandidates_nodup (stats : List TBucketStats) (indexer : TStatsIndexer) (B : Nat)
    (splitEnsembleSpec : TSplitEnsembleSpec) (use : List Bool) (bitCount : Nat) (leaf : Nat) :
    (leafCandidates stats indexer B splitEnsembleSpec use bitCount leaf).Nodup := by
  unfold leafCandidates leafCalls
  cases h : splitEnsembleSpec.EnsembleType with
  | OneFeature =>
    simp only
    split
    · rw [List.map_map]
      exact (List.nodup_range _).map (fun a b hab => hab)
    · rw [List.map_map]
      exact (List.nodup_range _).map (fun a b hab => hab)
  | BinarySplits =>
    simp only
    rw [List.map_map]
    exact (List.nodup_range _).map (fun a b hab => hab)
  | ExclusiveBundle =>
    exact bundleLeafCalls_nodup stats indexer splitEnsembleSpec.Parts use leaf

theorem updatesOf_nodup (c : Nat) :
    ∀ calls : List (TBucketStats × TBucketStats × Nat),
      (calls.map (fun call => call.2.2)).Nodup →
      (updatesOf calls c).length = if c ∈ calls.map (fun call => call.2.2) then 1 else 0 := by
  intro calls
  induction calls with
  | nil => intro _; rfl
  | cons x xs ih =>
    intro hnd
    rw [List.map_cons, List.nodup_cons] at hnd
    have hxs := ih hnd.2
    unfold updatesOf at hxs ⊢
    by_cases hx : x.2.2 = c
    · rw [List.filter_cons_of_pos (by simpa using hx), List.length_cons, hxs]
      subst hx
      rw [if_neg hnd.1, if_pos (by simp)]
    · rw [List.filter_cons_of_neg (by simpa using hx), hxs]
      have hiff : c ∈ List.map (fun call => call.2.2) (x :: xs)
          ↔ c ∈ List.map (fun call => call.2.2) xs := by
        rw [List.map_cons, List.mem_cons]
        constructor
        · rintro (h | h)
          · exact absurd h.symm hx
          · exact h
        · exact Or.inr
      by_cases hm : c ∈ List.map (fun call => call.2.2) xs
      · rw [if_pos hm, if_pos (hiff.mpr hm)]
      · rw [if_neg hm, if_neg (fun h => hm (hiff.mp h))]

theorem updatesOf_leaves_length (callsOfLeaf : Nat → List (TBucketStats × TBucketStats × Nat))
    (c m : Nat) :
    ∀ k : Nat, (∀ leaf, leaf < k → (updatesOf (callsOfLeaf leaf) c).length = m) →
      (updatesOf ((List.range k).map callsOfLeaf).flatten c).length = k * m := by
  intro k
  induction k with
  | zero => intro _; simp [updatesOf]
  | succ k ih =>
    intro h
    rw [List.range_succ, List.map_append, List.flatten_append, updatesOf_append,
      List.length_append, ih (fun leaf hl => h leaf (by omega))]
    simp only [List.map_cons, List.map_nil, List.flatten_cons, List.flatten_nil,
      List.append_nil]
    rw [h k (by omega)]
    ring

theorem updatesOf_leaf_le_one (stats : List TBucketStats) (indexer : TStatsIndexer) (B : Nat)
    (splitEnsembleSpec : TSplitEnsembleSpec) (use : List Bool) (bitCount : Nat)
    (leaf c : Nat) :
    (updatesOf (leafCalls stats indexer B splitEnsembleSpec use bitCount leaf) c).length
      = if c ∈ leafCandidates stats indexer B splitEnsembleSpec use bitCount 0 then 1
        else 0 := by
  rw [updatesOf_nodup c _
    (leafCandidates_nodup stats indexer B splitEnsembleSpec use bitCount leaf)]
  have h := leafCandidates_leaf stats indexer B splitEnsembleSpec use bitCount leaf 0
  unfold leafCandidates at h ⊢
  rw [h]

theorem bundleParts_disjoint (stats : List TBucketStats) (indexer : TStatsIndexer)
    (parts : List TExclusiveBundlePart) (use : List Bool) (leaf idx1 idx2 : Nat)
    (hne : idx1 ≠ idx2) :
    List.Disjoint
      ((bundlePartCalls stats indexer parts use leaf idx1).map (fun call => call.2.2))
      ((bundlePartCalls stats indexer parts use leaf idx2).map (fun call => call.2.2)) := by
  intro c h1 h2
  rw [List.mem_map] at h1 h2
  obtain ⟨c1, hc1, rfl⟩ := h1
  obtain ⟨c2, hc2, heq⟩ := h2
  have b1 := bundlePartCalls_index_bounds stats indexer parts use leaf idx1 c1 hc1
  have b2 := bundlePartCalls_index_bounds stats indexer parts use leaf idx2 c2 hc2
  rcases Nat.lt_or_gt_of_ne hne with hlt | hgt
  · have := binsBeginOf_mono parts use (idx1 + 1) idx2 (by omega)
    omega
  · have := binsBeginOf_mono parts use (idx2 + 1) idx1 (by omega)
    omega

/-- C32: no candidate index is passed to the update closure more than once within one
leaf iteration of `UpdateScores`.  For every ensemble kind the calls of `UpdateScores` are
the calls of its leaves, in order, the candidate indices of the calls of one leaf are
pairwise distinct, and the candidate indices of two distinct parts of an exclusive bundle
are disjoint.  Therefore, in the monotonic path, when a call for the candidate `splitIdx`
is reached in leaf `leaf` (after the calls of the leaves before it and the calls `pre` of
this leaf), `leafsProcessed[splitIdx]` is `leaf`, the number of leaves already finished: the
assertion `currLeafId < leafCount` holds, the positions `currLeafId` and `currLeafId +
leafCount` are below `2 * leafCount`, and the call returns; the whole loop returns, with
`leafsProcessed = leafCount` for every candidate.  (The reads of the statistics are inside
the array and the candidates are below `GetSplitsCount()`.) -/
theorem C32_candidate_once_per_leaf (calcAverage : ℚ → ℚ → ℚ → ℚ) (isPlainMode : Bool)
    (scaledL2Regularizer : ℚ) (stats : List TBucketStats) (L B : Nat) (indexer : TStatsIndexer)
    (splitEnsembleSpec : TSplitEnsembleSpec) (oneHotMaxSize : Nat)
    (useForCalcScores : TExclusiveBundlePart → Nat → Bool) (getValueBitCount : Int → Nat)
    (splitsCount : Nat) (scoreCalcer : List TScoreCalcerCall)
    (hB : indexer.BucketCount = (B : Int))
    (hin : ∀ leaf b : Nat, leaf < L → b < B →
      (statsAt stats (indexer.GetIndex leaf b)).isSome = true)
    (hbundle : splitEnsembleSpec.EnsembleType = ESplitEnsembleType.ExclusiveBundle →
      1 ≤ B ∧ (∀ part ∈ splitEnsembleSpec.Parts, part.Bounds.End ≤ B) ∧
      ∀ part ∈ splitEnsembleSpec.Parts, useForCalcScores part oneHotMaxSize = true →
        part.FeatureType = EFeatureType.Categorical →
        part.Bounds.GetSize + 1 ≤ oneHotMaxSize)
    (hidx : ∀ c ∈ leafCandidates stats indexer B splitEnsembleSpec
        (splitEnsembleSpec.Parts.map (fun p => useForCalcScores p oneHotMaxSize))
        (getValueBitCount (indexer.BucketCount - 1)) 0, c < splitsCount) :
    (∀ (closure : TUpdateScoresState → TBucketStats → TBucketStats → Nat
          → Option TUpdateScoresState) (state : TUpdateScoresState),
      UpdateScores closure stats (L : Int) indexer splitEnsembleSpec oneHotMaxSize
          useForCalcScores getValueBitCount state
        = runCalls closure
            ((List.range L).map (leafCalls stats indexer B splitEnsembleSpec
              (splitEnsembleSpec.Parts.map (fun p => useForCalcScores p oneHotMaxSize))
              (getValueBitCount (indexer.BucketCount - 1)))).flatten state) ∧
    (∀ leaf, ((leafCalls stats indexer B splitEnsembleSpec
        (splitEnsembleSpec.Parts.map (fun p => useForCalcScores p oneHotMaxSize))
        (getValueBitCount (indexer.BucketCount - 1)) leaf).map (fun call => call.2.2)).Nodup) ∧
    (∀ leaf idx1 idx2, idx1 ≠ idx2 →
      List.Disjoint
        ((bundlePartCalls stats indexer splitEnsembleSpec.Parts
          (splitEnsembleSpec.Parts.map (fun p => useForCalcScores p oneHotMaxSize)) leaf
          idx1).map (fun call => call.2.2))
        ((bundlePartCalls stats indexer splitEnsembleSpec.Parts
          (splitEnsembleSpec.Parts.map (fun p => useForCalcScores p oneHotMaxSize)) leaf
          idx2).map (fun call => call.2.2))) ∧
    (∀ (leaf : Nat) (pre post : List (TBucketStats × TBucketStats × Nat))
        (call : TBucketStats × TBucketStats × Nat), leaf < L →
      leafCalls stats indexer B splitEnsembleSpec
          (splitEnsembleSpec.Parts.map (fun p => useForCalcScores p oneHotMaxSize))
          (getValueBitCount (indexer.BucketCount - 1)) leaf = pre ++ call :: post →
      ∃ state state2,
        runCalls (updateSplitScoreClosure calcAverage isPlainMode true L scaledL2Regularizer)
            (((List.range leaf).map (leafCalls stats indexer B splitEnsembleSpec
              (splitEnsembleSpec.Parts.map (fun p => useForCalcScores p oneHotMaxSize))
              (getValueBitCount (indexer.BucketCount - 1)))).flatten ++ pre)
            (initialUpdateScoresState true splitsCount L scoreCalcer) = some state ∧
          state.leafsProcessed[call.2.2]? = some leaf ∧ leaf < L ∧ leaf + L < 2 * L ∧
          updateSplitScoreClosure calcAverage isPlainMode true L scaledL2Regularizer state
            call.1 call.2.1 call.2.2 = some state2) ∧
    ∃ state, UpdateScores
        (updateSplitScoreClosure calcAverage isPlainMode true L scaledL2Regularizer)
        stats (L : Int) indexer splitEnsembleSpec oneHotMaxSize useForCalcScores
        getValueBitCount (initialUpdateScoresState true splitsCount L scoreCalcer)
        = some state ∧
      ∀ c ∈ leafCandidates stats indexer B splitEnsembleSpec
          (splitEnsembleSpec.Parts.map (fun p => useForCalcScores p oneHotMaxSize))
          (getValueBitCount (indexer.BucketCount - 1)) 0,
        state.leafsProcessed[c]? = some L := by
  have hone := updatesOf_leaf_le_one stats indexer B splitEnsembleSpec
    (splitEnsembleSpec.Parts.map (fun p => useForCalcScores p oneHotMaxSize))
    (getValueBitCount (indexer.BucketCount - 1))
  have hmem : ∀ leaf, ∀ call ∈ leafCalls stats indexer B splitEnsembleSpec
      (splitEnsembleSpec.Parts.map (fun p => useForCalcScores p oneHotMaxSize))
      (getValueBitCount (indexer.BucketCount - 1)) leaf,
      call.2.2 ∈ leafCandidates stats indexer B splitEnsembleSpec
        (splitEnsembleSpec.Parts.map (fun p => useForCalcScores p oneHotMaxSize))
        (getValueBitCount (indexer.BucketCount - 1)) 0 := by
    intro leaf call hc
    rw [← leafCandidates_leaf stats indexer B splitEnsembleSpec _ _ leaf 0]
    exact List.mem_map_of_mem _ hc
  have hleaves : ∀ k c, (updatesOf ((List.range k).map (leafCalls stats indexer B
      splitEnsembleSpec
      (splitEnsembleSpec.Parts.map (fun p => useForCalcScores p oneHotMaxSize))
      (getValueBitCount (indexer.BucketCount - 1)))).flatten c).length
      = k * (if c ∈ leafCandidates stats indexer B splitEnsembleSpec
        (splitEnsembleSpec.Parts.map (fun p => useForCalcScores p oneHotMaxSize))
        (getValueBitCount (indexer.BucketCount - 1)) 0 then 1 else 0) :=
    fun k c => updatesOf_leaves_length _ c _ k (fun leaf _ => hone leaf c)
  have hflat : ∀ k, ∀ call ∈ ((List.range k).map (leafCalls stats indexer B splitEnsembleSpec
      (splitEnsembleSpec.Parts.map (fun p => useForCalcScores p oneHotMaxSize))
      (getValueBitCount (indexer.BucketCount - 1)))).flatten, call.2.2 < splitsCount := by
    intro k call hc
    rw [List.mem_flatten] at hc
    obtain ⟨l, hl, hcl⟩ := hc
    rw [List.mem_map] at hl
    obtain ⟨leaf, _, rfl⟩ := hl
    exact hidx _ (hmem leaf call hcl)
  refine ⟨fun closure state => UpdateScores_eq_runCalls closure stats L B indexer
      splitEnsembleSpec oneHotMaxSize useForCalcScores getValueBitCount state hB hin hbundle,
    fun leaf => leafCandidates_nodup stats indexer B splitEnsembleSpec _ _ leaf,
    fun leaf idx1 idx2 hne => bundleParts_disjoint stats indexer _ _ leaf idx1 idx2 hne,
    ?_, ?_⟩
  · intro leaf pre post call hleaf hsplit
    have hcand := hmem leaf call (by rw [hsplit]; simp)
    have hthis := hone leaf call.2.2
    rw [if_pos hcand, hsplit, updatesOf_append, List.length_append] at hthis
    have hcall : 1 ≤ (updatesOf (call :: post) call.2.2).length := by
      unfold updatesOf
      rw [List.filter_cons_of_pos (by simp), List.length_cons]
      omega
    have hpre0 : (updatesOf pre call.2.2).length = 0 := by omega
    have hprele : ∀ c, (updatesOf pre c).length ≤ 1 := by
      intro c
      have h := hone leaf c
      rw [hsplit, updatesOf_append, List.length_append] at h
      split at h <;> omega
    obtain ⟨state, hrun, hsized, _, hlp, _⟩ := runCalls_recorded calcAverage isPlainMode
      scaledL2Regularizer splitsCount L scoreCalcer
      (((List.range leaf).map (leafCalls stats indexer B splitEnsembleSpec
        (splitEnsembleSpec.Parts.map (fun p => useForCalcScores p oneHotMaxSize))
        (getValueBitCount (indexer.BucketCount - 1)))).flatten ++ pre) [] _
      (initial_recorded calcAverage isPlainMode scaledL2Regularizer splitsCount L scoreCalcer)
      (by
        intro c _
        rw [List.nil_append, updatesOf_append, List.length_append, hleaves leaf c]
        have := hprele c
        split <;> omega)
      (by
        intro c hc
        rcases List.mem_append.mp hc with h | h
        · exact hflat leaf c h
        · exact hidx _ (hmem leaf c (by rw [hsplit]; exact List.mem_append_left _ h)))
    have hc := hidx _ hcand
    have hcur : state.leafsProcessed.getD call.2.2 0 = leaf := by
      rw [hlp _ hc, List.nil_append, updatesOf_append, List.length_append, hleaves leaf,
        if_pos hcand, hpre0]
      omega
    obtain ⟨state2, hstep, _⟩ := closure_step_spec calcAverage isPlainMode L
      scaledL2Regularizer splitsCount call.2.2 leaf state call.1 call.2.1 hsized hc hcur hleaf
    refine ⟨state, state2, hrun, ?_, hleaf, by omega, hstep⟩
    rw [List.getD_eq_getElem?_getD, List.getElem?_eq_getElem (by rw [hsized.1]; exact hc)]
      at hcur
    rw [List.getElem?_eq_getElem (by rw [hsized.1]; exact hc)]
    exact congrArg some hcur
  · obtain ⟨state, hrun, hsized, _, hlp, _⟩ := runCalls_recorded calcAverage isPlainMode
      scaledL2Regularizer splitsCount L scoreCalcer
      ((List.range L).map (leafCalls stats indexer B splitEnsembleSpec
        (splitEnsembleSpec.Parts.map (fun p => useForCalcScores p oneHotMaxSize))
        (getValueBitCount (indexer.BucketCount - 1)))).flatten [] _
      (initial_recorded calcAverage isPlainMode scaledL2Regularizer splitsCount L scoreCalcer)
      (by
        intro c _
        rw [List.nil_append, hleaves L c]
        split <;> omega)
      (hflat L)
    refine ⟨state, ?_, fun c hc => ?_⟩
    · rw [UpdateScores_eq_runCalls _ stats L B indexer splitEnsembleSpec oneHotMaxSize
        useForCalcScores getValueBitCount _ hB hin hbundle]
      exact hrun
    · have hlt := hidx c hc
      have h1 := hlp c hlt
      rw [List.nil_append, hleaves L c, if_pos hc, Nat.mul_one, List.getD_eq_getElem?_getD,
        List.getElem?_eq_getElem (by rw [hsized.1]; exact hlt)] at h1
      rw [List.getElem?_eq_getElem (by rw [hsized.1]; exact hlt)]
      exact congrArg some h1

theorem C32_candidate_once_per_leaf_witness :
    ((leafCalls exampleScoreStats ⟨3⟩ 3
        ⟨ESplitEnsembleType.OneFeature, ESplitType.FloatFeature, []⟩ [] 0 1).map
        (fun call => call.2.2)).Nodup ∧
    ∃ state, UpdateScores (updateSplitScoreClosure CalcAverage true true 2 1) exampleScoreStats
        ((2 : Nat) : Int) ⟨3⟩ ⟨ESplitEnsembleType.OneFeature, ESplitType.FloatFeature, []⟩ 0
        (fun _ _ => true) (fun _ => 0) (initialUpdateScoresState true 2 2 []) = some state ∧
      ∀ c ∈ leafCandidates exampleScoreStats ⟨3⟩ 3
          ⟨ESplitEnsembleType.OneFeature, ESplitType.FloatFeature, []⟩ [] 0 0,
        state.leafsProcessed[c]? = some 2 :=
  ⟨(C32_candidate_once_per_leaf CalcAverage true 1 exampleScoreStats 2 3
      ⟨3⟩ ⟨ESplitEnsembleType.OneFeature, ESplitType.FloatFeature, []⟩ 0 (fun _ _ => true)
      (fun _ => 0) 2 [] rfl
      (fun leaf b hl hb => by interval_cases leaf <;> interval_cases b <;> decide)
      (fun h => by cases h) (by with_unfolding_all decide)).2.1 1,
    (C32_candidate_once_per_leaf CalcAverage true 1 exampleScoreStats 2 3
      ⟨3⟩ ⟨ESplitEnsembleType.OneFeature, ESplitType.FloatFeature, []⟩ 0 (fun _ _ => true)
      (fun _ => 0) 2 [] rfl
      (fun leaf b hl hb => by interval_cases leaf <;> interval_cases b <;> decide)
      (fun h => by cases h) (by with_unfolding_all decide)).2.2.2.2⟩

theorem TLeafIndexCalcerOnPool.invariant_new (blockSize : Nat)
    (calcLeafIndexes : Nat → Nat → List Nat → Nat → Nat) (garbage : Nat → Nat)
    (docCount : Nat) (treeStart treeEnd : Int) (hB : 1 ≤ blockSize) (h0 : 0 ≤ treeStart)
    (h1 : 0 ≤ treeEnd) :
    ∃ calcer, TLeafIndexCalcerOnPool.new blockSize calcLeafIndexes garbage docCount treeStart
        treeEnd = Except.ok calcer ∧
      TLeafIndexCalcerOnPool.Invariant blockSize calcer ∧ calcer.CurrDocIndex = 0 ∧
      calcer.DocCount = docCount ∧ calcer.TreeStart = treeStart.toNat ∧
      calcer.TreeEnd = treeEnd.toNat := by
  unfold TLeafIndexCalcerOnPool.new
  rw [if_neg (not_lt.mpr h0), if_neg (not_lt.mpr h1)]
  refine ⟨_, rfl, ?_, rfl, rfl, rfl, rfl⟩
  unfold TLeafIndexCalcerOnPool.Invariant TLeafIndexCalcerOnPool.CalcNextBatch
  refine ⟨Nat.le_refl _, ?_, Nat.le_refl _, ?_, ?_⟩
  · show 0 + min docCount blockSize ≤ docCount
    omega
  · simp only [List.length_map, List.length_range]
  · intro h
    show 0 < 0 + min docCount blockSize
    have h2 : 0 < docCount := h
    omega

theorem TLeafIndexCalcerOnPool.invariant_Next (blockSize : Nat)
    (calcLeafIndexes : Nat → Nat → List Nat → Nat → Nat) (calcer : TLeafIndexCalcerOnPool)
    (hB : 1 ≤ blockSize) (h : TLeafIndexCalcerOnPool.Invariant blockSize calcer) :
    TLeafIndexCalcerOnPool.Invariant blockSize
        (TLeafIndexCalcerOnPool.Next blockSize calcLeafIndexes calcer).2 ∧
      (TLeafIndexCalcerOnPool.Next blockSize calcLeafIndexes calcer).2.CurrDocIndex
        = calcer.CurrDocIndex + 1 ∧
      (TLeafIndexCalcerOnPool.Next blockSize calcLeafIndexes calcer).2.DocCount
        = calcer.DocCount ∧
      (TLeafIndexCalcerOnPool.Next blockSize calcLeafIndexes calcer).2.TreeStart
        = calcer.TreeStart ∧
      (TLeafIndexCalcerOnPool.Next blockSize calcLeafIndexes calcer).2.TreeEnd
        = calcer.TreeEnd ∧
      (TLeafIndexCalcerOnPool.Next blockSize calcLeafIndexes calcer).1
        = decide (calcer.CurrDocIndex + 1 < calcer.DocCount) := by
  obtain ⟨h1, h2, h3, h4, h5⟩ := h
  unfold TLeafIndexCalcerOnPool.Next
  simp only
  by_cases hlt : calcer.CurrDocIndex + 1 < calcer.DocCount
  · rw [if_pos hlt]
    by_cases heq : calcer.CurrDocIndex + 1 = calcer.CurrBatchStart + calcer.CurrBatchSize
    · rw [if_pos heq]
      refine ⟨?_, rfl, rfl, rfl, rfl, by simp [hlt]⟩
      unfold TLeafIndexCalcerOnPool.Invariant TLeafIndexCalcerOnPool.CalcNextBatch
      simp only [List.length_map, List.length_range]
      refine ⟨by omega, by omega, by omega, h4, fun _ => by omega⟩
    · rw [if_neg heq]
      refine ⟨?_, rfl, rfl, rfl, rfl, by simp [hlt]⟩
      have := h5 (by omega)
      exact ⟨by simp only; omega, h2, h3, h4, fun _ => by simp only; omega⟩
  · rw [if_neg hlt]
    refine ⟨?_, rfl, rfl, rfl, rfl, by simp [hlt]⟩
    exact ⟨by simp only; omega, h2, h3, h4, fun hc => by simp only at hc; omega⟩

theorem TLeafIndexCalcerOnPool.invariant_afterNext (blockSize : Nat)
    (calcLeafIndexes : Nat → Nat → List Nat → Nat → Nat) (calcer : TLeafIndexCalcerOnPool)
    (hB : 1 ≤ blockSize) (h : TLeafIndexCalcerOnPool.Invariant blockSize calcer) :
    ∀ n, TLeafIndexCalcerOnPool.Invariant blockSize
        (TLeafIndexCalcerOnPool.afterNext blockSize calcLeafIndexes n calcer) ∧
      (TLeafIndexCalcerOnPool.afterNext blockSize calcLeafIndexes n calcer).CurrDocIndex
        = calcer.CurrDocIndex + n ∧
      (TLeafIndexCalcerOnPool.afterNext blockSize calcLeafIndexes n calcer).DocCount
        = calcer.DocCount ∧
      (TLeafIndexCalcerOnPool.afterNext blockSize calcLeafIndexes n calcer).TreeStart
        = calcer.TreeStart ∧
      (TLeafIndexCalcerOnPool.afterNext blockSize calcLeafIndexes n calcer).TreeEnd
        = calcer.TreeEnd := by
  intro n
  induction n with
  | zero => exact ⟨h, rfl, rfl, rfl, rfl⟩
  | succ n ih =>
    obtain ⟨i1, i2, i3, i4, i5⟩ := ih
    obtain ⟨j1, j2, j3, j4, j5, _⟩ := TLeafIndexCalcerOnPool.invariant_Next blockSize
      calcLeafIndexes _ hB i1
    unfold TLeafIndexCalcerOnPool.afterNext
    exact ⟨j1, by rw [j2, i2]; omega, by rw [j3, i3], by rw [j4, i4], by rw [j5, i5]⟩

theorem foldlM_read_all (buffer : List Nat) (position : Nat → Nat) :
    ∀ k, (∀ i, i < k → position i < buffer.length) →
      ∃ result, (List.range k).foldlM (fun (result : List Nat) i => do
          let value ← buffer[position i]?
          pure (result ++ [value])) [] = some result ∧ result.length = k := by
  intro k
  induction k with
  | zero => intro _; exact ⟨[], rfl, rfl⟩
  | succ k ih =>
    intro h
    obtain ⟨result, hr, hl⟩ := ih (fun i hi => h i (by omega))
    refine ⟨result ++ [buffer.getD (position k) 0], ?_, by rw [List.length_append, hl]; rfl⟩
    rw [List.range_succ, List.foldlM_append, hr]
    simp only [Option.bind_eq_bind, Option.some_bind, List.foldlM_cons, List.foldlM_nil,
      Option.pure_def, List.getElem?_eq_getElem (h k (by omega)), Option.bind_some,
      List.getD_eq_getElem?_getD, Option.getD_some]

theorem TLeafIndexCalcerOnPool.Get_inside (blockSize : Nat) (calcer : TLeafIndexCalcerOnPool)
    (h : TLeafIndexCalcerOnPool.Invariant blockSize calcer)
    (hget : calcer.CurrDocIndex < calcer.DocCount) :
    (∀ treeNum, treeNum < calcer.TreeEnd - calcer.TreeStart →
      calcer.CurrDocIndex - calcer.CurrBatchStart + treeNum * calcer.CurrBatchSize
        < calcer.CurrBatchSize * (calcer.TreeEnd - calcer.TreeStart)) ∧
    calcer.CurrBatchSize * (calcer.TreeEnd - calcer.TreeStart)
      ≤ calcer.CurrentBatchLeafIndexes.length := by
  obtain ⟨h1, h2, h3, h4, h5⟩ := h
  have h6 := h5 hget
  constructor
  · intro treeNum ht
    have hmul : (treeNum + 1) * calcer.CurrBatchSize
        ≤ (calcer.TreeEnd - calcer.TreeStart) * calcer.CurrBatchSize :=
      Nat.mul_le_mul_right _ ht
    have hexp : (treeNum + 1) * calcer.CurrBatchSize
        = treeNum * calcer.CurrBatchSize + calcer.CurrBatchSize := by ring
    rw [Nat.mul_comm calcer.CurrBatchSize]
    omega
  · rw [h4]
    exact Nat.mul_le_mul_right _ h3

/-- C39: the iteration invariant of `TLeafIndexCalcerOnPool`.  For a positive block size,
`DocCount >= 1` and `0 <= treeStart <= treeEnd` the constructor returns, and after any
number `n` of calls of `Next`: `CanGet()` is `n < DocCount`, and when it is true,
`CurrBatchStart <= CurrDocIndex < CurrBatchStart + CurrBatchSize <= DocCount`,
`CurrBatchSize` is at most the batch size `min(DocCount, blockSize)` the buffer was
allocated for, every index `docIndexInBatch + treeNum * CurrBatchSize` that `Get()` reads
(`treeNum < TreeEnd - TreeStart`) is below `CurrBatchSize * (TreeEnd - TreeStart)`, the
size of the leaf-index block of the current batch, which is inside the buffer, and `Get()`
returns one leaf index per tree.  The next call of `Next` (call `n + 1`) returns true
exactly when `n + 1 < DocCount`, that is, on the first `DocCount - 1` calls. -/
theorem C39_iteration_invariant (blockSize : Nat)
    (calcLeafIndexes : Nat → Nat → List Nat → Nat → Nat) (garbage : Nat → Nat)
    (docCount : Nat) (treeStart treeEnd : Int) (n : Nat) (hB : 1 ≤ blockSize)
    (hd : 1 ≤ docCount) (h0 : 0 ≤ treeStart) (h1 : treeStart ≤ treeEnd) :
    ∃ calcer0 calcer, TLeafIndexCalcerOnPool.new blockSize calcLeafIndexes garbage docCount
        treeStart treeEnd = Except.ok calcer0 ∧
      calcer = TLeafIndexCalcerOnPool.afterNext blockSize calcLeafIndexes n calcer0 ∧
      calcer.DocCount = docCount ∧
      calcer.CanGet = decide (n < docCount) ∧
      (calcer.CanGet = true →
        calcer.CurrBatchStart ≤ calcer.CurrDocIndex ∧
        calcer.CurrDocIndex < calcer.CurrBatchStart + calcer.CurrBatchSize ∧
        calcer.CurrBatchStart + calcer.CurrBatchSize ≤ calcer.DocCount ∧
        calcer.CurrBatchSize ≤ min docCount blockSize ∧
        (∀ treeNum, treeNum < calcer.TreeEnd - calcer.TreeStart →
          calcer.CurrDocIndex - calcer.CurrBatchStart + treeNum * calcer.CurrBatchSize
            < calcer.CurrBatchSize * (calcer.TreeEnd - calcer.TreeStart)) ∧
        calcer.CurrBatchSize * (calcer.TreeEnd - calcer.TreeStart)
          ≤ calcer.CurrentBatchLeafIndexes.length ∧
        ∃ result, calcer.Get = some result ∧
          result.length = calcer.TreeEnd - calcer.TreeStart) ∧
      (TLeafIndexCalcerOnPool.Next blockSize calcLeafIndexes calcer).1
        = decide (n + 1 ≤ docCount - 1) := by
  obtain ⟨calcer0, hnew, hinv0, hidx0, hdoc0, _, _⟩ := TLeafIndexCalcerOnPool.invariant_new
    blockSize calcLeafIndexes garbage docCount treeStart treeEnd hB h0 (by omega)
  obtain ⟨hinv, hidx, hdoc, _, _⟩ := TLeafIndexCalcerOnPool.invariant_afterNext blockSize
    calcLeafIndexes calcer0 hB hinv0 n
  rw [hidx0, Nat.zero_add] at hidx
  rw [hdoc0] at hdoc
  refine ⟨calcer0, _, hnew, rfl, hdoc, ?_, ?_, ?_⟩
  · unfold TLeafIndexCalcerOnPool.CanGet
    rw [hidx, hdoc]
  · intro hcan
    unfold TLeafIndexCalcerOnPool.CanGet at hcan
    have hget := of_decide_eq_true hcan
    obtain ⟨hin1, hin2⟩ := TLeafIndexCalcerOnPool.Get_inside blockSize _ hinv hget
    have hinv2 := hinv
    obtain ⟨i1, i2, i3, _, i5⟩ := hinv2
    rw [hdoc] at i3
    refine ⟨i1, i5 hget, i2, i3, hin1, hin2, ?_⟩
    unfold TLeafIndexCalcerOnPool.Get
    exact foldlM_read_all _ _ _ (fun i hi => Nat.lt_of_lt_of_le (hin1 i hi) hin2)
  · rw [(TLeafIndexCalcerOnPool.invariant_Next blockSize calcLeafIndexes _ hB hinv).2.2.2.2.2,
      hidx, hdoc]
    apply decide_eq_decide.mpr
    omega

theorem C39_iteration_invariant_witness :
    ∃ calcer0 calcer, TLeafIndexCalcerOnPool.new 2 (fun start _ _ i => start + i)
        (fun _ => 0) 5 1 3 = Except.ok calcer0 ∧
      calcer = TLeafIndexCalcerOnPool.afterNext 2 (fun start _ _ i => start + i) 4 calcer0 ∧
      calcer.DocCount = 5 ∧
      calcer.CanGet = decide (4 < 5) ∧
      (calcer.CanGet = true →
        calcer.CurrBatchStart ≤ calcer.CurrDocIndex ∧
        calcer.CurrDocIndex < calcer.CurrBatchStart + calcer.CurrBatchSize ∧
        calcer.CurrBatchStart + calcer.CurrBatchSize ≤ calcer.DocCount ∧
        calcer.CurrBatchSize ≤ min 5 2 ∧
        (∀ treeNum, treeNum < calcer.TreeEnd - calcer.TreeStart →
          calcer.CurrDocIndex - calcer.CurrBatchStart + treeNum * calcer.CurrBatchSize
            < calcer.CurrBatchSize * (calcer.TreeEnd - calcer.TreeStart)) ∧
        calcer.CurrBatchSize * (calcer.TreeEnd - calcer.TreeStart)
          ≤ calcer.CurrentBatchLeafIndexes.length ∧
        ∃ result, calcer.Get = some result ∧
          result.length = calcer.TreeEnd - calcer.TreeStart) ∧
      (TLeafIndexCalcerOnPool.Next 2 (fun start _ _ i => start + i) calcer).1
        = decide (4 + 1 ≤ 5 - 1) :=
  C39_iteration_invariant 2 (fun start _ _ i => start + i) (fun _ => 0) 5 1 3 4 (by decide)
    (by decide) (by decide) (by decide)

theorem addSplitNodes_eq (treeIdx : Nat) (featureId : Int) (value : ℚ) (tracks : Nat)
    (nodeIdx endNodeIdx : Nat) (attrs : TTreesAttributes) :
    addSplitNodes treeIdx featureId value tracks nodeIdx endNodeIdx attrs
      = { attrs with
          Nodes := attrs.Nodes ++ (List.range' nodeIdx (endNodeIdx - nodeIdx)).map (fun i =>
            ⟨treeIdx, i, EOnnxNodeMode.BRANCH_GTE, featureId, value, 2 * i + 1, 2 * i + 2,
              tracks, 1⟩) } := by
  unfold addSplitNodes
  generalize List.range' nodeIdx (endNodeIdx - nodeIdx) = xs
  induction xs generalizing attrs with
  | nil => simp
  | cons x xs ih =>
    rw [List.foldl_cons, ih]
    simp

theorem two_pow_pos_nat (d : Nat) : 1 ≤ 2 ^ d := Nat.one_le_two_pow

theorem split_levels (trees : TObliviousTrees) (treeIdx D : Nat) (attrs : TTreesAttributes)
    (hsplit : ∀ k, k < D → (floatSplitOf trees treeIdx k).isSome = true) :
    ∀ d, d ≤ D →
      (List.range d).foldlM (addSplitLevel trees treeIdx D) (0, attrs)
        = some (2 ^ d - 1,
          { attrs with
            Nodes := attrs.Nodes ++ ((List.range d).map (levelNodes trees treeIdx D)).flatten })
      := by
  intro d
  induction d with
  | zero =>
    intro _
    simp
  | succ d ih =>
    intro hd
    rw [List.range_succ, List.foldlM_append, ih (by omega)]
    simp only [Option.bind_eq_bind, Option.some_bind, List.foldlM_cons, List.foldlM_nil,
      Option.pure_def]
    obtain ⟨sf, hsf⟩ := Option.isSome_iff_exists.mp (hsplit (D - 1 - d) (by omega))
    have hlevel : levelNodes trees treeIdx D d
        = (List.range' (2 ^ d - 1) (2 ^ d)).map (branchNodeOf treeIdx sf) := by
      unfold levelNodes
      rw [hsf]
    unfold floatSplitOf at hsf
    simp only [Option.bind_eq_bind, Option.pure_def] at hsf
    rw [Option.bind_eq_some] at hsf
    obtain ⟨off, hoff, hsf⟩ := hsf
    rw [Option.bind_eq_some] at hsf
    obtain ⟨si, hsi, hsf⟩ := hsf
    rw [Option.bind_eq_some] at hsf
    obtain ⟨split, hspl, hsf⟩ := hsf
    split at hsf
    · next hfloat =>
      rw [Option.bind_eq_some] at hsf
      obtain ⟨ff, hff, hsf⟩ := hsf
      rw [Option.some.injEq] at hsf
      unfold addSplitLevel
      simp only [Option.bind_eq_bind, Option.pure_def, hoff, Option.some_bind, hsi, hspl,
        if_pos hfloat, hff, Option.bind_some, addSplitNodes_eq]
      have hp := two_pow_pos_nat d
      have hpow : 2 ^ (d + 1) = 2 * 2 ^ d := by ring
      have h1 : 2 * (2 ^ d - 1) + 1 = 2 ^ (d + 1) - 1 := by omega
      have h2 : 2 * (2 ^ d - 1) + 1 - (2 ^ d - 1) = 2 ^ d := by omega
      rw [h1]
      rw [h1] at h2
      rw [h2, List.map_append, List.flatten_append, List.map_cons, List.map_nil,
        List.flatten_cons, List.flatten_nil, List.append_nil, hlevel, ← hsf,
        List.append_assoc]
      rfl
    · exact Option.noConfusion hsf

theorem inner_nodes_length (trees : TObliviousTrees) (treeIdx D : Nat)
    (hsplit : ∀ k, k < D → (floatSplitOf trees treeIdx k).isSome = true) :
    ∀ d, d ≤ D → ((List.range d).map (levelNodes trees treeIdx D)).flatten.length
      = 2 ^ d - 1 := by
  intro d
  induction d with
  | zero => intro _; rfl
  | succ d ih =>
    intro hd
    obtain ⟨sf, hsf⟩ := Option.isSome_iff_exists.mp (hsplit (D - 1 - d) (by omega))
    rw [List.range_succ, List.map_append, List.flatten_append, List.length_append,
      ih (by omega)]
    simp only [List.map_cons, List.map_nil, List.flatten_cons, List.flatten_nil,
      List.append_nil]
    unfold levelNodes
    rw [hsf]
    simp only [List.length_map, List.length_range']
    have hp := two_pow_pos_nat d
    have hpow : 2 ^ (d + 1) = 2 * 2 ^ d := by ring
    omega

theorem inner_nodes_get (trees : TObliviousTrees) (treeIdx D : Nat)
    (hsplit : ∀ k, k < D → (floatSplitOf trees treeIdx k).isSome = true) :
    ∀ d, d ≤ D → ∀ depth i (split : TModelSplit × TFloatFeature), depth < d →
      floatSplitOf trees treeIdx (D - 1 - depth) = some split →
      2 ^ depth - 1 ≤ i → i < 2 ^ (depth + 1) - 1 →
      ((List.range d).map (levelNodes trees treeIdx D)).flatten[i]?
        = some (branchNodeOf treeIdx split i) := by
  intro d
  induction d with
  | zero => intro _ depth _ _ h; omega
  | succ d ih =>
    intro hd depth i split hdepth hsf hlo hhi
    have hlen := inner_nodes_length trees treeIdx D hsplit d (by omega)
    have hp := two_pow_pos_nat d
    have hpow : 2 ^ (d + 1) = 2 * 2 ^ d := by ring
    rw [List.range_succ, List.map_append, List.flatten_append]
    by_cases hlt : depth < d
    · have hmono : 2 ^ (depth + 1) ≤ 2 ^ d := Nat.pow_le_pow_right (by omega) (by omega)
      rw [List.getElem?_append_left (by omega)]
      exact ih (by omega) depth i split hlt hsf hlo hhi
    · have heq : depth = d := by omega
      subst heq
      rw [List.getElem?_append_right (by omega), hlen]
      simp only [List.map_cons, List.map_nil, List.flatten_cons, List.flatten_nil,
        List.append_nil]
      unfold levelNodes
      rw [hsf]
      simp only [List.getElem?_map]
      rw [List.getElem?_range' _ _ (by omega)]
      simp only [Option.map_some', Nat.one_mul]
      congr 2
      omega

theorem toFloat_getD (trees : TObliviousTrees)
    (hfloat : ∀ value ∈ trees.LeafValues, (toFloat value).isSome = true) (i : Nat)
    (hi : i < trees.LeafValues.length) :
    (trees.LeafValues[i]?).bind toFloat
      = some ((toFloat (trees.LeafValues.getD i 0)).getD 0) := by
  rw [List.getD_eq_getElem?_getD, List.getElem?_eq_getElem hi]
  obtain ⟨weight, hweight⟩ := Option.isSome_iff_exists.mp
    (hfloat trees.LeafValues[i] (List.getElem_mem hi))
  simp only [Option.some_bind, Option.getD_some, hweight]

theorem class_weights_loop (trees : TObliviousTrees) (treeIdx nodeIdx leafValue : Nat)
    (attrs : TTreesAttributes)
    (hfloat : ∀ value ∈ trees.LeafValues, (toFloat value).isSome = true) :
    ∀ k, leafValue + k ≤ trees.LeafValues.length →
      (List.range k).foldlM
          (fun (acc : Nat × TTreesAttributes) approxIdx => do
            let value ← trees.LeafValues[acc.1]?
            let weight ← toFloat value
            pure (acc.1 + 1,
              { acc.2 with
                Classes := acc.2.Classes ++ [⟨treeIdx, nodeIdx, approxIdx, weight⟩] }))
          (leafValue, attrs)
        = some (leafValue + k,
          { attrs with
            Classes := attrs.Classes ++ (List.range k).map (fun a =>
              ⟨treeIdx, nodeIdx, a,
                (toFloat (trees.LeafValues.getD (leafValue + a) 0)).getD 0⟩) }) := by
  intro k
  induction k with
  | zero => intro _; simp
  | succ k ih =>
    intro h
    have hread := toFloat_getD trees hfloat (leafValue + k) (by omega)
    rw [List.range_succ, List.foldlM_append, ih (by omega)]
    simp only [Option.bind_eq_bind, Option.some_bind, List.foldlM_cons, List.foldlM_nil,
      Option.pure_def, List.map_append, List.map_cons, List.map_nil,
      List.append_assoc] at hread ⊢
    rw [← Option.bind_assoc, hread]
    rfl

theorem addLeafWeights_eq (trees : TObliviousTrees) (treeIdx : Nat) (isClassifierModel : Bool)
    (nodeIdx leafValue : Nat) (attrs : TTreesAttributes)
    (hdim : isClassifierModel = false → trees.ApproxDimension = 1)
    (hfloat : ∀ value ∈ trees.LeafValues, (toFloat value).isSome = true)
    (hlen : leafValue + valuesPerLeaf trees isClassifierModel ≤ trees.LeafValues.length) :
    addLeafWeights trees treeIdx isClassifierModel nodeIdx leafValue attrs
      = some (leafValue + valuesPerLeaf trees isClassifierModel,
        appendWeights isClassifierModel attrs
          (leafWeightsOf trees treeIdx isClassifierModel leafValue nodeIdx 0)) := by
  unfold addLeafWeights leafWeightsOf appendWeights
  cases isClassifierModel with
  | true =>
    simp only [if_true]
    by_cases hd : trees.ApproxDimension > 1
    · have hv : valuesPerLeaf trees true = trees.ApproxDimension := by
        simp [valuesPerLeaf, hd]
      rw [hv] at hlen ⊢
      rw [if_pos hd, class_weights_loop trees treeIdx nodeIdx leafValue attrs hfloat _ hlen]
      simp [hd]
    · have hv : valuesPerLeaf trees true = 1 := by
        simp [valuesPerLeaf, hd]
      rw [hv] at hlen ⊢
      have hread := toFloat_getD trees hfloat leafValue (by omega)
      rw [if_neg hd]
      simp only [Option.bind_eq_bind, Option.pure_def] at hread ⊢
      rw [← Option.bind_assoc, hread]
      simp [hd, List.range_succ]
  | false =>
    have hv : valuesPerLeaf trees false = 1 := by
      simp [valuesPerLeaf]
    rw [hv] at hlen ⊢
    simp only [Bool.false_eq_true, if_false, if_pos (hdim rfl)]
    have hread := toFloat_getD trees hfloat leafValue (by omega)
    simp only [Option.bind_eq_bind, Option.pure_def] at hread ⊢
    rw [← Option.bind_assoc, hread]
    simp [List.range_succ]

theorem leafWeightsOf_shift (trees : TObliviousTrees) (treeIdx : Nat)
    (isClassifierModel : Bool) (leafValue nodeIdx leaf : Nat) :
    leafWeightsOf trees treeIdx isClassifierModel
        (leafValue + valuesPerLeaf trees isClassifierModel) nodeIdx leaf
      = leafWeightsOf trees treeIdx isClassifierModel leafValue nodeIdx (leaf + 1) := by
  unfold leafWeightsOf
  apply List.map_congr_left
  intro a _
  have : leafValue + valuesPerLeaf trees isClassifierModel
        + leaf * valuesPerLeaf trees isClassifierModel + a
      = leafValue + (leaf + 1) * valuesPerLeaf trees isClassifierModel + a := by ring
  rw [this]

theorem appendWeights_nodes (isClassifierModel : Bool) (attrs : TTreesAttributes)
    (weights : List TOnnxWeight) (nodes : List TOnnxNode) :
    { appendWeights isClassifierModel attrs weights with
        Nodes := (appendWeights isClassifierModel attrs weights).Nodes ++ nodes }
      = appendWeights isClassifierModel { attrs with Nodes := attrs.Nodes ++ nodes }
          weights := by
  unfold appendWeights
  cases isClassifierModel <;> rfl

theorem appendWeights_append (isClassifierModel : Bool) (attrs : TTreesAttributes)
    (w1 w2 : List TOnnxWeight) :
    appendWeights isClassifierModel (appendWeights isClassifierModel attrs w1) w2
      = appendWeights isClassifierModel attrs (w1 ++ w2) := by
  unfold appendWeights
  cases isClassifierModel <;> simp

theorem leaf_loop (trees : TObliviousTrees) (treeIdx : Nat) (isClassifierModel : Bool)
    (hdim : isClassifierModel = false → trees.ApproxDimension = 1)
    (hfloat : ∀ value ∈ trees.LeafValues, (toFloat value).isSome = true) :
    ∀ (m n leafValue : Nat) (attrs : TTreesAttributes),
      leafValue + m * valuesPerLeaf trees isClassifierModel ≤ trees.LeafValues.length →
      (List.range' n m).foldlM (addLeafNode trees treeIdx isClassifierModel)
          (leafValue, attrs)
        = some (leafValue + m * valuesPerLeaf trees isClassifierModel,
          appendWeights isClassifierModel
            { attrs with Nodes := attrs.Nodes ++ (List.range' n m).map (leafNodeOf treeIdx) }
            ((List.range m).map (fun t =>
              leafWeightsOf trees treeIdx isClassifierModel leafValue (n + t) t)).flatten) := by
  intro m
  induction m with
  | zero =>
    intro n leafValue attrs _
    simp only [List.range'_zero, List.foldlM_nil, Option.pure_def, Nat.zero_mul, Nat.add_zero,
      List.map_nil, List.append_nil, List.range_zero, List.flatten_nil]
    unfold appendWeights
    cases isClassifierModel <;> simp
  | succ m ih =>
    intro n leafValue attrs hlen
    have hexp : (m + 1) * valuesPerLeaf trees isClassifierModel
        = m * valuesPerLeaf trees isClassifierModel + valuesPerLeaf trees isClassifierModel := by
      ring
    have hw : leafWeightsOf trees treeIdx isClassifierModel leafValue n 0
          ++ ((List.range m).map (fun t =>
            leafWeightsOf trees treeIdx isClassifierModel
              (leafValue + valuesPerLeaf trees isClassifierModel) (n + 1 + t) t)).flatten
        = ((List.range (m + 1)).map (fun t =>
            leafWeightsOf trees treeIdx isClassifierModel leafValue (n + t) t)).flatten := by
      rw [List.range_succ_eq_map, List.map_cons, List.flatten_cons, List.map_map]
      congr 2
      apply List.map_congr_left
      intro t _
      simp only [Function.comp_apply]
      rw [leafWeightsOf_shift]
      congr 1
      omega
    have hptr : leafValue + valuesPerLeaf trees isClassifierModel
          + m * valuesPerLeaf trees isClassifierModel
        = leafValue + (m + 1) * valuesPerLeaf trees isClassifierModel := by omega
    have hih := ih (n + 1) (leafValue + valuesPerLeaf trees isClassifierModel)
      (appendWeights isClassifierModel
        { attrs with Nodes := attrs.Nodes ++ [leafNodeOf treeIdx n] }
        (leafWeightsOf trees treeIdx isClassifierModel leafValue n 0)) (by omega)
    rw [List.range'_succ, List.foldlM_cons]
    have hstep : addLeafNode trees treeIdx isClassifierModel (leafValue, attrs) n
        = some (leafValue + valuesPerLeaf trees isClassifierModel,
          appendWeights isClassifierModel
            { attrs with Nodes := attrs.Nodes ++ [leafNodeOf treeIdx n] }
            (leafWeightsOf trees treeIdx isClassifierModel leafValue n 0)) := by
      unfold addLeafNode
      exact addLeafWeights_eq trees treeIdx isClassifierModel n leafValue _ hdim hfloat
        (by omega)
    rw [hstep]
    simp only [Option.bind_eq_bind, Option.some_bind]
    rw [hih, ← hw, hptr]
    unfold appendWeights
    cases isClassifierModel <;> simp

theorem inner_nodes_ids (trees : TObliviousTrees) (treeIdx D : Nat)
    (hsplit : ∀ k, k < D → (floatSplitOf trees treeIdx k).isSome = true) :
    ∀ d, d ≤ D →
      (((List.range d).map (levelNodes trees treeIdx D)).flatten).map (fun node => node.NodeId)
        = List.range (2 ^ d - 1) := by
  intro d
  induction d with
  | zero => intro _; rfl
  | succ d ih =>
    intro hd
    obtain ⟨sf, hsf⟩ := Option.isSome_iff_exists.mp (hsplit (D - 1 - d) (by omega))
    have hp := two_pow_pos_nat d
    have hpow : 2 ^ (d + 1) = 2 * 2 ^ d := by ring
    rw [List.range_succ, List.map_append, List.flatten_append, List.map_append, ih (by omega)]
    simp only [List.map_cons, List.map_nil, List.flatten_cons, List.flatten_nil,
      List.append_nil]
    unfold levelNodes
    rw [hsf, List.map_map]
    have hid : (List.range' (2 ^ d - 1) (2 ^ d)).map
        ((fun node => node.NodeId) ∘ branchNodeOf treeIdx sf)
        = List.range' (2 ^ d - 1) (2 ^ d) := by
      conv_rhs => rw [← List.map_id (List.range' (2 ^ d - 1) (2 ^ d))]
      apply List.map_congr_left
      intro i _
      rfl
    rw [hid, List.range_eq_range', List.range_eq_range']
    have h := List.range'_append 0 (2 ^ d - 1) (2 ^ d) 1
    simp only [Nat.zero_add, Nat.one_mul] at h
    rw [h]
    congr 1
    omega

theorem leafIndexOf_succ (outcome : Nat → Bool) (r : Nat) :
    leafIndexOf outcome (r + 1) = leafIndexOf outcome r + if outcome r then 2 ^ r else 0 := by
  unfold leafIndexOf
  rw [List.range_succ, List.map_append, List.sum_append]
  simp

theorem leafIndexOf_lt (outcome : Nat → Bool) (D : Nat) : leafIndexOf outcome D < 2 ^ D := by
  induction D with
  | zero => simp [leafIndexOf]
  | succ D ih =>
    rw [leafIndexOf_succ]
    have hpow : 2 ^ (D + 1) = 2 * 2 ^ D := by ring
    split <;> omega

theorem followChildren_spec (nodes : List TOnnxNode) (outcome : Nat → Bool) (D : Nat)
    (hnodes : ∀ depth i, depth < D → 2 ^ depth - 1 ≤ i → i < 2 ^ (depth + 1) - 1 →
      ∃ node, nodes[i]? = some node ∧ node.FalseNodeId = 2 * i + 1
        ∧ node.TrueNodeId = 2 * i + 2) :
    ∀ r, r ≤ D → ∀ p, p < 2 ^ (D - r) →
      followChildren nodes outcome r (2 ^ (D - r) - 1 + p)
        = some (2 ^ D - 1 + (p * 2 ^ r + leafIndexOf outcome r)) := by
  intro r
  induction r with
  | zero =>
    intro _ p _
    unfold followChildren
    simp [leafIndexOf]
  | succ r ih =>
    intro hr p hp
    have hpos := two_pow_pos_nat (D - (r + 1))
    have hpow : 2 ^ (D - r) = 2 * 2 ^ (D - (r + 1)) := by
      have : D - r = (D - (r + 1)) + 1 := by omega
      rw [this]
      ring
    obtain ⟨node, hnode, hfalse, htrue⟩ := hnodes (D - (r + 1)) (2 ^ (D - (r + 1)) - 1 + p)
      (by omega) (by omega) (by
        have : D - (r + 1) + 1 = D - r := by omega
        rw [this]
        omega)
    unfold followChildren
    simp only [hnode, Option.bind_eq_bind, Option.some_bind, hfalse, htrue]
    have hnext : (if outcome r = true then 2 * (2 ^ (D - (r + 1)) - 1 + p) + 2
          else 2 * (2 ^ (D - (r + 1)) - 1 + p) + 1)
        = 2 ^ (D - r) - 1 + (2 * p + if outcome r = true then 1 else 0) := by
      split <;> omega
    rw [hnext, ih (by omega) _ (by split <;> omega), leafIndexOf_succ]
    congr 2
    have h2 : 2 ^ (r + 1) = 2 * 2 ^ r := by ring
    rw [h2]
    split
    · ring
    · ring

/-- C40: ONNX export of an oblivious tree of depth `D` (all its splits float splits, the
leaf values inside `LeafValues` and inside the range of `float`, one dimension for a
regression model).  `AddTree` returns
and appends to the `nodes_` attributes exactly `2^(D+1) - 1` nodes, whose ids are `0, 1,
..., 2^(D+1) - 2` in this order.  Every node `i` of depth `depth < D` (`2^depth - 1 <= i <
2^(depth+1) - 1`) is a `BRANCH_GTE` node that tests the split `TreeSplits[offset + D - 1 -
depth]` (flat feature index, border and missing-value flag of that split) and has the
false child `2i + 1` and the true child `2i + 2`, both among the emitted nodes; the nodes
`2^D - 1 + j`, `j < 2^D`, are `LEAF` nodes.  Following the children from node 0 according
to the outcomes `b_0 .. b_(D-1)` (`b_k` the outcome of split `offset + k`) ends at the leaf
node `2^D - 1 + sum_k b_k * 2^k`; and the weights appended are, leaf after leaf, those of
the leaf nodes `2^D - 1 + leaf` with the leaf values of the leaf `leaf` of CatBoost, each
converted to `float` (the cast `(float)*leafValue` of the export). -/
theorem C40_onnx_tree (trees : TObliviousTrees) (treeIdx : Nat) (isClassifierModel : Bool)
    (attrs : TTreesAttributes) (D firstLeafOffset : Nat)
    (hsize : trees.TreeSizes[treeIdx]? = some D)
    (hsplit : ∀ k, k < D → (floatSplitOf trees treeIdx k).isSome = true)
    (hfirst : trees.FirstLeafOffsets[treeIdx]? = some firstLeafOffset)
    (hdim : isClassifierModel = false → trees.ApproxDimension = 1)
    (hlen : firstLeafOffset + 2 ^ D * valuesPerLeaf trees isClassifierModel
      ≤ trees.LeafValues.length)
    (hfloat : ∀ value ∈ trees.LeafValues, (toFloat value).isSome = true) :
    ∃ out newNodes, AddTree trees treeIdx isClassifierModel attrs = some out ∧
      out.Nodes = attrs.Nodes ++ newNodes ∧
      newNodes.length = 2 ^ (D + 1) - 1 ∧
      newNodes.map (fun node => node.NodeId) = List.range (2 ^ (D + 1) - 1) ∧
      (∀ depth i (split : TModelSplit × TFloatFeature), depth < D →
        floatSplitOf trees treeIdx (D - 1 - depth) = some split →
        2 ^ depth - 1 ≤ i → i < 2 ^ (depth + 1) - 1 →
        newNodes[i]? = some (branchNodeOf treeIdx split i) ∧ 2 * i + 2 < 2 ^ (D + 1) - 1) ∧
      (∀ j, j < 2 ^ D → newNodes[2 ^ D - 1 + j]? = some (leafNodeOf treeIdx (2 ^ D - 1 + j))) ∧
      (∀ outcome : Nat → Bool,
        followChildren newNodes outcome D 0 = some (2 ^ D - 1 + leafIndexOf outcome D) ∧
        leafIndexOf outcome D < 2 ^ D) ∧
      out = appendWeights isClassifierModel { attrs with Nodes := attrs.Nodes ++ newNodes }
        ((List.range (2 ^ D)).map (fun leaf =>
          leafWeightsOf trees treeIdx isClassifierModel firstLeafOffset (2 ^ D - 1 + leaf)
            leaf)).flatten := by
  have hp := two_pow_pos_nat D
  have hpow : 2 ^ (D + 1) = 2 * 2 ^ D := by ring
  have hinner := split_levels trees treeIdx D attrs hsplit D (Nat.le_refl _)
  have hcount : 2 * (2 ^ D - 1) + 1 - (2 ^ D - 1) = 2 ^ D := by omega
  have hleaves := leaf_loop trees treeIdx isClassifierModel hdim hfloat (2 ^ D) (2 ^ D - 1)
    firstLeafOffset
    { attrs with
      Nodes := attrs.Nodes ++ ((List.range D).map (levelNodes trees treeIdx D)).flatten } hlen
  have hilen := inner_nodes_length trees treeIdx D hsplit D (Nat.le_refl _)
  have hget : ∀ depth i (split : TModelSplit × TFloatFeature), depth < D →
      floatSplitOf trees treeIdx (D - 1 - depth) = some split →
      2 ^ depth - 1 ≤ i → i < 2 ^ (depth + 1) - 1 →
      (((List.range D).map (levelNodes trees treeIdx D)).flatten
        ++ (List.range' (2 ^ D - 1) (2 ^ D)).map (leafNodeOf treeIdx))[i]?
          = some (branchNodeOf treeIdx split i) ∧ 2 * i + 2 < 2 ^ (D + 1) - 1 := by
    intro depth i split hdepth hsf hlo hhi
    have hmono : 2 ^ (depth + 1) ≤ 2 ^ D := Nat.pow_le_pow_right (by omega) (by omega)
    refine ⟨?_, by omega⟩
    rw [List.getElem?_append_left (by omega)]
    exact inner_nodes_get trees treeIdx D hsplit D (Nat.le_refl _) depth i split hdepth hsf
      hlo hhi
  refine ⟨appendWeights isClassifierModel
      { attrs with
        Nodes := attrs.Nodes ++ (((List.range D).map (levelNodes trees treeIdx D)).flatten
          ++ (List.range' (2 ^ D - 1) (2 ^ D)).map (leafNodeOf treeIdx)) }
      ((List.range (2 ^ D)).map (fun leaf =>
        leafWeightsOf trees treeIdx isClassifierModel firstLeafOffset (2 ^ D - 1 + leaf)
          leaf)).flatten,
    ((List.range D).map (levelNodes trees treeIdx D)).flatten
      ++ (List.range' (2 ^ D - 1) (2 ^ D)).map (leafNodeOf treeIdx), ?_, ?_, ?_, ?_, hget, ?_,
    ?_, rfl⟩
  · unfold AddTree
    simp only [hsize, Option.bind_eq_bind, Option.some_bind, hinner, hfirst, hcount, hleaves,
      Option.pure_def, List.append_assoc]
  · unfold appendWeights
    cases isClassifierModel <;> rfl
  · rw [List.length_append, hilen, List.length_map, List.length_range']
    omega
  · rw [List.map_append, inner_nodes_ids trees treeIdx D hsplit D (Nat.le_refl _),
      List.map_map]
    have hid : (List.range' (2 ^ D - 1) (2 ^ D)).map
        ((fun node => node.NodeId) ∘ leafNodeOf treeIdx)
        = List.range' (2 ^ D - 1) (2 ^ D) := by
      conv_rhs => rw [← List.map_id (List.range' (2 ^ D - 1) (2 ^ D))]
      apply List.map_congr_left
      intro i _
      rfl
    rw [hid, List.range_eq_range', List.range_eq_range']
    have h := List.range'_append 0 (2 ^ D - 1) (2 ^ D) 1
    simp only [Nat.zero_add, Nat.one_mul] at h
    rw [h]
    congr 1
    omega
  · intro j hj
    rw [List.getElem?_append_right (by omega), hilen, Nat.add_sub_cancel_left,
      List.getElem?_map, List.getElem?_range' _ _ hj]
    simp
  · intro outcome
    refine ⟨?_, leafIndexOf_lt outcome D⟩
    have h := followChildren_spec
      (((List.range D).map (levelNodes trees treeIdx D)).flatten
        ++ (List.range' (2 ^ D - 1) (2 ^ D)).map (leafNodeOf treeIdx)) outcome D
      (by
        intro depth i hdepth hlo hhi
        obtain ⟨sf, hsf⟩ := Option.isSome_iff_exists.mp (hsplit (D - 1 - depth) (by omega))
        exact ⟨_, (hget depth i sf hdepth hsf hlo hhi).1, rfl, rfl⟩)
      D (Nat.le_refl _) 0 (by simp)
    simpa using h

theorem C40_onnx_tree_witness :
    ∃ out, AddTree exampleTrees 0 false ⟨[], [], []⟩ = some out ∧
      out.Nodes.map (fun node => node.NodeId) = List.range (2 ^ (2 + 1) - 1) ∧
      (∀ outcome : Nat → Bool,
        followChildren out.Nodes outcome 2 0 = some (2 ^ 2 - 1 + leafIndexOf outcome 2)) ∧
      out.Targets = [⟨0, 3, 0, 10⟩, ⟨0, 4, 0, 11⟩, ⟨0, 5, 0, 12⟩, ⟨0, 6, 0, 13⟩] := by
  obtain ⟨out, newNodes, h1, h2, _, h4, _, _, h7, h8⟩ := C40_onnx_tree exampleTrees 0 false
    ⟨[], [], []⟩ 2 0 (by decide) (by decide) (by decide) (by decide) (by decide)
    (by with_unfolding_all decide)
  rw [List.nil_append] at h2
  refine ⟨out, h1, by rw [h2]; exact h4, fun outcome => by rw [h2]; exact (h7 outcome).1, ?_⟩
  rw [h8]
  show [] ++ ((List.range (2 ^ 2)).map (fun leaf =>
    leafWeightsOf exampleTrees 0 false 0 (2 ^ 2 - 1 + leaf) leaf)).flatten = _
  with_unfolding_all decide

/-- C40, counterexample.  The leaf 0 of the tree has the value `0.1` (the `double` nearest
to it, `3602879701896397 / 2^55`); the leaf node 3 of the export, which is the node of
leaf 0, carries the weight `(float)0.1 = 13421773 / 2^27 = 0.100000001490116...`, which is
not the leaf value.  The other three leaf values are `float` values and are carried
unchanged. -/
theorem C40_leaf_weight_is_not_the_leaf_value :
    exampleDoubleTrees.LeafValues = [3602879701896397 / 2 ^ 55, 11, 12, 13] ∧
    toDouble (1 / 10) = some (3602879701896397 / 2 ^ 55) ∧
    toFloat (3602879701896397 / 2 ^ 55) = some (13421773 / 2 ^ 27) ∧
    (AddTree exampleDoubleTrees 0 false ⟨[], [], []⟩).map (fun out => out.Targets)
      = some [⟨0, 3, 0, 13421773 / 2 ^ 27⟩, ⟨0, 4, 0, 11⟩, ⟨0, 5, 0, 12⟩, ⟨0, 6, 0, 13⟩] ∧
    (13421773 / 2 ^ 27 : ℚ) ≠ 3602879701896397 / 2 ^ 55 := by
  decide!

theorem dims_assign (src : List ℚ) (coefficient : ℚ) (n : Nat) (hsrc : n ≤ src.length) :
    ∀ k, k ≤ n →
      ∃ v, (List.range k).foldlM (fun (back : List ℚ) dimension => do
          let internal ← src[dimension]?
          let value := internal / coefficient
          if dimension < back.length then pure (back.set dimension value) else none)
          (List.replicate n 0) = some v ∧
        v.length = n ∧
        ∀ d, v.getD d 0 = if d < k then src.getD d 0 / coefficient else 0 := by
  intro k
  induction k with
  | zero =>
    intro _
    refine ⟨List.replicate n 0, rfl, by simp, fun d => ?_⟩
    rw [if_neg (by omega), List.getD_eq_getElem?_getD, List.getElem?_replicate]
    split <;> rfl
  | succ k ih =>
    intro hk
    obtain ⟨v, hv, hlen, hget⟩ := ih (by omega)
    refine ⟨v.set k (src.getD k 0 / coefficient), ?_, by rw [List.length_set]; exact hlen,
      fun d => ?_⟩
    · rw [List.range_succ, List.foldlM_append, hv]
      simp only [Option.bind_eq_bind, Option.some_bind, List.foldlM_cons, List.foldlM_nil,
        Option.pure_def, List.getElem?_eq_getElem (show k < src.length by omega),
        if_pos (show k < v.length by omega), Option.bind_some, List.getD_eq_getElem?_getD,
        Option.getD_some]
    · rw [getD_set_rat v k d _ (by omega), hget d]
      by_cases hd : d = k
      · subst hd
        rw [if_pos rfl, if_pos (by omega)]
      · rw [if_neg hd]
        by_cases hlt : d < k
        · rw [if_pos hlt, if_pos (by omega)]
        · rw [if_neg hlt, if_neg (by omega)]

theorem dims_add (src same : List ℚ) (coefficient : ℚ) (n : Nat) (hsrc : n ≤ src.length)
    (hsame : n ≤ same.length) :
    ∀ k, k ≤ n →
      ∃ v, (List.range k).foldlM (fun (same : List ℚ) dimension => do
          let internal ← src[dimension]?
          let addValue := internal / coefficient
          let old ← same[dimension]?
          pure (same.set dimension (old + addValue))) same = some v ∧
        v.length = same.length ∧
        ∀ d, v.getD d 0
          = if d < k then same.getD d 0 + src.getD d 0 / coefficient else same.getD d 0 := by
  intro k
  induction k with
  | zero =>
    intro _
    exact ⟨same, rfl, rfl, fun d => by rw [if_neg (by omega)]⟩
  | succ k ih =>
    intro hk
    obtain ⟨v, hv, hlen, hget⟩ := ih (by omega)
    refine ⟨v.set k (v.getD k 0 + src.getD k 0 / coefficient), ?_,
      by rw [List.length_set]; exact hlen, fun d => ?_⟩
    · rw [List.range_succ, List.foldlM_append, hv]
      simp only [Option.bind_eq_bind, Option.some_bind, List.foldlM_cons, List.foldlM_nil,
        Option.pure_def, List.getElem?_eq_getElem (show k < src.length by omega),
        List.getElem?_eq_getElem (show k < v.length by omega), Option.bind_some,
        List.getD_eq_getElem?_getD, Option.getD_some]
    · rw [getD_set_rat v k d _ (by omega), hget d]
      by_cases hd : d = k
      · subst hd
        rw [if_pos rfl, if_pos (by omega), hget d, if_neg (by omega)]
      · rw [if_neg hd]
        by_cases hlt : d < k
        · rw [if_pos hlt, if_pos (by omega)]
        · rw [if_neg hlt, if_neg (by omega)]

theorem dimensionSum_append (l1 l2 : List TShapValue) (dimension : Nat) :
    dimensionSum (l1 ++ l2) dimension = dimensionSum l1 dimension + dimensionSum l2 dimension := by
  unfold dimensionSum
  rw [List.map_append, List.sum_append]

theorem dimensionSum_set (dimension : Nat) (new : TShapValue) :
    ∀ (l : List TShapValue) (position : Nat) (old : TShapValue), l[position]? = some old →
      dimensionSum (l.set position new) dimension
        = dimensionSum l dimension - old.Value.getD dimension 0
          + new.Value.getD dimension 0 := by
  intro l
  induction l with
  | nil => intro position old h; simp at h
  | cons x xs ih =>
    intro position old h
    cases position with
    | zero =>
      simp only [List.getElem?_cons_zero, Option.some.injEq] at h
      subst h
      simp only [List.set_cons_zero, dimensionSum, List.map_cons, List.sum_cons]
      ring
    | succ position =>
      simp only [List.getElem?_cons_succ] at h
      have := ih position old h
      simp only [List.set_cons_succ, dimensionSum, List.map_cons, List.sum_cons] at this ⊢
      rw [this]
      ring

theorem unpackFlatFeature_spec (n : Nat) (internal : TShapValue) (coefficient : ℚ)
    (shapValues : List TShapValue) (flatFeatureIdx : Int)
    (hinv : Unpacked n shapValues) (hsrc : n ≤ internal.Value.length) :
    ∃ out, unpackFlatFeature n internal coefficient shapValues flatFeatureIdx = some out ∧
      Unpacked n out ∧
      ∀ dimension, dimension < n →
        dimensionSum out dimension
          = dimensionSum shapValues dimension
            + internal.Value.getD dimension 0 / coefficient := by
  obtain ⟨hnd, hlen⟩ := hinv
  unfold unpackFlatFeature
  cases hfind : shapValues.findIdx? (fun shapValue => shapValue.Feature == flatFeatureIdx) with
  | none =>
    rw [List.findIdx?_eq_none_iff] at hfind
    obtain ⟨v, hv, hvl, hvget⟩ := dims_assign internal.Value coefficient n hsrc n (Nat.le_refl _)
    refine ⟨shapValues ++ [⟨flatFeatureIdx, v⟩], ?_, ⟨?_, ?_⟩, ?_⟩
    · simp only [Option.bind_eq_bind, Option.pure_def] at hv ⊢
      rw [hv]
      rfl
    · rw [List.map_append, List.map_cons, List.map_nil]
      apply List.Nodup.append hnd (List.nodup_singleton _)
      intro f hf1 hf2
      rw [List.mem_singleton] at hf2
      rw [List.mem_map] at hf1
      obtain ⟨sv, hsv, rfl⟩ := hf1
      have := hfind sv hsv
      simp only [beq_eq_false_iff_ne, ne_eq] at this
      exact this hf2
    · intro sv hsv
      rcases List.mem_append.mp hsv with h | h
      · exact hlen sv h
      · rw [List.mem_singleton] at h
        rw [h]
        exact hvl
    · intro dimension hd
      rw [dimensionSum_append]
      congr 1
      simp only [dimensionSum, List.map_cons, List.map_nil, List.sum_cons, List.sum_nil,
        add_zero]
      rw [hvget dimension, if_pos hd]
  | some position =>
    rw [List.findIdx?_eq_some_iff_getElem] at hfind
    obtain ⟨hpos, hp, _⟩ := hfind
    have hold : shapValues[position]? = some shapValues[position] :=
      List.getElem?_eq_getElem hpos
    have hfeat : shapValues[position].Feature = flatFeatureIdx := by simpa using hp
    have hsl : shapValues[position].Value.length = n :=
      hlen _ (List.getElem_mem hpos)
    obtain ⟨v, hv, hvl, hvget⟩ := dims_add internal.Value shapValues[position].Value
      coefficient n hsrc (by omega) n (Nat.le_refl _)
    refine ⟨shapValues.set position { shapValues[position] with Value := v }, ?_, ⟨?_, ?_⟩, ?_⟩
    · simp only [Option.bind_eq_bind, Option.pure_def] at hv ⊢
      rw [hold, Option.some_bind, hv]
      rfl
    · have hmap : (shapValues.set position { shapValues[position] with Value := v }).map
          (fun shapValue => shapValue.Feature)
          = shapValues.map (fun shapValue => shapValue.Feature) := by
        apply List.ext_getElem?
        intro i
        rw [List.getElem?_map, List.getElem?_map, List.getElem?_set]
        by_cases hi : position = i
        · subst hi
          rw [if_pos rfl, if_pos hpos, hold]
          rfl
        · rw [if_neg hi]
      rw [hmap]
      exact hnd
    · intro sv hsv
      rcases List.mem_or_eq_of_mem_set hsv with h | h
      · exact hlen sv h
      · rw [h]
        show v.length = n
        rw [hvl, hsl]
    · intro dimension hd
      rw [dimensionSum_set dimension _ shapValues position _ hold]
      show dimensionSum shapValues dimension - shapValues[position].Value.getD dimension 0
        + v.getD dimension 0 = _
      rw [hvget dimension, if_pos hd]
      ring

theorem unpack_class (n : Nat) (internal : TShapValue) (coefficient : ℚ)
    (hsrc : n ≤ internal.Value.length) :
    ∀ (flatFeatures : List Int) (shapValues : List TShapValue), Unpacked n shapValues →
      ∃ out, flatFeatures.foldlM (unpackFlatFeature n internal coefficient) shapValues
          = some out ∧
        Unpacked n out ∧
        ∀ dimension, dimension < n →
          dimensionSum out dimension
            = dimensionSum shapValues dimension
              + flatFeatures.length * (internal.Value.getD dimension 0 / coefficient) := by
  intro flatFeatures
  induction flatFeatures with
  | nil =>
    intro shapValues hinv
    exact ⟨shapValues, rfl, hinv, fun d _ => by simp⟩
  | cons flat rest ih =>
    intro shapValues hinv
    obtain ⟨mid, hmid, hinv2, hsum2⟩ := unpackFlatFeature_spec n internal coefficient
      shapValues flat hinv hsrc
    obtain ⟨out, hout, hinv3, hsum3⟩ := ih mid hinv2
    refine ⟨out, ?_, hinv3, fun d hd => ?_⟩
    · rw [List.foldlM_cons, hmid]
      exact hout
    · rw [hsum3 d hd, hsum2 d hd, List.length_cons]
      push_cast
      ring

theorem unpack_all (n : Nat) (combinationClassFeatures : List (List Int)) :
    ∀ (internals shapValues : List TShapValue), Unpacked n shapValues →
      (∀ internal ∈ internals, n ≤ internal.Value.length ∧ 0 ≤ internal.Feature ∧
        ∃ flatFeatures, combinationClassFeatures[internal.Feature.toNat]? = some flatFeatures
          ∧ flatFeatures ≠ []) →
      ∃ out, internals.foldlM (fun shapValues shapValueInternal => do
            let flatFeatures ←
              (if 0 ≤ shapValueInternal.Feature then
                combinationClassFeatures[shapValueInternal.Feature.toNat]?
              else none)
            let coefficient : ℚ := flatFeatures.length
            flatFeatures.foldlM
              (unpackFlatFeature n shapValueInternal coefficient) shapValues) shapValues
          = some out ∧
        Unpacked n out ∧
        ∀ dimension, dimension < n →
          dimensionSum out dimension
            = dimensionSum shapValues dimension + dimensionSum internals dimension := by
  intro internals
  induction internals with
  | nil =>
    intro shapValues hinv _
    exact ⟨shapValues, rfl, hinv, fun d _ => by simp [dimensionSum]⟩
  | cons internal rest ih =>
    intro shapValues hinv hall
    obtain ⟨hsrc, hfeat, flatFeatures, hflat, hne⟩ := hall internal (List.mem_cons_self _ _)
    obtain ⟨mid, hmid, hinv2, hsum2⟩ := unpack_class n internal (flatFeatures.length : ℚ) hsrc
      flatFeatures shapValues hinv
    obtain ⟨out, hout, hinv3, hsum3⟩ := ih mid hinv2
      (fun x hx => hall x (List.mem_cons_of_mem _ hx))
    refine ⟨out, ?_, hinv3, fun d hd => ?_⟩
    · rw [List.foldlM_cons]
      simp only [if_pos hfeat, hflat, Option.bind_eq_bind, Option.some_bind, hmid]
      exact hout
    · have hpos : (flatFeatures.length : ℚ) ≠ 0 := by
        have : flatFeatures.length ≠ 0 := by
          intro h
          exact hne (List.length_eq_zero.mp h)
        exact_mod_cast this
      rw [hsum3 d hd, hsum2 d hd]
      simp only [dimensionSum, List.map_cons, List.sum_cons]
      field_simp
      ring

/-- C38: `UnpackInternalShaps` preserves the total attribution.  When every internal value
names a combination class of `combinationClassFeatures` that lists at least one flat
feature and has at least `approxDimension` dimensions (the dimensions of the first one),
the function returns; every flat feature index appears at most once in the output; and for
every dimension below `approxDimension` the sum of `Value[dimension]` over the output
equals the sum of `Value[dimension]` over the internal values (exact arithmetic). -/
theorem C38_unpack_preserves_total (shapValuesInternal : List TShapValue)
    (combinationClassFeatures : List (List Int))
    (hclass : ∀ internal ∈ shapValuesInternal, 0 ≤ internal.Feature ∧
      internal.Feature.toNat < combinationClassFeatures.length ∧
      combinationClassFeatures.getD internal.Feature.toNat [] ≠ [])
    (hdims : ∀ internal ∈ shapValuesInternal,
      approxDimensionOf shapValuesInternal ≤ internal.Value.length) :
    ∃ shapValues, UnpackInternalShaps shapValuesInternal combinationClassFeatures
        = some shapValues ∧
      (shapValues.map (fun shapValue => shapValue.Feature)).Nodup ∧
      (∀ shapValue ∈ shapValues,
        shapValue.Value.length = approxDimensionOf shapValuesInternal) ∧
      ∀ dimension, dimension < approxDimensionOf shapValuesInternal →
        dimensionSum shapValues dimension = dimensionSum shapValuesInternal dimension := by
  cases hcase : shapValuesInternal with
  | nil =>
    refine ⟨[], rfl, List.nodup_nil, fun _ h => absurd h (List.not_mem_nil _), ?_⟩
    intro d hd
    simp [approxDimensionOf] at hd
  | cons first rest =>
    subst hcase
    obtain ⟨out, hout, hinv, hsum⟩ := unpack_all first.Value.length combinationClassFeatures
      (first :: rest) [] ⟨List.nodup_nil, fun _ h => absurd h (List.not_mem_nil _)⟩
      (by
        intro internal hin
        obtain ⟨h0, hlt, hne⟩ := hclass internal hin
        refine ⟨hdims internal hin, h0, combinationClassFeatures.getD internal.Feature.toNat [],
          ?_, hne⟩
        rw [List.getD_eq_getElem?_getD, List.getElem?_eq_getElem hlt]
        rfl)
    refine ⟨out, hout, hinv.1, hinv.2, fun d hd => ?_⟩
    rw [hsum d hd]
    simp [dimensionSum]

theorem C38_unpack_preserves_total_witness :
    ∃ shapValues, UnpackInternalShaps exampleInternalShaps exampleCombinationClasses
        = some shapValues ∧
      (shapValues.map (fun shapValue => shapValue.Feature)).Nodup ∧
      (∀ shapValue ∈ shapValues,
        shapValue.Value.length = approxDimensionOf exampleInternalShaps) ∧
      ∀ dimension, dimension < approxDimensionOf exampleInternalShaps →
        dimensionSum shapValues dimension = dimensionSum exampleInternalShaps dimension :=
  C38_unpack_preserves_total exampleInternalShaps exampleCombinationClasses (by decide)
    (by decide)

theorem setWeight_eq (path : List TFeaturePathElement) (i : Nat) (w : ℚ)
    (element : TFeaturePathElement) (h : path[i]? = some element) :
    setWeight path i w = some (path.set i { element with Weight := w }) := by
  unfold setWeight
  rw [h]
  rfl

theorem extend_step (base : List TFeaturePathElement) (old : List TFeaturePathElement)
    (z o : ℚ) (k : Nat) (path : List TFeaturePathElement)
    (hbase : base.length = old.length + 1) (hk : k < old.length)
    (h : PathIs base (extendState old z o (k + 1)) path) :
    ∃ out, (do
        let current ← path[k]?
        let next ← path[k + 1]?
        let newFeaturePath ← setWeight path (k + 1)
          (next.Weight + o * current.Weight * ((k + 1 : Nat) : ℚ)
            / ((old.length + 1 : Nat) : ℚ))
        let current ← newFeaturePath[k]?
        setWeight newFeaturePath k
          (z * current.Weight * ((old.length - k : Nat) : ℚ)
            / ((old.length + 1 : Nat) : ℚ))) = some out ∧
      PathIs base (extendState old z o k) out := by
  obtain ⟨hlen, hget⟩ := h
  obtain ⟨ek, hek⟩ : ∃ e, base[k]? = some e := ⟨_, List.getElem?_eq_getElem (by omega)⟩
  obtain ⟨ek1, hek1⟩ : ∃ e, base[k + 1]? = some e :=
    ⟨_, List.getElem?_eq_getElem (by omega)⟩
  have hcur := hget k ek hek
  have hnext := hget (k + 1) ek1 hek1
  have hsk : extendState old z o (k + 1) k = weightOf old k := by
    unfold extendState
    rw [if_neg (by omega), if_neg (by omega)]
  have hsk1 : extendState old z o (k + 1) (k + 1) = keptWeight old z (k + 1) := by
    unfold extendState
    rw [if_neg (by omega), if_pos rfl]
  have e1 : extendState old z o (k + 1) (k + 1)
        + o * extendState old z o (k + 1) k * ((k + 1 : Nat) : ℚ)
          / ((old.length + 1 : Nat) : ℚ)
      = extendState old z o k (k + 1) := by
    rw [hsk, hsk1]
    unfold extendState movedWeight
    rw [if_pos (by omega), Nat.add_sub_cancel]
  have e2 : z * extendState old z o (k + 1) k * ((old.length - k : Nat) : ℚ)
        / ((old.length + 1 : Nat) : ℚ)
      = extendState old z o k k := by
    rw [hsk]
    unfold extendState keptWeight
    rw [if_neg (by omega), if_pos rfl, if_pos hk]
  refine ⟨(path.set (k + 1) { ek1 with Weight := extendState old z o k (k + 1) }).set k
      { ek with Weight := extendState old z o k k }, ?_, ?_, ?_⟩
  · rw [hcur, hnext]
    simp only [Option.bind_eq_bind, Option.some_bind]
    rw [setWeight_eq _ _ _ _ hnext]
    simp only [Option.some_bind]
    rw [List.getElem?_set_ne (by omega), hcur]
    simp only [Option.some_bind]
    rw [setWeight_eq _ k _ { ek with Weight := extendState old z o (k + 1) k }
      (by rw [List.getElem?_set_ne (by omega)]; exact hcur)]
    simp only [e1, e2]
  · rw [List.length_set, List.length_set]
    exact hlen
  · intro j element hj
    by_cases h1 : j = k
    · subst h1
      rw [List.getElem?_set_self (by rw [List.length_set]; omega)]
      rw [hek] at hj
      rw [Option.some.inj hj]
    · rw [List.getElem?_set_ne (Ne.symm h1)]
      by_cases h2 : j = k + 1
      · subst h2
        rw [List.getElem?_set_self (by omega)]
        rw [hek1] at hj
        rw [Option.some.inj hj]
      · rw [List.getElem?_set_ne (Ne.symm h2), hget j element hj]
        congr 2
        unfold extendState
        by_cases h3 : k + 1 < j
        · rw [if_pos h3, if_pos (by omega)]
        · rw [if_neg h3, if_neg h2, if_neg (by omega), if_neg h1]

theorem extend_loop (base old : List TFeaturePathElement) (z o : ℚ)
    (hbase : base.length = old.length + 1) :
    ∀ (k : Nat) (path : List TFeaturePathElement), k ≤ old.length →
      PathIs base (extendState old z o k) path →
      ∃ out, (List.range k).reverse.foldlM (fun newFeaturePath elementIdx => do
          let current ← newFeaturePath[elementIdx]?
          let next ← newFeaturePath[elementIdx + 1]?
          let newFeaturePath ← setWeight newFeaturePath (elementIdx + 1)
            (next.Weight + o * current.Weight * ((elementIdx + 1 : Nat) : ℚ)
              / ((old.length + 1 : Nat) : ℚ))
          let current ← newFeaturePath[elementIdx]?
          setWeight newFeaturePath elementIdx
            (z * current.Weight * ((old.length - elementIdx : Nat) : ℚ)
              / ((old.length + 1 : Nat) : ℚ))) path = some out ∧
        PathIs base (extendState old z o 0) out := by
  intro k
  induction k with
  | zero =>
    intro path _ h
    exact ⟨path, rfl, h⟩
  | succ k ih =>
    intro path hk h
    obtain ⟨mid, hmid, hpm⟩ := extend_step base old z o k path hbase (by omega) h
    obtain ⟨out, hout, hpo⟩ := ih mid (by omega) hpm
    refine ⟨out, ?_, hpo⟩
    rw [List.range_succ, List.reverse_append, List.reverse_cons, List.reverse_nil,
      List.nil_append, List.singleton_append, List.foldlM_cons, hmid]
    exact hout

theorem weightOf_eq (path : List TFeaturePathElement) (j : Nat)
    (element : TFeaturePathElement) (h : path[j]? = some element) :
    weightOf path j = element.Weight := by
  unfold weightOf
  rw [h]
  rfl

theorem ExtendFeaturePath_spec (old : List TFeaturePathElement) (z o : ℚ) (feature : Int) :
    ∃ extended, ExtendFeaturePath old z o feature = some extended ∧
      PathIs (old ++ [⟨feature, z, o, if old.length = 0 then 1 else 0⟩])
        (extendState old z o 0) extended := by
  unfold ExtendFeaturePath
  apply extend_loop _ old z o (by simp) old.length _ (Nat.le_refl _)
  refine ⟨rfl, fun j element hj => ?_⟩
  rw [hj]
  congr 1
  by_cases hlt : j < old.length
  · rw [List.getElem?_append_left hlt] at hj
    unfold extendState
    rw [if_neg (by omega), if_neg (by omega), weightOf_eq old j element hj]
  · by_cases heq : j = old.length
    · subst heq
      rw [List.getElem?_append_right (Nat.le_refl _), Nat.sub_self] at hj
      simp only [List.getElem?_cons_zero, Option.some.injEq] at hj
      unfold extendState keptWeight
      rw [if_neg (by omega), if_pos rfl, if_neg (by omega), ← hj]
    · rw [List.getElem?_eq_none (by simp; omega)] at hj
      exact Option.noConfusion hj

theorem unwind_loop_one (old : List TFeaturePathElement) (z o : ℚ) (L : Nat)
    (hL : L = old.length + 1) (ho : o ≠ 0) :
    ∀ (k : Nat) (path : List TFeaturePathElement) (weightDiff : ℚ), k ≤ old.length →
      (1 ≤ k → weightDiff = movedWeight old o k) → UnwindState old z o k path →
      ∃ out, (List.range k).reverse.foldlM
          (fun (acc : List TFeaturePathElement × ℚ) elementIdx => do
            let element ← acc.1[elementIdx]?
            let oldWeight := element.Weight
            let weight := acc.2 * (L : ℚ) / (o * ((elementIdx + 1 : Nat) : ℚ))
            let newFeaturePath ← setWeight acc.1 elementIdx weight
            pure (newFeaturePath,
              oldWeight - weight * z * ((L - elementIdx - 1 : Nat) : ℚ) / (L : ℚ)))
          (path, weightDiff) = some out ∧
        UnwindState old z o 0 out.1 := by
  intro k
  induction k with
  | zero =>
    intro path weightDiff _ _ h
    exact ⟨(path, weightDiff), rfl, h⟩
  | succ k ih =>
    intro path weightDiff hk hwd h
    obtain ⟨hlen, hget⟩ := h
    obtain ⟨ek, hek⟩ : ∃ e, old[k]? = some e := ⟨_, List.getElem?_eq_getElem (by omega)⟩
    have hcur := hget k ek hek
    rw [if_neg (by omega)] at hcur
    have hLq : (L : ℚ) = ((old.length + 1 : Nat) : ℚ) := by rw [hL]
    have hLne : ((old.length + 1 : Nat) : ℚ) ≠ 0 := by
      have : old.length + 1 ≠ 0 := by omega
      exact_mod_cast this
    have hkne : ((k + 1 : Nat) : ℚ) ≠ 0 := by
      have : k + 1 ≠ 0 := by omega
      exact_mod_cast this
    have hweight : weightDiff * (L : ℚ) / (o * ((k + 1 : Nat) : ℚ)) = ek.Weight := by
      rw [hwd (by omega), hLq]
      unfold movedWeight
      rw [Nat.add_sub_cancel, weightOf_eq old k ek hek]
      field_simp
      ring
    have hsub : L - k - 1 = old.length - k := by omega
    have hdiff : 1 ≤ k →
        extendState old z o 0 k
            - ek.Weight * z * ((L - k - 1 : Nat) : ℚ) / (L : ℚ)
          = movedWeight old o k := by
      intro hk1
      rw [hsub, hLq]
      unfold extendState keptWeight
      rw [if_pos (by omega), if_pos (by omega), weightOf_eq old k ek hek]
      ring
    obtain ⟨out, hout, hfin⟩ := ih (path.set k ek)
      (extendState old z o 0 k - ek.Weight * z * ((L - k - 1 : Nat) : ℚ) / (L : ℚ))
      (by omega) hdiff
      ⟨by rw [List.length_set]; exact hlen, by
        intro j element hj
        by_cases h1 : j = k
        · subst h1
          rw [List.getElem?_set_self (by omega), if_pos (Nat.le_refl _)]
          rw [hek] at hj
          exact hj
        · rw [List.getElem?_set_ne (Ne.symm h1), hget j element hj]
          by_cases h2 : k + 1 ≤ j
          · rw [if_pos h2, if_pos (by omega)]
          · rw [if_neg h2, if_neg (by omega)]⟩
    refine ⟨out, ?_, hfin⟩
    rw [List.range_succ, List.reverse_append, List.reverse_cons, List.reverse_nil,
      List.nil_append, List.singleton_append, List.foldlM_cons]
    simp only [hcur, Option.bind_eq_bind, Option.some_bind, Option.pure_def]
    rw [setWeight_eq _ _ _ _ hcur]
    simp only [Option.some_bind, hweight]
    exact hout

theorem unwind_loop_zero (old : List TFeaturePathElement) (z : ℚ) (L : Nat)
    (hL : L = old.length + 1) (hz : z ≠ 0) :
    ∀ (k : Nat) (path : List TFeaturePathElement), k ≤ old.length →
      UnwindState old z 0 k path →
      ∃ out, (List.range k).reverse.foldlM (fun newFeaturePath elementIdx => do
          let element ← newFeaturePath[elementIdx]?
          setWeight newFeaturePath elementIdx
            (element.Weight * ((L : ℚ) / (z * ((L - elementIdx - 1 : Nat) : ℚ))))) path
          = some out ∧
        UnwindState old z 0 0 out := by
  intro k
  induction k with
  | zero =>
    intro path _ h
    exact ⟨path, rfl, h⟩
  | succ k ih =>
    intro path hk h
    obtain ⟨hlen, hget⟩ := h
    obtain ⟨ek, hek⟩ : ∃ e, old[k]? = some e := ⟨_, List.getElem?_eq_getElem (by omega)⟩
    have hcur := hget k ek hek
    rw [if_neg (by omega)] at hcur
    have hLq : (L : ℚ) = ((old.length + 1 : Nat) : ℚ) := by rw [hL]
    have hLne : ((old.length + 1 : Nat) : ℚ) ≠ 0 := by
      have : old.length + 1 ≠ 0 := by omega
      exact_mod_cast this
    have hsub : L - k - 1 = old.length - k := by omega
    have hmk : ((old.length - k : Nat) : ℚ) ≠ 0 := by
      have : old.length - k ≠ 0 := by omega
      exact_mod_cast this
    have hweight : extendState old z 0 0 k
          * ((L : ℚ) / (z * ((L - k - 1 : Nat) : ℚ))) = ek.Weight := by
      rw [hsub, hLq]
      have hs : extendState old z 0 0 k = keptWeight old z k := by
        unfold extendState movedWeight
        by_cases h0 : 0 < k
        · rw [if_pos h0]
          simp
        · rw [if_neg h0, if_pos (by omega)]
      rw [hs]
      unfold keptWeight
      rw [if_pos (by omega), weightOf_eq old k ek hek]
      field_simp
      ring
    obtain ⟨out, hout, hfin⟩ := ih (path.set k ek) (by omega)
      ⟨by rw [List.length_set]; exact hlen, by
        intro j element hj
        by_cases h1 : j = k
        · subst h1
          rw [List.getElem?_set_self (by omega), if_pos (Nat.le_refl _)]
          rw [hek] at hj
          exact hj
        · rw [List.getElem?_set_ne (Ne.symm h1), hget j element hj]
          by_cases h2 : k + 1 ≤ j
          · rw [if_pos h2, if_pos (by omega)]
          · rw [if_neg h2, if_neg (by omega)]⟩
    refine ⟨out, ?_, hfin⟩
    rw [List.range_succ, List.reverse_append, List.reverse_cons, List.reverse_nil,
      List.nil_append, List.singleton_append, List.foldlM_cons]
    simp only [hcur, Option.bind_eq_bind, Option.some_bind]
    rw [setWeight_eq _ _ _ _ hcur]
    simp only [Option.some_bind, hweight]
    exact hout

theorem UnwindState_done (old : List TFeaturePathElement) (z o : ℚ)
    (path : List TFeaturePathElement) (h : UnwindState old z o 0 path) : path = old := by
  obtain ⟨hlen, hget⟩ := h
  apply List.ext_getElem?
  intro j
  by_cases hj : j < old.length
  · have := hget j _ (List.getElem?_eq_getElem hj)
    rw [if_pos (Nat.zero_le _)] at this
    rw [this, List.getElem?_eq_getElem hj]
  · rw [List.getElem?_eq_none (by omega), List.getElem?_eq_none (by omega)]

/-- The round trip for a comparison that takes the branch of `onePathsFraction = 0` exactly
when `onePathsFraction` is `0`: the extension returns a path of length `m + 1` and unwinding
it at position `m` returns the path that was extended. -/
theorem round_trip_of_comparison (fuzzyEquals : ℚ → ℚ → Bool)
    (featurePath : List TFeaturePathElement) (zeroPathsFraction onePathsFraction : ℚ)
    (feature : Int)
    (hfuzzy : fuzzyEquals (1 + onePathsFraction) (1 + 0) = true ↔ onePathsFraction = 0)
    (hfractions : onePathsFraction ≠ 0 ∨ zeroPathsFraction ≠ 0) :
    ∃ extended,
      ExtendFeaturePath featurePath zeroPathsFraction onePathsFraction feature
        = some extended ∧
      extended.length = featurePath.length + 1 ∧
      UnwindFeaturePath fuzzyEquals extended featurePath.length
        = Except.ok (some featurePath) := by
  obtain ⟨extended, hext, hlen, hget⟩ := ExtendFeaturePath_spec featurePath
    zeroPathsFraction onePathsFraction feature
  have hL : extended.length = featurePath.length + 1 := by
    rw [hlen]
    simp
  refine ⟨extended, hext, hL, ?_⟩
  have hlast : extended[featurePath.length]?
      = some ⟨feature, zeroPathsFraction, onePathsFraction,
        extendState featurePath zeroPathsFraction onePathsFraction 0 featurePath.length⟩ := by
    have := hget featurePath.length
      ⟨feature, zeroPathsFraction, onePathsFraction,
        if featurePath.length = 0 then 1 else 0⟩
      (by rw [List.getElem?_append_right (Nat.le_refl _), Nat.sub_self]; rfl)
    exact this
  have hstart : UnwindState featurePath zeroPathsFraction onePathsFraction
      featurePath.length (extended.take featurePath.length) := by
    refine ⟨by rw [List.length_take]; omega, fun j element hj => ?_⟩
    have hjlt : j < featurePath.length := by
      by_contra hn
      rw [List.getElem?_eq_none (by omega)] at hj
      exact Option.noConfusion hj
    rw [List.getElem?_take_of_lt hjlt, if_neg (by omega)]
    exact hget j element (by rw [List.getElem?_append_left hjlt]; exact hj)
  have hdiff : 1 ≤ featurePath.length →
      extendState featurePath zeroPathsFraction onePathsFraction 0 featurePath.length
        = movedWeight featurePath onePathsFraction featurePath.length := by
    intro hm
    unfold extendState keptWeight
    rw [if_pos (by omega), if_neg (by omega), if_neg (by omega), zero_add]
  have hshift : shiftFeatures extended featurePath.length
      (extended.take featurePath.length) = some (extended.take featurePath.length) := by
    unfold shiftFeatures
    rw [hL, show featurePath.length + 1 - 1 - featurePath.length = 0 by omega]
    rfl
  unfold UnwindFeaturePath
  simp only [gt_iff_lt]
  rw [if_pos (by omega)]
  congr 1
  rw [hL, Nat.add_sub_cancel, hshift]
  simp only [Option.bind_eq_bind, Option.some_bind, hlast, Option.pure_def]
  by_cases ho : onePathsFraction = 0
  · have hz : zeroPathsFraction ≠ 0 := by
      rcases hfractions with h | h
      · exact absurd ho h
      · exact h
    have hf : fuzzyEquals (1 + onePathsFraction) (1 + 0) = true := hfuzzy.mpr ho
    rw [hf]
    simp only [Bool.not_true, Bool.false_eq_true, if_false]
    subst ho
    obtain ⟨out, hout, hfin⟩ := unwind_loop_zero featurePath zeroPathsFraction
      (featurePath.length + 1) rfl hz featurePath.length (extended.take featurePath.length)
      (Nat.le_refl _) hstart
    simp only [Option.bind_eq_bind] at hout
    rw [hout, UnwindState_done featurePath zeroPathsFraction 0 out hfin]
  · have hf : fuzzyEquals (1 + onePathsFraction) (1 + 0) = false := by
      cases h : fuzzyEquals (1 + onePathsFraction) (1 + 0) with
      | false => rfl
      | true => exact absurd (hfuzzy.mp h) ho
    rw [hf]
    simp only [Bool.not_false, if_true]
    obtain ⟨out, hout, hfin⟩ := unwind_loop_one featurePath zeroPathsFraction onePathsFraction
      (featurePath.length + 1) rfl ho featurePath.length (extended.take featurePath.length)
      (extendState featurePath zeroPathsFraction onePathsFraction 0 featurePath.length)
      (Nat.le_refl _) hdiff hstart
    simp only [Option.bind_eq_bind, Option.pure_def] at hout
    rw [hout]
    simp only [Option.some_bind]
    rw [UnwindState_done featurePath zeroPathsFraction onePathsFraction out.1 hfin]

/-- C37: the SHAP path round trip (exact arithmetic, `FuzzyEquals` with any tolerance
`eps >= 0`).  For every feature path `p` of length `m` and fractions `z`, `o` with `o = 0`
and `z != 0`, or with `o` outside the tolerance of the comparison (`FuzzyEquals(1 + o, 1 +
0.0)` is false, which makes `o != 0`), `ExtendFeaturePath(p, z, o, f)` returns a path of
length `m + 1` and `UnwindFeaturePath` of it at position `m` returns `p` itself: `m`
elements equal to those of `p` in `Feature`, `ZeroPathsFraction`, `OnePathsFraction` and
`Weight`. -/
theorem C37_extend_unwind_round_trip (eps : ℚ) (featurePath : List TFeaturePathElement)
    (zeroPathsFraction onePathsFraction : ℚ) (feature : Int) (heps : 0 ≤ eps)
    (hfractions : (onePathsFraction = 0 ∧ zeroPathsFraction ≠ 0) ∨
      FuzzyEquals (1 + onePathsFraction) (1 + 0) eps = false) :
    ∃ extended,
      ExtendFeaturePath featurePath zeroPathsFraction onePathsFraction feature
        = some extended ∧
      extended.length = featurePath.length + 1 ∧
      UnwindFeaturePath (fun p1 p2 => FuzzyEquals p1 p2 eps) extended featurePath.length
        = Except.ok (some featurePath) := by
  have hzero : FuzzyEquals (1 + 0) (1 + 0) eps = true := by
    unfold FuzzyEquals
    simp only [sub_self, abs_zero, add_zero, abs_one, min_self, mul_one, decide_eq_true_eq]
    exact heps
  have hfuzzy : FuzzyEquals (1 + onePathsFraction) (1 + 0) eps = true ↔
      onePathsFraction = 0 := by
    constructor
    · intro h
      rcases hfractions with h0 | h0
      · exact h0.1
      · rw [h0] at h
        exact Bool.noConfusion h
    · intro h
      rw [h]
      exact hzero
  have hor : onePathsFraction ≠ 0 ∨ zeroPathsFraction ≠ 0 := by
    rcases hfractions with h0 | h0
    · exact Or.inr h0.2
    · refine Or.inl (fun h => ?_)
      rw [h, hzero] at h0
      exact Bool.noConfusion h0
  exact round_trip_of_comparison (fun p1 p2 => FuzzyEquals p1 p2 eps) featurePath
    zeroPathsFraction onePathsFraction feature hfuzzy hor

theorem C37_extend_unwind_round_trip_witness :
    (0 : ℚ) ≤ 1 / 10 ^ 13 ∧ FuzzyEquals (1 + 2 / 5) (1 + 0) (1 / 10 ^ 13) = false ∧
    ∃ extended, ExtendFeaturePath exampleFeaturePath (1 / 3) (2 / 5) 9 = some extended ∧
      extended.length = exampleFeaturePath.length + 1 ∧
      UnwindFeaturePath (fun p1 p2 => FuzzyEquals p1 p2 (1 / 10 ^ 13)) extended
          exampleFeaturePath.length
        = Except.ok (some exampleFeaturePath) :=
  ⟨by with_unfolding_all decide, by with_unfolding_all decide,
    C37_extend_unwind_round_trip (1 / 10 ^ 13) exampleFeaturePath (1 / 3) (2 / 5) 9
      (by with_unfolding_all decide) (Or.inr (by with_unfolding_all decide))⟩

/-- C37, counterexample.  With `onePathsFraction = 10^-14`, which is not `0` but inside the
tolerance `10^-13` of `FuzzyEquals(1 + onePathsFraction, 1 + 0.0)`, `UnwindFeaturePath`
takes the branch for `onePathsFraction = 0`, and the path it returns from the extension of
the example path (with `zeroPathsFraction = 1/3`) is not the example path. -/
theorem C37_round_trip_fails_within_tolerance :
    (1 / 10 ^ 14 : ℚ) ≠ 0 ∧ FuzzyEquals (1 + 1 / 10 ^ 14) (1 + 0) (1 / 10 ^ 13) = true ∧
    (ExtendFeaturePath exampleFeaturePath (1 / 3) (1 / 10 ^ 14) 9).bind (fun extended =>
        (UnwindFeaturePath (fun p1 p2 => FuzzyEquals p1 p2 (1 / 10 ^ 13)) extended
          3).toOption)
      ≠ some (some exampleFeaturePath) := by
  decide!

theorem ui32_of_lt {value : Nat} (h : value < 2 ^ 32) : ui32 value = value :=
  Nat.mod_eq_of_lt h

theorem samplesBetween_nil (samples : List TSample) {lo hi : Nat} (h : hi ≤ lo) :
    samplesBetween samples lo hi = [] := by
  unfold samplesBetween
  rw [Nat.sub_eq_zero_of_le h, List.take_zero]

theorem samplesBetween_length (samples : List TSample) {lo hi : Nat}
    (h : hi ≤ samples.length) : (samplesBetween samples lo hi).length = hi - lo := by
  unfold samplesBetween
  rw [List.length_take, List.length_drop]
  omega

theorem samplesBetween_cons (samples : List TSample) {lo hi : Nat} (hlt : lo < hi)
    (h : hi ≤ samples.length) :
    ∃ sample, samples[lo]? = some sample ∧
      samplesBetween samples lo hi = sample :: samplesBetween samples (lo + 1) hi := by
  have hlo : lo < samples.length := by omega
  refine ⟨samples[lo], List.getElem?_eq_getElem hlo, ?_⟩
  unfold samplesBetween
  rw [List.drop_eq_getElem_cons hlo]
  have hsub : hi - lo = (hi - (lo + 1)) + 1 := by omega
  rw [hsub, List.take_succ_cons]

theorem samplesBetween_append (pre run post : List TSample) :
    samplesBetween (pre ++ run ++ post) pre.length (pre.length + run.length) = run := by
  unfold samplesBetween
  rw [List.append_assoc, List.drop_left, Nat.add_sub_cancel_left, List.take_left]

theorem set_take_drop (output : List TSample) (outputIndex count : Nat) (sample : TSample)
    (merged : List TSample) (h : outputIndex < output.length) :
    (output.set outputIndex sample).take (outputIndex + 1) ++ merged ++
        (output.set outputIndex sample).drop (outputIndex + 1 + count)
      = output.take outputIndex ++ sample :: merged ++
        output.drop (outputIndex + (count + 1)) := by
  rw [List.set_eq_take_append_cons_drop, if_pos h]
  have hlen : (output.take outputIndex).length = outputIndex := by
    rw [List.length_take]
    omega
  have h1 : (List.take outputIndex output ++ sample :: List.drop (outputIndex + 1) output).take
      (outputIndex + 1) = output.take outputIndex ++ [sample] := by
    rw [List.take_append_eq_append_take, hlen, List.take_of_length_le (by rw [hlen]; omega)]
    simp
  have h2 : (List.take outputIndex output ++ sample :: List.drop (outputIndex + 1) output).drop
      (outputIndex + 1 + count) = output.drop (outputIndex + (count + 1)) := by
    rw [List.drop_append_eq_append_drop, hlen, List.drop_of_length_le (by rw [hlen]; omega)]
    have hsub : outputIndex + 1 + count - outputIndex = count + 1 := by omega
    rw [hsub, List.drop_succ_cons, List.drop_drop, List.nil_append]
    congr 1
    omega
  rw [h1, h2]
  simp

theorem weightSum_cons (sample : TSample) (run : List TSample) :
    weightSum (sample :: run) = sample.Weight + weightSum run := by
  simp [weightSum]

theorem crossInversions_nil_left (right : List TSample) : crossInversions [] right = 0 := by
  simp [crossInversions]

theorem crossInversions_nil_right (left : List TSample) : crossInversions left [] = 0 := by
  simp [crossInversions]

theorem crossInversions_cons_left (l : TSample) (left right : List TSample) :
    crossInversions (l :: left) right
      = crossInversions [l] right + crossInversions left right := by
  simp [crossInversions]

theorem crossInversions_append_left (left₁ left₂ right : List TSample) :
    crossInversions (left₁ ++ left₂) right
      = crossInversions left₁ right + crossInversions left₂ right := by
  simp [crossInversions]

theorem crossInversions_append_right (left right₁ right₂ : List TSample) :
    crossInversions left (right₁ ++ right₂)
      = crossInversions left right₁ + crossInversions left right₂ := by
  induction left with
  | nil => simp [crossInversions]
  | cons l left ih =>
    rw [crossInversions_cons_left, crossInversions_cons_left l left right₁,
      crossInversions_cons_left l left right₂, ih]
    simp [crossInversions]
    ring

/-- Taking the right element: it is below every element of the left run, so it forms an
inversion with each of them. -/
theorem crossInversions_take_right (left right : List TSample) (r : TSample)
    (h : ∀ l ∈ left, r.Target < l.Target) :
    crossInversions left (r :: right)
      = r.Weight * weightSum left + crossInversions left right := by
  induction left with
  | nil => simp [crossInversions, weightSum]
  | cons l left ih =>
    rw [crossInversions_cons_left, crossInversions_cons_left l left right,
      ih (fun x hx => h x (List.mem_cons_of_mem _ hx)), weightSum_cons]
    have hl := h l (List.mem_cons_self _ _)
    simp [crossInversions, hl]
    ring

/-- Taking the left element: no element of the right run is below it. -/
theorem crossInversions_take_left (left right : List TSample) (l : TSample)
    (h : ∀ r ∈ right, ¬ r.Target < l.Target) :
    crossInversions (l :: left) right = crossInversions left right := by
  rw [crossInversions_cons_left]
  have h0 : crossInversions [l] right = 0 := by
    induction right with
    | nil => simp [crossInversions]
    | cons r right ih =>
      have hr := h r (List.mem_cons_self _ _)
      have ih2 := ih (fun x hx => h x (List.mem_cons_of_mem _ hx))
      simp only [crossInversions, List.map_cons, List.map_nil, List.sum_cons, List.sum_nil,
        add_zero, if_neg hr, zero_add] at ih2 ⊢
      exact ih2
  rw [h0, zero_add]

theorem crossInversions_perm {left left2 right right2 : List TSample}
    (hl : left.Perm left2) (hr : right.Perm right2) :
    crossInversions left right = crossInversions left2 right2 := by
  unfold crossInversions
  have hinner : ∀ l : TSample,
      (right.map fun r => if r.Target < l.Target then l.Weight * r.Weight else 0).sum
        = (right2.map fun r => if r.Target < l.Target then l.Weight * r.Weight else 0).sum :=
    fun l => (hr.map _).sum_eq
  simp only [hinner]
  exact (hl.map _).sum_eq

theorem runInversions_append (left right : List TSample) :
    runInversions (left ++ right)
      = runInversions left + runInversions right + crossInversions left right := by
  induction left with
  | nil => simp [runInversions, crossInversions]
  | cons l left ih =>
    rw [List.cons_append, runInversions, runInversions, ih, crossInversions_append_right,
      crossInversions_cons_left l left right]
    ring

theorem targetLE_trans (a b c : TSample) (hab : targetLE a b = true)
    (hbc : targetLE b c = true) : targetLE a c = true := by
  simp only [targetLE, Bool.not_eq_true', decide_eq_false_iff_not, not_lt] at hab hbc ⊢
  exact le_trans hab hbc

theorem targetLE_total (a b : TSample) : (targetLE a b || targetLE b a) = true := by
  simp only [targetLE, Bool.or_eq_true, Bool.not_eq_true', decide_eq_false_iff_not, not_lt]
  exact le_total _ _

/-- The merge is stable: the elements of one target keep their order, those of the left run
before those of the right run. -/
theorem merge_filter_target (t : ℚ) (left : List TSample) :
    ∀ right : List TSample, left.Pairwise (fun a b => targetLE a b = true) →
      (List.merge left right targetLE).filter (fun sample => decide (sample.Target = t))
        = left.filter (fun sample => decide (sample.Target = t)) ++
          right.filter (fun sample => decide (sample.Target = t)) := by
  induction left with
  | nil =>
    intro right _
    simp
  | cons l left ihl =>
    intro right
    induction right with
    | nil =>
      intro _
      simp
    | cons r right ihr =>
      intro hsorted
      rw [List.cons_merge_cons]
      by_cases hle : targetLE l r = true
      · rw [if_pos hle, List.filter_cons, ihl (r :: right) hsorted.tail, List.filter_cons]
        by_cases hl : l.Target = t
        · simp [hl]
        · simp [hl]
      · rw [if_neg hle, List.filter_cons, ihr hsorted]
        have hlt : r.Target < l.Target := by
          simpa [targetLE] using hle
        by_cases hr : r.Target = t
        · have hnone : (l :: left).filter (fun sample => decide (sample.Target = t)) = [] := by
            rw [List.filter_eq_nil_iff]
            intro x hx
            have hlx : l.Target ≤ x.Target := by
              rcases List.mem_cons.mp hx with h1 | h1
              · rw [h1]
              · have := List.rel_of_pairwise_cons hsorted h1
                simpa [targetLE] using this
            simp only [decide_eq_true_eq]
            intro hxt
            rw [hxt, ← hr] at hlx
            exact absurd hlt (not_lt.mpr hlx)
          rw [hnone]
          simp [hr]
        · simp [hr]

theorem remaining_left_sum (input : List TSample) (accumulatedWeight : ℚ) :
    ∀ (count leftIndex : Nat) (result : ℚ), leftIndex + count ≤ input.length →
      (List.range' leftIndex count).foldlM (fun (result : ℚ) i => do
          let sample ← input[i]?
          pure (result + sample.Weight * accumulatedWeight)) result
        = some (result + accumulatedWeight *
            weightSum (samplesBetween input leftIndex (leftIndex + count))) := by
  intro count
  induction count with
  | zero =>
    intro leftIndex result _
    simp [samplesBetween, weightSum]
  | succ count ih =>
    intro leftIndex result hlen
    obtain ⟨sample, hsample, hrun⟩ := samplesBetween_cons input
      (show leftIndex < leftIndex + (count + 1) by omega) hlen
    rw [List.range'_succ, List.foldlM_cons, hsample]
    have ih2 := ih (leftIndex + 1) (result + sample.Weight * accumulatedWeight) (by omega)
    simp only [Option.bind_eq_bind, Option.some_bind, Option.pure_def] at ih2 ⊢
    rw [ih2, hrun, weightSum_cons]
    have hidx : leftIndex + 1 + count = leftIndex + (count + 1) := by omega
    rw [hidx]
    congr 1
    ring

theorem stdCopy_run (input output : List TSample) (first last outputIndex : Nat)
    (hfirst : first ≤ last) (hlast : last ≤ input.length)
    (hout : outputIndex + (last - first) ≤ output.length) :
    stdCopy input first last output outputIndex
      = some (output.take outputIndex ++ samplesBetween input first last ++
          output.drop (outputIndex + (last - first))) := by
  unfold stdCopy samplesBetween
  rw [if_pos ⟨hfirst, hlast, hout⟩]

/-- The loop and the remainder of `MergeAndCountInversions` from any state of the loop:
for two sorted runs the rest of the merge is written behind `outputIndex`, and the result
grows by the accumulated weight times the weight of the left run plus the inversions
between the two runs. -/
theorem merge_loop_spec (mergeOperation : TMergeData) (input : List TSample)
    (hR1 : mergeOperation.Right1 ≤ input.length) (hR2 : mergeOperation.Right2 ≤ input.length)
    (h1 : mergeOperation.Right1 < 2 ^ 32) (h2 : mergeOperation.Right2 < 2 ^ 32) :
    ∀ (fuel : Nat) (result : ℚ) (leftIndex rightIndex outputIndex : Nat)
      (output : List TSample) (accumulatedWeight : ℚ),
      leftIndex ≤ mergeOperation.Right1 → rightIndex ≤ mergeOperation.Right2 →
      outputIndex + ((mergeOperation.Right1 - leftIndex) +
        (mergeOperation.Right2 - rightIndex)) ≤ output.length →
      outputIndex + ((mergeOperation.Right1 - leftIndex) +
        (mergeOperation.Right2 - rightIndex)) < 2 ^ 32 →
      (mergeOperation.Right1 - leftIndex) + (mergeOperation.Right2 - rightIndex) < fuel →
      (samplesBetween input leftIndex mergeOperation.Right1).Pairwise
        (fun a b => targetLE a b = true) →
      (samplesBetween input rightIndex mergeOperation.Right2).Pairwise
        (fun a b => targetLE a b = true) →
      (mergeLoop mergeOperation input fuel
          ⟨result, leftIndex, rightIndex, outputIndex, output, accumulatedWeight⟩).bind
          (mergeRemainder mergeOperation input)
        = some (result +
            accumulatedWeight * weightSum (samplesBetween input leftIndex mergeOperation.Right1)
            + crossInversions (samplesBetween input leftIndex mergeOperation.Right1)
                (samplesBetween input rightIndex mergeOperation.Right2),
          output.take outputIndex ++
            List.merge (samplesBetween input leftIndex mergeOperation.Right1)
              (samplesBetween input rightIndex mergeOperation.Right2) targetLE ++
            output.drop (outputIndex + ((mergeOperation.Right1 - leftIndex) +
              (mergeOperation.Right2 - rightIndex)))) := by
  intro fuel
  induction fuel with
  | zero =>
    intro _ _ _ _ _ _ _ _ _ _ hfuel
    omega
  | succ fuel ih =>
    intro result leftIndex rightIndex outputIndex output accumulatedWeight hl hr hout h32
      hfuel hsortedL hsortedR
    rw [mergeLoop]
    simp only []
    by_cases hcond : leftIndex < mergeOperation.Right1 ∧ rightIndex < mergeOperation.Right2
    · obtain ⟨l, hleft, hrunL⟩ := samplesBetween_cons input hcond.1 hR1
      obtain ⟨r, hright, hrunR⟩ := samplesBetween_cons input hcond.2 hR2
      have hoi : outputIndex < output.length := by omega
      rw [if_pos hcond, hleft, hright]
      simp only [Option.bind_eq_bind, Option.some_bind]
      rw [ui32_of_lt (show outputIndex + 1 < 2 ^ 32 by omega)]
      rw [hrunL] at hsortedL
      rw [hrunR] at hsortedR
      by_cases hlt : r.Target < l.Target
      · rw [if_pos hlt, if_pos hoi, ui32_of_lt (show rightIndex + 1 < 2 ^ 32 by omega)]
        have hih := ih result leftIndex (rightIndex + 1) (outputIndex + 1)
          (output.set outputIndex r) (accumulatedWeight + r.Weight) hl (by omega)
          (by rw [List.length_set]; omega) (by omega) (by omega)
          (by rw [hrunL]; exact hsortedL) hsortedR.tail
        simp only [Option.bind_eq_bind] at hih
        rw [hih, hrunL, hrunR]
        have hle : ¬ targetLE l r = true := by
          simp [targetLE, hlt]
        have hall : ∀ x ∈ l :: samplesBetween input (leftIndex + 1) mergeOperation.Right1,
            r.Target < x.Target := by
          intro x hx
          rcases List.mem_cons.mp hx with h0 | h0
          · rw [h0]
            exact hlt
          · have := List.rel_of_pairwise_cons hsortedL h0
            simp only [targetLE, Bool.not_eq_true', decide_eq_false_iff_not, not_lt] at this
            exact lt_of_lt_of_le hlt this
        rw [List.cons_merge_cons_neg _ _ _ hle, crossInversions_take_right _ _ _ hall]
        have hcount : (mergeOperation.Right1 - leftIndex) +
            (mergeOperation.Right2 - rightIndex)
            = (mergeOperation.Right1 - leftIndex) +
              (mergeOperation.Right2 - (rightIndex + 1)) + 1 := by omega
        rw [hcount, ← set_take_drop output outputIndex _ r _ hoi]
        congr 2
        ring
      · rw [if_neg hlt, if_pos hoi, ui32_of_lt (show leftIndex + 1 < 2 ^ 32 by omega)]
        have hih := ih (result + l.Weight * accumulatedWeight) (leftIndex + 1) rightIndex
          (outputIndex + 1) (output.set outputIndex l) accumulatedWeight (by omega) hr
          (by rw [List.length_set]; omega) (by omega) (by omega)
          hsortedL.tail (by rw [hrunR]; exact hsortedR)
        simp only [Option.bind_eq_bind] at hih
        rw [hih, hrunL, hrunR]
        have hle : targetLE l r = true := by
          simp [targetLE, hlt]
        have hall : ∀ x ∈ r :: samplesBetween input (rightIndex + 1) mergeOperation.Right2,
            ¬ x.Target < l.Target := by
          intro x hx
          rcases List.mem_cons.mp hx with h0 | h0
          · rw [h0]
            exact hlt
          · have := List.rel_of_pairwise_cons hsortedR h0
            simp only [targetLE, Bool.not_eq_true', decide_eq_false_iff_not, not_lt] at this
            exact not_lt.mpr (le_trans (not_lt.mp hlt) this)
        rw [List.cons_merge_cons_pos _ _ _ hle, crossInversions_take_left _ _ _ hall,
          weightSum_cons]
        have hcount : (mergeOperation.Right1 - leftIndex) +
            (mergeOperation.Right2 - rightIndex)
            = (mergeOperation.Right1 - (leftIndex + 1)) +
              (mergeOperation.Right2 - rightIndex) + 1 := by omega
        rw [hcount, ← set_take_drop output outputIndex _ l _ hoi]
        congr 2
        ring
    · rw [if_neg hcond]
      simp only [Option.bind_eq_bind, Option.some_bind]
      unfold mergeRemainder
      simp only []
      by_cases hleft : leftIndex < mergeOperation.Right1
      · have hright : ¬ rightIndex < mergeOperation.Right2 := fun h => hcond ⟨hleft, h⟩
        have hsum := remaining_left_sum input accumulatedWeight
          (mergeOperation.Right1 - leftIndex) leftIndex result (by omega)
        have hidx : leftIndex + (mergeOperation.Right1 - leftIndex) = mergeOperation.Right1 := by
          omega
        rw [hidx] at hsum
        simp only [Option.bind_eq_bind, Option.pure_def] at hsum ⊢
        rw [if_pos hleft, hsum, stdCopy_run input output leftIndex mergeOperation.Right1
          outputIndex hl hR1 (by omega),
          samplesBetween_nil input (show mergeOperation.Right2 ≤ rightIndex by omega)]
        have h0 : mergeOperation.Right2 - rightIndex = 0 := by omega
        simp only [Option.some_bind, if_neg hright, crossInversions_nil_right,
          List.merge_right, add_zero, h0, Nat.add_zero]
      · rw [if_neg hleft, samplesBetween_nil input
          (show mergeOperation.Right1 ≤ leftIndex by omega)]
        have h0 : mergeOperation.Right1 - leftIndex = 0 := by omega
        simp only [Option.bind_eq_bind, Option.some_bind, Option.pure_def,
          crossInversions_nil_left, List.nil_merge, add_zero, weightSum, List.map_nil,
          List.sum_nil, mul_zero, h0, Nat.zero_add]
        by_cases hright : rightIndex < mergeOperation.Right2
        · rw [if_pos hright, stdCopy_run input output rightIndex mergeOperation.Right2
            outputIndex hr hR2 (by omega)]
          rfl
        · rw [if_neg hright, samplesBetween_nil input
            (show mergeOperation.Right2 ≤ rightIndex by omega)]
          have h3 : mergeOperation.Right2 - rightIndex = 0 := by omega
          simp [h3]

theorem samplesBetween_run (pre run post : List TSample) (lo hi : Nat)
    (hlo : lo = pre.length) (hhi : hi = lo + run.length) :
    samplesBetween (pre ++ run ++ post) lo hi = run := by
  subst hlo
  subst hhi
  exact samplesBetween_append pre run post

/-- `MergeAndCountInversions` on two adjacent sorted runs `[lo, mid)` and `[mid, hi)`: it
returns the inversions between the runs and writes their merge to `aux[lo, hi)`. -/
theorem MergeAndCountInversions_spec (pre left right post aux : List TSample)
    (lo mid hi : Nat) (hlo : lo = pre.length) (hmid : mid = lo + left.length)
    (hhi : hi = mid + right.length)
    (hsortedL : left.Pairwise (fun a b => targetLE a b = true))
    (hsortedR : right.Pairwise (fun a b => targetLE a b = true))
    (haux : hi ≤ aux.length) (h32 : hi < 2 ^ 32) :
    MergeAndCountInversions ⟨lo, mid, mid, hi, lo⟩ (pre ++ left ++ right ++ post) aux
      = some (crossInversions left right,
          aux.take lo ++ List.merge left right targetLE ++ aux.drop hi) := by
  have hrunL : samplesBetween (pre ++ left ++ right ++ post) lo mid = left := by
    have := samplesBetween_run pre left (right ++ post) lo mid hlo hmid
    simpa [List.append_assoc] using this
  have hrunR : samplesBetween (pre ++ left ++ right ++ post) mid hi = right :=
    samplesBetween_run (pre ++ left) right post mid hi
      (by rw [List.length_append]; omega) hhi
  have hlen : (pre ++ left ++ right ++ post).length
      = pre.length + left.length + right.length + post.length := by
    simp only [List.length_append]
  have hspec := merge_loop_spec ⟨lo, mid, mid, hi, lo⟩ (pre ++ left ++ right ++ post)
    (show mid ≤ _ by omega) (show hi ≤ _ by omega) (show mid < 2 ^ 32 by omega) h32
    ((mid - lo) + (hi - mid) + 1) 0 lo mid lo aux 0 (show lo ≤ mid by omega)
    (show mid ≤ hi by omega) (show lo + ((mid - lo) + (hi - mid)) ≤ aux.length by omega)
    (show lo + ((mid - lo) + (hi - mid)) < 2 ^ 32 by omega)
    (show (mid - lo) + (hi - mid) < (mid - lo) + (hi - mid) + 1 by omega)
    (by rw [hrunL]; exact hsortedL) (by rw [hrunR]; exact hsortedR)
  simp only [hrunL, hrunR] at hspec
  unfold MergeAndCountInversions
  simp only [Option.bind_eq_bind] at hspec ⊢
  rw [hspec]
  have hidx : lo + ((mid - lo) + (hi - mid)) = hi := by omega
  rw [hidx]
  simp

theorem stdCopy_back (auxPre merged auxPost pre run post : List TSample) (lo hi : Nat)
    (hlo : lo = pre.length) (hhi : hi = lo + run.length) (hpre : auxPre.length = lo)
    (hmerged : merged.length = run.length) :
    stdCopy (auxPre ++ merged ++ auxPost) lo hi (pre ++ run ++ post) lo
      = some (pre ++ merged ++ post) := by
  unfold stdCopy
  have hsub : hi - lo = run.length := by omega
  rw [if_pos ⟨by omega, by simp only [List.length_append]; omega,
    by simp only [List.length_append]; omega⟩, hsub]
  have h1 : (pre ++ run ++ post).take lo = pre := by
    rw [List.append_assoc, hlo, List.take_left]
  have h2 : ((auxPre ++ merged ++ auxPost).drop lo).take run.length = merged := by
    rw [List.append_assoc, ← hpre, List.drop_left, ← hmerged, List.take_left]
  have h3 : (pre ++ run ++ post).drop (lo + run.length) = post := by
    have hl : lo + run.length = (pre ++ run).length := by
      rw [List.length_append]
      omega
    rw [hl, List.drop_left]
  rw [h1, h2, h3]

theorem runInversions_short : ∀ run : List TSample, run.length ≤ 1 → runInversions run = 0
  | [], _ => rfl
  | [_], _ => by simp [runInversions, crossInversions]
  | _ :: _ :: _, h => by
    simp only [List.length_cons] at h
    omega

theorem pairwise_short {r : TSample → TSample → Prop} :
    ∀ run : List TSample, run.length ≤ 1 → run.Pairwise r
  | [], _ => List.Pairwise.nil
  | [_], _ => List.pairwise_singleton _ _
  | _ :: _ :: _, h => by
    simp only [List.length_cons] at h
    omega

/-- `SortAndCountInversions` on the run `samples[lo, hi)`: with more fuel than the run is
long it returns the inversion count of the run and leaves the run sorted by a stable
permutation, the rest of `samples` unchanged and `aux` of the same length. -/
theorem SortAndCountInversions_spec :
    ∀ (fuel : Nat) (pre run post aux : List TSample) (lo hi : Nat),
      lo = pre.length → hi = lo + run.length → run.length < fuel → hi ≤ aux.length →
      hi < 2 ^ 32 → lo + 1 < 2 ^ 32 →
      ∃ sorted aux2, SortAndCountInversions fuel lo hi (pre ++ run ++ post) aux
          = some (runInversions run, pre ++ sorted ++ post, aux2) ∧
        aux2.length = aux.length ∧ sorted.Perm run ∧
        sorted.Pairwise (fun a b => targetLE a b = true) ∧
        ∀ t : ℚ, sorted.filter (fun sample => decide (sample.Target = t))
          = run.filter (fun sample => decide (sample.Target = t)) := by
  intro fuel
  induction fuel with
  | zero =>
    intro _ _ _ _ _ _ _ _ hfuel
    omega
  | succ fuel ih =>
    intro pre run post aux lo hi hlo hhi hfuel haux h32 hlo32
    rw [SortAndCountInversions, ui32_of_lt hlo32]
    by_cases hshort : lo + 1 ≥ hi
    · rw [if_pos hshort]
      have hlen : run.length ≤ 1 := by omega
      exact ⟨run, aux, by rw [runInversions_short run hlen], rfl, List.Perm.refl _,
        pairwise_short run hlen, fun _ => rfl⟩
    · rw [if_neg hshort]
      have hwrap : ui32 (hi + 2 ^ 32 - lo) = run.length := by
        unfold ui32
        have hsum : hi + 2 ^ 32 - lo = run.length + 2 ^ 32 := by omega
        rw [hsum, Nat.add_mod_right, Nat.mod_eq_of_lt (by omega)]
      have hmid : ui32 (lo + ui32 (hi + 2 ^ 32 - lo) / 2) = lo + run.length / 2 := by
        rw [hwrap]
        exact ui32_of_lt (by omega)
      simp only [hmid]
      have hsplit : run.take (run.length / 2) ++ run.drop (run.length / 2) = run :=
        List.take_append_drop _ run
      have hkL : (run.take (run.length / 2)).length = run.length / 2 := by
        rw [List.length_take]
        omega
      have hkR : (run.drop (run.length / 2)).length = run.length - run.length / 2 :=
        List.length_drop _ _
      obtain ⟨sortedL, aux1, hcall1, haux1, hpermL, hsortedL, hstableL⟩ :=
        ih pre (run.take (run.length / 2)) (run.drop (run.length / 2) ++ post) aux lo
          (lo + run.length / 2) hlo (by omega) (by omega) (by omega) (by omega) hlo32
      have hlenL : sortedL.length = run.length / 2 := by
        rw [hpermL.length_eq, hkL]
      obtain ⟨sortedR, aux2, hcall2, haux2, hpermR, hsortedR, hstableR⟩ :=
        ih (pre ++ sortedL) (run.drop (run.length / 2)) post aux1 (lo + run.length / 2) hi
          (by rw [List.length_append]; omega) (by omega) (by omega) (by omega) h32 (by omega)
      have hlenR : sortedR.length = run.length - run.length / 2 := by
        rw [hpermR.length_eq, hkR]
      have hsamples1 : pre ++ run ++ post
          = pre ++ run.take (run.length / 2) ++ (run.drop (run.length / 2) ++ post) := by
        conv_lhs => rw [← hsplit]
        simp only [List.append_assoc]
      have hsamples2 : pre ++ sortedL ++ (run.drop (run.length / 2) ++ post)
          = pre ++ sortedL ++ run.drop (run.length / 2) ++ post := by
        simp only [List.append_assoc]
      have hmerge := MergeAndCountInversions_spec pre sortedL sortedR post aux2 lo
        (lo + run.length / 2) hi hlo (by omega) (by omega) hsortedL hsortedR (by omega) h32
      have hcopy := stdCopy_back (aux2.take lo) (List.merge sortedL sortedR targetLE)
        (aux2.drop hi) pre (sortedL ++ sortedR) post lo hi hlo
        (by rw [List.length_append]; omega) (by rw [List.length_take]; omega)
        (by rw [List.length_merge, List.length_append])
      have hsamples3 : pre ++ (sortedL ++ sortedR) ++ post
          = pre ++ sortedL ++ sortedR ++ post := by
        simp only [List.append_assoc]
      rw [hsamples3] at hcopy
      refine ⟨List.merge sortedL sortedR targetLE,
        aux2.take lo ++ List.merge sortedL sortedR targetLE ++ aux2.drop hi, ?_, ?_, ?_, ?_, ?_⟩
      · rw [hsamples1, hcall1]
        simp only [Option.bind_eq_bind, Option.some_bind]
        rw [hsamples2, hcall2]
        simp only [Option.some_bind]
        rw [hmerge]
        simp only [Option.some_bind]
        rw [hcopy]
        simp only [Option.some_bind, Option.pure_def]
        have hcount : runInversions run
            = runInversions (run.take (run.length / 2)) +
              runInversions (run.drop (run.length / 2)) + crossInversions sortedL sortedR := by
          rw [crossInversions_perm hpermL hpermR, ← runInversions_append, hsplit]
        rw [hcount]
      · simp only [List.length_append, List.length_take, List.length_merge,
          List.length_drop]
        omega
      · exact (List.merge_perm_append targetLE).trans
          ((hpermL.append hpermR).trans (by rw [hsplit]))
      · exact List.sorted_merge targetLE_trans targetLE_total _ _ hsortedL hsortedR
      · intro t
        rw [merge_filter_target t sortedL sortedR hsortedL, hstableL t, hstableR t,
          ← List.filter_append, hsplit]

theorem range_map_getD {β : Type} (samples : List TSample) (g : TSample → β) :
    ∀ (count lo : Nat), lo + count ≤ samples.length →
      (List.range' lo count).map (fun j => g (samples.getD j ⟨0, 0, 0⟩))
        = (samplesBetween samples lo (lo + count)).map g := by
  intro count
  induction count with
  | zero =>
    intro lo _
    simp [samplesBetween]
  | succ count ih =>
    intro lo hlen
    obtain ⟨sample, hsample, hrun⟩ := samplesBetween_cons samples
      (show lo < lo + (count + 1) by omega) hlen
    have hidx : lo + 1 + count = lo + (count + 1) := by omega
    rw [List.range'_succ, List.map_cons, ih (lo + 1) (by omega), hrun, List.map_cons, hidx,
      List.getD_eq_getElem?_getD, hsample]
    rfl

/-- The count over position pairs is the count that pairs every element of the run with
the elements behind it. -/
theorem weightedInversions_eq (samples : List TSample) :
    ∀ (count lo : Nat), lo + count ≤ samples.length →
      weightedInversions samples lo (lo + count)
        = runInversions (samplesBetween samples lo (lo + count)) := by
  intro count
  induction count with
  | zero =>
    intro lo _
    simp [weightedInversions, samplesBetween, runInversions]
  | succ count ih =>
    intro lo hlen
    obtain ⟨sample, hsample, hrun⟩ := samplesBetween_cons samples
      (show lo < lo + (count + 1) by omega) hlen
    have hidx : lo + 1 + count = lo + (count + 1) := by omega
    have hget : samples.getD lo ⟨0, 0, 0⟩ = sample := by
      rw [List.getD_eq_getElem?_getD, hsample]
      rfl
    have hih := ih (lo + 1) (by omega)
    rw [hidx] at hih
    rw [hrun, runInversions, ← hih]
    unfold weightedInversions
    rw [Nat.add_sub_cancel_left, ← hidx, Nat.add_sub_cancel_left, List.range'_succ]
    simp only [List.map_cons, List.sum_cons]
    have hhead : ((List.range' (lo + 1) count).map fun j =>
        if lo < j ∧ (samples.getD j ⟨0, 0, 0⟩).Target < (samples.getD lo ⟨0, 0, 0⟩).Target then
          (samples.getD lo ⟨0, 0, 0⟩).Weight * (samples.getD j ⟨0, 0, 0⟩).Weight
        else 0)
        = (samplesBetween samples (lo + 1) (lo + 1 + count)).map fun r =>
            if r.Target < sample.Target then sample.Weight * r.Weight else 0 := by
      rw [← range_map_getD samples _ count (lo + 1) (by omega)]
      apply List.map_congr_left
      intro j hj
      have hlt : lo < j := by
        have := (List.mem_range'_1.mp hj).1
        omega
      simp only [hlt, true_and, hget]
    have htail : ∀ i ∈ List.range' (lo + 1) count,
        ((if i < lo ∧ (samples.getD lo ⟨0, 0, 0⟩).Target < (samples.getD i ⟨0, 0, 0⟩).Target then
            (samples.getD i ⟨0, 0, 0⟩).Weight * (samples.getD lo ⟨0, 0, 0⟩).Weight
          else 0) +
          ((List.range' (lo + 1) count).map fun j =>
            if i < j ∧ (samples.getD j ⟨0, 0, 0⟩).Target < (samples.getD i ⟨0, 0, 0⟩).Target then
              (samples.getD i ⟨0, 0, 0⟩).Weight * (samples.getD j ⟨0, 0, 0⟩).Weight
            else 0).sum : ℚ)
        = ((List.range' (lo + 1) count).map fun j =>
            if i < j ∧ (samples.getD j ⟨0, 0, 0⟩).Target < (samples.getD i ⟨0, 0, 0⟩).Target then
              (samples.getD i ⟨0, 0, 0⟩).Weight * (samples.getD j ⟨0, 0, 0⟩).Weight
            else 0).sum := by
      intro i hi
      have hge : ¬ i < lo := by
        have := (List.mem_range'_1.mp hi).1
        omega
      simp only [hge, false_and, if_false, zero_add]
    rw [List.map_congr_left htail, hhead]
    simp only [lt_irrefl, false_and, if_false, zero_add, crossInversions, List.map_cons,
      List.map_nil, List.sum_cons, List.sum_nil, add_zero]

theorem SortAndCountInversions_fuel_succ :
    ∀ (fuel lo hi : Nat) (samples aux : List TSample)
      (out : ℚ × List TSample × List TSample),
      SortAndCountInversions fuel lo hi samples aux = some out →
      SortAndCountInversions (fuel + 1) lo hi samples aux = some out := by
  intro fuel
  induction fuel with
  | zero =>
    intro lo hi samples aux out h
    simp [SortAndCountInversions] at h
  | succ fuel ih =>
    intro lo hi samples aux out h
    rw [SortAndCountInversions] at h ⊢
    by_cases hshort : ui32 (lo + 1) ≥ hi
    · rw [if_pos hshort] at h ⊢
      exact h
    · rw [if_neg hshort] at h ⊢
      simp only [Option.bind_eq_bind] at h ⊢
      cases h1 : SortAndCountInversions fuel lo (ui32 (lo + ui32 (hi + 2 ^ 32 - lo) / 2))
          samples aux with
      | none =>
        rw [h1] at h
        simp at h
      | some out1 =>
        rw [h1] at h
        rw [ih _ _ _ _ _ h1]
        simp only [Option.some_bind] at h ⊢
        cases h2 : SortAndCountInversions fuel (ui32 (lo + ui32 (hi + 2 ^ 32 - lo) / 2)) hi
            out1.2.1 out1.2.2 with
        | none =>
          rw [h2] at h
          simp at h
        | some out2 =>
          rw [h2] at h
          rw [ih _ _ _ _ _ h2]
          exact h

theorem SortAndCountInversions_fuel_le (fuel lo hi : Nat) (samples aux : List TSample)
    (out : ℚ × List TSample × List TSample)
    (h : SortAndCountInversions fuel lo hi samples aux = some out) :
    ∀ more, fuel ≤ more → SortAndCountInversions more lo hi samples aux = some out := by
  intro more hmore
  induction more with
  | zero =>
    have h0 : fuel = 0 := by omega
    rw [h0] at h
    exact h
  | succ more ih =>
    by_cases heq : fuel = more + 1
    · rw [← heq]
      exact h
    · exact SortAndCountInversions_fuel_succ _ _ _ _ _ _ (ih (by omega))

theorem take_run_drop (samples : List TSample) (lo hi : Nat) (hlo : lo ≤ hi) :
    samples.take lo ++ samplesBetween samples lo hi ++ samples.drop hi = samples := by
  unfold samplesBetween
  have hdrop : samples.drop hi = (samples.drop lo).drop (hi - lo) := by
    rw [List.drop_drop]
    congr 1
    omega
  rw [hdrop, List.append_assoc, List.take_append_drop, List.take_append_drop]

/-- C36: `SortAndCountInversions(lo, hi, samples, aux)` for `lo ≤ hi` inside both vectors
(and `lo + 1` representable in `ui32`).  The call returns: with any fuel above `hi - lo` it
gives the same result.  Afterwards `samples[lo, hi)` holds a permutation of its original
content, sorted by non-decreasing `Target`, in which the elements of every target value
keep their original order (the sort is stable); the rest of `samples` is unchanged.  The
returned value is the sum of `Weight[i] * Weight[j]` over the original position pairs
`lo ≤ i < j < hi` with `Target[j] < Target[i]`. -/
theorem C36_sort_and_count_inversions (lo hi : Nat) (samples aux : List TSample)
    (hlo : lo ≤ hi) (hhi : hi ≤ samples.length) (haux : hi ≤ aux.length)
    (h32 : hi < 2 ^ 32) (hlo32 : lo + 1 < 2 ^ 32) :
    ∃ (sorted aux2 : List TSample),
      (∀ fuel, hi - lo < fuel →
        SortAndCountInversions fuel lo hi samples aux
          = some (weightedInversions samples lo hi,
              samples.take lo ++ sorted ++ samples.drop hi, aux2)) ∧
      sorted.Perm (samplesBetween samples lo hi) ∧
      sorted.Pairwise (fun a b => a.Target ≤ b.Target) ∧
      ∀ t : ℚ, sorted.filter (fun sample => decide (sample.Target = t))
        = (samplesBetween samples lo hi).filter (fun sample => decide (sample.Target = t)) := by
  have hlen : (samplesBetween samples lo hi).length = hi - lo :=
    samplesBetween_length samples hhi
  have hpre : (samples.take lo).length = lo := by
    rw [List.length_take]
    omega
  obtain ⟨sorted, aux2, hcall, _, hperm, hsorted, hstable⟩ :=
    SortAndCountInversions_spec (hi - lo + 1) (samples.take lo) (samplesBetween samples lo hi)
      (samples.drop hi) aux lo hi hpre.symm (by omega) (by omega) haux h32 hlo32
  rw [take_run_drop samples lo hi hlo] at hcall
  have hcount : weightedInversions samples lo hi
      = runInversions (samplesBetween samples lo hi) := by
    have := weightedInversions_eq samples (hi - lo) lo (by omega)
    have hidx : lo + (hi - lo) = hi := by omega
    rw [hidx] at this
    exact this
  refine ⟨sorted, aux2, ?_, hperm, ?_, hstable⟩
  · intro fuel hfuel
    rw [hcount]
    exact SortAndCountInversions_fuel_le _ _ _ _ _ _ hcall fuel (by omega)
  · refine hsorted.imp ?_
    intro a b hab
    simpa [targetLE] using hab

theorem C36_sort_and_count_inversions_witness :
    (0 ≤ 5 ∧ 5 ≤ exampleSamples.length ∧ 5 < 2 ^ 32 ∧ 0 + 1 < 2 ^ 32) ∧
    (∃ (sorted aux2 : List TSample),
      (∀ fuel, 5 - 0 < fuel →
        SortAndCountInversions fuel 0 5 exampleSamples exampleSamples
          = some (weightedInversions exampleSamples 0 5,
              exampleSamples.take 0 ++ sorted ++ exampleSamples.drop 5, aux2)) ∧
      sorted.Perm (samplesBetween exampleSamples 0 5) ∧
      sorted.Pairwise (fun a b => a.Target ≤ b.Target) ∧
      ∀ t : ℚ, sorted.filter (fun sample => decide (sample.Target = t))
        = (samplesBetween exampleSamples 0 5).filter
            (fun sample => decide (sample.Target = t))) ∧
    (SortAndCountInversions 6 0 5 exampleSamples exampleSamples).map
        (fun out => (out.1, out.2.1))
      = some (20, [⟨0, 4, 3⟩, ⟨1, 1, 2⟩, ⟨1, 3, 1⟩, ⟨2, 2, 1⟩, ⟨3, 0, 1⟩]) :=
  ⟨⟨by decide, by decide, by decide, by decide⟩,
    C36_sort_and_count_inversions 0 5 exampleSamples exampleSamples (by decide) (by decide)
      (by decide) (by decide) (by decide),
    by with_unfolding_all decide⟩

/-- The bound on `lo` in the sort specification is needed: at `lo = hi = 2 ^ 32 - 1` the
sum `lo + 1` wraps to `0`, the test `lo + 1 >= hi` fails, `mid` is `lo`, and the first
nested call has the arguments of the call itself, so no amount of fuel gives a result. -/
theorem SortAndCountInversions_wraps (samples aux : List TSample) :
    ∀ fuel, SortAndCountInversions fuel (2 ^ 32 - 1) (2 ^ 32 - 1) samples aux = none := by
  intro fuel
  induction fuel with
  | zero => rfl
  | succ fuel ih =>
    have hshort : ¬ ui32 (2 ^ 32 - 1 + 1) ≥ 2 ^ 32 - 1 := by
      norm_num [ui32]
    have hmid : ui32 (2 ^ 32 - 1 + ui32 (2 ^ 32 - 1 + 2 ^ 32 - (2 ^ 32 - 1)) / 2)
        = 2 ^ 32 - 1 := by
      norm_num [ui32]
    rw [SortAndCountInversions, if_neg hshort]
    simp only [hmid, ih, Option.bind_eq_bind, Option.none_bind]

theorem TBucketStats.AddRounded_exact (s other : TBucketStats) :
    s.AddRounded some other = some (s.Add other) := rfl

theorem TBucketStats.RemoveRounded_exact (s other : TBucketStats) :
    s.RemoveRounded some other = some (s.Remove other) := rfl

/-- Without rounding the rounded kernel is `CalcStatsKernel`. -/
theorem CalcStatsKernelRounded_exact (isCaching : Bool) (singleIdx : List Nat)
    (fold : TCalcScoreFold) (isPlainMode : Bool) (indexer : TStatsIndexer) (depth : Nat)
    (bt : TBodyTail) (dim : Nat) (docIndexRange : TIndexRange) (stats : List TBucketStats) :
    CalcStatsKernelRounded some isCaching singleIdx fold isPlainMode indexer depth bt dim
        docIndexRange stats
      = CalcStatsKernel isCaching singleIdx fold isPlainMode indexer depth bt dim
        docIndexRange stats := rfl

/-- Without rounding the rounded `FixUpStats` is `FixUpStats`. -/
theorem FixUpStatsRounded_exact (depth : Nat) (indexer : TStatsIndexer)
    (selectedSplitValue : Bool) (stats : List TBucketStats) :
    FixUpStatsRounded some depth indexer selectedSplitValue stats
      = FixUpStats depth indexer selectedSplitValue stats := rfl

/-- Without rounding the rounded accumulation over partitions is `CalcStatsInPartitions`. -/
theorem CalcStatsInPartitionsRounded_exact (isCaching : Bool) (singleIdx : List Nat)
    (fold : TCalcScoreFold) (isPlainMode : Bool) (indexer : TStatsIndexer) (depth : Nat)
    (bt : TBodyTail) (dim : Nat) (ranges : List TIndexRange)
    (buffers : List (List TBucketStats)) :
    CalcStatsInPartitionsRounded some isCaching singleIdx fold isPlainMode indexer depth bt
        dim ranges buffers
      = CalcStatsInPartitions isCaching singleIdx fold isPlainMode indexer depth bt dim ranges
        buffers := rfl

theorem map_as_bind {α β : Type} (f : α → β) (x : Option α) :
    x.map f = x.bind (fun a => some (f a)) := by
  cases x <;> rfl

theorem UpdateScoresOneFeatureRounded_exact {σ : Type}
    (updateSplitScoreClosure : σ → TBucketStats → TBucketStats → Nat → Option σ)
    (stats : List TBucketStats) (indexer : TStatsIndexer) (splitType : ESplitType)
    (leaf : Int) (state : σ) :
    UpdateScoresOneFeatureRounded some updateSplitScoreClosure stats indexer splitType leaf
        state
      = UpdateScoresOneFeature updateSplitScoreClosure stats indexer splitType leaf state := by
  unfold UpdateScoresOneFeatureRounded UpdateScoresOneFeature
  simp only [map_as_bind]
  rfl

theorem UpdateScoresBinarySplitsRounded_exact {σ : Type}
    (updateSplitScoreClosure : σ → TBucketStats → TBucketStats → Nat → Option σ)
    (stats : List TBucketStats) (indexer : TStatsIndexer) (binaryFeaturesCount : Nat)
    (leaf : Int) (state : σ) :
    UpdateScoresBinarySplitsRounded some updateSplitScoreClosure stats indexer
        binaryFeaturesCount leaf state
      = UpdateScoresBinarySplits updateSplitScoreClosure stats indexer binaryFeaturesCount leaf
        state := rfl

theorem UpdateScoresExclusiveBundleRounded_exact {σ : Type}
    (updateSplitScoreClosure : σ → TBucketStats → TBucketStats → Nat → Option σ)
    (stats : List TBucketStats) (indexer : TStatsIndexer) (parts : List TExclusiveBundlePart)
    (useBundlePartForCalcScores : List Bool) (oneHotMaxSize : Nat) (leaf : Int) (state : σ) :
    UpdateScoresExclusiveBundleRounded some updateSplitScoreClosure stats indexer parts
        useBundlePartForCalcScores oneHotMaxSize leaf state
      = UpdateScoresExclusiveBundle updateSplitScoreClosure stats indexer parts
        useBundlePartForCalcScores oneHotMaxSize leaf state := by
  unfold UpdateScoresExclusiveBundleRounded UpdateScoresExclusiveBundle
  simp only [map_as_bind]
  rfl

/-- Without rounding the rounded `UpdateScores` is `UpdateScores`. -/
theorem UpdateScoresRounded_exact {σ : Type}
    (updateSplitScoreClosure : σ → TBucketStats → TBucketStats → Nat → Option σ)
    (stats : List TBucketStats) (leafCount : Int) (indexer : TStatsIndexer)
    (splitEnsembleSpec : TSplitEnsembleSpec) (oneHotMaxSize : Nat)
    (useForCalcScores : TExclusiveBundlePart → Nat → Bool) (getValueBitCount : Int → Nat)
    (state : σ) :
    UpdateScoresRounded some updateSplitScoreClosure stats leafCount indexer
        splitEnsembleSpec oneHotMaxSize useForCalcScores getValueBitCount state
      = UpdateScores updateSplitScoreClosure stats leafCount indexer splitEnsembleSpec
        oneHotMaxSize useForCalcScores getValueBitCount state := by
  unfold UpdateScoresRounded UpdateScores
  simp only [UpdateScoresOneFeatureRounded_exact, UpdateScoresBinarySplitsRounded_exact,
    UpdateScoresExclusiveBundleRounded_exact]

/-- The rounding on known values: the doubles nearest to `0.1` and `1/3`; the ties
`1 + 2^-53` and `1 + 3 * 2^-53`, which go to the even significands `1` and `1 + 2^-51`; a
negative number; the smallest subnormal number, and half of it, which goes to `0`; the
largest finite `double`, and the first number that rounds to infinity. -/
theorem toDouble_values :
    toDouble (1 / 10) = some (3602879701896397 / 2 ^ 55) ∧
    toDouble (1 / 3) = some (6004799503160661 / 2 ^ 54) ∧
    toDouble (1 + 1 / 2 ^ 53) = some 1 ∧
    toDouble (1 + 3 / 2 ^ 53) = some (1 + 1 / 2 ^ 51) ∧
    toDouble (-(7 / 10)) = some (-(3152519739159347 / 2 ^ 52)) ∧
    toDouble (1 / 2 ^ 1074) = some (1 / 2 ^ 1074) ∧
    toDouble (1 / 2 ^ 1075) = some 0 ∧
    toDouble (2 ^ 1024 - 2 ^ 970 - 1) = some (2 ^ 1024 - 2 ^ 971) ∧
    toDouble (2 ^ 1024 - 2 ^ 970) = none := by
  decide!

/-- The conversion to `float` on known values: the float nearest to `0.1`; `2^24 + 1`,
a tie that goes to `2^24`; the largest finite `float`, and the first number whose
conversion has no result. -/
theorem toFloat_values :
    toFloat (1 / 10) = some (13421773 / 2 ^ 27) ∧
    toFloat (2 ^ 24 + 1) = some (2 ^ 24) ∧
    toFloat (2 ^ 128 - 2 ^ 103 - 1) = some (2 ^ 128 - 2 ^ 104) ∧
    toFloat (2 ^ 128 - 2 ^ 103) = none := by
  decide!

/-- C7, counterexample in `double` arithmetic.  One bucket at depth 1, `selectedSplitValue`
true, with the parent weight `0.9` (the double `8106479329266893 / 2^53`) and the weight
`0.2` (the double `3602879701896397 / 2^54`) of the new half: `FixUpStats` leaves
`fl(0.9 - 0.2) = 3152519739159347 / 2^52` in slot 0 and `0.2` in slot 1, and the two do not
add up to the parent: their `double` sum is `0.8999999999999999`
(`2026619832316723 / 2^51`), and their exact sum is not the parent either. -/
theorem C7_halves_do_not_add_up_to_parent :
    toDouble (9 / 10) = some (8106479329266893 / 2 ^ 53) ∧
    toDouble (2 / 10) = some (3602879701896397 / 2 ^ 54) ∧
    FixUpStatsRounded toDouble 1 ⟨1⟩ true
        [⟨0, 8106479329266893 / 2 ^ 53, 0, 0⟩, ⟨0, 3602879701896397 / 2 ^ 54, 0, 0⟩]
      = some [⟨0, 3152519739159347 / 2 ^ 52, 0, 0⟩, ⟨0, 3602879701896397 / 2 ^ 54, 0, 0⟩] ∧
    (⟨0, 3152519739159347 / 2 ^ 52, 0, 0⟩ : TBucketStats).AddRounded toDouble
        ⟨0, 3602879701896397 / 2 ^ 54, 0, 0⟩
      = some ⟨0, 2026619832316723 / 2 ^ 51, 0, 0⟩ ∧
    (⟨0, 2026619832316723 / 2 ^ 51, 0, 0⟩ : TBucketStats)
      ≠ ⟨0, 8106479329266893 / 2 ^ 53, 0, 0⟩ ∧
    (⟨0, 3152519739159347 / 2 ^ 52, 0, 0⟩ : TBucketStats).Add
        ⟨0, 3602879701896397 / 2 ^ 54, 0, 0⟩
      ≠ ⟨0, 8106479329266893 / 2 ^ 53, 0, 0⟩ := by
  decide!

/-- C8, counterexample in `double` arithmetic.  One leaf with three buckets of weight `0.1`,
`0.2`, `0.3` (the doubles `3602879701896397 / 2^55`, `3602879701896397 / 2^54`,
`5404319552844595 / 2^54`) of a float feature: the call for candidate 0 gets `trueStats`
with the weight `0.5000000000000001` (`4503599627370497 / 2^53`), the leaf total
`fl(fl(0.1 + 0.2) + 0.3)` minus bucket 0, while the buckets 1 and 2 add up to `0.5`, as a
`double` sum and exactly. -/
theorem C8_true_side_is_not_the_bucket_sum :
    toDouble (1 / 10) = some (3602879701896397 / 2 ^ 55) ∧
    toDouble (2 / 10) = some (3602879701896397 / 2 ^ 54) ∧
    toDouble (3 / 10) = some (5404319552844595 / 2 ^ 54) ∧
    UpdateScoresRounded toDouble recordCall
        [⟨0, 3602879701896397 / 2 ^ 55, 0, 0⟩, ⟨0, 3602879701896397 / 2 ^ 54, 0, 0⟩,
          ⟨0, 5404319552844595 / 2 ^ 54, 0, 0⟩]
        1 ⟨3⟩ ⟨ESplitEnsembleType.OneFeature, ESplitType.FloatFeature, []⟩ 0 (fun _ _ => true)
        (fun _ => 0) []
      = some [(⟨0, 4503599627370497 / 2 ^ 53, 0, 0⟩, ⟨0, 3602879701896397 / 2 ^ 55, 0, 0⟩, 0),
          (⟨0, 5404319552844597 / 2 ^ 54, 0, 0⟩, ⟨0, 1351079888211149 / 2 ^ 52, 0, 0⟩, 1)] ∧
    (⟨0, 3602879701896397 / 2 ^ 54, 0, 0⟩ : TBucketStats).AddRounded toDouble
        ⟨0, 5404319552844595 / 2 ^ 54, 0, 0⟩ = some ⟨0, 1 / 2, 0, 0⟩ ∧
    (⟨0, 3602879701896397 / 2 ^ 54, 0, 0⟩ : TBucketStats).Add
        ⟨0, 5404319552844595 / 2 ^ 54, 0, 0⟩ = ⟨0, 1 / 2, 0, 0⟩ ∧
    (⟨0, 4503599627370497 / 2 ^ 53, 0, 0⟩ : TBucketStats) ≠ ⟨0, 1 / 2, 0, 0⟩ := by
  decide!

/-- C11, counterexample in `double` arithmetic.  One leaf, one float part with the buckets
`[0, 3)` of weight `1`, `2^-53`, `2^-53`, and the empty bucket 3 for "all absent".  The
part total is `fl(fl(1 + 2^-53) + 2^-53) = 1`, so the call for the local candidate 1 gets
`trueStats` with the weight `1 - 1 = 0`, while the buckets 1 and 2 add up to `2^-52`
(exactly, and as a `double` sum); for the local candidate 2 the weight is `-2^-53`, while
bucket 2 holds `2^-53`.  In exact arithmetic the calls carry `2^-52` and `2^-53`. -/
theorem C11_bundle_true_side_is_not_the_bucket_sum :
    UpdateScoresRounded toDouble recordCall
        [⟨0, 1, 0, 0⟩, ⟨0, 1 / 2 ^ 53, 0, 0⟩, ⟨0, 1 / 2 ^ 53, 0, 0⟩, ⟨0, 0, 0, 0⟩]
        1 ⟨4⟩
        ⟨ESplitEnsembleType.ExclusiveBundle, ESplitType.FloatFeature,
          [⟨EFeatureType.Float, ⟨0, 3⟩⟩]⟩ 0 (fun _ _ => true) (fun _ => 0) []
      = some [(⟨0, 1, 0, 0⟩, ⟨0, 0, 0, 0⟩, 0), (⟨0, 0, 0, 0⟩, ⟨0, 1, 0, 0⟩, 1),
          (⟨0, -1 / 2 ^ 53, 0, 0⟩, ⟨0, 1, 0, 0⟩, 2)] ∧
    (⟨0, 1 / 2 ^ 53, 0, 0⟩ : TBucketStats).AddRounded toDouble ⟨0, 1 / 2 ^ 53, 0, 0⟩
      = some ⟨0, 1 / 2 ^ 52, 0, 0⟩ ∧
    (⟨0, 0, 0, 0⟩ : TBucketStats) ≠ ⟨0, 1 / 2 ^ 52, 0, 0⟩ ∧
    UpdateScores recordCall
        [⟨0, 1, 0, 0⟩, ⟨0, 1 / 2 ^ 53, 0, 0⟩, ⟨0, 1 / 2 ^ 53, 0, 0⟩, ⟨0, 0, 0, 0⟩]
        1 ⟨4⟩
        ⟨ESplitEnsembleType.ExclusiveBundle, ESplitType.FloatFeature,
          [⟨EFeatureType.Float, ⟨0, 3⟩⟩]⟩ 0 (fun _ _ => true) (fun _ => 0) []
      = some [(⟨0, 1 + 1 / 2 ^ 52, 0, 0⟩, ⟨0, 0, 0, 0⟩, 0),
          (⟨0, 1 / 2 ^ 52, 0, 0⟩, ⟨0, 1, 0, 0⟩, 1),
          (⟨0, 1 / 2 ^ 53, 0, 0⟩, ⟨0, 1 + 1 / 2 ^ 53, 0, 0⟩, 2)] := by
  decide!

/-- C23, counterexample in `double` arithmetic.  Three documents with the sample weights
`1`, `2^-53`, `2^-53` in one bucket.  At depth 0 they are accumulated from scratch in one
partition: the weight of the slot is `fl(fl(1 + 2^-53) + 2^-53) = 1`.  At depth 1 all three
are on the smaller side; they are accumulated into the new half in the two partitions
`[0, 1)` and `[1, 3)`, whose sums `1` and `2^-52` are merged to `1 + 2^-52`, and
`FixUpStats` leaves the weight `1 - (1 + 2^-52) = -2^-52 < 0` in slot 0. -/
theorem C23_negative_weight_after_fix_up :
    (∀ w ∈ roundingFold.SampleWeights, 0 ≤ w ∧ toFloat w = some w) ∧
    CalcStatsInPartitionsRounded toDouble false [0, 0, 0] roundingFold true ⟨1⟩ 0
        roundingBodyTail 0 [⟨0, 3⟩] [[⟨7, 7, 7, 7⟩, ⟨7, 7, 7, 7⟩]]
      = some [⟨0, 1, 0, 0⟩, ⟨7, 7, 7, 7⟩] ∧
    CalcStatsInPartitionsRounded toDouble true [1, 1, 1] roundingFold true ⟨1⟩ 1
        roundingBodyTail 0 [⟨0, 1⟩, ⟨1, 3⟩]
        [[⟨0, 1, 0, 0⟩, ⟨7, 7, 7, 7⟩], [⟨7, 7, 7, 7⟩, ⟨7, 7, 7, 7⟩]]
      = some [⟨0, -1 / 2 ^ 52, 0, 0⟩, ⟨0, 1 + 1 / 2 ^ 52, 0, 0⟩] ∧
    (-1 / 2 ^ 52 : ℚ) < 0 := by
  decide!

end CatBoost
